import Mathlib

/-!
Verification development of libmorph.

Shallow embedding of the core of `libmorph` (the incrementally minimised
word automaton of `morphology/automat.c`, its compact reader
`morphology/miniautomat.c`, the suffix array of `textprocessor/suffix.c`, the
phrase search of `textprocessor/document.c` and the similarity score of
`morph.c`) together with theorems about it.

Conventions of the embedding.

* Memory is explicit.  A `State *` is a natural number (the address), the heap
  maps addresses to `State` records, `malloc` hands out the next unused address
  and `free` erases the record.  Dereferencing `NULL` or a freed address makes
  the embedded function return `none`.
* Recursive C functions whose termination depends on the shape of the heap take
  a fuel argument and return `none` when it is exhausted; the theorems show
  that the stated fuel suffices.
* Machine integers are natural numbers or integers, reduced modulo `2 ^ w`
  where the C type wraps.
-/

namespace Morph

/-! ## `morphology/automat.h`: data model -/

/-- `typedef wchar_t Label`: a 32-bit signed code on the supported platforms. -/
abbrev Label := Int

/-- `enum automate_state_markers`, `UNMARKED_STATE = 00`. -/
def UNMARKED_STATE : Nat := 0
/-- `enum automate_state_markers`, `FINAL_STATE = 01`. -/
def FINAL_STATE : Nat := 1
/-- `enum automate_state_markers`, `REGISTERED_STATE = 02`. -/
def REGISTERED_STATE : Nat := 2

/-- `struct transition`: a label and the address of the target state. -/
structure Transition where
  label : Label
  target : Nat
deriving DecidableEq, Repr

/-- `typedef ArrayList TransitionList`: the elements in insertion order. -/
abbrev TransitionList := List Transition

/-- `struct state`.  The fields `next` and `prev` are kept as the ring of the
automaton (`Automat.ring`); `_class` is written by `add_to_register` and never
read, so it is not represented. -/
structure State where
  transition_list : TransitionList
  id : Nat
  flags : Nat
deriving DecidableEq, Repr

/-- `struct class_transition_descriptor`: `(label, target_id)`. -/
abbrev class_transition_descriptor := Label × Nat

/-- The byte array produced by `state_description_key`: one byte `is_final`
followed by one fixed-width `class_transition_descriptor` per transition.  The
fixed-width byte image is kept as the value it encodes, so two keys are
byte-equal exactly when they are equal here. -/
abbrev Key := Nat × List class_transition_descriptor

/-- `struct equivalence_class`: the counter and the linked list of states. -/
structure EquivalenceClass where
  count : Nat
  state_list : List Nat
deriving DecidableEq, Repr

/-- `typedef HashTable *EquivalenceClassList`.  The chained hash table of
`common/hashtable.c` is kept as the association list of its links: a link is
found by hash, key size and key bytes, that is by equality of keys. -/
abbrev EquivalenceClassList := List (Key × EquivalenceClass)

/-- The `Automat` structure together with the memory its states live in.
`heap` and `allocated` are the allocator (`allocated` is the next unused
address), `ring` is the doubly linked ring of states read from `initial_state`
along `next`, and `class_list` is `none` once `complete_automat` has freed the
register. -/
structure Automat where
  heap : Nat → Option State
  allocated : Nat
  ring : List Nat
  initial_state : Nat
  last_state_id : Nat
  class_list : Option EquivalenceClassList

/-! ## `common/hashtable.c`, as used by the register -/

/-- `hash_table_chain_get`: the value stored under `key`, if any. -/
def hash_table_chain_get (table : EquivalenceClassList) (key : Key) : Option EquivalenceClass :=
  match table with
  | [] => none
  | (k, v) :: rest => if k = key then some v else hash_table_chain_get rest key

/-- `hash_table_chain_put`: overwrite the value of an existing link, or add a
new link. -/
def hash_table_chain_put (table : EquivalenceClassList) (key : Key) (value : EquivalenceClass) :
    EquivalenceClassList :=
  match table with
  | [] => [(key, value)]
  | (k, v) :: rest =>
    if k = key then (k, value) :: rest else (k, v) :: hash_table_chain_put rest key value

/-- `hash_table_chain_delete`: drop the link stored under `key`, if any. -/
def hash_table_chain_delete (table : EquivalenceClassList) (key : Key) : EquivalenceClassList :=
  match table with
  | [] => []
  | (k, v) :: rest => if k = key then rest else (k, v) :: hash_table_chain_delete rest key

/-! ## `morphology/automat.c`: equivalence classes, transitions, states -/

/-- `add_to_equivalence_class`: push the state on the list, count it. -/
def add_to_equivalence_class (_class : EquivalenceClass) (state : Nat) : EquivalenceClass :=
  { count := _class.count + 1, state_list := state :: _class.state_list }

/-- `remove_from_equivalence_class`: unlink the first item holding the state
(the counter is left as it is). -/
def remove_from_equivalence_class (_class : EquivalenceClass) (state : Nat) : EquivalenceClass :=
  { _class with state_list := _class.state_list.erase state }

/-- `is_empty_equivalence_class`. -/
def is_empty_equivalence_class (_class : EquivalenceClass) : Bool :=
  _class.state_list.isEmpty

/-- `any_state_from_class`: the head of the list, or `NULL`. -/
def any_state_from_class (_class : EquivalenceClass) : Option Nat :=
  _class.state_list.head?

/-- `find_transition`: linear search for the first transition with the label. -/
def find_transition (list : TransitionList) (label : Label) : Option Transition :=
  match list with
  | [] => none
  | t :: rest => if t.label = label then some t else find_transition rest label

/-- `last_transition`: the last element, or `NULL` for an empty list. -/
def last_transition (list : TransitionList) : Option Transition :=
  list.getLast?

/-- `extend_transition_list`: append `(label, to_state)`. -/
def extend_transition_list (list : TransitionList) (label : Label) (to_state : Nat) :
    TransitionList :=
  list ++ [{ label := label, target := to_state }]

/-- `transitions_count`. -/
def transitions_count (state : State) : Nat := state.transition_list.length

/-- `has_children`. -/
def has_children (state : State) : Bool := transitions_count state != 0

/-- `is_final_state`: `1` or `0`. -/
def is_final_state (state : State) : Nat :=
  if state.flags &&& FINAL_STATE != 0 then 1 else 0

/-- `is_marked_as_registered`. -/
def is_marked_as_registered (state : State) : Bool :=
  state.flags &&& REGISTERED_STATE != 0

/-- Store a state record at an address. -/
def Automat.store (automat : Automat) (p : Nat) (s : State) : Automat :=
  { automat with heap := fun q => if q = p then some s else automat.heap q }

/-- The ring after linking `new` behind `prev`. -/
def ring_insert_after (ring : List Nat) (prev new : Nat) : List Nat :=
  match ring with
  | [] => [new]
  | x :: rest => if x = prev then x :: new :: rest else x :: ring_insert_after rest prev new

/-- `make_state`: allocate a state with the given id, no transitions and no
marks, and link it into the ring behind `prev_state` (a ring of its own when
`prev_state` is `NULL`). -/
def make_state (automat : Automat) (id : Nat) (prev_state : Option Nat) : Automat × Nat :=
  let p := automat.allocated
  let s : State := { transition_list := [], id := id, flags := UNMARKED_STATE }
  let ring := match prev_state with
    | none => [p]
    | some prev => ring_insert_after automat.ring prev p
  ({ (automat.store p s) with allocated := p + 1, ring := ring }, p)

/-- `last_child`: the target of the last transition; dereferences `NULL` when
the state has no transition. -/
def last_child (automat : Automat) (state : Nat) : Option Nat := do
  let s ← automat.heap state
  let t ← last_transition s.transition_list
  pure t.target

/-- `set_last_child`: redirect the last transition. -/
def set_last_child (automat : Automat) (state child : Nat) : Option Automat := do
  let s ← automat.heap state
  let t ← last_transition s.transition_list
  pure (automat.store state
    { s with transition_list := s.transition_list.dropLast ++ [{ t with target := child }] })

/-- `mark_as_final`. -/
def mark_as_final (automat : Automat) (state : Nat) : Option Automat := do
  let s ← automat.heap state
  pure (automat.store state { s with flags := s.flags ||| FINAL_STATE })

/-- `mark_as_registered`. -/
def mark_as_registered (automat : Automat) (state : Nat) : Option Automat := do
  let s ← automat.heap state
  pure (automat.store state { s with flags := s.flags ||| REGISTERED_STATE })

/-- `append_new_state`: a fresh state reached from `to_state` by `label`. -/
def append_new_state (automat : Automat) (to_state : Nat) (label : Label) (id : Nat)
    (prev_state : Option Nat) : Option (Automat × Nat) := do
  let (automat, new_state) := make_state automat id prev_state
  let s ← automat.heap to_state
  pure (automat.store to_state
    { s with transition_list := extend_transition_list s.transition_list label new_state },
    new_state)

/-- `append_state`: a transition from `from_state` to an existing state. -/
def append_state (automat : Automat) (from_state to_state : Nat) (label : Label) :
    Option Automat := do
  let s ← automat.heap from_state
  pure (automat.store from_state
    { s with transition_list := extend_transition_list s.transition_list label to_state })

/-- The `qsort` of `state_description_key` with `transition_descriptor_comparer`:
ascending by label. -/
def sort_descriptors (l : List class_transition_descriptor) : List class_transition_descriptor :=
  l.insertionSort (fun a b => a.1 ≤ b.1)

/-- The descriptors `(label, target->id)` of a transition list, in list order. -/
def transition_descriptors (heap : Nat → Option State) :
    TransitionList → Option (List class_transition_descriptor)
  | [] => some []
  | t :: rest => do
    let target ← heap t.target
    let tail ← transition_descriptors heap rest
    pure ((t.label, target.id) :: tail)

/-- `state_description_key`: the final byte and the descriptors sorted by
label. -/
def state_description_key (automat : Automat) (state : Nat) : Option Key := do
  let s ← automat.heap state
  let descriptors ← transition_descriptors automat.heap s.transition_list
  pure (is_final_state s, sort_descriptors descriptors)

/-! ## `morphology/automat.c`: the automaton as a whole -/

/-- `make_automat`: one initial state with id 1 and an empty register. -/
def make_automat : Automat :=
  let empty : Automat :=
    { heap := fun _ => none, allocated := 0, ring := [], initial_state := 0,
      last_state_id := 0, class_list := none }
  let (a, p) := make_state empty 1 none
  { a with initial_state := p, last_state_id := 1, class_list := some [] }

/-- The loop of `common_prefix`: follow the word from `last_state` while a
transition matches, counting the matched labels. -/
def common_prefix_loop (heap : Nat → Option State) :
    List Label → Nat → Nat → Option (Nat × Nat)
  | [], prefix_size, last_state => some (prefix_size, last_state)
  | c :: word, prefix_size, last_state => do
    let s ← heap last_state
    match find_transition s.transition_list c with
    | some t => common_prefix_loop heap word (prefix_size + 1) t.target
    | none => some (prefix_size, last_state)

/-- `common_prefix`: `(prefix_size, first_state, last_state)`. -/
def common_prefix (automat : Automat) (word : List Label) : Option (Nat × Nat × Nat) := do
  let (prefix_size, last_state) ← common_prefix_loop automat.heap word 0 automat.initial_state
  pure (prefix_size, automat.initial_state, last_state)

/-- `add_to_register`: a new class under the key of the state, holding it. -/
def add_to_register (automat : Automat) (state : Nat) : Option Automat := do
  let class_key ← state_description_key automat state
  let class_list ← automat.class_list
  let _class : EquivalenceClass := { count := 0, state_list := [] }
  let _class := add_to_equivalence_class _class state
  pure { automat with class_list := some (hash_table_chain_put class_list class_key _class) }

/-- `find_equivalent`: any state of the class stored under the key of `state`;
the outer `Option` is failure, the inner one is `NULL`. -/
def find_equivalent (automat : Automat) (state : Nat) : Option (Option Nat) := do
  let class_key ← state_description_key automat state
  let class_list ← automat.class_list
  match hash_table_chain_get class_list class_key with
  | some _class => pure (any_state_from_class _class)
  | none => pure none

/-- `re_register_state`: take the state out of the class of its old key and put
it into the class of its present key. -/
def re_register_state (automat : Automat) (state : Nat) (old_class_key : Key) :
    Option Automat := do
  let class_list ← automat.class_list
  let _class ← hash_table_chain_get class_list old_class_key
  let _class := remove_from_equivalence_class _class state
  let class_list := hash_table_chain_put class_list old_class_key _class
  let class_list :=
    if is_empty_equivalence_class _class then hash_table_chain_delete class_list old_class_key
    else class_list
  let automat := { automat with class_list := some class_list }
  let class_key ← state_description_key automat state
  match hash_table_chain_get class_list class_key with
  | some _class =>
    pure { automat with
      class_list := some (hash_table_chain_put class_list class_key
        (add_to_equivalence_class _class state)) }
  | none => add_to_register automat state

/-- The loop of `add_suffix`: one new state per label, each linked into the
ring behind the initial state with the next id (a `uint32_t`). -/
def add_suffix_loop : Automat → Nat → List Label → Option (Automat × Nat)
  | automat, last_state, [] => some (automat, last_state)
  | automat, last_state, c :: suffix => do
    let id := (automat.last_state_id + 1) % 2 ^ 32
    let automat := { automat with last_state_id := id }
    let (automat, new_state) ←
      append_new_state automat last_state c id (some automat.initial_state)
    add_suffix_loop automat new_state suffix

/-- `add_suffix`: append the branch for `current_suffix` behind `last_state`,
mark its end final, and re-register the fork state if it was registered. -/
def add_suffix (automat : Automat) (last_state : Nat) (current_suffix : List Label) :
    Option Automat := do
  let forked_state := last_state
  let forked ← automat.heap forked_state
  let class_key ←
    if is_marked_as_registered forked then (state_description_key automat forked_state).map some
    else some none
  let (automat, last_state) ← add_suffix_loop automat last_state current_suffix
  let automat ← mark_as_final automat last_state
  let forked ← automat.heap forked_state
  if is_marked_as_registered forked then
    let key ← class_key
    re_register_state automat forked_state key
  else pure automat

/-- `delete_branch`: free the branch below `state` down to the first registered
states, unlinking each freed state from the ring. -/
def delete_branch : Nat → Automat → Nat → Option Automat
  | 0, _, _ => none
  | fuel + 1, automat, state => do
    let s ← automat.heap state
    if !is_marked_as_registered s then
      let automat ← s.transition_list.foldlM
        (fun a t => delete_branch fuel a t.target) automat
      let _ ← automat.heap state
      pure { automat with
        heap := fun q => if q = state then none else automat.heap q,
        ring := automat.ring.erase state }
    else pure automat

/-- The second half of `replace_or_register`, after the recursive call on the
child: look for a registered state equivalent to `child`; if there is one,
delete the branch of `child` and redirect the last transition of `state` to
it (re-registering `state` if it is registered), otherwise register `child`. -/
def replace_or_register_child (fuel : Nat) (automat : Automat) (state child : Nat) :
    Option Automat := do
  let equivalent ← find_equivalent automat child
  match equivalent with
  | some equivalent =>
    let s ← automat.heap state
    let class_key ←
      if is_marked_as_registered s then (state_description_key automat state).map some
      else some none
    let automat ← delete_branch (fuel + 1) automat child
    let automat ← set_last_child automat state equivalent
    let s ← automat.heap state
    if is_marked_as_registered s then
      let key ← class_key
      re_register_state automat state key
    else pure automat
  | none =>
    let automat ← add_to_register automat child
    mark_as_registered automat child

/-- `replace_or_register`: minimise below the last child of `state`.  The
recursion follows the last children, one unit of fuel per level. -/
def replace_or_register : Nat → Automat → Nat → Option Automat
  | 0, _, _ => none
  | fuel + 1, automat, state => do
    let child ← last_child automat state
    let c ← automat.heap child
    if !is_marked_as_registered c then
      let automat ←
        if has_children c then replace_or_register fuel automat child else some automat
      replace_or_register_child fuel automat state child
    else pure automat

/-- `automat_add_word`. -/
def automat_add_word (fuel : Nat) (automat : Automat) (word : List Label) : Option Automat := do
  let (prefix_size, _, last_state) ← common_prefix automat word
  let current_suffix := word.drop prefix_size
  let last ← automat.heap last_state
  let automat ←
    if has_children last then replace_or_register fuel automat last_state else some automat
  add_suffix automat last_state current_suffix

/-- `complete_automat`: minimise from the initial state and free the register. -/
def complete_automat (fuel : Nat) (automat : Automat) : Option Automat := do
  let automat ← replace_or_register fuel automat automat.initial_state
  let _ ← automat.class_list
  pure { automat with class_list := none }

/-- The words added one after the other to a fresh automaton. -/
def add_words (fuel : Nat) : Automat → List (List Label) → Option Automat
  | automat, [] => some automat
  | automat, w :: ws => do
    let automat ← automat_add_word fuel automat w
    add_words fuel automat ws

/-- `make_automat`, `automat_add_word` on each word in turn, `complete_automat`
(the body of `make_morphology_automat`). -/
def build_automat (fuel : Nat) (words : List (List Label)) : Option Automat := do
  let automat ← add_words fuel make_automat words
  complete_automat fuel automat

/-- A word is accepted when `common_prefix` consumes it whole and ends in a
final state. -/
def accepts (automat : Automat) (word : List Label) : Bool :=
  match common_prefix automat word with
  | some (prefix_size, _, last_state) =>
    match automat.heap last_state with
    | some s => prefix_size == word.length && is_final_state s == 1
    | none => false
  | none => false

end Morph

namespace Morph

/-! ## `common/datastruct.c`: the byte buffer in front of a file -/

/-- A sequence of bytes (each below 256). -/
abbrev Bytes := List Nat

/-- The `width` little-endian bytes of `n` modulo `256 ^ width`: the memory image
of an unsigned integer of that width. -/
def le_bytes : Nat → Nat → Bytes
  | 0, _ => []
  | width + 1, n => n % 256 :: le_bytes width (n / 256)

/-- The unsigned integer stored in little-endian bytes. -/
def le_value : Bytes → Nat
  | [] => 0
  | b :: bs => b + 256 * le_value bs

/-- The 32-bit two's complement image of a label (`wchar_t`). -/
def label_bits (l : Label) : Nat := (l % 2 ^ 32).toNat

/-- The label whose 32-bit two's complement image is `n`. -/
def label_of_bits (n : Nat) : Label := if n < 2 ^ 31 then (n : Int) else (n : Int) - 2 ^ 32

/-- `MemBuffer`: capacity `size`, the bytes in use (`used_space` is their
number), and the bytes already written to the file. -/
structure MemBuffer where
  size : Nat
  data : Bytes
  file : Bytes
deriving Repr

/-- `make_mem_buffer`. -/
def make_mem_buffer (size : Nat) : MemBuffer := { size := size, data := [], file := [] }

/-- `flush_mem_buffer`, the write succeeding. -/
def flush_mem_buffer (buffer : MemBuffer) : MemBuffer :=
  { buffer with file := buffer.file ++ buffer.data, data := [] }

/-- `mem_buffer_need_space`: flush when the request fits the capacity, grow
otherwise. -/
def mem_buffer_need_space (buffer : MemBuffer) (size : Nat) : MemBuffer :=
  if buffer.size - buffer.data.length ≥ size then buffer
  else if buffer.size ≥ size then flush_mem_buffer buffer
  else { buffer with size := buffer.data.length + size }

/-- `append_to_mem_buffer`. -/
def append_to_mem_buffer (buffer : MemBuffer) (data : Bytes) : MemBuffer :=
  let buffer := mem_buffer_need_space buffer data.length
  { buffer with data := buffer.data ++ data }

/-! ## `morphology/automat.c`: saving and loading -/

/-- The loop of `serialize_state` over the transitions: one
`class_transition_descriptor` (label, id of the target) per transition. -/
def serialize_transitions (heap : Nat → Option State) :
    TransitionList → MemBuffer → Option MemBuffer
  | [], buffer => some buffer
  | t :: rest, buffer => do
    let target ← heap t.target
    serialize_transitions heap rest
      (append_to_mem_buffer buffer (le_bytes 4 (label_bits t.label) ++ le_bytes 4 target.id))

/-- `serialize_state`: size of the description (8 bytes), id (4), final flag
(1), number of transitions (4), the transition descriptors (8 each). -/
def serialize_state (automat : Automat) (state : Nat) (buffer : MemBuffer) :
    Option MemBuffer := do
  let s ← automat.heap state
  let links_count := transitions_count s
  let result_size := (4 + 1 + 4 + links_count * 8) % 2 ^ 64
  let buffer := append_to_mem_buffer buffer (le_bytes 8 result_size)
  let buffer := append_to_mem_buffer buffer (le_bytes 4 s.id)
  let buffer := append_to_mem_buffer buffer [is_final_state s]
  let buffer := append_to_mem_buffer buffer (le_bytes 4 (links_count % 2 ^ 32))
  serialize_transitions automat.heap s.transition_list buffer

/-- The loop of `renumerate_states` along the ring. -/
def renumerate_loop : List Nat → Automat → Option Automat
  | [], automat => some automat
  | q :: rest, automat => do
    let s ← automat.heap q
    let automat := automat.store q { s with id := automat.last_state_id }
    renumerate_loop rest
      { automat with last_state_id := (automat.last_state_id + 1) % 2 ^ 32 }

/-- `renumerate_states`: the states get the ids 0, 1, 2, … in ring order from
the initial state; `last_state_id` ends as their number. -/
def renumerate_states (automat : Automat) : Option Automat :=
  renumerate_loop automat.ring { automat with last_state_id := 0 }

/-- The loop of `save_automat` along the ring. -/
def save_states (automat : Automat) : List Nat → MemBuffer → Option MemBuffer
  | [], buffer => some buffer
  | q :: rest, buffer => do
    let buffer ← serialize_state automat q buffer
    save_states automat rest buffer

/-- `save_automat`, the file being writable: the automaton with its states
renumbered and the bytes of the file. -/
def save_automat (automat : Automat) : Option (Automat × Bytes) := do
  let automat ← renumerate_states automat
  let states_count := automat.last_state_id
  let write_buffer := make_mem_buffer 8192
  let write_buffer := append_to_mem_buffer write_buffer (le_bytes 4 states_count)
  let write_buffer ← save_states automat automat.ring write_buffer
  let write_buffer := flush_mem_buffer write_buffer
  pure (automat, write_buffer.file)

/-- `fread` of `n` bytes: the bytes read (fewer at the end of the file) and the
rest of the file. -/
def fread (file : Bytes) (n : Nat) : Bytes × Bytes := (file.take n, file.drop n)

/-- The reading loop of `load_automat_process`: for each state the size of its
description and the description; a short read is an error. -/
def read_descriptions : Nat → Bytes → Option (List Bytes)
  | 0, _ => some []
  | count + 1, file =>
    let (size_bytes, file) := fread file 8
    if size_bytes.length ≠ 8 then none
    else
      let state_description_size := le_value size_bytes
      let (state_description, file) := fread file state_description_size
      if state_description.length ≠ state_description_size then none
      else (read_descriptions count file).map (fun l => state_description :: l)

/-- Read `n` bytes of a description at an offset; reading past its end is
outside the allocated block. -/
def read_at (description : Bytes) (offset n : Nat) : Option Bytes :=
  let bytes := (description.drop offset).take n
  if bytes.length = n then some bytes else none

/-- `deserialize_state`: a new state with the stored id, linked behind
`prev_state`, marked final if the stored flag is set. -/
def deserialize_state (automat : Automat) (data : Bytes) (prev_state : Option Nat) :
    Option (Automat × Nat) := do
  let state_id := le_value (← read_at data 0 4)
  let (automat, state) := make_state automat state_id prev_state
  let is_final := le_value (← read_at data 4 1)
  if is_final ≠ 0 then
    let automat ← mark_as_final automat state
    pure (automat, state)
  else pure (automat, state)

/-- The loop of `deserialize_state_transitions`. -/
def deserialize_transitions_loop (states_map : List Nat) (data : Bytes) (state : Nat) :
    Nat → Nat → Automat → Option Automat
  | 0, _, automat => some automat
  | count + 1, cursor, automat => do
    let label := label_of_bits (le_value (← read_at data cursor 4))
    let target_id := le_value (← read_at data (cursor + 4) 4)
    let target ← states_map[target_id]?
    let automat ← append_state automat state target label
    deserialize_transitions_loop states_map data state count (cursor + 8) automat

/-- `deserialize_state_transitions`: the transitions of the description, the
targets looked up by id in `states_map`. -/
def deserialize_state_transitions (automat : Automat) (state : Nat) (data : Bytes)
    (states_map : List Nat) : Option Automat := do
  let transitions_count := le_value (← read_at data 5 4)
  deserialize_transitions_loop states_map data state transitions_count 9 automat

/-- First pass of the deserialization in `load_automat_process`: the states,
each linked behind the previous one. -/
def load_states : List Bytes → Automat → Option Nat → Option (Automat × List Nat)
  | [], automat, _ => some (automat, [])
  | description :: rest, automat, state => do
    let (automat, state) ← deserialize_state automat description state
    let (automat, states_map) ← load_states rest automat (some state)
    pure (automat, state :: states_map)

/-- Second pass: the transitions of every state. -/
def load_transitions (states_map : List Nat) :
    List Bytes → List Nat → Automat → Option Automat
  | description :: rest, state :: states, automat => do
    let automat ← deserialize_state_transitions automat state description states_map
    load_transitions states_map rest states automat
  | _, _, automat => some automat

/-- `deserialize_automat`: `make_automat`, whose initial state is freed at
once, with `states_map[0]` as the initial state. -/
def deserialize_automat (automat : Automat) (states_map : List Nat) : Option Automat := do
  let initial ← states_map[0]?
  pure { automat with
    allocated := automat.allocated + 1, initial_state := initial, last_state_id := 1,
    class_list := some [] }

/-- The memory before anything is loaded. -/
def empty_memory : Automat :=
  { heap := fun _ => none, allocated := 0, ring := [], initial_state := 0,
    last_state_id := 0, class_list := none }

/-- `load_automat`: `load_automat_process` with full preload and the three
functions above; `none` is the `NULL` result or a fault. -/
def load_automat (file : Bytes) : Option Automat := do
  let (count_bytes, file) := fread file 4
  if count_bytes.length ≠ 4 then none
  else
    let states_count := le_value count_bytes
    let description_map ← read_descriptions states_count file
    let (automat, states_map) ← load_states description_map empty_memory none
    let automat ← load_transitions states_map description_map states_map automat
    deserialize_automat automat states_map

/-- Number of final states of the ring. -/
def count_final (automat : Automat) : Nat :=
  (automat.ring.filter (fun q =>
    match automat.heap q with
    | some s => is_final_state s == 1
    | none => false)).length

/-- Number of transitions of the states of the ring. -/
def count_transitions (automat : Automat) : Nat :=
  (automat.ring.map (fun q =>
    match automat.heap q with
    | some s => transitions_count s
    | none => 0)).sum

/-! ## `morphology/miniautomat.c`: the compact automaton -/

/-- `struct mini_transition`: label and index of the target state. -/
structure MiniTransition where
  label : Label
  target : Nat
deriving DecidableEq, Repr

/-- `MiniStateHeader` with the transitions stored behind it: `is_final` is an
`int8_t`, `transitions_count` a `uint8_t`; `transitions` is the whole array
that `decode_state` allocated and sorted. -/
structure MiniState where
  is_final : Nat
  transitions_count : Nat
  transitions : List MiniTransition
deriving DecidableEq, Repr

/-- `MiniAutomat`: the states, a state being named by its index. -/
structure MiniAutomat where
  states_count : Nat
  states : List MiniState
deriving Repr

/-- The loop of `decode_state` over the descriptors. -/
def decode_transitions (data : Bytes) : Nat → Nat → Option (List MiniTransition)
  | 0, _ => some []
  | count + 1, cursor => do
    let label := label_of_bits (le_value (← read_at data cursor 4))
    let target_id := le_value (← read_at data (cursor + 4) 4)
    let rest ← decode_transitions data count (cursor + 8)
    pure ({ label := label, target := target_id } :: rest)

/-- `decode_state`: the header and the transitions sorted by label
(`transitions_comparer`); the count is stored in eight bits. -/
def decode_state (data : Bytes) : Option MiniState := do
  let _state_id := le_value (← read_at data 0 4)
  let is_final := le_value (← read_at data 4 1)
  let transitions_count := le_value (← read_at data 5 4)
  let transitions ← decode_transitions data transitions_count 9
  pure { is_final := is_final, transitions_count := transitions_count % 2 ^ 8,
         transitions := transitions.insertionSort (fun a b => a.label ≤ b.label) }

/-- The streaming loop of `load_automat_process` for the compact automaton. -/
def decode_states : List Bytes → Option (List MiniState)
  | [] => some []
  | description :: rest => do
    let state ← decode_state description
    let states ← decode_states rest
    pure (state :: states)

/-- `load_mini_automat`: `load_automat_process` without preload, with
`decode_state`, `decode_transition` (which does nothing) and
`prepare_mini_automat`. -/
def load_mini_automat (file : Bytes) : Option MiniAutomat := do
  let (count_bytes, file) := fread file 4
  if count_bytes.length ≠ 4 then none
  else
    let states_count := le_value count_bytes
    let description_map ← read_descriptions states_count file
    let states ← decode_states description_map
    pure { states_count := states_count % 2 ^ 32, states := states }

/-- The binary search of `mini_find_transition` between `left` and `right`
(inclusive indices into the transitions); the outer `Option` is a fault, the
inner one is `NULL`. -/
def mini_find_loop (automat : MiniAutomat) (transitions : List MiniTransition) (label : Label) :
    Nat → Int → Int → Option (Option Nat)
  | 0, _, _ => none
  | fuel + 1, left, right => do
    let middle := left + (right - left) / 2
    let transition ← transitions[middle.toNat]?
    if transition.label = label then
      if transition.target < automat.states.length then some (some transition.target) else none
    else
      let (left, right) :=
        if transition.label < label then (middle + 1, right) else (left, middle - 1)
      if left ≤ right then mini_find_loop automat transitions label fuel left right
      else some none

/-- `mini_find_transition`: the state reached from `state` by `label`. -/
def mini_find_transition (automat : MiniAutomat) (state : Nat) (label : Label) :
    Option (Option Nat) := do
  let s ← automat.states[state]?
  if s.transitions_count > 0 then
    mini_find_loop automat s.transitions label s.transitions_count 0
      ((s.transitions_count : Int) - 1)
  else some none

/-- The loop of `mini_common_prefix`. -/
def mini_common_prefix_loop (automat : MiniAutomat) :
    List Label → Nat → Nat → Option (Nat × Nat)
  | [], prefix_size, last_state => some (prefix_size, last_state)
  | c :: word, prefix_size, last_state => do
    match ← mini_find_transition automat last_state c with
    | some target => mini_common_prefix_loop automat word (prefix_size + 1) target
    | none => some (prefix_size, last_state)

/-- `mini_common_prefix`: `(prefix_size, last_state)` from state 0. -/
def mini_common_prefix (automat : MiniAutomat) (word : List Label) : Option (Nat × Nat) := do
  let _ ← automat.states[0]?
  mini_common_prefix_loop automat word 0 0

/-- A word is accepted by the compact automaton when `mini_common_prefix`
consumes it whole and ends in a final state. -/
def mini_accepts (automat : MiniAutomat) (word : List Label) : Bool :=
  match mini_common_prefix automat word with
  | some (prefix_size, last_state) =>
    match automat.states[last_state]? with
    | some s => prefix_size == word.length && s.is_final != 0
    | none => false
  | none => false

end Morph

namespace Morph

/-! ## `textprocessor/suffix.c`: the suffix array -/

/-- `leq_pairs`: lexicographic order on pairs. -/
def leq_pairs (a1 a2 b1 b2 : Nat) : Bool :=
  a1 < b1 || (a1 == b1 && a2 ≤ b2)

/-- `leq_triples`: lexicographic order on triples. -/
def leq_triples (a1 a2 a3 b1 b2 b3 : Nat) : Bool :=
  a1 < b1 || (a1 == b1 && leq_pairs a2 a3 b2 b3)

/-- An `int32_t` array read at an index. -/
def at_index (a : List Nat) (i : Nat) : Nat := a.getD i 0

/-- First loop of `radixPass`: count the occurrences of every key. -/
def radix_count (keys : Nat → Nat) : List Nat → List Nat → List Nat
  | [], c => c
  | x :: source, c => radix_count keys source (c.set (keys x) (at_index c (keys x) + 1))

/-- Second loop of `radixPass`: exclusive prefix sums. -/
def radix_sums : List Nat → Nat → List Nat
  | [], _ => []
  | t :: c, sum => sum :: radix_sums c (sum + t)

/-- Third loop of `radixPass`: every element goes to the next free place of its
key. -/
def radix_scatter (keys : Nat → Nat) : List Nat → List Nat → List Nat → List Nat
  | [], _, target => target
  | x :: source, c, target =>
    radix_scatter keys source (c.set (keys x) (at_index c (keys x) + 1))
      (target.set (at_index c (keys x)) x)

/-- `radixPass`: the first `keys_count` elements of `source`, sorted stably by
`keys`, written to the front of `target`. -/
def radixPass (source target : List Nat) (keys : Nat → Nat) (keys_count alphabet_range : Nat) :
    List Nat :=
  let c := List.replicate (alphabet_range + 1) 0
  let c := radix_count keys (source.take keys_count) c
  let c := radix_sums c 0
  radix_scatter keys (source.take keys_count) c target

/-- The loop that finds the lexicographic names of the sorted triples: the
state is `(name, c0, c1, c2)` and the array `s12`. -/
def name_triples (s : List Nat) (n0 : Nat) :
    List Nat → Nat → Int → Int → Int → List Nat → Nat × List Nat
  | [], name, _, _, _, s12 => (name, s12)
  | x :: SA12, name, c0, c1, c2, s12 =>
    let differs := (at_index s x : Int) ≠ c0 ∨ (at_index s (x + 1) : Int) ≠ c1 ∨
      (at_index s (x + 2) : Int) ≠ c2
    let name := if differs then name + 1 else name
    let c0 := if differs then (at_index s x : Int) else c0
    let c1 := if differs then (at_index s (x + 1) : Int) else c1
    let c2 := if differs then (at_index s (x + 2) : Int) else c2
    let s12 := if x % 3 = 1 then s12.set (x / 3) name else s12.set (x / 3 + n0) name
    name_triples s n0 SA12 name c0 c1 c2 s12

/-- The loop `for i: s12[SA12[i]] = i + 1`. -/
def store_ranks : List Nat → Nat → List Nat → List Nat
  | [], _, s12 => s12
  | x :: SA12, i, s12 => store_ranks SA12 (i + 1) (s12.set x (i + 1))

/-- The loop `for i: SA12[s12[i] - 1] = i`. -/
def invert_names : List Nat → Nat → List Nat → List Nat
  | [], _, SA12 => SA12
  | x :: s12, i, SA12 => invert_names s12 (i + 1) (SA12.set (x - 1) i)

/-- `GetI()`: the text position of the entry `t` of `SA12`. -/
def GetI (SA12 : List Nat) (n0 t : Nat) : Nat :=
  if at_index SA12 t < n0 then at_index SA12 t * 3 + 1 else (at_index SA12 t - n0) * 3 + 2

/-- The merge loop of `suffix_array`; the result lists the values stored to
`SA[0]`, `SA[1]`, … in turn.  `fuel` bounds the number of rounds. -/
def merge_suffixes (s s12 SA12 SA0 : List Nat) (n0 n02 : Nat) :
    Nat → Nat → Nat → List Nat
  | 0, _, _ => []
  | fuel + 1, p, t =>
    let i := GetI SA12 n0 t
    let j := at_index SA0 p
    let smaller :=
      if at_index SA12 t < n0 then
        leq_pairs (at_index s i) (at_index s12 (at_index SA12 t + n0))
          (at_index s j) (at_index s12 (j / 3))
      else
        leq_triples (at_index s i) (at_index s (i + 1)) (at_index s12 (at_index SA12 t - n0 + 1))
          (at_index s j) (at_index s (j + 1)) (at_index s12 (j / 3 + n0))
    if smaller then
      if t + 1 = n02 then i :: (SA0.drop p).take (n0 - p)
      else i :: merge_suffixes s s12 SA12 SA0 n0 n02 fuel p (t + 1)
    else
      if p + 1 = n0 then
        j :: ((List.range' t (n02 - t)).map (fun t => GetI SA12 n0 t))
      else j :: merge_suffixes s s12 SA12 SA0 n0 n02 fuel (p + 1) t

/-- `suffix_array`: the suffix array of the `n` symbols of `s` (positive,
at most `K`, followed by three zeros).  One unit of fuel per level of the
recursion. -/
def suffix_array : Nat → List Nat → Nat → Nat → List Nat
  | 0, _, _, _ => []
  | fuel + 1, s, n, K =>
    let n0 := (n + 2) / 3
    let n1 := (n + 1) / 3
    let n2 := n / 3
    let n02 := n0 + n2
    let s12 := (List.range (n + (n0 - n1))).filter (fun i => i % 3 ≠ 0) ++ [0, 0, 0]
    let SA12 := List.replicate (n02 + 3) 0
    let SA12 := radixPass s12 SA12 (fun i => at_index s (i + 2)) n02 K
    let s12 := radixPass SA12 s12 (fun i => at_index s (i + 1)) n02 K
    let SA12 := radixPass s12 SA12 (fun i => at_index s i) n02 K
    let (name, s12) := name_triples s n0 (SA12.take n02) 0 (-1) (-1) (-1) s12
    let (s12, SA12) :=
      if name < n02 then
        let SA12 := suffix_array fuel s12 n02 name ++ [0, 0, 0]
        (store_ranks (SA12.take n02) 0 s12, SA12)
      else (s12, invert_names (s12.take n02) 0 SA12)
    let s0 := ((SA12.take n02).filter (fun x => x < n0)).map (fun x => 3 * x)
    let SA0 := radixPass s0 (List.replicate n0 0) (fun i => at_index s i) n0 K
    merge_suffixes s s12 SA12 SA0 n0 n02 n 0 (n0 - n1)

/-- `int_text_for_suffix_array`: the bytes as integers, three zeros appended. -/
def int_text_for_suffix_array (text : Bytes) : List Nat := text ++ [0, 0, 0]

/-- `text_to_suffix_array`.  The size is cast to `int32_t`; `none` stands for
the out-of-bounds accesses of `suffix_array` on a size that does not fit. -/
def text_to_suffix_array (text : Bytes) : Option (List Nat) :=
  if text.length < 2 then
    some (if text.length > 0 then [0] else [])
  else if text.length + 2 < 2 ^ 31 then
    some (suffix_array text.length (int_text_for_suffix_array text) text.length (2 ^ 8))
  else none

/-- `strncmp` on C strings given by their bytes before the terminating zero:
the sign of the first difference among the first `n` bytes, a string ending
where its bytes end. -/
def strncmp : Bytes → Bytes → Nat → Int
  | _, _, 0 => 0
  | s1, s2, n + 1 =>
    let c1 := s1.headD 0
    let c2 := s2.headD 0
    if c1 ≠ c2 then (c1 : Int) - (c2 : Int)
    else if c1 = 0 then 0
    else strncmp s1.tail s2.tail n

/-- The walk to the left in `find_with_suffix_array`. -/
def extend_left (sample : Bytes) (sample_length : Nat) (text : Bytes) (SA : List Nat) :
    Nat → Nat
  | 0 => 0
  | left + 1 =>
    if strncmp sample (text.drop (at_index SA left)) sample_length = 0 then
      extend_left sample sample_length text SA left
    else left + 1

/-- The walk to the right in `find_with_suffix_array`, `fuel` bounding the
number of steps. -/
def extend_right (sample : Bytes) (sample_length : Nat) (text : Bytes) (SA : List Nat)
    (text_length : Nat) : Nat → Nat → Nat
  | 0, right => right
  | fuel + 1, right =>
    if right + 1 < text_length ∧
        strncmp sample (text.drop (at_index SA (right + 1))) sample_length = 0 then
      extend_right sample sample_length text SA text_length fuel (right + 1)
    else right

/-- The binary search of `find_with_suffix_array` between `left` and `right`:
the indices into the suffix array of `start_suffix` and `end_suffix`, or the
inner `none` for `(NULL, NULL)`; the outer `none` is the fuel running out. -/
def find_loop (sample : Bytes) (sample_length : Nat) (text : Bytes) (text_length : Nat)
    (SA : List Nat) : Nat → Int → Int → Option (Option (Nat × Nat))
  | 0, _, _ => none
  | fuel + 1, left, right =>
    let item := (left + (right - left) / 2).toNat
    let compare_result := strncmp sample (text.drop (at_index SA item)) sample_length
    if compare_result = 0 then
      some (some (extend_left sample sample_length text SA item,
        extend_right sample sample_length text SA text_length text_length item))
    else
      let (left, right) :=
        if compare_result < 0 then (left, (item : Int) - 1) else ((item : Int) + 1, right)
      if left ≤ right then find_loop sample sample_length text text_length SA fuel left right
      else some none

/-- `find_with_suffix_array`. -/
def find_with_suffix_array (sample : Bytes) (sample_length : Nat) (text : Bytes)
    (text_length : Nat) (SA : List Nat) : Option (Option (Nat × Nat)) :=
  if text_length > 0 then
    find_loop sample sample_length text text_length SA text_length 0 ((text_length : Int) - 1)
  else some none

end Morph

namespace Morph

/-! ## `common/datastruct.c`: the set of strings -/

/-- `StringSet`: the stored strings in array order. -/
abbrev StringSet := List Bytes

/-- The binary search of `position_for_string`: the inner `none` is the result
`-1` (string taken as present), otherwise the place of insertion; the outer
`none` is the fuel running out. -/
def position_for_string_loop (set : StringSet) (string : Bytes) (length : Nat) :
    Nat → Int → Int → Option (Option Nat)
  | 0, _, _ => none
  | fuel + 1, left, right =>
    let item := (left + (right - left) / 2).toNat
    let compare_result := strncmp string (set.getD item []) length
    if compare_result = 0 then some none
    else
      let (left', right') :=
        if compare_result < 0 then (left, (item : Int) - 1) else ((item : Int) + 1, right)
      if left' ≤ right' then position_for_string_loop set string length fuel left' right'
      else some (some (if compare_result < 0 then item else left'.toNat))

/-- `position_for_string`. -/
def position_for_string (set : StringSet) (string : Bytes) (length : Nat) :
    Option (Option Nat) :=
  position_for_string_loop set string length (set.length + 1) 0 ((set.length : Int) - 1)

/-- `add_to_string_set`: the set and the result (`true` when the string was
added). -/
def add_to_string_set (set : StringSet) (string : Bytes) (length : Nat) :
    Option (StringSet × Bool) :=
  if set.length = 0 then some ([string], true)
  else do
    match ← position_for_string set string length with
    | some position => pure (set.take position ++ [string] ++ set.drop position, true)
    | none => pure (set, false)

/-! ## `textprocessor/document.c`: the document and the phrase search -/

/-- `WORD_DESCRIPTION_TERMINATOR`, the byte `'.'`. -/
def WORD_DESCRIPTION_TERMINATOR : Nat := 46

/-- Conversion to `int32_t` (and to `int`): the value modulo `2 ^ 32` in two's
complement. -/
def to_int32 (x : Int) : Int := (x + 2 ^ 31) % 2 ^ 32 - 2 ^ 31

/-- `WordRange`. -/
structure WordRange where
  word_index : Int
  start_position : Int
  end_position : Int
  original_start : Int
deriving DecidableEq, Repr

/-- What the tokenizer and `multilang_word_description` give for one word: the
size of the token in bytes and its description `lemma1.lemma2.….word.`. -/
structure DescribedWord where
  token_size : Nat
  description : Bytes
deriving DecidableEq, Repr

/-- The loop of `build_text_with_ranges` over the described words: the state is
the text so far, the ranges so far, `cursor` and `words_counter`. The two
counters and the fields of a range are `int32_t`: `description_size` (a
`size_t`) and `token_size` are cast to `int32_t` and every sum and difference
is taken in `int32_t`. -/
def build_text_loop : List DescribedWord → Bytes → List WordRange → Int → Int →
    Bytes × List WordRange
  | [], text, ranges, _, _ => (text, ranges)
  | w :: rest, text, ranges, cursor, words_counter =>
    let first := words_counter = 0
    let description := if first then WORD_DESCRIPTION_TERMINATOR :: w.description
      else w.description
    let description_size : Nat := description.length
    let start_position := if first then cursor else to_int32 (cursor - 1)
    let end_position := to_int32 (to_int32 (cursor + to_int32 description_size) - 1)
    let range : WordRange :=
      { word_index := words_counter, start_position := start_position,
        end_position := end_position,
        original_start := to_int32 (to_int32 (end_position - to_int32 w.token_size) - 1) }
    build_text_loop rest (text ++ description) (ranges ++ [range])
      (to_int32 (cursor + to_int32 description_size)) (to_int32 (words_counter + 1))

/-- `build_text_with_ranges` on the described words of the source text. -/
def build_text_with_ranges (words : List DescribedWord) : Bytes × List WordRange :=
  build_text_loop words [] [] 0 0

/-- The parts of a document that the search reads. -/
structure Document where
  text : Bytes
  suffix_array : List Nat
  ranges : List WordRange
deriving Repr

/-- `make_document` on the described words. -/
def make_document (words : List DescribedWord) : Option Document := do
  let (text, ranges) := build_text_with_ranges words
  let suffix_array ← text_to_suffix_array text
  pure { text := text, suffix_array := suffix_array, ranges := ranges }

/-- `range_searcher`. -/
def range_searcher (position : Int) (range : WordRange) : Int :=
  if position < range.start_position then -1
  else if position > range.end_position - 1 then 1
  else 0

/-- `bsearch` of the C library with `range_searcher`: the index of a matching
record, or `none`. -/
def bsearch_ranges (ranges : List WordRange) (position : Int) : Nat → Nat → Nat → Option Nat
  | 0, _, _ => none
  | fuel + 1, lower, upper =>
    if lower < upper then
      let index := (lower + upper) / 2
      match ranges[index]? with
      | none => none
      | some range =>
        let comparison := range_searcher position range
        if comparison < 0 then bsearch_ranges ranges position fuel lower index
        else if comparison > 0 then bsearch_ranges ranges position fuel (index + 1) upper
        else some index
    else none

/-- `find_word_range`: the index of the range holding the position. -/
def find_word_range (ranges : List WordRange) (position : Int) : Option Nat :=
  bsearch_ranges ranges position (ranges.length + 1) 0 ranges.length

/-- `suffix_in_allowed_ranges`: the first allowed range (an index into the
ranges, possibly one past the end) that holds the suffix.  The outer `Option`
is a fault (a `NULL` entry), the inner one the `NULL` result. -/
def suffix_in_allowed_ranges (suffix : Int) (ranges : List WordRange) :
    List (Option Nat) → Option (Option Nat)
  | [] => some none
  | none :: _ => none
  | some range :: allowed_ranges =>
    if range ≥ ranges.length then suffix_in_allowed_ranges suffix ranges allowed_ranges
    else
      match ranges[range]? with
      | none => none
      | some r =>
        if suffix ≥ r.start_position ∧ suffix < r.end_position then some (some range)
        else suffix_in_allowed_ranges suffix ranges allowed_ranges

/-- The inner loop of `find_lemmas_in_document` over the suffixes found for one
lemma. -/
def collect_ranges (document : Document) (is_first_lemma : Bool) :
    List Nat → List (Option Nat) → List (Option Nat) →
      Option (List (Option Nat) × List (Option Nat))
  | [], allowed_ranges, result_ranges => some (allowed_ranges, result_ranges)
  | current_suffix :: rest, allowed_ranges, result_ranges => do
    let (range, allowed_ranges) ←
      if !is_first_lemma then
        (suffix_in_allowed_ranges current_suffix document.ranges allowed_ranges).map
          (fun r => (r, allowed_ranges))
      else
        let r := find_word_range document.ranges current_suffix
        some (r, allowed_ranges ++ [r])
    let result_ranges :=
      match range with
      | some r => result_ranges ++ [some (r + 1)]
      | none => result_ranges
    collect_ranges document is_first_lemma rest allowed_ranges result_ranges

/-- The offset of the first terminator at or after `from`, as `strchr` finds
it. -/
def find_terminator (description : Bytes) (start : Nat) : Option Nat :=
  ((description.drop start).indexOf? WORD_DESCRIPTION_TERMINATOR).map (fun k => start + k)

/-- The loop of `find_lemmas_in_document` over the lemmas of a description;
`lemma_start` is an offset into the description. -/
def find_lemmas_loop (document : Document) (description : Bytes) (is_first_lemma : Bool) :
    Nat → Nat → List (Option Nat) → List (Option Nat) →
      Option (List (Option Nat) × List (Option Nat))
  | 0, _, _, _ => none
  | fuel + 1, lemma_start, allowed_ranges, result_ranges => do
    let next_lemma ← find_terminator description (lemma_start + 1)
    let sample :=
      if lemma_start = 0 then
        WORD_DESCRIPTION_TERMINATOR :: (description.take (next_lemma + 1))
      else (description.drop lemma_start).take (next_lemma - lemma_start + 1)
    let found ← find_with_suffix_array sample sample.length document.text document.text.length
      document.suffix_array
    let (allowed_ranges, result_ranges) ←
      match found with
      | some (start_suffix, end_suffix) =>
        collect_ranges document is_first_lemma
          (((document.suffix_array.drop start_suffix).take (end_suffix + 1 - start_suffix)))
          allowed_ranges result_ranges
      | none => some (allowed_ranges, result_ranges)
    if description.getD (next_lemma + 1) 0 ≠ 0 then
      find_lemmas_loop document description is_first_lemma fuel next_lemma allowed_ranges
        result_ranges
    else some (allowed_ranges, result_ranges)

/-- `find_lemmas_in_document`. -/
def find_lemmas_in_document (document : Document) (description : Bytes)
    (allowed_ranges result_ranges : List (Option Nat)) :
    Option (List (Option Nat) × List (Option Nat)) :=
  find_lemmas_loop document description (allowed_ranges.length = 0) (description.length + 1) 0
    allowed_ranges result_ranges

/-- The loop of `document_find_intersection` over the tokens of the phrase:
`(allowed_ranges, tokens_count)` at its end. -/
def intersection_tokens (document : Document) (exact_match : Bool) :
    List DescribedWord → List (Option Nat) → List (Option Nat) → Nat →
      Option (List (Option Nat) × Nat)
  | [], allowed_ranges, _, tokens_count => some (allowed_ranges, tokens_count)
  | token :: rest, allowed_ranges, _, tokens_count =>
    if tokens_count > 0 ∧ allowed_ranges.length = 0 then some (allowed_ranges, tokens_count)
    else do
      let description :=
        if exact_match then
          token.description.drop (token.description.length - token.token_size - 1)
        else token.description
      let (allowed_ranges, result_ranges) ←
        find_lemmas_in_document document description allowed_ranges []
      intersection_tokens document exact_match rest result_ranges allowed_ranges
        (tokens_count + 1)

/-- The line rebuilt for one result: the original forms of `tokens_count`
ranges starting at `range`, separated by single spaces. -/
def rebuild_line (document : Document) : Nat → Int → Option Bytes
  | 0, _ => some []
  | k + 1, range => do
    if range < 0 then none
    let r ← document.ranges[range.toNat]?
    let form := (document.text.drop (r.original_start + 1).toNat).take
      (r.end_position - r.original_start - 1).toNat
    let rest ← rebuild_line document k (range + 1)
    pure (if k = 0 then form else form ++ [32] ++ rest)

/-- The loop that collects the results of `document_find_intersection`. -/
def collect_results (document : Document) (tokens_count : Nat) :
    List (Option Nat) → StringSet → Option StringSet
  | [], result => some result
  | none :: _, _ => none
  | some range :: rest, result => do
    let line ← rebuild_line document tokens_count ((range : Int) - 1 - tokens_count + 1)
    let (result, _) ← add_to_string_set result line line.length
    collect_results document tokens_count rest result

/-- `document_find_intersection` on the described tokens of the phrase: the
result set after the call. -/
def document_find_intersection (document : Document) (phrase : List DescribedWord)
    (exact_match : Bool) (result : StringSet) : Option StringSet := do
  let (allowed_ranges, tokens_count) ← intersection_tokens document exact_match phrase [] [] 0
  collect_results document tokens_count allowed_ranges result

/-! ## `morph.c`: the similarity score -/

/-- The loop `i += strlen(result)` over the results of the tokens of the search
text, `i` an `int`. -/
def accumulate_results : List Nat → Int → Int
  | [], i => i
  | length :: rest, i => accumulate_results rest (to_int32 (i + length))

/-- `morph_doc_intersect_doc`: `doc_len` and `search_len` are the `len` fields
of the two documents, `results` the lengths of the results of
`document_find_multi_intersection` for the tokens of the search text.  A
`double` is kept as the rational number it stands for. -/
def morph_doc_intersect_doc (doc_len search_len : Nat) (results : List Nat) : ℚ :=
  let i := accumulate_results results 0
  if search_len > doc_len then 0
  else if (i : ℚ) ≥ (doc_len : ℚ) then 1
  else (i : ℚ) / (doc_len : ℚ)

/-- `morph_doc_intersect_doc2`: the same without the length guard. -/
def morph_doc_intersect_doc2 (doc_len : Nat) (results : List Nat) : ℚ :=
  let i := accumulate_results results 0
  if (i : ℚ) ≥ (doc_len : ℚ) then 1
  else (i : ℚ) / (doc_len : ℚ)

end Morph

namespace Morph

/-! ## `morphology/wordforms.c`: known prefixes -/

/-- `wcsncmp` on wide strings given by their characters before the terminating
zero: the sign of the first difference among the first `n` characters. -/
def wcsncmp : List Label → List Label → Nat → Int
  | _, _, 0 => 0
  | s1, s2, n + 1 =>
    let c1 := s1.headD 0
    let c2 := s2.headD 0
    if c1 ≠ c2 then (if c1 < c2 then -1 else 1)
    else if c1 = 0 then 0
    else wcsncmp s1.tail s2.tail n

/-- The `for` loop of `word_has_known_prefix` over the known prefixes; `again`
is the recursive call of the function. -/
def known_prefixes_loop (again : List Label → Nat → Option Bool) (word : List Label)
    (prefix_size : Nat) : List (List Label) → Option Bool
  | [] => some false
  | test_prefix :: rest =>
    let test_prefix_length := test_prefix.length
    if test_prefix_length = prefix_size then
      if wcsncmp test_prefix word test_prefix_length = 0 then some true
      else known_prefixes_loop again word prefix_size rest
    else if test_prefix_length < prefix_size then
      if wcsncmp test_prefix word test_prefix_length = 0 then
        again (word.drop test_prefix_length) (prefix_size - test_prefix_length)
      else known_prefixes_loop again word prefix_size rest
    else known_prefixes_loop again word prefix_size rest

/-- `word_has_known_prefix`: `word` holds the characters from the pointer on.
One unit of fuel per level of the recursion; `none` when it runs out. -/
def word_has_known_prefix : Nat → List Label → Nat → List (List Label) → Option Bool
  | 0, _, _, _ => none
  | fuel + 1, word, prefix_size, known_prefixes =>
    known_prefixes_loop (fun w p => word_has_known_prefix fuel w p known_prefixes) word
      prefix_size known_prefixes

/-! ## `common/strtools.c`: reversal and garbage words -/

/-- The `do … while (start < end)` loop of `wcssubreverse` on the buffer, the
pointers kept as indices; `stop` is the pointer `end` after `end--`. -/
def wcssubreverse_loop : Nat → List Label → Nat → Nat → List Label
  | 0, buffer, _, _ => buffer
  | fuel + 1, buffer, start, stop =>
    let buf := buffer.getD start 0
    let buffer := buffer.set start (buffer.getD stop 0)
    let buffer := buffer.set stop buf
    if start + 2 < stop then wcssubreverse_loop fuel buffer (start + 1) (stop - 1)
    else buffer

/-- `wcssubreverse`: reverse the characters from `start` up to, not including,
`stop` in place. -/
def wcssubreverse (buffer : List Label) (start stop : Nat) : List Label :=
  if start ≠ stop then wcssubreverse_loop buffer.length buffer start (stop - 1) else buffer

/-- `is_garbage_word`: some character among the first `length` is neither
alphabetic (`iswalpha` of the C library, a parameter) nor found by `wcsrchr`
in `-`, apostrophe, backquote and the terminating zero. -/
def is_garbage_word (iswalpha : Label → Bool) (word : List Label) (length : Nat) : Bool :=
  (word.take length).any (fun c => !(iswalpha c || c = 45 || c = 39 || c = 96 || c = 0))

/-! ## `morphology/helpers.c`, `morphology/multilang.c`: the language of a word -/

/-- `mini_common_prefix_size`. -/
def mini_common_prefix_size (automat : MiniAutomat) (word : List Label) : Option Nat := do
  let (prefix_size, _) ← mini_common_prefix automat word
  pure prefix_size

/-- `known_part_of_word`: the length of the part of the word, from its end,
that the automaton of the morphology knows. -/
def known_part_of_word (automat : MiniAutomat) (word : List Label) (word_length : Nat) :
    Option Nat :=
  let reversed_word := word.take word_length
  let reversed_word := wcssubreverse reversed_word 0 word_length
  mini_common_prefix_size automat reversed_word

/-- The loop of `detect_language` over the languages, each given by the
automaton of its morphology; `i` is the index of the head of the list.  The
inner `none` is `NULL`, the outer one a fault inside `known_part_of_word`. -/
def detect_language_loop (word : List Label) (word_length : Nat) :
    List MiniAutomat → Nat → Nat → Option Nat → Option (Option Nat)
  | [], _, _, result => some result
  | language :: languages, i, max_known, result => do
    let known_length ← known_part_of_word language word word_length
    if known_length = word_length then some (some i)
    else if known_length > max_known then
      detect_language_loop word word_length languages (i + 1) known_length (some i)
    else detect_language_loop word word_length languages (i + 1) max_known result

/-- `detect_language`: the index of the dictionary of the word, or `NULL`. -/
def detect_language (iswalpha : Label → Bool) (languages : List MiniAutomat)
    (word : List Label) (word_length : Nat) : Option (Option Nat) :=
  if !is_garbage_word iswalpha word word_length then
    detect_language_loop word word_length languages 0 0 none
  else some none

end Morph

namespace Morph

/-! ## `common/hashtable.c`: the chained hash table with a FIFO limit

The functions below live in the namespace of the structure `HashTable`; the
register of the automaton keeps the association-list view declared with
`EquivalenceClassList`. -/

/-- `NO_FIFO_LIMIT`, `(size_t)-1`. -/
def NO_FIFO_LIMIT : Nat := 2 ^ 64 - 1

/-- `hash_of_key`: every branch of the function (bytes before the first aligned
word, the words, the tail) performs `hash = hash * seed + byte` on the bytes in
order, in `uint32_t`. -/
def hash_of_key (key : Bytes) : Nat :=
  key.foldl (fun hash byte => (hash * 19780211 + byte) % 2 ^ 32) 0

/-- `struct hash_table_chain_link` without its four pointers to other links:
`next` and `prev` are kept as the ring of the cell, `early_added` and
`later_added` as the list `HashTable.added`.  A `NULL` value is `none`. -/
structure hash_table_chain_link (α : Type) where
  value : Option α
  key : Bytes
  key_size : Nat
  hash : Nat

/-- `struct hash_table` together with the memory its links live in.  `heap` and
`allocated` are the allocator, `bucket` holds for every cell the ring of its
links read from the head of the cell along `next`, `added` the links read from
`first_added` along `later_added` up to `last_added`.  `on_push_out` tells
whether a callback is set, and `pushed_out` lists the calls made to it. -/
structure HashTable (α : Type) where
  heap : Nat → Option (hash_table_chain_link α)
  allocated : Nat
  bucket : List (List Nat)
  added : List Nat
  size_power : Nat
  size : Nat
  total_stored : Nat
  load : Nat
  fifo_limit : Nat
  on_push_out : Bool
  pushed_out : List (Bytes × Nat × Option α)

namespace HashTable

variable {α : Type}

/-- `make_hash_table`: `2 ^ size_power` empty cells.  The size is computed as
`1U << size_power`, which is undefined from 32 on. -/
def make_hash_table (size_power : Nat) : Option (HashTable α) :=
  if size_power < 32 then
    some
      { heap := fun _ => none, allocated := 0,
        bucket := List.replicate (2 ^ size_power) [], added := [],
        size_power := size_power, size := 2 ^ size_power, total_stored := 0, load := 0,
        fifo_limit := NO_FIFO_LIMIT, on_push_out := false, pushed_out := [] }
  else none

/-- `hash_table_fifo_limit`. -/
def hash_table_fifo_limit (table : HashTable α) (limit : Nat) (on_push_out : Bool) :
    HashTable α :=
  { table with fifo_limit := limit, on_push_out := on_push_out }

/-- `BUCKET_INDEX`. -/
def BUCKET_INDEX (hash bucket_size : Nat) : Nat := hash % bucket_size

/-- `make_chain_link`: allocate a link and make it the head of the ring of the
cell. -/
def make_chain_link (table : HashTable α) (bucket_item : Nat) (key : Bytes) (hash : Nat)
    (value : Option α) : HashTable α × Nat :=
  let link := table.allocated
  let record : hash_table_chain_link α :=
    { value := value, key := key, key_size := key.length, hash := hash }
  ({ table with
      heap := fun p => if p = link then some record else table.heap p,
      allocated := link + 1,
      bucket := table.bucket.set bucket_item (link :: table.bucket.getD bucket_item []) }, link)

/-- `drop_table_chain_link`: unlink the link from the ring of its cell and from
the list of insertion, free it, and return its value. -/
def drop_table_chain_link (table : HashTable α) (link : Nat) (bucket_item : Nat) :
    Option (HashTable α × Option α) := do
  let record ← table.heap link
  let ring ← table.bucket[bucket_item]?
  let table :=
    if ring.head? = some link then
      if ring.tail = [] then
        { table with
            bucket := table.bucket.set bucket_item [],
            load := (table.load + 2 ^ 64 - 1) % 2 ^ 64 }
      else { table with bucket := table.bucket.set bucket_item ring.tail }
    else { table with bucket := table.bucket.set bucket_item (ring.erase link) }
  pure
    ({ table with
        added := table.added.erase link,
        heap := fun p => if p = link then none else table.heap p,
        total_stored := (table.total_stored + 2 ^ 64 - 1) % 2 ^ 64 }, record.value)

/-- `ensure_fifo_limit`: while the table holds `fifo_limit` items or more, call
`on_push_out` on the item added first and drop it.  One unit of fuel per
round. -/
def ensure_fifo_limit : Nat → HashTable α → Option (HashTable α)
  | 0, _ => none
  | fuel + 1, table =>
    if table.fifo_limit ≠ NO_FIFO_LIMIT ∧ table.total_stored ≥ table.fifo_limit then do
      let deleting_item ← table.added.head?
      let record ← table.heap deleting_item
      let integer_key := hash_of_key record.key
      if !table.on_push_out then none
      let table :=
        { table with
            pushed_out := table.pushed_out ++ [(record.key, record.key_size, record.value)] }
      let (table, _) ← drop_table_chain_link table deleting_item
        (BUCKET_INDEX integer_key table.size)
      ensure_fifo_limit fuel table
    else some table

/-- `hash_table_get_link`: the first link of the ring with the hash, the size
and the bytes of the key; the inner `none` is `NULL`. -/
def hash_table_get_link (table : HashTable α) (key : Bytes) (hash : Nat) :
    List Nat → Option (Option Nat)
  | [] => some none
  | link :: ring => do
    let record ← table.heap link
    if record.hash = hash ∧ record.key_size = key.length ∧
        record.key.take key.length = key then some (some link)
    else hash_table_get_link table key hash ring

/-- `hash_table_get_always`: the link of the key, inserted with a `NULL` value
when the key is not in the table. -/
def hash_table_get_always (table : HashTable α) (key : Bytes) : Option (HashTable α × Nat) := do
  let hash := hash_of_key key
  let bucket_item := BUCKET_INDEX hash table.size
  let ring ← table.bucket[bucket_item]?
  match ← hash_table_get_link table key hash ring with
  | some link => pure (table, link)
  | none =>
    let table ← ensure_fifo_limit (table.total_stored + 1) table
    let ring ← table.bucket[bucket_item]?
    let table := if ring = [] then { table with load := (table.load + 1) % 2 ^ 64 } else table
    let (table, link) := make_chain_link table bucket_item key hash none
    pure
      ({ table with
          added := table.added ++ [link],
          total_stored := (table.total_stored + 1) % 2 ^ 64 }, link)

/-- `hash_table_chain_put`. -/
def hash_table_chain_put (table : HashTable α) (key : Bytes) (value : Option α) :
    Option (HashTable α) := do
  let (table, item) ← hash_table_get_always table key
  let record ← table.heap item
  pure { table with
    heap := fun p => if p = item then some { record with value := value } else table.heap p }

/-- `hash_table_chain_get`: the value of the key, `NULL` when there is no
link. -/
def hash_table_chain_get (table : HashTable α) (key : Bytes) : Option (Option α) := do
  let hash := hash_of_key key
  let ring ← table.bucket[BUCKET_INDEX hash table.size]?
  match ← hash_table_get_link table key hash ring with
  | some link =>
    let record ← table.heap link
    pure record.value
  | none => pure none

/-- `hash_table_chain_delete`. -/
def hash_table_chain_delete (table : HashTable α) (key : Bytes) :
    Option (HashTable α × Option α) := do
  let hash := hash_of_key key
  let bucket_item := BUCKET_INDEX hash table.size
  let ring ← table.bucket[bucket_item]?
  match ← hash_table_get_link table key hash ring with
  | some link => drop_table_chain_link table link bucket_item
  | none => pure (table, none)

/-- `hash_table_stored`. -/
def hash_table_stored (table : HashTable α) : Nat := table.total_stored

end HashTable

end Morph

namespace Morph

/-! ## `common/datastruct.c`: the string buffer -/

/-- `strlen` of the string held by the bytes at a pointer. -/
def strlen (s : Bytes) : Nat := (s.takeWhile (fun b => b ≠ 0)).length

/-- `strncpy(dst, src, n)`: the `n` bytes written to `dst`, the bytes of `src`
before its first zero and then zeros. -/
def strncpy (src : Bytes) (n : Nat) : Bytes :=
  let copied := (src.take n).takeWhile (fun b => b ≠ 0)
  copied ++ List.replicate (n - copied.length) 0

/-- `StringChunk`: the bytes of the string that the chunk points to (a copy or
the caller's) and `length`. -/
structure StringChunk where
  string : Bytes
  length : Nat
deriving DecidableEq, Repr

/-- `StringBuffer`: the chunks from `head` along `next`. -/
abbrev StringBuffer := List StringChunk

/-- `exact_append_to_string_buffer`: a chunk with a copy of `length` bytes. -/
def exact_append_to_string_buffer (buffer : StringBuffer) (string : Bytes) (length : Nat) :
    StringBuffer :=
  buffer ++ [{ string := string.take length, length := length }]

/-- `append_to_string_buffer`. -/
def append_to_string_buffer (buffer : StringBuffer) (string : Bytes) : StringBuffer :=
  exact_append_to_string_buffer buffer string (strlen string)

/-- `noclone_append_to_string_buffer`. -/
def noclone_append_to_string_buffer (buffer : StringBuffer) (string : Bytes) (length : Nat) :
    StringBuffer :=
  buffer ++ [{ string := string, length := length }]

/-- `join_string_buffer`: the joined string and `*result_length`. -/
def join_string_buffer (buffer : StringBuffer) : Bytes × Nat :=
  (buffer.flatMap (fun chunk => strncpy chunk.string chunk.length),
    (buffer.map (fun chunk => chunk.length)).sum)

/-- `strict_strndup`: a copy of `length` bytes. -/
def strict_strndup (text : Bytes) (length : Nat) : Bytes := text.take length

/-! ## `morphology/helpers.c`: the description of a word -/

/-- The block that `put_description_to_cache` allocates: the size, the flag and
the bytes of the description. -/
structure CachedDescription where
  description_size : Nat
  is_imitation : Nat
  description : Bytes
deriving DecidableEq, Repr

/-- `Morphology`.  `lemmas` stands for `get_word_lemmas` on the automaton and
the base of the morphology, which do not change after loading: the words of
the forms that `analyze_word` returns for a word. -/
structure Morphology where
  automat : MiniAutomat
  lemmas : List Label → List (List Label)
  description_cache : HashTable CachedDescription

/-- The functions of the C library that depend on the locale: `iswalpha`, the
conversion `mbsnrtowcs` inside `to_wide_string_exact` and the conversion
`wcsrtombs` inside `to_multibyte_string`. -/
structure Locale where
  iswalpha : Label → Bool
  to_wide_string_exact : Bytes → List Label
  to_multibyte_string : List Label → Bytes

/-- `near_int_log2`: the number of binary digits of `n`. -/
def near_int_log2_loop (n : Nat) : Nat → Nat → Nat
  | 0, i => i
  | fuel + 1, i => if n >>> i > 0 then near_int_log2_loop n fuel ((i + 1) % 2 ^ 8) else i

/-- `near_int_log2`. -/
def near_int_log2 (n : Nat) : Nat := near_int_log2_loop n 65 0

/-- `make_description_cache`: the callback is `free_cached_description`. -/
def make_description_cache (cache_size : Nat) : Option (HashTable CachedDescription) := do
  let cache ← HashTable.make_hash_table (near_int_log2 cache_size)
  pure (HashTable.hash_table_fifo_limit cache cache_size true)

/-- `put_description_to_cache`. -/
def put_description_to_cache (key : Bytes) (description : Bytes) (description_size : Nat)
    (is_imitation : Nat) (cache : HashTable CachedDescription) :
    Option (HashTable CachedDescription) :=
  HashTable.hash_table_chain_put cache key
    (some { description_size := description_size, is_imitation := is_imitation,
            description := description.take description_size })

/-- `get_description_from_cache`: the description, `*description_size` and
`*is_imitation`, or `NULL`. -/
def get_description_from_cache (key : Bytes) (cache : HashTable CachedDescription) :
    Option (Option (Bytes × Nat × Nat)) := do
  match ← HashTable.hash_table_chain_get cache key with
  | none => pure none
  | some data => pure (some (data.description, data.description_size, data.is_imitation))

/-- The wide word of `make_word_description` and `multilang_word_description`:
the one given, or for `NULL` the one converted by `to_wide_string_exact`. -/
def converted_word (locale : Locale) (word : Option (List Label)) (mb_word : Bytes) :
    List Label :=
  match word with
  | some word => word
  | none => locale.to_wide_string_exact mb_word

/-- The loop of `make_word_description` over the lemmas. -/
def append_lemmas (locale : Locale) (word : List Label) :
    List (List Label) → StringBuffer → StringBuffer
  | [], result_buffer => result_buffer
  | form :: lemmas, result_buffer =>
    if form ≠ word then
      let mb_form := locale.to_multibyte_string form
      let result_buffer := noclone_append_to_string_buffer result_buffer mb_form mb_form.length
      append_lemmas locale word lemmas
        (append_to_string_buffer result_buffer [WORD_DESCRIPTION_TERMINATOR, 0])
    else append_lemmas locale word lemmas result_buffer

/-- `make_word_description`: `mb_word` holds the `mb_word_length` bytes of the
word, `word` its wide characters or `NULL`.  The result is the morphology with
its cache, the description or `NULL`, `*is_garbage` and `*result_length`. -/
def make_word_description (locale : Locale) (word : Option (List Label)) (mb_word : Bytes)
    (morphology : Morphology) (dont_imitate : Bool) :
    Option (Morphology × Option Bytes × Bool × Nat) := do
  match ← get_description_from_cache mb_word morphology.description_cache with
  | none =>
    let word := converted_word locale word mb_word
    let is_garbage := is_garbage_word locale.iswalpha word word.length
    if !is_garbage then
      let lemmas := morphology.lemmas word
      let is_imitation := lemmas.length == 0
      if is_imitation && dont_imitate then pure (morphology, none, is_garbage, 0)
      else
        let result_buffer := append_lemmas locale word lemmas []
        let result_buffer := exact_append_to_string_buffer result_buffer mb_word mb_word.length
        let result_buffer :=
          append_to_string_buffer result_buffer [WORD_DESCRIPTION_TERMINATOR, 0]
        let (result, result_length) := join_string_buffer result_buffer
        let cache ← put_description_to_cache mb_word result result_length
          (if is_imitation then 1 else 0) morphology.description_cache
        pure ({ morphology with description_cache := cache }, some result, is_garbage,
          result_length)
    else
      if dont_imitate then pure (morphology, none, is_garbage, 0)
      else
        pure (morphology, some (mb_word ++ [WORD_DESCRIPTION_TERMINATOR]), is_garbage,
          mb_word.length + 1)
  | some (result, result_length, _) =>
    if dont_imitate then pure (morphology, none, false, result_length)
    else pure (morphology, some (strict_strndup result result_length), false, result_length)

/-! ## `morphology/dictinfo.h`, `morphology/multilang.c` -/

/-- `Dictionary`: the name and the morphology. -/
structure Dictionary where
  name : Bytes
  morphology : Morphology

/-- `main_language`: the first dictionary, `NULL` when there is none. -/
def main_language (languages : List Dictionary) : Option Nat :=
  if languages.length > 0 then some 0 else none

/-- `make_word_description` on the morphology of the dictionary at an index,
the cache of that dictionary updated. -/
def describe_in (locale : Locale) (languages : List Dictionary) (language : Option Nat)
    (word : List Label) (mb_word : Bytes) (dont_imitate : Bool) :
    Option (List Dictionary × Option Bytes × Bool × Nat) := do
  let index ← language
  let dictionary ← languages[index]?
  let (morphology, result, is_garbage, result_length) ←
    make_word_description locale (some word) mb_word dictionary.morphology dont_imitate
  pure (languages.set index { dictionary with morphology := morphology }, result, is_garbage,
    result_length)

/-- `multilang_word_description`.  Dictionaries are named by their index in
`languages`; `detected_language` is the value that the variable of the caller
holds before the call.  The result is the dictionaries with their caches, the
description, `*result_length` and `*detected_language`. -/
def multilang_word_description (locale : Locale) (languages : List Dictionary)
    (suggested_language : Option Nat) (word : Option (List Label)) (mb_word : Bytes)
    (detected_language : Option Nat) :
    Option (List Dictionary × Option Bytes × Nat × Option Nat) := do
  let word := converted_word locale word mb_word
  let automats := languages.map (fun dictionary => dictionary.morphology.automat)
  match suggested_language with
  | none =>
    let detected_language ← detect_language locale.iswalpha automats word word.length
    let (languages, result, is_garbage_word, result_length) ←
      describe_in locale languages
        (if detected_language ≠ none then detected_language else main_language languages)
        word mb_word false
    pure (languages, result, result_length,
      if is_garbage_word then none else detected_language)
  | some suggested =>
    let (languages, result, is_garbage_word, result_length) ←
      describe_in locale languages (some suggested) word mb_word true
    if result = none then
      let detected_language ←
        if !is_garbage_word then detect_language locale.iswalpha automats word word.length
        else pure detected_language
      let (languages, result, is_garbage_word, result_length) ←
        describe_in locale languages
          (if is_garbage_word ∨ detected_language = none then main_language languages
            else detected_language)
          word mb_word false
      let detected_language :=
        if !is_garbage_word then
          if detected_language = some suggested then none else detected_language
        else detected_language
      pure (languages, result, result_length, detected_language)
    else pure (languages, result, result_length, some suggested)

end Morph

namespace Morph

/-! ## `common/datastruct.c`: joining a set of strings -/

/-- `join_string_set`: the strings of the set, each followed by the separator
(the last one only when `tail_separator` is set), and `*result_length`. -/
def join_string_set (set : StringSet) (separator : Bytes) (tail_separator : Bool) :
    Bytes × Nat :=
  let strings_count := set.length
  let separator_size := strlen separator
  let full_length := (set.map List.length).sum
  let byte_size := full_length + 1 +
    separator_size * (if tail_separator ∨ strings_count = 0 then strings_count
      else strings_count - 1)
  let result := (set.enum.map (fun (i, chunk) =>
    if tail_separator ∨ i + 1 < strings_count then chunk ++ separator.take separator_size
    else chunk)).flatten
  (result, byte_size - 1)

/-! ## `common/strtools.c`: stripping -/

/-- `strip_text`: the text without the characters of `strip_chars` at its start
and at its end. -/
def strip_text (text : Bytes) (strip_chars : Bytes) : Bytes :=
  let start_cursor := text.dropWhile (fun c => c ∈ strip_chars)
  (start_cursor.reverse.dropWhile (fun c => c ∈ strip_chars)).reverse

/-- `strip_line`: blanks, tabs, carriage returns and line feeds stripped. -/
def strip_line (line : Bytes) : Bytes := strip_text line [32, 9, 13, 10]

/-! ## `textprocessor/document.c`: phrases and lines of phrases -/

/-- `MULTI_INTERSECTION_SPLITTER`, a line feed. -/
def MULTI_INTERSECTION_SPLITTER : Nat := 10
/-- `EXACT_INTERSECTION_FLAG`, the character `!`. -/
def EXACT_INTERSECTION_FLAG : Nat := 33
/-- `LANGUAGE_INTERSECTION_SPLITTER`, the character `|`. -/
def LANGUAGE_INTERSECTION_SPLITTER : Nat := 124

/-- What the search takes from the morphology: `names` are the names of the
loaded dictionaries in order, `normalize_text` is the conversion to lower case
through the C library, and `describe language text` lists the tokens that
`tokenize` finds in the text, each with the description that
`multilang_word_description` returns for it, the suggested language being
`language` at the first token. -/
structure Analysis where
  names : List Bytes
  normalize_text : Bytes → Bytes
  describe : Option Nat → Bytes → List DescribedWord

/-- The loop of `get_dictionary` over the names of the dictionaries. -/
def get_dictionary_loop (language_name : Bytes) (language_name_length : Nat) :
    List Bytes → Nat → Option Nat
  | [], _ => none
  | name :: names, i =>
    if strncmp name language_name language_name_length = 0 then some i
    else get_dictionary_loop language_name language_name_length names (i + 1)

/-- `get_dictionary`: the index of the first dictionary whose name compares
equal, or `NULL`. -/
def get_dictionary (names : List Bytes) (language_name : Bytes) (language_name_length : Nat) :
    Option Nat :=
  get_dictionary_loop language_name language_name_length names 0

/-- `parse_phrase`: the text of the phrase, `*exact_language` and
`*exact_match`. -/
def parse_phrase (phrase : Bytes) (names : List Bytes) : Bytes × Option Nat × Bool :=
  let (cursor, exact_language) :=
    match phrase.indexOf? LANGUAGE_INTERSECTION_SPLITTER with
    | some language_splitter =>
      (phrase.drop (language_splitter + 1), get_dictionary names phrase language_splitter)
    | none => (phrase, none)
  if cursor.head? = some EXACT_INTERSECTION_FLAG then (cursor.drop 1, exact_language, true)
  else (cursor, exact_language, false)

/-- The `do … while (splitter != NULL)` loop of
`document_find_multi_intersection` over the lines of `phrase_lines`: the set of
results.  One unit of fuel per line. -/
def multi_intersection_loop (analysis : Analysis) (document : Document) :
    Nat → Bytes → StringSet → Option StringSet
  | 0, _, _ => none
  | fuel + 1, cursor, result_buffer => do
    let splitter := cursor.indexOf? MULTI_INTERSECTION_SPLITTER
    let orig_phrase := match splitter with
      | some splitter => (cursor.take splitter)
      | none => cursor
    let orig_phrase := strip_line orig_phrase
    let (phrase, exact_language, exact_match) := parse_phrase orig_phrase analysis.names
    let result_buffer ←
      if phrase.length > 0 then
        document_find_intersection document (analysis.describe exact_language phrase)
          exact_match result_buffer
      else pure result_buffer
    match splitter with
    | some splitter =>
      multi_intersection_loop analysis document fuel (cursor.drop (splitter + 1)) result_buffer
    | none => pure result_buffer

/-- The set of results that `document_find_multi_intersection` joins. -/
def multi_intersection_set (analysis : Analysis) (document : Document) (phrase_lines : Bytes) :
    Option StringSet :=
  multi_intersection_loop analysis document (phrase_lines.length + 1) phrase_lines []

/-- `document_find_multi_intersection`: the results joined, each followed by a
line feed, and `*result_length`. -/
def document_find_multi_intersection (analysis : Analysis) (document : Document)
    (phrase_lines : Bytes) : Option (Bytes × Nat) := do
  let result_buffer ← multi_intersection_set analysis document phrase_lines
  pure (join_string_set result_buffer [10] true)

/-! ## `morph.c`: documents and the similarity of two texts -/

/-- `struct morph_doc_s`: the string, the length given by the caller and the
document, `NULL` when the string is not cached. -/
structure morph_doc_t where
  str : Bytes
  len : Nat
  doc_header : Option Document

/-- `morph_doc_new`: the string is normalized, and the document is made from
it when `cache_on` is set. -/
def morph_doc_new (analysis : Analysis) (str : Bytes) (len : Nat) (cache_on : Bool) :
    Option morph_doc_t := do
  let normal_str := analysis.normalize_text str
  if cache_on then
    let document ←
      make_document (analysis.describe none (analysis.normalize_text normal_str))
    pure { str := normal_str, len := len, doc_header := some document }
  else pure { str := normal_str, len := len, doc_header := none }

/-- The tokens that the calls of `strtok_r` give for a string and the
delimiters: the maximal runs of bytes that are not delimiters.  `token` holds
the bytes of the run being read. -/
def strtok_r_loop (delim : Bytes) : Bytes → Bytes → List Bytes
  | [], token => if token = [] then [] else [token]
  | c :: str, token =>
    if c ∈ delim then
      if token = [] then strtok_r_loop delim str []
      else token :: strtok_r_loop delim str []
    else strtok_r_loop delim str (token ++ [c])

/-- The loop of `morph_doc_intersect_doc` and of `morph_doc_intersect_doc2` over
the tokens of the search string: the values `strlen(result)` in order. -/
def intersect_results (analysis : Analysis) (doc : morph_doc_t) :
    List Bytes → Option (List Nat)
  | [] => some []
  | token :: tokens => do
    let document ← doc.doc_header
    let (result, _) ← document_find_multi_intersection analysis document token
    let rest ← intersect_results analysis doc tokens
    pure (strlen result :: rest)

/-- `morph_str_intersect_str`. -/
def morph_str_intersect_str (analysis : Analysis) (doc_s search_s : Bytes) : Option ℚ := do
  let doc ← morph_doc_new analysis doc_s (strlen doc_s) true
  let search ← morph_doc_new analysis search_s (strlen search_s) false
  let results ← intersect_results analysis doc (strtok_r_loop [32] search.str [])
  pure (morph_doc_intersect_doc doc.len search.len results)

end Morph

namespace Morph

/-! ## `common/datastruct.c`: the dynamic array -/

/-- `ArrayList`: `data` holds the `capacity` blocks of the allocated memory, a
block being a value of `α`; the first `size` blocks are the stored elements. -/
structure ArrayList (α : Type) where
  data : List α
  capacity : Nat
  initial_capacity : Nat
  size : Nat

/-- `array_list_get`: the pointer to the block, as the index of the block, or
`NULL`. -/
def array_list_get {α : Type} (list : ArrayList α) (index : Nat) : Option Nat :=
  if index < list.size then some index else none

/-- `array_list_put`: the list after the call and the pointer to the block or
`NULL`; `zero` is the block of zero bytes that `memset` writes when `data` is
`NULL`. -/
def array_list_put {α : Type} (zero : α) (list : ArrayList α) (index : Nat) (data : Option α) :
    ArrayList α × Option Nat :=
  if index < list.size then
    ({ list with data := list.data.set index (match data with
        | some block => block
        | none => zero) }, some index)
  else (list, none)

/-- `array_list_delete`: the list after the call; `none` when `memmove` would
leave the allocated memory.  The arithmetic is that of `size_t`. -/
def array_list_delete {α : Type} (list : ArrayList α) (index : Nat) : Option (ArrayList α) := do
  let data ←
    if index < (list.size + 2 ^ 64 - 1) % 2 ^ 64 then
      let count := (list.size + 2 ^ 64 - index % 2 ^ 64 + 2 ^ 64 - 1) % 2 ^ 64
      if index + 1 + count ≤ list.data.length then
        some (list.data.take index ++ (list.data.drop (index + 1)).take count ++
          list.data.drop (index + count))
      else none
    else some list.data
  pure { list with data := data, size := (list.size + 2 ^ 64 - 1) % 2 ^ 64 }

/-- The stored elements of the array: its first `size` blocks. -/
def array_list_elements {α : Type} (list : ArrayList α) : List α := list.data.take list.size

/-! ## `morphology/dictinfo.c`: the name of a dictionary -/

/-- `isdigit` of the C library. -/
def isdigit (c : Nat) : Bool := 48 ≤ c && c ≤ 57

/-- The states of the loop of `extract_dictionary_name`. -/
inductive DictionaryNameState where
  | START
  | DIGIT
  | NAME
deriving DecidableEq, Repr

/-- The loop of `extract_dictionary_name` over the characters of the folder
name: the inner `none` is the `return NULL` inside the loop, otherwise the
value of `order_number_len` at the end of the loop, which is `none` while the
variable has not been assigned. -/
def extract_dictionary_name_loop (isalpha : Nat → Bool) :
    List Nat → DictionaryNameState → Option Nat → Option (Option Nat)
  | [], _, order_number_len => some order_number_len
  | next_char :: rest, DictionaryNameState.START, _ =>
    if isdigit next_char then
      extract_dictionary_name_loop isalpha rest DictionaryNameState.DIGIT (some 1)
    else if isalpha next_char then
      extract_dictionary_name_loop isalpha rest DictionaryNameState.NAME (some 0)
    else none
  | next_char :: rest, DictionaryNameState.DIGIT, order_number_len =>
    if isdigit next_char then
      extract_dictionary_name_loop isalpha rest DictionaryNameState.DIGIT
        (order_number_len.map (fun n => n + 1))
    else if isalpha next_char then
      extract_dictionary_name_loop isalpha rest DictionaryNameState.NAME order_number_len
    else none
  | next_char :: rest, DictionaryNameState.NAME, order_number_len =>
    if !isalpha next_char then none
    else extract_dictionary_name_loop isalpha rest DictionaryNameState.NAME order_number_len

/-- `extract_dictionary_name`: the name or `NULL`; the outer `none` is the use
of `order_number_len` without a value.  `isalpha` of the C library is a
parameter. -/
def extract_dictionary_name (isalpha : Nat → Bool) (folder_name : Bytes) :
    Option (Option Bytes) :=
  match extract_dictionary_name_loop isalpha folder_name DictionaryNameState.START none with
  | none => some none
  | some none => none
  | some (some order_number_len) => some (some (folder_name.drop order_number_len))

/-- `filter_dictionary_folder`. -/
def filter_dictionary_folder (isalpha : Nat → Bool) (d_name : Bytes) : Option Nat := do
  match ← extract_dictionary_name isalpha d_name with
  | none => pure 0
  | some _ => pure 1

/-! ## `morph.c`: `morph_doc_case_doc` -/

/-- `morph_doc_case_doc`: `result` is the pointer that
`document_find_multi_intersection` returns, the string that `join_string_set`
allocates. -/
def morph_doc_case_doc (analysis : Analysis) (doc search : morph_doc_t) : Option Nat := do
  let document ← doc.doc_header
  let (joined, _) ← document_find_multi_intersection analysis document search.str
  let result : Option Bytes := some joined
  if result ≠ none then pure 1 else pure 0

/-! ## `common/strtools.c`: a number as a string -/

/-- The string `dictionary` of `ultowcs`: the digits `0` to `9` and the
letters `A` to `Z`. -/
def ultowcs_dictionary : List Label :=
  [48, 49, 50, 51, 52, 53, 54, 55, 56, 57, 65, 66, 67, 68, 69, 70, 71, 72, 73, 74, 75, 76, 77,
   78, 79, 80, 81, 82, 83, 84, 85, 86, 87, 88, 89, 90]

/-- The `while (num >= base)` loop of `ultowcs` and the digit written after it:
the characters written from `result` on, the lowest digit first.  `none` is a
division by zero, a read after the end of `dictionary`, or a loop that does
not end. -/
def ultowcs_loop (base : Nat) : Nat → Nat → List Label → Option (List Label)
  | 0, _, _ => none
  | fuel + 1, num, written =>
    if num ≥ base then
      if base = 0 then none
      else do
        let digit ← ultowcs_dictionary[num % base]?
        ultowcs_loop base fuel (num / base) (written ++ [digit])
    else do
      let digit ← ultowcs_dictionary[num]?
      pure (written ++ [digit])

/-- `ultowcs`: the string left in `result`, for `num` an `unsigned long`; the
buffer holds the digits and the terminating zero when `wcssubreverse` is
called on the digits. -/
def ultowcs (num base : Nat) : Option (List Label) := do
  let written ← ultowcs_loop base 65 num []
  let result := wcssubreverse (written ++ [0]) 0 written.length
  pure (result.takeWhile (fun c => c ≠ 0))

/-- The value of a character as a digit for `wcstoul` of the C library. -/
def wcstoul_digit (c : Label) : Option Nat :=
  if 48 ≤ c ∧ c ≤ 57 then some (c - 48).toNat
  else if 97 ≤ c ∧ c ≤ 122 then some ((c - 97).toNat + 10)
  else if 65 ≤ c ∧ c ≤ 90 then some ((c - 65).toNat + 10)
  else none

/-- The digits that `wcstoul` reads: it stops at the first character that is
not a digit of the base, the end of the string included. -/
def wcstoul_loop (base : Nat) : List Label → Nat → Nat
  | [], acc => acc
  | c :: rest, acc =>
    match wcstoul_digit c with
    | some digit => if digit < base then wcstoul_loop base rest (acc * base + digit) else acc
    | none => acc

/-- `wcstoul` of the C library for a base from 2 to 36 other than 16: white
space (`iswspace`, a parameter) is skipped, a sign is read, the digits are
read, a value that does not fit `unsigned long` gives `ULONG_MAX`, and a minus
sign negates the value in `unsigned long`. -/
def wcstoul (iswspace : Label → Bool) (nptr : List Label) (base : Nat) : Nat :=
  let s := nptr.dropWhile iswspace
  let negative := s.head? = some 45
  let s := if s.head? = some 45 ∨ s.head? = some 43 then s.drop 1 else s
  let value := wcstoul_loop base s 0
  let value := if value > 2 ^ 64 - 1 then 2 ^ 64 - 1 else value
  if negative then (2 ^ 64 - value) % 2 ^ 64 else value

/-! ## `morphology/wordforms.c`: the annotation of a word form -/

/-- The fields of `WordForm` that `parse_morphology_annotation` writes. -/
structure WordForm where
  flex_model_index : Nat
  flexion_size : Nat
  base_size : Nat
deriving DecidableEq, Repr

/-- The value of `code` in `build_morphology_annotation`, a `uint32_t`, for a
`flex_model_index` of the type `uint16_t` and a `flexion_size` and a
`base_size` of the type `uint8_t`. -/
def morphology_code (flex_model_index flexion_size base_size : Nat) : Nat :=
  let code := (flex_model_index <<< 16) % 2 ^ 32
  let code := code ||| (flexion_size <<< 8) % 2 ^ 32
  code ||| base_size

/-- `build_morphology_annotation`: the string that `wcpcpy` writes to
`result`. -/
def build_morphology_annotation (flex_model_index flexion_size base_size : Nat) :
    Option (List Label) :=
  ultowcs (morphology_code flex_model_index flexion_size base_size) 36

/-- `parse_morphology_annotation`: the three fields written to `form`. -/
def parse_morphology_annotation (iswspace : Label → Bool) ( annotation : List Label) : WordForm :=
  let flex_code_num := wcstoul iswspace annotation 36 % 2 ^ 32
  { base_size := flex_code_num &&& 255,
    flexion_size := (flex_code_num >>> 8) &&& 255,
    flex_model_index := (flex_code_num >>> 16) % 2 ^ 16 }

/-! ## `morphology/miniautomat.c`: the outputs of the compact automaton -/

/-- `ANNOTATION_DELIMITER`, the character `|`. -/
def ANNOTATION_DELIMITER : Label := 124

/-- `MAX_AUTOMAT_OUTPUT_SIZE`. -/
def MAX_AUTOMAT_OUTPUT_SIZE : Nat := 255

/-- The arguments of one call of `on_complete`; `buffer` is the array that the
pointer `buffer` points to, as it is at the time of the call. -/
structure OutputCall where
  is_prediction : Nat
  prefix_size : Nat
  buffer : List Label
deriving DecidableEq, Repr

/-- The `for` loop of `mini_collect_output` over the transitions of a state;
`recurse` is the recursive call for a target state. -/
def mini_collect_transitions
    (recurse : Nat → List Label → List OutputCall → Option (List Label × List OutputCall))
    (states_length depth : Nat) :
    List MiniTransition → List Label → List OutputCall →
      Option (List Label × List OutputCall)
  | [], buffer, calls => some (buffer, calls)
  | transition :: rest, buffer, calls =>
    let buffer := (buffer.set depth transition.label).set (depth + 1) 0
    if transition.target < states_length then do
      let (buffer, calls) ← recurse transition.target buffer calls
      mini_collect_transitions recurse states_length depth rest buffer calls
    else none

/-- `mini_collect_output`: the array `buffer` and the calls of `on_complete`
made so far, after the call.  `none` is a read outside the states or the
transitions, or the use of the `NULL` that `mini_find_transition` returned;
one unit of fuel is used for each level of the recursion. -/
def mini_collect_output (automat : MiniAutomat) :
    Nat → Nat → Nat → Nat → Nat → List Label → Nat → List OutputCall →
      Option (List Label × List OutputCall)
  | 0, _, _, _, _, _, _, _ => none
  | fuel + 1, state, is_prediction, prefix_size, depth, buffer, buffer_size, calls =>
    match automat.states[state]? with
    | none => none
    | some s =>
      let calls :=
        if s.is_final ≠ 0 then
          calls ++ [{ is_prediction := is_prediction, prefix_size := prefix_size,
                      buffer := buffer }]
        else calls
      if s.is_final ≠ 0 ∧ is_prediction = 0 then some (buffer, calls)
      else if depth + 1 < buffer_size then
        if depth = 0 ∧ is_prediction = 0 then
          match mini_find_transition automat state ANNOTATION_DELIMITER with
          | none => none
          | some none => none
          | some (some target) =>
            mini_collect_output automat fuel target is_prediction prefix_size (depth + 1)
              ((buffer.set depth ANNOTATION_DELIMITER).set (depth + 1) 0) buffer_size calls
        else if s.transitions_count ≤ s.transitions.length then
          mini_collect_transitions
            (fun target buffer calls =>
              mini_collect_output automat fuel target is_prediction prefix_size (depth + 1)
                buffer buffer_size calls)
            automat.states.length depth (s.transitions.take s.transitions_count) buffer calls
        else none
      else some (buffer, calls)

/-- `mini_possible_outputs`: the calls of `on_complete` in their order;
`word_length` is the length of `word`, and `buffer` is what the local array
`buffer` of `MAX_AUTOMAT_OUTPUT_SIZE` characters holds when the function is
entered. -/
def mini_possible_outputs (automat : MiniAutomat) (word : List Label)
    ( min_prediction_prefix : Nat) (buffer : List Label) : Option (List OutputCall) := do
  let (prefix_size, last_state) ← mini_common_prefix automat word
  let exact ←
    if prefix_size = word.length then do
      let target ← mini_find_transition automat last_state ANNOTATION_DELIMITER
      pure target.isSome
    else pure false
  if exact then do
    let (_, calls) ← mini_collect_output automat (MAX_AUTOMAT_OUTPUT_SIZE + 1) last_state 0
      prefix_size 0 buffer MAX_AUTOMAT_OUTPUT_SIZE []
    pure calls
  else if prefix_size ≥ min_prediction_prefix then do
    let (_, calls) ← mini_collect_output automat (MAX_AUTOMAT_OUTPUT_SIZE + 1) last_state 1
      prefix_size 0 buffer MAX_AUTOMAT_OUTPUT_SIZE []
    pure calls
  else pure []

/-! ## `textprocessor/tokenizer.c`: the tokenizer -/

/-- `enum state_code`. -/
inductive state_code where
  | INSIDE_TOKEN
  | POST_EXTRA_SYMBOL
  | OUTSIDE_TOKEN
  | TOKEN_READY
  | FINAL
deriving DecidableEq, Repr

/-- `struct tokenizer_state`: `text_position` is an offset into the text or
`NULL`.  The wide token is left out, the byte tokens do not depend on it, and
so is `mbstate`, which is initial between two characters of an UTF-8 text. -/
structure tokenizer_state where
  text_position : Option Nat
  code : state_code
deriving DecidableEq, Repr

/-- `kExtraAllowedInWord`: `-`, the apostrophe, the backquote and `_`. -/
def kExtraAllowedInWord : List Label := [45, 39, 96, 95]

/-- `is_terminator`. -/
def is_terminator (c : Label) : Bool := c = 0

/-- `is_extra_token_char`. -/
def is_extra_token_char (symbol : Label) : Bool :=
  !is_terminator symbol && decide (symbol ∈ kExtraAllowedInWord)

/-- The variables of a call of `tokenize`: `state` is `NULL` after the case
`FINAL`; `char_size` is a `size_t`; `token_start` and `token_end` are the
pointers of the caller, as offsets into the text. -/
structure TokenizeVars where
  state : Option tokenizer_state
  char_size : Nat
  current_symbol : Label
  token_start : Option Int
  token_end : Option Int
  retval : Int
deriving DecidableEq, Repr

/-- The call `mbsrtowcs(char_buffer, &state->text_position, 1, &state->mbstate)`
and the read of `*char_buffer`: the value returned, `current_symbol` and
`text_position` after the call.  At the end of the text the terminating zero
is stored and the position becomes `NULL`; `mbrtowc` (a parameter) gives the
character at the start of the bytes it is given and the number of its bytes,
or `none` when they start with no valid character, in which case the value
returned is `(size_t)-1` and nothing is stored. -/
def mbsrtowcs_one (mbrtowc : Bytes → Option (Label × Nat)) (text : Bytes) (text_position : Nat)
    (current_symbol : Label) : Nat × Label × Option Nat :=
  match text.drop text_position with
  | [] => (0, 0, none)
  | b :: rest =>
    if b = 0 then (0, 0, none)
    else
      match mbrtowc (b :: rest) with
      | some (c, n) => (1, c, some (text_position + n))
      | none => (2 ^ 64 - 1, current_symbol, some text_position)

/-- One round of the `do … while` loop of `tokenize`.  `none` is arithmetic on
a `NULL` pointer. -/
def tokenize_iteration (mbrtowc : Bytes → Option (Label × Nat)) (iswalnum : Label → Bool)
    (text : Bytes) (state : tokenizer_state) (v : TokenizeVars) : Option TokenizeVars :=
  let prev_text_position := state.text_position
  let prev_char_size := v.char_size
  let (char_size, current_symbol, text_position) :=
    match state.text_position with
    | some position => mbsrtowcs_one mbrtowc text position v.current_symbol
    | none => (v.char_size, v.current_symbol, none)
  let (code, retval, current_symbol) : state_code × Int × Label :=
    if char_size = 2 ^ 64 - 1 then (state_code.FINAL, -1, current_symbol)
    else if char_size = 0 then
      if prev_char_size > 0 then (state.code, v.retval, 0)
      else (state_code.FINAL, 0, current_symbol)
    else (state.code, v.retval, current_symbol)
  match code with
  | state_code.OUTSIDE_TOKEN =>
    if iswalnum current_symbol then
      some { state := some { text_position := text_position, code := state_code.INSIDE_TOKEN },
             char_size := char_size, current_symbol := current_symbol,
             token_start := prev_text_position.map (fun p => (p : Int)),
             token_end := v.token_end, retval := retval }
    else
      some { state := some { text_position := text_position, code := state_code.OUTSIDE_TOKEN },
             char_size := char_size, current_symbol := current_symbol,
             token_start := v.token_start, token_end := v.token_end, retval := retval }
  | state_code.INSIDE_TOKEN =>
    if iswalnum current_symbol then
      some { state := some { text_position := text_position, code := state_code.INSIDE_TOKEN },
             char_size := char_size, current_symbol := current_symbol,
             token_start := v.token_start, token_end := v.token_end, retval := retval }
    else if is_extra_token_char current_symbol then
      some { state := some { text_position := text_position,
                             code := state_code.POST_EXTRA_SYMBOL },
             char_size := char_size, current_symbol := current_symbol,
             token_start := v.token_start, token_end := v.token_end, retval := retval }
    else do
      let prev ← prev_text_position
      let start ← v.token_start
      let token_end : Int := (prev : Int) - 1
      some { state := some { text_position := text_position, code := state_code.TOKEN_READY },
             char_size := char_size, current_symbol := current_symbol,
             token_start := v.token_start, token_end := some token_end,
             retval := token_end - start + 1 }
  | state_code.POST_EXTRA_SYMBOL =>
    if iswalnum current_symbol then
      some { state := some { text_position := text_position, code := state_code.INSIDE_TOKEN },
             char_size := char_size, current_symbol := current_symbol,
             token_start := v.token_start, token_end := v.token_end, retval := retval }
    else do
      let prev ← prev_text_position
      let start ← v.token_start
      let token_end : Int := (prev : Int) - (prev_char_size : Int) - 1
      some { state := some { text_position := prev_text_position,
                             code := state_code.TOKEN_READY },
             char_size := char_size, current_symbol := current_symbol,
             token_start := v.token_start, token_end := some token_end,
             retval := token_end - start + 1 }
  | state_code.TOKEN_READY =>
    some { state := some { text_position := text_position, code := state_code.TOKEN_READY },
           char_size := char_size, current_symbol := current_symbol,
           token_start := v.token_start, token_end := v.token_end, retval := retval }
  | state_code.FINAL =>
    some { state := none, char_size := char_size, current_symbol := current_symbol,
           token_start := none, token_end := none, retval := retval }

/-- The `do … while` loop of `tokenize`, one unit of fuel for each round. -/
def tokenize_loop (mbrtowc : Bytes → Option (Label × Nat)) (iswalnum : Label → Bool)
    (text : Bytes) : Nat → TokenizeVars → Option TokenizeVars
  | 0, _ => none
  | fuel + 1, v =>
    match v.state with
    | none => none
    | some state =>
      match tokenize_iteration mbrtowc iswalnum text state v with
      | none => none
      | some v =>
        match v.state with
        | none => some v
        | some state =>
          if state.code ≠ state_code.FINAL ∧ state.code ≠ state_code.TOKEN_READY then
            tokenize_loop mbrtowc iswalnum text fuel v
          else some v

/-- `tokenize`: the value returned, `*token_start`, `*token_end` and `*memo`
after the call.  `memory` holds the bytes of the text that is tokenized, `text`
is the argument of this name, the offset zero at the first call and `NULL`
later on, and `token_start`, `token_end` and `memo` are the values that the
caller passes.  `current_symbol` has no value at first; no round reads it
before it is written. -/
def tokenize (mbrtowc : Bytes → Option (Label × Nat)) (iswalnum : Label → Bool)
    (memory : Bytes) (text : Option Nat) (token_start token_end : Option Int)
    (memo : Option tokenizer_state) :
    Option (Int × Option Int × Option Int × Option tokenizer_state) :=
  let start : Option (Option tokenizer_state) :=
    match text with
    | none =>
      if token_end = none then some none
      else
        match memo with
        | none => none
        | some state => some (some { state with code := state_code.OUTSIDE_TOKEN })
    | some text => some (some { text_position := some text, code := state_code.OUTSIDE_TOKEN })
  match start with
  | none => none
  | some none => some (0, token_start, token_end, memo)
  | some (some state) =>
    match tokenize_loop mbrtowc iswalnum memory (memory.length + 2)
        { state := some state, char_size := 0, current_symbol := 0, token_start := none,
          token_end := none, retval := 0 } with
    | none => none
    | some v => some (v.retval, v.token_start, v.token_end, v.state)

/-- The loop `while ((token_size = tokenize(…)) > 0)` of
`build_text_with_ranges` and of `document_find_intersection`: the tokens, each
the `token_size` bytes from `token_start` on. -/
def tokenize_all_loop (mbrtowc : Bytes → Option (Label × Nat)) (iswalnum : Label → Bool)
    (memory : Bytes) :
    Nat → Option Nat → Option Int → Option Int → Option tokenizer_state → Option (List Bytes)
  | 0, _, _, _, _ => none
  | fuel + 1, text_cursor, token_start, token_end, memo =>
    match tokenize mbrtowc iswalnum memory text_cursor token_start token_end memo with
    | none => none
    | some (token_size, token_start, token_end, memo) =>
      if token_size > 0 then
        match token_start with
        | none => none
        | some start =>
          match tokenize_all_loop mbrtowc iswalnum memory fuel none token_start token_end
              memo with
          | none => none
          | some rest => some ((memory.drop start.toNat).take token_size.toNat :: rest)
      else some []

/-- The tokens of a text: the loop above from the start of the text. -/
def tokenize_all (mbrtowc : Bytes → Option (Label × Nat)) (iswalnum : Label → Bool)
    (text : Bytes) : Option (List Bytes) :=
  tokenize_all_loop mbrtowc iswalnum text (text.length + 1) (some 0) none none none

end Morph

namespace Morph

/-! ## `morphology/miniautomat.c`: the run of `mini_collect_output` -/

/-- What a run of `mini_collect_output` does that its result does not show: a
call of the function entered with the argument `depth`, and a write to
`buffer[index]`. -/
inductive CollectEvent where
  | call (depth : Nat)
  | write (index : Nat)
deriving DecidableEq, Repr

/-- The `for` loop of `mini_collect_output` over the transitions of a state,
with the events of the run: the two writes `buffer[depth]` and
`buffer[depth + 1]` are recorded before the recursive call. -/
def mini_collect_events_transitions
    (recurse : Nat → List Label → List OutputCall → List CollectEvent →
      Option (List Label × List OutputCall × List CollectEvent))
    (states_length depth : Nat) :
    List MiniTransition → List Label → List OutputCall → List CollectEvent →
      Option (List Label × List OutputCall × List CollectEvent)
  | [], buffer, calls, events => some (buffer, calls, events)
  | transition :: rest, buffer, calls, events =>
    let buffer := (buffer.set depth transition.label).set (depth + 1) 0
    let events := events ++ [CollectEvent.write depth, CollectEvent.write (depth + 1)]
    if transition.target < states_length then do
      let (buffer, calls, events) ← recurse transition.target buffer calls events
      mini_collect_events_transitions recurse states_length depth rest buffer calls events
    else none

/-- `mini_collect_output` with the events of its run: every call entered is
recorded with its `depth`, every write to the buffer with its index.  The
buffer and the calls of `on_complete` are those of `mini_collect_output`. -/
def mini_collect_events (automat : MiniAutomat) :
    Nat → Nat → Nat → Nat → Nat → List Label → Nat → List OutputCall → List CollectEvent →
      Option (List Label × List OutputCall × List CollectEvent)
  | 0, _, _, _, _, _, _, _, _ => none
  | fuel + 1, state, is_prediction, prefix_size, depth, buffer, buffer_size, calls, events =>
    match automat.states[state]? with
    | none => none
    | some s =>
      let events := events ++ [CollectEvent.call depth]
      let calls :=
        if s.is_final ≠ 0 then
          calls ++ [{ is_prediction := is_prediction, prefix_size := prefix_size,
                      buffer := buffer }]
        else calls
      if s.is_final ≠ 0 ∧ is_prediction = 0 then some (buffer, calls, events)
      else if depth + 1 < buffer_size then
        if depth = 0 ∧ is_prediction = 0 then
          match mini_find_transition automat state ANNOTATION_DELIMITER with
          | none => none
          | some none => none
          | some (some target) =>
            mini_collect_events automat fuel target is_prediction prefix_size (depth + 1)
              ((buffer.set depth ANNOTATION_DELIMITER).set (depth + 1) 0) buffer_size calls
              (events ++ [CollectEvent.write depth, CollectEvent.write (depth + 1)])
        else if s.transitions_count ≤ s.transitions.length then
          mini_collect_events_transitions
            (fun target buffer calls events =>
              mini_collect_events automat fuel target is_prediction prefix_size (depth + 1)
                buffer buffer_size calls events)
            automat.states.length depth (s.transitions.take s.transitions_count) buffer calls
            events
        else none
      else some (buffer, calls, events)

/-! ## `textprocessor/tokenizer.c`: the calls of `tokenize` over a text -/

/-- The loop `while ((token_size = tokenize(…)) > 0)` of the callers of
`tokenize`, with what each call that gave a token returned: `token_size`,
`*token_start` and `*token_end`. -/
def tokenize_calls_loop (mbrtowc : Bytes → Option (Label × Nat)) (iswalnum : Label → Bool)
    (memory : Bytes) :
    Nat → Option Nat → Option Int → Option Int → Option tokenizer_state →
      Option (List (Int × Option Int × Option Int))
  | 0, _, _, _, _ => none
  | fuel + 1, text_cursor, token_start, token_end, memo =>
    match tokenize mbrtowc iswalnum memory text_cursor token_start token_end memo with
    | none => none
    | some (token_size, token_start, token_end, memo) =>
      if token_size > 0 then
        match tokenize_calls_loop mbrtowc iswalnum memory fuel none token_start token_end
            memo with
        | none => none
        | some rest => some ((token_size, token_start, token_end) :: rest)
      else some []

/-- The calls of `tokenize` that give the tokens of a text: the loop above
from the start of the text. -/
def tokenize_calls (mbrtowc : Bytes → Option (Label × Nat)) (iswalnum : Label → Bool)
    (text : Bytes) : Option (List (Int × Option Int × Option Int)) :=
  tokenize_calls_loop mbrtowc iswalnum text (text.length + 1) (some 0) none none none

end Morph

namespace Morph

/-! ## `morphology/wordforms.c`: the forms of a word -/

/-- `MAX_FLEX_PREFIX_SIZE`. -/
def MAX_FLEX_PREFIX_SIZE : Nat := 15
/-- `MAX_FLEX_FLEXION_SIZE`. -/
def MAX_FLEX_FLEXION_SIZE : Nat := 30
/-- `MIN_MATCH_FOR_PREDICTION`. -/
def MIN_MATCH_FOR_PREDICTION : Nat := 4
/-- `MIN_BASE_LENGTH`. -/
def MIN_BASE_LENGTH : Nat := 3

/-- `FlexVariance`: the fields that `all_word_variations` reads.  A string is
the list of its characters before the terminating zero, `none` is `NULL`;
`prefix_chars` is the field `prefix`, `grammar` the address of the grammar. -/
structure FlexVariance where
  flexion : Option (List Label)
  grammar : Option Nat
  prefix_chars : Option (List Label)
deriving DecidableEq, Repr

/-- `typedef ArrayList FlexModel`: the variances in their order. -/
abbrev FlexModel := List FlexVariance

/-- `MorphologyBase`: what `analyze_word` reads of it, the array
`flex_models->model_list` and the array `prefix_models->all_prefixes`. -/
structure MorphologyBase where
  flex_models : List FlexModel
  all_prefixes : List (List Label)
deriving Repr

/-- `WordForm` as `all_word_variations` fills it: all the fields but
`base_grammar`, which it does not write.  `frequency` is an `int`. -/
structure WordVariation where
  word : List Label
  word_length : Nat
  flex_model_index : Nat
  flexion_size : Nat
  base_size : Nat
  frequency : Int
  grammar : Option Nat
deriving DecidableEq, Repr

/-- `AutomatOutput`: `text` and `annotation` are the two strings that
`init_automat_output` cuts the output of the automaton into. -/
structure AutomatOutput where
  text : List Label
  known_prefix_size : Nat
  annotation : List Label
  is_prediction : Nat
  automat_prefix_size : Nat
deriving DecidableEq, Repr

/-- `wcsncpy(dest, src, n)`: the `n` characters written to `dest`, the
characters of `src` before its first zero among the first `n` and then zeros;
`src` is what the memory holds from the pointer on. -/
def wcsncpy (src : List Label) (n : Nat) : List Label :=
  let copied := (src.take n).takeWhile (fun c => c ≠ 0)
  copied ++ List.replicate (n - copied.length) 0

/-- The buffer after `source` is written to it from the offset `position` on;
`none` when the write leaves the buffer. -/
def write_at (buffer : List Label) (position : Nat) (source : List Label) :
    Option (List Label) :=
  if position + source.length ≤ buffer.length then
    some (buffer.take position ++ source ++ buffer.drop (position + source.length))
  else none

/-- The string that starts at the offset `position` of the buffer: the
characters before the first zero; `none` when there is no zero in the buffer
from `position` on. -/
def string_at (buffer : List Label) (position : Nat) : Option (List Label) :=
  if (0 : Label) ∈ buffer.drop position then
    some ((buffer.drop position).takeWhile (fun c => c ≠ 0))
  else none

/-- The loop of `all_word_variations` over the variances from `i` on, `count`
of them; the buffer has `MAX_FLEX_PREFIX_SIZE` characters before `word_base`.
`none` is the use of the `NULL` that `flex_model_variance` returns, or a write
outside the buffer. -/
def all_word_variations_loop (model : FlexModel) (base_size flex_model_no : Nat) :
    Nat → Nat → List Label → Option (List WordVariation)
  | 0, _, _ => some []
  | count + 1, i, buffer => do
    let result_length := base_size
    let variance ← model[i]?
    let (word_start, result_length, buffer) ←
      match variance.prefix_chars with
      | some chars =>
        let part_length := chars.length
        if part_length ≤ MAX_FLEX_PREFIX_SIZE then do
          let word_start := MAX_FLEX_PREFIX_SIZE - part_length
          let buffer ← write_at buffer word_start chars
          pure (word_start, result_length + part_length, buffer)
        else none
      | none => some (MAX_FLEX_PREFIX_SIZE, result_length, buffer)
    let (flexion_size, buffer) ←
      match variance.flexion with
      | some flexion => do
        let buffer ← write_at buffer (MAX_FLEX_PREFIX_SIZE + base_size) (flexion ++ [0])
        pure (flexion.length % 2 ^ 8, buffer)
      | none => do
        let buffer ← write_at buffer (MAX_FLEX_PREFIX_SIZE + base_size) [0]
        pure (0, buffer)
    let result_length := result_length + flexion_size
    let word ← string_at buffer word_start
    let rest ← all_word_variations_loop model base_size flex_model_no count (i + 1) buffer
    pure ({ word := word, flex_model_index := flex_model_no, base_size := base_size,
            grammar := variance.grammar, frequency := 0, word_length := result_length,
            flexion_size := flexion_size } :: rest)

/-- `all_word_variations`: the array returned, of `*variances_count` forms.
`word` holds the characters of the word before its terminating zero;
`flexion_size` and `base_size` are of the type `uint8_t`, `flex_model_no` of
the type `uint16_t`.  The memory of the buffer is written before it is read,
it is taken as zeros at first.  `none` is a read outside `model_list` or
outside the word, or a fault of the loop. -/
def all_word_variations (word : List Label) (word_length : Nat) (only_lemma : Nat)
    (flexion_size base_size flex_model_no : Nat) (base : MorphologyBase) :
    Option (List WordVariation) := do
  let model ← base.flex_models[flex_model_no]?
  let buffer : List Label :=
    List.replicate (word_length + MAX_FLEX_PREFIX_SIZE + MAX_FLEX_FLEXION_SIZE + 1) 0
  let variances_count := if only_lemma ≠ 0 then 1 else model.length
  let offset := (((word_length : Int) - flexion_size - base_size) % 2 ^ 64).toNat
  if offset ≤ word.length then do
    let buffer ← write_at buffer MAX_FLEX_PREFIX_SIZE (wcsncpy (word.drop offset) base_size)
    let buffer ← write_at buffer (MAX_FLEX_PREFIX_SIZE + base_size) [0]
    all_word_variations_loop model base_size flex_model_no variances_count 0 buffer
  else none

/-- `init_automat_output`: the output made of the buffer that the automaton
passes to `on_complete`.  `none` when the buffer holds no zero, or no `|`
before its first zero. -/
def init_automat_output (text : List Label) (automat_prefix_size is_prediction : Nat) :
    Option AutomatOutput := do
  let text ← string_at text 0
  let delimiter ← text.indexOf? ANNOTATION_DELIMITER
  pure { text := (wcssubreverse (text.set delimiter 0) 0 delimiter).take delimiter,
         annotation := text.drop (delimiter + 1),
         known_prefix_size := 0,
         is_prediction := is_prediction,
         automat_prefix_size := automat_prefix_size }

/-- The first loop of `filter_productive_output`, from the index `i - 1` down
to 0, with `drop_prediction_outputs`.  `none` is the use of a `NULL` that
`array_list_get` returned, a fault of `array_list_delete`, or a recursion of
` word_has_known_prefix` that does not end. -/
def filter_upgrade_loop (word : List Label) (word_length : Nat)
    (all_prefixes : List (List Label)) :
    Nat → ArrayList AutomatOutput → Bool → Option (ArrayList AutomatOutput × Bool)
  | 0, outputs, drop_prediction_outputs => some (outputs, drop_prediction_outputs)
  | i + 1, outputs, drop_prediction_outputs => do
    let index ← array_list_get outputs i
    let output ← outputs.data[index]?
    if output.is_prediction ≠ 0 then
      let output_text_length := output.text.length
      let unmatched := (word_length + 2 ^ 64 - output.automat_prefix_size) % 2 ^ 64
      let known ←
        if output_text_length = 0 then
          word_has_known_prefix (unmatched + 1) word unmatched all_prefixes
        else some false
      if known then
        filter_upgrade_loop word word_length all_prefixes i
          { outputs with
            data := outputs.data.set index
              { output with is_prediction := 0, known_prefix_size := unmatched % 2 ^ 8 } }
          true
      else if drop_prediction_outputs then do
        let outputs ← array_list_delete outputs i
        filter_upgrade_loop word word_length all_prefixes i outputs drop_prediction_outputs
      else filter_upgrade_loop word word_length all_prefixes i outputs drop_prediction_outputs
    else filter_upgrade_loop word word_length all_prefixes i outputs drop_prediction_outputs

/-- The second loop of `filter_productive_output`, from the index `i - 1`
down, which ends at the first output that is not a prediction. -/
def filter_drop_loop : Nat → ArrayList AutomatOutput → Option (ArrayList AutomatOutput)
  | 0, outputs => some outputs
  | i + 1, outputs => do
    let index ← array_list_get outputs i
    let output ← outputs.data[index]?
    if output.is_prediction ≠ 0 then do
      let outputs ← array_list_delete outputs i
      filter_drop_loop i outputs
    else some outputs

/-- `filter_productive_output`: the array of the outputs after the call. -/
def filter_productive_output (outputs : ArrayList AutomatOutput) (word : List Label)
    (word_length : Nat) (morphology : MorphologyBase) : Option (ArrayList AutomatOutput) := do
  let (outputs, drop_prediction_outputs) ←
    filter_upgrade_loop word word_length morphology.all_prefixes outputs.size outputs false
  if drop_prediction_outputs then filter_drop_loop outputs.size outputs
  else some outputs

/-- `collect_automat_output` for the calls of `on_complete` in their order: the
outputs appended to the array; `prefix_size` is cut to a `uint8_t`. -/
def collect_automat_output : List OutputCall → Option (List AutomatOutput)
  | [] => some []
  | call :: rest => do
    let output ← init_automat_output call.buffer (call.prefix_size % 2 ^ 8) call.is_prediction
    let outputs ← collect_automat_output rest
    pure (output :: outputs)

/-- `is_analyzed_model`. -/
def is_analyzed_model (model : Nat) (models : List Nat) : Bool :=
  models.any (fun checked => checked = model)

/-- `is_same_word_form`: `wcscmp` finds the words equal. -/
def is_same_word_form (form1 form2 : WordVariation) : Bool :=
  form1.word = form2.word

/-- `is_same_word_form_with_ancode`: the words are equal and the grammars are
the same address. -/
def is_same_word_form_with_ancode (form1 form2 : WordVariation) : Bool :=
  form1.word = form2.word && form1.grammar = form2.grammar

/-- `word_form_frequency_comparer`. -/
def word_form_frequency_comparer (form1 form2 : WordVariation) : Int :=
  if form1.frequency = form2.frequency then 0
  else if form1.frequency > form2.frequency then -1 else 1

/-- `array_list_index` with a function `eqfunc`: the index of the first element
that `eqfunc` finds equal to `data`, or -1. -/
def array_list_index {α : Type} (list : List α) (data : α) (eqfunc : α → α → Bool) : Int :=
  match list.findIdx? (fun item => eqfunc item data) with
  | some i => (i : Int)
  | none => -1

/-- `unique_variations_to_result`: the array `result` after the call; the
increment of `frequency` is that of an `int`. -/
def unique_variations_to_result (eq_function : WordVariation → WordVariation → Bool) :
    List WordVariation → List WordVariation → List WordVariation
  | [], result => result
  | variation :: variations, result =>
    let variation_index := array_list_index result variation eq_function
    if variation_index = -1 then
      unique_variations_to_result eq_function variations (result ++ [variation])
    else
      match result[variation_index.toNat]? with
      | some form =>
        unique_variations_to_result eq_function variations
          (result.set variation_index.toNat
            { form with frequency := to_int32 (form.frequency + 1) })
      | none => unique_variations_to_result eq_function variations result

/-- `qsort` of the C library with the comparison `compar`: the elements in an
order in which `compar` is not positive from an element to a later one.  The
order among elements that compare equal, which the C library leaves open, is
here that of the insertion sort. -/
def qsort {α : Type} (base : List α) (compar : α → α → Int) : List α :=
  base.insertionSort (fun a b => compar a b ≤ 0)

/-- The loop of `analyze_word` over the outputs: the array `result` at its end;
`checked_models` holds the models analysed so far.  `iswspace` is that of the
C library, which `wcstoul` calls. -/
def analyze_outputs_loop (iswspace : Label → Bool) (word : List Label) (word_length : Nat)
    (morphology : MorphologyBase) (only_lemmas : Nat)
    (eq_func : WordVariation → WordVariation → Bool) :
    List AutomatOutput → List Nat → List WordVariation → Option (List WordVariation)
  | [], _, result => some result
  | output :: outputs, checked_models, result =>
    let form := parse_morphology_annotation iswspace (AutomatOutput.annotation output)
    if !is_analyzed_model form.flex_model_index checked_models then do
      let result ←
        if output.is_prediction ≠ 0 then
          let base_part_size : Int := (word_length : Int) - (form.flexion_size : Int)
          if base_part_size ≥ (MIN_BASE_LENGTH : Int) then do
            let variations ← all_word_variations word word_length only_lemmas
              form.flexion_size (base_part_size.toNat % 2 ^ 8) form.flex_model_index morphology
            pure (unique_variations_to_result eq_func variations result)
          else pure result
        else do
          let variations ← all_word_variations word word_length only_lemmas
            form.flexion_size ((output.known_prefix_size + form.base_size) % 2 ^ 8)
            form.flex_model_index morphology
          pure (unique_variations_to_result eq_func variations result)
      analyze_outputs_loop iswspace word word_length morphology only_lemmas eq_func outputs
        (checked_models ++ [form.flex_model_index]) result
    else
      analyze_outputs_loop iswspace word word_length morphology only_lemmas eq_func outputs
        checked_models result

/-- `analyze_word`: the array returned.  `outputs_generator` gives, for the
reversed word, its length and the least match for a prediction, the calls of
`on_complete` that the generator makes for the automaton, in their order.  The
arrays `outputs` and `result` are kept as the lists of their elements;
`filter_productive_output` gets the array of the outputs, of which it reads
the stored elements only. -/
def analyze_word (iswspace : Label → Bool) (word : List Label) (word_length : Nat)
    (outputs_generator : List Label → Nat → Nat → Option (List OutputCall))
    (morphology : MorphologyBase) (only_lemmas distinct_ancodes : Nat) :
    Option (List WordVariation) := do
  let eq_func :=
    if distinct_ancodes ≠ 0 then is_same_word_form_with_ancode else is_same_word_form
  let reversed_word := wcssubreverse (word.take word_length) 0 word_length
  let calls ← outputs_generator reversed_word word_length MIN_MATCH_FOR_PREDICTION
  let outputs ← collect_automat_output calls
  let outputs ← filter_productive_output
    { data := outputs, capacity := outputs.length, initial_capacity := 10,
      size := outputs.length } word word_length morphology
  let result ← analyze_outputs_loop iswspace word word_length morphology only_lemmas eq_func
    (array_list_elements outputs) [] []
  let result_size := result.length
  pure (if result_size > 1 then qsort result word_form_frequency_comparer else result)

end Morph

namespace Morph

/-! ## Notions used to state and prove the properties of the automaton -/

/-- The memory of an automaton. -/
abbrev Heap := Nat → Option State

/-- Lexicographic order on words by label code; a proper prefix is smaller. -/
def word_le : List Label → List Label → Prop
  | [], _ => True
  | _ :: _, [] => False
  | a :: u, b :: v => a < b ∨ (a = b ∧ word_le u v)

instance word_le_decidable : (u v : List Label) → Decidable (word_le u v)
  | [], _ => isTrue trivial
  | _ :: _, [] => isFalse (fun h => h)
  | a :: u, b :: v =>
    match word_le_decidable u v with
    | isTrue h => if hab : a < b then isTrue (Or.inl hab) else
        if hab' : a = b then isTrue (Or.inr ⟨hab', h⟩) else
          isFalse (fun hh => hh.elim hab (fun x => hab' x.1))
    | isFalse h => if hab : a < b then isTrue (Or.inl hab) else
        isFalse (fun hh => hh.elim hab (fun x => h x.2))

/-- The right language of a state: the word is read from the state along
`find_transition` and ends in a final state. -/
def accF (h : Heap) : Nat → List Label → Bool
  | q, [] =>
    match h q with
    | some s => is_final_state s == 1
    | none => false
  | q, c :: u =>
    match h q with
    | some s =>
      match find_transition s.transition_list c with
      | some t => accF h t.target u
      | none => false
    | none => false

/-- What the walk along a word reads of a state: finality and transitions. -/
def view (s : State) : Nat × TransitionList := (is_final_state s, s.transition_list)

/-- The labels of a transition list increase strictly. -/
def SortedLabels (l : TransitionList) : Prop :=
  (l.map (fun t => t.label)).Pairwise (fun a b => a < b)

/-- The state at the address is alive and marked as registered. -/
def Reg (h : Heap) (q : Nat) : Prop :=
  ∃ s, h q = some s ∧ is_marked_as_registered s = true

/-- The signature of a state record whose targets carry the id `address + 1`:
what `state_description_key` computes for it during the construction. -/
def sig (s : State) : Key :=
  (is_final_state s, s.transition_list.map (fun t => (t.label, t.target + 1)))

/-- The every-state-has-at-most-one-transition-per-label property. -/
def Deterministic (A : Automat) : Prop :=
  ∀ q s, q ∈ A.ring → A.heap q = some s → (s.transition_list.map (fun t => t.label)).Nodup

/-- No two distinct states of the ring have the same `state_description_key`. -/
def DistinctSignatures (A : Automat) : Prop :=
  (∀ q, q ∈ A.ring → (state_description_key A q).isSome = true) ∧
  ∀ p q, p ∈ A.ring → q ∈ A.ring →
    state_description_key A p = state_description_key A q → p = q

/-- The unregistered branch of the automaton: `Spine h p u qs q` says that the
word `u` leads from `p` to `q` through the unregistered states `qs` (`q`
excluded), each of which has the next state as the target of its last
transition and registered states as the targets of the others; addresses
increase along the branch. -/
inductive Spine (h : Heap) : Nat → List Label → List Nat → Nat → Prop
  | nil (p : Nat) : Spine h p [] [] p
  | cons (p : Nat) (s : State) (a : Label) (t : Nat) (rest : TransitionList)
      (u : List Label) (qs : List Nat) (q : Nat) :
      h p = some s → is_marked_as_registered s = false →
      s.transition_list = rest ++ [{ label := a, target := t }] →
      (∀ x ∈ rest, Reg h x.target) → p < t →
      Spine h t u qs q → Spine h p (a :: u) (p :: qs) q

/-- The invariant of the registered part of the automaton during the
construction. -/
structure RegInv (A : Automat) (cl : EquivalenceClassList) : Prop where
  class_list : A.class_list = some cl
  reg_of_class : ∀ key cls, hash_table_chain_get cl key = some cls →
    ∃ q s, cls.state_list = [q] ∧ A.heap q = some s ∧
      is_marked_as_registered s = true ∧ sig s = key
  class_of_reg : ∀ q s, A.heap q = some s → is_marked_as_registered s = true →
    ∃ cls, hash_table_chain_get cl (sig s) = some cls ∧ cls.state_list = [q]
  closed : ∀ q s, A.heap q = some s → is_marked_as_registered s = true →
    ∀ x ∈ s.transition_list, Reg A.heap x.target
  sorted : ∀ q s, A.heap q = some s → SortedLabels s.transition_list
  ids : ∀ q s, A.heap q = some s → s.id = q + 1
  alloc : ∀ q s, A.heap q = some s → q < A.allocated
  counter : A.last_state_id = A.allocated
  ring_nodup : A.ring.Nodup
  ring_mem : ∀ q, q ∈ A.ring ↔ (A.heap q).isSome = true
  ring_head : A.ring.head? = some A.initial_state
  degree : ∀ q s, A.heap q = some s → s.transition_list.length + q < A.allocated

/-- The invariant of the construction after the words `ws`, the last of which
is `w` (the empty word for the fresh automaton): the unregistered states are
the branch of `w`, which ends in a state without transitions, and the language
read from the initial state is `ws`. -/
structure Inv (A : Automat) (cl : EquivalenceClassList) (ws : List (List Label))
    (w : List Label) (qs : List Nat) (qe : Nat) : Prop where
  reg : RegInv A cl
  spine : Spine A.heap A.initial_state w qs qe
  leaf : ∃ s, A.heap qe = some s ∧ is_marked_as_registered s = false ∧ s.transition_list = []
  part : ∀ x s, A.heap x = some s → is_marked_as_registered s = false → x ∈ qs ∨ x = qe
  lang : ∀ u, accF A.heap A.initial_state u = true ↔ u ∈ ws
  suffixes : ∀ q, Reg A.heap q → ∃ u, u ≠ [] ∧ ∀ y, accF A.heap q y = true → u ++ y ∈ ws
  size : A.allocated ≤ 1 + (ws.map List.length).sum

end Morph

namespace Morph

/-! ## Notions used for saving and loading -/

/-- The shape of an automaton that `save_automat` relies on: the ring lists the
live states once each, starting with the initial state; transitions lead to
states of the ring; the numbers of states and of transitions of a state fit
their 32-bit counters. -/
structure WellFormed (A : Automat) : Prop where
  ring_nodup : A.ring.Nodup
  ring_mem : ∀ q, q ∈ A.ring ↔ (A.heap q).isSome = true
  ring_head : A.ring.head? = some A.initial_state
  targets : ∀ q s, A.heap q = some s → ∀ t ∈ s.transition_list, t.target ∈ A.ring
  size : A.ring.length < 2 ^ 32
  degree : ∀ q s, A.heap q = some s → s.transition_list.length < 2 ^ 32

/-- Every label of the automaton is a 32-bit `wchar_t` value. -/
def labels_fit (A : Automat) : Bool :=
  A.ring.all (fun q =>
    match A.heap q with
    | some s => s.transition_list.all (fun t => decide (-2 ^ 31 ≤ t.label ∧ t.label < 2 ^ 31))
    | none => true)

/-- What the file holds of one state: id, final flag and the descriptors of the
transitions. -/
structure StateRecord where
  id : Nat
  final : Nat
  descriptors : List (Label × Nat)

/-- The description of a state in the file. -/
def encode_record (r : StateRecord) : Bytes :=
  le_bytes 4 r.id ++ [r.final] ++ le_bytes 4 (r.descriptors.length % 2 ^ 32) ++
    r.descriptors.flatMap (fun d => le_bytes 4 (label_bits d.1) ++ le_bytes 4 d.2)

/-- The descriptions of the states, each behind its size. -/
def encode_records (records : List StateRecord) : Bytes :=
  records.flatMap (fun r =>
    le_bytes 8 ((4 + 1 + 4 + r.descriptors.length * 8) % 2 ^ 64) ++ encode_record r)

/-- The record of a state of the ring once the states are renumbered: the id
is the place in the ring. -/
def record_of (A : Automat) (q : Nat) : StateRecord :=
  match A.heap q with
  | some s =>
    { id := A.ring.indexOf q, final := is_final_state s,
      descriptors := s.transition_list.map (fun t => (t.label, A.ring.indexOf t.target)) }
  | none => { id := 0, final := 0, descriptors := [] }

/-- The state built by the loader from a record. -/
def state_of_record (r : StateRecord) : State :=
  { transition_list := r.descriptors.map (fun d => { label := d.1, target := d.2 }),
    id := r.id,
    flags := if r.final ≠ 0 then UNMARKED_STATE ||| FINAL_STATE else UNMARKED_STATE }

end Morph

namespace Morph

/-- The copy of an automaton under a renaming of the addresses. -/
structure IsCopy (f : Nat → Nat) (A L : Automat) : Prop where
  ring : L.ring = A.ring.map f
  initial : L.initial_state = f A.initial_state
  heap : ∀ q s, q ∈ A.ring → A.heap q = some s → ∃ s', L.heap (f q) = some s' ∧
    is_final_state s' = is_final_state s ∧
    s'.transition_list = s.transition_list.map (fun t => { label := t.label, target := f t.target })

/-- Every label of a transition in the memory satisfies `P`. -/
def LabelsIn (P : Label → Prop) (h : Heap) : Prop :=
  ∀ q s, h q = some s → ∀ t ∈ s.transition_list, P t.label

/-- The compact state that `decode_state` builds from a record. -/
def mini_state_of_record (r : StateRecord) : MiniState :=
  { is_final := r.final, transitions_count := r.descriptors.length % 2 ^ 8,
    transitions := (r.descriptors.map (fun d => ({ label := d.1, target := d.2 } : MiniTransition))).insertionSort
      (fun a b => a.label ≤ b.label) }

/-- The one-letter words with the labels `1 … n`. -/
def letters (n : Nat) : List (List Label) := (List.range n).map (fun i => [((i + 1 : Nat) : Int)])

end Morph

namespace Morph

/-! ## Notions used for the suffix array -/

/-- Lexicographic order on byte strings by unsigned byte value; a proper
prefix is smaller. -/
def bytes_le : Bytes → Bytes → Prop
  | [], _ => True
  | _ :: _, [] => False
  | a :: u, b :: v => a < b ∨ (a = b ∧ bytes_le u v)

instance bytes_le_decidable : (u v : Bytes) → Decidable (bytes_le u v)
  | [], _ => isTrue trivial
  | _ :: _, [] => isFalse (fun h => h)
  | a :: u, b :: v =>
    match bytes_le_decidable u v with
    | isTrue h => if hab : a < b then isTrue (Or.inl hab) else
        if hab' : a = b then isTrue (Or.inr ⟨hab', h⟩) else
          isFalse (fun hh => hh.elim hab (fun x => hab' x.1))
    | isFalse h => if hab : a < b then isTrue (Or.inl hab) else
        isFalse (fun hh => hh.elim hab (fun x => h x.2))

/-- The suffix array lists the suffixes of the text in ascending order. -/
def SuffixSorted (text : Bytes) (SA : List Nat) : Prop :=
  SA.Pairwise (fun p q => bytes_le (text.drop p) (text.drop q))

instance suffixSorted_decidable (text : Bytes) (SA : List Nat) :
    Decidable (SuffixSorted text SA) := by
  unfold SuffixSorted
  exact inferInstance

end Morph

namespace Morph

/-- Strict lexicographic order on byte strings; a proper prefix is smaller. -/
def bytes_lt : Bytes → Bytes → Prop
  | _, [] => False
  | [], _ :: _ => True
  | a :: u, b :: v => a < b ∨ (a = b ∧ bytes_lt u v)

/-- The text that `suffix_array` expects: `n` symbols between 1 and `K`, and
zeros behind them. -/
structure TextOk (s : List Nat) (n K : Nat) : Prop where
  pos : ∀ i, i < n → 0 < at_index s i
  le : ∀ i, i < n → at_index s i ≤ K
  zero : ∀ i, n ≤ i → at_index s i = 0

/-- The suffix of the `n` symbols of `s` that starts at position `i`. -/
def suffix_at (s : List Nat) (n i : Nat) : List Nat := (s.take n).drop i

/-- The suffix at `i` is smaller than the suffix at `j`. -/
def SufLt (s : List Nat) (n i j : Nat) : Prop := bytes_lt (suffix_at s n i) (suffix_at s n j)

/-- The list holds every position of the text once, in ascending order of the
suffixes. -/
def IsSuffixArray (s : List Nat) (n : Nat) (SA : List Nat) : Prop :=
  SA.Perm (List.range n) ∧ SA.Pairwise (SufLt s n)

/-- The elements of the list with the key `k`, in list order. -/
def bucket (keys : Nat → Nat) (L : List Nat) (k : Nat) : List Nat :=
  L.filter (fun x => decide (keys x = k))

/-- The list sorted stably by key: the buckets of the keys `0 … K` in turn. -/
def bucket_sort (keys : Nat → Nat) (K : Nat) (L : List Nat) : List Nat :=
  (List.range (K + 1)).flatMap (bucket keys L)

/-- The list `B` stands in `T` from the offset `a` on. -/
def Seg (T : List Nat) (a : Nat) (B : List Nat) : Prop := (T.drop a).take B.length = B

/-- The offset of the bucket of the key `k` in the sorted list. -/
def bucket_offset (keys : Nat → Nat) (L : List Nat) (k : Nat) : Nat :=
  ((List.range k).flatMap (bucket keys L)).length

/-- The positions of the mod 1 and mod 2 suffixes, with the dummy position `n`
when `n % 3 = 1`. -/
def sample_positions (n : Nat) : List Nat :=
  (List.range (n + ((n + 2) / 3 - (n + 1) / 3))).filter (fun i => i % 3 ≠ 0)

/-- The order of the triples of symbols at two positions. -/
def TripleLe (s : List Nat) (x y : Nat) : Prop :=
  at_index s x < at_index s y ∨ (at_index s x = at_index s y ∧
    (at_index s (x + 1) < at_index s (y + 1) ∨ (at_index s (x + 1) = at_index s (y + 1) ∧
      at_index s (x + 2) ≤ at_index s (y + 2))))

/-- The triples of symbols at two positions are equal. -/
def TripleEq (s : List Nat) (x y : Nat) : Prop :=
  at_index s x = at_index s y ∧ at_index s (x + 1) = at_index s (y + 1) ∧
    at_index s (x + 2) = at_index s (y + 2)

/-- The sample positions after the three passes of the radix sort. -/
def sorted_triples (s : List Nat) (n K : Nat) : List Nat :=
  bucket_sort (fun i => at_index s i) K
    (bucket_sort (fun i => at_index s (i + 1)) K
      (bucket_sort (fun i => at_index s (i + 2)) K (sample_positions n)))

/-- The index in `s12` of the sample position `x`: the mod 1 positions fill
the left half, the mod 2 positions the right half. -/
def sample_index (n0 x : Nat) : Nat := if x % 3 = 1 then x / 3 else x / 3 + n0

/-- The state of the naming loop after the positions `P`: `cur` holds the name
`nm x` at the index of every `x` of `P`, the names run from 1 to `name` and
are ordered as the triples, and the rest of `cur` is as in `s12`. -/
structure NamesInv (s : List Nat) (n0 : Nat) (s12 P : List Nat) (name : Nat) (cur : List Nat)
    (nm : Nat → Nat) : Prop where
  stored : ∀ x ∈ P, at_index cur (sample_index n0 x) = nm x
  range : ∀ x ∈ P, 1 ≤ nm x ∧ nm x ≤ name
  order : ∀ x ∈ P, ∀ y ∈ P, (nm x ≤ nm y ↔ TripleLe s x y)
  count : name ≤ P.length
  unique : name = P.length → ∀ x ∈ P, ∀ y ∈ P, nm x = nm y → x = y
  length : cur.length = s12.length
  frame : ∀ i, (∀ x ∈ P, sample_index n0 x ≠ i) → at_index cur i = at_index s12 i

/-- The comparison of the merge loop: the suffix of `SA12[t]` against the
suffix of `SA0[p]`. -/
def merge_smaller (s s12 SA12 SA0 : List Nat) (n0 p t : Nat) : Bool :=
  if at_index SA12 t < n0 then
    leq_pairs (at_index s (GetI SA12 n0 t)) (at_index s12 (at_index SA12 t + n0))
      (at_index s (at_index SA0 p)) (at_index s12 (at_index SA0 p / 3))
  else
    leq_triples (at_index s (GetI SA12 n0 t)) (at_index s (GetI SA12 n0 t + 1))
      (at_index s12 (at_index SA12 t - n0 + 1))
      (at_index s (at_index SA0 p)) (at_index s (at_index SA0 p + 1))
      (at_index s12 (at_index SA0 p / 3 + n0))

/-- The sample position with the index `q` in `s12`, as `GetI()` computes
it. -/
def sample_position (n0 q : Nat) : Nat := if q < n0 then q * 3 + 1 else (q - n0) * 3 + 2

/-- The ranks of the sample suffixes: `SA` lists the indices of the sample
positions in the order of their suffixes, and `R` holds at every index its
place in `SA` plus one, and zeros behind. -/
structure RankOk (s : List Nat) (n : Nat) (R SA : List Nat) : Prop where
  perm : SA.Perm (List.range ((n + 2) / 3 + n / 3))
  rank : ∀ p, p < (n + 2) / 3 + n / 3 → at_index R p = SA.indexOf p + 1
  zero : ∀ p, (n + 2) / 3 + n / 3 ≤ p → at_index R p = 0
  order : ∀ x ∈ sample_positions n, ∀ y ∈ sample_positions n,
    (SA.indexOf (sample_index ((n + 2) / 3) x) < SA.indexOf (sample_index ((n + 2) / 3) y) ↔
      SufLt s n x y)

end Morph

namespace Morph

/-! ## Known prefixes -/

/-- The word is a concatenation of one or more of the known prefixes. -/
def concat_of_known (known_prefixes : List (List Label)) (w : List Label) : Prop :=
  ∃ parts : List (List Label), parts ≠ [] ∧ (∀ p ∈ parts, p ∈ known_prefixes) ∧
    parts.flatten = w

/-! ## Language detection -/

/-- The state of the loop of `detect_language` after the languages `seen`:
none of them knows the whole word, none knows more than `max_known`
characters, and `result` is the first one that knows `max_known` characters
(`NULL` while `max_known` is 0). -/
structure DetectInv (word : List Label) (word_length : Nat) (seen : List MiniAutomat)
    (max_known : Nat) (result : Option Nat) : Prop where
  le : ∀ (j : Nat) (M : MiniAutomat) (m : Nat), seen[j]? = some M → known_part_of_word M word word_length = some m →
    m ≤ max_known ∧ m ≠ word_length
  best : ∀ (r : Nat), result = some r → ∃ L : MiniAutomat, seen[r]? = some L ∧
    known_part_of_word L word word_length = some max_known ∧
    ∀ (j : Nat) (M : MiniAutomat) (m : Nat), j < r → seen[j]? = some M → known_part_of_word M word word_length = some m →
      m < max_known

end Morph

namespace Morph

/-! ## The hash table: what it stores -/

namespace HashTable

variable {α : Type}

/-- The key and the value of the link at an address. -/
def link_entry (table : HashTable α) (p : Nat) : Bytes × Option α :=
  match table.heap p with
  | some record => (record.key, record.value)
  | none => ([], none)

/-- The stored pairs of key and value in the order of insertion, oldest
first. -/
def entries (table : HashTable α) : List (Bytes × Option α) :=
  table.added.map (link_entry table)

/-- The arguments that `on_push_out` receives for a link: key, size of the key,
value. -/
def pushed (t : HashTable α) (p : Nat) : Bytes × Nat × Option α :=
  ((link_entry t p).1, (link_entry t p).1.length, (link_entry t p).2)

/-- The value of the first pair with the key; `none` stands for `NULL`. -/
def lookup (key : Bytes) : List (Bytes × Option α) → Option α
  | [] => none
  | (k, v) :: rest => if k = key then v else lookup key rest

/-- The calls `hash_table_chain_put(table, key, value)` for the pairs of a list,
in order. -/
def put_all : HashTable α → List (Bytes × Option α) → Option (HashTable α)
  | table, [] => some table
  | table, (key, value) :: rest => do
    let table ← hash_table_chain_put table key value
    put_all table rest

/-- The representation invariant of a hash table: the links of the list of
insertion are allocated and distinct, carry the hash and the size of their key,
have distinct keys, and the ring of every cell holds exactly the links whose
hash falls into the cell; `total_stored` counts the links and fits `size_t`. -/
structure TableOk (table : HashTable α) : Prop where
  size_pos : 0 < table.size
  bucket_length : table.bucket.length = table.size
  nodup : table.added.Nodup
  alloc : ∀ p ∈ table.added, p < table.allocated
  links : ∀ p ∈ table.added, ∃ record, table.heap p = some record ∧
    record.hash = hash_of_key record.key ∧ record.key_size = record.key.length
  keys : ∀ p ∈ table.added, ∀ q ∈ table.added,
    (link_entry table p).1 = (link_entry table q).1 → p = q
  rings : ∀ (i : Nat) (ring : List Nat), table.bucket[i]? = some ring →
    ring.Nodup ∧ ∀ p, p ∈ ring ↔
      (p ∈ table.added ∧ BUCKET_INDEX (hash_of_key (link_entry table p).1) table.size = i)
  total : table.total_stored = table.added.length
  total_lt : table.added.length < 2 ^ 64

end HashTable

end Morph

namespace Morph

/-! ## The cache of descriptions -/

/-- The cache of descriptions is a good table, and every entry holds, under the
bytes of a word, a description of its stored size that ends with the word and
the terminator. -/
structure CacheOk (cache : HashTable CachedDescription) : Prop where
  table : HashTable.TableOk cache
  described : ∀ (key : Bytes) (value : Option CachedDescription),
    (key, value) ∈ HashTable.entries cache →
    ∃ data, value = some data ∧ data.description_size = data.description.length ∧
      ∃ lemmas_part, data.description = lemmas_part ++ key ++ [WORD_DESCRIPTION_TERMINATOR]

end Morph

namespace Morph

/-! ## Descriptions and their components -/

/-- The description `c1.c2.….cn.` of the components `c1 … cn`. -/
def description_of (components : List Bytes) : Bytes :=
  (components.map (fun c => c ++ [WORD_DESCRIPTION_TERMINATOR])).flatten

/-- A component of a description: a lemma or the form of the word, not empty,
of bytes from 1 to 255 other than the terminator. -/
def IsComponent (c : Bytes) : Prop :=
  c ≠ [] ∧ ∀ b ∈ c, 0 < b ∧ b < 256 ∧ b ≠ WORD_DESCRIPTION_TERMINATOR

/-- The described word of the token `form` with the lemmas `lemmas`: the
description lists the lemmas and then the form. -/
def described (lemmas : List Bytes) (form : Bytes) : DescribedWord :=
  { token_size := form.length, description := description_of (lemmas ++ [form]) }

/-- A described word as `make_word_description` builds it. -/
def WellDescribed (w : DescribedWord) : Prop :=
  ∃ lemmas form, w = described lemmas form ∧ ∀ c ∈ lemmas ++ [form], IsComponent c

/-- The sample occurs in the text at the position `p`. -/
def occurs_at (sample text : Bytes) (p : Nat) : Prop :=
  p < text.length ∧ (text.drop p).take sample.length = sample

/-- The sample `.c.` with which `find_lemmas_in_document` looks for the
component `c`. -/
def sample_of (c : Bytes) : Bytes :=
  WORD_DESCRIPTION_TERMINATOR :: (c ++ [WORD_DESCRIPTION_TERMINATOR])

/-- The text of the document of the described words, when there is a word: a
terminator and the descriptions. -/
def words_text (words : List DescribedWord) : Bytes :=
  WORD_DESCRIPTION_TERMINATOR :: (words.map (fun w => w.description)).flatten

/-- The position in the text of a document at which the range of the word `j`
starts. -/
def range_start (words : List DescribedWord) (j : Nat) : Nat :=
  ((words.take j).map (fun w => w.description.length)).sum

/-- The ranges that the loop of `build_text_with_ranges` adds for the words
that follow the first one, from the values of `cursor` and `words_counter`. -/
def ranges_from : Int → Int → List DescribedWord → List WordRange
  | _, _, [] => []
  | cursor, words_counter, w :: words =>
    { word_index := words_counter, start_position := cursor - 1,
      end_position := cursor + (w.description.length : Int) - 1,
      original_start := cursor + (w.description.length : Int) - 1 - (w.token_size : Int) - 1 } ::
      ranges_from (cursor + (w.description.length : Int)) (words_counter + 1) words

/-- The suffix array of a document is the sorted permutation of the positions
of its text, and the text holds no zero byte. -/
structure DocumentOk (document : Document) : Prop where
  perm : document.suffix_array.Perm (List.range document.text.length)
  sorted : SuffixSorted document.text document.suffix_array
  nonzero : ∀ b ∈ document.text, b ≠ 0

end Morph

namespace Morph

/-! ## The search of the components of a description -/

/-- What one round of the loop of `find_lemmas_in_document` does with the
component `c`: the search of `.c.` and the walk over the suffixes found. -/
def find_lemma_step (document : Document) (is_first_lemma : Bool) (c : Bytes)
    (allowed_ranges result_ranges : List (Option Nat)) :
    Option (List (Option Nat) × List (Option Nat)) := do
  let found ← find_with_suffix_array (sample_of c) (sample_of c).length document.text
    document.text.length document.suffix_array
  match found with
  | some (start_suffix, end_suffix) =>
    collect_ranges document is_first_lemma
      (((document.suffix_array.drop start_suffix).take (end_suffix + 1 - start_suffix)))
      allowed_ranges result_ranges
  | none => some (allowed_ranges, result_ranges)

/-- The rounds of the loop of `find_lemmas_in_document` over the components of
a description. -/
def find_lemmas_fold (document : Document) (is_first_lemma : Bool) :
    List Bytes → List (Option Nat) → List (Option Nat) →
      Option (List (Option Nat) × List (Option Nat))
  | [], allowed_ranges, result_ranges => some (allowed_ranges, result_ranges)
  | c :: cs, allowed_ranges, result_ranges => do
    let (allowed_ranges, result_ranges) ←
      find_lemma_step document is_first_lemma c allowed_ranges result_ranges
    find_lemmas_fold document is_first_lemma cs allowed_ranges result_ranges

/-- A word as the tokenizer cuts it, in bytes: not empty, of bytes from 1 to
255, none of them a terminator, a blank, a tab, a carriage return, a line
feed, a `|` or a `!`. -/
def IsWord (word : Bytes) : Prop :=
  word ≠ [] ∧ ∀ b ∈ word, 0 < b ∧ b < 256 ∧ b ∉ [46, 32, 9, 13, 10, 124, 33]

end Morph

namespace Morph

/-! ## Digits of the base 36 -/

/-- A character of the dictionary of `ultowcs`: it is not the terminating zero
and `wcstoul` reads it as a digit of the base 36. -/
def IsDigit36 (c : Label) : Prop :=
  c ∈ ultowcs_dictionary ∧ c ≠ 0 ∧ ∃ d, d < 36 ∧ wcstoul_digit c = some d

/-! ## Compact automata -/

/-- A compact automaton as `load_mini_automat` gives it: there is an initial
state, the transitions counted in a state are stored, and every transition
leads to a state of the automaton. -/
def WellFormedMini (automat : MiniAutomat) : Prop :=
  0 < automat.states.length ∧
  ∀ s ∈ automat.states, s.transitions_count ≤ s.transitions.length ∧
    ∀ t ∈ s.transitions, t.target < automat.states.length

/-- What a call of `mini_collect_output` at a depth that is not zero, or in
prediction mode, does: it returns, the buffer keeps its size, the calls made
before are kept, the new calls have the `is_prediction` of the call, and at a
depth that is not zero a buffer that starts with `|` keeps starting with `|`,
in the new calls as well. -/
def CollectSpec (is_prediction buffer_size : Nat) (headed : Prop) (buffer : List Label)
    (calls : List OutputCall) (result : Option (List Label × List OutputCall)) : Prop :=
  ∃ buffer0 new, result = some (buffer0, calls ++ new) ∧ buffer0.length = buffer_size ∧
    (∀ c ∈ new, c.is_prediction = is_prediction) ∧
    (headed → buffer.head? = some ANNOTATION_DELIMITER →
      buffer0.head? = some ANNOTATION_DELIMITER ∧
        ∀ c ∈ new, c.buffer.head? = some ANNOTATION_DELIMITER)

/-! ## The shape of the tokens -/

/-- The bytes `k`, none of them zero, are the character `c` for `mbrtowc`,
whatever follows them. -/
def IsChar (mbrtowc : Bytes → Option (Label × Nat)) (c : Label) (k : Bytes) : Prop :=
  k ≠ [] ∧ (∀ b ∈ k, b ≠ 0) ∧ ∀ rest, mbrtowc (k ++ rest) = some (c, k.length)

/-- What the tokenizer needs of the decoding of the characters and of
`iswalnum`: a character takes at least one of the bytes it is read from and is
read the same whatever follows its bytes; a blank is the character 32; a
character that may stand inside a word takes one byte; the blank and the
terminating zero are not alphanumeric. -/
structure DecoderOk (mbrtowc : Bytes → Option (Label × Nat)) (iswalnum : Label → Bool) :
    Prop where
  size : ∀ s c n, mbrtowc s = some (c, n) → 1 ≤ n ∧ n ≤ s.length
  stable : ∀ s c n, mbrtowc s = some (c, n) → ∀ rest, mbrtowc (s.take n ++ rest) = some (c, n)
  blank : ∀ rest, mbrtowc (32 :: rest) = some (32, 1)
  extra_size : ∀ s c n, mbrtowc s = some (c, n) → is_extra_token_char c = true →
    iswalnum c = false → n = 1
  blank_not_alnum : iswalnum 32 = false
  zero_not_alnum : iswalnum 0 = false

/-- A text of valid characters: it is empty, or it starts with a character
and goes on, after the bytes of the character, with a text of valid
characters. -/
inductive ValidText (mbrtowc : Bytes → Option (Label × Nat)) : Bytes → Prop where
  | nil : ValidText mbrtowc []
  | cons (s : Bytes) (c : Label) (n : Nat) :
      mbrtowc s = some (c, n) → ValidText mbrtowc (s.drop n) → ValidText mbrtowc s

/-- Characters between two tokens: none of them is alphanumeric. -/
inductive Gap (mbrtowc : Bytes → Option (Label × Nat)) (iswalnum : Label → Bool) :
    Bytes → Prop where
  | nil : Gap mbrtowc iswalnum []
  | cons (c : Label) (k g : Bytes) :
      IsChar mbrtowc c k → iswalnum c = false → Gap mbrtowc iswalnum g →
      Gap mbrtowc iswalnum (k ++ g)

/-- The characters of a token after the first one: alphanumeric characters,
each of which may have before it one character of `kExtraAllowedInWord`. -/
inductive TokenTail (mbrtowc : Bytes → Option (Label × Nat)) (iswalnum : Label → Bool) :
    Bytes → Prop where
  | nil : TokenTail mbrtowc iswalnum []
  | alnum (c : Label) (k u : Bytes) :
      IsChar mbrtowc c k → iswalnum c = true → TokenTail mbrtowc iswalnum u →
      TokenTail mbrtowc iswalnum (k ++ u)
  | extra (x : Label) (e : Nat) (c : Label) (k u : Bytes) :
      IsChar mbrtowc x [e] → iswalnum x = false → is_extra_token_char x = true →
      IsChar mbrtowc c k → iswalnum c = true → TokenTail mbrtowc iswalnum u →
      TokenTail mbrtowc iswalnum (e :: (k ++ u))

/-- A token: an alphanumeric character and the characters after it. -/
def TokenShaped (mbrtowc : Bytes → Option (Label × Nat)) (iswalnum : Label → Bool)
    (t : Bytes) : Prop :=
  ∃ c k u, IsChar mbrtowc c k ∧ iswalnum c = true ∧ TokenTail mbrtowc iswalnum u ∧ t = k ++ u

/-- What follows a token in the text, with the number of bytes after the token
at which the next call of `tokenize` goes on, `none` for the position `NULL`:
the end of the text; a character that is neither alphanumeric nor allowed in
a word; a character allowed in a word at the end of the text; or such a
character before a character that is not alphanumeric. -/
inductive TokenStop (mbrtowc : Bytes → Option (Label × Nat)) (iswalnum : Label → Bool) :
    Bytes → Option Nat → Prop where
  | finish : TokenStop mbrtowc iswalnum [] none
  | other (c : Label) (k r : Bytes) :
      IsChar mbrtowc c k → iswalnum c = false → is_extra_token_char c = false →
      TokenStop mbrtowc iswalnum (k ++ r) (some k.length)
  | extra_finish (x : Label) (e : Nat) :
      IsChar mbrtowc x [e] → iswalnum x = false → is_extra_token_char x = true →
      TokenStop mbrtowc iswalnum [e] (some 1)
  | extra_other (x : Label) (e : Nat) (c : Label) (k r : Bytes) :
      IsChar mbrtowc x [e] → iswalnum x = false → is_extra_token_char x = true →
      IsChar mbrtowc c k → iswalnum c = false →
      TokenStop mbrtowc iswalnum (e :: (k ++ r)) (some 1)

/-- The tokens of a text, as a relation: the text is characters between
tokens, or such characters, a token, and what follows it, and the other tokens
are those of the text from the position at which the next call goes on. -/
inductive Tokens (mbrtowc : Bytes → Option (Label × Nat)) (iswalnum : Label → Bool) :
    Bytes → List Bytes → Prop where
  | done (g : Bytes) : Gap mbrtowc iswalnum g → Tokens mbrtowc iswalnum g []
  | last (g t : Bytes) :
      Gap mbrtowc iswalnum g → TokenShaped mbrtowc iswalnum t →
      Tokens mbrtowc iswalnum (g ++ t) [t]
  | token (g t rest : Bytes) (n : Nat) (ts : List Bytes) :
      Gap mbrtowc iswalnum g → TokenShaped mbrtowc iswalnum t →
      TokenStop mbrtowc iswalnum rest (some n) →
      Tokens mbrtowc iswalnum (rest.drop n) ts →
      Tokens mbrtowc iswalnum (g ++ t ++ rest) (t :: ts)

/-- The variables of `tokenize` when the loop ends with a token of `size`
bytes at the offset `a`, the text position being `position`. -/
def TokenReady (v : TokenizeVars) (position : Option Nat) (a size : Nat) : Prop :=
  v.state = some { text_position := position, code := state_code.TOKEN_READY } ∧
  v.token_start = some (a : Int) ∧ v.token_end = some ((a : Int) + (size : Int) - 1) ∧
  v.retval = (size : Int)

/-- The variables of `tokenize` when the loop ends at the end of the text. -/
def TokenizeFinal (v : TokenizeVars) : Prop :=
  v.state = none ∧ v.token_start = none ∧ v.token_end = none ∧ v.retval = 0

/-- The arguments of a call of `tokenize` make it go on from `position`: the
text is given at this offset, or the text is `NULL`, the last token had an end
and the memo holds the position. -/
def StartsAt (text_cursor : Option Nat) (token_end : Option Int)
    (memo : Option tokenizer_state) (position : Option Nat) : Prop :=
  (text_cursor = position ∧ position ≠ none) ∨
  (text_cursor = none ∧ token_end ≠ none ∧
    ∃ code, memo = some { text_position := position, code := code })

/-! ## A decoder for the characters of one and of two bytes of UTF-8 -/

/-- The character at the start of the bytes, when it takes one byte or two
bytes in UTF-8. -/
def mbrtowc_utf8 : Bytes → Option (Label × Nat)
  | [] => none
  | b :: rest =>
    if b < 128 then some ((b : Int), 1)
    else if 194 ≤ b ∧ b < 224 then
      match rest with
      | [] => none
      | b1 :: _ =>
        if 128 ≤ b1 ∧ b1 < 192 then some ((((b - 192) * 64 + (b1 - 128) : Nat) : Int), 2)
        else none
    else none

/-- The digits, the Latin letters of ASCII and the characters from U+0400 to
U+04FF taken as alphanumeric. -/
def iswalnum_sample (c : Label) : Bool :=
  (48 ≤ c && c ≤ 57) || (65 ≤ c && c ≤ 90) || (97 ≤ c && c ≤ 122) || (1024 ≤ c && c ≤ 1279)

/-- The check that a text is made of characters that `mbrtowc` reads, one
unit of fuel for each character. -/
def valid_text (mbrtowc : Bytes → Option (Label × Nat)) : Nat → Bytes → Bool
  | _, [] => true
  | 0, _ :: _ => false
  | fuel + 1, b :: rest =>
    match mbrtowc (b :: rest) with
    | some (_, n) => valid_text mbrtowc fuel ((b :: rest).drop n)
    | none => false

end Morph

namespace Morph

/-! ## The run of `mini_collect_output` -/

/-- The events of a run are in bounds: a call has a depth from `low` on and,
unless it is the call at `start`, a depth below `buffer_size - 1` or equal to
it; a write has an index below `buffer_size`. -/
def EventsOk (low start buffer_size : Nat) (events : List CollectEvent) : Prop :=
  ∀ e ∈ events,
    (∀ k, e = CollectEvent.call k → low ≤ k ∧ (k = start ∨ k + 1 ≤ buffer_size)) ∧
    (∀ i, e = CollectEvent.write i → i < buffer_size)

/-- A run returns and adds events in bounds to the events recorded before. -/
def EventsSpec (low start buffer_size : Nat) (events : List CollectEvent)
    (result : Option (List Label × List OutputCall × List CollectEvent)) : Prop :=
  ∃ buffer0 calls0 new, result = some (buffer0, calls0, events ++ new) ∧
    EventsOk low start buffer_size new

/-! ## The tokens that the calls of `tokenize` return -/

/-- What a call of `tokenize` returned is the token `t` of the text `T`: the
token starts at `token_start`, its last byte is at `token_end`, and the value
returned is its number of bytes. -/
def TokenCall (T : Bytes) (t : Bytes) (call : Int × Option Int × Option Int) : Prop :=
  ∃ a : Nat, call = ((t.length : Int), some (a : Int), some ((a : Int) + (t.length : Int) - 1)) ∧
    (T.drop a).take t.length = t

/-- The characters of a token, each with the bytes it is read from: there is
one at least, each is alphanumeric or allowed in a word, the first and the
last are alphanumeric, and of two neighbours one is alphanumeric. -/
def TokenChars (mbrtowc : Bytes → Option (Label × Nat)) (iswalnum : Label → Bool)
    (t : Bytes) (chars : List (Label × Bytes)) : Prop :=
  t = (chars.map (fun p => p.2)).flatten ∧
  (∀ p ∈ chars, IsChar mbrtowc p.1 p.2 ∧
    (iswalnum p.1 = true ∨ is_extra_token_char p.1 = true)) ∧
  (∃ p, chars.head? = some p ∧ iswalnum p.1 = true) ∧
  (∃ p, chars.getLast? = some p ∧ iswalnum p.1 = true) ∧
  chars.Chain' (fun p q => iswalnum p.1 = true ∨ iswalnum q.1 = true)

/-! ## The forms of a word -/

/-- A variance fits the buffer of `all_word_variations`: its prefix has at
most `MAX_FLEX_PREFIX_SIZE` characters and its flexion at most
`MAX_FLEX_FLEXION_SIZE`, none of them the terminating zero. -/
def VarianceFits (v : FlexVariance) : Prop :=
  (∀ p, v.prefix_chars = some p → p.length ≤ MAX_FLEX_PREFIX_SIZE ∧ ∀ c ∈ p, c ≠ 0) ∧
  (∀ f, v.flexion = some f → f.length ≤ MAX_FLEX_FLEXION_SIZE ∧ ∀ c ∈ f, c ≠ 0)

/-- The form that a variance of the flex model `flex_model_no` makes of the
base `stem`: the prefix of the variance, the base and the flexion of the
variance. -/
def variation_of (stem : List Label) (flex_model_no : Nat) (v : FlexVariance) : WordVariation :=
  { word := v.prefix_chars.getD [] ++ stem ++ v.flexion.getD [],
    word_length := (v.prefix_chars.getD []).length + stem.length + (v.flexion.getD []).length,
    flex_model_index := flex_model_no,
    flexion_size := (v.flexion.getD []).length,
    base_size := stem.length,
    frequency := 0,
    grammar := v.grammar }

/-! ## The filter of the outputs -/

/-- An array list whose stored elements are the list `elements`: the size is
that of a `size_t` and the blocks of the elements are allocated. -/
def HoldsElements {α : Type} (list : ArrayList α) (elements : List α) : Prop :=
  list.size ≤ list.data.length ∧ list.size < 2 ^ 64 ∧ array_list_elements list = elements

/-- The output is one that `filter_productive_output` upgrades: a prediction
with an empty text, for a word whose head before the part that the automaton
matched is made of known prefixes. -/
def Upgradable (word : List Label) (word_length : Nat) (all_prefixes : List (List Label))
    (output : AutomatOutput) : Prop :=
  output.is_prediction ≠ 0 ∧ output.text.length = 0 ∧
  word_has_known_prefix (word_length - output.automat_prefix_size + 1) word
    (word_length - output.automat_prefix_size) all_prefixes = some true

/-- The test of `filter_productive_output` on an output that is a prediction:
the text is empty and the head of the word is made of known prefixes. -/
def known_prefix_head (word : List Label) (word_length : Nat)
    (all_prefixes : List (List Label)) (output : AutomatOutput) : Bool :=
  decide (output.text.length = 0) &&
    ( word_has_known_prefix (word_length - output.automat_prefix_size + 1) word
      (word_length - output.automat_prefix_size) all_prefixes == some true)

/-- The output after its upgrade: it is no prediction, and the size of the
known prefix is kept in a `uint8_t`. -/
def upgraded (word_length : Nat) (output : AutomatOutput) : AutomatOutput :=
  { output with
    is_prediction := 0,
    known_prefix_size := (word_length - output.automat_prefix_size) % 2 ^ 8 }

/-- The first loop of `filter_productive_output` on the outputs not yet seen,
the last one first, `back` being the outputs kept so far: the outputs and the
flag at the end of the loop, when each test of ` word_has_known_prefix` gives
the value of `known`. -/
def upgrade_pass (known : AutomatOutput → Bool) (word_length : Nat) :
    List AutomatOutput → List AutomatOutput → Bool → List AutomatOutput × Bool
  | [], back, drop => (back, drop)
  | output :: rest, back, drop =>
    if output.is_prediction ≠ 0 then
      if known output then
        upgrade_pass known word_length rest (upgraded word_length output :: back) true
      else if drop then upgrade_pass known word_length rest back drop
      else upgrade_pass known word_length rest (output :: back) drop
    else upgrade_pass known word_length rest (output :: back) drop

/-! ## The analysis of a word -/

/-- The output fits the morphology and the word: its annotation names a flex
model of the base, the variances of which fit the buffer of
`all_word_variations`, with a variance when only the lemma is asked for, and,
when the output is no prediction, the flexion and the base that
`analyze_word` takes are a part of the word. -/
def OutputFits (iswspace : Label → Bool) (word_length : Nat) (morphology : MorphologyBase)
    (only_lemmas : Nat) (output : AutomatOutput) : Prop :=
  ∃ model,
    morphology.flex_models[( parse_morphology_annotation iswspace
      (AutomatOutput.annotation output)).flex_model_index]? = some model ∧
    (∀ v ∈ model, VarianceFits v) ∧ (only_lemmas ≠ 0 → model ≠ []) ∧
    (output.is_prediction = 0 →
      ( parse_morphology_annotation iswspace (AutomatOutput.annotation output)).flexion_size +
        (output.known_prefix_size +
          ( parse_morphology_annotation iswspace
            (AutomatOutput.annotation output)).base_size) % 2 ^ 8 ≤ word_length)

/-- A call of `on_complete` fits the morphology and the word: the buffer holds
a text without `|`, the `|`, the code of the annotation and a zero; the matched
part is no longer than the word; the code names a flex model of the base, the
variances of which fit the buffer of `all_word_variations`, with a variance
when only the lemma is asked for; and the flexion and the base that
`analyze_word` takes are a part of the word, for an output that is no
prediction and for a prediction with an empty text, which may be upgraded. -/
def CallFits (iswspace : Label → Bool) (word_length : Nat) (morphology : MorphologyBase)
    (only_lemmas : Nat) (call : OutputCall) : Prop :=
  ∃ (text code rest : List Label) (model : FlexModel),
    call.buffer = text ++ ANNOTATION_DELIMITER :: (code ++ 0 :: rest) ∧
    (∀ c ∈ text, c ≠ 0 ∧ c ≠ ANNOTATION_DELIMITER) ∧ (∀ c ∈ code, c ≠ 0) ∧
    call.prefix_size % 2 ^ 8 ≤ word_length ∧
    morphology.flex_models[( parse_morphology_annotation iswspace code).flex_model_index]? =
      some model ∧
    (∀ v ∈ model, VarianceFits v) ∧ (only_lemmas ≠ 0 → model ≠ []) ∧
    (call.is_prediction = 0 →
      ( parse_morphology_annotation iswspace code).flexion_size +
        ( parse_morphology_annotation iswspace code).base_size ≤ word_length) ∧
    (call.is_prediction ≠ 0 → text = [] →
      ( parse_morphology_annotation iswspace code).flexion_size +
        ((word_length - call.prefix_size % 2 ^ 8) % 2 ^ 8 +
          ( parse_morphology_annotation iswspace code).base_size) % 2 ^ 8 ≤ word_length)

/-- The variations that the loop of `analyze_word` generates for the outputs,
in their order, those of every flex model that it analyses: the loop without
`unique_variations_to_result`. -/
def generated_variations (iswspace : Label → Bool) (word : List Label) (word_length : Nat)
    (morphology : MorphologyBase) (only_lemmas : Nat) :
    List AutomatOutput → List Nat → Option (List WordVariation)
  | [], _ => some []
  | output :: outputs, checked_models =>
    let form := parse_morphology_annotation iswspace (AutomatOutput.annotation output)
    if !is_analyzed_model form.flex_model_index checked_models then do
      let variations ←
        if output.is_prediction ≠ 0 then
          let base_part_size : Int := (word_length : Int) - (form.flexion_size : Int)
          if base_part_size ≥ (MIN_BASE_LENGTH : Int) then
            all_word_variations word word_length only_lemmas
              form.flexion_size (base_part_size.toNat % 2 ^ 8) form.flex_model_index morphology
          else some []
        else
          all_word_variations word word_length only_lemmas
            form.flexion_size ((output.known_prefix_size + form.base_size) % 2 ^ 8)
            form.flex_model_index morphology
      let rest ← generated_variations iswspace word word_length morphology only_lemmas outputs
        (checked_models ++ [form.flex_model_index])
      pure (variations ++ rest)
    else
      generated_variations iswspace word word_length morphology only_lemmas outputs
        checked_models

end Morph

namespace Morph

/-! ## Marks -/

theorem lor_final_land_final (f : Nat) : (f ||| 1) &&& 1 = 1 := by
  apply Nat.eq_of_testBit_eq; intro i
  simp only [Nat.testBit_and, Nat.testBit_or]
  rcases i with _ | i <;> simp [Nat.testBit_succ]

theorem lor_final_land_registered (f : Nat) : (f ||| 1) &&& 2 = f &&& 2 := by
  apply Nat.eq_of_testBit_eq; intro i
  simp only [Nat.testBit_and, Nat.testBit_or]
  rcases i with _ | _ | i <;> simp [Nat.testBit_succ]

theorem lor_registered_land_final (f : Nat) : (f ||| 2) &&& 1 = f &&& 1 := by
  apply Nat.eq_of_testBit_eq; intro i
  simp only [Nat.testBit_and, Nat.testBit_or]
  rcases i with _ | _ | i <;> simp [Nat.testBit_succ]

theorem lor_registered_land_registered (f : Nat) : (f ||| 2) &&& 2 = 2 := by
  apply Nat.eq_of_testBit_eq; intro i
  simp only [Nat.testBit_and, Nat.testBit_or]
  rcases i with _ | _ | i <;> simp [Nat.testBit_succ]

@[simp] theorem is_final_state_mark_final (s : State) :
    is_final_state { s with flags := s.flags ||| FINAL_STATE } = 1 := by
  simp [is_final_state, FINAL_STATE, lor_final_land_final]

@[simp] theorem is_registered_mark_final (s : State) :
    is_marked_as_registered { s with flags := s.flags ||| FINAL_STATE } =
      is_marked_as_registered s := by
  simp [is_marked_as_registered, FINAL_STATE, REGISTERED_STATE, lor_final_land_registered]

@[simp] theorem is_final_state_mark_registered (s : State) :
    is_final_state { s with flags := s.flags ||| REGISTERED_STATE } = is_final_state s := by
  simp [is_final_state, FINAL_STATE, REGISTERED_STATE, lor_registered_land_final]

@[simp] theorem is_registered_mark_registered (s : State) :
    is_marked_as_registered { s with flags := s.flags ||| REGISTERED_STATE } = true := by
  simp [is_marked_as_registered, REGISTERED_STATE, lor_registered_land_registered]

@[simp] theorem is_final_state_set_transitions (s : State) (l : TransitionList) :
    is_final_state { s with transition_list := l } = is_final_state s := rfl

@[simp] theorem is_registered_set_transitions (s : State) (l : TransitionList) :
    is_marked_as_registered { s with transition_list := l } = is_marked_as_registered s := rfl

theorem is_final_state_le_one (s : State) : is_final_state s = 0 ∨ is_final_state s = 1 := by
  unfold is_final_state; split <;> simp

/-! ## `find_transition` on label-sorted lists -/

theorem find_transition_mem {l : TransitionList} {c : Label} {t : Transition}
    (h : find_transition l c = some t) : t ∈ l ∧ t.label = c := by
  induction l with
  | nil => simp [find_transition] at h
  | cons x rest ih =>
    unfold find_transition at h
    split at h
    · rename_i hx
      simp only [Option.some.injEq] at h
      subst h
      exact ⟨List.mem_cons_self _ _, hx⟩
    · obtain ⟨h1, h2⟩ := ih h
      exact ⟨List.mem_cons_of_mem _ h1, h2⟩

theorem find_transition_none {l : TransitionList} {c : Label}
    (h : ∀ t ∈ l, t.label ≠ c) : find_transition l c = none := by
  induction l with
  | nil => rfl
  | cons x rest ih =>
    unfold find_transition
    rw [if_neg (h x (List.mem_cons_self _ _))]
    exact ih (fun t ht => h t (List.mem_cons_of_mem _ ht))

theorem find_transition_append_single_ne (l : TransitionList) (x : Transition) {c : Label}
    (h : x.label ≠ c) : find_transition (l ++ [x]) c = find_transition l c := by
  induction l with
  | nil => simp [find_transition, h]
  | cons y rest ih =>
    simp only [List.cons_append, find_transition]
    split
    · rfl
    · exact ih

theorem find_transition_append_single_eq (l : TransitionList) (x : Transition)
    (h : ∀ t ∈ l, t.label ≠ x.label) : find_transition (l ++ [x]) x.label = some x := by
  induction l with
  | nil => simp [find_transition]
  | cons y rest ih =>
    simp only [List.cons_append, find_transition]
    rw [if_neg (h y (List.mem_cons_self _ _))]
    exact ih (fun t ht => h t (List.mem_cons_of_mem _ ht))

theorem find_transition_append_left {l : TransitionList} {c : Label} {t : Transition}
    (m : TransitionList) (h : find_transition l c = some t) :
    find_transition (l ++ m) c = some t := by
  induction l with
  | nil => simp [find_transition] at h
  | cons y rest ih =>
    simp only [List.cons_append, find_transition] at h ⊢
    split
    · rename_i hy; rw [if_pos hy] at h; exact h
    · rename_i hy; rw [if_neg hy] at h; exact ih h

theorem sortedLabels_append_single {l : TransitionList} {x : Transition} :
    SortedLabels (l ++ [x]) ↔ SortedLabels l ∧ ∀ t ∈ l, t.label < x.label := by
  unfold SortedLabels
  rw [List.map_append, List.pairwise_append]
  simp

theorem sortedLabels_nodup {l : TransitionList} (h : SortedLabels l) :
    (l.map (fun t => t.label)).Nodup := by
  unfold SortedLabels at h
  exact h.imp (fun hab => ne_of_lt hab)

theorem sortedLabels_last_ne {l : TransitionList} {x : Transition}
    (h : SortedLabels (l ++ [x])) : ∀ t ∈ l, t.label ≠ x.label :=
  fun t ht => ne_of_lt ((sortedLabels_append_single.1 h).2 t ht)

/-! ## The register as a map -/

theorem get_put_same (cl : EquivalenceClassList) (k : Key) (v : EquivalenceClass) :
    hash_table_chain_get (hash_table_chain_put cl k v) k = some v := by
  induction cl with
  | nil => simp [hash_table_chain_put, hash_table_chain_get]
  | cons x rest ih =>
    obtain ⟨k', v'⟩ := x
    unfold hash_table_chain_put
    split
    · rename_i hk; simp [hash_table_chain_get, hk]
    · rename_i hk; simp [hash_table_chain_get, hk, ih]

theorem get_put_other (cl : EquivalenceClassList) {k k' : Key} (v : EquivalenceClass)
    (h : k ≠ k') :
    hash_table_chain_get (hash_table_chain_put cl k v) k' = hash_table_chain_get cl k' := by
  induction cl with
  | nil => simp [hash_table_chain_put, hash_table_chain_get, h]
  | cons x rest ih =>
    obtain ⟨k'', v''⟩ := x
    unfold hash_table_chain_put
    split
    · rename_i hk
      subst hk
      simp [hash_table_chain_get, h]
    · rename_i hk
      simp only [hash_table_chain_get, ih]

end Morph

namespace Morph

/-! ## Signatures -/

theorem transition_descriptors_eq (h : Heap) (l : TransitionList)
    (hl : ∀ x ∈ l, ∃ sx, h x.target = some sx ∧ sx.id = x.target + 1) :
    transition_descriptors h l = some (l.map (fun t => (t.label, t.target + 1))) := by
  induction l with
  | nil => rfl
  | cons x rest ih =>
    obtain ⟨sx, hsx, hid⟩ := hl x (List.mem_cons_self _ _)
    have := ih (fun y hy => hl y (List.mem_cons_of_mem _ hy))
    simp [transition_descriptors, hsx, this, hid]

theorem sort_descriptors_sorted (l : TransitionList) (hl : SortedLabels l) :
    sort_descriptors (l.map (fun t => (t.label, t.target + 1))) =
      l.map (fun t => (t.label, t.target + 1)) := by
  unfold sort_descriptors
  apply List.Sorted.insertionSort_eq
  unfold SortedLabels at hl
  unfold List.Sorted
  rw [List.pairwise_map] at hl ⊢
  exact hl.imp (fun hab => le_of_lt hab)

theorem state_description_key_eq_sig (A : Automat) (q : Nat) (s : State)
    (hq : A.heap q = some s)
    (hl : ∀ x ∈ s.transition_list, ∃ sx, A.heap x.target = some sx ∧ sx.id = x.target + 1)
    (hs : SortedLabels s.transition_list) :
    state_description_key A q = some (sig s) := by
  simp [state_description_key, hq, transition_descriptors_eq A.heap _ hl,
    sort_descriptors_sorted _ hs, sig]

theorem sig_inj {s s' : State} (h : sig s = sig s') :
    is_final_state s = is_final_state s' ∧ s.transition_list = s'.transition_list := by
  unfold sig at h
  simp only [Prod.mk.injEq] at h
  refine ⟨h.1, ?_⟩
  have hinj : Function.Injective (fun t : Transition => (t.label, t.target + 1)) := by
    intro a b hab
    simp only [Prod.mk.injEq, add_left_inj] at hab
    cases a; cases b; simp_all
  exact List.map_injective_iff.2 hinj h.2

/-! ## The right language of a state -/

theorem accF_congr (h h' : Heap) (S : Nat → Prop)
    (hS : ∀ q, S q → (h' q).map view = (h q).map view)
    (hclosed : ∀ q s, S q → h q = some s → ∀ x ∈ s.transition_list, S x.target) :
    ∀ (u : List Label) (q : Nat), S q → accF h' q u = accF h q u := by
  intro u
  induction u with
  | nil =>
    intro q hq
    have := hS q hq
    cases hs : h q with
    | none =>
      rw [hs] at this
      simp only [Option.map_none', Option.map_eq_none'] at this
      simp [accF, hs, this]
    | some s =>
      rw [hs] at this
      simp only [Option.map_some', Option.map_eq_some'] at this
      obtain ⟨s', hs', hv⟩ := this
      simp only [view, Prod.mk.injEq] at hv
      simp [accF, hs, hs', hv.1]
  | cons c u ih =>
    intro q hq
    have := hS q hq
    cases hs : h q with
    | none =>
      rw [hs] at this
      simp only [Option.map_none', Option.map_eq_none'] at this
      simp [accF, hs, this]
    | some s =>
      rw [hs] at this
      simp only [Option.map_some', Option.map_eq_some'] at this
      obtain ⟨s', hs', hv⟩ := this
      simp only [view, Prod.mk.injEq] at hv
      simp only [accF, hs, hs', hv.2]
      cases hft : find_transition s.transition_list c with
      | none => rfl
      | some t =>
        exact ih t.target (hclosed q s hq hs t (find_transition_mem hft).1)

/-- Two states with the same finality and transitions have the same right language. -/
theorem accF_of_view_eq (h : Heap) (p q : Nat) (sp sq : State)
    (hp : h p = some sp) (hq : h q = some sq) (hv : view sp = view sq) (u : List Label) :
    accF h p u = accF h q u := by
  simp only [view, Prod.mk.injEq] at hv
  cases u with
  | nil => simp [accF, hp, hq, hv.1]
  | cons c u => simp [accF, hp, hq, hv.2]

theorem accF_cons (h : Heap) (q : Nat) (s : State) (hq : h q = some s) (c : Label)
    (u : List Label) :
    accF h q (c :: u) =
      match find_transition s.transition_list c with
      | some t => accF h t.target u
      | none => false := by
  simp only [accF, hq]
  try (cases find_transition s.transition_list c <;> rfl)

theorem accF_nil (h : Heap) (q : Nat) (s : State) (hq : h q = some s) :
    accF h q [] = (is_final_state s == 1) := by
  simp [accF, hq]

/-! ## `common_prefix` and acceptance -/

theorem common_prefix_loop_bounds (h : Heap) :
    ∀ (w : List Label) (n q m last : Nat),
      common_prefix_loop h w n q = some (m, last) → n ≤ m ∧ m ≤ n + w.length := by
  intro w
  induction w with
  | nil =>
    intro n q m last hr
    simp only [common_prefix_loop, Option.some.injEq, Prod.mk.injEq] at hr
    simp [← hr.1]
  | cons c w ih =>
    intro n q m last hr
    unfold common_prefix_loop at hr
    cases hs : h q with
    | none => simp [hs] at hr
    | some s =>
      simp only [hs, Option.bind_eq_bind, Option.some_bind] at hr
      cases hft : find_transition s.transition_list c with
      | none =>
        simp only [hft, Option.some.injEq, Prod.mk.injEq] at hr
        simp [← hr.1]
      | some t =>
        simp only [hft] at hr
        have := ih _ _ _ _ hr
        simp only [List.length_cons]
        omega

theorem common_prefix_loop_acc (h : Heap) :
    ∀ (w : List Label) (n q : Nat),
      (match common_prefix_loop h w n q with
        | some (m, last) =>
          match h last with
          | some s => m == n + w.length && is_final_state s == 1
          | none => false
        | none => false) = accF h q w := by
  intro w
  induction w with
  | nil =>
    intro n q
    simp only [common_prefix_loop, accF, List.length_nil, Nat.add_zero, beq_self_eq_true,
      Bool.true_and]
    try (cases h q <;> rfl)
  | cons c w ih =>
    intro n q
    unfold common_prefix_loop
    cases hs : h q with
    | none => simp [accF, hs]
    | some s =>
      simp only [Option.bind_eq_bind, Option.some_bind, accF, hs]
      cases hft : find_transition s.transition_list c with
      | none =>
        simp only [hs, List.length_cons]
        have : (n == n + (w.length + 1)) = false := by
          simp only [beq_eq_false_iff_ne, ne_eq]; omega
        simp [this]
      | some t =>
        simp only
        have := ih (n + 1) t.target
        rw [← this]
        simp only [List.length_cons]
        have e : n + 1 + w.length = n + (w.length + 1) := by omega
        rw [e]

theorem accepts_eq_accF (A : Automat) (w : List Label) :
    accepts A w = accF A.heap A.initial_state w := by
  have := common_prefix_loop_acc A.heap w 0 A.initial_state
  rw [← this]
  unfold accepts common_prefix
  cases hr : common_prefix_loop A.heap w 0 A.initial_state with
  | none => simp
  | some r =>
    obtain ⟨m, last⟩ := r
    simp only [Option.bind_eq_bind, Option.some_bind, Nat.zero_add]
    try (cases A.heap last <;> rfl)

end Morph

namespace Morph

/-! ## The unregistered branch -/

theorem Spine.frame {h h' : Heap} {p : Nat} {u : List Label} {qs : List Nat} {q : Nat}
    (hsp : Spine h p u qs q) (hsame : ∀ x ∈ qs, h' x = h x)
    (hreg : ∀ x, Reg h x → Reg h' x) : Spine h' p u qs q := by
  induction hsp with
  | nil p => exact Spine.nil p
  | cons p s a t rest u qs q hp hun htl hrest hlt _ ih =>
    refine Spine.cons p s a t rest u qs q ?_ hun htl (fun x hx => hreg _ (hrest x hx)) hlt
      (ih (fun x hx => hsame x (List.mem_cons_of_mem _ hx)))
    rw [hsame p (List.mem_cons_self _ _)]; exact hp

theorem Spine.append {h : Heap} {p : Nat} {u : List Label} {qs : List Nat} {q : Nat}
    (hsp : Spine h p u qs q) {v : List Label} {qs' : List Nat} {q' : Nat}
    (hsp' : Spine h q v qs' q') : Spine h p (u ++ v) (qs ++ qs') q' := by
  induction hsp with
  | nil p => simpa using hsp'
  | cons p s a t rest u qs q hp hun htl hrest hlt _ ih =>
    exact Spine.cons p s a t rest (u ++ v) (qs ++ qs') q' hp hun htl hrest hlt (ih hsp')

theorem Spine.le_end {h : Heap} {p : Nat} {u : List Label} {qs : List Nat} {q : Nat}
    (hsp : Spine h p u qs q) : p ≤ q ∧ (∀ x ∈ qs, p ≤ x ∧ x < q) := by
  induction hsp with
  | nil p => simp
  | cons p s a t rest u qs q hp hun htl hrest hlt _ ih =>
    refine ⟨by omega, ?_⟩
    intro x hx
    rcases List.mem_cons.1 hx with rfl | hx
    · omega
    · have := ih.2 x hx
      omega

theorem Spine.length_eq {h : Heap} {p : Nat} {u : List Label} {qs : List Nat} {q : Nat}
    (hsp : Spine h p u qs q) : qs.length = u.length := by
  induction hsp with
  | nil p => rfl
  | cons p s a t rest u qs q hp hun htl hrest hlt _ ih => simp [ih]

theorem Spine.unreg {h : Heap} {p : Nat} {u : List Label} {qs : List Nat} {q : Nat}
    (hsp : Spine h p u qs q) :
    ∀ x ∈ qs, ∃ s, h x = some s ∧ is_marked_as_registered s = false := by
  induction hsp with
  | nil p => simp
  | cons p s a t rest u qs q hp hun htl hrest hlt _ ih =>
    intro x hx
    rcases List.mem_cons.1 hx with rfl | hx
    · exact ⟨s, hp, hun⟩
    · exact ih x hx

theorem Spine.end_eq_of_nil {h : Heap} {p : Nat} {qs : List Nat} {q : Nat}
    (hsp : Spine h p [] qs q) : qs = [] ∧ q = p := by
  cases hsp; exact ⟨rfl, rfl⟩

/-- Reading the word of the branch leads from its first to its last state. -/
theorem Spine.accF_append {h : Heap} {p : Nat} {u : List Label} {qs : List Nat} {q : Nat}
    (hsp : Spine h p u qs q)
    (hsorted : ∀ x s, h x = some s → SortedLabels s.transition_list) (y : List Label) :
    accF h p (u ++ y) = accF h q y := by
  induction hsp with
  | nil p => rfl
  | cons p s a t rest u qs q hp hun htl hrest hlt _ ih =>
    rw [List.cons_append, accF_cons h p s hp, htl]
    have hs := hsorted p s hp
    rw [htl] at hs
    have := find_transition_append_single_eq rest { label := a, target := t }
      (sortedLabels_last_ne hs)
    simp only at this
    rw [this]
    exact ih

/-- The language read from the first state of a branch changes as the language
read from its last state does, when the rest of the memory keeps its
languages. -/
theorem Spine.lift {h h' : Heap} {p : Nat} {u : List Label} {qs : List Nat} {q : Nat}
    (hsp : Spine h p u qs q)
    (hsorted : ∀ x s, h x = some s → SortedLabels s.transition_list)
    (hsame : ∀ x ∈ qs, h' x = h x)
    (hreg : ∀ r, Reg h r → ∀ y, accF h' r y = accF h r y)
    (D : List Label → Prop)
    (hq : ∀ y, accF h' q y = true ↔ (accF h q y = true ∨ D y)) :
    ∀ z, accF h' p z = true ↔ (accF h p z = true ∨ ∃ y, z = u ++ y ∧ D y) := by
  induction hsp with
  | nil p =>
    intro z
    rw [hq z]
    simp
  | cons p s a t rest u qs q hp hun htl hrest hlt _ ih =>
    have ih' := ih (fun x hx => hsame x (List.mem_cons_of_mem _ hx)) hq
    have hp' : h' p = some s := by rw [hsame p (List.mem_cons_self _ _)]; exact hp
    have hs := hsorted p s hp
    rw [htl] at hs
    intro z
    cases z with
    | nil =>
      rw [accF_nil h' p s hp', accF_nil h p s hp]
      simp
    | cons c z =>
      rw [accF_cons h' p s hp', accF_cons h p s hp, htl]
      by_cases hc : c = a
      · subst hc
        have := find_transition_append_single_eq rest { label := c, target := t }
          (sortedLabels_last_ne hs)
        simp only at this
        rw [this]
        simp only
        rw [ih' z]
        simp
      · have hne : ({ label := a, target := t } : Transition).label ≠ c := fun e => hc e.symm
        rw [find_transition_append_single_ne rest _ hne]
        cases hft : find_transition rest c with
        | none =>
          simp only [Bool.false_eq_true, false_or, false_iff, not_exists, not_and]
          intro y hy
          simp only [List.cons_append, List.cons.injEq] at hy
          exact absurd hy.1 hc
        | some x =>
          simp only
          rw [hreg x.target (hrest x (find_transition_mem hft).1) z]
          constructor
          · intro hx; exact Or.inl hx
          · rintro (hx | ⟨y, hy, _⟩)
            · exact hx
            · simp only [List.cons_append, List.cons.injEq] at hy
              exact absurd hy.1 hc

/-- `common_prefix` on a word that is not below the word of the branch stops on
the branch, where the two words part. -/
theorem Spine.common_prefix {h : Heap} {p : Nat} {w : List Label} {qs : List Nat} {qe : Nat}
    (hsp : Spine h p w qs qe)
    (hsorted : ∀ x s, h x = some s → SortedLabels s.transition_list)
    (hleaf : ∃ s, h qe = some s ∧ s.transition_list = []) :
    ∀ (w' : List Label) (n : Nat), word_le w w' →
      ∃ u v v' qs1 qs2 pj, w = u ++ v ∧ w' = u ++ v' ∧ qs = qs1 ++ qs2 ∧
        Spine h p u qs1 pj ∧ Spine h pj v qs2 qe ∧
        common_prefix_loop h w' n p = some (n + u.length, pj) ∧
        (v = [] ∨ ∃ a v0 c v0', v = a :: v0 ∧ v' = c :: v0' ∧ a < c) := by
  induction hsp with
  | nil p =>
    intro w' n _
    refine ⟨[], [], w', [], [], p, rfl, rfl, rfl, Spine.nil p, Spine.nil p, ?_, Or.inl rfl⟩
    obtain ⟨s, hs, htl⟩ := hleaf
    cases w' with
    | nil => rfl
    | cons c w' => simp [common_prefix_loop, hs, htl, find_transition]
  | cons p s a t rest u qs q hp hun htl hrest hlt hsp' ih =>
    intro w' n hle
    have hs := hsorted p s hp
    rw [htl] at hs
    cases w' with
    | nil => exact absurd hle (by simp [word_le])
    | cons c w' =>
      simp only [word_le] at hle
      by_cases hc : a = c
      · subst hc
        have hle' : word_le u w' := by
          rcases hle with hlt' | ⟨_, hle'⟩
          · exact absurd hlt' (lt_irrefl _)
          · exact hle'
        obtain ⟨u0, v, v', qs1, qs2, pj, hw, hw', hqs, hsp1, hsp2, hcp, hv⟩ :=
          ih hleaf w' (n + 1) hle'
        refine ⟨a :: u0, v, v', p :: qs1, qs2, pj, by simp [hw], by simp [hw'], by simp [hqs],
          Spine.cons p s a t rest u0 qs1 pj hp hun htl hrest hlt hsp1, hsp2, ?_, hv⟩
        unfold common_prefix_loop
        have := find_transition_append_single_eq rest { label := a, target := t }
          (sortedLabels_last_ne hs)
        simp only at this
        simp only [hp, htl, this, Option.bind_eq_bind, Option.some_bind, hcp, List.length_cons]
        congr 2
        omega
      · have hac : a < c := by
          rcases hle with hlt' | ⟨e, _⟩
          · exact hlt'
          · exact absurd e hc
        refine ⟨[], a :: u, c :: w', [], p :: qs, p, rfl, rfl, rfl, Spine.nil p,
          Spine.cons p s a t rest u qs q hp hun htl hrest hlt hsp', ?_,
          Or.inr ⟨a, u, c, w', rfl, rfl, hac⟩⟩
        unfold common_prefix_loop
        have hnone : find_transition (rest ++ [{ label := a, target := t }]) c = none := by
          apply find_transition_none
          intro x hx
          rcases List.mem_append.1 hx with hx | hx
          · have := (sortedLabels_append_single.1 hs).2 x hx
            simp only at this
            exact ne_of_lt (lt_trans this hac)
          · simp only [List.mem_singleton] at hx
            subst hx
            exact hc
        simp [hp, htl, hnone]

end Morph

namespace Morph

/-! ## Registered states keep their languages -/

theorem Reg.mono {h h' : Heap} (hsame : ∀ r s, h r = some s → is_marked_as_registered s = true →
    h' r = some s) {q : Nat} (hq : Reg h q) : Reg h' q := by
  obtain ⟨s, hs, hr⟩ := hq
  exact ⟨s, hsame q s hs hr, hr⟩

theorem accF_reg_frame {h h' : Heap}
    (hclosed : ∀ q s, h q = some s → is_marked_as_registered s = true →
      ∀ x ∈ s.transition_list, Reg h x.target)
    (hsame : ∀ r s, h r = some s → is_marked_as_registered s = true → h' r = some s) :
    ∀ r, Reg h r → ∀ y, accF h' r y = accF h r y := by
  intro r hr y
  refine accF_congr h h' (Reg h) ?_ ?_ y r hr
  · rintro q ⟨s, hs, hreg⟩
    rw [hsame q s hs hreg, hs]
  · rintro q s ⟨s0, hs0, hreg⟩ hs x hx
    rw [hs] at hs0
    cases hs0
    exact hclosed q s hs hreg x hx

theorem last_transition_append_single (l : TransitionList) (x : Transition) :
    last_transition (l ++ [x]) = some x := by
  simp [last_transition]

theorem delete_branch_registered_fold (fuel : Nat) (A : Automat) (l : TransitionList)
    (hl : ∀ x ∈ l, Reg A.heap x.target) :
    l.foldlM (fun a t => delete_branch (fuel + 1) a t.target) A = some A := by
  induction l with
  | nil => rfl
  | cons x rest ih =>
    obtain ⟨s, hs, hr⟩ := hl x (List.mem_cons_self _ _)
    simp only [List.foldlM, delete_branch, hs, hr, Option.bind_eq_bind, Option.some_bind,
      Bool.not_true, Bool.false_eq_true, ↓reduceIte, Option.pure_def]
    exact ih (fun y hy => hl y (List.mem_cons_of_mem _ hy))

@[simp] theorem store_heap_same (A : Automat) (p : Nat) (s : State) :
    (A.store p s).heap p = some s := by
  simp [Automat.store]

theorem store_heap_ne (A : Automat) {p q : Nat} (s : State) (h : q ≠ p) :
    (A.store p s).heap q = A.heap q := by
  simp [Automat.store, h]

theorem delete_branch_spec (fuel : Nat) (A : Automat) (c : Nat) (sc : State)
    (hc : A.heap c = some sc) (hcun : is_marked_as_registered sc = false)
    (hctl : ∀ x ∈ sc.transition_list, Reg A.heap x.target)
    (hfuel : sc.transition_list = [] ∨ 0 < fuel) :
    delete_branch (fuel + 1) A c =
      some { A with heap := fun q => if q = c then none else A.heap q,
                    ring := A.ring.erase c } := by
  have hfold : sc.transition_list.foldlM (fun a t => delete_branch fuel a t.target) A
      = some A := by
    rcases hfuel with h0 | hpos
    · rw [h0]; rfl
    · obtain ⟨f, rfl⟩ : ∃ f, fuel = f + 1 := ⟨fuel - 1, by omega⟩
      exact delete_branch_registered_fold f A _ hctl
  simp only [delete_branch, hc, hcun, Option.bind_eq_bind, Option.some_bind, Bool.not_false,
    ↓reduceIte, hfold, Option.pure_def]

theorem sortedLabels_retarget {rest : TransitionList} {a : Label} {c e : Nat}
    (h : SortedLabels (rest ++ [{ label := a, target := c }])) :
    SortedLabels (rest ++ [{ label := a, target := e }]) := by
  rw [sortedLabels_append_single] at h ⊢
  exact h

theorem ring_head_erase {ring : List Nat} {i c : Nat} (h : ring.head? = some i) (hic : i ≠ c) :
    (ring.erase c).head? = some i := by
  cases ring with
  | nil => simp at h
  | cons x tail =>
    simp only [List.head?_cons, Option.some.injEq] at h
    subst h
    rw [List.erase_cons_tail]
    · rfl
    · simpa using hic

theorem replace_or_register_child_spec (fuel : Nat) (A : Automat) (cl : EquivalenceClassList)
    (p c : Nat) (sp sc : State) (rest : TransitionList) (a : Label)
    (hinv : RegInv A cl)
    (hp : A.heap p = some sp) (hpun : is_marked_as_registered sp = false)
    (hptl : sp.transition_list = rest ++ [{ label := a, target := c }])
    (hc : A.heap c = some sc) (hcun : is_marked_as_registered sc = false)
    (hctl : ∀ x ∈ sc.transition_list, Reg A.heap x.target)
    (hpc : p ≠ c) (hinit : A.initial_state ≠ c)
    (hfuel : sc.transition_list = [] ∨ 0 < fuel) :
    ∃ A' cl' t',
      replace_or_register_child fuel A p c = some A' ∧ RegInv A' cl' ∧
      A'.heap p = some { sp with transition_list := rest ++ [{ label := a, target := t' }] } ∧
      Reg A'.heap t' ∧
      (∀ x, x ≠ p → x ≠ c → A'.heap x = A.heap x) ∧
      (A'.heap c = none ∨ (Reg A'.heap c ∧ t' = c)) ∧
      (∀ y, accF A'.heap t' y = accF A.heap c y) ∧
      A'.initial_state = A.initial_state ∧ A'.allocated = A.allocated := by
  have hkey : state_description_key A c = some (sig sc) := by
    apply state_description_key_eq_sig A c sc hc _ (hinv.sorted c sc hc)
    intro x hx
    obtain ⟨sx, hsx, _⟩ := hctl x hx
    exact ⟨sx, hsx, hinv.ids _ _ hsx⟩
  unfold replace_or_register_child find_equivalent
  simp only [hkey, hinv.class_list, Option.bind_eq_bind, Option.some_bind, Option.pure_def]
  cases hget : hash_table_chain_get cl (sig sc) with
  | some cls =>
    obtain ⟨e, se, hcls, he, hereg, hesig⟩ := hinv.reg_of_class _ _ hget
    have hec : e ≠ c := by
      rintro rfl
      rw [hc] at he; cases he
      rw [hcun] at hereg; cases hereg
    have hep : e ≠ p := by
      rintro rfl
      rw [hp] at he; cases he
      rw [hpun] at hereg; cases hereg
    simp only [any_state_from_class, hcls, List.head?_cons, Option.some_bind, hp, hpun,
      Bool.false_eq_true, ↓reduceIte]
    have hview : view se = view sc := by
      have := sig_inj hesig
      simp [view, this.1, this.2]
    have hregsame : ∀ r s, A.heap r = some s → is_marked_as_registered s = true →
        (({ A with heap := fun q => if q = c then none else A.heap q,
                   ring := A.ring.erase c } : Automat).store p
          { sp with transition_list := rest ++ [{ label := a, target := e }] }).heap r
          = some s := by
      intro r s hr hreg
      have hrp : r ≠ p := by
        rintro rfl
        rw [hp] at hr; cases hr
        rw [hpun] at hreg; cases hreg
      have hrc : r ≠ c := by
        rintro rfl
        rw [hc] at hr; cases hr
        rw [hcun] at hreg; cases hreg
      rw [store_heap_ne _ _ hrp]
      simp [hrc, hr]
    refine ⟨({ A with heap := fun q => if q = c then none else A.heap q,
                      ring := A.ring.erase c } : Automat).store p
        { sp with transition_list := rest ++ [{ label := a, target := e }] }, cl, e,
      ?_, ?_, ?_, ?_, ?_, ?_, ?_, rfl, rfl⟩
    · rw [delete_branch_spec fuel A c sc hc hcun hctl hfuel]
      simp only [Option.some_bind, set_last_child, hpc, ↓reduceIte, hp, hptl,
        last_transition_append_single, Option.bind_eq_bind, List.dropLast_concat,
        Option.pure_def, store_heap_same, is_registered_set_transitions, hpun,
        Bool.false_eq_true]
    · constructor
      · exact hinv.class_list
      · intro key cls' hg
        obtain ⟨q, s, h1, h2, h3, h4⟩ := hinv.reg_of_class key cls' hg
        exact ⟨q, s, h1, hregsame q s h2 h3, h3, h4⟩
      · intro q s hq hreg
        apply hinv.class_of_reg q s _ hreg
        by_cases hqp : q = p
        · subst hqp
          rw [store_heap_same] at hq
          cases hq
          simp [hpun] at hreg
        · rw [store_heap_ne _ _ hqp] at hq
          by_cases hqc : q = c
          · simp [hqc] at hq
          · simpa [hqc] using hq
      · intro q s hq hreg x hx
        have hq' : A.heap q = some s := by
          by_cases hqp : q = p
          · subst hqp
            rw [store_heap_same] at hq
            cases hq
            simp [hpun] at hreg
          · rw [store_heap_ne _ _ hqp] at hq
            by_cases hqc : q = c
            · simp [hqc] at hq
            · simpa [hqc] using hq
        exact Reg.mono hregsame (hinv.closed q s hq' hreg x hx)
      · intro q s hq
        by_cases hqp : q = p
        · subst hqp
          rw [store_heap_same] at hq
          cases hq
          have := hinv.sorted q sp hp
          rw [hptl] at this
          exact sortedLabels_retarget this
        · rw [store_heap_ne _ _ hqp] at hq
          by_cases hqc : q = c
          · simp [hqc] at hq
          · exact hinv.sorted q s (by simpa [hqc] using hq)
      · intro q s hq
        by_cases hqp : q = p
        · subst hqp
          rw [store_heap_same] at hq
          cases hq
          exact hinv.ids q sp hp
        · rw [store_heap_ne _ _ hqp] at hq
          by_cases hqc : q = c
          · simp [hqc] at hq
          · exact hinv.ids q s (by simpa [hqc] using hq)
      · intro q s hq
        by_cases hqp : q = p
        · subst hqp
          exact hinv.alloc q sp hp
        · rw [store_heap_ne _ _ hqp] at hq
          by_cases hqc : q = c
          · simp [hqc] at hq
          · exact hinv.alloc q s (by simpa [hqc] using hq)
      · exact hinv.counter
      · exact hinv.ring_nodup.erase c
      · intro q
        show q ∈ A.ring.erase c ↔ _
        rw [hinv.ring_nodup.mem_erase_iff, hinv.ring_mem]
        by_cases hqp : q = p
        · subst hqp
          simp [hpc, hp]
        · rw [store_heap_ne _ _ hqp]
          by_cases hqc : q = c
          · simp [hqc]
          · simp [hqc]
      · exact ring_head_erase hinv.ring_head hinit
      · intro q s hq
        by_cases hqp : q = p
        · subst hqp
          rw [store_heap_same] at hq
          cases hq
          have := hinv.degree q sp hp
          rw [hptl] at this
          simpa using this
        · rw [store_heap_ne _ _ hqp] at hq
          by_cases hqc : q = c
          · simp [hqc] at hq
          · exact hinv.degree q s (by simpa [hqc] using hq)
    · simp
    · exact Reg.mono hregsame ⟨se, he, hereg⟩
    · intro x hxp hxc
      rw [store_heap_ne _ _ hxp]
      simp [hxc]
    · left
      rw [store_heap_ne _ _ (Ne.symm hpc)]
      simp
    · intro y
      rw [accF_reg_frame hinv.closed hregsame e ⟨se, he, hereg⟩ y]
      exact accF_of_view_eq A.heap e c se sc he hc hview y
  | none =>
    simp only [Option.some_bind, add_to_register, hkey, hinv.class_list, Option.bind_eq_bind,
      Option.pure_def, mark_as_registered, hc]
    have hsig' : sig { sc with flags := sc.flags ||| REGISTERED_STATE } = sig sc := by
      simp [sig]
    have hregsame : ∀ r s, A.heap r = some s → is_marked_as_registered s = true →
        (({ A with class_list := some (hash_table_chain_put cl (sig sc)
              (add_to_equivalence_class { count := 0, state_list := [] } c)) } : Automat).store c
          { sc with flags := sc.flags ||| REGISTERED_STATE }).heap r = some s := by
      intro r s hr hreg
      have hrc : r ≠ c := by
        rintro rfl
        rw [hc] at hr; cases hr
        rw [hcun] at hreg; cases hreg
      rw [store_heap_ne _ _ hrc]
      exact hr
    refine ⟨_, hash_table_chain_put cl (sig sc)
        (add_to_equivalence_class { count := 0, state_list := [] } c), c,
      rfl, ?_, ?_, ?_, ?_, ?_, ?_, rfl, rfl⟩
    · constructor
      · rfl
      · intro key cls' hg
        by_cases hk : sig sc = key
        · subst hk
          rw [get_put_same] at hg
          cases hg
          exact ⟨c, _, rfl, store_heap_same _ _ _, by simp, hsig'⟩
        · rw [get_put_other _ _ hk] at hg
          obtain ⟨q, s, h1, h2, h3, h4⟩ := hinv.reg_of_class key cls' hg
          exact ⟨q, s, h1, hregsame q s h2 h3, h3, h4⟩
      · intro q s hq hreg
        by_cases hqc : q = c
        · subst hqc
          rw [store_heap_same] at hq
          cases hq
          rw [hsig', get_put_same]
          exact ⟨_, rfl, rfl⟩
        · rw [store_heap_ne _ _ hqc] at hq
          have hq' : A.heap q = some s := hq
          obtain ⟨cls', h1, h2⟩ := hinv.class_of_reg q s hq' hreg
          have hk : sig sc ≠ sig s := by
            intro e
            rw [← e, hget] at h1
            cases h1
          rw [get_put_other _ _ hk]
          exact ⟨cls', h1, h2⟩
      · intro q s hq hreg x hx
        by_cases hqc : q = c
        · subst hqc
          rw [store_heap_same] at hq
          cases hq
          exact Reg.mono hregsame (hctl x hx)
        · rw [store_heap_ne _ _ hqc] at hq
          exact Reg.mono hregsame (hinv.closed q s hq hreg x hx)
      · intro q s hq
        by_cases hqc : q = c
        · subst hqc
          rw [store_heap_same] at hq
          cases hq
          exact hinv.sorted q sc hc
        · rw [store_heap_ne _ _ hqc] at hq
          exact hinv.sorted q s hq
      · intro q s hq
        by_cases hqc : q = c
        · subst hqc
          rw [store_heap_same] at hq
          cases hq
          exact hinv.ids q sc hc
        · rw [store_heap_ne _ _ hqc] at hq
          exact hinv.ids q s hq
      · intro q s hq
        by_cases hqc : q = c
        · subst hqc
          exact hinv.alloc q sc hc
        · rw [store_heap_ne _ _ hqc] at hq
          exact hinv.alloc q s hq
      · exact hinv.counter
      · exact hinv.ring_nodup
      · intro q
        show q ∈ A.ring ↔ _
        rw [hinv.ring_mem]
        by_cases hqc : q = c
        · subst hqc
          simp [hc]
        · rw [store_heap_ne _ _ hqc]
      · exact hinv.ring_head
      · intro q s hq
        by_cases hqc : q = c
        · subst hqc
          rw [store_heap_same] at hq
          cases hq
          exact hinv.degree q sc hc
        · rw [store_heap_ne _ _ hqc] at hq
          exact hinv.degree q s hq
    · rw [store_heap_ne _ _ hpc]
      show A.heap p = _
      rw [hp, ← hptl]
    · exact ⟨_, store_heap_same _ _ _, by simp⟩
    · intro x _ hxc
      rw [store_heap_ne _ _ hxc]
    · right
      exact ⟨⟨_, store_heap_same _ _ _, by simp⟩, rfl⟩
    · intro y
      refine accF_congr A.heap _ (fun _ => True) ?_ (fun _ _ _ _ _ _ => trivial) y c trivial
      intro q _
      by_cases hqc : q = c
      · subst hqc
        rw [store_heap_same, hc]
        simp [view]
      · rw [store_heap_ne _ _ hqc]

end Morph

namespace Morph

theorem accF_last (h : Heap) (p : Nat) (s : State) (rest : TransitionList) (a : Label) (t : Nat)
    (hp : h p = some s) (htl : s.transition_list = rest ++ [{ label := a, target := t }])
    (hs : SortedLabels s.transition_list) (y : List Label) :
    accF h p (a :: y) = accF h t y := by
  rw [accF_cons h p s hp, htl]
  rw [htl] at hs
  have := find_transition_append_single_eq rest { label := a, target := t }
    (sortedLabels_last_ne hs)
  simp only at this
  rw [this]

/-- Redirecting the last transition of a state to a state with the language of
the old target keeps the language of the state. -/
theorem accF_parent (h h' : Heap) (p : Nat) (sp : State) (rest : TransitionList) (a : Label)
    (c t' : Nat) (hp : h p = some sp)
    (hptl : sp.transition_list = rest ++ [{ label := a, target := c }])
    (hs : SortedLabels sp.transition_list)
    (hp' : h' p = some { sp with transition_list := rest ++ [{ label := a, target := t' }] })
    (ht' : ∀ y, accF h' t' y = accF h c y)
    (hrest : ∀ x ∈ rest, ∀ y, accF h' x.target y = accF h x.target y) :
    ∀ y, accF h' p y = accF h p y := by
  intro y
  cases y with
  | nil => rw [accF_nil h' p _ hp', accF_nil h p sp hp]; rfl
  | cons b y =>
    by_cases hb : b = a
    · subst hb
      rw [accF_last h p sp rest b c hp hptl hs y,
        accF_last h' p _ rest b t' hp' rfl (by
          simp only
          rw [hptl] at hs
          exact sortedLabels_retarget hs) y]
      exact ht' y
    · rw [accF_cons h' p _ hp', accF_cons h p sp hp, hptl]
      simp only
      have hne : ∀ t, ({ label := a, target := t } : Transition).label ≠ b :=
        fun _ e => hb e.symm
      rw [find_transition_append_single_ne rest _ (hne t'),
        find_transition_append_single_ne rest _ (hne c)]
      cases hft : find_transition rest b with
      | none => rfl
      | some x => exact hrest x (find_transition_mem hft).1 y

theorem ror_finish (fuel : Nat) (A A1 : Automat) (cl cl1 : EquivalenceClassList)
    (p c : Nat) (sp sc1 : State) (rest : TransitionList) (a : Label) (B : Nat → Prop)
    (hinv : RegInv A cl) (hinv1 : RegInv A1 cl1)
    (hp : A.heap p = some sp) (hpun : is_marked_as_registered sp = false)
    (hptl : sp.transition_list = rest ++ [{ label := a, target := c }])
    (hrest : ∀ x ∈ rest, Reg A.heap x.target)
    (hpc : p ≠ c) (hinit : A.initial_state ≠ c)
    (hBc : B c) (hpB : ¬ B p)
    (hunB : ∀ r, Reg A.heap r → ¬ B r)
    (h1c : A1.heap c = some sc1) (h1cun : is_marked_as_registered sc1 = false)
    (h1ctl : ∀ x ∈ sc1.transition_list, Reg A1.heap x.target)
    (hframe1 : ∀ x, ¬ B x → A1.heap x = A.heap x)
    (hfate1 : ∀ x, B x → x ≠ c → A1.heap x = none ∨ Reg A1.heap x)
    (hlangc : ∀ y, accF A1.heap c y = accF A.heap c y)
    (hnew1 : ∀ x, Reg A1.heap x → ¬ Reg A.heap x →
      ∃ u, u ≠ [] ∧ ∀ y, accF A1.heap x y = true → accF A1.heap c (u ++ y) = true)
    (hinit1 : A1.initial_state = A.initial_state) (halloc1 : A1.allocated = A.allocated)
    (hfuel : sc1.transition_list = [] ∨ 0 < fuel) :
    ∃ A' cl' t',
      replace_or_register_child fuel A1 p c = some A' ∧ RegInv A' cl' ∧
      A'.heap p = some { sp with transition_list := rest ++ [{ label := a, target := t' }] } ∧
      Reg A'.heap t' ∧
      (∀ x, x ≠ p → ¬ B x → A'.heap x = A.heap x) ∧
      (∀ x, B x → A'.heap x = none ∨ Reg A'.heap x) ∧
      (∀ y, accF A'.heap p y = accF A.heap p y) ∧
      (∀ x, Reg A'.heap x → ¬ Reg A.heap x →
        ∃ u, u ≠ [] ∧ ∀ y, accF A'.heap x y = true → accF A'.heap p (u ++ y) = true) ∧
      A'.initial_state = A.initial_state ∧ A'.allocated = A.allocated := by
  have h1p : A1.heap p = some sp := by rw [hframe1 p hpB]; exact hp
  obtain ⟨A', cl', t', hrun, hinv', hp', hregt', hframe, hfate, hlangt, hinit', halloc'⟩ :=
    replace_or_register_child_spec fuel A1 cl1 p c sp sc1 rest a hinv1 h1p hpun hptl h1c h1cun
      h1ctl hpc (by rw [hinit1]; exact hinit) hfuel
  -- registered states of `A` are registered states of `A1`, which are kept in `A'`
  have hsame1 : ∀ r s, A.heap r = some s → is_marked_as_registered s = true →
      A1.heap r = some s := by
    intro r s hr hreg
    rw [hframe1 r (hunB r ⟨s, hr, hreg⟩)]; exact hr
  have hsame' : ∀ r s, A1.heap r = some s → is_marked_as_registered s = true →
      A'.heap r = some s := by
    intro r s hr hreg
    have hrp : r ≠ p := by
      rintro rfl
      rw [h1p] at hr; cases hr
      rw [hpun] at hreg; cases hreg
    have hrc : r ≠ c := by
      rintro rfl
      rw [h1c] at hr; cases hr
      rw [h1cun] at hreg; cases hreg
    rw [hframe r hrp hrc]; exact hr
  have hsp' : SortedLabels
      ({ sp with transition_list := rest ++ [{ label := a, target := t' }] } :
        State).transition_list := hinv'.sorted p _ hp'
  refine ⟨A', cl', t', hrun, hinv', hp', hregt', ?_, ?_, ?_, ?_, by rw [hinit', hinit1],
    by rw [halloc', halloc1]⟩
  · intro x hxp hxB
    have hxc : x ≠ c := fun e => hxB (e ▸ hBc)
    rw [hframe x hxp hxc, hframe1 x hxB]
  · intro x hxB
    by_cases hxc : x = c
    · subst hxc
      rcases hfate with h | h
      · exact Or.inl h
      · exact Or.inr h.1
    · have hxp : x ≠ p := fun e => hpB (e ▸ hxB)
      rw [hframe x hxp hxc]
      rcases hfate1 x hxB hxc with h | h
      · exact Or.inl h
      · right
        obtain ⟨s, hs, hr⟩ := h
        exact ⟨s, by rw [hframe x hxp hxc]; exact hs, hr⟩
  · apply accF_parent A.heap A'.heap p sp rest a c t' hp hptl (hinv.sorted p sp hp) hp'
    · intro y; rw [hlangt y, hlangc y]
    · intro x hx y
      have hr := hrest x hx
      rw [accF_reg_frame hinv1.closed hsame' x.target (Reg.mono hsame1 hr) y,
        accF_reg_frame hinv.closed hsame1 x.target hr y]
  · intro x hx' hx
    by_cases hx1 : Reg A1.heap x
    · obtain ⟨u, hu, hacc⟩ := hnew1 x hx1 hx
      refine ⟨a :: u, by simp, ?_⟩
      intro y hy
      rw [accF_reg_frame hinv1.closed hsame' x hx1 y] at hy
      have := hacc y hy
      rw [List.cons_append, accF_last A'.heap p _ rest a t' hp' rfl hsp' (u ++ y), hlangt]
      exact this
    · -- the state registered by this step is the child itself
      have hxc : x = c := by
        by_contra hne
        obtain ⟨s, hs, hr⟩ := hx'
        have hxp : x ≠ p := by
          rintro rfl
          rw [hp'] at hs; cases hs
          simp [hpun] at hr
        rw [hframe x hxp hne] at hs
        exact hx1 ⟨s, hs, hr⟩
      subst hxc
      rcases hfate with h | ⟨_, h⟩
      · obtain ⟨s, hs, _⟩ := hx'
        rw [h] at hs; cases hs
      · refine ⟨[a], by simp, ?_⟩
        intro y hy
        rw [List.singleton_append, accF_last A'.heap p _ rest a t' hp' rfl hsp' y, h]
        exact hy

end Morph

namespace Morph

/-- `replace_or_register` on a state of the unregistered branch: every state of
the branch below it ends registered or freed, its last transition leads to a
registered state, and its language and the rest of the memory are kept. -/
theorem replace_or_register_spec :
    ∀ (v : List Label) (fuel : Nat) (A : Automat) (cl : EquivalenceClassList) (p : Nat)
      (sp : State) (rest : TransitionList) (a : Label) (c : Nat) (qs : List Nat) (qe : Nat),
      RegInv A cl → A.heap p = some sp → is_marked_as_registered sp = false →
      sp.transition_list = rest ++ [{ label := a, target := c }] →
      (∀ x ∈ rest, Reg A.heap x.target) → p < c →
      Spine A.heap c v qs qe →
      (∃ s, A.heap qe = some s ∧ is_marked_as_registered s = false ∧ s.transition_list = []) →
      A.initial_state ≤ p → v.length + 1 ≤ fuel →
      ∃ A' cl' t',
        replace_or_register fuel A p = some A' ∧ RegInv A' cl' ∧
        A'.heap p = some { sp with transition_list := rest ++ [{ label := a, target := t' }] } ∧
        Reg A'.heap t' ∧
        (∀ x, x ≠ p → ¬ (x ∈ qs ∨ x = qe) → A'.heap x = A.heap x) ∧
        (∀ x, (x ∈ qs ∨ x = qe) → A'.heap x = none ∨ Reg A'.heap x) ∧
        (∀ y, accF A'.heap p y = accF A.heap p y) ∧
        (∀ x, Reg A'.heap x → ¬ Reg A.heap x →
          ∃ u, u ≠ [] ∧ ∀ y, accF A'.heap x y = true → accF A'.heap p (u ++ y) = true) ∧
        A'.initial_state = A.initial_state ∧ A'.allocated = A.allocated := by
  intro v
  induction v with
  | nil =>
    intro fuel A cl p sp rest a c qs qe hinv hp hpun hptl hrest hpc hsp hleaf hinit hfuel
    obtain ⟨rfl, rfl⟩ := hsp.end_eq_of_nil
    obtain ⟨sc, hc, hcun, hctl⟩ := hleaf
    obtain ⟨f, rfl⟩ : ∃ f, fuel = f + 1 := ⟨fuel - 1, by simp at hfuel; omega⟩
    have hrun : replace_or_register (f + 1) A p = replace_or_register_child f A p qe := by
      simp [replace_or_register, last_child, hp, hptl, last_transition_append_single, hc, hcun,
        has_children, transitions_count, hctl]
    rw [hrun]
    have := ror_finish f A A cl cl p qe sp sc rest a (fun x => x ∈ ([] : List Nat) ∨ x = qe)
      hinv hinv hp hpun hptl hrest (by omega) (by omega) (Or.inr rfl)
      (by simp; omega)
      (by
        rintro r ⟨s, hs, hr⟩ hB
        simp only [List.not_mem_nil, false_or] at hB
        subst hB
        rw [hc] at hs; cases hs
        rw [hcun] at hr; cases hr)
      hc hcun (by rw [hctl]; simp) (fun _ _ => rfl)
      (by
        intro x hB hx
        simp only [List.not_mem_nil, false_or] at hB
        exact absurd hB hx)
      (fun _ => rfl) (fun x h1 h2 => absurd h1 h2) rfl rfl (Or.inl hctl)
    exact this
  | cons b v0 ih =>
    intro fuel A cl p sp rest a c qs qe hinv hp hpun hptl hrest hpc hsp hleaf hinit hfuel
    obtain ⟨f, rfl⟩ : ∃ f, fuel = f + 1 := ⟨fuel - 1, by simp at hfuel; omega⟩
    cases hsp with
    | cons _ sc _ tc rest_c _ qs0 _ hc hcun hctl hrest_c hctc hsp0 =>
      have hbounds := hsp0.le_end
      have hunreg0 := hsp0.unreg
      obtain ⟨A1, cl1, t1, hrun1, hinv1, h1c, hregt1, hframe1, hfate1, hlangc, hnew1, hinit1,
          halloc1⟩ :=
        ih f A cl c sc rest_c b tc qs0 qe hinv hc hcun hctl hrest_c hctc hsp0 hleaf
          (by omega) (by simp at hfuel; omega)
      have hrun : replace_or_register (f + 1) A p = replace_or_register_child f A1 p c := by
        simp [replace_or_register, last_child, hp, hptl, last_transition_append_single, hc, hcun,
          has_children, transitions_count, hctl, hrun1]
      rw [hrun]
      have hnotB : ∀ r, Reg A.heap r → ¬ (r ∈ c :: qs0 ∨ r = qe) := by
        rintro r ⟨s, hs, hr⟩ hB
        rcases hB with hB | hB
        · rcases List.mem_cons.1 hB with rfl | hB
          · rw [hc] at hs; cases hs
            rw [hcun] at hr; cases hr
          · obtain ⟨s', hs', hr'⟩ := hunreg0 r hB
            rw [hs'] at hs; cases hs
            rw [hr'] at hr; cases hr
        · subst hB
          obtain ⟨s', hs', hr', _⟩ := hleaf
          rw [hs'] at hs; cases hs
          rw [hr'] at hr; cases hr
      have hsame1 : ∀ r s, A.heap r = some s → is_marked_as_registered s = true →
          A1.heap r = some s := by
        intro r s hs hr
        have hB := hnotB r ⟨s, hs, hr⟩
        have hrc : r ≠ c := fun e => hB (Or.inl (e ▸ List.mem_cons_self _ _))
        rw [hframe1 r hrc (fun h => hB (h.elim (fun h => Or.inl (List.mem_cons_of_mem _ h))
          Or.inr))]
        exact hs
      have := ror_finish f A A1 cl cl1 p c sp _ rest a (fun x => x ∈ c :: qs0 ∨ x = qe)
        hinv hinv1 hp hpun hptl hrest (by omega) (by omega) (Or.inl (List.mem_cons_self _ _))
        (by
          rintro (h | h)
          · rcases List.mem_cons.1 h with h | h
            · omega
            · have := (hbounds.2 p h).1
              omega
          · have := hbounds.1
            omega)
        hnotB h1c (by simpa using hcun)
        (by
          intro x hx
          simp only [List.mem_append, List.mem_singleton] at hx
          rcases hx with hx | hx
          · exact Reg.mono hsame1 (hrest_c x hx)
          · subst hx; exact hregt1)
        (by
          intro x hB
          have hxc : x ≠ c := fun e => hB (Or.inl (e ▸ List.mem_cons_self _ _))
          exact hframe1 x hxc (fun h => hB (h.elim (fun h => Or.inl (List.mem_cons_of_mem _ h))
            Or.inr)))
        (by
          intro x hB hxc
          apply hfate1
          rcases hB with hB | hB
          · rcases List.mem_cons.1 hB with hB | hB
            · exact absurd hB hxc
            · exact Or.inl hB
          · exact Or.inr hB)
        hlangc hnew1 hinit1 halloc1 (Or.inr (by simp at hfuel; omega))
      exact this

end Morph

namespace Morph

/-! ## `add_suffix` -/

theorem ring_insert_after_head {ring : List Nat} {i n : Nat} (h : ring.head? = some i) :
    ∃ tail, ring = i :: tail ∧ ring_insert_after ring i n = i :: n :: tail := by
  cases ring with
  | nil => simp at h
  | cons x tail =>
    simp only [List.head?_cons, Option.some.injEq] at h
    subst h
    exact ⟨tail, rfl, by simp [ring_insert_after]⟩

/-- One round of the loop of `add_suffix`. -/
theorem add_suffix_loop_step (A : Automat) (cl : EquivalenceClassList) (last : Nat) (sl : State)
    (c : Label) (x0 : List Label)
    (hinv : RegInv A cl) (hl : A.heap last = some sl)
    (hlun : is_marked_as_registered sl = false)
    (hlt : ∀ t ∈ sl.transition_list, t.label < c)
    (hsize : A.allocated + 1 < 2 ^ 32) :
    ∃ A1,
      add_suffix_loop A last (c :: x0) = add_suffix_loop A1 A.allocated x0 ∧
      RegInv A1 cl ∧
      A1.heap A.allocated =
        some { transition_list := [], id := A.allocated + 1, flags := UNMARKED_STATE } ∧
      A1.heap last = some { sl with
        transition_list := sl.transition_list ++ [{ label := c, target := A.allocated }] } ∧
      (∀ q, q ≠ A.allocated → q ≠ last → A1.heap q = A.heap q) ∧
      A1.allocated = A.allocated + 1 ∧ A1.initial_state = A.initial_state := by
  have hln : last ≠ A.allocated := by
    have := hinv.alloc last sl hl
    omega
  have hid : (A.last_state_id + 1) % 2 ^ 32 = A.allocated + 1 := by
    rw [hinv.counter]
    exact Nat.mod_eq_of_lt hsize
  obtain ⟨tail, hring, hins⟩ := ring_insert_after_head (n := A.allocated) hinv.ring_head
  have hnone : A.heap A.allocated = none := by
    cases hn : A.heap A.allocated with
    | none => rfl
    | some s => exact absurd (hinv.alloc _ s hn) (lt_irrefl _)
  have hnring : A.allocated ∉ A.ring := by
    rw [hinv.ring_mem, hnone]; simp
  refine ⟨({ ({ A with last_state_id := A.allocated + 1 } : Automat).store A.allocated
        { transition_list := [], id := A.allocated + 1, flags := UNMARKED_STATE } with
        allocated := A.allocated + 1,
        ring := ring_insert_after A.ring A.initial_state A.allocated } : Automat).store last
      { sl with
        transition_list := sl.transition_list ++ [{ label := c, target := A.allocated }] },
    ?_, ?_, ?_, ?_, ?_, rfl, rfl⟩
  · simp only [add_suffix_loop, hid, append_new_state, make_state, Option.bind_eq_bind,
      Option.pure_def]
    have : (({ A with last_state_id := A.allocated + 1 } : Automat).store A.allocated
        { transition_list := [], id := A.allocated + 1, flags := UNMARKED_STATE }).heap last
        = some sl := by
      rw [store_heap_ne _ _ hln]; exact hl
    simp only [Automat.store] at this ⊢
    simp only [this, Option.some_bind, extend_transition_list]
  · have hsame : ∀ r s, A.heap r = some s → is_marked_as_registered s = true →
        (({ ({ A with last_state_id := A.allocated + 1 } : Automat).store A.allocated
        { transition_list := [], id := A.allocated + 1, flags := UNMARKED_STATE } with
        allocated := A.allocated + 1,
        ring := ring_insert_after A.ring A.initial_state A.allocated } : Automat).store last
          { sl with transition_list :=
              sl.transition_list ++ [{ label := c, target := A.allocated }] }).heap r
          = some s := by
      intro r s hr hreg
      have hrl : r ≠ last := by
        rintro rfl
        rw [hl] at hr; cases hr
        rw [hlun] at hreg; cases hreg
      have hrn : r ≠ A.allocated := by
        have := hinv.alloc r s hr
        omega
      rw [store_heap_ne _ _ hrl]
      simp [Automat.store, hrn, hr]
    have hback : ∀ q s, (({ ({ A with last_state_id := A.allocated + 1 } : Automat).store
        A.allocated
        { transition_list := [], id := A.allocated + 1, flags := UNMARKED_STATE } with
        allocated := A.allocated + 1,
        ring := ring_insert_after A.ring A.initial_state A.allocated } : Automat).store last
          { sl with transition_list :=
              sl.transition_list ++ [{ label := c, target := A.allocated }] }).heap q
          = some s → is_marked_as_registered s = true → A.heap q = some s := by
      intro q s hq hreg
      by_cases hql : q = last
      · subst hql
        rw [store_heap_same] at hq
        cases hq
        simp [hlun] at hreg
      · rw [store_heap_ne _ _ hql] at hq
        by_cases hqn : q = A.allocated
        · subst hqn
          simp [Automat.store] at hq
          subst hq
          simp [is_marked_as_registered, UNMARKED_STATE] at hreg
        · simpa [Automat.store, hqn] using hq
    constructor
    · exact hinv.class_list
    · intro key cls hg
      obtain ⟨q, s, h1, h2, h3, h4⟩ := hinv.reg_of_class key cls hg
      exact ⟨q, s, h1, hsame q s h2 h3, h3, h4⟩
    · intro q s hq hreg
      exact hinv.class_of_reg q s (hback q s hq hreg) hreg
    · intro q s hq hreg x hx
      exact Reg.mono hsame (hinv.closed q s (hback q s hq hreg) hreg x hx)
    · intro q s hq
      by_cases hql : q = last
      · subst hql
        rw [store_heap_same] at hq
        cases hq
        exact sortedLabels_append_single.2 ⟨hinv.sorted q sl hl, hlt⟩
      · rw [store_heap_ne _ _ hql] at hq
        by_cases hqn : q = A.allocated
        · subst hqn
          simp [Automat.store] at hq
          subst hq
          simp [SortedLabels]
        · exact hinv.sorted q s (by simpa [Automat.store, hqn] using hq)
    · intro q s hq
      by_cases hql : q = last
      · subst hql
        rw [store_heap_same] at hq
        cases hq
        exact hinv.ids q sl hl
      · rw [store_heap_ne _ _ hql] at hq
        by_cases hqn : q = A.allocated
        · subst hqn
          simp [Automat.store] at hq
          subst hq
          rfl
        · exact hinv.ids q s (by simpa [Automat.store, hqn] using hq)
    · intro q s hq
      show q < A.allocated + 1
      by_cases hql : q = last
      · subst hql
        have := hinv.alloc q sl hl
        omega
      · rw [store_heap_ne _ _ hql] at hq
        by_cases hqn : q = A.allocated
        · omega
        · have := hinv.alloc q s (by simpa [Automat.store, hqn] using hq)
          omega
    · rfl
    · show (ring_insert_after A.ring A.initial_state A.allocated).Nodup
      rw [hins]
      have hnd := hinv.ring_nodup
      rw [hring] at hnd hnring
      simp only [List.nodup_cons, List.mem_cons, not_or] at hnd hnring ⊢
      exact ⟨⟨fun e => hnring.1 e.symm, hnd.1⟩, hnring.2, hnd.2⟩
    · intro q
      show q ∈ ring_insert_after A.ring A.initial_state A.allocated ↔ _
      have hm := hinv.ring_mem q
      rw [hins]
      rw [hring] at hm
      by_cases hql : q = last
      · subst hql
        rw [store_heap_same]
        have : (A.heap q).isSome = true := by rw [hl]; rfl
        have := hm.2 this
        simp only [List.mem_cons] at this ⊢
        simp only [Option.isSome_some, iff_true]
        tauto
      · rw [store_heap_ne _ _ hql]
        by_cases hqn : q = A.allocated
        · subst hqn
          simp [Automat.store]
        · simp only [Automat.store, hqn, ↓reduceIte]
          rw [← hm]
          simp only [List.mem_cons]
          tauto
    · show (ring_insert_after A.ring A.initial_state A.allocated).head? = _
      rw [hins]; rfl
    · intro q s hq
      show s.transition_list.length + q < A.allocated + 1
      by_cases hql : q = last
      · subst hql
        rw [store_heap_same] at hq
        cases hq
        have := hinv.degree q sl hl
        simp only [List.length_append, List.length_singleton]
        omega
      · rw [store_heap_ne _ _ hql] at hq
        by_cases hqn : q = A.allocated
        · subst hqn
          simp [Automat.store] at hq
          subst hq
          simp
        · have := hinv.degree q s (by simpa [Automat.store, hqn] using hq)
          omega
  · rw [store_heap_ne _ _ (Ne.symm hln)]
    simp [Automat.store]
  · simp
  · intro q hqn hql
    rw [store_heap_ne _ _ hql]
    simp [Automat.store, hqn]

end Morph

namespace Morph

@[simp] theorem is_final_state_fresh (l : TransitionList) (id : Nat) :
    is_final_state { transition_list := l, id := id, flags := UNMARKED_STATE } = 0 := by
  simp [is_final_state, UNMARKED_STATE]

@[simp] theorem is_registered_fresh (l : TransitionList) (id : Nat) :
    is_marked_as_registered { transition_list := l, id := id, flags := UNMARKED_STATE }
      = false := by
  simp [is_marked_as_registered, UNMARKED_STATE]

theorem accF_fresh (h : Heap) (n : Nat) (id : Nat)
    (hn : h n = some { transition_list := [], id := id, flags := UNMARKED_STATE })
    (y : List Label) : accF h n y = false := by
  cases y with
  | nil => rw [accF_nil h n _ hn]; simp
  | cons b y => rw [accF_cons h n _ hn]; rfl

/-- The loop of `add_suffix`: a fresh branch for the suffix is hung below
`last`; once its end is marked final, the language of `last` has gained the
suffix and nothing else. -/
theorem add_suffix_loop_spec :
    ∀ (x : List Label) (A : Automat) (cl : EquivalenceClassList) (last : Nat) (sl : State),
      RegInv A cl → A.heap last = some sl → is_marked_as_registered sl = false →
      (∀ t ∈ sl.transition_list, Reg A.heap t.target) →
      (∀ c x0, x = c :: x0 → ∀ t ∈ sl.transition_list, t.label < c) →
      A.allocated + x.length < 2 ^ 32 →
      ∃ A' qs' qe' se,
        add_suffix_loop A last x = some (A', qe') ∧ RegInv A' cl ∧
        Spine A'.heap last x qs' qe' ∧
        A'.heap qe' = some se ∧ is_marked_as_registered se = false ∧
        (x ≠ [] → se.transition_list = []) ∧ (x = [] → se = sl) ∧
        (∀ q, q < A.allocated → q ≠ last → A'.heap q = A.heap q) ∧
        (∀ q, A.allocated ≤ q → (A'.heap q).isSome = true → q ∈ qs' ∨ q = qe') ∧
        (∀ q, q ∈ qs' → q = last ∨ A.allocated ≤ q) ∧ (qe' = last ∨ A.allocated ≤ qe') ∧
        (∃ s, A'.heap last = some s ∧ is_marked_as_registered s = false) ∧
        A'.allocated = A.allocated + x.length ∧ A'.initial_state = A.initial_state ∧
        (∀ y, accF (A'.store qe' { se with flags := se.flags ||| FINAL_STATE }).heap last y
            = true ↔ (accF A.heap last y = true ∨ y = x)) := by
  intro x
  induction x with
  | nil =>
    intro A cl last sl hinv hl hlun hlreg _ _
    refine ⟨A, [], last, sl, rfl, hinv, Spine.nil last, hl, hlun, by simp, fun _ => rfl,
      fun _ _ _ => rfl, ?_, by simp, Or.inl rfl, ⟨sl, hl, hlun⟩, rfl, rfl, ?_⟩
    · intro q hq hsome
      obtain ⟨s, hs⟩ := Option.isSome_iff_exists.1 hsome
      have := hinv.alloc q s hs
      omega
    · have hsame : ∀ r s, A.heap r = some s → is_marked_as_registered s = true →
          (A.store last { sl with flags := sl.flags ||| FINAL_STATE }).heap r = some s := by
        intro r s hr hreg
        have hrl : r ≠ last := by
          rintro rfl
          rw [hl] at hr; cases hr
          rw [hlun] at hreg; cases hreg
        rw [store_heap_ne _ _ hrl]; exact hr
      intro y
      cases y with
      | nil => simp [accF]
      | cons b y =>
        rw [accF_cons _ last _ (store_heap_same _ _ _), accF_cons A.heap last sl hl]
        simp only [reduceCtorEq, or_false]
        cases hft : find_transition sl.transition_list b with
        | none => simp
        | some t =>
          simp only
          rw [accF_reg_frame hinv.closed hsame t.target (hlreg t (find_transition_mem hft).1) y]
  | cons c x0 ih =>
    intro A cl last sl hinv hl hlun hlreg hlabels hsize
    simp only [List.length_cons] at hsize
    obtain ⟨A1, hrun1, hinv1, h1n, h1l, hframe1, halloc1, hinit1⟩ :=
      add_suffix_loop_step A cl last sl c x0 hinv hl hlun (hlabels c x0 rfl) (by omega)
    have hlast_lt : last < A.allocated := hinv.alloc last sl hl
    obtain ⟨A', qs0, qe', se, hrun, hinv', hsp, hqe', hseun, hsetl, hse0, hframe, hnew, hqs0,
        hqe'pos, _, halloc', hinit', hlang⟩ :=
      ih A1 cl A.allocated _ hinv1 h1n (by simp) (by simp) (by simp)
        (by rw [halloc1]; omega)
    have hl' : A'.heap last = some { sl with
        transition_list := sl.transition_list ++ [{ label := c, target := A.allocated }] } := by
      rw [hframe last (by rw [halloc1]; omega) (by omega)]; exact h1l
    have hsame : ∀ r s, A.heap r = some s → is_marked_as_registered s = true →
        A'.heap r = some s := by
      intro r s hr hreg
      have hrl : r ≠ last := by
        rintro rfl
        rw [hl] at hr; cases hr
        rw [hlun] at hreg; cases hreg
      have hra := hinv.alloc r s hr
      rw [hframe r (by rw [halloc1]; omega) (by omega), hframe1 r (by omega) hrl]
      exact hr
    have hqe'ge : A.allocated ≤ qe' := by
      rcases hqe'pos with h | h
      · omega
      · rw [halloc1] at h; omega
    have hnmem : A.allocated ∈ qs0 ∨ A.allocated = qe' := by
      cases hsp with
      | nil => exact Or.inr rfl
      | cons => exact Or.inl (List.mem_cons_self _ _)
    refine ⟨A', last :: qs0, qe', se, by rw [hrun1, hrun], hinv', ?_, hqe', hseun, ?_, by simp,
      ?_, ?_, ?_, Or.inr hqe'ge, ⟨_, hl', by simpa using hlun⟩, by rw [halloc', halloc1]; simp; omega,
      by rw [hinit', hinit1], ?_⟩
    · exact Spine.cons last _ c A.allocated sl.transition_list x0 qs0 qe' hl'
        (by simpa using hlun) rfl (fun t ht => Reg.mono hsame (hlreg t ht)) hlast_lt hsp
    · intro _
      by_cases hx0 : x0 = []
      · have := hse0 hx0
        rw [this]
      · exact hsetl hx0
    · intro q hq hql
      rw [hframe q (by rw [halloc1]; omega) (by omega), hframe1 q (by omega) hql]
    · intro q hq hsome
      by_cases hqn : q = A.allocated
      · subst hqn
        rcases hnmem with h | h
        · exact Or.inl (List.mem_cons_of_mem _ h)
        · exact Or.inr h
      · rcases hnew q (by rw [halloc1]; omega) hsome with h | h
        · exact Or.inl (List.mem_cons_of_mem _ h)
        · exact Or.inr h
    · intro q hq
      rcases List.mem_cons.1 hq with h | h
      · exact Or.inl h
      · rcases hqs0 q h with h | h
        · right; omega
        · right; rw [halloc1] at h; omega
    · -- the language
      have hlq : last ≠ qe' := by omega
      have hl'' : (A'.store qe' { se with flags := se.flags ||| FINAL_STATE }).heap last =
          some { sl with transition_list :=
            sl.transition_list ++ [{ label := c, target := A.allocated }] } := by
        rw [store_heap_ne _ _ hlq]; exact hl'
      have hsame'' : ∀ r s, A.heap r = some s → is_marked_as_registered s = true →
          (A'.store qe' { se with flags := se.flags ||| FINAL_STATE }).heap r = some s := by
        intro r s hr hreg
        have hra := hinv.alloc r s hr
        rw [store_heap_ne _ _ (by omega)]
        exact hsame r s hr hreg
      have hnoc : find_transition sl.transition_list c = none :=
        find_transition_none (fun t ht => ne_of_lt (hlabels c x0 rfl t ht))
      intro y
      cases y with
      | nil =>
        rw [accF_nil _ last _ hl'', accF_nil A.heap last sl hl]
        simp
      | cons b y =>
        rw [accF_cons _ last _ hl'', accF_cons A.heap last sl hl]
        simp only
        by_cases hb : b = c
        · subst hb
          have := find_transition_append_single_eq sl.transition_list
            { label := b, target := A.allocated } (fun t ht => ne_of_lt (hlabels b x0 rfl t ht))
          simp only at this
          rw [this, hnoc]
          simp only [Bool.false_eq_true, false_or, List.cons.injEq, true_and]
          rw [hlang y, accF_fresh A1.heap A.allocated _ h1n y]
          simp
        · have hne : ({ label := c, target := A.allocated } : Transition).label ≠ b :=
            fun e => hb e.symm
          rw [find_transition_append_single_ne _ _ hne]
          cases hft : find_transition sl.transition_list b with
          | none => simp [hb]
          | some t =>
            simp only [List.cons.injEq, hb, false_and, or_false]
            rw [accF_reg_frame hinv.closed hsame'' t.target
              (hlreg t (find_transition_mem hft).1) y]

end Morph

namespace Morph

/-- Rewriting the marks of an unregistered state keeps the invariant of the
registered part. -/
theorem RegInv.store_unreg {A : Automat} {cl : EquivalenceClassList} (hinv : RegInv A cl)
    {q : Nat} {s s' : State} (hq : A.heap q = some s)
    (hun : is_marked_as_registered s = false) (htl : s'.transition_list = s.transition_list)
    (hid : s'.id = s.id) (hun' : is_marked_as_registered s' = false) :
    RegInv (A.store q s') cl := by
  have hsame : ∀ r sr, A.heap r = some sr → is_marked_as_registered sr = true →
      (A.store q s').heap r = some sr := by
    intro r sr hr hreg
    have hrq : r ≠ q := by
      rintro rfl
      rw [hq] at hr; cases hr
      rw [hun] at hreg; cases hreg
    rw [store_heap_ne _ _ hrq]; exact hr
  have hback : ∀ r sr, (A.store q s').heap r = some sr → is_marked_as_registered sr = true →
      A.heap r = some sr := by
    intro r sr hr hreg
    by_cases hrq : r = q
    · subst hrq
      rw [store_heap_same] at hr
      cases hr
      rw [hun'] at hreg; cases hreg
    · rw [store_heap_ne _ _ hrq] at hr; exact hr
  constructor
  · exact hinv.class_list
  · intro key cls hg
    obtain ⟨r, sr, h1, h2, h3, h4⟩ := hinv.reg_of_class key cls hg
    exact ⟨r, sr, h1, hsame r sr h2 h3, h3, h4⟩
  · intro r sr hr hreg
    exact hinv.class_of_reg r sr (hback r sr hr hreg) hreg
  · intro r sr hr hreg x hx
    exact Reg.mono hsame (hinv.closed r sr (hback r sr hr hreg) hreg x hx)
  · intro r sr hr
    by_cases hrq : r = q
    · subst hrq
      rw [store_heap_same] at hr
      cases hr
      rw [htl]
      exact hinv.sorted r s hq
    · rw [store_heap_ne _ _ hrq] at hr
      exact hinv.sorted r sr hr
  · intro r sr hr
    by_cases hrq : r = q
    · subst hrq
      rw [store_heap_same] at hr
      cases hr
      rw [hid]
      exact hinv.ids r s hq
    · rw [store_heap_ne _ _ hrq] at hr
      exact hinv.ids r sr hr
  · intro r sr hr
    by_cases hrq : r = q
    · subst hrq
      exact hinv.alloc r s hq
    · rw [store_heap_ne _ _ hrq] at hr
      exact hinv.alloc r sr hr
  · exact hinv.counter
  · exact hinv.ring_nodup
  · intro r
    show r ∈ A.ring ↔ _
    rw [hinv.ring_mem]
    by_cases hrq : r = q
    · subst hrq
      simp [hq]
    · rw [store_heap_ne _ _ hrq]
  · exact hinv.ring_head
  · intro r sr hr
    by_cases hrq : r = q
    · subst hrq
      rw [store_heap_same] at hr
      cases hr
      rw [htl]
      exact hinv.degree r s hq
    · rw [store_heap_ne _ _ hrq] at hr
      exact hinv.degree r sr hr

/-- `add_suffix` below an unregistered state whose transitions all lead to
registered states and carry labels below the first label of the suffix. -/
theorem add_suffix_spec (x : List Label) (A : Automat) (cl : EquivalenceClassList) (p : Nat)
    (sl : State) (hinv : RegInv A cl) (hp : A.heap p = some sl)
    (hun : is_marked_as_registered sl = false)
    (hreg : ∀ t ∈ sl.transition_list, Reg A.heap t.target)
    (hlabels : ∀ c x0, x = c :: x0 → ∀ t ∈ sl.transition_list, t.label < c)
    (hsize : A.allocated + x.length < 2 ^ 32) :
    ∃ A' qs' qe',
      add_suffix A p x = some A' ∧ RegInv A' cl ∧ Spine A'.heap p x qs' qe' ∧
      (∃ s, A'.heap qe' = some s ∧ is_marked_as_registered s = false ∧
        ((x ≠ [] ∨ sl.transition_list = []) → s.transition_list = [])) ∧
      (∀ q, q < A.allocated → q ≠ p → A'.heap q = A.heap q) ∧
      (∀ q, A.allocated ≤ q → (A'.heap q).isSome = true → q ∈ qs' ∨ q = qe') ∧
      (∀ q, q ∈ qs' → q = p ∨ A.allocated ≤ q) ∧ (qe' = p ∨ A.allocated ≤ qe') ∧
      A'.allocated = A.allocated + x.length ∧ A'.initial_state = A.initial_state ∧
      (∀ y, accF A'.heap p y = true ↔ (accF A.heap p y = true ∨ y = x)) := by
  obtain ⟨A', qs', qe', se, hrun, hinv', hsp, hqe', hseun, hsetl, hse0, hframe, hnew, hqs,
      hqepos, ⟨sp', hp', hpun'⟩, halloc', hinit', hlang⟩ :=
    add_suffix_loop_spec x A cl p sl hinv hp hun hreg hlabels hsize
  have hsameA' : ∀ r sr, A'.heap r = some sr → is_marked_as_registered sr = true →
      (A'.store qe' { se with flags := se.flags ||| FINAL_STATE }).heap r = some sr := by
    intro r sr hr hreg'
    have : r ≠ qe' := by
      rintro rfl
      rw [hqe'] at hr; cases hr
      rw [hseun] at hreg'; cases hreg'
    rw [store_heap_ne _ _ this]; exact hr
  refine ⟨A'.store qe' { se with flags := se.flags ||| FINAL_STATE }, qs', qe', ?_,
    hinv'.store_unreg hqe' hseun rfl rfl (by simpa using hseun), ?_, ?_, ?_, ?_, hqs, hqepos,
    halloc', hinit', hlang⟩
  · simp only [add_suffix, hp, hun, Bool.false_eq_true, ↓reduceIte, Option.bind_eq_bind,
      Option.some_bind, hrun, mark_as_final, hqe', Option.pure_def]
    by_cases hpq : p = qe'
    · subst hpq
      simp [hseun]
    · rw [store_heap_ne _ _ hpq, hp']
      simp [hpun']
  · refine hsp.frame ?_ (fun r hr => Reg.mono hsameA' hr)
    intro q hq
    have := (hsp.le_end.2 q hq).2
    rw [store_heap_ne _ _ (by omega)]
  · refine ⟨_, store_heap_same _ _ _, by simpa using hseun, ?_⟩
    intro h
    simp only
    by_cases hx : x = []
    · have := hse0 hx
      subst this
      rcases h with h | h
      · exact absurd hx h
      · exact h
    · exact hsetl hx
  · intro q hq hqp
    by_cases hqq : q = qe'
    · subst hqq
      rcases hqepos with h | h
      · exact absurd h hqp
      · omega
    · rw [store_heap_ne _ _ hqq]
      exact hframe q hq hqp
  · intro q hq hsome
    by_cases hqq : q = qe'
    · exact Or.inr hqq
    · rw [store_heap_ne _ _ hqq] at hsome
      exact hnew q hq hsome

end Morph

namespace Morph

/-- The second half of `automat_add_word`: the branch below the fork state `pj`
has been minimised (`A1`), and the suffix of the new word is added below it. -/
theorem add_word_finish (A A1 : Automat) (cl cl1 : EquivalenceClassList)
    (ws : List (List Label)) (w : List Label) (qs : List Nat) (qe : Nat)
    (u v' : List Label) (qs1 : List Nat) (pj : Nat) (sp1 : State) (B : Nat → Prop)
    (hinv : Inv A cl ws w qs qe) (hinv1 : RegInv A1 cl1)
    (hsp1 : Spine A.heap A.initial_state u qs1 pj)
    (h1p : A1.heap pj = some sp1) (h1pun : is_marked_as_registered sp1 = false)
    (h1reg : ∀ t ∈ sp1.transition_list, Reg A1.heap t.target)
    (h1labels : ∀ c x0, v' = c :: x0 → ∀ t ∈ sp1.transition_list, t.label < c)
    (hleaf1 : sp1.transition_list = [] ∨ v' ≠ [])
    (hframe1 : ∀ x, x ≠ pj → ¬ B x → A1.heap x = A.heap x)
    (hfate1 : ∀ x, B x → A1.heap x = none ∨ Reg A1.heap x)
    (hBqs1 : ∀ x ∈ qs1, ¬ B x)
    (hcover : ∀ x, x ∈ qs ∨ x = qe → x ∈ qs1 ∨ x = pj ∨ B x)
    (hBreg : ∀ r, Reg A.heap r → ¬ B r ∧ r ≠ pj)
    (hlang1 : ∀ y, accF A1.heap pj y = accF A.heap pj y)
    (hnew1 : ∀ x, Reg A1.heap x → ¬ Reg A.heap x →
      ∃ u1, u1 ≠ [] ∧ ∀ y, accF A1.heap x y = true → accF A1.heap pj (u1 ++ y) = true)
    (hinit1 : A1.initial_state = A.initial_state) (halloc1 : A1.allocated = A.allocated)
    (hsize : A.allocated + v'.length < 2 ^ 32) :
    ∃ A' qs' qe',
      add_suffix A1 pj v' = some A' ∧
      Inv A' cl1 (ws ++ [u ++ v']) (u ++ v') (qs1 ++ qs') qe' := by
  obtain ⟨A', qs', qe', hrun, hinv', hsp', hleaf', hframe, hnew, hqs', hqe', halloc', hinit',
      hlang'⟩ :=
    add_suffix_spec v' A1 cl1 pj sp1 hinv1 h1p h1pun h1reg h1labels (by rw [halloc1]; exact hsize)
  have hqs1lt := hsp1.le_end
  -- the states above the fork are untouched
  have hsame_qs1 : ∀ x ∈ qs1, A'.heap x = A.heap x := by
    intro x hx
    have hlt := (hqs1lt.2 x hx).2
    obtain ⟨s, hs, _⟩ := hsp1.unreg x hx
    have := hinv.reg.alloc x s hs
    rw [hframe x (by rw [halloc1]; exact this) (by omega), hframe1 x (by omega) (hBqs1 x hx)]
  -- registered states are untouched
  have hsame1 : ∀ r s, A.heap r = some s → is_marked_as_registered s = true →
      A1.heap r = some s := by
    intro r s hr hreg
    obtain ⟨h1, h2⟩ := hBreg r ⟨s, hr, hreg⟩
    rw [hframe1 r h2 h1]; exact hr
  have hsame' : ∀ r s, A1.heap r = some s → is_marked_as_registered s = true →
      A'.heap r = some s := by
    intro r s hr hreg
    have hrp : r ≠ pj := by
      rintro rfl
      rw [h1p] at hr; cases hr
      rw [h1pun] at hreg; cases hreg
    rw [hframe r (hinv1.alloc r s hr) hrp]; exact hr
  have hregback : ∀ r, Reg A'.heap r → Reg A1.heap r := by
    rintro r ⟨s, hs, hreg⟩
    by_cases hra : A1.allocated ≤ r
    · exfalso
      rcases hnew r hra (by rw [hs]; rfl) with h | h
      · obtain ⟨s', hs', hun'⟩ := hsp'.unreg r h
        rw [hs'] at hs; cases hs
        rw [hun'] at hreg; cases hreg
      · subst h
        obtain ⟨s', hs', hun', _⟩ := hleaf'
        rw [hs'] at hs; cases hs
        rw [hun'] at hreg; cases hreg
    · have hrp : r ≠ pj := by
        rintro rfl
        cases hsp' with
        | nil =>
          obtain ⟨s', hs', hun', _⟩ := hleaf'
          rw [hs'] at hs; cases hs
          rw [hun'] at hreg; cases hreg
        | cons _ s' _ _ _ _ _ _ hs' hun' =>
          rw [hs'] at hs; cases hs
          rw [hun'] at hreg; cases hreg
      rw [hframe r (by omega) hrp] at hs
      exact ⟨s, hs, hreg⟩
  have hacc_reg : ∀ r, Reg A.heap r → ∀ y, accF A'.heap r y = accF A.heap r y := by
    intro r hr y
    rw [accF_reg_frame hinv1.closed hsame' r (Reg.mono hsame1 hr) y,
      accF_reg_frame hinv.reg.closed hsame1 r hr y]
  have hpj_mem : pj ∈ qs' ∨ pj = qe' := by
    cases hsp' with
    | nil => exact Or.inr rfl
    | cons => exact Or.inl (List.mem_cons_self _ _)
  have hlang_init : ∀ z, accF A'.heap A.initial_state z = true ↔
      (accF A.heap A.initial_state z = true ∨ ∃ y, z = u ++ y ∧ y = v') :=
    hsp1.lift hinv.reg.sorted hsame_qs1 hacc_reg (fun y => y = v')
      (fun y => by rw [hlang' y, hlang1 y])
  refine ⟨A', qs', qe', hrun, ?_⟩
  constructor
  · exact hinv'
  · rw [hinit', hinit1]
    exact (hsp1.frame hsame_qs1 (fun r hr => Reg.mono hsame' (Reg.mono hsame1 hr))).append hsp'
  · obtain ⟨s, hs, hun, htl⟩ := hleaf'
    refine ⟨s, hs, hun, htl ?_⟩
    rcases hleaf1 with h | h
    · exact Or.inr h
    · exact Or.inl h
  · intro x s hs hun
    by_cases hxa : A1.allocated ≤ x
    · rcases hnew x hxa (by rw [hs]; rfl) with h | h
      · exact Or.inl (List.mem_append_right _ h)
      · exact Or.inr h
    · by_cases hxp : x = pj
      · subst hxp
        rcases hpj_mem with h | h
        · exact Or.inl (List.mem_append_right _ h)
        · exact Or.inr h
      · rw [hframe x (by omega) hxp] at hs
        by_cases hxB : B x
        · exfalso
          rcases hfate1 x hxB with h | ⟨s', hs', hreg⟩
          · rw [h] at hs; cases hs
          · rw [hs'] at hs; cases hs
            rw [hun] at hreg; cases hreg
        · rw [hframe1 x hxp hxB] at hs
          rcases hcover x (hinv.part x s hs hun) with h | h | h
          · exact Or.inl (List.mem_append_left _ h)
          · exact absurd h hxp
          · exact absurd h hxB
  · intro z
    rw [hinit', hinit1, hlang_init z, hinv.lang z]
    simp only [List.mem_append, List.mem_singleton, exists_eq_right]
  · intro q hq
    have hq1 := hregback q hq
    by_cases hqA : Reg A.heap q
    · obtain ⟨u0, hu0, hsuf⟩ := hinv.suffixes q hqA
      refine ⟨u0, hu0, fun y hy => ?_⟩
      rw [hacc_reg q hqA y] at hy
      exact List.mem_append_left _ (hsuf y hy)
    · obtain ⟨u1, hu1, hsuf⟩ := hnew1 q hq1 hqA
      refine ⟨u ++ u1, by simp [hu1], fun y hy => ?_⟩
      rw [accF_reg_frame hinv1.closed hsame' q hq1 y] at hy
      have := hsuf y hy
      rw [hlang1, ← hsp1.accF_append hinv.reg.sorted, ← List.append_assoc, hinv.lang] at this
      exact List.mem_append_left _ this
  · rw [halloc', halloc1]
    have := hinv.size
    simp only [List.map_append, List.map_cons, List.length_append, List.map_nil,
      List.sum_append, List.sum_cons, List.sum_nil]
    omega

end Morph

namespace Morph

/-- One call of `automat_add_word` with a word not below the last one keeps the
invariant of the construction. -/
theorem automat_add_word_spec (fuel : Nat) (A : Automat) (cl : EquivalenceClassList)
    (ws : List (List Label)) (w : List Label) (qs : List Nat) (qe : Nat) (w' : List Label)
    (hinv : Inv A cl ws w qs qe) (hle : word_le w w') (hfuel : w.length ≤ fuel)
    (hsize : A.allocated + w'.length < 2 ^ 32) :
    ∃ A' cl' qs' qe',
      automat_add_word fuel A w' = some A' ∧ Inv A' cl' (ws ++ [w']) w' qs' qe' := by
  obtain ⟨sl, hqe, hqeun, hqetl⟩ := hinv.leaf
  obtain ⟨u, v, v', qs1, qs2, pj, hw, hw', hqs, hsp1, hsp2, hcp, hv⟩ :=
    hinv.spine.common_prefix hinv.reg.sorted ⟨sl, hqe, hqetl⟩ w' 0 hle
  have hdrop : List.drop u.length w' = v' := by
    rw [hw']; simp
  have hv'len : v'.length ≤ w'.length := by rw [hw']; simp
  rcases hv with hv | ⟨a, v0, c, v0', hv, hv'eq, hac⟩
  · -- the last word is a prefix of the new one
    subst hv
    obtain ⟨rfl, rfl⟩ := hsp2.end_eq_of_nil
    have hrun : automat_add_word fuel A w' = add_suffix A qe v' := by
      simp [automat_add_word, common_prefix, hcp, hqe, has_children, transitions_count, hqetl,
        hdrop]
    rw [hrun, hw']
    have := add_word_finish A A cl cl ws w qs qe u v' qs1 qe sl (fun _ => False) hinv hinv.reg
      hsp1 hqe hqeun (by rw [hqetl]; simp) (by rw [hqetl]; simp) (Or.inl hqetl)
      (fun _ _ _ => rfl) (fun _ h => absurd h id) (fun _ _ h => h)
      (by
        intro x hx
        rw [hqs, List.append_nil] at hx
        rcases hx with hx | hx
        · exact Or.inl hx
        · exact Or.inr (Or.inl hx))
      (by
        rintro r ⟨s, hs, hreg⟩
        refine ⟨fun h => h, ?_⟩
        rintro rfl
        rw [hqe] at hs; cases hs
        rw [hqeun] at hreg; cases hreg)
      (fun _ => rfl) (fun x h1 h2 => absurd h1 h2) rfl rfl (by omega)
    obtain ⟨A', qs', qe', h1, h2⟩ := this
    exact ⟨A', cl, qs1 ++ qs', qe', h1, h2⟩
  · -- the two words part at `pj`, which has a branch below it
    subst hv
    cases hsp2 with
    | cons _ sp _ t rest _ qs2' _ hp hpun hptl hrest hpt hsp0 =>
      have hwlen : v0.length + 1 ≤ fuel := by
        rw [hw] at hfuel
        simp only [List.length_append, List.length_cons] at hfuel
        omega
      obtain ⟨A1, cl1, t', hrun1, hinv1, h1p, hregt', hframe1, hfate1, hlang1, hnew1, hinit1,
          halloc1⟩ :=
        replace_or_register_spec v0 fuel A cl pj sp rest a t qs2' qe hinv.reg hp hpun hptl hrest
          hpt hsp0 ⟨sl, hqe, hqeun, hqetl⟩ hsp1.le_end.1 hwlen
      have hrun : automat_add_word fuel A w' = add_suffix A1 pj v' := by
        simp [automat_add_word, common_prefix, hcp, hp, has_children, transitions_count, hptl,
          hdrop, hrun1]
      rw [hrun, hw']
      have hbelow := hsp0.le_end
      have hnotB : ∀ r, Reg A.heap r → ¬ (r ∈ qs2' ∨ r = qe) ∧ r ≠ pj := by
        rintro r ⟨s, hs, hreg⟩
        refine ⟨?_, ?_⟩
        · rintro (h | h)
          · obtain ⟨s', hs', hun'⟩ := hsp0.unreg r h
            rw [hs'] at hs; cases hs
            rw [hun'] at hreg; cases hreg
          · subst h
            rw [hqe] at hs; cases hs
            rw [hqeun] at hreg; cases hreg
        · rintro rfl
          rw [hp] at hs; cases hs
          rw [hpun] at hreg; cases hreg
      have hsame1 : ∀ r s, A.heap r = some s → is_marked_as_registered s = true →
          A1.heap r = some s := by
        intro r s hr hreg
        obtain ⟨h1, h2⟩ := hnotB r ⟨s, hr, hreg⟩
        rw [hframe1 r h2 h1]; exact hr
      have hsorted := hinv.reg.sorted pj sp hp
      rw [hptl] at hsorted
      have := add_word_finish A A1 cl cl1 ws w qs qe u v' qs1 pj _ (fun x => x ∈ qs2' ∨ x = qe)
        hinv hinv1 hsp1 h1p (by simpa using hpun)
        (by
          intro x hx
          simp only [List.mem_append, List.mem_singleton] at hx
          rcases hx with hx | hx
          · exact Reg.mono hsame1 (hrest x hx)
          · subst hx; exact hregt')
        (by
          intro c' x0 hc' x hx
          rw [hv'eq] at hc'
          simp only [List.cons.injEq] at hc'
          rw [← hc'.1]
          simp only [List.mem_append, List.mem_singleton] at hx
          rcases hx with hx | hx
          · have := (sortedLabels_append_single.1 hsorted).2 x hx
            simp only at this
            exact lt_trans this hac
          · subst hx; exact hac)
        (Or.inr (by rw [hv'eq]; simp))
        hframe1 hfate1
        (by
          intro x hx hB
          have h1 := (hsp1.le_end.2 x hx).2
          rcases hB with hB | hB
          · have := (hbelow.2 x hB).1
            omega
          · have := hbelow.1
            omega)
        (by
          intro x hx
          rw [hqs] at hx
          rcases hx with hx | hx
          · rcases List.mem_append.1 hx with hx | hx
            · exact Or.inl hx
            · rcases List.mem_cons.1 hx with hx | hx
              · exact Or.inr (Or.inl hx)
              · exact Or.inr (Or.inr (Or.inl hx))
          · exact Or.inr (Or.inr (Or.inr hx)))
        hnotB hlang1 hnew1 hinit1 halloc1 (by omega)
      obtain ⟨A', qs', qe', h1, h2⟩ := this
      exact ⟨A', cl1, qs1 ++ qs', qe', h1, h2⟩

/-- The fresh automaton satisfies the invariant of the construction. -/
theorem make_automat_inv : Inv make_automat [] [] [] [] 0 := by
  have hheap : ∀ q, make_automat.heap q =
      if q = 0 then some { transition_list := [], id := 1, flags := UNMARKED_STATE }
      else none := by
    intro q
    simp [make_automat, make_state, Automat.store]
  have hinit : make_automat.initial_state = 0 := rfl
  have h0 : make_automat.heap 0 =
      some { transition_list := [], id := 1, flags := UNMARKED_STATE } := by
    rw [hheap]; simp
  have hlive : ∀ q s, make_automat.heap q = some s →
      q = 0 ∧ s = { transition_list := [], id := 1, flags := UNMARKED_STATE } := by
    intro q s hq
    rw [hheap] at hq
    by_cases h : q = 0
    · simp [h] at hq; exact ⟨h, hq.symm⟩
    · simp [h] at hq
  constructor
  · constructor
    · rfl
    · intro key cls hg
      simp [hash_table_chain_get] at hg
    · intro q s hq hreg
      obtain ⟨_, rfl⟩ := hlive q s hq
      simp at hreg
    · intro q s hq hreg
      obtain ⟨_, rfl⟩ := hlive q s hq
      simp at hreg
    · intro q s hq
      obtain ⟨_, rfl⟩ := hlive q s hq
      simp [SortedLabels]
    · intro q s hq
      obtain ⟨rfl, rfl⟩ := hlive q s hq
      rfl
    · intro q s hq
      obtain ⟨rfl, rfl⟩ := hlive q s hq
      show 0 < 1
      omega
    · rfl
    · show [0].Nodup
      simp
    · intro q
      show q ∈ [0] ↔ _
      rw [hheap]
      by_cases h : q = 0 <;> simp [h]
    · rfl
    · intro q s hq
      obtain ⟨rfl, rfl⟩ := hlive q s hq
      show 0 + 0 < 1
      omega
  · rw [hinit]; exact Spine.nil 0
  · exact ⟨_, h0, by simp, rfl⟩
  · intro x s hs _
    exact Or.inr (hlive x s hs).1
  · intro u
    rw [hinit, accF_fresh _ 0 1 h0 u]
    simp
  · rintro q ⟨s, hs, hreg⟩
    obtain ⟨_, rfl⟩ := hlive q s hs
    simp at hreg
  · show 1 ≤ _
    simp

end Morph

namespace Morph

theorem word_le_refl : ∀ w : List Label, word_le w w
  | [] => trivial
  | _ :: w => Or.inr ⟨rfl, word_le_refl w⟩

theorem word_le_nil {w : List Label} (h : word_le w []) : w = [] := by
  cases w with
  | nil => rfl
  | cons a w => exact absurd h (by simp [word_le])

theorem exists_longest : ∀ (ws : List (List Label)), ws ≠ [] →
    ∃ y ∈ ws, ∀ x ∈ ws, x.length ≤ y.length
  | [], h => absurd rfl h
  | [w], _ => ⟨w, List.mem_singleton_self w, fun x hx => by
      rw [List.mem_singleton.1 hx]⟩
  | w :: w2 :: rest, _ => by
    obtain ⟨y, hy, hmax⟩ := exists_longest (w2 :: rest) (by simp)
    by_cases h : y.length ≤ w.length
    · refine ⟨w, List.mem_cons_self _ _, fun x hx => ?_⟩
      rcases List.mem_cons.1 hx with rfl | hx
      · exact le_refl _
      · exact le_trans (hmax x hx) h
    · refine ⟨y, List.mem_cons_of_mem _ hy, fun x hx => ?_⟩
      rcases List.mem_cons.1 hx with rfl | hx
      · omega
      · exact hmax x hx

/-- Adding a sorted list of words one after the other keeps the invariant of
the construction. -/
theorem add_words_spec (fuel : Nat) :
    ∀ (ws' : List (List Label)) (A : Automat) (cl : EquivalenceClassList)
      (ws : List (List Label)) (w : List Label) (qs : List Nat) (qe : Nat),
      Inv A cl ws w qs qe → (∀ x ∈ ws', word_le w x) → ws'.Pairwise word_le →
      (∀ x ∈ ws', x.length ≤ fuel) → w.length ≤ fuel →
      1 + ((ws ++ ws').map List.length).sum < 2 ^ 32 →
      ∃ A' cl' w' qs' qe',
        add_words fuel A ws' = some A' ∧ Inv A' cl' (ws ++ ws') w' qs' qe' ∧
        (∀ x ∈ ws', word_le x w') ∧ ((ws' = [] ∧ w' = w) ∨ w' ∈ ws') := by
  intro ws'
  induction ws' with
  | nil =>
    intro A cl ws w qs qe hinv _ _ _ _ _
    exact ⟨A, cl, w, qs, qe, rfl, by simpa using hinv, by simp, Or.inl ⟨rfl, rfl⟩⟩
  | cons w1 rest ih =>
    intro A cl ws w qs qe hinv hle hpw hfuel hwfuel hsize
    have hsz := hinv.size
    simp only [List.map_append, List.map_cons, List.sum_append, List.sum_cons] at hsize
    obtain ⟨A1, cl1, qs1, qe1, hrun1, hinv1⟩ :=
      automat_add_word_spec fuel A cl ws w qs qe w1 hinv (hle w1 (List.mem_cons_self _ _))
        hwfuel (by omega)
    rw [List.pairwise_cons] at hpw
    obtain ⟨A', cl', w', qs', qe', hrun, hinv', hmax, hlast⟩ :=
      ih A1 cl1 (ws ++ [w1]) w1 qs1 qe1 hinv1 hpw.1 hpw.2
        (fun x hx => hfuel x (List.mem_cons_of_mem _ hx)) (hfuel w1 (List.mem_cons_self _ _))
        (by
          simp only [List.map_append, List.map_cons, List.map_nil, List.sum_append,
            List.sum_cons, List.sum_nil]
          omega)
    refine ⟨A', cl', w', qs', qe', ?_, by simpa using hinv', ?_, ?_⟩
    · simp [add_words, hrun1, hrun]
    · intro x hx
      rcases List.mem_cons.1 hx with rfl | hx
      · rcases hlast with ⟨_, h⟩ | h
        · rw [h]; exact word_le_refl _
        · exact hpw.1 w' h
      · exact hmax x hx
    · right
      rcases hlast with ⟨_, h⟩ | h
      · rw [h]; exact List.mem_cons_self _ _
      · exact List.mem_cons_of_mem _ h

/-- What `complete_automat` leaves: the language is kept, every state other
than the initial one is registered, and registered states have the properties
of the invariant. -/
theorem complete_automat_spec (fuel : Nat) (A : Automat) (cl : EquivalenceClassList)
    (ws : List (List Label)) (w : List Label) (qs : List Nat) (qe : Nat)
    (hinv : Inv A cl ws w qs qe) (hw : w ≠ []) (hfuel : w.length ≤ fuel) :
    ∃ A1 cl1 s0,
      complete_automat fuel A = some { A1 with class_list := none } ∧ RegInv A1 cl1 ∧
      A1.initial_state = A.initial_state ∧
      A1.heap A1.initial_state = some s0 ∧ is_marked_as_registered s0 = false ∧
      (∀ t ∈ s0.transition_list, Reg A1.heap t.target) ∧
      (∀ x, (A1.heap x).isSome = true → x = A1.initial_state ∨ Reg A1.heap x) ∧
      (∀ y, accF A1.heap A1.initial_state y = true ↔ y ∈ ws) ∧
      (∀ q, Reg A1.heap q → ∃ u, u ≠ [] ∧ ∀ y, accF A1.heap q y = true → u ++ y ∈ ws) ∧
      A1.allocated = A.allocated := by
  obtain ⟨sl, hqe, hqeun, hqetl⟩ := hinv.leaf
  have hspine := hinv.spine
  cases hwv : w with
  | nil => exact absurd hwv hw
  | cons a v =>
    rw [hwv] at hspine hfuel
    cases hspine with
    | cons _ sp _ t rest _ qs' _ hp hpun hptl hrest hpt hsp0 =>
      obtain ⟨A1, cl1, t', hrun1, hinv1, h1p, hregt', hframe1, hfate1, hlang1, hnew1, hinit1,
          halloc1⟩ :=
        replace_or_register_spec v fuel A cl A.initial_state sp rest a t qs' qe hinv.reg hp hpun
          hptl hrest hpt hsp0 ⟨sl, hqe, hqeun, hqetl⟩ (le_refl _) (by simpa using hfuel)
      have hnotB : ∀ r, Reg A.heap r → ¬ (r ∈ qs' ∨ r = qe) ∧ r ≠ A.initial_state := by
        rintro r ⟨s, hs, hreg⟩
        refine ⟨?_, ?_⟩
        · rintro (h | h)
          · obtain ⟨s', hs', hun'⟩ := hsp0.unreg r h
            rw [hs'] at hs; cases hs
            rw [hun'] at hreg; cases hreg
          · subst h
            rw [hqe] at hs; cases hs
            rw [hqeun] at hreg; cases hreg
        · rintro rfl
          rw [hp] at hs; cases hs
          rw [hpun] at hreg; cases hreg
      have hsame1 : ∀ r s, A.heap r = some s → is_marked_as_registered s = true →
          A1.heap r = some s := by
        intro r s hr hreg
        obtain ⟨h1, h2⟩ := hnotB r ⟨s, hr, hreg⟩
        rw [hframe1 r h2 h1]; exact hr
      refine ⟨A1, cl1, _, ?_, hinv1, hinit1, by rw [hinit1]; exact h1p, by simpa using hpun, ?_,
        ?_, ?_, ?_, halloc1⟩
      · simp [complete_automat, hrun1, hinv1.class_list]
      · intro x hx
        simp only [List.mem_append, List.mem_singleton] at hx
        rcases hx with hx | hx
        · exact Reg.mono hsame1 (hrest x hx)
        · subst hx; exact hregt'
      · intro x hx
        rw [hinit1]
        by_cases hxi : x = A.initial_state
        · exact Or.inl hxi
        · right
          by_cases hB : x ∈ qs' ∨ x = qe
          · rcases hfate1 x hB with h | h
            · rw [h] at hx; cases hx
            · exact h
          · rw [hframe1 x hxi hB] at hx
            obtain ⟨s, hs⟩ := Option.isSome_iff_exists.1 hx
            cases hreg : is_marked_as_registered s with
            | true => exact Reg.mono hsame1 ⟨s, hs, hreg⟩
            | false =>
              exfalso
              have := hinv.part x s hs hreg
              rcases this with h | h
              · rcases List.mem_cons.1 h with h | h
                · exact hxi h
                · exact hB (Or.inl h)
              · exact hB (Or.inr h)
      · intro y
        rw [hinit1, hlang1 y, hinv.lang y]
      · intro q hq
        by_cases hqA : Reg A.heap q
        · obtain ⟨u0, hu0, hsuf⟩ := hinv.suffixes q hqA
          refine ⟨u0, hu0, fun y hy => ?_⟩
          rw [accF_reg_frame hinv.reg.closed hsame1 q hqA y] at hy
          exact hsuf y hy
        · obtain ⟨u1, hu1, hsuf⟩ := hnew1 q hq hqA
          refine ⟨u1, hu1, fun y hy => ?_⟩
          have := hsuf y hy
          rw [hlang1, hinv.lang] at this
          exact this

end Morph

namespace Morph

/-- The automaton built from a sorted list of words that holds a non-empty word:
`complete_automat` returns, the accepted words are the words added, every
state has at most one transition per label and no two states have the same
signature. -/
theorem build_automat_spec (fuel : Nat) (ws : List (List Label))
    (hsorted : ws.Pairwise word_le) (hne : ∃ w ∈ ws, w ≠ [])
    (hfuel : ∀ w ∈ ws, w.length ≤ fuel)
    (hsize : 1 + (ws.map List.length).sum < 2 ^ 32) :
    ∃ A, build_automat fuel ws = some A ∧ (∀ w, accepts A w = true ↔ w ∈ ws) ∧
      Deterministic A ∧ DistinctSignatures A ∧ WellFormed A := by
  obtain ⟨A0, cl0, w', qs, qe, hrun0, hinv0, hmax, hlast⟩ :=
    add_words_spec fuel ws make_automat [] [] [] [] 0 make_automat_inv
      (fun _ _ => trivial) hsorted hfuel (Nat.zero_le _) (by simpa using hsize)
  simp only [List.nil_append] at hinv0
  obtain ⟨x, hx, hxne⟩ := hne
  have hw'ne : w' ≠ [] := by
    intro h
    have := hmax x hx
    rw [h] at this
    exact hxne (word_le_nil this)
  have hw'mem : w' ∈ ws := by
    rcases hlast with ⟨h, _⟩ | h
    · rw [h] at hx; cases hx
    · exact h
  obtain ⟨A1, cl1, s0, hrun1, hinv1, hinit1, h0, h0un, h0reg, hpart, hlang, hsuf, halloc⟩ :=
    complete_automat_spec fuel A0 cl0 ws w' qs qe hinv0 hw'ne (hfuel w' hw'mem)
  have htarget : ∀ q s, A1.heap q = some s → ∀ t ∈ s.transition_list, Reg A1.heap t.target := by
    intro q s hq t ht
    rcases hpart q (by rw [hq]; rfl) with h | ⟨s', hs', hreg⟩
    · subst h
      obtain rfl : s0 = s := by rw [h0] at hq; exact Option.some.inj hq
      exact h0reg t ht
    · obtain rfl : s' = s := by rw [hs'] at hq; exact Option.some.inj hq
      exact hinv1.closed q s' hs' hreg t ht
  have hkey : ∀ q s, A1.heap q = some s →
      state_description_key { A1 with class_list := none } q = some (sig s) := by
    intro q s hq
    apply state_description_key_eq_sig _ q s hq _ (hinv1.sorted q s hq)
    intro t ht
    obtain ⟨st, hst, _⟩ := htarget q s hq t ht
    exact ⟨st, hst, hinv1.ids _ _ hst⟩
  have hallocated : A1.allocated < 2 ^ 32 := by
    have := hinv0.size
    omega
  have hinit_ne : ∀ q sq, A1.heap q = some sq → is_marked_as_registered sq = true →
      sig s0 ≠ sig sq := by
    intro q sq hq hreg hsig
    obtain ⟨u, hu, hsufq⟩ := hsuf q ⟨sq, hq, hreg⟩
    obtain ⟨y, hy, hymax⟩ := exists_longest ws (List.ne_nil_of_mem hx)
    have hview : view s0 = view sq := by
      have := sig_inj hsig
      simp [view, this.1, this.2]
    have hacc : accF A1.heap q y = true := by
      rw [← accF_of_view_eq A1.heap A1.initial_state q s0 sq h0 hq hview y]
      exact (hlang y).2 hy
    have := hymax _ (hsufq y hacc)
    simp only [List.length_append] at this
    have : u.length = 0 := by omega
    exact hu (List.length_eq_zero.1 this)
  refine ⟨{ A1 with class_list := none }, ?_, ?_, ?_, ⟨?_, ?_⟩, ?_⟩
  · simp [build_automat, hrun0, hrun1]
  · intro w
    rw [accepts_eq_accF]
    exact hlang w
  · intro q s _ hq
    exact sortedLabels_nodup (hinv1.sorted q s hq)
  · intro q hq
    have : (A1.heap q).isSome = true := (hinv1.ring_mem q).1 hq
    obtain ⟨s, hs⟩ := Option.isSome_iff_exists.1 this
    rw [hkey q s hs]; rfl
  · intro p q hp hq hkeys
    obtain ⟨sp, hsp⟩ := Option.isSome_iff_exists.1 ((hinv1.ring_mem p).1 hp)
    obtain ⟨sq, hsq⟩ := Option.isSome_iff_exists.1 ((hinv1.ring_mem q).1 hq)
    rw [hkey p sp hsp, hkey q sq hsq] at hkeys
    simp only [Option.some.injEq] at hkeys
    rcases hpart p (by rw [hsp]; rfl) with hpi | ⟨sp', hsp', hpreg⟩
    · rcases hpart q (by rw [hsq]; rfl) with hqi | ⟨sq', hsq', hqreg⟩
      · rw [hpi, hqi]
      · exfalso
        obtain rfl : sq' = sq := by rw [hsq'] at hsq; exact Option.some.inj hsq
        subst hpi
        obtain rfl : s0 = sp := by rw [h0] at hsp; exact Option.some.inj hsp
        exact hinit_ne q sq' hsq hqreg hkeys
    · obtain rfl : sp' = sp := by rw [hsp'] at hsp; exact Option.some.inj hsp
      rcases hpart q (by rw [hsq]; rfl) with hqi | ⟨sq', hsq', hqreg⟩
      · exfalso
        subst hqi
        obtain rfl : s0 = sq := by rw [h0] at hsq; exact Option.some.inj hsq
        exact hinit_ne p sp' hsp hpreg hkeys.symm
      · obtain rfl : sq' = sq := by rw [hsq'] at hsq; exact Option.some.inj hsq
        obtain ⟨c1, hg1, hl1⟩ := hinv1.class_of_reg p sp' hsp hpreg
        obtain ⟨c2, hg2, hl2⟩ := hinv1.class_of_reg q sq' hsq hqreg
        rw [hkeys, hg2] at hg1
        cases hg1
        rw [hl2] at hl1
        simpa using hl1.symm
  · refine ⟨hinv1.ring_nodup, hinv1.ring_mem, hinv1.ring_head, ?_, ?_, ?_⟩
    · intro q s hq t ht
      obtain ⟨st, hst, _⟩ := htarget q s hq t ht
      exact (hinv1.ring_mem _).2 (by rw [hst]; rfl)
    · have hsub : A1.ring.toFinset ⊆ Finset.range A1.allocated := by
        intro x hx
        obtain ⟨s, hs⟩ := Option.isSome_iff_exists.1 ((hinv1.ring_mem x).1 (List.mem_toFinset.1 hx))
        exact Finset.mem_range.2 (hinv1.alloc x s hs)
      have hcard := Finset.card_le_card hsub
      rw [List.toFinset_card_of_nodup hinv1.ring_nodup, Finset.card_range] at hcard
      exact lt_of_le_of_lt hcard hallocated
    · intro q s hq
      have := hinv1.degree q s hq
      omega

/-- During the construction from a sorted list of words every state has at most
one transition per label. -/
theorem add_words_deterministic (fuel : Nat) (ws : List (List Label))
    (hsorted : ws.Pairwise word_le) (hfuel : ∀ w ∈ ws, w.length ≤ fuel)
    (hsize : 1 + (ws.map List.length).sum < 2 ^ 32) :
    ∃ A, add_words fuel make_automat ws = some A ∧ Deterministic A := by
  obtain ⟨A0, cl0, w', qs, qe, hrun0, hinv0, _, _⟩ :=
    add_words_spec fuel ws make_automat [] [] [] [] 0 make_automat_inv
      (fun _ _ => trivial) hsorted hfuel (Nat.zero_le _) (by simpa using hsize)
  exact ⟨A0, hrun0, fun q s _ hq => sortedLabels_nodup (hinv0.reg.sorted q s hq)⟩

end Morph

namespace Morph

/-- When the last word added is the empty word the initial state has no
transition, and `complete_automat` follows the last transition of a state
that has none. -/
theorem complete_automat_none (fuel : Nat) (A : Automat) (cl : EquivalenceClassList)
    (ws : List (List Label)) (qs : List Nat) (qe : Nat) (hinv : Inv A cl ws [] qs qe) :
    complete_automat fuel A = none := by
  obtain ⟨_, rfl⟩ := hinv.spine.end_eq_of_nil
  obtain ⟨s, hs, _, htl⟩ := hinv.leaf
  cases fuel with
  | zero => simp [complete_automat, replace_or_register]
  | succ f =>
    simp [complete_automat, replace_or_register, last_child, hs, htl, last_transition]

/-- What the construction from a sorted list of words gives, before and after
`complete_automat`. -/
theorem build_automat_cases (fuel : Nat) (ws : List (List Label))
    (hsorted : ws.Pairwise word_le) (hfuel : ∀ w ∈ ws, w.length ≤ fuel)
    (hsize : 1 + (ws.map List.length).sum < 2 ^ 32) :
    ∃ A, add_words fuel make_automat ws = some A ∧ Deterministic A ∧
      ((∃ w ∈ ws, w ≠ []) ∨ complete_automat fuel A = none) := by
  obtain ⟨A0, cl0, w', qs, qe, hrun0, hinv0, hmax, hlast⟩ :=
    add_words_spec fuel ws make_automat [] [] [] [] 0 make_automat_inv
      (fun _ _ => trivial) hsorted hfuel (Nat.zero_le _) (by simpa using hsize)
  refine ⟨A0, hrun0, fun q s _ hq => sortedLabels_nodup (hinv0.reg.sorted q s hq), ?_⟩
  by_cases hw : w' = []
  · right
    subst hw
    exact complete_automat_none fuel A0 cl0 _ qs qe hinv0
  · left
    rcases hlast with ⟨_, h⟩ | h
    · exact absurd h hw
    · exact ⟨w', h, hw⟩

end Morph

namespace Morph

/-! ## Bytes -/

@[simp] theorem le_bytes_length (k n : Nat) : (le_bytes k n).length = k := by
  induction k generalizing n with
  | zero => rfl
  | succ k ih => simp [le_bytes, ih]

theorem le_value_le_bytes (k n : Nat) : le_value (le_bytes k n) = n % 256 ^ k := by
  induction k generalizing n with
  | zero => simp [le_bytes, le_value, Nat.mod_one]
  | succ k ih =>
    simp only [le_bytes, le_value, ih]
    rw [pow_succ, Nat.mul_comm (256 ^ k) 256, Nat.mod_mul]

theorem le_value_le_bytes_4 {n : Nat} (h : n < 2 ^ 32) : le_value (le_bytes 4 n) = n := by
  rw [le_value_le_bytes]
  exact Nat.mod_eq_of_lt (by norm_num at h ⊢; exact h)

theorem le_value_le_bytes_8 {n : Nat} (h : n < 2 ^ 64) : le_value (le_bytes 8 n) = n := by
  rw [le_value_le_bytes]
  exact Nat.mod_eq_of_lt (by norm_num at h ⊢; exact h)

theorem label_bits_lt (l : Label) : label_bits l < 2 ^ 32 := by
  unfold label_bits
  have h2 : (l : Int) % 4294967296 < 4294967296 := Int.emod_lt_of_pos _ (by norm_num)
  have h1 : (0 : Int) ≤ (l : Int) % 4294967296 := Int.emod_nonneg _ (by norm_num)
  norm_num
  omega

theorem label_of_bits_label_bits_int (l : Int) (h : -2147483648 ≤ l ∧ l < 2147483648) :
    (if (l % 4294967296).toNat < 2147483648 then ((l % 4294967296).toNat : Int)
      else ((l % 4294967296).toNat : Int) - 4294967296) = l := by
  have h1 : (0 : Int) ≤ l % 4294967296 := Int.emod_nonneg _ (by norm_num)
  have hcast : (((l % 4294967296).toNat : Nat) : Int) = l % 4294967296 := Int.toNat_of_nonneg h1
  split <;> omega

theorem label_of_bits_label_bits {l : Label} (h : -2 ^ 31 ≤ l ∧ l < 2 ^ 31) :
    label_of_bits (label_bits l) = l := by
  unfold label_of_bits label_bits
  have := label_of_bits_label_bits_int l (by norm_num at h ⊢; exact h)
  norm_num at this ⊢
  exact this

theorem read_at_append (pre mid post : Bytes) :
    read_at (pre ++ mid ++ post) pre.length mid.length = some mid := by
  simp [read_at, List.drop_append, List.take_append]

theorem read_at_of_eq {data pre mid post : Bytes} {offset n : Nat}
    (hd : data = pre ++ mid ++ post) (ho : offset = pre.length) (hn : n = mid.length) :
    read_at data offset n = some mid := by
  subst hd ho hn
  exact read_at_append pre mid post

/-- The bytes that went through a buffer, written to the file or not yet. -/
theorem append_to_mem_buffer_content (b : MemBuffer) (d : Bytes) :
    (append_to_mem_buffer b d).file ++ (append_to_mem_buffer b d).data =
      b.file ++ b.data ++ d := by
  unfold append_to_mem_buffer mem_buffer_need_space flush_mem_buffer
  simp only
  split
  · simp
  · split <;> simp

theorem flush_mem_buffer_file (b : MemBuffer) : (flush_mem_buffer b).file = b.file ++ b.data := rfl

end Morph

namespace Morph

/-! ## Saving -/

theorem renumerate_loop_spec :
    ∀ (rest : List Nat) (A : Automat), rest.Nodup →
      (∀ q ∈ rest, (A.heap q).isSome = true) → A.last_state_id + rest.length < 2 ^ 32 →
      ∃ A', renumerate_loop rest A = some A' ∧ A'.ring = A.ring ∧
        A'.initial_state = A.initial_state ∧
        A'.last_state_id = A.last_state_id + rest.length ∧
        ∀ q, A'.heap q = (A.heap q).map (fun s =>
          if q ∈ rest then { s with id := A.last_state_id + rest.indexOf q } else s) := by
  intro rest
  induction rest with
  | nil =>
    intro A _ _ _
    refine ⟨A, rfl, rfl, rfl, rfl, fun q => ?_⟩
    cases A.heap q <;> simp
  | cons q0 r ih =>
    intro A hnd hsome hlt
    obtain ⟨s0, hs0⟩ := Option.isSome_iff_exists.1 (hsome q0 (List.mem_cons_self _ _))
    rw [List.nodup_cons] at hnd
    simp only [List.length_cons] at hlt
    have hmod : (A.last_state_id + 1) % 2 ^ 32 = A.last_state_id + 1 :=
      Nat.mod_eq_of_lt (by omega)
    obtain ⟨A', hrun, hring, hinit, hlast, hheap⟩ :=
      ih { (A.store q0 { s0 with id := A.last_state_id }) with
            last_state_id := (A.last_state_id + 1) % 2 ^ 32 } hnd.2
        (by
          intro q hq
          simp only [Automat.store]
          split
          · rfl
          · exact hsome q (List.mem_cons_of_mem _ hq))
        (by simp only [hmod]; omega)
    refine ⟨A', ?_, ?_, ?_, ?_, ?_⟩
    · simp only [renumerate_loop, hs0, Option.bind_eq_bind, Option.some_bind]
      exact hrun
    · rw [hring]; rfl
    · rw [hinit]; rfl
    · rw [hlast]; simp only [hmod, List.length_cons]; omega
    · intro q
      rw [hheap q]
      dsimp only [Automat.store]
      simp only [hmod]
      by_cases hq : q = q0
      · subst hq
        simp [hs0, hnd.1]
      · have hq' : q0 ≠ q := fun h => hq h.symm
        simp only [if_neg hq, List.mem_cons, hq, false_or, List.indexOf_cons_ne _ hq']
        have harith : A.last_state_id + 1 + List.indexOf q r =
            A.last_state_id + (List.indexOf q r + 1) := by omega
        cases A.heap q with
        | none => simp
        | some s => by_cases hr : q ∈ r <;> simp [hr, harith]

theorem renumerate_states_spec (A : Automat) (hwf : WellFormed A) :
    ∃ A', renumerate_states A = some A' ∧ A'.ring = A.ring ∧
      A'.initial_state = A.initial_state ∧ A'.last_state_id = A.ring.length ∧
      ∀ q, A'.heap q = (A.heap q).map (fun s => { s with id := A.ring.indexOf q }) := by
  obtain ⟨A', hrun, hring, hinit, hlast, hheap⟩ :=
    renumerate_loop_spec A.ring { A with last_state_id := 0 } hwf.ring_nodup
      (fun q hq => (hwf.ring_mem q).1 hq) (by simpa using hwf.size)
  refine ⟨A', hrun, hring, hinit, by simpa using hlast, fun q => ?_⟩
  rw [hheap q]
  cases hq : A.heap q with
  | none => rfl
  | some s =>
    have : q ∈ A.ring := (hwf.ring_mem q).2 (by rw [hq]; rfl)
    simp [this]

theorem serialize_transitions_spec (heap : Heap) (ids : Nat → Nat) :
    ∀ (l : TransitionList) (b : MemBuffer),
      (∀ t ∈ l, ∃ s, heap t.target = some s ∧ s.id = ids t.target) →
      ∃ b', serialize_transitions heap l b = some b' ∧
        b'.file ++ b'.data = b.file ++ b.data ++
          l.flatMap (fun t => le_bytes 4 (label_bits t.label) ++ le_bytes 4 (ids t.target)) := by
  intro l
  induction l with
  | nil => intro b _; exact ⟨b, rfl, by simp⟩
  | cons t rest ih =>
    intro b h
    obtain ⟨s, hs, hid⟩ := h t (List.mem_cons_self _ _)
    obtain ⟨b', hrun, hcontent⟩ :=
      ih (append_to_mem_buffer b (le_bytes 4 (label_bits t.label) ++ le_bytes 4 s.id))
        (fun x hx => h x (List.mem_cons_of_mem _ hx))
    refine ⟨b', ?_, ?_⟩
    · simp only [serialize_transitions, hs, Option.bind_eq_bind, Option.some_bind]
      exact hrun
    · rw [hcontent, append_to_mem_buffer_content, hid]
      simp [List.flatMap_cons]

theorem encode_records_cons (r : StateRecord) (rs : List StateRecord) :
    encode_records (r :: rs) =
      le_bytes 8 ((4 + 1 + 4 + r.descriptors.length * 8) % 2 ^ 64) ++ encode_record r ++
        encode_records rs := by
  simp [encode_records, List.flatMap_cons]

theorem serialize_state_spec (A A' : Automat) (hwf : WellFormed A)
    (hheap : ∀ q, A'.heap q = (A.heap q).map (fun s => { s with id := A.ring.indexOf q }))
    (q : Nat) (hq : q ∈ A.ring) (b : MemBuffer) :
    ∃ b', serialize_state A' q b = some b' ∧
      b'.file ++ b'.data = b.file ++ b.data ++
        (le_bytes 8 ((4 + 1 + 4 + (record_of A q).descriptors.length * 8) % 2 ^ 64) ++
          encode_record (record_of A q)) := by
  obtain ⟨s, hs⟩ := Option.isSome_iff_exists.1 ((hwf.ring_mem q).1 hq)
  have hs' : A'.heap q = some { s with id := A.ring.indexOf q } := by rw [hheap, hs]; rfl
  have htargets : ∀ t ∈ s.transition_list,
      ∃ st, A'.heap t.target = some st ∧ st.id = A.ring.indexOf t.target := by
    intro t ht
    obtain ⟨st, hst⟩ := Option.isSome_iff_exists.1
      ((hwf.ring_mem t.target).1 (hwf.targets q s hs t ht))
    exact ⟨_, by rw [hheap, hst]; rfl, rfl⟩
  obtain ⟨b', hrun, hcontent⟩ :=
    serialize_transitions_spec A'.heap (fun x => A.ring.indexOf x) s.transition_list
      (append_to_mem_buffer (append_to_mem_buffer (append_to_mem_buffer (append_to_mem_buffer b
        (le_bytes 8 ((4 + 1 + 4 + s.transition_list.length * 8) % 2 ^ 64)))
        (le_bytes 4 (A.ring.indexOf q))) [is_final_state s])
        (le_bytes 4 (s.transition_list.length % 2 ^ 32))) htargets
  refine ⟨b', ?_, ?_⟩
  · simp only [serialize_state, hs', Option.bind_eq_bind, Option.some_bind, transitions_count]
    exact hrun
  · rw [hcontent]
    simp only [append_to_mem_buffer_content, record_of, hs, encode_record, List.length_map,
      List.flatMap_map, List.append_assoc]
    try rfl

theorem save_states_spec (A A' : Automat) (hwf : WellFormed A)
    (hheap : ∀ q, A'.heap q = (A.heap q).map (fun s => { s with id := A.ring.indexOf q })) :
    ∀ (l : List Nat) (b : MemBuffer), (∀ q ∈ l, q ∈ A.ring) →
      ∃ b', save_states A' l b = some b' ∧
        b'.file ++ b'.data = b.file ++ b.data ++ encode_records (l.map (record_of A)) := by
  intro l
  induction l with
  | nil => intro b _; exact ⟨b, rfl, by simp [encode_records]⟩
  | cons q rest ih =>
    intro b h
    obtain ⟨b1, hrun1, hc1⟩ := serialize_state_spec A A' hwf hheap q (h q (List.mem_cons_self _ _)) b
    obtain ⟨b2, hrun2, hc2⟩ := ih b1 (fun x hx => h x (List.mem_cons_of_mem _ hx))
    refine ⟨b2, ?_, ?_⟩
    · simp only [save_states, hrun1, Option.bind_eq_bind, Option.some_bind]
      exact hrun2
    · rw [hc2, hc1, List.map_cons, encode_records_cons]
      simp only [List.append_assoc]

/-- The file written by `save_automat`: the number of states and their
descriptions in ring order, ids being the places in the ring. -/
theorem save_automat_spec (A : Automat) (hwf : WellFormed A) :
    ∃ A', save_automat A = some (A', le_bytes 4 A.ring.length ++
        encode_records (A.ring.map (record_of A))) ∧
      A'.ring = A.ring ∧ A'.initial_state = A.initial_state ∧
      ∀ q, A'.heap q = (A.heap q).map (fun s => { s with id := A.ring.indexOf q }) := by
  obtain ⟨A', hrun, hring, hinit, hlast, hheap⟩ := renumerate_states_spec A hwf
  obtain ⟨b, hsave, hcontent⟩ :=
    save_states_spec A A' hwf hheap A.ring
      (append_to_mem_buffer (make_mem_buffer 8192) (le_bytes 4 A.ring.length)) (fun _ h => h)
  refine ⟨A', ?_, hring, hinit, hheap⟩
  rw [append_to_mem_buffer_content] at hcontent
  unfold save_automat
  rw [hrun]
  simp only [Option.bind_eq_bind, Option.some_bind]
  rw [hlast, hring, hsave]
  simp only [Option.some_bind, flush_mem_buffer_file, hcontent, make_mem_buffer]
  simp

end Morph

namespace Morph

/-! ## Loading -/

theorem descriptors_length (ds : List (Label × Nat)) :
    (ds.flatMap (fun d => le_bytes 4 (label_bits d.1) ++ le_bytes 4 d.2)).length =
      8 * ds.length := by
  induction ds with
  | nil => rfl
  | cons d rest ih =>
    simp only [List.flatMap_cons, List.length_append, le_bytes_length, ih, List.length_cons]
    omega

theorem encode_record_length (r : StateRecord) :
    (encode_record r).length = 9 + 8 * r.descriptors.length := by
  simp only [encode_record, List.length_append, le_bytes_length, descriptors_length,
    List.length_singleton]

theorem fread_append (a b : Bytes) (n : Nat) (h : a.length = n) : fread (a ++ b) n = (a, b) := by
  subst h
  simp [fread]

theorem read_descriptions_cons (count size : Nat) (d rest : Bytes) (hsize : size < 2 ^ 64)
    (hd : d.length = size) :
    read_descriptions (count + 1) (le_bytes 8 size ++ (d ++ rest)) =
      (read_descriptions count rest).map (fun l => d :: l) := by
  have h8 : (le_bytes 8 size).length = 8 := le_bytes_length _ _
  have hv : le_value (le_bytes 8 size) = size := le_value_le_bytes_8 hsize
  conv_lhs => rw [read_descriptions]
  rw [fread_append _ _ 8 h8]
  dsimp only
  rw [if_neg (by rw [h8]; exact fun h => h rfl), hv, fread_append _ _ size hd]
  dsimp only
  rw [if_neg (by rw [hd]; exact fun h => h rfl)]

theorem read_descriptions_spec :
    ∀ (recs : List StateRecord), (∀ r ∈ recs, r.descriptors.length < 2 ^ 32) →
      read_descriptions recs.length (encode_records recs) = some (recs.map encode_record) := by
  intro recs
  induction recs with
  | nil => intro _; rfl
  | cons r rs ih =>
    intro h
    have hlen := h r (List.mem_cons_self _ _)
    have hlt : 9 + 8 * r.descriptors.length < 2 ^ 64 := by omega
    have hsize : (4 + 1 + 4 + r.descriptors.length * 8) % 2 ^ 64 =
        9 + 8 * r.descriptors.length := by
      rw [Nat.mod_eq_of_lt] <;> omega
    rw [encode_records_cons, hsize, List.length_cons, List.append_assoc,
      read_descriptions_cons _ _ _ _ hlt (encode_record_length r),
      ih (fun x hx => h x (List.mem_cons_of_mem _ hx))]
    rfl

theorem ring_insert_after_last (l : List Nat) (p new : Nat) (hp : p ∉ l) :
    ring_insert_after (l ++ [p]) p new = l ++ [p, new] := by
  induction l with
  | nil => simp [ring_insert_after]
  | cons x rest ih =>
    simp only [List.mem_cons, not_or] at hp
    have hx : x ≠ p := fun h => hp.1 h.symm
    simp [ring_insert_after, hx, ih hp.2]

theorem ring_insert_after_range (k : Nat) :
    ring_insert_after (List.range (k + 1)) k (k + 1) = List.range (k + 2) := by
  rw [List.range_succ, ring_insert_after_last _ _ _ (by simp), List.range_succ (n := k + 1),
    List.range_succ]
  simp

theorem store_store (A : Automat) (p : Nat) (s s' : State) :
    (A.store p s).store p s' = A.store p s' := by
  simp only [Automat.store]
  congr 1
  funext q
  split <;> rfl

end Morph

namespace Morph

theorem encode_record_shape (r : StateRecord) :
    encode_record r = le_bytes 4 r.id ++ ([r.final] ++ (le_bytes 4 (r.descriptors.length % 2 ^ 32) ++
      r.descriptors.flatMap (fun d => le_bytes 4 (label_bits d.1) ++ le_bytes 4 d.2))) := by
  simp [encode_record]

theorem read_at_first (a rest : Bytes) (n : Nat) (hn : a.length = n) :
    read_at (a ++ rest) 0 n = some a := by
  have := read_at_append [] a rest
  simpa [hn] using this

theorem read_at_second (a b rest : Bytes) (offset n : Nat) (ho : a.length = offset)
    (hn : b.length = n) : read_at (a ++ (b ++ rest)) offset n = some b := by
  have := read_at_append a b rest
  rw [ho, hn, List.append_assoc] at this
  exact this

theorem read_at_third (a b c rest : Bytes) (offset n : Nat)
    (ho : a.length + b.length = offset) (hn : c.length = n) :
    read_at (a ++ (b ++ (c ++ rest))) offset n = some c := by
  have := read_at_append (a ++ b) c rest
  rw [List.length_append, ho, hn] at this
  simpa [List.append_assoc] using this

theorem read_at_id (r : StateRecord) :
    read_at (encode_record r) 0 4 = some (le_bytes 4 r.id) := by
  rw [encode_record_shape]
  exact read_at_first _ _ _ (le_bytes_length _ _)

theorem read_at_final (r : StateRecord) :
    read_at (encode_record r) 4 1 = some [r.final] := by
  rw [encode_record_shape]
  exact read_at_second _ _ _ _ _ (le_bytes_length _ _) rfl

theorem read_at_count (r : StateRecord) :
    read_at (encode_record r) 5 4 = some (le_bytes 4 (r.descriptors.length % 2 ^ 32)) := by
  rw [encode_record_shape]
  exact read_at_third _ _ _ _ _ _ (by simp) (le_bytes_length _ _)

theorem deserialize_state_spec (A : Automat) (r : StateRecord) (prev : Option Nat)
    (hid : r.id < 2 ^ 32) :
    ∃ A1, deserialize_state A (encode_record r) prev = some (A1, A.allocated) ∧
      A1.allocated = A.allocated + 1 ∧
      A1.ring = (match prev with
        | none => [A.allocated]
        | some pv => ring_insert_after A.ring pv A.allocated) ∧
      ∀ q, A1.heap q = if q = A.allocated then
          some (state_of_record { r with descriptors := [] }) else A.heap q := by
  have hv : le_value [r.final] = r.final := by simp [le_value]
  by_cases hf : r.final = 0
  · refine ⟨(make_state A r.id prev).1, ?_, rfl, rfl, ?_⟩
    · simp only [deserialize_state, read_at_id, read_at_final, Option.bind_eq_bind,
        Option.some_bind, le_value_le_bytes_4 hid, hv, hf]
      rfl
    · intro q
      simp [make_state, Automat.store, state_of_record, hf]
  · refine ⟨((make_state A r.id prev).1.store A.allocated
        { transition_list := [], id := r.id, flags := UNMARKED_STATE ||| FINAL_STATE }), ?_,
        rfl, rfl, ?_⟩
    · simp only [deserialize_state, read_at_id, read_at_final, Option.bind_eq_bind,
        Option.some_bind, le_value_le_bytes_4 hid, hv, hf, ne_eq, not_false_eq_true, if_true]
      simp [make_state, mark_as_final, Automat.store]
    · intro q
      simp only [make_state, Automat.store, state_of_record, hf]
      split <;> simp

theorem load_states_spec :
    ∀ (recs : List StateRecord) (A : Automat) (prev : Option Nat),
      (∀ r ∈ recs, r.id < 2 ^ 32) → A.ring = List.range A.allocated →
      prev = (if A.allocated = 0 then none else some (A.allocated - 1)) →
      ∃ A', load_states (recs.map encode_record) A prev =
          some (A', List.range' A.allocated recs.length) ∧
        A'.allocated = A.allocated + recs.length ∧ A'.ring = List.range A'.allocated ∧
        (∀ i r, recs[i]? = some r →
          A'.heap (A.allocated + i) = some (state_of_record { r with descriptors := [] })) ∧
        (∀ q, q < A.allocated ∨ A.allocated + recs.length ≤ q → A'.heap q = A.heap q) := by
  intro recs
  induction recs with
  | nil =>
    intro A prev _ hring _
    exact ⟨A, rfl, rfl, hring, by simp, fun _ _ => rfl⟩
  | cons r rs ih =>
    intro A prev hids hring hprev
    obtain ⟨A1, hrun1, halloc1, hring1, hheap1⟩ :=
      deserialize_state_spec A r prev (hids r (List.mem_cons_self _ _))
    have hring1' : A1.ring = List.range A1.allocated := by
      rw [hring1, halloc1, hprev]
      cases hk : A.allocated with
      | zero => rfl
      | succ k =>
        simp only [Nat.succ_ne_zero, if_false, Nat.add_sub_cancel]
        rw [hring, hk]
        exact ring_insert_after_range k
    obtain ⟨A', hrun, halloc, hring', hset, hframe⟩ :=
      ih A1 (some A.allocated) (fun x hx => hids x (List.mem_cons_of_mem _ hx)) hring1'
        (by rw [halloc1]; simp)
    refine ⟨A', ?_, ?_, hring', ?_, ?_⟩
    · simp only [List.map_cons, load_states, hrun1, Option.bind_eq_bind, Option.some_bind, hrun,
        halloc1, List.length_cons]
      rfl
    · rw [halloc, halloc1, List.length_cons]; omega
    · intro i x hi
      cases i with
      | zero =>
        simp only [List.getElem?_cons_zero, Option.some.injEq] at hi
        subst hi
        rw [Nat.add_zero, hframe _ (Or.inl (by omega)), hheap1, if_pos rfl]
      | succ j =>
        simp only [List.getElem?_cons_succ] at hi
        have := hset j x hi
        rw [halloc1] at this
        rw [← this]
        congr 1
        omega
    · intro q hq
      rw [hframe q (by rw [halloc1]; simp only [List.length_cons] at hq; omega), hheap1,
        if_neg]
      simp only [List.length_cons] at hq
      omega

end Morph

namespace Morph

theorem store_self (A : Automat) (p : Nat) (s : State) (hs : A.heap p = some s) :
    A.store p s = A := by
  cases A
  dsimp only at hs
  simp only [Automat.store, Automat.mk.injEq, and_true, true_and]
  funext q
  split
  · next h => subst h; exact hs.symm
  · rfl

theorem deserialize_transitions_loop_spec (n : Nat) (state : Nat) :
    ∀ (ds : List (Label × Nat)) (pre : Bytes) (A : Automat) (s : State),
      (∀ d ∈ ds, d.2 < n ∧ d.2 < 2 ^ 32 ∧ -2 ^ 31 ≤ d.1 ∧ d.1 < 2 ^ 31) →
      A.heap state = some s →
      deserialize_transitions_loop (List.range' 0 n)
          (pre ++ ds.flatMap (fun d => le_bytes 4 (label_bits d.1) ++ le_bytes 4 d.2))
          state ds.length pre.length A =
        some (A.store state { s with
          transition_list := s.transition_list ++
            ds.map (fun d => { label := d.1, target := d.2 }) }) := by
  intro ds
  induction ds with
  | nil =>
    intro pre A s _ hs
    simp only [List.length_nil, deserialize_transitions_loop, List.map_nil, List.append_nil]
    rw [store_self A state s hs]
  | cons d rest ih =>
    intro pre A s hfit hs
    obtain ⟨hdn, hd32, hlab⟩ := hfit d (List.mem_cons_self _ _)
    have h1 : read_at (pre ++ (d :: rest).flatMap
        (fun d => le_bytes 4 (label_bits d.1) ++ le_bytes 4 d.2)) pre.length 4 =
        some (le_bytes 4 (label_bits d.1)) := by
      rw [List.flatMap_cons, List.append_assoc]
      exact read_at_second _ _ _ _ _ rfl (le_bytes_length _ _)
    have h2 : read_at (pre ++ (d :: rest).flatMap
        (fun d => le_bytes 4 (label_bits d.1) ++ le_bytes 4 d.2)) (pre.length + 4) 4 =
        some (le_bytes 4 d.2) := by
      rw [List.flatMap_cons, List.append_assoc]
      exact read_at_third _ _ _ _ _ _ (by simp) (le_bytes_length _ _)
    have hmap : (List.range' 0 n)[d.2]? = some d.2 := by
      rw [List.getElem?_range' _ _ hdn]
      simp
    have hdata : pre ++ (d :: rest).flatMap
        (fun d => le_bytes 4 (label_bits d.1) ++ le_bytes 4 d.2) =
        (pre ++ (le_bytes 4 (label_bits d.1) ++ le_bytes 4 d.2)) ++
          rest.flatMap (fun d => le_bytes 4 (label_bits d.1) ++ le_bytes 4 d.2) := by
      simp [List.flatMap_cons]
    have hcur : pre.length + 8 = (pre ++ (le_bytes 4 (label_bits d.1) ++ le_bytes 4 d.2)).length := by
      simp
    simp only [List.length_cons, deserialize_transitions_loop, h1, h2, Option.bind_eq_bind,
      Option.some_bind, le_value_le_bytes_4 (label_bits_lt d.1), le_value_le_bytes_4 hd32,
      label_of_bits_label_bits hlab, hmap, append_state, hs, extend_transition_list,
      Option.pure_def]
    rw [hdata, hcur, ih _ _
      { s with transition_list := s.transition_list ++ [{ label := d.1, target := d.2 }] }
      (fun x hx => hfit x (List.mem_cons_of_mem _ hx)) (by simp [Automat.store])]
    simp [store_store]

theorem deserialize_state_transitions_spec (n : Nat) (A : Automat) (state : Nat)
    (r : StateRecord) (hlen : r.descriptors.length < 2 ^ 32)
    (hfit : ∀ d ∈ r.descriptors, d.2 < n ∧ d.2 < 2 ^ 32 ∧ -2 ^ 31 ≤ d.1 ∧ d.1 < 2 ^ 31)
    (hs : A.heap state = some (state_of_record { r with descriptors := [] })) :
    deserialize_state_transitions A state (encode_record r) (List.range' 0 n) =
      some (A.store state (state_of_record r)) := by
  have hcount : le_value (le_bytes 4 (r.descriptors.length % 2 ^ 32)) = r.descriptors.length := by
    rw [le_value_le_bytes_4 (Nat.mod_lt _ (by norm_num)), Nat.mod_eq_of_lt hlen]
  have hpre : (9 : Nat) = (le_bytes 4 r.id ++ [r.final] ++
      le_bytes 4 (r.descriptors.length % 2 ^ 32)).length := by simp
  simp only [deserialize_state_transitions, read_at_count, Option.bind_eq_bind,
    Option.some_bind, hcount]
  rw [encode_record, hpre, deserialize_transitions_loop_spec n state _ _ A _ hfit hs]
  simp [state_of_record]

end Morph

namespace Morph

theorem load_transitions_spec (n : Nat) :
    ∀ (recs : List StateRecord) (k : Nat) (A : Automat),
      (∀ r ∈ recs, r.descriptors.length < 2 ^ 32 ∧
        ∀ d ∈ r.descriptors, d.2 < n ∧ d.2 < 2 ^ 32 ∧ -2 ^ 31 ≤ d.1 ∧ d.1 < 2 ^ 31) →
      (∀ i r, recs[i]? = some r →
        A.heap (k + i) = some (state_of_record { r with descriptors := [] })) →
      ∃ A', load_transitions (List.range' 0 n) (recs.map encode_record)
          (List.range' k recs.length) A = some A' ∧
        A'.ring = A.ring ∧ A'.allocated = A.allocated ∧
        (∀ i r, recs[i]? = some r → A'.heap (k + i) = some (state_of_record r)) ∧
        (∀ q, q < k ∨ k + recs.length ≤ q → A'.heap q = A.heap q) := by
  intro recs
  induction recs with
  | nil =>
    intro k A _ _
    exact ⟨A, rfl, rfl, rfl, by simp, fun _ _ => rfl⟩
  | cons r rs ih =>
    intro k A hfit hskel
    obtain ⟨hlen, hfitr⟩ := hfit r (List.mem_cons_self _ _)
    have hk : A.heap k = some (state_of_record { r with descriptors := [] }) := by
      simpa using hskel 0 r (by simp)
    have hrun1 := deserialize_state_transitions_spec n A k r hlen hfitr hk
    obtain ⟨A', hrun, hring, halloc, hset, hframe⟩ :=
      ih (k + 1) (A.store k (state_of_record r))
        (fun x hx => hfit x (List.mem_cons_of_mem _ hx))
        (by
          intro i x hi
          have := hskel (i + 1) x (by simpa using hi)
          simp only [Automat.store]
          rw [if_neg (by omega), ← this]
          congr 1
          omega)
    refine ⟨A', ?_, hring, halloc, ?_, ?_⟩
    · simp only [List.map_cons, List.length_cons, List.range'_succ, load_transitions, hrun1,
        Option.bind_eq_bind, Option.some_bind]
      exact hrun
    · intro i x hi
      cases i with
      | zero =>
        simp only [List.getElem?_cons_zero, Option.some.injEq] at hi
        subst hi
        rw [Nat.add_zero, hframe _ (Or.inl (by omega))]
        simp [Automat.store]
      | succ j =>
        simp only [List.getElem?_cons_succ] at hi
        have := hset j x hi
        rw [← this]
        congr 1
        omega
    · intro q hq
      simp only [List.length_cons] at hq
      rw [hframe q (by omega)]
      simp only [Automat.store]
      rw [if_neg (by omega)]

/-- The automaton that `load_automat` builds from a file of records: the state
of record `i` lives at address `i`, the ring lists the addresses in order, the
initial state is the first. -/
theorem load_automat_spec (recs : List StateRecord) (hpos : 0 < recs.length)
    (hsize : recs.length < 2 ^ 32)
    (hfit : ∀ r ∈ recs, r.id < 2 ^ 32 ∧ r.descriptors.length < 2 ^ 32 ∧
      ∀ d ∈ r.descriptors, d.2 < recs.length ∧ -2 ^ 31 ≤ d.1 ∧ d.1 < 2 ^ 31) :
    ∃ L, load_automat (le_bytes 4 recs.length ++ encode_records recs) = some L ∧
      L.ring = List.range recs.length ∧ L.initial_state = 0 ∧
      ∀ q, L.heap q = (recs[q]?).map state_of_record := by
  obtain ⟨A1, hrun1, halloc1, hring1, hset1, hframe1⟩ :=
    load_states_spec recs empty_memory none (fun r hr => (hfit r hr).1) rfl rfl
  obtain ⟨A2, hrun2, hring2, halloc2, hset2, hframe2⟩ :=
    load_transitions_spec recs.length recs 0 A1
      (fun r hr => ⟨(hfit r hr).2.1, fun d hd =>
        ⟨((hfit r hr).2.2 d hd).1, lt_trans ((hfit r hr).2.2 d hd).1 hsize,
          ((hfit r hr).2.2 d hd).2⟩⟩)
      (fun i r hi => by simpa [empty_memory] using hset1 i r hi)
  have hzero : (List.range' 0 recs.length)[0]? = some 0 := by
    rw [List.getElem?_range' _ _ hpos]
    try simp
  refine ⟨{ A2 with
      allocated := A2.allocated + 1, initial_state := 0, last_state_id := 1,
      class_list := some [] }, ?_, ?_, rfl, ?_⟩
  · unfold load_automat
    rw [fread_append _ _ 4 (le_bytes_length _ _)]
    dsimp only
    rw [if_neg (by rw [le_bytes_length]; exact fun h => h rfl), le_value_le_bytes_4 hsize,
      read_descriptions_spec recs (fun r hr => (hfit r hr).2.1)]
    simp only [Option.bind_eq_bind, Option.some_bind]
    have hrun1' : load_states (recs.map encode_record) empty_memory none =
        some (A1, List.range' 0 recs.length) := hrun1
    rw [hrun1']
    simp only [Option.some_bind]
    rw [hrun2]
    simp only [Option.some_bind, deserialize_automat, hzero, Option.bind_eq_bind]
    rfl
  · show A2.ring = _
    rw [hring2, hring1, halloc1]
    simp [empty_memory]
  · intro q
    show A2.heap q = _
    by_cases hq : q < recs.length
    · have hget : recs[q]? = some recs[q] := List.getElem?_eq_getElem hq
      rw [hget, Option.map_some']
      have := hset2 q recs[q] hget
      rw [Nat.zero_add] at this
      exact this
    · have hnone : recs[q]? = none := List.getElem?_eq_none (by omega)
      rw [hnone, hframe2 q (Or.inr (by omega)), hframe1 q (Or.inr (by simp [empty_memory]; omega))]
      rfl

end Morph

namespace Morph

/-! ## The loaded automaton is a copy of the saved one -/

theorem map_indexOf_eq_range (l : List Nat) (hnd : l.Nodup) :
    l.map (fun q => l.indexOf q) = List.range l.length := by
  apply List.ext_getElem
  · simp
  · intro i h1 h2
    simp only [List.getElem_map, List.getElem_range]
    exact List.indexOf_getElem hnd i (by simpa using h1)

theorem find_transition_map (f : Nat → Nat) (l : TransitionList) (c : Label) :
    find_transition (l.map (fun t => { label := t.label, target := f t.target })) c =
      (find_transition l c).map (fun t => { label := t.label, target := f t.target }) := by
  induction l with
  | nil => rfl
  | cons t rest ih =>
    simp only [List.map_cons, find_transition]
    split
    · rfl
    · exact ih

theorem is_final_state_of_record (s : State) (i : Nat) (ds : List (Label × Nat)) :
    is_final_state (state_of_record { id := i, final := is_final_state s, descriptors := ds }) =
      is_final_state s := by
  rcases is_final_state_le_one s with h | h <;> rw [h] <;>
    simp [state_of_record, is_final_state, UNMARKED_STATE, FINAL_STATE]

theorem IsCopy.accF {f : Nat → Nat} {A L : Automat} (hc : IsCopy f A L) (hwf : WellFormed A) :
    ∀ (w : List Label) (q : Nat), q ∈ A.ring → Morph.accF L.heap (f q) w = Morph.accF A.heap q w := by
  intro w
  induction w with
  | nil =>
    intro q hq
    obtain ⟨s, hs⟩ := Option.isSome_iff_exists.1 ((hwf.ring_mem q).1 hq)
    obtain ⟨s', hs', hfin, _⟩ := hc.heap q s hq hs
    rw [accF_nil _ _ _ hs', accF_nil _ _ _ hs, hfin]
  | cons c u ih =>
    intro q hq
    obtain ⟨s, hs⟩ := Option.isSome_iff_exists.1 ((hwf.ring_mem q).1 hq)
    obtain ⟨s', hs', _, htl⟩ := hc.heap q s hq hs
    rw [accF_cons _ _ _ hs' c u, accF_cons _ _ _ hs c u, htl, find_transition_map]
    cases hft : find_transition s.transition_list c with
    | none => rfl
    | some t =>
      simp only [Option.map_some']
      exact ih t.target (hwf.targets q s hs t (find_transition_mem hft).1)

theorem IsCopy.accepts {f : Nat → Nat} {A L : Automat} (hc : IsCopy f A L) (hwf : WellFormed A)
    (w : List Label) : Morph.accepts L w = Morph.accepts A w := by
  have hinit : A.initial_state ∈ A.ring := by
    have := hwf.ring_head
    cases hr : A.ring with
    | nil => rw [hr] at this; cases this
    | cons x rest =>
      rw [hr] at this
      simp only [List.head?_cons, Option.some.injEq] at this
      rw [← this]; exact List.mem_cons_self _ _
  have h1 := accepts_eq_accF L w
  have h2 := accepts_eq_accF A w
  have h3 := hc.accF hwf w A.initial_state hinit
  rw [← hc.initial] at h3
  cases hL : Morph.accepts L w <;> cases hA : Morph.accepts A w <;> simp_all

theorem IsCopy.count_final {f : Nat → Nat} {A L : Automat} (hc : IsCopy f A L)
    (hwf : WellFormed A) : Morph.count_final L = Morph.count_final A := by
  unfold Morph.count_final
  rw [hc.ring, List.filter_map, List.length_map]
  congr 1
  apply List.filter_congr
  intro q hq
  obtain ⟨s, hs⟩ := Option.isSome_iff_exists.1 ((hwf.ring_mem q).1 hq)
  obtain ⟨s', hs', hfin, _⟩ := hc.heap q s hq hs
  simp [hs, hs', hfin]

theorem IsCopy.count_transitions {f : Nat → Nat} {A L : Automat} (hc : IsCopy f A L)
    (hwf : WellFormed A) : Morph.count_transitions L = Morph.count_transitions A := by
  unfold Morph.count_transitions
  rw [hc.ring, List.map_map]
  congr 1
  apply List.map_congr_left
  intro q hq
  obtain ⟨s, hs⟩ := Option.isSome_iff_exists.1 ((hwf.ring_mem q).1 hq)
  obtain ⟨s', hs', _, htl⟩ := hc.heap q s hq hs
  simp [hs, hs', transitions_count, htl]

end Morph

namespace Morph

theorem labels_fit_spec {A : Automat} (h : labels_fit A = true) (q : Nat) (s : State)
    (hq : q ∈ A.ring) (hs : A.heap q = some s) :
    ∀ t ∈ s.transition_list, -2 ^ 31 ≤ t.label ∧ t.label < 2 ^ 31 := by
  intro t ht
  simp only [labels_fit, List.all_eq_true] at h
  have := h q hq
  simp only [hs, List.all_eq_true, decide_eq_true_eq] at this
  exact this t ht

/-- Saving a well-formed automaton and loading the file gives a copy of it,
the address of a state being its place in the ring. -/
theorem save_load_copy (A : Automat) (hwf : WellFormed A) (hlab : labels_fit A = true) :
    ∃ A_s file L, save_automat A = some (A_s, file) ∧ load_automat file = some L ∧
      IsCopy (fun q => A.ring.indexOf q) A L := by
  obtain ⟨A_s, hsave, _, _, _⟩ := save_automat_spec A hwf
  have hinit : ∃ rest, A.ring = A.initial_state :: rest := by
    have := hwf.ring_head
    cases hr : A.ring with
    | nil => rw [hr] at this; cases this
    | cons x rest =>
      rw [hr] at this
      simp only [List.head?_cons, Option.some.injEq] at this
      exact ⟨rest, by rw [this]⟩
  have hlen : (A.ring.map (record_of A)).length = A.ring.length := List.length_map _ _
  have hfit : ∀ r ∈ A.ring.map (record_of A), r.id < 2 ^ 32 ∧ r.descriptors.length < 2 ^ 32 ∧
      ∀ d ∈ r.descriptors, d.2 < (A.ring.map (record_of A)).length ∧
        -2 ^ 31 ≤ d.1 ∧ d.1 < 2 ^ 31 := by
    intro r hr
    obtain ⟨q, hq, rfl⟩ := List.mem_map.1 hr
    obtain ⟨s, hs⟩ := Option.isSome_iff_exists.1 ((hwf.ring_mem q).1 hq)
    simp only [record_of, hs, List.length_map, List.mem_map, forall_exists_index, and_imp]
    refine ⟨lt_trans (List.indexOf_lt_length.2 hq) hwf.size, hwf.degree q s hs, ?_⟩
    rintro d t ht rfl
    exact ⟨List.indexOf_lt_length.2 (hwf.targets q s hs t ht), labels_fit_spec hlab q s hq hs t ht⟩
  obtain ⟨L, hload, hring, hinitial, hheap⟩ :=
    load_automat_spec (A.ring.map (record_of A))
      (by
        obtain ⟨rest, hr⟩ := hinit
        rw [hlen, hr]; simp)
      (by rw [hlen]; exact hwf.size) hfit
  rw [hlen] at hload hring
  refine ⟨A_s, _, L, hsave, hload, ?_, ?_, ?_⟩
  · rw [hring, map_indexOf_eq_range _ hwf.ring_nodup]
  · obtain ⟨rest, hr⟩ := hinit
    rw [hinitial, hr]
    simp
  · intro q s hq hs
    refine ⟨state_of_record (record_of A q), ?_, ?_, ?_⟩
    · rw [hheap, List.getElem?_map, List.getElem?_indexOf hq]
      rfl
    · simp only [record_of, hs]
      exact is_final_state_of_record s _ _
    · simp [record_of, hs, state_of_record]

end Morph

namespace Morph

/-! ## The labels of the automaton are labels of the words -/

theorem LabelsIn.store {P : Label → Prop} {A : Automat} (h : LabelsIn P A.heap) (p : Nat)
    (s : State) (hs : ∀ t ∈ s.transition_list, P t.label) : LabelsIn P (A.store p s).heap := by
  intro q sq hq t ht
  simp only [Automat.store] at hq
  split at hq
  · cases hq; exact hs t ht
  · exact h q sq hq t ht

theorem mark_as_final_labels {P : Label → Prop} {A A' : Automat} {q : Nat}
    (h : LabelsIn P A.heap) (hrun : mark_as_final A q = some A') : LabelsIn P A'.heap := by
  simp only [mark_as_final, Option.bind_eq_bind, Option.bind_eq_some, Option.pure_def,
    Option.some.injEq] at hrun
  obtain ⟨s, hs, rfl⟩ := hrun
  exact h.store _ _ (h q s hs)

theorem mark_as_registered_labels {P : Label → Prop} {A A' : Automat} {q : Nat}
    (h : LabelsIn P A.heap) (hrun : mark_as_registered A q = some A') : LabelsIn P A'.heap := by
  simp only [mark_as_registered, Option.bind_eq_bind, Option.bind_eq_some, Option.pure_def,
    Option.some.injEq] at hrun
  obtain ⟨s, hs, rfl⟩ := hrun
  exact h.store _ _ (h q s hs)

theorem add_to_register_heap {A A' : Automat} {q : Nat}
    (hrun : add_to_register A q = some A') : A'.heap = A.heap := by
  simp only [add_to_register, Option.bind_eq_bind, Option.bind_eq_some, Option.pure_def,
    Option.some.injEq] at hrun
  obtain ⟨_, _, _, _, rfl⟩ := hrun
  rfl

theorem re_register_state_heap {A A' : Automat} {q : Nat} {key : Key}
    (hrun : re_register_state A q key = some A') : A'.heap = A.heap := by
  simp only [re_register_state, Option.bind_eq_bind, Option.bind_eq_some, Option.pure_def] at hrun
  obtain ⟨cl, _, cls, _, k, _, hrest⟩ := hrun
  split at hrest
  · cases hrest; rfl
  · exact (add_to_register_heap hrest).trans rfl

theorem set_last_child_labels {P : Label → Prop} {A A' : Automat} {q c : Nat}
    (h : LabelsIn P A.heap) (hrun : set_last_child A q c = some A') : LabelsIn P A'.heap := by
  simp only [set_last_child, Option.bind_eq_bind, Option.bind_eq_some, Option.pure_def,
    Option.some.injEq] at hrun
  obtain ⟨s, hs, t, ht, rfl⟩ := hrun
  apply h.store
  intro x hx
  simp only [List.mem_append, List.mem_singleton] at hx
  rcases hx with hx | rfl
  · exact h q s hs x (List.mem_of_mem_dropLast hx)
  · exact h q s hs t (List.mem_of_mem_getLast? ht)

theorem delete_branch_sub :
    ∀ (fuel : Nat) (A : Automat) (q : Nat) (A' : Automat), delete_branch fuel A q = some A' →
      ∀ x s, A'.heap x = some s → A.heap x = some s := by
  intro fuel
  induction fuel with
  | zero => intro A q A' h; cases h
  | succ fuel ih =>
    have hfold : ∀ (l : TransitionList) (A A' : Automat),
        l.foldlM (fun a t => delete_branch fuel a t.target) A = some A' →
        ∀ x s, A'.heap x = some s → A.heap x = some s := by
      intro l
      induction l with
      | nil =>
        intro A A' h x s hx
        simp only [List.foldlM_nil, Option.pure_def, Option.some.injEq] at h
        subst h; exact hx
      | cons t rest ihl =>
        intro A A' h x s hx
        simp only [List.foldlM_cons, Option.bind_eq_bind, Option.bind_eq_some] at h
        obtain ⟨A1, h1, h2⟩ := h
        exact ih A t.target A1 h1 x s (ihl A1 A' h2 x s hx)
    intro A q A' h x s hx
    simp only [delete_branch, Option.bind_eq_bind, Option.bind_eq_some] at h
    obtain ⟨sq, hsq, h⟩ := h
    split at h
    · simp only [Option.bind_eq_bind, Option.bind_eq_some, Option.pure_def,
        Option.some.injEq] at h
      obtain ⟨A1, h1, _, _, rfl⟩ := h
      simp only at hx
      split at hx
      · cases hx
      · exact hfold _ A A1 h1 x s hx
    · simp only [Option.pure_def, Option.some.injEq] at h
      subst h; exact hx

theorem delete_branch_labels {P : Label → Prop} {fuel : Nat} {A A' : Automat} {q : Nat}
    (h : LabelsIn P A.heap) (hrun : delete_branch fuel A q = some A') : LabelsIn P A'.heap :=
  fun x s hx t ht => h x s (delete_branch_sub fuel A q A' hrun x s hx) t ht

end Morph

namespace Morph

theorem append_new_state_labels {P : Label → Prop} {A A' : Automat} {q new id : Nat}
    {c : Label} {prev : Option Nat} (h : LabelsIn P A.heap) (hc : P c)
    (hrun : append_new_state A q c id prev = some (A', new)) : LabelsIn P A'.heap := by
  simp only [append_new_state, Option.bind_eq_bind, Option.bind_eq_some, Option.pure_def,
    Option.some.injEq, Prod.mk.injEq] at hrun
  obtain ⟨s, hs, rfl, _⟩ := hrun
  have h1 : LabelsIn P (make_state A id prev).1.heap := by
    intro x sx hx t ht
    simp only [make_state, Automat.store] at hx
    split at hx
    · cases hx; cases ht
    · exact h x sx hx t ht
  apply h1.store
  intro t ht
  simp only [extend_transition_list, List.mem_append, List.mem_singleton] at ht
  rcases ht with ht | rfl
  · exact h1 q s hs t ht
  · exact hc

theorem add_suffix_loop_labels {P : Label → Prop} :
    ∀ (suffix : List Label) (A : Automat) (last : Nat) (A' : Automat) (last' : Nat),
      LabelsIn P A.heap → (∀ c ∈ suffix, P c) →
      add_suffix_loop A last suffix = some (A', last') → LabelsIn P A'.heap := by
  intro suffix
  induction suffix with
  | nil =>
    intro A last A' last' h _ hrun
    simp only [add_suffix_loop, Option.some.injEq, Prod.mk.injEq] at hrun
    rw [← hrun.1]; exact h
  | cons c rest ih =>
    intro A last A' last' h hP hrun
    simp only [add_suffix_loop, Option.bind_eq_bind, Option.bind_eq_some] at hrun
    obtain ⟨⟨A1, new⟩, h1, h2⟩ := hrun
    exact ih A1 new A' last' (append_new_state_labels (A := { A with
        last_state_id := (A.last_state_id + 1) % 2 ^ 32 }) h (hP c (List.mem_cons_self _ _)) h1)
      (fun x hx => hP x (List.mem_cons_of_mem _ hx)) h2

theorem add_suffix_labels {P : Label → Prop} {A A' : Automat} {last : Nat}
    {suffix : List Label} (h : LabelsIn P A.heap) (hP : ∀ c ∈ suffix, P c)
    (hrun : add_suffix A last suffix = some A') : LabelsIn P A'.heap := by
  simp only [add_suffix, Option.bind_eq_bind, Option.bind_eq_some] at hrun
  obtain ⟨_, _, hrun⟩ := hrun
  have hrest : ∃ (y : Option Key) (A1 : Automat) (last1 : Nat) (A2 : Automat) (f : State),
      add_suffix_loop A last suffix = some (A1, last1) ∧ mark_as_final A1 last1 = some A2 ∧
      (if is_marked_as_registered f = true then
        y.bind fun key => re_register_state A2 last key else pure A2) = some A' := by
    split at hrun <;>
    · simp only [Option.bind_eq_some] at hrun
      obtain ⟨y, _, ⟨A1, last1⟩, h1, A2, h2, f, _, h3⟩ := hrun
      exact ⟨y, A1, last1, A2, f, h1, h2, h3⟩
  obtain ⟨y, A1, last1, A2, f, h1, h2, h3⟩ := hrest
  have hl2 := mark_as_final_labels (add_suffix_loop_labels suffix A last A1 last1 h hP h1) h2
  split at h3
  · simp only [Option.bind_eq_some] at h3
    obtain ⟨key, _, h4⟩ := h3
    rw [re_register_state_heap h4]; exact hl2
  · simp only [Option.pure_def, Option.some.injEq] at h3
    rw [← h3]; exact hl2

theorem replace_or_register_child_labels {P : Label → Prop} {fuel : Nat} {A A' : Automat}
    {state child : Nat} (h : LabelsIn P A.heap)
    (hrun : replace_or_register_child fuel A state child = some A') : LabelsIn P A'.heap := by
  simp only [replace_or_register_child, Option.bind_eq_bind, Option.bind_eq_some] at hrun
  obtain ⟨eq, _, hrun⟩ := hrun
  cases eq with
  | some e =>
    simp only [Option.bind_eq_bind, Option.bind_eq_some] at hrun
    obtain ⟨_, _, hrun⟩ := hrun
    have hrest : ∃ (y : Option Key) (A1 A2 : Automat) (s2 : State),
        delete_branch (fuel + 1) A child = some A1 ∧ set_last_child A1 state e = some A2 ∧
        (if is_marked_as_registered s2 = true then
          y.bind fun key => re_register_state A2 state key else pure A2) = some A' := by
      split at hrun <;>
      · simp only [Option.bind_eq_some] at hrun
        obtain ⟨y, _, A1, h1, A2, h2, s2, _, h3⟩ := hrun
        exact ⟨y, A1, A2, s2, h1, h2, h3⟩
    obtain ⟨y, A1, A2, s2, h1, h2, h3⟩ := hrest
    have hl2 := set_last_child_labels (delete_branch_labels h h1) h2
    split at h3
    · simp only [Option.bind_eq_some] at h3
      obtain ⟨key, _, h4⟩ := h3
      rw [re_register_state_heap h4]; exact hl2
    · simp only [Option.pure_def, Option.some.injEq] at h3
      rw [← h3]; exact hl2
  | none =>
    simp only [Option.bind_eq_bind, Option.bind_eq_some] at hrun
    obtain ⟨A1, h1, h2⟩ := hrun
    exact mark_as_registered_labels (by rw [add_to_register_heap h1]; exact h) h2

theorem replace_or_register_labels {P : Label → Prop} :
    ∀ (fuel : Nat) (A : Automat) (state : Nat) (A' : Automat), LabelsIn P A.heap →
      replace_or_register fuel A state = some A' → LabelsIn P A'.heap := by
  intro fuel
  induction fuel with
  | zero => intro A state A' _ h; cases h
  | succ fuel ih =>
    intro A state A' h hrun
    simp only [replace_or_register, Option.bind_eq_bind, Option.bind_eq_some] at hrun
    obtain ⟨child, _, c, _, hrun⟩ := hrun
    split at hrun
    · split at hrun
      · simp only [Option.bind_eq_some] at hrun
        obtain ⟨A1, h1, h2⟩ := hrun
        exact replace_or_register_child_labels (ih A child A1 h h1) h2
      · simp only [Option.some_bind] at hrun
        exact replace_or_register_child_labels h hrun
    · simp only [Option.pure_def, Option.some.injEq] at hrun
      rw [← hrun]; exact h

theorem automat_add_word_labels {P : Label → Prop} {fuel : Nat} {A A' : Automat}
    {word : List Label} (h : LabelsIn P A.heap) (hP : ∀ c ∈ word, P c)
    (hrun : automat_add_word fuel A word = some A') : LabelsIn P A'.heap := by
  simp only [automat_add_word, Option.bind_eq_bind, Option.bind_eq_some] at hrun
  obtain ⟨⟨n, _, last⟩, _, s, _, hrun⟩ := hrun
  split at hrun
  · simp only [Option.bind_eq_some] at hrun
    obtain ⟨A1, h1, h2⟩ := hrun
    exact add_suffix_labels (replace_or_register_labels fuel A last A1 h h1)
      (fun c hc => hP c (List.mem_of_mem_drop hc)) h2
  · simp only [Option.some_bind] at hrun
    exact add_suffix_labels h (fun c hc => hP c (List.mem_of_mem_drop hc)) hrun

theorem add_words_labels {P : Label → Prop} {fuel : Nat} :
    ∀ (ws : List (List Label)) (A A' : Automat), LabelsIn P A.heap →
      (∀ w ∈ ws, ∀ c ∈ w, P c) → add_words fuel A ws = some A' → LabelsIn P A'.heap := by
  intro ws
  induction ws with
  | nil =>
    intro A A' h _ hrun
    simp only [add_words, Option.some.injEq] at hrun
    rw [← hrun]; exact h
  | cons w rest ih =>
    intro A A' h hP hrun
    simp only [add_words, Option.bind_eq_bind, Option.bind_eq_some] at hrun
    obtain ⟨A1, h1, h2⟩ := hrun
    exact ih A1 A' (automat_add_word_labels h (hP w (List.mem_cons_self _ _)) h1)
      (fun x hx => hP x (List.mem_cons_of_mem _ hx)) h2

/-- Every label of the built automaton is a label of one of the words. -/
theorem build_automat_labels {P : Label → Prop} {fuel : Nat} {ws : List (List Label)}
    {A : Automat} (hP : ∀ w ∈ ws, ∀ c ∈ w, P c) (hrun : build_automat fuel ws = some A) :
    LabelsIn P A.heap := by
  simp only [build_automat, Option.bind_eq_bind, Option.bind_eq_some] at hrun
  obtain ⟨A0, h0, h1⟩ := hrun
  have hl0 : LabelsIn P A0.heap := by
    apply add_words_labels ws make_automat A0 _ hP h0
    intro q s hq t ht
    simp only [make_automat, make_state, Automat.store] at hq
    split at hq
    · cases hq; cases ht
    · cases hq
  simp only [complete_automat, Option.bind_eq_bind, Option.bind_eq_some, Option.pure_def,
    Option.some.injEq] at h1
  obtain ⟨A1, h2, _, _, rfl⟩ := h1
  exact replace_or_register_labels fuel A0 _ A1 hl0 h2

theorem labels_fit_of_labelsIn {A : Automat}
    (h : LabelsIn (fun c => -2 ^ 31 ≤ c ∧ c < 2 ^ 31) A.heap) : labels_fit A = true := by
  simp only [labels_fit, List.all_eq_true]
  intro q _
  cases hq : A.heap q with
  | none => rfl
  | some s =>
    simp only [List.all_eq_true, decide_eq_true_eq]
    exact fun t ht => h q s hq t ht

end Morph

namespace Morph

/-! ## The compact automaton read from a file of records -/

theorem decode_transitions_spec :
    ∀ (ds : List (Label × Nat)) (pre : Bytes),
      (∀ d ∈ ds, d.2 < 2 ^ 32 ∧ -2 ^ 31 ≤ d.1 ∧ d.1 < 2 ^ 31) →
      decode_transitions (pre ++ ds.flatMap (fun d => le_bytes 4 (label_bits d.1) ++ le_bytes 4 d.2))
          ds.length pre.length =
        some (ds.map (fun d => { label := d.1, target := d.2 })) := by
  intro ds
  induction ds with
  | nil => intro pre _; rfl
  | cons d rest ih =>
    intro pre hfit
    obtain ⟨hd32, hlab⟩ := hfit d (List.mem_cons_self _ _)
    have h1 : read_at (pre ++ (d :: rest).flatMap
        (fun d => le_bytes 4 (label_bits d.1) ++ le_bytes 4 d.2)) pre.length 4 =
        some (le_bytes 4 (label_bits d.1)) := by
      rw [List.flatMap_cons, List.append_assoc]
      exact read_at_second _ _ _ _ _ rfl (le_bytes_length _ _)
    have h2 : read_at (pre ++ (d :: rest).flatMap
        (fun d => le_bytes 4 (label_bits d.1) ++ le_bytes 4 d.2)) (pre.length + 4) 4 =
        some (le_bytes 4 d.2) := by
      rw [List.flatMap_cons, List.append_assoc]
      exact read_at_third _ _ _ _ _ _ (by simp) (le_bytes_length _ _)
    have hdata : pre ++ (d :: rest).flatMap
        (fun d => le_bytes 4 (label_bits d.1) ++ le_bytes 4 d.2) =
        (pre ++ (le_bytes 4 (label_bits d.1) ++ le_bytes 4 d.2)) ++
          rest.flatMap (fun d => le_bytes 4 (label_bits d.1) ++ le_bytes 4 d.2) := by
      simp [List.flatMap_cons]
    have hcur : pre.length + 8 = (pre ++ (le_bytes 4 (label_bits d.1) ++ le_bytes 4 d.2)).length := by
      simp
    simp only [List.length_cons, decode_transitions, h1, h2, Option.bind_eq_bind,
      Option.some_bind, le_value_le_bytes_4 (label_bits_lt d.1), le_value_le_bytes_4 hd32,
      label_of_bits_label_bits hlab, Option.pure_def]
    rw [hdata, hcur, ih _ (fun x hx => hfit x (List.mem_cons_of_mem _ hx))]
    rfl

theorem decode_state_spec (r : StateRecord) (hlen : r.descriptors.length < 2 ^ 32)
    (hfit : ∀ d ∈ r.descriptors, d.2 < 2 ^ 32 ∧ -2 ^ 31 ≤ d.1 ∧ d.1 < 2 ^ 31) :
    decode_state (encode_record r) = some (mini_state_of_record r) := by
  have hcount : le_value (le_bytes 4 (r.descriptors.length % 2 ^ 32)) = r.descriptors.length := by
    rw [le_value_le_bytes_4 (Nat.mod_lt _ (by norm_num)), Nat.mod_eq_of_lt hlen]
  have hpre : (9 : Nat) = (le_bytes 4 r.id ++ [r.final] ++
      le_bytes 4 (r.descriptors.length % 2 ^ 32)).length := by simp
  have hv : le_value [r.final] = r.final := by simp [le_value]
  have hdec : decode_transitions (encode_record r) r.descriptors.length 9 =
      some (r.descriptors.map (fun d => { label := d.1, target := d.2 })) := by
    rw [encode_record, hpre]
    exact decode_transitions_spec _ _ hfit
  simp only [decode_state, read_at_id, read_at_final, read_at_count, Option.bind_eq_bind,
    Option.some_bind, hcount, hv, hdec, Option.pure_def, mini_state_of_record]

theorem decode_states_spec :
    ∀ (recs : List StateRecord),
      (∀ r ∈ recs, r.descriptors.length < 2 ^ 32 ∧
        ∀ d ∈ r.descriptors, d.2 < 2 ^ 32 ∧ -2 ^ 31 ≤ d.1 ∧ d.1 < 2 ^ 31) →
      decode_states (recs.map encode_record) = some (recs.map mini_state_of_record) := by
  intro recs
  induction recs with
  | nil => intro _; rfl
  | cons r rs ih =>
    intro hfit
    obtain ⟨hlen, hd⟩ := hfit r (List.mem_cons_self _ _)
    simp only [List.map_cons, decode_states, decode_state_spec r hlen hd, Option.bind_eq_bind,
      Option.some_bind, ih (fun x hx => hfit x (List.mem_cons_of_mem _ hx)), Option.pure_def]

theorem load_mini_automat_spec (recs : List StateRecord) (hsize : recs.length < 2 ^ 32)
    (hfit : ∀ r ∈ recs, r.descriptors.length < 2 ^ 32 ∧
      ∀ d ∈ r.descriptors, d.2 < 2 ^ 32 ∧ -2 ^ 31 ≤ d.1 ∧ d.1 < 2 ^ 31) :
    load_mini_automat (le_bytes 4 recs.length ++ encode_records recs) =
      some { states_count := recs.length, states := recs.map mini_state_of_record } := by
  unfold load_mini_automat
  rw [fread_append _ _ 4 (le_bytes_length _ _)]
  dsimp only
  rw [if_neg (by rw [le_bytes_length]; exact fun h => h rfl), le_value_le_bytes_4 hsize,
    read_descriptions_spec recs (fun r hr => (hfit r hr).1)]
  simp only [Option.bind_eq_bind, Option.some_bind, decode_states_spec recs hfit,
    Option.pure_def, Nat.mod_eq_of_lt hsize]

/-- A state whose stored number of transitions is zero has no transition for
the search: no word with a first label is read from state 0. -/
theorem mini_accepts_of_no_count (M : MiniAutomat) (st : MiniState) (c : Label)
    (w : List Label) (h0 : M.states[0]? = some st) (hcount : st.transitions_count = 0) :
    mini_accepts M (c :: w) = false := by
  simp [mini_accepts, mini_common_prefix, mini_common_prefix_loop, mini_find_transition, h0,
    hcount]

end Morph

namespace Morph

/-! ## A state with 256 transitions -/

theorem records_fit (A : Automat) (hwf : WellFormed A) (hlab : labels_fit A = true) :
    ∀ r ∈ A.ring.map (record_of A), r.id < 2 ^ 32 ∧ r.descriptors.length < 2 ^ 32 ∧
      ∀ d ∈ r.descriptors, d.2 < A.ring.length ∧ -2 ^ 31 ≤ d.1 ∧ d.1 < 2 ^ 31 := by
  intro r hr
  obtain ⟨q, hq, rfl⟩ := List.mem_map.1 hr
  obtain ⟨s, hs⟩ := Option.isSome_iff_exists.1 ((hwf.ring_mem q).1 hq)
  simp only [record_of, hs, List.length_map, List.mem_map, forall_exists_index, and_imp]
  refine ⟨lt_trans (List.indexOf_lt_length.2 hq) hwf.size, hwf.degree q s hs, ?_⟩
  rintro d t ht rfl
  exact ⟨List.indexOf_lt_length.2 (hwf.targets q s hs t ht), labels_fit_spec hlab q s hq hs t ht⟩

theorem letters_sorted (n : Nat) : (letters n).Pairwise word_le := by
  unfold letters
  rw [List.pairwise_map]
  apply (List.pairwise_lt_range n).imp
  intro i j hij
  exact Or.inl (by exact_mod_cast Nat.succ_lt_succ hij)

theorem letters_sum (n : Nat) : ((letters n).map List.length).sum = n := by
  unfold letters
  rw [List.map_map]
  have : (List.length ∘ fun (i : Nat) => [((i + 1 : Nat) : Int)]) = fun _ => 1 := by
    funext i; rfl
  rw [this]
  simp

theorem mem_letters {n : Nat} {w : List Label} :
    w ∈ letters n ↔ ∃ i, i < n ∧ w = [((i + 1 : Nat) : Int)] := by
  unfold letters
  simp only [List.mem_map, List.mem_range]
  constructor
  · rintro ⟨i, hi, rfl⟩; exact ⟨i, hi, rfl⟩
  · rintro ⟨i, hi, rfl⟩; exact ⟨i, hi, rfl⟩

/-- The initial state of the automaton of the one-letter words `1 … n` has
`n` transitions. -/
theorem letters_initial_degree (n : Nat) (A : Automat) (s0 : State)
    (hlang : ∀ w, accepts A w = true ↔ w ∈ letters n) (hdet : Deterministic A)
    (hlabels : LabelsIn (fun c => ∃ i, i < n ∧ c = ((i + 1 : Nat) : Int)) A.heap)
    (hinit : A.initial_state ∈ A.ring) (hs0 : A.heap A.initial_state = some s0) :
    s0.transition_list.length = n := by
  have hnd := hdet A.initial_state s0 hinit hs0
  have hnd2 : ((List.range n).map (fun i => ((i + 1 : Nat) : Int))).Nodup := by
    apply List.Nodup.map _ (List.nodup_range n)
    intro i j hij
    have hij' : (((i + 1 : Nat) : Int)) = ((j + 1 : Nat) : Int) := hij
    have : (i + 1 : Nat) = j + 1 := by exact_mod_cast hij'
    omega
  have hperm : (s0.transition_list.map (fun t => t.label)).Perm
      ((List.range n).map (fun i => ((i + 1 : Nat) : Int))) := by
    rw [List.perm_ext_iff_of_nodup hnd hnd2]
    intro c
    simp only [List.mem_map, List.mem_range]
    constructor
    · rintro ⟨t, ht, rfl⟩
      obtain ⟨i, hi, hc⟩ := hlabels _ s0 hs0 t ht
      exact ⟨i, hi, hc.symm⟩
    · rintro ⟨i, hi, rfl⟩
      have hacc := (hlang [((i + 1 : Nat) : Int)]).2 (mem_letters.2 ⟨i, hi, rfl⟩)
      rw [accepts_eq_accF, accF_cons _ _ _ hs0] at hacc
      cases hft : find_transition s0.transition_list ((i + 1 : Nat) : Int) with
      | none => rw [hft] at hacc; cases hacc
      | some t =>
        obtain ⟨hmem, hl⟩ := find_transition_mem hft
        exact ⟨t, hmem, hl⟩
  have := hperm.length_eq
  simpa using this

end Morph

namespace Morph

/-! ## `strncmp` and the order of the suffixes -/

theorem strncmp_eq_zero_iff :
    ∀ (s a : Bytes), (∀ b ∈ s, b ≠ 0) → (strncmp s a s.length = 0 ↔ a.take s.length = s) := by
  intro s
  induction s with
  | nil => intro a _; simp [strncmp]
  | cons c s ih =>
    intro a hs
    have hc : c ≠ 0 := hs c (List.mem_cons_self _ _)
    have hs' : ∀ b ∈ s, b ≠ 0 := fun b hb => hs b (List.mem_cons_of_mem _ hb)
    cases a with
    | nil =>
      simp only [List.length_cons, strncmp, List.headD_cons, List.headD_nil, ne_eq, hc,
        not_false_eq_true, if_true, List.take_nil]
      constructor
      · intro h; exfalso; omega
      · intro h; cases h
    | cons d a =>
      simp only [List.length_cons, strncmp, List.headD_cons, List.tail_cons, List.take_succ_cons,
        List.cons.injEq]
      by_cases hcd : c = d
      · subst hcd
        simp only [ne_eq, not_true_eq_false, if_false, hc, true_and]
        exact ih a hs'
      · simp only [ne_eq, hcd, not_false_eq_true, if_true]
        constructor
        · intro h; exfalso; omega
        · intro h; exact absurd h.1.symm hcd

theorem strncmp_mono :
    ∀ (s a b : Bytes), (∀ x ∈ s, x ≠ 0) → bytes_le a b →
      (0 < strncmp s b s.length → 0 < strncmp s a s.length) ∧
      (strncmp s a s.length < 0 → strncmp s b s.length < 0) := by
  intro s
  induction s with
  | nil => intro a b _ _; simp [strncmp]
  | cons c s ih =>
    intro a b hs hab
    have hc : c ≠ 0 := hs c (List.mem_cons_self _ _)
    have hs' : ∀ x ∈ s, x ≠ 0 := fun x hx => hs x (List.mem_cons_of_mem _ hx)
    cases a with
    | nil =>
      simp only [List.length_cons, strncmp, List.headD_nil, ne_eq, hc, not_false_eq_true,
        if_true]
      constructor
      · intro _; omega
      · intro h; exfalso; omega
    | cons x a =>
      cases b with
      | nil => exact absurd hab (fun h => h)
      | cons y b =>
        simp only [List.length_cons, strncmp, List.headD_cons, List.tail_cons, ne_eq, hc,
          if_false]
        rcases hab with hxy | ⟨rfl, hab'⟩
        · by_cases hcx : c = x
          · subst hcx
            have hcy : c ≠ y := by omega
            simp only [hcy, not_false_eq_true, if_true, not_true_eq_false, if_false]
            constructor
            · intro h; exfalso; omega
            · intro _; omega
          · by_cases hcy : c = y
            · subst hcy
              simp only [hcx, not_false_eq_true, if_true, not_true_eq_false, if_false]
              constructor
              · intro _; omega
              · intro h; exfalso; omega
            · simp only [hcx, hcy, not_false_eq_true, if_true]
              constructor <;> intro h <;> omega
        · by_cases hcx : c = x
          · subst hcx
            simp only [not_true_eq_false, if_false]
            exact ih a b hs' hab'
          · simp only [hcx, not_false_eq_true, if_true]
            exact ⟨fun h => h, fun h => h⟩

end Morph

namespace Morph

/-! ## The search in the suffix array -/

theorem extend_left_spec (sample : Bytes) (m : Nat) (text : Bytes) (SA : List Nat) :
    ∀ (item : Nat),
      extend_left sample m text SA item ≤ item ∧
      (∀ i, extend_left sample m text SA item ≤ i → i < item →
        strncmp sample (text.drop (at_index SA i)) m = 0) ∧
      (extend_left sample m text SA item = 0 ∨
        strncmp sample (text.drop (at_index SA (extend_left sample m text SA item - 1))) m ≠ 0) := by
  intro item
  induction item with
  | zero => exact ⟨le_refl _, fun i _ hi => absurd hi (Nat.not_lt_zero _), Or.inl rfl⟩
  | succ item ih =>
    obtain ⟨h1, h2, h3⟩ := ih
    by_cases hc : strncmp sample (text.drop (at_index SA item)) m = 0
    · simp only [extend_left, hc, if_true]
      refine ⟨by omega, ?_, h3⟩
      intro i hi hlt
      by_cases hi' : i < item
      · exact h2 i hi hi'
      · have : i = item := by omega
        rw [this]; exact hc
    · simp only [extend_left, hc, if_false]
      refine ⟨le_refl _, fun i hi hlt => by omega, Or.inr ?_⟩
      simpa using hc

theorem extend_right_spec (sample : Bytes) (m : Nat) (text : Bytes) (SA : List Nat) (n : Nat) :
    ∀ (fuel right : Nat),
      right ≤ extend_right sample m text SA n fuel right ∧
      (∀ i, right < i → i ≤ extend_right sample m text SA n fuel right →
        i < n ∧ strncmp sample (text.drop (at_index SA i)) m = 0) ∧
      (n ≤ right + fuel → n ≤ extend_right sample m text SA n fuel right + 1 ∨
        strncmp sample (text.drop (at_index SA (extend_right sample m text SA n fuel right + 1))) m
          ≠ 0) := by
  intro fuel
  induction fuel with
  | zero =>
    intro right
    simp only [extend_right]
    exact ⟨le_refl _, fun i h1 h2 => by omega, fun h => Or.inl (by omega)⟩
  | succ fuel ih =>
    intro right
    by_cases hc : right + 1 < n ∧ strncmp sample (text.drop (at_index SA (right + 1))) m = 0
    · obtain ⟨h1, h2, h3⟩ := ih (right + 1)
      simp only [extend_right, hc, and_self, if_true]
      refine ⟨by omega, ?_, fun h => h3 (by omega)⟩
      intro i hi hle
      by_cases hi' : right + 1 < i
      · exact h2 i hi' hle
      · have : i = right + 1 := by omega
        rw [this]; exact hc
    · simp only [extend_right, hc, if_false]
      refine ⟨le_refl _, fun i h1 h2 => by omega, fun _ => ?_⟩
      by_cases hn : right + 1 < n
      · right
        intro h0
        exact hc ⟨hn, h0⟩
      · left; omega

/-- The result of the search for a comparison whose sign does not increase
along the suffix array: the range of the zeros, or none. -/
theorem find_loop_spec (sample : Bytes) (m : Nat) (text : Bytes) (n : Nat) (SA : List Nat)
    (hmono : ∀ i j, i ≤ j → j < n →
      (0 < strncmp sample (text.drop (at_index SA j)) m →
        0 < strncmp sample (text.drop (at_index SA i)) m) ∧
      (strncmp sample (text.drop (at_index SA i)) m < 0 →
        strncmp sample (text.drop (at_index SA j)) m < 0)) :
    ∀ (fuel : Nat) (left right : Int), 0 ≤ left → left ≤ right → right < n →
      right - left < fuel →
      (∀ i : Nat, i < n → strncmp sample (text.drop (at_index SA i)) m = 0 →
        left ≤ i ∧ (i : Int) ≤ right) →
      ∃ r, find_loop sample m text n SA fuel left right = some r ∧
        match r with
        | none => ∀ i, i < n → strncmp sample (text.drop (at_index SA i)) m ≠ 0
        | some (s, e) => s ≤ e ∧ e < n ∧
          ∀ i, i < n → ((s ≤ i ∧ i ≤ e) ↔ strncmp sample (text.drop (at_index SA i)) m = 0) := by
  intro fuel
  induction fuel with
  | zero => intro left right h0 hle hr hfuel; exfalso; omega
  | succ fuel ih =>
    intro left right h0 hle hr hfuel hzeros
    have hitem1 : left ≤ ((left + (right - left) / 2).toNat : Int) := by omega
    have hitem2 : ((left + (right - left) / 2).toNat : Int) ≤ right := by omega
    generalize hitem : (left + (right - left) / 2).toNat = item at hitem1 hitem2
    have hitemn : item < n := by omega
    by_cases hc : strncmp sample (text.drop (at_index SA item)) m = 0
    · refine ⟨some (extend_left sample m text SA item, extend_right sample m text SA n n item),
        ?_, ?_⟩
      · simp only [find_loop, hitem, hc, if_true]
      · obtain ⟨hl1, hl2, hl3⟩ := extend_left_spec sample m text SA item
        obtain ⟨hr1, hr2, hr3⟩ := extend_right_spec sample m text SA n n item
        generalize extend_left sample m text SA item = l at hl1 hl2 hl3
        generalize extend_right sample m text SA n n item = r at hr1 hr2 hr3
        have hrn : r < n := by
          by_cases h : item < r
          · exact (hr2 r h (le_refl _)).1
          · omega
        have hin : ∀ i, l ≤ i → i ≤ r → strncmp sample (text.drop (at_index SA i)) m = 0 := by
          intro i hli hir
          by_cases h1 : i < item
          · exact hl2 i hli h1
          · by_cases h2 : i = item
            · rw [h2]; exact hc
            · exact (hr2 i (by omega) hir).2
        refine ⟨by omega, hrn, fun i hi => ⟨fun h => hin i h.1 h.2, fun hz => ?_⟩⟩
        constructor
        · by_contra hlt
          have hl0 : l ≠ 0 := by omega
          have hne := hl3.resolve_left hl0
          have hm1 := hmono i (l - 1) (by omega) (by omega)
          have hm2 := hmono (l - 1) item (by omega) hitemn
          rcases lt_trichotomy (strncmp sample (text.drop (at_index SA (l - 1))) m) 0
            with h | h | h
          · have := hm2.2 h; omega
          · exact hne h
          · have := hm1.1 h; omega
        · by_contra hlt
          have hne := (hr3 (by omega)).resolve_left (by omega)
          have hm1 := hmono (r + 1) i (by omega) hi
          have hm2 := hmono item (r + 1) (by omega) (by omega)
          rcases lt_trichotomy (strncmp sample (text.drop (at_index SA (r + 1))) m) 0
            with h | h | h
          · have := hm1.2 h; omega
          · exact hne h
          · have := hm2.1 h; omega
    · by_cases hneg : strncmp sample (text.drop (at_index SA item)) m < 0
      · have hz : ∀ i : Nat, i < n → strncmp sample (text.drop (at_index SA i)) m = 0 →
            left ≤ i ∧ (i : Int) ≤ (item : Int) - 1 := by
          intro i hi h0
          refine ⟨(hzeros i hi h0).1, ?_⟩
          by_contra hlt
          have := (hmono item i (by omega) hi).2 hneg
          omega
        by_cases hcont : left ≤ (item : Int) - 1
        · obtain ⟨r, hrun, hpost⟩ := ih left ((item : Int) - 1) h0 hcont (by omega) (by omega) hz
          exact ⟨r, by simp only [find_loop, hitem, hc, if_false, hneg, if_true, hcont]; exact hrun,
            hpost⟩
        · refine ⟨none, by simp only [find_loop, hitem, hc, if_false, hneg, if_true, hcont], ?_⟩
          intro i hi h0
          have := hz i hi h0
          omega
      · have hpos : 0 < strncmp sample (text.drop (at_index SA item)) m := by omega
        have hz : ∀ i : Nat, i < n → strncmp sample (text.drop (at_index SA i)) m = 0 →
            (item : Int) + 1 ≤ i ∧ (i : Int) ≤ right := by
          intro i hi h0
          refine ⟨?_, (hzeros i hi h0).2⟩
          by_contra hlt
          have := (hmono i item (by omega) hitemn).1 hpos
          omega
        by_cases hcont : (item : Int) + 1 ≤ right
        · obtain ⟨r, hrun, hpost⟩ := ih ((item : Int) + 1) right (by omega) hcont hr (by omega) hz
          exact ⟨r, by simp only [find_loop, hitem, hc, if_false, hneg, hcont, if_true]; exact hrun,
            hpost⟩
        · refine ⟨none, by simp only [find_loop, hitem, hc, if_false, hneg, hcont], ?_⟩
          intro i hi h0
          have := hz i hi h0
          omega

end Morph

namespace Morph

theorem at_index_eq_getElem (a : List Nat) (i : Nat) (h : i < a.length) : at_index a i = a[i] := by
  simp [at_index, List.getD, List.getElem?_eq_getElem h]

theorem mem_slice {l : List Nat} {s k x : Nat} :
    x ∈ (l.drop s).take k ↔ ∃ i, s ≤ i ∧ i < s + k ∧ l[i]? = some x := by
  rw [List.mem_iff_getElem?]
  constructor
  · rintro ⟨j, hj⟩
    rw [List.getElem?_take] at hj
    split at hj
    · rw [List.getElem?_drop] at hj
      exact ⟨s + j, by omega, by omega, hj⟩
    · cases hj
  · rintro ⟨i, h1, h2, h3⟩
    refine ⟨i - s, ?_⟩
    rw [List.getElem?_take, if_pos (by omega), List.getElem?_drop]
    rw [← h3]
    congr 1
    omega

/-- The sign of the comparison of the sample with the suffixes does not
increase along a sorted suffix array. -/
theorem strncmp_suffix_mono (sample text : Bytes) (SA : List Nat)
    (hsample : ∀ b ∈ sample, b ≠ 0) (hsorted : SuffixSorted text SA) :
    ∀ i j, i ≤ j → j < SA.length →
      (0 < strncmp sample (text.drop (at_index SA j)) sample.length →
        0 < strncmp sample (text.drop (at_index SA i)) sample.length) ∧
      (strncmp sample (text.drop (at_index SA i)) sample.length < 0 →
        strncmp sample (text.drop (at_index SA j)) sample.length < 0) := by
  intro i j hij hj
  by_cases h : i = j
  · subst h; exact ⟨fun h => h, fun h => h⟩
  · have hi : i < SA.length := by omega
    rw [at_index_eq_getElem SA i hi, at_index_eq_getElem SA j hj]
    apply strncmp_mono sample _ _ hsample
    exact (List.pairwise_iff_getElem.1 hsorted) i j hi hj (by omega)

/-- The search in a sorted suffix array of the text: the result is the range of
the entries at which the sample occurs, `(NULL, NULL)` when there is none. -/
theorem find_with_suffix_array_spec (sample text : Bytes) (SA : List Nat)
    (hsample : ∀ b ∈ sample, b ≠ 0) (hlen : SA.length = text.length)
    (hsorted : SuffixSorted text SA) :
    ∃ r, find_with_suffix_array sample sample.length text text.length SA = some r ∧
      match r with
      | none => ∀ i, i < text.length →
          (text.drop (at_index SA i)).take sample.length ≠ sample
      | some (s, e) => s ≤ e ∧ e < text.length ∧
        ∀ i, i < text.length →
          ((s ≤ i ∧ i ≤ e) ↔ (text.drop (at_index SA i)).take sample.length = sample) := by
  by_cases hn : text.length > 0
  · have hmono := strncmp_suffix_mono sample text SA hsample hsorted
    rw [hlen] at hmono
    obtain ⟨r, hrun, hpost⟩ :=
      find_loop_spec sample sample.length text text.length SA hmono text.length 0
        ((text.length : Int) - 1) (le_refl _) (by omega) (by omega) (by omega)
        (fun i hi _ => by omega)
    refine ⟨r, by simp only [find_with_suffix_array, hn, if_true]; exact hrun, ?_⟩
    cases r with
    | none =>
      intro i hi h
      exact hpost i hi ((strncmp_eq_zero_iff sample _ hsample).2 h)
    | some se =>
      obtain ⟨s, e⟩ := se
      obtain ⟨h1, h2, h3⟩ := hpost
      exact ⟨h1, h2, fun i hi => (h3 i hi).trans (strncmp_eq_zero_iff sample _ hsample)⟩
  · refine ⟨none, by simp only [find_with_suffix_array, hn, if_false], ?_⟩
    intro i hi
    omega

end Morph

namespace Morph

/-! ## The similarity score -/

theorem to_int32_add (x y : Int) : to_int32 (to_int32 x + y) = to_int32 (x + y) := by
  unfold to_int32
  norm_num
  omega

theorem to_int32_of_range {x : Int} (h1 : -2 ^ 31 ≤ x) (h2 : x < 2 ^ 31) : to_int32 x = x := by
  unfold to_int32
  norm_num at h1 h2 ⊢
  omega

theorem accumulate_results_eq :
    ∀ (l : List Nat) (i : Int),
      accumulate_results l (to_int32 i) = to_int32 (i + ((l.sum : Nat) : Int)) := by
  intro l
  induction l with
  | nil => intro i; simp [accumulate_results]
  | cons a l ih =>
    intro i
    simp only [accumulate_results, List.sum_cons, Nat.cast_add]
    rw [to_int32_add, ih, add_assoc]

theorem accumulate_results_zero (l : List Nat) :
    accumulate_results l 0 = to_int32 ((l.sum : Nat) : Int) := by
  have := accumulate_results_eq l 0
  rw [to_int32_of_range (by norm_num) (by norm_num), zero_add] at this
  exact this

/-- While the lengths of the results add up to less than `2 ^ 31`, the value of
`morph_doc_intersect_doc2` lies between 0 and 1, also for the length 0. -/
theorem morph_doc_intersect_doc2_bounds (doc_len : Nat) (results : List Nat)
    (h : results.sum < 2 ^ 31) :
    0 ≤ morph_doc_intersect_doc2 doc_len results ∧
      morph_doc_intersect_doc2 doc_len results ≤ 1 := by
  have hi : accumulate_results results 0 = ((results.sum : Nat) : Int) := by
    rw [accumulate_results_zero]
    exact to_int32_of_range (le_trans (by norm_num) (Int.ofNat_nonneg _)) (by exact_mod_cast h)
  unfold morph_doc_intersect_doc2
  simp only [hi]
  split
  · exact ⟨zero_le_one, le_refl _⟩
  · next hlt =>
    have hnn : (0 : ℚ) ≤ (((results.sum : Nat) : Int) : ℚ) := by exact_mod_cast Nat.zero_le _
    have hpos : (0 : ℚ) < (doc_len : ℚ) := lt_of_le_of_lt hnn (not_le.1 hlt)
    constructor
    · exact div_nonneg hnn (le_of_lt hpos)
    · rw [div_le_one hpos]
      exact le_of_lt (not_le.1 hlt)

/-- The same for `morph_doc_intersect_doc`. -/
theorem morph_doc_intersect_doc_bounds (doc_len search_len : Nat) (results : List Nat)
    (h : results.sum < 2 ^ 31) :
    0 ≤ morph_doc_intersect_doc doc_len search_len results ∧
      morph_doc_intersect_doc doc_len search_len results ≤ 1 := by
  have h2 := morph_doc_intersect_doc2_bounds doc_len results h
  unfold morph_doc_intersect_doc
  unfold morph_doc_intersect_doc2 at h2
  split
  · exact ⟨le_refl _, zero_le_one⟩
  · exact h2

end Morph

namespace Morph

/-! ## The order of the suffixes -/

theorem bytes_lt_irrefl : ∀ (u : Bytes), ¬ bytes_lt u u := by
  intro u
  induction u with
  | nil => exact fun h => h
  | cons a u ih =>
    intro h
    rcases h with h | ⟨_, h⟩
    · exact lt_irrefl a h
    · exact ih h

theorem bytes_lt_trans : ∀ (u v w : Bytes), bytes_lt u v → bytes_lt v w → bytes_lt u w := by
  intro u
  induction u with
  | nil =>
    intro v w h1 h2
    cases w with
    | nil => cases v <;> exact h2.elim
    | cons c w => trivial
  | cons a u ih =>
    intro v w h1 h2
    cases v with
    | nil => exact h1.elim
    | cons b v =>
      cases w with
      | nil => exact h2.elim
      | cons c w =>
        rcases h1 with h1 | ⟨rfl, h1⟩
        · rcases h2 with h2 | ⟨rfl, _⟩
          · exact Or.inl (lt_trans h1 h2)
          · exact Or.inl h1
        · rcases h2 with h2 | ⟨rfl, h2⟩
          · exact Or.inl h2
          · exact Or.inr ⟨rfl, ih v w h1 h2⟩

theorem bytes_lt_total : ∀ (u v : Bytes), u ≠ v → bytes_lt u v ∨ bytes_lt v u := by
  intro u
  induction u with
  | nil =>
    intro v h
    cases v with
    | nil => exact absurd rfl h
    | cons b v => exact Or.inl trivial
  | cons a u ih =>
    intro v h
    cases v with
    | nil => exact Or.inr trivial
    | cons b v =>
      rcases lt_trichotomy a b with hab | hab | hab
      · exact Or.inl (Or.inl hab)
      · subst hab
        have huv : u ≠ v := fun e => h (by rw [e])
        rcases ih v huv with h1 | h1
        · exact Or.inl (Or.inr ⟨rfl, h1⟩)
        · exact Or.inr (Or.inr ⟨rfl, h1⟩)
      · exact Or.inr (Or.inl hab)

theorem bytes_lt_asymm (u v : Bytes) (h1 : bytes_lt u v) (h2 : bytes_lt v u) : False :=
  bytes_lt_irrefl u (bytes_lt_trans u v u h1 h2)

theorem bytes_le_of_lt : ∀ (u v : Bytes), bytes_lt u v → bytes_le u v := by
  intro u
  induction u with
  | nil => intro v _; trivial
  | cons a u ih =>
    intro v h
    cases v with
    | nil => exact h.elim
    | cons b v =>
      rcases h with h | ⟨rfl, h⟩
      · exact Or.inl h
      · exact Or.inr ⟨rfl, ih v h⟩

theorem at_index_of_ge {l : List Nat} {i : Nat} (h : l.length ≤ i) : at_index l i = 0 := by
  simp [at_index, List.getD, List.getElem?_eq_none h]

theorem at_index_of_lt {l : List Nat} {i : Nat} (h : i < l.length) : at_index l i = l[i] := by
  simp [at_index, List.getD, List.getElem?_eq_getElem h]

theorem textOk_length {s : List Nat} {n K : Nat} (h : TextOk s n K) : n ≤ s.length := by
  by_contra hlt
  have hn : 0 < n := by omega
  have := h.pos (n - 1) (by omega)
  have h0 : at_index s (n - 1) = 0 := at_index_of_ge (by omega)
  omega

theorem suffix_at_of_lt {s : List Nat} {n K : Nat} (h : TextOk s n K) {i : Nat} (hi : i < n) :
    suffix_at s n i = at_index s i :: suffix_at s n (i + 1) := by
  have hlen := textOk_length h
  unfold suffix_at
  have hi' : i < (s.take n).length := by simp; omega
  rw [List.drop_eq_getElem_cons hi']
  congr 1
  simp [at_index, List.getD, List.getElem?_eq_getElem (show i < s.length by omega)]

theorem suffix_at_of_ge {s : List Nat} {n i : Nat} (hi : n ≤ i) : suffix_at s n i = [] := by
  unfold suffix_at
  apply List.drop_eq_nil_of_le
  simp
  omega

theorem suffix_at_length {s : List Nat} {n K : Nat} (h : TextOk s n K) (i : Nat) :
    (suffix_at s n i).length = n - i := by
  have hlen := textOk_length h
  unfold suffix_at
  simp
  omega

/-- One step of the comparison of two suffixes, on the symbols padded with
zeros. -/
theorem sufLt_step {s : List Nat} {n K : Nat} (h : TextOk s n K) (i j : Nat) :
    SufLt s n i j ↔ at_index s i < at_index s j ∨
      (at_index s i = at_index s j ∧ SufLt s n (i + 1) (j + 1)) := by
  unfold SufLt
  by_cases hi : i < n
  · by_cases hj : j < n
    · rw [suffix_at_of_lt h hi, suffix_at_of_lt h hj]
      rfl
    · have hj' : n ≤ j := by omega
      rw [suffix_at_of_lt h hi, suffix_at_of_ge hj', suffix_at_of_ge (show n ≤ j + 1 by omega)]
      have h1 := h.pos i hi
      have h2 := h.zero j hj'
      simp only [bytes_lt, false_iff]
      omega
  · have hi' : n ≤ i := by omega
    by_cases hj : j < n
    · rw [suffix_at_of_ge hi', suffix_at_of_lt h hj]
      have h1 := h.pos j hj
      have h2 := h.zero i hi'
      simp only [bytes_lt, true_iff]
      omega
    · have hj' : n ≤ j := by omega
      rw [suffix_at_of_ge hi', suffix_at_of_ge hj', suffix_at_of_ge (show n ≤ i + 1 by omega),
        suffix_at_of_ge (show n ≤ j + 1 by omega)]
      have h1 := h.zero i hi'
      have h2 := h.zero j hj'
      simp [bytes_lt, h1, h2]

theorem sufLt_irrefl (s : List Nat) (n i : Nat) : ¬ SufLt s n i i := bytes_lt_irrefl _

theorem sufLt_trans {s : List Nat} {n i j k : Nat} (h1 : SufLt s n i j) (h2 : SufLt s n j k) :
    SufLt s n i k := bytes_lt_trans _ _ _ h1 h2

theorem sufLt_asymm {s : List Nat} {n i j : Nat} (h1 : SufLt s n i j) (h2 : SufLt s n j i) :
    False := bytes_lt_asymm _ _ h1 h2

theorem sufLt_total {s : List Nat} {n K : Nat} (h : TextOk s n K) {i j : Nat} (hij : i ≠ j)
    (hlt : i < n ∨ j < n) : SufLt s n i j ∨ SufLt s n j i := by
  apply bytes_lt_total
  intro he
  have := congrArg List.length he
  rw [suffix_at_length h, suffix_at_length h] at this
  omega

/-- The empty suffix behind the text is smaller than every suffix of the
text. -/
theorem sufLt_of_ge {s : List Nat} {n K : Nat} (h : TextOk s n K) {i j : Nat} (hi : n ≤ i)
    (hj : j < n) : SufLt s n i j := by
  unfold SufLt
  rw [suffix_at_of_ge hi, suffix_at_of_lt h hj]
  trivial

theorem not_sufLt_of_ge {s : List Nat} {n i j : Nat} (hj : n ≤ j) : ¬ SufLt s n i j := by
  unfold SufLt
  rw [suffix_at_of_ge hj]
  cases suffix_at s n i <;> exact fun h => h

end Morph

namespace Morph

/-! ## `radixPass` is a stable sort by key -/

theorem at_index_set (c : List Nat) (i v k : Nat) :
    at_index (c.set i v) k = if k = i ∧ i < c.length then v else at_index c k := by
  unfold at_index
  by_cases hk : k = i
  · subst hk
    by_cases hlt : k < c.length
    · simp [hlt, List.getD, List.getElem?_set_self hlt]
    · have h1 : c.length ≤ k := by omega
      simp [hlt, List.getD, List.getElem?_eq_none, h1]
  · have hne : i ≠ k := fun h => hk h.symm
    simp [hk, List.getD, List.getElem?_set_ne hne]

theorem at_index_cons_succ (a : Nat) (l : List Nat) (k : Nat) :
    at_index (a :: l) (k + 1) = at_index l k := by
  simp [at_index, List.getD]

theorem radix_count_spec (keys : Nat → Nat) :
    ∀ (L c : List Nat), (∀ x ∈ L, keys x < c.length) →
      (radix_count keys L c).length = c.length ∧
      ∀ k, at_index (radix_count keys L c) k = at_index c k + (bucket keys L k).length := by
  intro L
  induction L with
  | nil => intro c _; exact ⟨rfl, fun k => by simp [radix_count, bucket]⟩
  | cons x L ih =>
    intro c h
    have hx := h x (List.mem_cons_self _ _)
    obtain ⟨h1, h2⟩ := ih (c.set (keys x) (at_index c (keys x) + 1))
      (fun y hy => by simpa using h y (List.mem_cons_of_mem _ hy))
    refine ⟨by simpa [radix_count] using h1, fun k => ?_⟩
    simp only [radix_count]
    rw [h2 k, at_index_set]
    by_cases hk : k = keys x
    · subst hk
      simp [bucket, hx, List.filter_cons]
      omega
    · have hk' : ¬ keys x = k := fun e => hk e.symm
      simp [bucket, hk, hk', List.filter_cons]

theorem radix_sums_spec :
    ∀ (c : List Nat) (sum : Nat),
      (radix_sums c sum).length = c.length ∧
      ∀ k, k < c.length → at_index (radix_sums c sum) k = sum + (c.take k).sum := by
  intro c
  induction c with
  | nil => intro sum; exact ⟨rfl, fun k hk => absurd hk (Nat.not_lt_zero _)⟩
  | cons t c ih =>
    intro sum
    obtain ⟨h1, h2⟩ := ih (sum + t)
    refine ⟨by simp [radix_sums, h1], fun k hk => ?_⟩
    cases k with
    | zero => simp [radix_sums, at_index]
    | succ k =>
      have := h2 k (by simpa using hk)
      simp only [radix_sums, List.take_succ_cons, List.sum_cons]
      rw [at_index_cons_succ, this]
      omega

/-- The offset of the bucket of the key `k` in the sorted list. -/
theorem bucket_start (keys : Nat → Nat) (L : List Nat) (c : List Nat)
    (hc : ∀ k, at_index c k = (bucket keys L k).length) :
    ∀ k, k ≤ c.length →
      (c.take k).sum = ((List.range k).flatMap (bucket keys L)).length := by
  intro k
  induction k with
  | zero => intro _; rfl
  | succ k ih =>
    intro hk
    have hlt : k < c.length := by omega
    rw [List.take_succ, List.sum_append, ih (by omega), List.range_succ, List.flatMap_append,
      List.length_append]
    congr 1
    have := hc k
    rw [at_index_of_lt hlt] at this
    simp [List.getElem?_eq_getElem hlt, this]

end Morph

namespace Morph

theorem seg_iff (T : List Nat) (a : Nat) (B : List Nat) :
    Seg T a B ↔ ∀ m, m < B.length → T[a + m]? = B[m]? := by
  unfold Seg
  constructor
  · intro h m hm
    rw [← List.getElem?_drop, ← List.getElem?_take_of_lt hm, h]
  · intro h
    apply List.ext_getElem?
    intro m
    rw [List.getElem?_take]
    split
    · next hm => rw [List.getElem?_drop]; exact h m hm
    · next hm => rw [List.getElem?_eq_none (by omega)]

theorem seg_set_outside {T : List Nat} {a : Nat} {B : List Nat} (h : Seg T a B) (i v : Nat)
    (hi : i < a ∨ a + B.length ≤ i) : Seg (T.set i v) a B := by
  rw [seg_iff] at h ⊢
  intro m hm
  rw [List.getElem?_set_ne (by omega)]
  exact h m hm

theorem seg_set_extend {T : List Nat} {a : Nat} {B : List Nat} (h : Seg T a B) (v : Nat)
    (hlen : a + B.length < T.length) : Seg (T.set (a + B.length) v) a (B ++ [v]) := by
  rw [seg_iff] at h ⊢
  intro m hm
  simp only [List.length_append, List.length_singleton] at hm
  by_cases hm' : m < B.length
  · rw [List.getElem?_set_ne (by omega), h m hm', List.getElem?_append_left hm']
  · have : m = B.length := by omega
    subst this
    rw [List.getElem?_set_self hlen, List.getElem?_append_right (le_refl _)]
    simp

theorem bucket_append (keys : Nat → Nat) (P Q : List Nat) (k : Nat) :
    bucket keys (P ++ Q) k = bucket keys P k ++ bucket keys Q k := by
  simp [bucket]

theorem bucket_offset_succ (keys : Nat → Nat) (L : List Nat) (k : Nat) :
    bucket_offset keys L (k + 1) = bucket_offset keys L k + (bucket keys L k).length := by
  simp [bucket_offset, List.range_succ, List.flatMap_append]

theorem bucket_offset_mono (keys : Nat → Nat) (L : List Nat) {j k : Nat} (h : j ≤ k) :
    bucket_offset keys L j ≤ bucket_offset keys L k := by
  induction k with
  | zero =>
    have : j = 0 := by omega
    rw [this]
  | succ k ih =>
    by_cases hj : j = k + 1
    · rw [hj]
    · have := ih (by omega)
      rw [bucket_offset_succ]
      omega

theorem range_flatMap_bucket_perm (keys : Nat → Nat) (L : List Nat) :
    ∀ m, ((List.range m).flatMap (bucket keys L)).Perm (L.filter (fun x => decide (keys x < m))) := by
  intro m
  induction m with
  | zero => simp
  | succ m ih =>
    rw [List.range_succ, List.flatMap_append]
    have h1 : L.filter (fun x => decide (keys x < m)) =
        (L.filter (fun x => decide (keys x < m + 1))).filter (fun x => decide (keys x < m)) := by
      rw [List.filter_filter]
      apply List.filter_congr
      intro x _
      by_cases hx : keys x < m
      · simp [hx]; omega
      · simp [hx]
    have h2 : bucket keys L m =
        (L.filter (fun x => decide (keys x < m + 1))).filter (fun x => !decide (keys x < m)) := by
      rw [List.filter_filter]
      unfold bucket
      apply List.filter_congr
      intro x _
      by_cases hx : keys x = m
      · simp [hx]
      · by_cases hx' : keys x < m
        · simp [hx, hx']
        · have : ¬ keys x < m + 1 := by omega
          simp [hx, hx', this]
    have h3 := List.filter_append_perm (fun x => decide (keys x < m))
      (L.filter (fun x => decide (keys x < m + 1)))
    refine List.Perm.trans ?_ h3
    rw [← h1, ← h2]
    simp only [List.flatMap_singleton, List.flatMap_cons, List.flatMap_nil, List.append_nil]
    exact List.Perm.append_right _ ih

theorem bucket_sort_perm (keys : Nat → Nat) (K : Nat) (L : List Nat)
    (h : ∀ x ∈ L, keys x ≤ K) : (bucket_sort keys K L).Perm L := by
  have := range_flatMap_bucket_perm keys L (K + 1)
  rw [List.filter_eq_self.2 (fun x hx => by simpa using Nat.lt_succ_of_le (h x hx))] at this
  exact this

theorem bucket_offset_total (keys : Nat → Nat) (K : Nat) (L : List Nat)
    (h : ∀ x ∈ L, keys x ≤ K) : bucket_offset keys L (K + 1) = L.length :=
  (bucket_sort_perm keys K L h).length_eq

theorem bucket_sort_pairwise (keys : Nat → Nat) (K : Nat) (L : List Nat)
    (Rel : Nat → Nat → Prop) (h : L.Pairwise Rel) :
    (bucket_sort keys K L).Pairwise
      (fun a b => keys a < keys b ∨ (keys a = keys b ∧ Rel a b)) := by
  unfold bucket_sort
  rw [List.pairwise_flatMap]
  constructor
  · intro k _
    have h1 : (bucket keys L k).Pairwise Rel := h.filter _
    have h2 : ∀ x ∈ bucket keys L k, keys x = k := by
      intro x hx
      simpa [bucket] using (List.mem_filter.1 hx).2
    rw [List.pairwise_iff_forall_sublist] at h1 ⊢
    intro a b hab
    have ha := h2 a (hab.subset (by simp))
    have hb := h2 b (hab.subset (by simp))
    exact Or.inr ⟨by rw [ha, hb], h1 hab⟩
  · apply (List.pairwise_lt_range (K + 1)).imp
    intro k1 k2 hk x hx y hy
    have hx' : keys x = k1 := by simpa [bucket] using (List.mem_filter.1 hx).2
    have hy' : keys y = k2 := by simpa [bucket] using (List.mem_filter.1 hy).2
    exact Or.inl (by omega)

end Morph

namespace Morph

theorem seg_concat (R : List Nat) (B : Nat → List Nat) :
    ∀ m, (∀ k, k < m → Seg R ((List.range k).flatMap B).length (B k)) →
      R.take ((List.range m).flatMap B).length = (List.range m).flatMap B := by
  intro m
  induction m with
  | zero => intro _; simp
  | succ m ih =>
    intro h
    have h1 := ih (fun k hk => h k (by omega))
    have h2 := h m (by omega)
    unfold Seg at h2
    rw [List.range_succ, List.flatMap_append, List.length_append, List.take_add, h1]
    simp only [List.flatMap_singleton, List.flatMap_cons, List.flatMap_nil, List.append_nil]
    rw [h2]

theorem radix_scatter_spec (keys : Nat → Nat) (K : Nat) (L : List Nat)
    (hkeys : ∀ x ∈ L, keys x ≤ K) :
    ∀ (Q P c T : List Nat), L = P ++ Q → L.length ≤ T.length → K + 1 ≤ c.length →
      (∀ k, k ≤ K → at_index c k = bucket_offset keys L k + (bucket keys P k).length) →
      (∀ k, k ≤ K → Seg T (bucket_offset keys L k) (bucket keys P k)) →
      (radix_scatter keys Q c T).length = T.length ∧
      (∀ k, k ≤ K → Seg (radix_scatter keys Q c T) (bucket_offset keys L k) (bucket keys L k)) ∧
      (radix_scatter keys Q c T).drop L.length = T.drop L.length := by
  intro Q
  induction Q with
  | nil =>
    intro P c T hL _ _ _ hseg
    simp only [List.append_nil] at hL
    subst hL
    exact ⟨rfl, hseg, rfl⟩
  | cons x Q ih =>
    intro P c T hL hT hc hcount hseg
    have hx : keys x ≤ K := hkeys x (by rw [hL]; simp)
    have hbL : ∀ k, bucket keys L k = bucket keys P k ++ bucket keys (x :: Q) k := by
      intro k; rw [hL, bucket_append]
    have hble : ∀ k, (bucket keys P k).length ≤ (bucket keys L k).length := by
      intro k; rw [hbL k, List.length_append]; omega
    have hbx : (bucket keys P (keys x)).length + 1 ≤ (bucket keys L (keys x)).length := by
      rw [hbL (keys x), List.length_append]
      simp [bucket, List.filter_cons]
    have hidx := hcount (keys x) hx
    have hoff1 := bucket_offset_succ keys L (keys x)
    have hofftot := bucket_offset_total keys K L hkeys
    have hoffmono := bucket_offset_mono keys L (show keys x + 1 ≤ K + 1 by omega)
    have hidxL : at_index c (keys x) < L.length := by omega
    obtain ⟨h1, h2, h3⟩ := ih (P ++ [x]) (c.set (keys x) (at_index c (keys x) + 1))
      (T.set (at_index c (keys x)) x) (by rw [hL]; simp) (by simpa using hT) (by simpa using hc)
      (by
        intro k hk
        rw [at_index_set, bucket_append]
        by_cases hkx : k = keys x
        · subst hkx
          rw [if_pos ⟨rfl, by omega⟩, hidx]
          simp [bucket]
          omega
        · rw [if_neg (fun h => hkx h.1), hcount k hk]
          have : ¬ keys x = k := fun e => hkx e.symm
          simp [bucket, this])
      (by
        intro k hk
        rw [bucket_append]
        by_cases hkx : k = keys x
        · subst hkx
          have : bucket keys [x] (keys x) = [x] := by simp [bucket]
          rw [this, hidx]
          exact seg_set_extend (hseg _ hk) x (by rw [← hidx]; omega)
        · have : bucket keys [x] k = [] := by
            have : ¬ keys x = k := fun e => hkx e.symm
            simp [bucket, this]
          rw [this, List.append_nil]
          apply seg_set_outside (hseg k hk)
          rcases Nat.lt_or_gt_of_ne hkx with hlt | hgt
          · right
            have := bucket_offset_succ keys L k
            have := bucket_offset_mono keys L (show k + 1 ≤ keys x by omega)
            have := hble k
            omega
          · left
            have := bucket_offset_mono keys L (show keys x + 1 ≤ k by omega)
            omega)
    refine ⟨by simpa [radix_scatter] using h1, fun k hk => by simpa [radix_scatter] using h2 k hk,
      ?_⟩
    simp only [radix_scatter]
    rw [h3, List.drop_set_of_lt _ _ hidxL]

/-- `radixPass` writes the first `keys_count` elements of `source`, sorted
stably by key, over the front of `target`. -/
theorem radixPass_eq (source target : List Nat) (keys : Nat → Nat) (keys_count K : Nat)
    (hkeys : ∀ x ∈ source.take keys_count, keys x ≤ K)
    (hlen : (source.take keys_count).length ≤ target.length) :
    radixPass source target keys keys_count K =
      bucket_sort keys K (source.take keys_count) ++
        target.drop (source.take keys_count).length := by
  generalize hL : source.take keys_count = L at hkeys hlen
  unfold radixPass
  simp only [hL]
  obtain ⟨hc1, hc2⟩ := radix_count_spec keys L (List.replicate (K + 1) 0)
    (fun x hx => by simpa using Nat.lt_succ_of_le (hkeys x hx))
  have hcount : ∀ k, at_index (radix_count keys L (List.replicate (K + 1) 0)) k =
      (bucket keys L k).length := by
    intro k
    rw [hc2 k]
    have : at_index (List.replicate (K + 1) 0) k = 0 := by
      by_cases hk : k < K + 1
      · rw [at_index_of_lt (by simpa using hk)]; simp
      · exact at_index_of_ge (by simp; omega)
    omega
  obtain ⟨hs1, hs2⟩ := radix_sums_spec (radix_count keys L (List.replicate (K + 1) 0)) 0
  have hstart := bucket_start keys L _ hcount
  obtain ⟨h1, h2, h3⟩ := radix_scatter_spec keys K L hkeys L [] _ target rfl hlen
    (by rw [hs1, hc1]; simp)
    (by
      intro k hk
      rw [hs2 k (by rw [hc1]; simp; omega), hstart k (by rw [hc1]; simp; omega)]
      simp [bucket_offset, bucket])
    (by
      intro k _
      simp [Seg, bucket])
  have htake := seg_concat _ (bucket keys L) (K + 1) (fun k hk => h2 k (by omega))
  have hlenL : ((List.range (K + 1)).flatMap (bucket keys L)).length = L.length :=
    bucket_offset_total keys K L hkeys
  rw [hlenL] at htake
  rw [← List.take_append_drop L.length (radix_scatter keys L _ target), htake, h3]
  rfl

end Morph

namespace Morph

/-! ## The sorted triples -/

theorem filter_mod3_length (m : Nat) :
    ((List.range m).filter (fun i => i % 3 ≠ 0)).length = m - (m + 2) / 3 := by
  induction m with
  | zero => rfl
  | succ m ih =>
    rw [List.range_succ, List.filter_append, List.length_append, ih]
    by_cases h : m % 3 = 0
    · simp [h]; omega
    · simp [h]; omega

theorem sample_positions_length (n : Nat) :
    (sample_positions n).length = (n + 2) / 3 + n / 3 := by
  unfold sample_positions
  rw [filter_mod3_length]
  omega

theorem mem_sample_positions {n x : Nat} :
    x ∈ sample_positions n ↔ x < n + ((n + 2) / 3 - (n + 1) / 3) ∧ x % 3 ≠ 0 := by
  simp [sample_positions]

theorem sample_positions_nodup (n : Nat) : (sample_positions n).Nodup :=
  (List.nodup_range _).filter _

theorem textOk_le_all {s : List Nat} {n K : Nat} (h : TextOk s n K) (i : Nat) :
    at_index s i ≤ K := by
  by_cases hi : i < n
  · exact h.le i hi
  · rw [h.zero i (by omega)]; exact Nat.zero_le _

theorem bucket_sort_length (keys : Nat → Nat) (K : Nat) (L : List Nat)
    (h : ∀ x ∈ L, keys x ≤ K) : (bucket_sort keys K L).length = L.length :=
  (bucket_sort_perm keys K L h).length_eq

theorem sorted_triples_perm {s : List Nat} {n K : Nat} (h : TextOk s n K) :
    (sorted_triples s n K).Perm (sample_positions n) := by
  unfold sorted_triples
  exact ((bucket_sort_perm _ K _ (fun x _ => textOk_le_all h _)).trans
    (bucket_sort_perm _ K _ (fun x _ => textOk_le_all h _))).trans
    (bucket_sort_perm _ K _ (fun x _ => textOk_le_all h _))

theorem sorted_triples_pairwise (s : List Nat) (n K : Nat) :
    (sorted_triples s n K).Pairwise (TripleLe s) := by
  unfold sorted_triples
  have h2 := bucket_sort_pairwise (fun i => at_index s (i + 2)) K (sample_positions n)
    (fun _ _ => True) (List.pairwise_of_forall (fun _ _ => trivial))
  have h1 := bucket_sort_pairwise (fun i => at_index s (i + 1)) K _ _ h2
  have h0 := bucket_sort_pairwise (fun i => at_index s i) K _ _ h1
  apply h0.imp
  intro a b hab
  unfold TripleLe
  rcases hab with h | ⟨he, h⟩
  · exact Or.inl h
  · refine Or.inr ⟨he, ?_⟩
    rcases h with h | ⟨he1, h⟩
    · exact Or.inl h
    · refine Or.inr ⟨he1, ?_⟩
      rcases h with h | ⟨he2, _⟩
      · exact le_of_lt h
      · exact le_of_eq he2

end Morph

namespace Morph

/-! ## The names of the triples -/

theorem name_triples_spec (s : List Nat) (n0 : Nat) (L s12 : List Nat)
    (hsorted : L.Pairwise (TripleLe s)) (hnodup : L.Nodup)
    (hpos : ∀ x ∈ L, sample_index n0 x < s12.length)
    (hinj : ∀ x ∈ L, ∀ y ∈ L, sample_index n0 x = sample_index n0 y → x = y) :
    ∀ (Q P : List Nat) (name : Nat) (c0 c1 c2 : Int) (cur : List Nat) (nm : Nat → Nat),
      L = P ++ Q → NamesInv s n0 s12 P name cur nm →
      (match P.getLast? with
        | none => c0 = -1 ∧ c1 = -1 ∧ c2 = -1 ∧ name = 0
        | some l => c0 = at_index s l ∧ c1 = at_index s (l + 1) ∧ c2 = at_index s (l + 2) ∧
            nm l = name) →
      ∃ nm', NamesInv s n0 s12 L (name_triples s n0 Q name c0 c1 c2 cur).1
        (name_triples s n0 Q name c0 c1 c2 cur).2 nm' := by
  intro Q
  induction Q with
  | nil =>
    intro P name c0 c1 c2 cur nm hL hinv _
    simp only [List.append_nil] at hL
    subst hL
    exact ⟨nm, hinv⟩
  | cons x Q ih =>
    intro P name c0 c1 c2 cur nm hL hinv hc
    have hxL : x ∈ L := by rw [hL]; simp
    have hPL : ∀ y ∈ P, y ∈ L := fun y hy => by rw [hL]; simp [hy]
    have hxP : x ∉ P := by
      rw [hL] at hnodup
      have := (List.nodup_append.1 hnodup).2.2
      intro hx
      exact this hx (List.mem_cons_self _ _)
    have hle : ∀ y ∈ P, TripleLe s y x := by
      rw [hL] at hsorted
      intro y hy
      exact (List.pairwise_append.1 hsorted).2.2 y hy x (List.mem_cons_self _ _)
    have hposne : ∀ y ∈ P, sample_index n0 y ≠ sample_index n0 x := by
      intro y hy he
      exact hxP (by rw [← hinj y (hPL y hy) x hxL he]; exact hy)
    have hlast : ∀ l, P.getLast? = some l → l ∈ P ∧ ∀ y ∈ P, TripleLe s y l := by
      intro l hl
      obtain ⟨P', rfl⟩ : ∃ P', P = P' ++ [l] := by
        rcases List.eq_nil_or_concat P with h | ⟨P', b, h⟩
        · rw [h] at hl; cases hl
        · rw [h] at hl
          simp at hl
          exact ⟨P', by rw [h, hl]; simp⟩
      refine ⟨by simp, fun y hy => ?_⟩
      rcases List.mem_append.1 hy with hy' | hy'
      · rw [hL, List.append_assoc] at hsorted
        exact (List.pairwise_append.1 hsorted).2.2 y hy' l (by simp)
      · simp only [List.mem_singleton] at hy'
        rw [hy']
        unfold TripleLe
        omega
    -- the two cases of the comparison with the previous triple
    by_cases hd : (at_index s x : Int) ≠ c0 ∨ (at_index s (x + 1) : Int) ≠ c1 ∨
        (at_index s (x + 2) : Int) ≠ c2
    · -- a new name
      have hstep : name_triples s n0 (x :: Q) name c0 c1 c2 cur =
          name_triples s n0 Q (name + 1) (at_index s x) (at_index s (x + 1))
            (at_index s (x + 2)) (cur.set (sample_index n0 x) (name + 1)) := by
        simp only [name_triples, hd, if_true, sample_index]
        split <;> rfl
      rw [hstep]
      have hnotle : ∀ y ∈ P, ¬ TripleLe s x y := by
        intro y hy hxy
        cases hl : P.getLast? with
        | none =>
          rw [List.getLast?_eq_none_iff] at hl
          rw [hl] at hy; cases hy
        | some l =>
          rw [hl] at hc
          obtain ⟨h0, h1, h2, _⟩ := hc
          have := (hlast l hl).2 y hy
          have := hle l (hlast l hl).1
          unfold TripleLe at *
          omega
      apply ih (P ++ [x]) (name + 1) _ _ _ _ (Function.update nm x (name + 1))
        (by rw [hL]; simp)
      · refine ⟨?_, ?_, ?_, ?_, ?_, ?_, ?_⟩
        · intro y hy
          rcases List.mem_append.1 hy with hy' | hy'
          · have hne : y ≠ x := fun e => hxP (e ▸ hy')
            rw [Function.update_noteq hne, at_index_set, if_neg (fun h => hposne y hy' h.1)]
            exact hinv.stored y hy'
          · simp only [List.mem_singleton] at hy'
            subst hy'
            rw [Function.update_same, at_index_set,
              if_pos ⟨rfl, by rw [hinv.length]; exact hpos y hxL⟩]
        · intro y hy
          rcases List.mem_append.1 hy with hy' | hy'
          · have hne : y ≠ x := fun e => hxP (e ▸ hy')
            rw [Function.update_noteq hne]
            have := hinv.range y hy'
            omega
          · simp only [List.mem_singleton] at hy'
            subst hy'
            rw [Function.update_same]
            omega
        · intro y hy z hz
          rcases List.mem_append.1 hy with hy' | hy'
          · have hney : y ≠ x := fun e => hxP (e ▸ hy')
            rcases List.mem_append.1 hz with hz' | hz'
            · have hnez : z ≠ x := fun e => hxP (e ▸ hz')
              rw [Function.update_noteq hney, Function.update_noteq hnez]
              exact hinv.order y hy' z hz'
            · simp only [List.mem_singleton] at hz'
              subst hz'
              rw [Function.update_noteq hney, Function.update_same]
              have := hinv.range y hy'
              exact ⟨fun _ => hle y hy', fun _ => by omega⟩
          · simp only [List.mem_singleton] at hy'
            subst hy'
            rcases List.mem_append.1 hz with hz' | hz'
            · have hnez : z ≠ y := fun e => hxP (e ▸ hz')
              rw [Function.update_same, Function.update_noteq hnez]
              have := hinv.range z hz'
              exact ⟨fun h => by omega, fun h => absurd h (hnotle z hz')⟩
            · simp only [List.mem_singleton] at hz'
              subst hz'
              refine ⟨fun _ => ?_, fun _ => le_refl _⟩
              unfold TripleLe
              omega
        · have := hinv.count
          simp only [List.length_append, List.length_singleton]
          omega
        · intro hn y hy z hz
          simp only [List.length_append, List.length_singleton] at hn
          have hu := hinv.unique (by omega)
          rcases List.mem_append.1 hy with hy' | hy'
          · have hney : y ≠ x := fun e => hxP (e ▸ hy')
            rcases List.mem_append.1 hz with hz' | hz'
            · have hnez : z ≠ x := fun e => hxP (e ▸ hz')
              rw [Function.update_noteq hney, Function.update_noteq hnez]
              exact hu y hy' z hz'
            · simp only [List.mem_singleton] at hz'
              subst hz'
              rw [Function.update_noteq hney, Function.update_same]
              have := hinv.range y hy'
              intro h; omega
          · simp only [List.mem_singleton] at hy'
            subst hy'
            rcases List.mem_append.1 hz with hz' | hz'
            · have hnez : z ≠ y := fun e => hxP (e ▸ hz')
              rw [Function.update_same, Function.update_noteq hnez]
              have := hinv.range z hz'
              intro h; omega
            · simp only [List.mem_singleton] at hz'
              intro _; exact hz'.symm
        · rw [List.length_set]; exact hinv.length
        · intro i hi
          have hix : sample_index n0 x ≠ i := hi x (by simp)
          rw [at_index_set, if_neg (fun h => hix h.1.symm)]
          exact hinv.frame i (fun y hy => hi y (by simp [hy]))
      · simp
    · -- the name of the previous triple
      have hd' : (at_index s x : Int) = c0 ∧ (at_index s (x + 1) : Int) = c1 ∧
          (at_index s (x + 2) : Int) = c2 := by
        refine ⟨?_, ?_, ?_⟩ <;> · by_contra h; exact hd (by tauto)
      have hstep : name_triples s n0 (x :: Q) name c0 c1 c2 cur =
          name_triples s n0 Q name c0 c1 c2 (cur.set (sample_index n0 x) name) := by
        simp only [name_triples, hd, if_false, sample_index]
        split <;> rfl
      rw [hstep]
      cases hl : P.getLast? with
      | none =>
        rw [hl] at hc
        obtain ⟨h0, _, _, _⟩ := hc
        exfalso
        have := hd'.1
        omega
      | some l =>
        rw [hl] at hc
        obtain ⟨h0, h1, h2, hnml⟩ := hc
        obtain ⟨hlP, hlmax⟩ := hlast l hl
        have heq : TripleEq s l x := by
          unfold TripleEq
          omega
        apply ih (P ++ [x]) name _ _ _ _ (Function.update nm x name) (by rw [hL]; simp)
        · refine ⟨?_, ?_, ?_, ?_, ?_, ?_, ?_⟩
          · intro y hy
            rcases List.mem_append.1 hy with hy' | hy'
            · have hne : y ≠ x := fun e => hxP (e ▸ hy')
              rw [Function.update_noteq hne, at_index_set, if_neg (fun h => hposne y hy' h.1)]
              exact hinv.stored y hy'
            · simp only [List.mem_singleton] at hy'
              subst hy'
              rw [Function.update_same, at_index_set,
                if_pos ⟨rfl, by rw [hinv.length]; exact hpos y hxL⟩]
          · intro y hy
            rcases List.mem_append.1 hy with hy' | hy'
            · have hne : y ≠ x := fun e => hxP (e ▸ hy')
              rw [Function.update_noteq hne]
              exact hinv.range y hy'
            · simp only [List.mem_singleton] at hy'
              subst hy'
              rw [Function.update_same]
              have := hinv.range l hlP
              omega
          · intro y hy z hz
            rcases List.mem_append.1 hy with hy' | hy'
            · have hney : y ≠ x := fun e => hxP (e ▸ hy')
              rcases List.mem_append.1 hz with hz' | hz'
              · have hnez : z ≠ x := fun e => hxP (e ▸ hz')
                rw [Function.update_noteq hney, Function.update_noteq hnez]
                exact hinv.order y hy' z hz'
              · simp only [List.mem_singleton] at hz'
                subst hz'
                rw [Function.update_noteq hney, Function.update_same, ← hnml,
                  hinv.order y hy' l hlP]
                unfold TripleLe TripleEq at *
                omega
            · simp only [List.mem_singleton] at hy'
              subst hy'
              rcases List.mem_append.1 hz with hz' | hz'
              · have hnez : z ≠ y := fun e => hxP (e ▸ hz')
                rw [Function.update_same, Function.update_noteq hnez, ← hnml,
                  hinv.order l hlP z hz']
                unfold TripleLe TripleEq at *
                omega
              · simp only [List.mem_singleton] at hz'
                subst hz'
                refine ⟨fun _ => ?_, fun _ => le_refl _⟩
                unfold TripleLe
                omega
          · have := hinv.count
            simp only [List.length_append, List.length_singleton]
            omega
          · intro hn
            have := hinv.count
            simp only [List.length_append, List.length_singleton] at hn
            omega
          · rw [List.length_set]; exact hinv.length
          · intro i hi
            have hix : sample_index n0 x ≠ i := hi x (by simp)
            rw [at_index_set, if_neg (fun h => hix h.1.symm)]
            exact hinv.frame i (fun y hy => hi y (by simp [hy]))
        · have hlx : (P ++ [x]).getLast? = some x := by simp
          rw [hlx]
          exact ⟨hd'.1.symm, hd'.2.1.symm, hd'.2.2.symm, Function.update_same _ _ _⟩

end Morph

namespace Morph

/-! ## The sample positions and their indices -/

theorem sample_index_lt {n x : Nat} (hx : x ∈ sample_positions n) :
    sample_index ((n + 2) / 3) x < (n + 2) / 3 + n / 3 := by
  rw [mem_sample_positions] at hx
  unfold sample_index
  split <;> omega

theorem sample_index_inj {n x y : Nat} (hx : x ∈ sample_positions n)
    (hy : y ∈ sample_positions n)
    (h : sample_index ((n + 2) / 3) x = sample_index ((n + 2) / 3) y) : x = y := by
  rw [mem_sample_positions] at hx hy
  unfold sample_index at h
  split at h <;> split at h <;> omega

theorem sample_index_surj {n i : Nat} (hi : i < (n + 2) / 3 + n / 3) :
    ∃ x, x ∈ sample_positions n ∧ sample_index ((n + 2) / 3) x = i := by
  by_cases h : i < (n + 2) / 3
  · refine ⟨3 * i + 1, mem_sample_positions.2 ⟨by omega, by omega⟩, ?_⟩
    unfold sample_index
    rw [if_pos (by omega)]
    omega
  · refine ⟨3 * (i - (n + 2) / 3) + 2, mem_sample_positions.2 ⟨by omega, by omega⟩, ?_⟩
    unfold sample_index
    rw [if_neg (by omega)]
    omega

theorem sample_index_add_three (n0 x : Nat) :
    sample_index n0 (x + 3) = sample_index n0 x + 1 := by
  unfold sample_index
  split <;> split <;> omega

theorem at_index_pos_iff {s : List Nat} {n K : Nat} (h : TextOk s n K) (i : Nat) :
    0 < at_index s i ↔ i < n := by
  constructor
  · intro hp
    by_contra hi
    have := h.zero i (by omega)
    omega
  · exact h.pos i

/-- Three steps of the comparison of two suffixes. -/
theorem sufLt_step3 {s : List Nat} {n K : Nat} (h : TextOk s n K) (x y : Nat) :
    SufLt s n x y ↔ (TripleLe s x y ∧ ¬ TripleEq s x y) ∨
      (TripleEq s x y ∧ SufLt s n (x + 3) (y + 3)) := by
  rw [sufLt_step h x y, sufLt_step h (x + 1) (y + 1), sufLt_step h (x + 1 + 1) (y + 1 + 1)]
  unfold TripleLe TripleEq
  have e1 : x + 1 + 1 = x + 2 := rfl
  have e2 : y + 1 + 1 = y + 2 := rfl
  have e3 : x + 1 + 1 + 1 = x + 3 := rfl
  have e4 : y + 1 + 1 + 1 = y + 3 := rfl
  rw [e1, e2, e3, e4]
  by_cases h0 : at_index s x = at_index s y
  · by_cases h1 : at_index s (x + 1) = at_index s (y + 1)
    · by_cases h2 : at_index s (x + 2) = at_index s (y + 2)
      · simp [h0, h1, h2]
      · simp only [h0, h1, h2, lt_self_iff_false, true_and, false_and, or_false, false_or,
          not_true_eq_false, not_false_eq_true, and_true, and_false]
        omega
    · simp only [h0, h1, lt_self_iff_false, true_and, false_and, or_false, false_or,
        not_true_eq_false, not_false_eq_true, and_true, and_false]
  · simp only [h0, false_and, or_false, not_false_eq_true, and_true]

/-- Two different sample positions with the same triple: the triples hold no
zero, so both positions are at least three before the end. -/
theorem tripleEq_room {s : List Nat} {n K : Nat} (h : TextOk s n K) {x y : Nat}
    (hx : x ∈ sample_positions n) (hy : y ∈ sample_positions n) (hxy : x ≠ y)
    (he : TripleEq s x y) : x + 2 < n ∧ y + 2 < n := by
  rw [mem_sample_positions] at hx hy
  obtain ⟨e0, e1, e2⟩ := he
  have a0 := at_index_pos_iff h x
  have a1 := at_index_pos_iff h (x + 1)
  have a2 := at_index_pos_iff h (x + 2)
  have b0 := at_index_pos_iff h y
  have b1 := at_index_pos_iff h (y + 1)
  have b2 := at_index_pos_iff h (y + 2)
  rw [e0] at a0
  rw [e1] at a1
  rw [e2] at a2
  by_cases c2 : 0 < at_index s (y + 2)
  · exact ⟨a2.1 c2, b2.1 c2⟩
  · exfalso
    have hx2 : ¬ x + 2 < n := fun hh => c2 (a2.2 hh)
    have hy2 : ¬ y + 2 < n := fun hh => c2 (b2.2 hh)
    by_cases c1 : 0 < at_index s (y + 1)
    · have := a1.1 c1
      have := b1.1 c1
      omega
    · have hx1 : ¬ x + 1 < n := fun hh => c1 (a1.2 hh)
      have hy1 : ¬ y + 1 < n := fun hh => c1 (b1.2 hh)
      by_cases c0 : 0 < at_index s y
      · have := a0.1 c0
        have := b0.1 c0
        omega
      · have hx0 : ¬ x < n := fun hh => c0 (a0.2 hh)
        have hy0 : ¬ y < n := fun hh => c0 (b0.2 hh)
        omega

end Morph

namespace Morph

/-! ## The order of the names is the order of the suffixes -/

/-- The suffixes of the string of names are ordered as the suffixes of the
text at the sample positions. -/
theorem sample_order {s T : List Nat} {n K K' : Nat} (hs : TextOk s n K)
    (hT : TextOk T ((n + 2) / 3 + n / 3) K') (nm : Nat → Nat)
    (hstored : ∀ x ∈ sample_positions n, at_index T (sample_index ((n + 2) / 3) x) = nm x)
    (horder : ∀ x ∈ sample_positions n, ∀ y ∈ sample_positions n,
      (nm x ≤ nm y ↔ TripleLe s x y)) :
    ∀ (m x y : Nat), x ∈ sample_positions n → y ∈ sample_positions n → n + 3 - x ≤ m →
      (SufLt T ((n + 2) / 3 + n / 3) (sample_index ((n + 2) / 3) x)
          (sample_index ((n + 2) / 3) y) ↔ SufLt s n x y) := by
  intro m
  induction m with
  | zero =>
    intro x y hx _ hm
    rw [mem_sample_positions] at hx
    omega
  | succ m ih =>
    intro x y hx hy hm
    by_cases hxy : x = y
    · subst hxy
      exact ⟨fun h => absurd h (sufLt_irrefl _ _ _), fun h => absurd h (sufLt_irrefl _ _ _)⟩
    have hxy1 := horder x hx y hy
    have hyx1 := horder y hy x hx
    rw [sufLt_step hT, sufLt_step3 hs, hstored x hx, hstored y hy]
    by_cases he : TripleEq s x y
    · have hnm : nm x = nm y := by
        have h1 : TripleLe s x y := by unfold TripleLe; unfold TripleEq at he; omega
        have h2 : TripleLe s y x := by unfold TripleLe; unfold TripleEq at he; omega
        have := hxy1.2 h1
        have := hyx1.2 h2
        omega
      obtain ⟨hx2, hy2⟩ := tripleEq_room hs hx hy hxy he
      simp only [hnm, lt_self_iff_false, true_and, false_or, he, not_true_eq_false, and_false]
      rw [← sample_index_add_three, ← sample_index_add_three]
      have hxm := mem_sample_positions.1 hx
      have hym := mem_sample_positions.1 hy
      by_cases hx' : x + 3 ∈ sample_positions n
      · by_cases hy' : y + 3 ∈ sample_positions n
        · exact ih (x + 3) (y + 3) hx' hy' (by omega)
        · -- the suffix at `y + 3` is empty on both sides
          have hyn : y + 3 = n ∧ n % 3 = 2 := by
            rw [mem_sample_positions] at hy'
            omega
          have hidx : (n + 2) / 3 + n / 3 ≤ sample_index ((n + 2) / 3) (y + 3) := by
            unfold sample_index
            split <;> omega
          exact ⟨fun h => absurd h (not_sufLt_of_ge hidx),
            fun h => absurd h (not_sufLt_of_ge (by omega))⟩
      · -- the suffix at `x + 3` is empty on both sides
        have hxn : x + 3 = n ∧ n % 3 = 2 := by
          rw [mem_sample_positions] at hx'
          omega
        have hy' : y + 3 ∈ sample_positions n := by
          rw [mem_sample_positions]
          omega
        have hidx : (n + 2) / 3 + n / 3 ≤ sample_index ((n + 2) / 3) (x + 3) := by
          unfold sample_index
          split <;> omega
        have hy3 : y + 3 < n := by
          have := mem_sample_positions.1 hy'
          omega
        exact ⟨fun _ => sufLt_of_ge hs (by omega) hy3,
          fun _ => sufLt_of_ge hT hidx (sample_index_lt hy')⟩
    · have hne : nm x ≠ nm y := by
        intro hnm
        apply he
        have h1 := hxy1.1 (le_of_eq hnm)
        have h2 := hyx1.1 (le_of_eq hnm.symm)
        unfold TripleLe at h1 h2
        unfold TripleEq
        omega
      simp only [hne, false_and, or_false, he, not_false_eq_true, and_true]
      constructor
      · intro h
        exact hxy1.1 (le_of_lt h)
      · intro h
        have := hxy1.2 h
        omega

end Morph

namespace Morph

/-! ## Ranks -/

theorem store_ranks_spec :
    ∀ (SA : List Nat) (i : Nat) (s12 : List Nat), SA.Nodup → (∀ p ∈ SA, p < s12.length) →
      (store_ranks SA i s12).length = s12.length ∧
      (∀ p ∈ SA, at_index (store_ranks SA i s12) p = i + SA.indexOf p + 1) ∧
      (∀ p, p ∉ SA → at_index (store_ranks SA i s12) p = at_index s12 p) := by
  intro SA
  induction SA with
  | nil => intro i s12 _ _; exact ⟨rfl, fun p hp => (by cases hp), fun _ _ => rfl⟩
  | cons x SA ih =>
    intro i s12 hnd hlt
    rw [List.nodup_cons] at hnd
    obtain ⟨h1, h2, h3⟩ := ih (i + 1) (s12.set x (i + 1)) hnd.2
      (fun p hp => by rw [List.length_set]; exact hlt p (List.mem_cons_of_mem _ hp))
    refine ⟨by simpa [store_ranks] using h1, ?_, ?_⟩
    · intro p hp
      simp only [store_ranks]
      by_cases hpx : p = x
      · subst hpx
        rw [h3 p hnd.1, at_index_set, if_pos ⟨rfl, hlt p (List.mem_cons_self _ _)⟩,
          List.indexOf_cons_self]
      · have hp' : p ∈ SA := by
          rcases List.mem_cons.1 hp with h | h
          · exact absurd h hpx
          · exact h
        rw [h2 p hp', List.indexOf_cons_ne _ (fun e => hpx e.symm)]
        omega
    · intro p hp
      simp only [store_ranks]
      have hpx : p ≠ x := fun e => hp (e ▸ List.mem_cons_self _ _)
      rw [h3 p (fun h => hp (List.mem_cons_of_mem _ h)), at_index_set,
        if_neg (fun h => hpx h.1)]

theorem invert_names_spec :
    ∀ (N : List Nat) (i : Nat) (SA12 : List Nat), N.Nodup →
      (∀ v ∈ N, 1 ≤ v ∧ v ≤ SA12.length) →
      (invert_names N i SA12).length = SA12.length ∧
      (∀ v ∈ N, at_index (invert_names N i SA12) (v - 1) = i + N.indexOf v) ∧
      (∀ q, (∀ v ∈ N, v - 1 ≠ q) → at_index (invert_names N i SA12) q = at_index SA12 q) := by
  intro N
  induction N with
  | nil => intro i SA12 _ _; exact ⟨rfl, fun p hp => (by cases hp), fun _ _ => rfl⟩
  | cons x N ih =>
    intro i SA12 hnd hv
    rw [List.nodup_cons] at hnd
    have hx := hv x (List.mem_cons_self _ _)
    obtain ⟨h1, h2, h3⟩ := ih (i + 1) (SA12.set (x - 1) i) hnd.2
      (fun v hvm => by rw [List.length_set]; exact hv v (List.mem_cons_of_mem _ hvm))
    refine ⟨by simpa [invert_names] using h1, ?_, ?_⟩
    · intro v hvm
      simp only [invert_names]
      by_cases hvx : v = x
      · subst hvx
        have hne : ∀ w ∈ N, w - 1 ≠ v - 1 := by
          intro w hw he
          have := (hv w (List.mem_cons_of_mem _ hw)).1
          have : w = v := by omega
          exact hnd.1 (this ▸ hw)
        rw [h3 (v - 1) hne, at_index_set, if_pos ⟨rfl, by omega⟩, List.indexOf_cons_self]
        rfl
      · have hv' : v ∈ N := by
          rcases List.mem_cons.1 hvm with h | h
          · exact absurd h hvx
          · exact h
        rw [h2 v hv', List.indexOf_cons_ne _ (fun e => hvx e.symm)]
        omega
    · intro q hq
      simp only [invert_names]
      have hqx : x - 1 ≠ q := hq x (List.mem_cons_self _ _)
      rw [h3 q (fun v hvm => hq v (List.mem_cons_of_mem _ hvm)), at_index_set,
        if_neg (fun h => hqx h.1.symm)]

theorem indexOf_lt_of_sorted {R : Nat → Nat → Prop} {l : List Nat} (hs : l.Pairwise R)
    (hirr : ∀ a, ¬ R a a) (hasym : ∀ a b, R a b → R b a → False) {a b : Nat} (ha : a ∈ l)
    (hb : b ∈ l) : l.indexOf a < l.indexOf b ↔ R a b := by
  have hia := List.indexOf_lt_length.2 ha
  have hib := List.indexOf_lt_length.2 hb
  have hpw := List.pairwise_iff_getElem.1 hs
  have hga : l[l.indexOf a] = a := List.getElem_indexOf hia
  have hgb : l[l.indexOf b] = b := List.getElem_indexOf hib
  constructor
  · intro h
    have := hpw _ _ hia hib h
    rw [hga, hgb] at this
    exact this
  · intro h
    by_contra hlt
    rcases Nat.lt_or_ge (l.indexOf b) (l.indexOf a) with h1 | h1
    · have := hpw _ _ hib hia h1
      rw [hga, hgb] at this
      exact hasym a b h this
    · have he : l.indexOf a = l.indexOf b := by omega
      have : a = b := by
        rw [← hga, ← hgb]
        simp only [he]
      rw [this] at h
      exact hirr b h

theorem perm_range_of_surj (l : List Nat) (n : Nat) (hlen : l.length = n)
    (hsurj : ∀ j, j < n → j ∈ l) : l.Perm (List.range n) := by
  have hsub : (List.range n).Subperm l :=
    List.subperm_of_subset (List.nodup_range n) (fun j hj => hsurj j (List.mem_range.1 hj))
  exact (hsub.perm_of_length_le (by simp [hlen])).symm

end Morph

namespace Morph

/-! ## The merge -/

theorem range'_map_at_index (l : List Nat) (f : Nat → Nat) :
    ∀ (k t : Nat), t + k = l.length →
      (List.range' t k).map (fun i => f (at_index l i)) = (l.drop t).map f := by
  intro k
  induction k with
  | zero =>
    intro t ht
    have : l.drop t = [] := List.drop_eq_nil_of_le (by omega)
    rw [this]
    rfl
  | succ k ih =>
    intro t ht
    have hlt : t < l.length := by omega
    rw [List.range'_succ, List.map_cons, ih (t + 1) (by omega), List.drop_eq_getElem_cons hlt,
      List.map_cons, at_index_of_lt hlt]

theorem merge_suffixes_succ (s s12 SA12 SA0 : List Nat) (n0 n02 fuel p t : Nat) :
    merge_suffixes s s12 SA12 SA0 n0 n02 (fuel + 1) p t =
      if merge_smaller s s12 SA12 SA0 n0 p t = true then
        if t + 1 = n02 then GetI SA12 n0 t :: (SA0.drop p).take (n0 - p)
        else GetI SA12 n0 t :: merge_suffixes s s12 SA12 SA0 n0 n02 fuel p (t + 1)
      else
        if p + 1 = n0 then
          at_index SA0 p :: ((List.range' t (n02 - t)).map (fun t => GetI SA12 n0 t))
        else at_index SA0 p :: merge_suffixes s s12 SA12 SA0 n0 n02 fuel (p + 1) t := rfl

/-- The merge loop on two sorted lists, with a comparison that decides the
order of their heads: the result holds the elements of both, sorted. -/
theorem merge_suffixes_spec (s s12 SA12 SA0 : List Nat) (n0 n02 t0 : Nat)
    (Lt : Nat → Nat → Prop) (htrans : ∀ a b c, Lt a b → Lt b c → Lt a c)
    (hSA0 : SA0.length = n0) (hB : SA0.Pairwise Lt)
    (hcmp : ∀ p t, p < n0 → t0 ≤ t → t < n02 →
      (merge_smaller s s12 SA12 SA0 n0 p t = true → Lt (GetI SA12 n0 t) (at_index SA0 p)) ∧
      (¬ merge_smaller s s12 SA12 SA0 n0 p t = true → Lt (at_index SA0 p) (GetI SA12 n0 t))) :
    ∀ (fuel p t : Nat), p < n0 → t0 ≤ t → t < n02 → (n0 - p) + (n02 - t) ≤ fuel →
      ((List.range' t (n02 - t)).map (GetI SA12 n0)).Pairwise Lt →
      (merge_suffixes s s12 SA12 SA0 n0 n02 fuel p t).Perm
          ((List.range' t (n02 - t)).map (GetI SA12 n0) ++ SA0.drop p) ∧
        (merge_suffixes s s12 SA12 SA0 n0 n02 fuel p t).Pairwise Lt := by
  intro fuel
  induction fuel with
  | zero => intro p t hp _ ht hf; omega
  | succ fuel ih =>
    intro p t hp ht0 ht hf hA
    have hAt : (List.range' t (n02 - t)).map (GetI SA12 n0) =
        GetI SA12 n0 t :: (List.range' (t + 1) (n02 - (t + 1))).map (GetI SA12 n0) := by
      have : n02 - t = (n02 - (t + 1)) + 1 := by omega
      rw [this, List.range'_succ, List.map_cons]
    have hBp : SA0.drop p = at_index SA0 p :: SA0.drop (p + 1) := by
      rw [List.drop_eq_getElem_cons (by omega), at_index_of_lt (by omega)]
    have hBpw : (SA0.drop p).Pairwise Lt := hB.sublist (List.drop_sublist _ _)
    rw [hAt] at hA
    rw [hBp] at hBpw
    rw [List.pairwise_cons] at hA hBpw
    obtain ⟨hc1, hc2⟩ := hcmp p t hp ht0 ht
    rw [merge_suffixes_succ]
    by_cases hsm : merge_smaller s s12 SA12 SA0 n0 p t = true
    · rw [if_pos hsm]
      have hlt := hc1 hsm
      by_cases hend : t + 1 = n02
      · rw [if_pos hend]
        have hnil : (List.range' (t + 1) (n02 - (t + 1))) = [] := by
          have : n02 - (t + 1) = 0 := by omega
          rw [this]; rfl
        have htake : (SA0.drop p).take (n0 - p) = SA0.drop p := by
          apply List.take_of_length_le
          simp; omega
        rw [htake, hAt, hnil]
        refine ⟨by simp, ?_⟩
        rw [hBp, List.pairwise_cons]
        refine ⟨?_, List.pairwise_cons.2 hBpw⟩
        intro b hb
        rcases List.mem_cons.1 hb with h | h
        · rw [h]; exact hlt
        · exact htrans _ _ _ hlt (hBpw.1 b h)
      · rw [if_neg hend]
        obtain ⟨h1, h2⟩ := ih p (t + 1) hp (by omega) (by omega) (by omega) hA.2
        rw [hAt]
        refine ⟨by simpa using h1, ?_⟩
        rw [List.pairwise_cons]
        refine ⟨?_, h2⟩
        intro b hb
        rcases List.mem_append.1 (h1.mem_iff.1 hb) with h | h
        · exact hA.1 b h
        · rw [hBp] at h
          rcases List.mem_cons.1 h with h' | h'
          · rw [h']; exact hlt
          · exact htrans _ _ _ hlt (hBpw.1 b h')
    · rw [if_neg hsm]
      have hlt := hc2 hsm
      by_cases hend : p + 1 = n0
      · rw [if_pos hend]
        have hnil : SA0.drop (p + 1) = [] := List.drop_eq_nil_of_le (by omega)
        rw [hBp, hnil]
        refine ⟨?_, ?_⟩
        · exact (@List.perm_append_comm _ [at_index SA0 p] _).trans (by simp)
        · rw [List.pairwise_cons]
          refine ⟨?_, by rw [hAt]; exact List.pairwise_cons.2 hA⟩
          intro b hb
          rw [hAt] at hb
          rcases List.mem_cons.1 hb with h | h
          · rw [h]; exact hlt
          · exact htrans _ _ _ hlt (hA.1 b h)
      · rw [if_neg hend]
        obtain ⟨h1, h2⟩ := ih (p + 1) t (by omega) ht0 ht (by omega)
          (by rw [hAt]; exact List.pairwise_cons.2 hA)
        refine ⟨?_, ?_⟩
        · rw [hBp]
          exact (List.Perm.cons _ h1).trans (List.perm_middle.symm)
        · rw [List.pairwise_cons]
          refine ⟨?_, h2⟩
          intro b hb
          rcases List.mem_append.1 (h1.mem_iff.1 hb) with h | h
          · rw [hAt] at h
            rcases List.mem_cons.1 h with h' | h'
            · rw [h']; exact hlt
            · exact htrans _ _ _ hlt (hA.1 b h')
          · exact hBpw.1 b h

end Morph

namespace Morph

/-! ## The comparison of the merge -/

theorem sample_position_mem {n q : Nat} (hq : q < (n + 2) / 3 + n / 3) :
    sample_position ((n + 2) / 3) q ∈ sample_positions n ∧
      sample_index ((n + 2) / 3) (sample_position ((n + 2) / 3) q) = q := by
  unfold sample_position sample_index
  rw [mem_sample_positions]
  split <;> (refine ⟨⟨by omega, by omega⟩, ?_⟩; split <;> omega)

theorem sample_position_index {n x : Nat} (hx : x ∈ sample_positions n) :
    sample_position ((n + 2) / 3) (sample_index ((n + 2) / 3) x) = x := by
  rw [mem_sample_positions] at hx
  unfold sample_position sample_index
  split <;> split <;> omega

theorem rank_lt_iff {s : List Nat} {n : Nat} {R SA : List Nat} (hr : RankOk s n R SA)
    {x y : Nat} (hx : x ∈ sample_positions n) (hy : y ∈ sample_positions n) :
    at_index R (sample_index ((n + 2) / 3) x) < at_index R (sample_index ((n + 2) / 3) y) ↔
      SufLt s n x y := by
  rw [hr.rank _ (sample_index_lt hx), hr.rank _ (sample_index_lt hy), ← hr.order x hx y hy]
  omega

theorem rank_pos {s : List Nat} {n : Nat} {R SA : List Nat} (hr : RankOk s n R SA)
    {x : Nat} (hx : x ∈ sample_positions n) :
    0 < at_index R (sample_index ((n + 2) / 3) x) := by
  rw [hr.rank _ (sample_index_lt hx)]
  omega

/-- The comparison of two ranks decides the order of the suffixes, also when
one of them is the empty suffix behind a text with `n % 3 = 2`. -/
theorem rank_le_iff {s : List Nat} {n K : Nat} {R SA : List Nat} (hs : TextOk s n K)
    (hr : RankOk s n R SA) {a b : Nat}
    (ha : a ∈ sample_positions n ∨ (a = n ∧ n % 3 = 2))
    (hb : b ∈ sample_positions n ∨ (b = n ∧ n % 3 = 2)) (hab : a ≠ b) :
    at_index R (sample_index ((n + 2) / 3) a) ≤ at_index R (sample_index ((n + 2) / 3) b) ↔
      SufLt s n a b := by
  have hend : n % 3 = 2 → sample_index ((n + 2) / 3) n = (n + 2) / 3 + n / 3 := by
    intro h
    unfold sample_index
    rw [if_neg (by omega)]
    omega
  rcases ha with ha | ⟨rfl, hn⟩
  · rcases hb with hb | ⟨rfl, hn⟩
    · have h1 := rank_lt_iff hr ha hb
      have h2 := rank_lt_iff hr hb ha
      have ha' := mem_sample_positions.1 ha
      have hb' := mem_sample_positions.1 hb
      constructor
      · intro hle
        rcases Nat.lt_or_ge (at_index R (sample_index ((n + 2) / 3) a))
          (at_index R (sample_index ((n + 2) / 3) b)) with h | h
        · exact h1.1 h
        · exfalso
          have he : at_index R (sample_index ((n + 2) / 3) a) =
              at_index R (sample_index ((n + 2) / 3) b) := by omega
          rw [hr.rank _ (sample_index_lt ha), hr.rank _ (sample_index_lt hb)] at he
          have hia := List.indexOf_lt_length.2
            (hr.perm.mem_iff.2 (List.mem_range.2 (sample_index_lt ha)))
          have hib := List.indexOf_lt_length.2
            (hr.perm.mem_iff.2 (List.mem_range.2 (sample_index_lt hb)))
          have hga := List.getElem_indexOf hia
          have hgb := List.getElem_indexOf hib
          have he' : List.indexOf (sample_index ((n + 2) / 3) a) SA =
              List.indexOf (sample_index ((n + 2) / 3) b) SA := by omega
          have : sample_index ((n + 2) / 3) a = sample_index ((n + 2) / 3) b := by
            rw [← hga, ← hgb]
            simp only [he']
          exact hab (sample_index_inj ha hb this)
      · intro h
        exact le_of_lt (h1.2 h)
    · have ha' := mem_sample_positions.1 ha
      rw [hend hn, hr.zero _ (le_refl _)]
      have := rank_pos hr ha
      constructor
      · intro h; omega
      · intro h; exact absurd h (not_sufLt_of_ge (le_refl _))
  · rcases hb with hb | ⟨rfl, _⟩
    · have hb' := mem_sample_positions.1 hb
      rw [hend hn, hr.zero _ (le_refl _)]
      exact ⟨fun _ => sufLt_of_ge hs (le_refl _) (by omega), fun _ => Nat.zero_le _⟩
    · exact absurd rfl hab

end Morph

namespace Morph

theorem leq_pairs_iff (a1 a2 b1 b2 : Nat) :
    leq_pairs a1 a2 b1 b2 = true ↔ a1 < b1 ∨ (a1 = b1 ∧ a2 ≤ b2) := by
  simp [leq_pairs]

theorem leq_triples_iff (a1 a2 a3 b1 b2 b3 : Nat) :
    leq_triples a1 a2 a3 b1 b2 b3 = true ↔
      a1 < b1 ∨ (a1 = b1 ∧ (a2 < b2 ∨ (a2 = b2 ∧ a3 ≤ b3))) := by
  simp [leq_triples, leq_pairs]

/-- The comparison of the merge loop decides the order of the two suffixes. -/
theorem merge_smaller_iff {s : List Nat} {n K : Nat} {R SA : List Nat} (hs : TextOk s n K)
    (hr : RankOk s n R SA) (SA12 SA0 : List Nat) (p t q j : Nat)
    (hq : at_index SA12 t = q)
    (hx : sample_position ((n + 2) / 3) q < n)
    (hj : at_index SA0 p = j) (hjn : j < n) (hj0 : j % 3 = 0) :
    merge_smaller s R SA12 SA0 ((n + 2) / 3) p t = true ↔
      SufLt s n (sample_position ((n + 2) / 3) q) j := by
  unfold merge_smaller GetI
  rw [hq, hj]
  by_cases hq0 : q < (n + 2) / 3
  · have hxdef : sample_position ((n + 2) / 3) q = q * 3 + 1 := by
      unfold sample_position; rw [if_pos hq0]
    rw [hxdef] at hx ⊢
    rw [if_pos hq0, if_pos hq0, leq_pairs_iff, sufLt_step hs]
    have e1 : q + (n + 2) / 3 = sample_index ((n + 2) / 3) (q * 3 + 1 + 1) := by
      unfold sample_index
      rw [if_neg (by omega)]
      omega
    have e2 : j / 3 = sample_index ((n + 2) / 3) (j + 1) := by
      unfold sample_index
      rw [if_pos (by omega)]
      omega
    have hrank := rank_le_iff hs hr (a := q * 3 + 1 + 1) (b := j + 1)
      (by
        by_cases h : q * 3 + 1 + 1 = n
        · exact Or.inr ⟨h, by omega⟩
        · exact Or.inl (mem_sample_positions.2 ⟨by omega, by omega⟩))
      (Or.inl (mem_sample_positions.2 ⟨by omega, by omega⟩)) (by omega)
    rw [e1, e2, hrank]
  · have hxdef : sample_position ((n + 2) / 3) q = (q - (n + 2) / 3) * 3 + 2 := by
      unfold sample_position; rw [if_neg hq0]
    rw [hxdef] at hx ⊢
    rw [if_neg hq0, if_neg hq0, leq_triples_iff, sufLt_step hs,
      sufLt_step hs ((q - (n + 2) / 3) * 3 + 2 + 1) (j + 1)]
    by_cases h1 : at_index s ((q - (n + 2) / 3) * 3 + 2 + 1) = at_index s (j + 1)
    · have hx1 := at_index_pos_iff hs ((q - (n + 2) / 3) * 3 + 2 + 1)
      have hj1 := at_index_pos_iff hs (j + 1)
      rw [h1] at hx1
      have hboth : (q - (n + 2) / 3) * 3 + 2 + 1 < n ∧ j + 1 < n := by
        by_cases hz : 0 < at_index s (j + 1)
        · exact ⟨hx1.1 hz, hj1.1 hz⟩
        · exfalso
          have : ¬ (q - (n + 2) / 3) * 3 + 2 + 1 < n := fun hh => hz (hx1.2 hh)
          have : ¬ j + 1 < n := fun hh => hz (hj1.2 hh)
          omega
      have e1 : q - (n + 2) / 3 + 1 =
          sample_index ((n + 2) / 3) ((q - (n + 2) / 3) * 3 + 2 + 1 + 1) := by
        unfold sample_index
        rw [if_pos (by omega)]
        omega
      have e2 : j / 3 + (n + 2) / 3 = sample_index ((n + 2) / 3) (j + 1 + 1) := by
        unfold sample_index
        rw [if_neg (by omega)]
        omega
      have hrank := rank_le_iff hs hr (a := (q - (n + 2) / 3) * 3 + 2 + 1 + 1) (b := j + 1 + 1)
        (Or.inl (mem_sample_positions.2 ⟨by omega, by omega⟩))
        (by
          by_cases h : j + 1 + 1 = n
          · exact Or.inr ⟨h, by omega⟩
          · exact Or.inl (mem_sample_positions.2 ⟨by omega, by omega⟩))
        (by omega)
      rw [e1, e2, hrank]
    · simp only [h1, false_and, or_false]

end Morph

namespace Morph

/-! ## From the suffix array of the names to the ranks -/

theorem rankOk_of_suffix_array {s T : List Nat} {n K K' : Nat} (hs : TextOk s n K)
    (hT : TextOk T ((n + 2) / 3 + n / 3) K') (nm : Nat → Nat)
    (hstored : ∀ x ∈ sample_positions n, at_index T (sample_index ((n + 2) / 3) x) = nm x)
    (horder : ∀ x ∈ sample_positions n, ∀ y ∈ sample_positions n,
      (nm x ≤ nm y ↔ TripleLe s x y))
    (R SA : List Nat) (hSA : IsSuffixArray T ((n + 2) / 3 + n / 3) SA)
    (hrank : ∀ p, p < (n + 2) / 3 + n / 3 → at_index R p = SA.indexOf p + 1)
    (hzero : ∀ p, (n + 2) / 3 + n / 3 ≤ p → at_index R p = 0) : RankOk s n R SA := by
  refine ⟨hSA.1, hrank, hzero, ?_⟩
  intro x hx y hy
  have hmx : sample_index ((n + 2) / 3) x ∈ SA :=
    hSA.1.mem_iff.2 (List.mem_range.2 (sample_index_lt hx))
  have hmy : sample_index ((n + 2) / 3) y ∈ SA :=
    hSA.1.mem_iff.2 (List.mem_range.2 (sample_index_lt hy))
  rw [indexOf_lt_of_sorted hSA.2 (fun a => sufLt_irrefl _ _ a)
    (fun a b h1 h2 => sufLt_asymm h1 h2) hmx hmy]
  exact sample_order hs hT nm hstored horder _ x y hx hy (le_refl _)

/-- The string of names is a text for the next level. -/
theorem names_textOk {s : List Nat} {n : Nat} {s12 T : List Nat} {name : Nat}
    {nm : Nat → Nat} (L : List Nat) (hL : L.Perm (sample_positions n))
    (hinv : NamesInv s ((n + 2) / 3) s12 L name T nm)
    (hs12 : ∀ i, (n + 2) / 3 + n / 3 ≤ i → at_index s12 i = 0) :
    TextOk T ((n + 2) / 3 + n / 3) name := by
  refine ⟨?_, ?_, ?_⟩
  · intro i hi
    obtain ⟨x, hx, rfl⟩ := sample_index_surj hi
    have hxL := hL.mem_iff.2 hx
    rw [hinv.stored x hxL]
    exact (hinv.range x hxL).1
  · intro i hi
    obtain ⟨x, hx, rfl⟩ := sample_index_surj hi
    have hxL := hL.mem_iff.2 hx
    rw [hinv.stored x hxL]
    exact (hinv.range x hxL).2
  · intro i hi
    rw [hinv.frame i]
    · exact hs12 i hi
    · intro x hx
      have := sample_index_lt (hL.mem_iff.1 hx)
      omega

theorem rankOk_of_store_ranks {s T : List Nat} {n K K' : Nat} (hs : TextOk s n K)
    (hT : TextOk T ((n + 2) / 3 + n / 3) K') (nm : Nat → Nat)
    (hstored : ∀ x ∈ sample_positions n, at_index T (sample_index ((n + 2) / 3) x) = nm x)
    (horder : ∀ x ∈ sample_positions n, ∀ y ∈ sample_positions n,
      (nm x ≤ nm y ↔ TripleLe s x y))
    (SA : List Nat) (hSA : IsSuffixArray T ((n + 2) / 3 + n / 3) SA) :
    RankOk s n (store_ranks SA 0 T) SA := by
  have hlen := textOk_length hT
  obtain ⟨_, h2, h3⟩ := store_ranks_spec SA 0 T (hSA.1.nodup_iff.2 (List.nodup_range _))
    (fun p hp => lt_of_lt_of_le (List.mem_range.1 (hSA.1.mem_iff.1 hp)) hlen)
  apply rankOk_of_suffix_array hs hT nm hstored horder _ SA hSA
  · intro p hp
    rw [h2 p (hSA.1.mem_iff.2 (List.mem_range.2 hp))]
    omega
  · intro p hp
    rw [h3 p (fun h => by have := List.mem_range.1 (hSA.1.mem_iff.1 h); omega)]
    exact hT.zero p hp

end Morph

namespace Morph

theorem at_index_take {l : List Nat} {k i : Nat} (h : i < k) :
    at_index (l.take k) i = at_index l i := by
  simp [at_index, List.getD, List.getElem?_take, h]

theorem getElem?_of_at_index {l : List Nat} {k : Nat} (hk : k < l.length) :
    l[k]? = some (at_index l k) := by
  rw [at_index_of_lt hk, List.getElem?_eq_getElem hk]

theorem indexOf_at_index {l : List Nat} (hnd : l.Nodup) {k : Nat} (hk : k < l.length) :
    l.indexOf (at_index l k) = k := by
  rw [at_index_of_lt hk]
  exact List.indexOf_getElem hnd k hk

/-- When the names are unique, `invert_names` gives the suffix array of the
string of names, and the names are the ranks. -/
theorem rankOk_of_invert_names {s T : List Nat} {n K : Nat} (hs : TextOk s n K)
    (hT : TextOk T ((n + 2) / 3 + n / 3) ((n + 2) / 3 + n / 3)) (nm : Nat → Nat)
    (hstored : ∀ x ∈ sample_positions n, at_index T (sample_index ((n + 2) / 3) x) = nm x)
    (horder : ∀ x ∈ sample_positions n, ∀ y ∈ sample_positions n,
      (nm x ≤ nm y ↔ TripleLe s x y))
    (hinj : ∀ p q, p < (n + 2) / 3 + n / 3 → q < (n + 2) / 3 + n / 3 →
      at_index T p = at_index T q → p = q)
    (SA12 : List Nat) (hlen : (n + 2) / 3 + n / 3 ≤ SA12.length) :
    RankOk s n T ((invert_names (T.take ((n + 2) / 3 + n / 3)) 0 SA12).take
        ((n + 2) / 3 + n / 3)) ∧
      (invert_names (T.take ((n + 2) / 3 + n / 3)) 0 SA12).length = SA12.length := by
  generalize hn02 : (n + 2) / 3 + n / 3 = n02 at *
  have hTlen := textOk_length hT
  have hNlen : (T.take n02).length = n02 := by simp; omega
  have hNget : ∀ j (hj : j < (T.take n02).length), (T.take n02)[j] = at_index T j := by
    intro j hj
    rw [← at_index_of_lt hj, at_index_take (by omega)]
  have hNnodup : (T.take n02).Nodup := by
    rw [List.Nodup, List.pairwise_iff_getElem]
    intro i j hi hj hij he
    rw [hNget i hi, hNget j hj] at he
    have := hinj i j (by omega) (by omega) he
    omega
  have hNval : ∀ v ∈ T.take n02, 1 ≤ v ∧ v ≤ SA12.length := by
    intro v hv
    obtain ⟨j, hj, rfl⟩ := List.mem_iff_getElem.1 hv
    rw [hNget j hj]
    have h1 := hT.pos j (by omega)
    have h2 := hT.le j (by omega)
    omega
  obtain ⟨h1, h2, _⟩ := invert_names_spec (T.take n02) 0 SA12 hNnodup hNval
  generalize invert_names (T.take n02) 0 SA12 = R' at h1 h2 ⊢
  have hSAlen : (R'.take n02).length = n02 := by simp; omega
  -- the entry at the index `T p - 1` is `p`
  have hentry : ∀ p, p < n02 → at_index (R'.take n02) (at_index T p - 1) = p := by
    intro p hp
    have hp1 := hT.pos p hp
    have hp2 := hT.le p hp
    rw [at_index_take (by omega)]
    have hmem : at_index T p ∈ T.take n02 := by
      rw [← hNget p (by omega)]
      exact List.getElem_mem _
    rw [h2 _ hmem, Nat.zero_add]
    have := List.indexOf_getElem hNnodup p (by omega)
    rw [hNget p (by omega)] at this
    exact this
  have hperm : (R'.take n02).Perm (List.range n02) := by
    apply perm_range_of_surj _ _ hSAlen
    intro p hp
    have hp1 := hT.pos p hp
    have hp2 := hT.le p hp
    rw [List.mem_iff_getElem?]
    refine ⟨at_index T p - 1, ?_⟩
    rw [getElem?_of_at_index (by omega), hentry p hp]
  have hnodup : (R'.take n02).Nodup := hperm.nodup_iff.2 (List.nodup_range _)
  have hrank : ∀ p, p < n02 → at_index T p = (R'.take n02).indexOf p + 1 := by
    intro p hp
    have hp1 := hT.pos p hp
    have hp2 := hT.le p hp
    have := indexOf_at_index hnodup (k := at_index T p - 1) (by omega)
    rw [hentry p hp] at this
    omega
  have hpw : (R'.take n02).Pairwise (SufLt T n02) := by
    rw [List.pairwise_iff_getElem]
    intro i j hi hj hij
    have hpi : (R'.take n02)[i] < n02 :=
      List.mem_range.1 (hperm.mem_iff.1 (List.getElem_mem _))
    have hpj : (R'.take n02)[j] < n02 :=
      List.mem_range.1 (hperm.mem_iff.1 (List.getElem_mem _))
    have hri := hrank _ hpi
    have hrj := hrank _ hpj
    rw [List.indexOf_getElem hnodup i hi] at hri
    rw [List.indexOf_getElem hnodup j hj] at hrj
    rw [sufLt_step hT]
    exact Or.inl (by omega)
  refine ⟨?_, h1⟩
  subst hn02
  exact rankOk_of_suffix_array hs hT nm hstored horder T _ ⟨hperm, hpw⟩ hrank hT.zero

end Morph

namespace Morph

/-! ## The two sorted halves of the merge -/

theorem filter_lt_range (m k : Nat) (h : k ≤ m) :
    (List.range m).filter (fun x => decide (x < k)) = List.range k := by
  induction m with
  | zero =>
    have : k = 0 := by omega
    subst this
    rfl
  | succ m ih =>
    rw [List.range_succ, List.filter_append]
    by_cases hk : k = m + 1
    · subst hk
      have : (List.range m).filter (fun x => decide (x < m + 1)) = List.range m := by
        apply List.filter_eq_self.2
        intro x hx
        have := List.mem_range.1 hx
        simp; omega
      rw [this, List.range_succ]
      simp
    · rw [ih (by omega)]
      have : ¬ m < k := by omega
      simp [this]

theorem rankOk_pairwise {s : List Nat} {n : Nat} {R SA : List Nat} (hr : RankOk s n R SA) :
    SA.Pairwise (fun p q => SufLt s n (sample_position ((n + 2) / 3) p)
      (sample_position ((n + 2) / 3) q)) := by
  have hnodup : SA.Nodup := hr.perm.nodup_iff.2 (List.nodup_range _)
  rw [List.pairwise_iff_getElem]
  intro i j hi hj hij
  have hpi : SA[i] < (n + 2) / 3 + n / 3 :=
    List.mem_range.1 (hr.perm.mem_iff.1 (List.getElem_mem _))
  have hpj : SA[j] < (n + 2) / 3 + n / 3 :=
    List.mem_range.1 (hr.perm.mem_iff.1 (List.getElem_mem _))
  obtain ⟨hxi, hei⟩ := sample_position_mem hpi
  obtain ⟨hxj, hej⟩ := sample_position_mem hpj
  have := hr.order _ hxi _ hxj
  rw [hei, hej, List.indexOf_getElem hnodup i hi, List.indexOf_getElem hnodup j hj] at this
  exact this.1 hij

/-- The mod 0 suffixes after the radix pass: all of them, sorted. -/
theorem sa0_spec {s : List Nat} {n K : Nat} {R SA : List Nat} (hs : TextOk s n K)
    (hr : RankOk s n R SA) :
    (radixPass ((SA.filter (fun x => decide (x < (n + 2) / 3))).map (fun x => 3 * x))
        (List.replicate ((n + 2) / 3) 0) (fun i => at_index s i) ((n + 2) / 3) K).length =
        (n + 2) / 3 ∧
      (radixPass ((SA.filter (fun x => decide (x < (n + 2) / 3))).map (fun x => 3 * x))
        (List.replicate ((n + 2) / 3) 0) (fun i => at_index s i) ((n + 2) / 3) K).Pairwise
        (SufLt s n) ∧
      (∀ j, j ∈ radixPass ((SA.filter (fun x => decide (x < (n + 2) / 3))).map (fun x => 3 * x))
        (List.replicate ((n + 2) / 3) 0) (fun i => at_index s i) ((n + 2) / 3) K ↔
          j < n ∧ j % 3 = 0) ∧
      (radixPass ((SA.filter (fun x => decide (x < (n + 2) / 3))).map (fun x => 3 * x))
        (List.replicate ((n + 2) / 3) 0) (fun i => at_index s i) ((n + 2) / 3) K).Nodup := by
  have hFperm : (SA.filter (fun x => decide (x < (n + 2) / 3))).Perm (List.range ((n + 2) / 3)) := by
    have := hr.perm.filter (fun x => decide (x < (n + 2) / 3))
    rw [filter_lt_range _ _ (by omega)] at this
    exact this
  generalize hF : SA.filter (fun x => decide (x < (n + 2) / 3)) = F at hFperm ⊢
  have hFsub : F.Sublist SA := by rw [← hF]; exact List.filter_sublist _
  have hFlen : F.length = (n + 2) / 3 := by simpa using hFperm.length_eq
  have hs0len : (F.map (fun x => 3 * x)).length = (n + 2) / 3 := by simpa using hFlen
  have htake : (F.map (fun x => 3 * x)).take ((n + 2) / 3) = F.map (fun x => 3 * x) :=
    List.take_of_length_le (by omega)
  have heq := radixPass_eq (F.map (fun x => 3 * x)) (List.replicate ((n + 2) / 3) 0)
    (fun i => at_index s i) ((n + 2) / 3) K
    (fun x _ => textOk_le_all hs x) (by rw [htake]; simp [hFlen])
  rw [htake, hs0len] at heq
  have hdrop : (List.replicate ((n + 2) / 3) 0).drop ((n + 2) / 3) = [] :=
    List.drop_eq_nil_of_le (by simp)
  rw [hdrop, List.append_nil] at heq
  rw [heq]
  have hperm := bucket_sort_perm (fun i => at_index s i) K (F.map (fun x => 3 * x))
    (fun x _ => textOk_le_all hs x)
  have hmem : ∀ j, j ∈ F.map (fun x => 3 * x) ↔ j < n ∧ j % 3 = 0 := by
    intro j
    rw [List.mem_map]
    constructor
    · rintro ⟨q, hq, rfl⟩
      have := List.mem_range.1 (hFperm.mem_iff.1 hq)
      omega
    · rintro ⟨h1, h2⟩
      exact ⟨j / 3, hFperm.mem_iff.2 (List.mem_range.2 (by omega)), by omega⟩
  have hnodup : (F.map (fun x => 3 * x)).Nodup := by
    apply List.Nodup.map _ (hFperm.nodup_iff.2 (List.nodup_range _))
    intro a b hab
    simp only at hab
    omega
  have hpw0 : (F.map (fun x => 3 * x)).Pairwise (fun a b => SufLt s n (a + 1) (b + 1)) := by
    rw [List.pairwise_map]
    have := (rankOk_pairwise hr).sublist hFsub
    apply this.imp_of_mem
    intro p q hp hq hpq
    have hp' := List.mem_range.1 (hFperm.mem_iff.1 hp)
    have hq' := List.mem_range.1 (hFperm.mem_iff.1 hq)
    unfold sample_position at hpq
    rw [if_pos hp', if_pos hq'] at hpq
    have e1 : 3 * p + 1 = p * 3 + 1 := by omega
    have e2 : 3 * q + 1 = q * 3 + 1 := by omega
    rw [e1, e2]
    exact hpq
  refine ⟨by rw [hperm.length_eq]; exact hs0len, ?_, fun j => by rw [hperm.mem_iff]; exact hmem j,
    hperm.nodup_iff.2 hnodup⟩
  apply (bucket_sort_pairwise (fun i => at_index s i) K _ _ hpw0).imp
  intro a b hab
  rw [sufLt_step hs]
  exact hab

/-- The sample suffixes of the text in `SA12`, behind the dummy: all of them,
sorted. -/
theorem sample_part_spec {s : List Nat} {n : Nat} {R SA : List Nat} (hr : RankOk s n R SA) :
    ((SA.drop ((n + 2) / 3 - (n + 1) / 3)).map (sample_position ((n + 2) / 3))).Pairwise
        (SufLt s n) ∧
      (∀ x, x ∈ (SA.drop ((n + 2) / 3 - (n + 1) / 3)).map (sample_position ((n + 2) / 3)) ↔
        x < n ∧ x % 3 ≠ 0) ∧
      ((SA.drop ((n + 2) / 3 - (n + 1) / 3)).map (sample_position ((n + 2) / 3))).Nodup := by
  have hnodup : SA.Nodup := hr.perm.nodup_iff.2 (List.nodup_range _)
  have hpw := rankOk_pairwise hr
  have hSAmem : ∀ p, p ∈ SA ↔ p < (n + 2) / 3 + n / 3 := fun p => by
    rw [hr.perm.mem_iff, List.mem_range]
  refine ⟨?_, ?_, ?_⟩
  · rw [List.pairwise_map]
    exact hpw.sublist (List.drop_sublist _ _)
  · intro x
    rw [List.mem_map]
    by_cases hn1 : n % 3 = 1
    · -- the first entry is the dummy
      have ht0 : (n + 2) / 3 - (n + 1) / 3 = 1 := by omega
      rw [ht0]
      have hdummy : n ∈ sample_positions n := mem_sample_positions.2 ⟨by omega, by omega⟩
      have hdm : sample_index ((n + 2) / 3) n ∈ SA := (hSAmem _).2 (sample_index_lt hdummy)
      cases hSA : SA with
      | nil => rw [hSA] at hdm; cases hdm
      | cons h rest =>
        rw [hSA] at hdm hpw hnodup
        rw [List.pairwise_cons] at hpw
        rw [List.nodup_cons] at hnodup
        have hh : h = sample_index ((n + 2) / 3) n := by
          rcases List.mem_cons.1 hdm with e | e
          · exact e.symm
          · exfalso
            have := hpw.1 _ e
            rw [sample_position_index hdummy] at this
            exact not_sufLt_of_ge (le_refl _) this
        simp only [List.drop_succ_cons, List.drop_zero]
        constructor
        · rintro ⟨p, hp, rfl⟩
          have hpSA : p ∈ SA := by rw [hSA]; exact List.mem_cons_of_mem _ hp
          obtain ⟨hx, hidx⟩ := sample_position_mem ((hSAmem p).1 hpSA)
          have hx' := mem_sample_positions.1 hx
          have hne : sample_position ((n + 2) / 3) p ≠ n := by
            intro e
            rw [e] at hidx
            rw [hidx] at hh
            exact hnodup.1 (hh ▸ hp)
          omega
        · rintro ⟨h1, h2⟩
          have hx : x ∈ sample_positions n := mem_sample_positions.2 ⟨by omega, h2⟩
          have hm : sample_index ((n + 2) / 3) x ∈ SA := (hSAmem _).2 (sample_index_lt hx)
          rw [hSA] at hm
          refine ⟨sample_index ((n + 2) / 3) x, ?_, sample_position_index hx⟩
          rcases List.mem_cons.1 hm with e | e
          · exfalso
            rw [hh] at e
            have := sample_index_inj hx hdummy e
            omega
          · exact e
    · have ht0 : (n + 2) / 3 - (n + 1) / 3 = 0 := by omega
      rw [ht0, List.drop_zero]
      constructor
      · rintro ⟨p, hp, rfl⟩
        obtain ⟨hx, _⟩ := sample_position_mem ((hSAmem p).1 hp)
        have := mem_sample_positions.1 hx
        omega
      · rintro ⟨h1, h2⟩
        have hx : x ∈ sample_positions n := mem_sample_positions.2 ⟨by omega, h2⟩
        exact ⟨sample_index ((n + 2) / 3) x, (hSAmem _).2 (sample_index_lt hx),
          sample_position_index hx⟩
  · apply List.Nodup.map_on _ (hnodup.sublist (List.drop_sublist _ _))
    intro p hp q hq hpq
    have hp' := (hSAmem p).1 ((List.drop_sublist _ _).subset hp)
    have hq' := (hSAmem q).1 ((List.drop_sublist _ _).subset hq)
    rw [← (sample_position_mem hp').2, ← (sample_position_mem hq').2, hpq]

end Morph

namespace Morph

theorem at_index_append_left {l tail : List Nat} {i : Nat} (h : i < l.length) :
    at_index (l ++ tail) i = at_index l i := by
  simp [at_index, List.getD, List.getElem?_append_left h]

/-- The merge of the sorted sample suffixes with the sorted mod 0 suffixes is
the suffix array. -/
theorem merge_stage_spec {s : List Nat} {n K : Nat} {R SA : List Nat} (hs : TextOk s n K)
    (hn : 2 ≤ n) (hr : RankOk s n R SA) (tail SA0 : List Nat)
    (hlen0 : SA0.length = (n + 2) / 3) (hpw0 : SA0.Pairwise (SufLt s n))
    (hmem0 : ∀ j, j ∈ SA0 ↔ j < n ∧ j % 3 = 0) (hnd0 : SA0.Nodup) :
    IsSuffixArray s n
      (merge_suffixes s R (SA ++ tail) SA0 ((n + 2) / 3) ((n + 2) / 3 + n / 3) n 0
        ((n + 2) / 3 - (n + 1) / 3)) := by
  have hSAlen : SA.length = (n + 2) / 3 + n / 3 := by simpa using hr.perm.length_eq
  obtain ⟨hApw, hAmem, hAnd⟩ := sample_part_spec hr
  have hAeq : (List.range' ((n + 2) / 3 - (n + 1) / 3)
      ((n + 2) / 3 + n / 3 - ((n + 2) / 3 - (n + 1) / 3))).map
        (GetI (SA ++ tail) ((n + 2) / 3)) =
      (SA.drop ((n + 2) / 3 - (n + 1) / 3)).map (sample_position ((n + 2) / 3)) := by
    rw [← range'_map_at_index SA (sample_position ((n + 2) / 3))
      ((n + 2) / 3 + n / 3 - ((n + 2) / 3 - (n + 1) / 3)) _ (by omega)]
    apply List.map_congr_left
    intro i hi
    have hi' := (List.mem_range'_1.1 hi).2
    show sample_position ((n + 2) / 3) (at_index (SA ++ tail) i) = _
    rw [at_index_append_left (by omega)]
  have hentry : ∀ t, (n + 2) / 3 - (n + 1) / 3 ≤ t → t < (n + 2) / 3 + n / 3 →
      at_index (SA ++ tail) t < (n + 2) / 3 + n / 3 ∧
      sample_position ((n + 2) / 3) (at_index (SA ++ tail) t) < n ∧
      sample_position ((n + 2) / 3) (at_index (SA ++ tail) t) % 3 ≠ 0 := by
    intro t ht0 ht
    rw [at_index_append_left (by omega), at_index_of_lt (by omega)]
    have hm : SA[t] ∈ SA.drop ((n + 2) / 3 - (n + 1) / 3) := by
      rw [List.mem_iff_getElem?]
      refine ⟨t - ((n + 2) / 3 - (n + 1) / 3), ?_⟩
      rw [List.getElem?_drop, List.getElem?_eq_getElem (by omega)]
      congr 2
      omega
    have := (hAmem _).1 (List.mem_map_of_mem _ hm)
    exact ⟨List.mem_range.1 (hr.perm.mem_iff.1 (List.getElem_mem _)), this.1, this.2⟩
  obtain ⟨h1, h2⟩ := merge_suffixes_spec s R (SA ++ tail) SA0 ((n + 2) / 3)
    ((n + 2) / 3 + n / 3) ((n + 2) / 3 - (n + 1) / 3) (SufLt s n)
    (fun a b c h1 h2 => sufLt_trans h1 h2) hlen0 hpw0
    (by
      intro p t hp ht0 ht
      obtain ⟨_, hx, hx3⟩ := hentry t ht0 ht
      have hj := (hmem0 (at_index SA0 p)).1 (by
        rw [at_index_of_lt (by omega)]
        exact List.getElem_mem _)
      have hiff := merge_smaller_iff hs hr (SA ++ tail) SA0 p t _ _ rfl hx rfl hj.1 hj.2
      have hG : GetI (SA ++ tail) ((n + 2) / 3) t =
          sample_position ((n + 2) / 3) (at_index (SA ++ tail) t) := rfl
      rw [hG]
      refine ⟨fun h => hiff.1 h, fun h => ?_⟩
      rcases sufLt_total hs (i := sample_position ((n + 2) / 3) (at_index (SA ++ tail) t))
        (j := at_index SA0 p) (by omega) (Or.inl hx) with h' | h'
      · exact absurd (hiff.2 h') h
      · exact h')
    n 0 ((n + 2) / 3 - (n + 1) / 3) (by omega) (le_refl _) (by omega) (by omega)
    (by rw [hAeq]; exact hApw)
  rw [hAeq, List.drop_zero] at h1
  refine ⟨h1.trans ?_, h2⟩
  rw [List.perm_ext_iff_of_nodup _ (List.nodup_range n)]
  · intro x
    rw [List.mem_append, hAmem, hmem0, List.mem_range]
    omega
  · rw [List.nodup_append]
    refine ⟨hAnd, hnd0, ?_⟩
    intro x hx hx0
    have := (hAmem x).1 hx
    have := (hmem0 x).1 hx0
    omega

end Morph

namespace Morph

/-! ## `suffix_array` -/

theorem sample_positions_def (n : Nat) :
    List.filter (fun i => decide (i % 3 ≠ 0)) (List.range (n + ((n + 2) / 3 - (n + 1) / 3))) =
      sample_positions n := rfl

theorem at_index_append_zeros {l : List Nat} {i : Nat} (h : l.length ≤ i) :
    at_index (l ++ [0, 0, 0]) i = 0 := by
  have hget : at_index (l ++ [0, 0, 0]) i = ([0, 0, 0] : List Nat)[i - l.length]?.getD 0 := by
    simp [at_index, List.getD, List.getElem?_append_right h]
  rw [hget]
  rcases Nat.lt_or_ge (i - l.length) 3 with h3 | h3
  · have : i - l.length = 0 ∨ i - l.length = 1 ∨ i - l.length = 2 := by omega
    rcases this with e | e | e <;> rw [e] <;> rfl
  · rw [List.getElem?_eq_none (by simpa using h3)]
    rfl

/-- The three radix passes leave the sorted triples in `SA12` and the result of
the second pass in `s12`, each with its three zeros. -/
theorem three_passes {s : List Nat} {n K : Nat} (hs : TextOk s n K) :
    radixPass
        (radixPass
          (radixPass (sample_positions n ++ [0, 0, 0])
            (List.replicate ((n + 2) / 3 + n / 3 + 3) 0) (fun i => at_index s (i + 2))
            ((n + 2) / 3 + n / 3) K)
          (sample_positions n ++ [0, 0, 0]) (fun i => at_index s (i + 1))
          ((n + 2) / 3 + n / 3) K)
        (radixPass (sample_positions n ++ [0, 0, 0])
          (List.replicate ((n + 2) / 3 + n / 3 + 3) 0) (fun i => at_index s (i + 2))
          ((n + 2) / 3 + n / 3) K)
        (fun i => at_index s i) ((n + 2) / 3 + n / 3) K =
      sorted_triples s n K ++ [0, 0, 0] ∧
    radixPass
        (radixPass (sample_positions n ++ [0, 0, 0])
          (List.replicate ((n + 2) / 3 + n / 3 + 3) 0) (fun i => at_index s (i + 2))
          ((n + 2) / 3 + n / 3) K)
        (sample_positions n ++ [0, 0, 0]) (fun i => at_index s (i + 1))
        ((n + 2) / 3 + n / 3) K =
      bucket_sort (fun i => at_index s (i + 1)) K
        (bucket_sort (fun i => at_index s (i + 2)) K (sample_positions n)) ++ [0, 0, 0] := by
  have hlen := sample_positions_length n
  have hk : ∀ (d : Nat) (L : List Nat), ∀ x ∈ L, (fun i => at_index s (i + d)) x ≤ K :=
    fun d L x _ => textOk_le_all hs _
  have htake : ∀ (L : List Nat), L.length = (n + 2) / 3 + n / 3 →
      (L ++ [0, 0, 0]).take ((n + 2) / 3 + n / 3) = L := fun L hL => List.take_left' hL
  have hdrop : ∀ (L : List Nat), L.length = (n + 2) / 3 + n / 3 →
      (L ++ [0, 0, 0]).drop ((n + 2) / 3 + n / 3) = [0, 0, 0] := fun L hL => List.drop_left' hL
  have hrep : (List.replicate ((n + 2) / 3 + n / 3 + 3) 0).drop ((n + 2) / 3 + n / 3) =
      [0, 0, 0] := by
    rw [List.drop_replicate]
    have : (n + 2) / 3 + n / 3 + 3 - ((n + 2) / 3 + n / 3) = 3 := by omega
    rw [this]
    rfl
  have e1 : radixPass (sample_positions n ++ [0, 0, 0])
      (List.replicate ((n + 2) / 3 + n / 3 + 3) 0) (fun i => at_index s (i + 2))
      ((n + 2) / 3 + n / 3) K =
      bucket_sort (fun i => at_index s (i + 2)) K (sample_positions n) ++ [0, 0, 0] := by
    rw [radixPass_eq _ _ _ _ _ (by rw [htake _ hlen]; exact hk 2 _)
      (by rw [htake _ hlen]; simp; omega), htake _ hlen, hlen, hrep]
  have hlen2 : (bucket_sort (fun i => at_index s (i + 2)) K (sample_positions n)).length =
      (n + 2) / 3 + n / 3 := by
    rw [bucket_sort_length _ _ _ (hk 2 _), hlen]
  have e2 : radixPass
      (bucket_sort (fun i => at_index s (i + 2)) K (sample_positions n) ++ [0, 0, 0])
      (sample_positions n ++ [0, 0, 0]) (fun i => at_index s (i + 1))
      ((n + 2) / 3 + n / 3) K =
      bucket_sort (fun i => at_index s (i + 1)) K
        (bucket_sort (fun i => at_index s (i + 2)) K (sample_positions n)) ++ [0, 0, 0] := by
    rw [radixPass_eq _ _ _ _ _ (by rw [htake _ hlen2]; exact hk 1 _)
      (by rw [htake _ hlen2]; simp; omega), htake _ hlen2, hlen2, hdrop _ hlen]
  have hlen1 : (bucket_sort (fun i => at_index s (i + 1)) K
      (bucket_sort (fun i => at_index s (i + 2)) K (sample_positions n))).length =
      (n + 2) / 3 + n / 3 := by
    rw [bucket_sort_length _ _ _ (hk 1 _), hlen2]
  have e3 : radixPass
      (bucket_sort (fun i => at_index s (i + 1)) K
        (bucket_sort (fun i => at_index s (i + 2)) K (sample_positions n)) ++ [0, 0, 0])
      (bucket_sort (fun i => at_index s (i + 2)) K (sample_positions n) ++ [0, 0, 0])
      (fun i => at_index s i) ((n + 2) / 3 + n / 3) K =
      sorted_triples s n K ++ [0, 0, 0] := by
    rw [radixPass_eq _ _ _ _ _ (by rw [htake _ hlen1]; exact fun x _ => textOk_le_all hs _)
      (by rw [htake _ hlen1]; simp; omega), htake _ hlen1, hlen1, hdrop _ hlen2]
    rfl
  rw [e1, e2, e3]
  exact ⟨rfl, rfl⟩

end Morph

namespace Morph

/-- The naming loop on the sorted triples. -/
theorem naming_stage {s : List Nat} {n K : Nat} (hs : TextOk s n K) (s12 : List Nat)
    (hs12len : s12.length = (n + 2) / 3 + n / 3 + 3) :
    ∃ nm, NamesInv s ((n + 2) / 3) s12 (sorted_triples s n K)
      (name_triples s ((n + 2) / 3) (sorted_triples s n K) 0 (-1) (-1) (-1) s12).1
      (name_triples s ((n + 2) / 3) (sorted_triples s n K) 0 (-1) (-1) (-1) s12).2 nm := by
  have hperm := sorted_triples_perm hs
  apply name_triples_spec s ((n + 2) / 3) (sorted_triples s n K) s12
    (sorted_triples_pairwise s n K) (hperm.nodup_iff.2 (sample_positions_nodup n))
    (fun x hx => by
      have := sample_index_lt (hperm.mem_iff.1 hx)
      omega)
    (fun x hx y hy h => sample_index_inj (hperm.mem_iff.1 hx) (hperm.mem_iff.1 hy) h)
    (sorted_triples s n K) [] 0 (-1) (-1) (-1) s12 (fun _ => 0) rfl
  · exact ⟨fun x hx => (by cases hx), fun x hx => (by cases hx), fun x hx => (by cases hx),
      le_refl _, fun _ x hx => (by cases hx), rfl, fun _ _ => rfl⟩
  · exact ⟨rfl, rfl, rfl, rfl⟩

/-- `suffix_array` returns the suffix array of its text. -/
theorem suffix_array_spec :
    ∀ (fuel : Nat) (s : List Nat) (n K : Nat), TextOk s n K → 2 ≤ n → n ≤ fuel →
      IsSuffixArray s n (suffix_array fuel s n K) := by
  intro fuel
  induction fuel with
  | zero => intro s n K _ hn hf; omega
  | succ fuel ih =>
    intro s n K hs hn hf
    obtain ⟨e3, e2⟩ := three_passes hs
    have hperm := sorted_triples_perm hs
    have hsortedlen : (sorted_triples s n K).length = (n + 2) / 3 + n / 3 := by
      rw [hperm.length_eq, sample_positions_length]
    have hs12len : (bucket_sort (fun i => at_index s (i + 1)) K
        (bucket_sort (fun i => at_index s (i + 2)) K (sample_positions n)) ++
          [0, 0, 0]).length = (n + 2) / 3 + n / 3 + 3 := by
      rw [List.length_append, bucket_sort_length _ _ _ (fun x _ => textOk_le_all hs _),
        bucket_sort_length _ _ _ (fun x _ => textOk_le_all hs _), sample_positions_length]
      rfl
    obtain ⟨nm, hinv⟩ := naming_stage hs _ hs12len
    rw [suffix_array, sample_positions_def, e3, e2, List.take_left' hsortedlen]
    generalize name_triples s ((n + 2) / 3) (sorted_triples s n K) 0 (-1) (-1) (-1)
      (bucket_sort (fun i => at_index s (i + 1)) K
        (bucket_sort (fun i => at_index s (i + 2)) K (sample_positions n)) ++ [0, 0, 0]) = r
      at hinv ⊢
    obtain ⟨name, T⟩ := r
    simp only at hinv ⊢
    have hstored : ∀ x ∈ sample_positions n,
        at_index T (sample_index ((n + 2) / 3) x) = nm x :=
      fun x hx => hinv.stored x (hperm.mem_iff.2 hx)
    have horder : ∀ x ∈ sample_positions n, ∀ y ∈ sample_positions n,
        (nm x ≤ nm y ↔ TripleLe s x y) :=
      fun x hx y hy => hinv.order x (hperm.mem_iff.2 hx) y (hperm.mem_iff.2 hy)
    have hT : TextOk T ((n + 2) / 3 + n / 3) name :=
      names_textOk _ hperm hinv (fun i hi => at_index_append_zeros (by
        rw [bucket_sort_length _ _ _ (fun x _ => textOk_le_all hs _),
          bucket_sort_length _ _ _ (fun x _ => textOk_le_all hs _), sample_positions_length]
        exact hi))
    have hname1 : 1 ≤ name := by
      have h0 : 0 < (n + 2) / 3 + n / 3 := by omega
      have := hT.pos 0 h0
      have := hT.le 0 h0
      omega
    by_cases hname : name < (n + 2) / 3 + n / 3
    · -- the names are not unique: recursion
      rw [if_pos hname]
      simp only
      have hrec := ih T ((n + 2) / 3 + n / 3) name hT (by omega) (by omega)
      have hreclen : (suffix_array fuel T ((n + 2) / 3 + n / 3) name).length =
          (n + 2) / 3 + n / 3 := by simpa using hrec.1.length_eq
      rw [List.take_left' hreclen]
      have hr := rankOk_of_store_ranks hs hT nm hstored horder _ hrec
      obtain ⟨h1, h2, h3, h4⟩ := sa0_spec hs hr
      exact merge_stage_spec hs hn hr [0, 0, 0] _ h1 h2 h3 h4
    · -- the names are unique
      rw [if_neg hname]
      simp only
      have hcount := hinv.count
      rw [hsortedlen] at hcount
      have hname_eq : name = (n + 2) / 3 + n / 3 := by omega
      have huniq := hinv.unique (by rw [hsortedlen]; exact hname_eq)
      have hinj : ∀ p q, p < (n + 2) / 3 + n / 3 → q < (n + 2) / 3 + n / 3 →
          at_index T p = at_index T q → p = q := by
        intro p q hp hq hpq
        obtain ⟨x, hx, rfl⟩ := sample_index_surj hp
        obtain ⟨y, hy, rfl⟩ := sample_index_surj hq
        rw [hstored x hx, hstored y hy] at hpq
        rw [huniq x (hperm.mem_iff.2 hx) y (hperm.mem_iff.2 hy) hpq]
      have hT' : TextOk T ((n + 2) / 3 + n / 3) ((n + 2) / 3 + n / 3) := by
        have := hT
        rw [hname_eq] at this
        exact this
      obtain ⟨hr, _⟩ := rankOk_of_invert_names hs hT' nm hstored horder hinj
        (sorted_triples s n K ++ [0, 0, 0]) (by simp [hsortedlen])
      obtain ⟨h1, h2, h3, h4⟩ := sa0_spec hs hr
      have := merge_stage_spec hs hn hr
        ((invert_names (T.take ((n + 2) / 3 + n / 3)) 0
          (sorted_triples s n K ++ [0, 0, 0])).drop ((n + 2) / 3 + n / 3)) _ h1 h2 h3 h4
      rw [List.take_append_drop] at this
      exact this

end Morph

namespace Morph

/-! ## `text_to_suffix_array` -/

theorem int_text_ok (text : Bytes) (hbytes : ∀ b ∈ text, 0 < b ∧ b < 256) :
    TextOk (int_text_for_suffix_array text) text.length (2 ^ 8) := by
  unfold int_text_for_suffix_array
  refine ⟨?_, ?_, ?_⟩
  · intro i hi
    rw [at_index_append_left hi, at_index_of_lt hi]
    exact (hbytes _ (List.getElem_mem _)).1
  · intro i hi
    rw [at_index_append_left hi, at_index_of_lt hi]
    have := (hbytes _ (List.getElem_mem hi)).2
    omega
  · intro i hi
    exact at_index_append_zeros hi

theorem suffix_at_int_text (text : Bytes) (i : Nat) :
    suffix_at (int_text_for_suffix_array text) text.length i = text.drop i := by
  unfold suffix_at int_text_for_suffix_array
  rw [List.take_left' rfl]

theorem bytes_le_refl : ∀ (u : Bytes), bytes_le u u := by
  intro u
  induction u with
  | nil => trivial
  | cons a u ih => exact Or.inr ⟨rfl, ih⟩

/-- `text_to_suffix_array` on a text without zero bytes whose size fits
`int32_t`: the positions of the text, each once, in ascending order of the
suffixes. -/
theorem text_to_suffix_array_spec (text : Bytes) (hbytes : ∀ b ∈ text, 0 < b ∧ b < 256)
    (hsize : text.length + 2 < 2 ^ 31) :
    ∃ SA, text_to_suffix_array text = some SA ∧ SA.Perm (List.range text.length) ∧
      SA.Pairwise (fun p q => bytes_lt (text.drop p) (text.drop q)) := by
  unfold text_to_suffix_array
  by_cases h2 : text.length < 2
  · rw [if_pos h2]
    by_cases h0 : text.length > 0
    · have h1 : text.length = 1 := by omega
      rw [if_pos h0, h1]
      exact ⟨[0], rfl, List.Perm.refl _, List.pairwise_singleton _ _⟩
    · have h1 : text.length = 0 := by omega
      rw [if_neg h0, h1]
      exact ⟨[], rfl, List.Perm.refl _, List.Pairwise.nil⟩
  · rw [if_neg h2, if_pos hsize]
    obtain ⟨hperm, hpw⟩ := suffix_array_spec text.length (int_text_for_suffix_array text)
      text.length (2 ^ 8) (int_text_ok text hbytes) (by omega) (le_refl _)
    refine ⟨_, rfl, hperm, ?_⟩
    apply hpw.imp
    intro p q hpq
    unfold SufLt at hpq
    rw [suffix_at_int_text, suffix_at_int_text] at hpq
    exact hpq

end Morph

namespace Morph

/-! ## `word_has_known_prefix` -/

theorem wcsncmp_eq_zero_iff :
    ∀ (s a : List Label), (∀ b ∈ s, b ≠ 0) → (wcsncmp s a s.length = 0 ↔ a.take s.length = s) := by
  intro s
  induction s with
  | nil => intro a _; simp [wcsncmp]
  | cons c s ih =>
    intro a hs
    have hc : c ≠ 0 := hs c (List.mem_cons_self _ _)
    have hs' : ∀ b ∈ s, b ≠ 0 := fun b hb => hs b (List.mem_cons_of_mem _ hb)
    cases a with
    | nil =>
      simp only [List.length_cons, wcsncmp, List.headD_cons, List.headD_nil, ne_eq, hc,
        not_false_eq_true, if_true, List.take_nil]
      constructor
      · intro h; exfalso; split at h <;> omega
      · intro h; cases h
    | cons d a =>
      simp only [List.length_cons, wcsncmp, List.headD_cons, List.tail_cons, List.take_succ_cons,
        List.cons.injEq]
      by_cases hcd : c = d
      · subst hcd
        simp only [ne_eq, not_true_eq_false, if_false, hc, true_and]
        exact ih a hs'
      · simp only [ne_eq, hcd, not_false_eq_true, if_true]
        constructor
        · intro h; exfalso; split at h <;> omega
        · intro h; exact absurd h.1.symm hcd

/-- The loop of `word_has_known_prefix` answers `true` only for a head that is
a known prefix or starts with one whose remainder `again` accepts. -/
theorem known_prefixes_loop_true (again : List Label → Nat → Option Bool) (word : List Label)
    (prefix_size : Nat) :
    ∀ (l : List (List Label)), (∀ p ∈ l, ∀ c ∈ p, c ≠ 0) →
      known_prefixes_loop again word prefix_size l = some true →
      ∃ p ∈ l, word.take p.length = p ∧
        (p.length = prefix_size ∨
          (p.length < prefix_size ∧ again (word.drop p.length) (prefix_size - p.length) = some true))
    := by
  intro l
  induction l with
  | nil => intro _ h; simp [known_prefixes_loop] at h
  | cons t rest ih =>
    intro hz h
    have ht : ∀ c ∈ t, c ≠ 0 := hz t (List.mem_cons_self _ _)
    have hrest : ∀ p ∈ rest, ∀ c ∈ p, c ≠ 0 := fun p hp => hz p (List.mem_cons_of_mem _ hp)
    have hnext : known_prefixes_loop again word prefix_size rest = some true →
        ∃ p ∈ t :: rest, word.take p.length = p ∧
          (p.length = prefix_size ∨
            (p.length < prefix_size ∧
              again (word.drop p.length) (prefix_size - p.length) = some true)) := by
      intro h'
      obtain ⟨p, hp, hq⟩ := ih hrest h'
      exact ⟨p, List.mem_cons_of_mem _ hp, hq⟩
    simp only [known_prefixes_loop] at h
    by_cases heq : t.length = prefix_size
    · rw [if_pos heq] at h
      by_cases hc : wcsncmp t word t.length = 0
      · exact ⟨t, List.mem_cons_self _ _, (wcsncmp_eq_zero_iff t word ht).1 hc, Or.inl heq⟩
      · rw [if_neg hc] at h
        exact hnext h
    · rw [if_neg heq] at h
      by_cases hlt : t.length < prefix_size
      · rw [if_pos hlt] at h
        by_cases hc : wcsncmp t word t.length = 0
        · rw [if_pos hc] at h
          exact ⟨t, List.mem_cons_self _ _, (wcsncmp_eq_zero_iff t word ht).1 hc, Or.inr ⟨hlt, h⟩⟩
        · rw [if_neg hc] at h
          exact hnext h
      · rw [if_neg hlt] at h
        exact hnext h

/-- When `word_has_known_prefix` answers `true`, the head of the word is a
concatenation of known prefixes. -/
theorem word_has_known_prefix_sound (known_prefixes : List (List Label))
    (hz : ∀ p ∈ known_prefixes, ∀ c ∈ p, c ≠ 0) :
    ∀ (fuel : Nat) (word : List Label) (prefix_size : Nat), prefix_size ≤ word.length →
      word_has_known_prefix fuel word prefix_size known_prefixes = some true →
      concat_of_known known_prefixes (word.take prefix_size) := by
  intro fuel
  induction fuel with
  | zero => intro word k _ h; simp [ word_has_known_prefix] at h
  | succ fuel ih =>
    intro word k hk h
    simp only [ word_has_known_prefix] at h
    obtain ⟨p, hp, htake, hcase⟩ := known_prefixes_loop_true _ word k known_prefixes hz h
    rcases hcase with heq | ⟨hlt, hrec⟩
    · refine ⟨[p], by simp, ?_, ?_⟩
      · intro q hq; rw [List.mem_singleton.1 hq]; exact hp
      · rw [← heq, htake]; simp
    · obtain ⟨parts, hne, hall, hjoin⟩ := ih (word.drop p.length) (k - p.length)
        (by rw [List.length_drop]; omega) hrec
      refine ⟨p :: parts, by simp, ?_, ?_⟩
      · intro q hq
        rcases List.mem_cons.1 hq with rfl | hq
        · exact hp
        · exact hall q hq
      · rw [List.flatten_cons, hjoin]
        have hsplit : word.take k = word.take p.length ++ (word.drop p.length).take (k - p.length) := by
          have hk' : k = p.length + (k - p.length) := by omega
          conv_lhs => rw [hk', List.take_add]
        rw [hsplit, htake]

/-- The loop returns when `again` does. -/
theorem known_prefixes_loop_returns (again : List Label → Nat → Option Bool) (word : List Label)
    (prefix_size : Nat)
    (hagain : ∀ w p, p < prefix_size → ∃ b, again w p = some b) :
    ∀ (l : List (List Label)), (∀ p ∈ l, p ≠ []) →
      ∃ b, known_prefixes_loop again word prefix_size l = some b := by
  intro l
  induction l with
  | nil => intro _; exact ⟨false, rfl⟩
  | cons t rest ih =>
    intro hne
    have ht : 0 < t.length := List.length_pos.2 (hne t (List.mem_cons_self _ _))
    have hrest := ih (fun p hp => hne p (List.mem_cons_of_mem _ hp))
    simp only [known_prefixes_loop]
    by_cases heq : t.length = prefix_size
    · rw [if_pos heq]
      by_cases hc : wcsncmp t word t.length = 0
      · rw [if_pos hc]; exact ⟨true, rfl⟩
      · rw [if_neg hc]; exact hrest
    · rw [if_neg heq]
      by_cases hlt : t.length < prefix_size
      · rw [if_pos hlt]
        by_cases hc : wcsncmp t word t.length = 0
        · rw [if_pos hc]
          exact hagain _ _ (by omega)
        · rw [if_neg hc]; exact hrest
      · rw [if_neg hlt]; exact hrest

/-- With non-empty known prefixes, `word_has_known_prefix` returns: the
recursion is no deeper than the size of the head. -/
theorem word_has_known_prefix_returns (known_prefixes : List (List Label))
    (hne : ∀ p ∈ known_prefixes, p ≠ []) :
    ∀ (fuel : Nat) (word : List Label) (prefix_size : Nat), prefix_size < fuel →
      ∃ b, word_has_known_prefix fuel word prefix_size known_prefixes = some b := by
  intro fuel
  induction fuel with
  | zero => intro word k hk; omega
  | succ fuel ih =>
    intro word k hk
    simp only [ word_has_known_prefix]
    apply known_prefixes_loop_returns _ word k _ known_prefixes hne
    intro w p hp
    exact ih w p (by omega)

end Morph

namespace Morph

/-! ## `detect_language` -/

theorem mini_common_prefix_loop_le (automat : MiniAutomat) :
    ∀ (word : List Label) (prefix_size last_state p q : Nat),
      mini_common_prefix_loop automat word prefix_size last_state = some (p, q) →
      p ≤ prefix_size + word.length := by
  intro word
  induction word with
  | nil =>
    intro prefix_size last_state p q h
    simp only [mini_common_prefix_loop, Option.some.injEq, Prod.mk.injEq] at h
    simp only [List.length_nil]; omega
  | cons c word ih =>
    intro prefix_size last_state p q h
    simp only [mini_common_prefix_loop, Option.bind_eq_bind] at h
    obtain ⟨t, _, h⟩ := Option.bind_eq_some.1 h
    cases t with
    | none =>
      simp only [Option.some.injEq, Prod.mk.injEq] at h
      simp only [List.length_cons]; omega
    | some target =>
      have := ih _ _ _ _ h
      simp only [List.length_cons]; omega

theorem wcssubreverse_loop_length :
    ∀ (fuel : Nat) (buffer : List Label) (start stop : Nat),
      (wcssubreverse_loop fuel buffer start stop).length = buffer.length := by
  intro fuel
  induction fuel with
  | zero => intro buffer start stop; rfl
  | succ fuel ih =>
    intro buffer start stop
    simp only [wcssubreverse_loop]
    split
    · rw [ih]; simp
    · simp

theorem wcssubreverse_length (buffer : List Label) (start stop : Nat) :
    (wcssubreverse buffer start stop).length = buffer.length := by
  unfold wcssubreverse
  split
  · exact wcssubreverse_loop_length _ _ _ _
  · rfl

/-- The known part of a word is no longer than the word. -/
theorem known_part_of_word_le (automat : MiniAutomat) (word : List Label) (word_length m : Nat)
    (h : known_part_of_word automat word word_length = some m) : m ≤ word_length := by
  simp only [known_part_of_word, mini_common_prefix_size, mini_common_prefix,
    Option.bind_eq_bind, Option.pure_def] at h
  obtain ⟨⟨p, q⟩, h1, h2⟩ := Option.bind_eq_some.1 h
  obtain ⟨_, _, h1⟩ := Option.bind_eq_some.1 h1
  have hle := mini_common_prefix_loop_le _ _ _ _ _ _ h1
  rw [wcssubreverse_length, List.length_take] at hle
  simp only [Option.some.injEq] at h2
  omega

theorem getElem?_append_single_lt {α : Type} (l : List α) (a : α) (j : Nat) (x : α)
    (h : (l ++ [a])[j]? = some x) : (j < l.length ∧ l[j]? = some x) ∨ (j = l.length ∧ x = a) := by
  by_cases hj : j < l.length
  · rw [List.getElem?_append_left hj] at h
    exact Or.inl ⟨hj, h⟩
  · rw [List.getElem?_append_right (by omega)] at h
    right
    have hlen : j - l.length < 1 := by
      by_contra hc
      rw [List.getElem?_eq_none (by simp; omega)] at h
      cases h
    have h0 : j - l.length = 0 := by omega
    rw [h0] at h
    simp only [List.getElem?_cons_zero, Option.some.injEq] at h
    exact ⟨by omega, h.symm⟩

/-- The loop of `detect_language`: a returned language knows at least as many
characters as every language, and more than every earlier one. -/
theorem detect_language_loop_spec (word : List Label) (word_length : Nat) :
    ∀ (languages seen : List MiniAutomat) (max_known : Nat) (result : Option Nat) (r : Nat),
      DetectInv word word_length seen max_known result →
      detect_language_loop word word_length languages seen.length max_known result
        = some (some r) →
      ∃ L k, (seen ++ languages)[r]? = some L ∧
        known_part_of_word L word word_length = some k ∧
        ∀ j M m, (seen ++ languages)[j]? = some M →
          known_part_of_word M word word_length = some m → m ≤ k ∧ (m = k → r ≤ j) := by
  intro languages
  induction languages with
  | nil =>
    intro seen max_known result r hinv h
    simp only [detect_language_loop, Option.some.injEq] at h
    obtain ⟨L, hL, hk, hbest⟩ := hinv.best r h
    refine ⟨L, max_known, by simpa using hL, hk, ?_⟩
    intro j M m hM hm
    rw [List.append_nil] at hM
    refine ⟨(hinv.le j M m hM hm).1, ?_⟩
    intro hmk
    by_contra hlt
    have := hbest j M m (by omega) hM hm
    omega
  | cons language languages ih =>
    intro seen max_known result r hinv h
    simp only [detect_language_loop, Option.bind_eq_bind] at h
    obtain ⟨known_length, hknown, h⟩ := Option.bind_eq_some.1 h
    have hcons : seen ++ language :: languages = (seen ++ [language]) ++ languages := by simp
    have hlen : (seen ++ [language]).length = seen.length + 1 := by simp
    by_cases hfull : known_length = word_length
    · rw [if_pos hfull] at h
      simp only [Option.some.injEq] at h
      subst h
      refine ⟨language, known_length,
        by rw [List.getElem?_append_right (le_refl _)]; simp, hknown, ?_⟩
      intro j M m hM hm
      refine ⟨by have := known_part_of_word_le _ _ _ _ hm; omega, ?_⟩
      intro hmk
      by_contra hlt
      rw [List.getElem?_append_left (by omega)] at hM
      exact (hinv.le j M m hM hm).2 (by omega)
    · rw [if_neg hfull] at h
      by_cases hgt : known_length > max_known
      · rw [if_pos hgt, ← hlen] at h
        rw [hcons]
        refine ih (seen ++ [language]) known_length (some seen.length) r ?_ h
        refine ⟨?_, ?_⟩
        · intro j M m hM hm
          rcases getElem?_append_single_lt _ _ _ _ hM with ⟨_, hM'⟩ | ⟨_, rfl⟩
          · have := hinv.le j M m hM' hm
            exact ⟨by omega, this.2⟩
          · rw [hknown] at hm
            simp only [Option.some.injEq] at hm
            omega
        · intro r' hr'
          simp only [Option.some.injEq] at hr'
          subst hr'
          refine ⟨language, by simp, hknown, ?_⟩
          intro j M m hj hM hm
          rw [List.getElem?_append_left hj] at hM
          have := hinv.le j M m hM hm
          omega
      · rw [if_neg hgt, ← hlen] at h
        rw [hcons]
        refine ih (seen ++ [language]) max_known result r ?_ h
        refine ⟨?_, ?_⟩
        · intro j M m hM hm
          rcases getElem?_append_single_lt _ _ _ _ hM with ⟨_, hM'⟩ | ⟨_, rfl⟩
          · exact hinv.le j M m hM' hm
          · rw [hknown] at hm
            simp only [Option.some.injEq] at hm
            omega
        · intro r' hr'
          obtain ⟨L, hL, hk, hbest⟩ := hinv.best r' hr'
          have hr'lt : r' < seen.length := by
            by_contra hc
            rw [List.getElem?_eq_none (by omega)] at hL
            cases hL
          refine ⟨L, by rw [List.getElem?_append_left hr'lt]; exact hL, hk, ?_⟩
          intro j M m hj hM hm
          rw [List.getElem?_append_left (by omega)] at hM
          exact hbest j M m hj hM hm

end Morph

namespace Morph

namespace HashTable

variable {α : Type}

/-! ## The hash table: lookup -/

theorem link_entry_of_heap (table : HashTable α) (p : Nat) (record : hash_table_chain_link α)
    (h : table.heap p = some record) : link_entry table p = (record.key, record.value) := by
  simp [link_entry, h]

/-- Along links of the table, `hash_table_get_link` finds the link of the key
and answers `NULL` when there is none. -/
theorem hash_table_get_link_spec (table : HashTable α) (hok : TableOk table) (key : Bytes) :
    ∀ (ring : List Nat), (∀ p ∈ ring, p ∈ table.added) →
      ((∀ p ∈ ring, (link_entry table p).1 ≠ key) →
        hash_table_get_link table key (hash_of_key key) ring = some none) ∧
      (∀ p ∈ ring, (link_entry table p).1 = key →
        hash_table_get_link table key (hash_of_key key) ring = some (some p)) := by
  intro ring
  induction ring with
  | nil =>
    intro _
    exact ⟨fun _ => rfl, fun p hp => by cases hp⟩
  | cons q ring ih =>
    intro hmem
    have hq : q ∈ table.added := hmem q (List.mem_cons_self _ _)
    obtain ⟨record, hrec, hhash, hsize⟩ := hok.links q hq
    have hentry := link_entry_of_heap table q record hrec
    have ih' := ih (fun p hp => hmem p (List.mem_cons_of_mem _ hp))
    have hcond : (record.hash = hash_of_key key ∧ record.key_size = key.length ∧
        record.key.take key.length = key) ↔ record.key = key := by
      constructor
      · rintro ⟨_, h2, h3⟩
        rw [← h3, ← h2, hsize, List.take_length]
      · intro h
        subst h
        exact ⟨hhash, hsize, List.take_length _⟩
    constructor
    · intro hne
      have hkq : record.key ≠ key := by
        have := hne q (List.mem_cons_self _ _)
        rw [hentry] at this
        exact this
      simp only [hash_table_get_link, hrec, Option.bind_eq_bind, Option.some_bind]
      rw [if_neg (fun h => hkq (hcond.1 h))]
      exact ih'.1 (fun p hp => hne p (List.mem_cons_of_mem _ hp))
    · intro p hp hkey
      simp only [hash_table_get_link, hrec, Option.bind_eq_bind, Option.some_bind]
      by_cases hkq : record.key = key
      · rw [if_pos (hcond.2 hkq)]
        have hpq : p = q := by
          apply hok.keys p (hmem p hp) q hq
          rw [hkey, hentry, hkq]
        rw [hpq]
      · rw [if_neg (fun h => hkq (hcond.1 h))]
        rcases List.mem_cons.1 hp with rfl | hp'
        · exfalso
          rw [hentry] at hkey
          exact hkq hkey
        · exact ih'.2 p hp' hkey

/-- The ring of the cell of a key: the search in it finds the link of the key,
wherever the link is in the list of insertion. -/
theorem hash_table_get_link_cell (table : HashTable α) (hok : TableOk table) (key : Bytes) :
    ∃ ring, table.bucket[BUCKET_INDEX (hash_of_key key) table.size]? = some ring ∧
      ((∀ p ∈ table.added, (link_entry table p).1 ≠ key) →
        hash_table_get_link table key (hash_of_key key) ring = some none) ∧
      (∀ p ∈ table.added, (link_entry table p).1 = key →
        hash_table_get_link table key (hash_of_key key) ring = some (some p)) := by
  have hlt : BUCKET_INDEX (hash_of_key key) table.size < table.bucket.length := by
    rw [hok.bucket_length]
    exact Nat.mod_lt _ hok.size_pos
  refine ⟨table.bucket[BUCKET_INDEX (hash_of_key key) table.size], List.getElem?_eq_getElem hlt,
    ?_⟩
  obtain ⟨_, hring⟩ := hok.rings _ _ (List.getElem?_eq_getElem hlt)
  have hspec := hash_table_get_link_spec table hok key _ (fun p hp => ((hring p).1 hp).1)
  refine ⟨fun hne => hspec.1 (fun p hp => hne p ((hring p).1 hp).1), ?_⟩
  intro p hp hkey
  exact hspec.2 p ((hring p).2 ⟨hp, by rw [hkey]⟩) hkey

theorem lookup_of_not_mem (key : Bytes) :
    ∀ (l : List (Bytes × Option α)), (∀ e ∈ l, e.1 ≠ key) → lookup key l = none := by
  intro l
  induction l with
  | nil => intro _; rfl
  | cons e l ih =>
    intro h
    obtain ⟨k, v⟩ := e
    have hk : k ≠ key := h (k, v) (List.mem_cons_self _ _)
    simp only [lookup, if_neg hk]
    exact ih (fun e he => h e (List.mem_cons_of_mem _ he))

theorem lookup_of_mem (key : Bytes) (v : Option α) :
    ∀ (l : List (Bytes × Option α)), (key, v) ∈ l →
      (∀ e ∈ l, e.1 = key → e = (key, v)) → lookup key l = v := by
  intro l
  induction l with
  | nil => intro h; cases h
  | cons e l ih =>
    intro hmem huniq
    obtain ⟨k, w⟩ := e
    by_cases hk : k = key
    · have := huniq (k, w) (List.mem_cons_self _ _) hk
      simp only [Prod.mk.injEq] at this
      simp only [lookup, if_pos hk, this.2]
    · simp only [lookup, if_neg hk]
      rcases List.mem_cons.1 hmem with h | h
      · simp only [Prod.mk.injEq] at h
        exact absurd h.1.symm hk
      · exact ih h (fun e he => huniq e (List.mem_cons_of_mem _ he))

/-- `hash_table_chain_get` returns the value stored with the key, `NULL` when
the key is not stored. -/
theorem hash_table_chain_get_spec (table : HashTable α) (hok : TableOk table) (key : Bytes) :
    hash_table_chain_get table key = some (lookup key (entries table)) := by
  obtain ⟨ring, hring, hnone, hsome⟩ := hash_table_get_link_cell table hok key
  simp only [hash_table_chain_get, hring, Option.bind_eq_bind, Option.some_bind]
  by_cases hstored : ∃ p ∈ table.added, (link_entry table p).1 = key
  · obtain ⟨p, hp, hkey⟩ := hstored
    rw [hsome p hp hkey]
    obtain ⟨record, hrec, _, _⟩ := hok.links p hp
    simp only [Option.some_bind, hrec, Option.pure_def, Option.some.injEq]
    have hentry := link_entry_of_heap table p record hrec
    rw [hentry] at hkey
    simp only at hkey
    symm
    apply lookup_of_mem
    · rw [entries, List.mem_map]
      exact ⟨p, hp, by rw [hentry, hkey]⟩
    · intro e he hek
      rw [entries, List.mem_map] at he
      obtain ⟨q, hq, rfl⟩ := he
      have hqp : q = p := hok.keys q hq p hp (by rw [hek, hentry, hkey])
      rw [hqp, hentry, hkey]
  · have hne : ∀ p ∈ table.added, (link_entry table p).1 ≠ key :=
      fun p hp hkey => hstored ⟨p, hp, hkey⟩
    rw [hnone hne]
    simp only [Option.some_bind, Option.pure_def, Option.some.injEq]
    symm
    apply lookup_of_not_mem
    intro e he
    rw [entries, List.mem_map] at he
    obtain ⟨q, hq, rfl⟩ := he
    exact hne q hq

end HashTable

end Morph

namespace Morph

namespace HashTable

variable {α : Type}

/-! ## The hash table: dropping a link -/

theorem erase_of_head {l : List Nat} {p : Nat} (h : l.head? = some p) : l.erase p = l.tail := by
  cases l with
  | nil => cases h
  | cons a l =>
    simp only [List.head?_cons, Option.some.injEq] at h
    subst h
    simp

theorem link_entry_congr (t t' : HashTable α) (q : Nat) (h : t'.heap q = t.heap q) :
    link_entry t' q = link_entry t q := by
  simp [link_entry, h]

/-- `drop_table_chain_link` on a link of the table, with the cell of its key:
the link leaves the list of insertion and its ring, everything else stays. -/
theorem drop_table_chain_link_spec (t : HashTable α) (hok : TableOk t) (p : Nat)
    (hp : p ∈ t.added) :
    ∃ t', drop_table_chain_link t p (BUCKET_INDEX (hash_of_key (link_entry t p).1) t.size)
        = some (t', (link_entry t p).2) ∧
      TableOk t' ∧ t'.added = t.added.erase p ∧ (∀ q, q ≠ p → t'.heap q = t.heap q) ∧
      t'.size = t.size ∧ t'.fifo_limit = t.fifo_limit ∧ t'.on_push_out = t.on_push_out ∧
      t'.pushed_out = t.pushed_out ∧ t'.allocated = t.allocated := by
  obtain ⟨record, hrec, hhash, hsize⟩ := hok.links p hp
  have hentry := link_entry_of_heap t p record hrec
  generalize hb : BUCKET_INDEX (hash_of_key (link_entry t p).1) t.size = b
  have hblt : b < t.bucket.length := by
    rw [← hb, hok.bucket_length]
    exact Nat.mod_lt _ hok.size_pos
  obtain ⟨ring, hring⟩ : ∃ ring, t.bucket[b]? = some ring :=
    ⟨_, List.getElem?_eq_getElem hblt⟩
  obtain ⟨hrnodup, hrmem⟩ := hok.rings b _ hring
  have hlen : 1 ≤ t.added.length := List.length_pos_of_mem hp
  have hlt := hok.total_lt
  -- the three branches agree on the ring
  have ht1 : ∃ t1 : HashTable α,
      (if ring.head? = some p then
        if ring.tail = [] then
          { t with
              bucket := t.bucket.set b [],
              load := (t.load + 2 ^ 64 - 1) % 2 ^ 64 }
        else { t with bucket := t.bucket.set b ring.tail }
      else { t with bucket := t.bucket.set b (ring.erase p) }) = t1 ∧
      t1.bucket = t.bucket.set b (ring.erase p) ∧ t1.heap = t.heap ∧
      t1.added = t.added ∧ t1.size = t.size ∧ t1.total_stored = t.total_stored ∧
      t1.fifo_limit = t.fifo_limit ∧ t1.on_push_out = t.on_push_out ∧
      t1.pushed_out = t.pushed_out ∧ t1.allocated = t.allocated := by
    by_cases hhead : ring.head? = some p
    · by_cases htail : ring.tail = []
      · rw [if_pos hhead, if_pos htail]
        exact ⟨_, rfl, by rw [erase_of_head hhead, htail], rfl, rfl, rfl, rfl, rfl, rfl, rfl, rfl⟩
      · rw [if_pos hhead, if_neg htail]
        exact ⟨_, rfl, by rw [erase_of_head hhead], rfl, rfl, rfl, rfl, rfl, rfl, rfl, rfl⟩
    · rw [if_neg hhead]
      exact ⟨_, rfl, rfl, rfl, rfl, rfl, rfl, rfl, rfl, rfl, rfl⟩
  obtain ⟨t1, ht1eq, hb1, hh1, ha1, hs1, htot1, hf1, ho1, hp1, hal1⟩ := ht1
  obtain ⟨t2, ht2eq, hb2, hh2, ha2, hs2, htot2, hf2, ho2, hp2, hal2⟩ :
      ∃ t2 : HashTable α,
        { t1 with
          added := t1.added.erase p,
          heap := fun q => if q = p then none else t1.heap q,
          total_stored := (t1.total_stored + 2 ^ 64 - 1) % 2 ^ 64 } = t2 ∧
        t2.bucket = t.bucket.set b (ring.erase p) ∧
        (∀ q, t2.heap q = if q = p then none else t.heap q) ∧
        t2.added = t.added.erase p ∧ t2.size = t.size ∧
        t2.total_stored = (t.total_stored + 2 ^ 64 - 1) % 2 ^ 64 ∧
        t2.fifo_limit = t.fifo_limit ∧ t2.on_push_out = t.on_push_out ∧
        t2.pushed_out = t.pushed_out ∧ t2.allocated = t.allocated :=
    ⟨_, rfl, hb1, fun q => by simp only [hh1], by simp only [ha1], hs1, by simp only [htot1],
      hf1, ho1, hp1, hal1⟩
  have hheap : ∀ q, q ≠ p → t2.heap q = t.heap q := by
    intro q hq
    rw [hh2, if_neg hq]
  have hentry2 : ∀ q, q ≠ p → link_entry t2 q = link_entry t q :=
    fun q hq => link_entry_congr _ _ q (hheap q hq)
  have hmem_erase : ∀ q, q ∈ t.added.erase p ↔ q ∈ t.added ∧ q ≠ p := by
    intro q
    rw [hok.nodup.mem_erase_iff]
    exact and_comm
  refine ⟨t2, ?_, ?_, ha2, hheap, hs2, hf2, ho2, hp2, hal2⟩
  · simp only [drop_table_chain_link, hrec, hring, Option.bind_eq_bind, Option.some_bind,
      Option.pure_def, hentry, ht1eq, ht2eq]
  · refine ⟨by rw [hs2]; exact hok.size_pos, ?_, ?_, ?_, ?_, ?_, ?_, ?_, ?_⟩
    · rw [hb2, List.length_set, hs2]; exact hok.bucket_length
    · rw [ha2]; exact hok.nodup.erase p
    · intro q hq
      rw [ha2] at hq
      rw [hal2]
      exact hok.alloc q ((hmem_erase q).1 hq).1
    · intro q hq
      rw [ha2] at hq
      obtain ⟨hq1, hq2⟩ := (hmem_erase q).1 hq
      rw [hheap q hq2]
      exact hok.links q hq1
    · intro q hq q' hq' hkey
      rw [ha2] at hq hq'
      obtain ⟨hq1, hq2⟩ := (hmem_erase q).1 hq
      obtain ⟨hq1', hq2'⟩ := (hmem_erase q').1 hq'
      rw [hentry2 q hq2, hentry2 q' hq2'] at hkey
      exact hok.keys q hq1 q' hq1' hkey
    · intro i ring' hi
      rw [hb2] at hi
      rw [hs2, ha2]
      by_cases hib : i = b
      · subst hib
        rw [List.getElem?_set_self hblt] at hi
        simp only [Option.some.injEq] at hi
        subst hi
        refine ⟨hrnodup.erase p, ?_⟩
        intro q
        rw [hrnodup.mem_erase_iff, hmem_erase, hrmem q]
        constructor
        · rintro ⟨hqp, hq, hidx⟩
          exact ⟨⟨hq, hqp⟩, by rw [hentry2 q hqp]; exact hidx⟩
        · rintro ⟨⟨hq, hqp⟩, hidx⟩
          exact ⟨hqp, hq, by rw [hentry2 q hqp] at hidx; exact hidx⟩
      · rw [List.getElem?_set_ne (fun h => hib h.symm)] at hi
        obtain ⟨hn, hm⟩ := hok.rings i ring' hi
        refine ⟨hn, ?_⟩
        intro q
        rw [hm q, hmem_erase]
        constructor
        · rintro ⟨hq, hidx⟩
          have hqp : q ≠ p := by
            rintro rfl
            exact hib (hidx.symm.trans hb)
          exact ⟨⟨hq, hqp⟩, by rw [hentry2 q hqp]; exact hidx⟩
        · rintro ⟨⟨hq, hqp⟩, hidx⟩
          exact ⟨hq, by rw [hentry2 q hqp] at hidx; exact hidx⟩
    · rw [htot2, ha2, hok.total, List.length_erase_of_mem hp]
      omega
    · rw [ha2, List.length_erase_of_mem hp]
      omega

end HashTable

end Morph

namespace Morph

namespace HashTable

variable {α : Type}

/-! ## The hash table: the FIFO limit -/

theorem ensure_fifo_limit_step (fuel : Nat) (t : HashTable α) (p : Nat)
    (record : hash_table_chain_link α) (hhead : t.added.head? = some p)
    (hrec : t.heap p = some record) (hcb : t.on_push_out = true)
    (hcond : t.fifo_limit ≠ NO_FIFO_LIMIT ∧ t.total_stored ≥ t.fifo_limit) :
    ensure_fifo_limit (fuel + 1) t =
      (drop_table_chain_link
        { t with
          pushed_out := t.pushed_out ++ [(record.key, record.key_size, record.value)] }
        p (BUCKET_INDEX (hash_of_key record.key) t.size)).bind
        (fun r => ensure_fifo_limit fuel r.1) := by
  rw [ensure_fifo_limit, if_pos hcond]
  simp only [hhead, Option.bind_eq_bind, Option.some_bind, hrec]
  rw [hcb]
  rfl

/-- `ensure_fifo_limit` on a table with a limit of at least one: the oldest
links are dropped, in order and each after a call of `on_push_out`, until
fewer than `fifo_limit` are left. -/
theorem ensure_fifo_limit_spec :
    ∀ (fuel : Nat) (t : HashTable α), TableOk t → t.on_push_out = true →
      t.fifo_limit < NO_FIFO_LIMIT → 1 ≤ t.fifo_limit → t.added.length < fuel →
      ∃ t', ensure_fifo_limit fuel t = some t' ∧ TableOk t' ∧
        t'.added = t.added.drop (t.added.length + 1 - t.fifo_limit) ∧
        (∀ q ∈ t'.added, t'.heap q = t.heap q) ∧ t'.size = t.size ∧
        t'.fifo_limit = t.fifo_limit ∧ t'.on_push_out = true ∧ t'.allocated = t.allocated ∧
        t'.pushed_out = t.pushed_out ++
          (t.added.take (t.added.length + 1 - t.fifo_limit)).map (pushed t) := by
  intro fuel
  induction fuel with
  | zero => intro t _ _ _ _ h; omega
  | succ fuel ih =>
    intro t hok hcb hlim hone hfuel
    by_cases hfull : t.total_stored ≥ t.fifo_limit
    · have hlen : t.fifo_limit ≤ t.added.length := by rw [← hok.total]; exact hfull
      obtain ⟨p, rest, hadded⟩ : ∃ p rest, t.added = p :: rest := by
        cases h : t.added with
        | nil => rw [h] at hlen; simp at hlen; omega
        | cons p rest => exact ⟨p, rest, rfl⟩
      have hp : p ∈ t.added := by rw [hadded]; exact List.mem_cons_self _ _
      obtain ⟨record, hrec, _, hsize⟩ := hok.links p hp
      have hentry := link_entry_of_heap t p record hrec
      -- the table with the call noted
      obtain ⟨t0, ht0, hok0, hh0, ha0, hs0, hf0, ho0, hp0, hal0⟩ :
          ∃ t0 : HashTable α,
            { t with
              pushed_out := t.pushed_out ++ [(record.key, record.key_size, record.value)] }
              = t0 ∧
            TableOk t0 ∧ t0.heap = t.heap ∧ t0.added = t.added ∧ t0.size = t.size ∧
            t0.fifo_limit = t.fifo_limit ∧ t0.on_push_out = t.on_push_out ∧
            t0.pushed_out = t.pushed_out ++ [pushed t p] ∧ t0.allocated = t.allocated := by
        refine ⟨_, rfl, ?_, rfl, rfl, rfl, rfl, rfl, ?_, rfl⟩
        · exact ⟨hok.size_pos, hok.bucket_length, hok.nodup, hok.alloc, hok.links, hok.keys,
            hok.rings, hok.total, hok.total_lt⟩
        · simp only [pushed, hentry, hsize]
      have hentry0 : link_entry t0 p = link_entry t p := link_entry_congr _ _ p (by rw [hh0])
      obtain ⟨t1, hdrop, hok1, ha1, hh1, hs1, hf1, ho1, hp1, hal1⟩ :=
        drop_table_chain_link_spec t0 hok0 p (by rw [ha0]; exact hp)
      have ha1' : t1.added = rest := by
        rw [ha1, ha0, hadded, List.erase_cons_head]
      have hpr : p ∉ rest := by
        have := hok.nodup
        rw [hadded] at this
        exact (List.nodup_cons.1 this).1
      obtain ⟨t', hrun, hok', ha', hh', hs', hf', ho', hal', hp'⟩ :=
        ih t1 hok1 (by rw [ho1, ho0]; exact hcb) (by rw [hf1, hf0]; exact hlim)
          (by rw [hf1, hf0]; exact hone)
          (by rw [ha1']; rw [hadded] at hfuel; simp only [List.length_cons] at hfuel; omega)
      have hdropeq : t.added.length + 1 - t.fifo_limit =
          (rest.length + 1 - t.fifo_limit) + 1 := by
        rw [hadded] at hlen ⊢
        simp only [List.length_cons] at hlen ⊢
        omega
      refine ⟨t', ?_, hok', ?_, ?_, ?_, ?_, ho', ?_, ?_⟩
      · rw [ensure_fifo_limit_step fuel t p record (by rw [hadded]; rfl) hrec hcb
          ⟨Nat.ne_of_lt hlim, hfull⟩, ht0]
        rw [hentry0, hentry, hs0] at hdrop
        rw [hdrop]
        exact hrun
      · rw [ha', ha1', hf1, hf0, hdropeq, hadded, List.drop_succ_cons]
      · intro q hq
        have hq1 : q ∈ t1.added := by
          rw [ha'] at hq
          exact List.mem_of_mem_drop hq
        have hqp : q ≠ p := by
          rintro rfl
          rw [ha1'] at hq1
          exact hpr hq1
        rw [hh' q hq, hh1 q hqp, hh0]
      · rw [hs', hs1, hs0]
      · rw [hf', hf1, hf0]
      · rw [hal', hal1, hal0]
      · rw [hp', hp1, hp0, ha1', hf1, hf0, hdropeq, hadded, List.take_succ_cons, List.map_cons,
          List.append_assoc, List.singleton_append]
        congr 2
        apply List.map_congr_left
        intro q hq
        have hq' : q ∈ rest := List.mem_of_mem_take hq
        have hqp : q ≠ p := by
          rintro rfl
          exact hpr hq'
        have : link_entry t1 q = link_entry t q :=
          link_entry_congr _ _ q (by rw [hh1 q hqp, hh0])
        simp only [pushed, this]
    · have hlen : t.added.length < t.fifo_limit := by rw [← hok.total]; omega
      have hzero : t.added.length + 1 - t.fifo_limit = 0 := by omega
      refine ⟨t, ?_, hok, ?_, fun _ _ => rfl, rfl, rfl, hcb, rfl, ?_⟩
      · rw [ensure_fifo_limit, if_neg (fun h => hfull h.2)]
      · rw [hzero, List.drop_zero]
      · rw [hzero, List.take_zero, List.map_nil, List.append_nil]

end HashTable

end Morph

namespace Morph

namespace HashTable

variable {α : Type}

/-! ## The hash table: a new link -/

/-- A table that differs from a good table by one new link for a new key, put at
the head of the ring of its cell and at the end of the list of insertion, is
good, and stores the pairs of the old table followed by the new pair. -/
theorem tableOk_insert (t1 t4 : HashTable α) (hok : TableOk t1) (key : Bytes)
    (value : Option α) (ring1 : List Nat)
    (hnew : ∀ p ∈ t1.added, (link_entry t1 p).1 ≠ key)
    (hroom : t1.added.length + 1 < 2 ^ 64)
    (hring1 : t1.bucket[BUCKET_INDEX (hash_of_key key) t1.size]? = some ring1)
    (hheap : ∀ p, t4.heap p = if p = t1.allocated then
      some { value := value, key := key, key_size := key.length, hash := hash_of_key key }
      else t1.heap p)
    (hbucket : t4.bucket =
      t1.bucket.set (BUCKET_INDEX (hash_of_key key) t1.size) (t1.allocated :: ring1))
    (hadded : t4.added = t1.added ++ [t1.allocated])
    (htotal : t4.total_stored = (t1.total_stored + 1) % 2 ^ 64)
    (hsize : t4.size = t1.size) (halloc : t4.allocated = t1.allocated + 1) :
    TableOk t4 ∧ entries t4 = entries t1 ++ [(key, value)] := by
  have hfresh : t1.allocated ∉ t1.added := fun h => Nat.lt_irrefl _ (hok.alloc _ h)
  have hold : ∀ p ∈ t1.added, link_entry t4 p = link_entry t1 p := by
    intro p hp
    apply link_entry_congr
    rw [hheap, if_neg]
    rintro rfl
    exact hfresh hp
  have hlink : link_entry t4 t1.allocated = (key, value) :=
    link_entry_of_heap t4 t1.allocated
      { value := value, key := key, key_size := key.length, hash := hash_of_key key }
      (by rw [hheap, if_pos rfl])
  have hmem : ∀ p, p ∈ t4.added ↔ p ∈ t1.added ∨ p = t1.allocated := by
    intro p
    rw [hadded, List.mem_append, List.mem_singleton]
  have hblt : BUCKET_INDEX (hash_of_key key) t1.size < t1.bucket.length := by
    rw [hok.bucket_length]
    exact Nat.mod_lt _ hok.size_pos
  constructor
  · refine ⟨by rw [hsize]; exact hok.size_pos, ?_, ?_, ?_, ?_, ?_, ?_, ?_, ?_⟩
    · rw [hbucket, List.length_set, hsize]; exact hok.bucket_length
    · rw [hadded]
      apply List.Nodup.append hok.nodup (List.nodup_singleton _)
      intro p hp hp'
      rw [List.mem_singleton] at hp'
      subst hp'
      exact hfresh hp
    · intro p hp
      rw [halloc]
      rcases (hmem p).1 hp with h | rfl
      · have := hok.alloc p h; omega
      · omega
    · intro p hp
      rcases (hmem p).1 hp with h | rfl
      · obtain ⟨record, h1, h2, h3⟩ := hok.links p h
        refine ⟨record, ?_, h2, h3⟩
        rw [hheap, if_neg]
        · exact h1
        · rintro rfl
          exact hfresh h
      · exact ⟨_, by rw [hheap, if_pos rfl], rfl, rfl⟩
    · intro p hp q hq hkey
      rcases (hmem p).1 hp with hp' | rfl
      · rcases (hmem q).1 hq with hq' | rfl
        · rw [hold p hp', hold q hq'] at hkey
          exact hok.keys p hp' q hq' hkey
        · rw [hold p hp', hlink] at hkey
          exact absurd hkey (hnew p hp')
      · rcases (hmem q).1 hq with hq' | rfl
        · rw [hold q hq', hlink] at hkey
          exact absurd hkey.symm (hnew q hq')
        · rfl
    · intro i ring hi
      rw [hbucket] at hi
      rw [hsize]
      by_cases hib : i = BUCKET_INDEX (hash_of_key key) t1.size
      · subst hib
        rw [List.getElem?_set_self hblt] at hi
        simp only [Option.some.injEq] at hi
        subst hi
        obtain ⟨hn, hm⟩ := hok.rings _ _ hring1
        refine ⟨List.nodup_cons.2 ⟨fun h => hfresh ((hm _).1 h).1, hn⟩, ?_⟩
        intro p
        rw [List.mem_cons, hmem, hm p]
        constructor
        · rintro (rfl | ⟨hp, hidx⟩)
          · exact ⟨Or.inr rfl, by rw [hlink]⟩
          · exact ⟨Or.inl hp, by rw [hold p hp]; exact hidx⟩
        · rintro ⟨hp | rfl, hidx⟩
          · exact Or.inr ⟨hp, by rw [hold p hp] at hidx; exact hidx⟩
          · exact Or.inl rfl
      · rw [List.getElem?_set_ne (fun h => hib h.symm)] at hi
        obtain ⟨hn, hm⟩ := hok.rings i ring hi
        refine ⟨hn, ?_⟩
        intro p
        rw [hm p, hmem]
        constructor
        · rintro ⟨hp, hidx⟩
          exact ⟨Or.inl hp, by rw [hold p hp]; exact hidx⟩
        · rintro ⟨hp | rfl, hidx⟩
          · exact ⟨hp, by rw [hold p hp] at hidx; exact hidx⟩
          · rw [hlink] at hidx
            exact absurd hidx.symm hib
    · rw [htotal, hadded, hok.total, List.length_append, List.length_singleton]
      exact Nat.mod_eq_of_lt hroom
    · rw [hadded, List.length_append, List.length_singleton]
      exact hroom
  · rw [entries, entries, hadded, List.map_append, List.map_singleton, hlink]
    congr 1
    exact List.map_congr_left hold

end HashTable

end Morph

namespace Morph

namespace HashTable

variable {α : Type}

/-! ## The hash table: `hash_table_chain_put` -/

/-- `hash_table_chain_put` with a key that is not stored, on a table with a
callback and a limit of at least one: the oldest pairs leave until fewer
than `fifo_limit` are stored, then the new pair is added as the newest. -/
theorem hash_table_chain_put_new (t : HashTable α) (hok : TableOk t)
    (hcb : t.on_push_out = true) (hlim : t.fifo_limit < NO_FIFO_LIMIT) (hone : 1 ≤ t.fifo_limit)
    (key : Bytes) (value : Option α) (hnew : ∀ p ∈ t.added, (link_entry t p).1 ≠ key) :
    ∃ t', hash_table_chain_put t key value = some t' ∧ TableOk t' ∧
      entries t' = (entries t).drop (t.added.length + 1 - t.fifo_limit) ++ [(key, value)] ∧
      t'.fifo_limit = t.fifo_limit ∧ t'.on_push_out = true ∧ t'.size = t.size ∧
      t'.pushed_out = t.pushed_out ++
        (t.added.take (t.added.length + 1 - t.fifo_limit)).map (pushed t) := by
  obtain ⟨ring, hring, hnone, _⟩ := hash_table_get_link_cell t hok key
  have hfind := hnone hnew
  obtain ⟨t1, hens, hok1, ha1, hh1, hs1, hf1, ho1, hal1, hp1⟩ :=
    ensure_fifo_limit_spec (t.total_stored + 1) t hok hcb hlim hone (by rw [hok.total]; omega)
  have hsub : ∀ p ∈ t1.added, p ∈ t.added := by
    intro p hp
    rw [ha1] at hp
    exact List.mem_of_mem_drop hp
  have hentry1 : ∀ p ∈ t1.added, link_entry t1 p = link_entry t p :=
    fun p hp => link_entry_congr _ _ p (hh1 p hp)
  have hnew1 : ∀ p ∈ t1.added, (link_entry t1 p).1 ≠ key := by
    intro p hp
    rw [hentry1 p hp]
    exact hnew p (hsub p hp)
  have hroom : t1.added.length + 1 < 2 ^ 64 := by
    rw [ha1, List.length_drop]
    have : t.fifo_limit < 2 ^ 64 - 1 := hlim
    omega
  have hblt : BUCKET_INDEX (hash_of_key key) t1.size < t1.bucket.length := by
    rw [hok1.bucket_length]
    exact Nat.mod_lt _ hok1.size_pos
  obtain ⟨ring1, hring1⟩ : ∃ ring1, t1.bucket[BUCKET_INDEX (hash_of_key key) t1.size]? = some ring1 :=
    ⟨_, List.getElem?_eq_getElem hblt⟩
  have hring1' : t1.bucket[BUCKET_INDEX (hash_of_key key) t.size]? = some ring1 := by
    rw [← hs1]; exact hring1
  have hgetD : t1.bucket.getD (BUCKET_INDEX (hash_of_key key) t.size) [] = ring1 := by
    rw [List.getD_eq_getElem?_getD, hring1']; rfl
  have hentries1 : entries t1 = (entries t).drop (t.added.length + 1 - t.fifo_limit) := by
    rw [entries, entries, ← List.map_drop, ← ha1]
    exact List.map_congr_left hentry1
  have hrun : ∃ t4, hash_table_chain_put t key value = some t4 ∧
      (∀ p, t4.heap p = if p = t1.allocated then
        some { value := value, key := key, key_size := key.length, hash := hash_of_key key }
        else t1.heap p) ∧
      t4.bucket =
        t1.bucket.set (BUCKET_INDEX (hash_of_key key) t1.size) (t1.allocated :: ring1) ∧
      t4.added = t1.added ++ [t1.allocated] ∧
      t4.total_stored = (t1.total_stored + 1) % 2 ^ 64 ∧
      t4.size = t1.size ∧ t4.allocated = t1.allocated + 1 ∧ t4.fifo_limit = t1.fifo_limit ∧
      t4.on_push_out = t1.on_push_out ∧ t4.pushed_out = t1.pushed_out := by
    simp only [hash_table_chain_put, hash_table_get_always, hring, hfind, hens, hring1',
      Option.bind_eq_bind, Option.some_bind, make_chain_link, Option.pure_def, hgetD]
    by_cases hempty : ring1 = []
    · simp only [if_pos hempty, if_true, Option.some_bind, Option.some.injEq, exists_eq_left']
      refine ⟨?_, ?_⟩
      · intro p
        by_cases hp : p = t1.allocated
        · simp only [if_pos hp]
        · simp only [if_neg hp]
      · simp [hring1', hs1]
    · simp only [if_neg hempty, if_true, Option.some_bind, Option.some.injEq, exists_eq_left']
      refine ⟨?_, ?_⟩
      · intro p
        by_cases hp : p = t1.allocated
        · simp only [if_pos hp]
        · simp only [if_neg hp]
      · simp [hring1', hs1]
  obtain ⟨t4, hput, hheap, hbucket, hadded, htotal, hsize, halloc, hf4, ho4, hp4⟩ := hrun
  obtain ⟨hok4, hentries4⟩ := tableOk_insert t1 t4 hok1 key value ring1 hnew1 hroom hring1 hheap
    hbucket hadded htotal hsize halloc
  refine ⟨t4, hput, hok4, ?_, ?_, ?_, ?_, ?_⟩
  · rw [hentries4, hentries1]
  · rw [hf4, hf1]
  · rw [ho4, ho1]
  · rw [hsize, hs1]
  · rw [hp4, hp1]

end HashTable

end Morph

namespace Morph

namespace HashTable

variable {α : Type}

/-! ## The hash table: a stored key, and a sequence of new keys -/

theorem not_stored_iff (t : HashTable α) (key : Bytes) :
    (∀ p ∈ t.added, (link_entry t p).1 ≠ key) ↔ key ∉ (entries t).map Prod.fst := by
  rw [entries, List.map_map]
  constructor
  · intro h hmem
    obtain ⟨p, hp, hk⟩ := List.mem_map.1 hmem
    exact h p hp hk
  · intro h p hp hk
    exact h (List.mem_map.2 ⟨p, hp, hk⟩)

/-- `hash_table_chain_put` with a stored key writes the value into the link of
the key and changes nothing else: no link is added, dropped or moved. -/
theorem hash_table_chain_put_old (t : HashTable α) (hok : TableOk t) (key : Bytes)
    (value : Option α) (p : Nat) (hp : p ∈ t.added) (hkey : (link_entry t p).1 = key) :
    ∃ t', hash_table_chain_put t key value = some t' ∧ TableOk t' ∧
      t'.added = t.added ∧ t'.bucket = t.bucket ∧ t'.total_stored = t.total_stored ∧
      t'.load = t.load ∧ t'.size = t.size ∧ t'.fifo_limit = t.fifo_limit ∧
      t'.on_push_out = t.on_push_out ∧ t'.pushed_out = t.pushed_out ∧
      t'.allocated = t.allocated ∧
      link_entry t' p = (key, value) ∧ (∀ q, q ≠ p → t'.heap q = t.heap q) := by
  obtain ⟨ring, hring, _, hsome⟩ := hash_table_get_link_cell t hok key
  have hfind := hsome p hp hkey
  obtain ⟨record, hrec, hhash, hsize⟩ := hok.links p hp
  have hentry := link_entry_of_heap t p record hrec
  have hrk : record.key = key := by rw [hentry] at hkey; exact hkey
  have hrun : ∃ t', hash_table_chain_put t key value = some t' ∧
      (∀ q, t'.heap q = if q = p then some { record with value := value } else t.heap q) ∧
      t'.added = t.added ∧ t'.bucket = t.bucket ∧ t'.total_stored = t.total_stored ∧
      t'.load = t.load ∧ t'.size = t.size ∧ t'.fifo_limit = t.fifo_limit ∧
      t'.on_push_out = t.on_push_out ∧ t'.pushed_out = t.pushed_out ∧
      t'.allocated = t.allocated := by
    simp only [hash_table_chain_put, hash_table_get_always, hring, hfind, hrec,
      Option.bind_eq_bind, Option.some_bind, Option.pure_def]
    exact ⟨_, rfl, fun _ => rfl, rfl, rfl, rfl, rfl, rfl, rfl, rfl, rfl, rfl⟩
  obtain ⟨t', hput, hheap, ha, hb, htot, hload, hs, hf, ho, hpo, hal⟩ := hrun
  have hp' : link_entry t' p = (key, value) := by
    rw [link_entry_of_heap t' p { record with value := value } (by rw [hheap, if_pos rfl])]
    simp only [hrk]
  have hother : ∀ q, q ≠ p → t'.heap q = t.heap q := fun q hq => by rw [hheap, if_neg hq]
  have hfst : ∀ q, (link_entry t' q).1 = (link_entry t q).1 := by
    intro q
    by_cases hq : q = p
    · rw [hq, hp', hkey]
    · rw [link_entry_congr _ _ q (hother q hq)]
  refine ⟨t', hput, ?_, ha, hb, htot, hload, hs, hf, ho, hpo, hal, hp', hother⟩
  refine ⟨by rw [hs]; exact hok.size_pos, by rw [hb, hs]; exact hok.bucket_length,
    by rw [ha]; exact hok.nodup, by rw [ha, hal]; exact hok.alloc, ?_, ?_, ?_,
    by rw [htot, ha]; exact hok.total, by rw [ha]; exact hok.total_lt⟩
  · intro q hq
    rw [ha] at hq
    by_cases hqp : q = p
    · subst hqp
      exact ⟨{ record with value := value }, by rw [hheap, if_pos rfl], hhash, hsize⟩
    · rw [hother q hqp]
      exact hok.links q hq
  · intro q hq q' hq' hk
    rw [ha] at hq hq'
    rw [hfst, hfst] at hk
    exact hok.keys q hq q' hq' hk
  · intro i ring' hi
    rw [hb] at hi
    rw [hs, ha]
    obtain ⟨hn, hm⟩ := hok.rings i ring' hi
    refine ⟨hn, ?_⟩
    intro q
    rw [hm q, hfst]

/-- A sequence of calls of `hash_table_chain_put` with new, distinct keys on a
table with a callback and a limit of at least one: the table then stores the
last `fifo_limit` of the pairs it held and was given, in that order. -/
theorem put_all_spec (limit : Nat) (hone : 1 ≤ limit) (hlim : limit < NO_FIFO_LIMIT) :
    ∀ (items : List (Bytes × Option α)) (t : HashTable α), TableOk t →
      t.on_push_out = true → t.fifo_limit = limit →
      (items.map Prod.fst).Nodup →
      (∀ key ∈ items.map Prod.fst, key ∉ (entries t).map Prod.fst) →
      ∃ t', put_all t items = some t' ∧ TableOk t' ∧ t'.fifo_limit = limit ∧
        t'.on_push_out = true ∧ t'.size = t.size ∧
        (items ≠ [] → entries t' =
          (entries t ++ items).drop ((entries t).length + items.length - limit)) := by
  intro items
  induction items with
  | nil =>
    intro t hok hcb hf _ _
    exact ⟨t, rfl, hok, hf, hcb, rfl, fun h => absurd rfl h⟩
  | cons x items ih =>
    intro t hok hcb hf hnodup hnew
    obtain ⟨key, value⟩ := x
    simp only [List.map_cons, List.nodup_cons] at hnodup
    have hkeynew : key ∉ (entries t).map Prod.fst :=
      hnew key (by simp)
    obtain ⟨t1, hput, hok1, hent1, hf1, ho1, hs1, _⟩ :=
      hash_table_chain_put_new t hok hcb (by rw [hf]; exact hlim) (by rw [hf]; exact hone)
        key value ((not_stored_iff t key).2 hkeynew)
    have hlen : (entries t).length = t.added.length := by simp [entries]
    rw [hf, ← hlen] at hent1
    have hnew1 : ∀ k ∈ items.map Prod.fst, k ∉ (entries t1).map Prod.fst := by
      intro k hk hmem
      rw [hent1, List.map_append, List.mem_append] at hmem
      rcases hmem with hmem | hmem
      · rw [List.map_drop] at hmem
        exact hnew k (by simp only [List.map_cons]; exact List.mem_cons_of_mem _ hk)
          (List.mem_of_mem_drop hmem)
      · simp only [List.map_cons, List.map_nil, List.mem_singleton] at hmem
        subst hmem
        exact hnodup.1 hk
    obtain ⟨t', hrun, hok', hf', ho', hs', hent'⟩ :=
      ih t1 hok1 ho1 (by rw [hf1, hf]) hnodup.2 hnew1
    refine ⟨t', ?_, hok', hf', ho', by rw [hs', hs1], ?_⟩
    · simp only [put_all, hput, Option.bind_eq_bind, Option.some_bind]
      exact hrun
    · intro _
      have hdrop1 : (entries t).drop ((entries t).length + 1 - limit) ++ [(key, value)] =
          (entries t ++ [(key, value)]).drop ((entries t).length + 1 - limit) := by
        rw [List.drop_append_of_le_length (by omega)]
      cases items with
      | nil =>
        simp only [put_all, Option.some.injEq] at hrun
        subst hrun
        rw [hent1, hdrop1]
        simp
      | cons y ys =>
        rw [hent' (by simp), hent1, hdrop1, ← List.drop_append_of_le_length (by simp),
          List.drop_drop, List.append_assoc, List.singleton_append]
        congr 1
        simp only [List.length_drop, List.length_append, List.length_cons, List.length_nil]
        omega

end HashTable

end Morph

namespace Morph

namespace HashTable

variable {α : Type}

/-! ## The hash table: a fresh table, and lookups after a sequence of puts -/

/-- A table made by `make_hash_table` is good and stores nothing. -/
theorem tableOk_make (size_power : Nat) (t : HashTable α)
    (h : make_hash_table size_power = some t) :
    TableOk t ∧ entries t = [] ∧ t.fifo_limit = NO_FIFO_LIMIT := by
  unfold make_hash_table at h
  split at h
  · simp only [Option.some.injEq] at h
    subst h
    refine ⟨⟨Nat.pow_pos (by decide), (by simp), List.nodup_nil, (fun p hp => by cases hp),
      (fun p hp => by cases hp), (fun p hp => by cases hp), ?_, rfl, (by simp)⟩, rfl, rfl⟩
    intro i ring hi
    have hmem : ring ∈ List.replicate (2 ^ size_power) ([] : List Nat) :=
      List.mem_iff_getElem?.2 ⟨i, hi⟩
    rw [List.eq_of_mem_replicate hmem]
    exact ⟨List.nodup_nil, fun p => by simp⟩
  · cases h

/-- `hash_table_fifo_limit` keeps a table good and its content. -/
theorem tableOk_fifo_limit (t : HashTable α) (limit : Nat) (on_push_out : Bool)
    (hok : TableOk t) :
    TableOk (hash_table_fifo_limit t limit on_push_out) ∧
      entries (hash_table_fifo_limit t limit on_push_out) = entries t :=
  ⟨⟨hok.size_pos, hok.bucket_length, hok.nodup, hok.alloc, hok.links, hok.keys, hok.rings,
    hok.total, hok.total_lt⟩, rfl⟩

theorem index_unique (items : List (Bytes × Option α)) (hnodup : (items.map Prod.fst).Nodup)
    (i j : Nat) (key : Bytes) (v w : Option α) (hi : items[i]? = some (key, v))
    (hj : items[j]? = some (key, w)) : i = j := by
  have hi' : (items.map Prod.fst)[i]? = some key := by rw [List.getElem?_map, hi]; rfl
  have hj' : (items.map Prod.fst)[j]? = some key := by rw [List.getElem?_map, hj]; rfl
  obtain ⟨hib, hie⟩ := List.getElem?_eq_some.1 hi'
  obtain ⟨hjb, hje⟩ := List.getElem?_eq_some.1 hj'
  exact (hnodup.getElem_inj_iff).1 (hie.trans hje.symm)

theorem lookup_drop_lt (items : List (Bytes × Option α))
    (hnodup : (items.map Prod.fst).Nodup) (i k : Nat) (key : Bytes) (v : Option α)
    (hi : items[i]? = some (key, v)) (hik : i < k) : lookup key (items.drop k) = none := by
  apply lookup_of_not_mem
  intro e he hek
  obtain ⟨j, hj⟩ := List.mem_iff_getElem?.1 he
  rw [List.getElem?_drop] at hj
  obtain ⟨k', w⟩ := e
  simp only at hek
  subst hek
  have := index_unique items hnodup i (k + j) k' v w hi hj
  omega

theorem lookup_drop_ge (items : List (Bytes × Option α))
    (hnodup : (items.map Prod.fst).Nodup) (i k : Nat) (key : Bytes) (v : Option α)
    (hi : items[i]? = some (key, v)) (hki : k ≤ i) : lookup key (items.drop k) = v := by
  apply lookup_of_mem
  · apply List.mem_iff_getElem?.2
    refine ⟨i - k, ?_⟩
    rw [List.getElem?_drop]
    have : k + (i - k) = i := by omega
    rw [this, hi]
  · intro e he hek
    obtain ⟨j, hj⟩ := List.mem_iff_getElem?.1 he
    rw [List.getElem?_drop] at hj
    obtain ⟨k', w⟩ := e
    simp only at hek
    subst hek
    have hij := index_unique items hnodup i (k + j) k' v w hi hj
    rw [← hij, hi] at hj
    simp only [Option.some.injEq, Prod.mk.injEq] at hj
    rw [hj.2]

end HashTable

end Morph

namespace Morph

/-! ## The string buffer -/

theorem strncpy_length (src : Bytes) (n : Nat) : (strncpy src n).length = n := by
  unfold strncpy
  simp only [List.length_append, List.length_replicate]
  have h1 : ((src.take n).takeWhile (fun b => decide (b ≠ 0))).length ≤ (src.take n).length :=
    (List.takeWhile_sublist _).length_le
  have h2 : (src.take n).length ≤ n := by simp
  omega

theorem takeWhile_of_all (s : Bytes) (h : ∀ b ∈ s, b ≠ 0) :
    s.takeWhile (fun b => decide (b ≠ 0)) = s := by
  induction s with
  | nil => rfl
  | cons a s ih =>
    have ha : a ≠ 0 := h a (List.mem_cons_self _ _)
    simp only [List.takeWhile_cons, ha, ne_eq, not_false_eq_true, decide_True, if_true]
    rw [ih (fun b hb => h b (List.mem_cons_of_mem _ hb))]

theorem strncpy_of_nonzero (s : Bytes) (h : ∀ b ∈ s, b ≠ 0) : strncpy s s.length = s := by
  unfold strncpy
  simp only [List.take_length]
  rw [takeWhile_of_all s h]
  simp

theorem join_string_buffer_length (buffer : StringBuffer) :
    (join_string_buffer buffer).2 = (join_string_buffer buffer).1.length := by
  unfold join_string_buffer
  induction buffer with
  | nil => rfl
  | cons chunk buffer ih =>
    simp only [List.map_cons, List.sum_cons, List.flatMap_cons, List.length_append,
      strncpy_length] at ih ⊢
    rw [ih]

theorem join_string_buffer_append (buffer : StringBuffer) (chunk : StringChunk) :
    (join_string_buffer (buffer ++ [chunk])).1 =
      (join_string_buffer buffer).1 ++ strncpy chunk.string chunk.length := by
  unfold join_string_buffer
  simp [List.flatMap_append]

/-- The string joined from a buffer that ends with the chunk of the word and
the chunk of the terminator. -/
theorem join_description (buffer : StringBuffer) (mb_word : Bytes)
    (hword : ∀ b ∈ mb_word, b ≠ 0) :
    (join_string_buffer
      (append_to_string_buffer
        (exact_append_to_string_buffer buffer mb_word mb_word.length)
        [WORD_DESCRIPTION_TERMINATOR, 0])).1 =
      (join_string_buffer buffer).1 ++ mb_word ++ [WORD_DESCRIPTION_TERMINATOR] := by
  unfold append_to_string_buffer exact_append_to_string_buffer
  rw [join_string_buffer_append, join_string_buffer_append]
  simp only [List.take_length]
  rw [strncpy_of_nonzero mb_word hword]
  rfl

end Morph

namespace Morph

open HashTable

/-! ## `make_word_description` -/

theorem lookup_some_mem {α : Type} (key : Bytes) (d : α) :
    ∀ (l : List (Bytes × Option α)), lookup key l = some d → (key, some d) ∈ l := by
  intro l
  induction l with
  | nil => intro h; cases h
  | cons e l ih =>
    intro h
    obtain ⟨k, v⟩ := e
    simp only [lookup] at h
    by_cases hk : k = key
    · rw [if_pos hk] at h
      rw [hk, h]
      exact List.mem_cons_self _ _
    · rw [if_neg hk] at h
      exact List.mem_cons_of_mem _ (ih h)

theorem lookup_none_not_mem {α : Type} (key : Bytes) :
    ∀ (l : List (Bytes × Option α)), (∀ e ∈ l, e.2 ≠ none) → lookup key l = none →
      key ∉ l.map Prod.fst := by
  intro l
  induction l with
  | nil => intro _ _ h; cases h
  | cons e l ih =>
    intro hsome h
    obtain ⟨k, v⟩ := e
    simp only [lookup] at h
    by_cases hk : k = key
    · rw [if_pos hk] at h
      exact absurd h (hsome (k, v) (List.mem_cons_self _ _))
    · rw [if_neg hk] at h
      simp only [List.map_cons, List.mem_cons, not_or]
      exact ⟨fun h' => hk h'.symm, ih (fun e he => hsome e (List.mem_cons_of_mem _ he)) h⟩

/-- `get_description_from_cache` on a good cache. -/
theorem get_description_from_cache_spec (cache : HashTable CachedDescription)
    (hok : CacheOk cache) (key : Bytes) :
    get_description_from_cache key cache = some
      (match lookup key (entries cache) with
        | none => none
        | some data => some (data.description, data.description_size, data.is_imitation)) := by
  unfold get_description_from_cache
  rw [hash_table_chain_get_spec cache hok.table key]
  cases lookup key (entries cache) <;> rfl

/-- A description that `make_word_description` returns ends with the bytes of
the word and the terminator, and `*result_length` is its length. -/
theorem make_word_description_spec (locale : Locale) (word : Option (List Label))
    (mb_word : Bytes) (morphology : Morphology) (dont_imitate : Bool)
    (hcache : CacheOk morphology.description_cache) (hword : ∀ b ∈ mb_word, b ≠ 0)
    (morphology' : Morphology) (description : Bytes) (is_garbage : Bool) (result_length : Nat)
    (hrun : make_word_description locale word mb_word morphology dont_imitate =
      some (morphology', some description, is_garbage, result_length)) :
    (∃ lemmas_part, description = lemmas_part ++ mb_word ++ [WORD_DESCRIPTION_TERMINATOR]) ∧
      result_length = description.length := by
  unfold make_word_description at hrun
  rw [get_description_from_cache_spec _ hcache] at hrun
  simp only [Option.bind_eq_bind, Option.some_bind] at hrun
  cases hlook : lookup mb_word (entries morphology.description_cache) with
  | none =>
    rw [hlook] at hrun
    simp only at hrun
    split at hrun
    · split at hrun
      · simp at hrun
      · obtain ⟨cache, _, hrun⟩ := Option.bind_eq_some.1 hrun
        simp only [Option.pure_def, Option.some.injEq, Prod.mk.injEq] at hrun
        obtain ⟨_, hdesc, _, hlen⟩ := hrun
        rw [← hdesc, ← hlen, join_description _ mb_word hword]
        refine ⟨⟨_, rfl⟩, ?_⟩
        rw [join_string_buffer_length, join_description _ mb_word hword]
    · split at hrun
      · simp at hrun
      · simp only [Option.pure_def, Option.some.injEq, Prod.mk.injEq] at hrun
        obtain ⟨_, hdesc, _, hlen⟩ := hrun
        rw [← hdesc, ← hlen]
        exact ⟨⟨[], rfl⟩, by simp⟩
  | some data =>
    rw [hlook] at hrun
    simp only at hrun
    split at hrun
    · simp at hrun
    · simp only [Option.pure_def, Option.some.injEq, Prod.mk.injEq] at hrun
      obtain ⟨_, hdesc, _, hlen⟩ := hrun
      obtain ⟨data', hdata, hsize, pre, hends⟩ :=
        hcache.described mb_word (some data) (lookup_some_mem _ _ _ hlook)
      simp only [Option.some.injEq] at hdata
      subst hdata
      rw [← hdesc, ← hlen, strict_strndup, hsize, List.take_length]
      exact ⟨⟨pre, hends⟩, rfl⟩

end Morph

namespace Morph

open HashTable

/-! ## The cache of descriptions: fresh, and after `make_word_description` -/

/-- The cache made by `make_description_cache` is good and empty. -/
theorem cacheOk_make (cache_size : Nat) (cache : HashTable CachedDescription)
    (h : make_description_cache cache_size = some cache) :
    CacheOk cache ∧ cache.on_push_out = true ∧ cache.fifo_limit = cache_size := by
  unfold make_description_cache at h
  simp only [Option.bind_eq_bind, Option.pure_def] at h
  obtain ⟨t, ht, h⟩ := Option.bind_eq_some.1 h
  simp only [Option.some.injEq] at h
  subst h
  obtain ⟨hok, hent, _⟩ := tableOk_make _ t ht
  obtain ⟨hok', hent'⟩ := tableOk_fifo_limit t cache_size true hok
  refine ⟨⟨hok', ?_⟩, rfl, rfl⟩
  intro key value hmem
  rw [hent', hent] at hmem
  cases hmem

/-- Putting the description of a word into a good cache that does not hold the
word keeps the cache good. -/
theorem put_description_to_cache_spec (cache : HashTable CachedDescription)
    (hok : CacheOk cache) (hcb : cache.on_push_out = true)
    (hlim : cache.fifo_limit < NO_FIFO_LIMIT) (hone : 1 ≤ cache.fifo_limit)
    (key lemmas_part : Bytes) (is_imitation : Nat)
    (hnew : lookup key (entries cache) = none) :
    ∃ cache', put_description_to_cache key (lemmas_part ++ key ++ [WORD_DESCRIPTION_TERMINATOR])
        (lemmas_part ++ key ++ [WORD_DESCRIPTION_TERMINATOR]).length is_imitation cache
        = some cache' ∧
      CacheOk cache' ∧ cache'.on_push_out = true ∧ cache'.fifo_limit = cache.fifo_limit ∧
      lookup key (entries cache') = some
        { description_size := (lemmas_part ++ key ++ [WORD_DESCRIPTION_TERMINATOR]).length,
          is_imitation := is_imitation,
          description := lemmas_part ++ key ++ [WORD_DESCRIPTION_TERMINATOR] } := by
  have hvalues : ∀ e ∈ entries cache, e.2 ≠ none := by
    intro e he
    obtain ⟨k, v⟩ := e
    obtain ⟨data, hdata, _⟩ := hok.described k v he
    rw [hdata]
    exact Option.some_ne_none _
  have hnotin := lookup_none_not_mem key _ hvalues hnew
  obtain ⟨cache', hput, hok', hent, hf, ho, _, _⟩ :=
    hash_table_chain_put_new cache hok.table hcb hlim hone key
      (some { description_size := (lemmas_part ++ key ++ [WORD_DESCRIPTION_TERMINATOR]).length,
              is_imitation := is_imitation,
              description := lemmas_part ++ key ++ [WORD_DESCRIPTION_TERMINATOR] })
      ((not_stored_iff cache key).2 hnotin)
  refine ⟨cache', ?_, ⟨hok', ?_⟩, ho, hf, ?_⟩
  · unfold put_description_to_cache
    rw [List.take_length]
    exact hput
  · intro k v hmem
    rw [hent, List.mem_append] at hmem
    rcases hmem with hmem | hmem
    · exact hok.described k v (List.mem_of_mem_drop hmem)
    · simp only [List.mem_singleton, Prod.mk.injEq] at hmem
      obtain ⟨rfl, rfl⟩ := hmem
      exact ⟨_, rfl, rfl, lemmas_part, rfl⟩
  · rw [hent]
    apply lookup_of_mem
    · simp
    · intro e he hek
      rw [List.mem_append] at he
      rcases he with he | he
      · exfalso
        apply hnotin
        rw [← hek]
        exact List.mem_map_of_mem _ (List.mem_of_mem_drop he)
      · simpa using he

/-- On a good cache with a callback and a limit of at least one,
`make_word_description` returns, and the cache stays good. -/
theorem make_word_description_returns (locale : Locale) (word : Option (List Label))
    (mb_word : Bytes) (morphology : Morphology) (dont_imitate : Bool)
    (hcache : CacheOk morphology.description_cache) (hword : ∀ b ∈ mb_word, b ≠ 0)
    (hcb : morphology.description_cache.on_push_out = true)
    (hlim : morphology.description_cache.fifo_limit < NO_FIFO_LIMIT)
    (hone : 1 ≤ morphology.description_cache.fifo_limit) :
    ∃ morphology' result is_garbage result_length,
      make_word_description locale word mb_word morphology dont_imitate =
        some (morphology', result, is_garbage, result_length) ∧
      CacheOk morphology'.description_cache ∧
      morphology'.description_cache.on_push_out = true ∧
      morphology'.description_cache.fifo_limit = morphology.description_cache.fifo_limit ∧
      morphology'.automat = morphology.automat ∧ morphology'.lemmas = morphology.lemmas := by
  unfold make_word_description
  rw [get_description_from_cache_spec _ hcache]
  simp only [Option.bind_eq_bind, Option.some_bind]
  generalize converted_word locale word mb_word = w
  cases hlook : lookup mb_word (entries morphology.description_cache) with
  | none =>
    simp only
    split
    · split
      · exact ⟨_, _, _, _, rfl, hcache, hcb, rfl, rfl, rfl⟩
      · have hjoin := join_description (append_lemmas locale w (morphology.lemmas w) [])
          mb_word hword
        have hlen := join_string_buffer_length
          (append_to_string_buffer
            (exact_append_to_string_buffer (append_lemmas locale w (morphology.lemmas w) [])
              mb_word mb_word.length)
            [WORD_DESCRIPTION_TERMINATOR, 0])
        rw [hjoin] at hlen
        obtain ⟨cache', hput, hok', ho', hf', _⟩ :=
          put_description_to_cache_spec morphology.description_cache hcache hcb hlim hone mb_word
            (join_string_buffer (append_lemmas locale w (morphology.lemmas w) [])).1
            (if (morphology.lemmas w).length == 0 then 1 else 0) hlook
        rw [hlen, hjoin, hput]
        exact ⟨_, _, _, _, rfl, hok', ho', hf', rfl, rfl⟩
    · split
      · exact ⟨_, _, _, _, rfl, hcache, hcb, rfl, rfl, rfl⟩
      · exact ⟨_, _, _, _, rfl, hcache, hcb, rfl, rfl, rfl⟩
  | some data =>
    simp only
    split
    · exact ⟨_, _, _, _, rfl, hcache, hcb, rfl, rfl, rfl⟩
    · exact ⟨_, _, _, _, rfl, hcache, hcb, rfl, rfl, rfl⟩

end Morph

namespace Morph

/-! ## Joined results and their length -/

theorem strlen_of_nonzero (s : Bytes) (h : ∀ b ∈ s, b ≠ 0) : strlen s = s.length := by
  unfold strlen
  rw [takeWhile_of_all s h]

theorem enum_from_map_tail (separator : Bytes) (n : Nat) :
    ∀ (set : StringSet) (k : Nat),
      ((List.enumFrom k set).map (fun (x : Nat × Bytes) =>
        if true = true ∨ x.1 + 1 < n then x.2 ++ separator else x.2)).flatten =
      set.flatMap (fun m => m ++ separator) := by
  intro set
  induction set with
  | nil => intro k; rfl
  | cons m set ih =>
    intro k
    simp only [List.enumFrom_cons, List.map_cons, true_or, if_true, List.flatten_cons,
      List.flatMap_cons]
    rw [← ih (k + 1)]
    simp only [true_or, if_true]

/-- `join_string_set` with a one-byte separator and `tail_separator` set: every
string followed by the separator. -/
theorem join_string_set_tail (set : StringSet) (c : Nat) (hc : c ≠ 0) :
    join_string_set set [c] true =
      (set.flatMap (fun m => m ++ [c]), (set.map (fun m => m.length + 1)).sum) := by
  have hsep : strlen [c] = 1 := by
    rw [strlen_of_nonzero [c] (by simpa using hc)]
    rfl
  unfold join_string_set
  simp only [hsep, true_or, if_true, List.take_succ_cons, List.take_zero, Prod.mk.injEq]
  constructor
  · exact enum_from_map_tail [c] set.length set 0
  · have : ∀ (l : StringSet), (l.map (fun m => m.length + 1)).sum =
        (l.map List.length).sum + l.length := by
      intro l
      induction l with
      | nil => rfl
      | cons m l ih =>
        simp only [List.map_cons, List.sum_cons, List.length_cons, ih]
        omega
    rw [this]
    omega

theorem flatMap_sep_length (set : StringSet) (c : Nat) :
    (set.flatMap (fun m => m ++ [c])).length = (set.map (fun m => m.length + 1)).sum := by
  induction set with
  | nil => rfl
  | cons m set ih =>
    simp only [List.flatMap_cons, List.length_append, List.length_singleton, List.map_cons,
      List.sum_cons, ih]

/-- The length that `strlen` finds for the joined results of a set of strings
without zero bytes: the lengths of the strings and one byte for each. -/
theorem strlen_join_string_set (set : StringSet) (hset : ∀ m ∈ set, ∀ b ∈ m, b ≠ 0) :
    strlen (join_string_set set [10] true).1 = (set.map (fun m => m.length + 1)).sum := by
  rw [join_string_set_tail set 10 (by decide)]
  simp only
  rw [strlen_of_nonzero, flatMap_sep_length]
  intro b hb
  rw [List.mem_flatMap] at hb
  obtain ⟨m, hm, hb⟩ := hb
  rw [List.mem_append, List.mem_singleton] at hb
  rcases hb with hb | rfl
  · exact hset m hm b hb
  · decide

end Morph

namespace Morph

/-! ## The results hold no zero byte -/

theorem rebuild_line_nonzero (document : Document) (htext : ∀ b ∈ document.text, b ≠ 0) :
    ∀ (k : Nat) (range : Int) (line : Bytes), rebuild_line document k range = some line →
      ∀ b ∈ line, b ≠ 0 := by
  intro k
  induction k with
  | zero =>
    intro range line h
    simp only [rebuild_line, Option.some.injEq] at h
    subst h
    intro b hb
    cases hb
  | succ k ih =>
    intro range line h
    simp only [rebuild_line, Option.bind_eq_bind, Option.pure_def] at h
    split at h
    · cases h
    · simp only [Option.some_bind] at h
      obtain ⟨r, _, h⟩ := Option.bind_eq_some.1 h
      obtain ⟨rest, hrest, h⟩ := Option.bind_eq_some.1 h
      simp only [Option.some.injEq] at h
      have hform : ∀ b ∈ (document.text.drop (r.original_start + 1).toNat).take
          (r.end_position - r.original_start - 1).toNat, b ≠ 0 :=
        fun b hb => htext b (List.mem_of_mem_drop (List.mem_of_mem_take hb))
      intro b hb
      rw [← h] at hb
      split at hb
      · exact hform b hb
      · simp only [List.mem_append, List.mem_singleton] at hb
        rcases hb with (hb | rfl) | hb
        · exact hform b hb
        · decide
        · exact ih _ _ hrest b hb

theorem add_to_string_set_mem (set : StringSet) (string : Bytes) (length : Nat)
    (set' : StringSet) (added : Bool)
    (h : add_to_string_set set string length = some (set', added)) :
    ∀ m ∈ set', m ∈ set ∨ m = string := by
  unfold add_to_string_set at h
  split at h
  · simp only [Option.some.injEq, Prod.mk.injEq] at h
    intro m hm
    rw [← h.1] at hm
    exact Or.inr (List.mem_singleton.1 hm)
  · simp only [Option.bind_eq_bind, Option.pure_def] at h
    obtain ⟨position, _, h⟩ := Option.bind_eq_some.1 h
    cases position with
    | none =>
      simp only [Option.some.injEq, Prod.mk.injEq] at h
      intro m hm
      rw [← h.1] at hm
      exact Or.inl hm
    | some position =>
      simp only [Option.some.injEq, Prod.mk.injEq] at h
      intro m hm
      rw [← h.1] at hm
      simp only [List.mem_append, List.mem_singleton] at hm
      rcases hm with (hm | rfl) | hm
      · exact Or.inl (List.mem_of_mem_take hm)
      · exact Or.inr rfl
      · exact Or.inl (List.mem_of_mem_drop hm)

theorem collect_results_nonzero (document : Document) (htext : ∀ b ∈ document.text, b ≠ 0)
    (tokens_count : Nat) :
    ∀ (allowed_ranges : List (Option Nat)) (result result' : StringSet),
      (∀ m ∈ result, ∀ b ∈ m, b ≠ 0) →
      collect_results document tokens_count allowed_ranges result = some result' →
      ∀ m ∈ result', ∀ b ∈ m, b ≠ 0 := by
  intro allowed_ranges
  induction allowed_ranges with
  | nil =>
    intro result result' hres h
    simp only [collect_results, Option.some.injEq] at h
    rw [← h]
    exact hres
  | cons range rest ih =>
    intro result result' hres h
    cases range with
    | none => simp [collect_results] at h
    | some range =>
      simp only [collect_results, Option.bind_eq_bind] at h
      obtain ⟨line, hline, h⟩ := Option.bind_eq_some.1 h
      obtain ⟨⟨result1, added⟩, hadd, h⟩ := Option.bind_eq_some.1 h
      apply ih result1 result' ?_ h
      intro m hm
      rcases add_to_string_set_mem _ _ _ _ _ hadd m hm with hm | rfl
      · exact hres m hm
      · exact rebuild_line_nonzero document htext _ _ _ hline

theorem document_find_intersection_nonzero (document : Document)
    (htext : ∀ b ∈ document.text, b ≠ 0) (phrase : List DescribedWord) (exact_match : Bool)
    (result result' : StringSet) (hres : ∀ m ∈ result, ∀ b ∈ m, b ≠ 0)
    (h : document_find_intersection document phrase exact_match result = some result') :
    ∀ m ∈ result', ∀ b ∈ m, b ≠ 0 := by
  simp only [document_find_intersection, Option.bind_eq_bind] at h
  obtain ⟨⟨allowed_ranges, tokens_count⟩, _, h⟩ := Option.bind_eq_some.1 h
  exact collect_results_nonzero document htext tokens_count allowed_ranges result result' hres h

theorem multi_intersection_loop_nonzero (analysis : Analysis) (document : Document)
    (htext : ∀ b ∈ document.text, b ≠ 0) :
    ∀ (fuel : Nat) (cursor : Bytes) (result result' : StringSet),
      (∀ m ∈ result, ∀ b ∈ m, b ≠ 0) →
      multi_intersection_loop analysis document fuel cursor result = some result' →
      ∀ m ∈ result', ∀ b ∈ m, b ≠ 0 := by
  intro fuel
  induction fuel with
  | zero => intro cursor result result' _ h; simp [multi_intersection_loop] at h
  | succ fuel ih =>
    intro cursor result result' hres h
    simp only [multi_intersection_loop, Option.bind_eq_bind, Option.pure_def] at h
    have hstep : ∀ result1 : StringSet, (∀ m ∈ result1, ∀ b ∈ m, b ≠ 0) →
        (match List.indexOf? MULTI_INTERSECTION_SPLITTER cursor with
          | some splitter =>
            multi_intersection_loop analysis document fuel (List.drop (splitter + 1) cursor)
              result1
          | none => some result1) = some result' → ∀ m ∈ result', ∀ b ∈ m, b ≠ 0 := by
      intro result1 hres1 h
      split at h
      · exact ih _ _ _ hres1 h
      · simp only [Option.some.injEq] at h
        rw [← h]
        exact hres1
    split at h
    · obtain ⟨result1, h1, h⟩ := Option.bind_eq_some.1 h
      exact hstep result1
        (document_find_intersection_nonzero document htext _ _ _ _ hres h1) h
    · simp only [Option.some_bind] at h
      exact hstep result hres h

/-- The results of a line of phrases over a text without zero bytes hold no
zero byte. -/
theorem multi_intersection_set_nonzero (analysis : Analysis) (document : Document)
    (htext : ∀ b ∈ document.text, b ≠ 0) (phrase_lines : Bytes) (set : StringSet)
    (h : multi_intersection_set analysis document phrase_lines = some set) :
    ∀ m ∈ set, ∀ b ∈ m, b ≠ 0 :=
  multi_intersection_loop_nonzero analysis document htext _ _ [] set
    (fun m hm => by cases hm) h

/-- The loop of `morph_doc_intersect_doc`: every token contributes the lengths
of its matches and one byte for each match. -/
theorem intersect_results_spec (analysis : Analysis) (doc : morph_doc_t) (document : Document)
    (hdoc : doc.doc_header = some document) (htext : ∀ b ∈ document.text, b ≠ 0) :
    ∀ (tokens : List Bytes) (results : List Nat),
      intersect_results analysis doc tokens = some results →
      ∃ sets : List StringSet,
        List.Forall₂ (fun token set => multi_intersection_set analysis document token = some set)
          tokens sets ∧
        results = sets.map (fun set => (set.map (fun m => m.length + 1)).sum) := by
  intro tokens
  induction tokens with
  | nil =>
    intro results h
    simp only [intersect_results, Option.some.injEq] at h
    exact ⟨[], List.Forall₂.nil, by rw [← h]; rfl⟩
  | cons token tokens ih =>
    intro results h
    simp only [intersect_results, hdoc, Option.bind_eq_bind, Option.some_bind,
      document_find_multi_intersection, Option.pure_def] at h
    obtain ⟨⟨result, len⟩, h1, h⟩ := Option.bind_eq_some.1 h
    obtain ⟨set, hset, h1⟩ := Option.bind_eq_some.1 h1
    obtain ⟨rest, hrest, h⟩ := Option.bind_eq_some.1 h
    simp only [Option.some.injEq] at h h1
    obtain ⟨sets, hsets, hrest'⟩ := ih rest hrest
    refine ⟨set :: sets, List.Forall₂.cons hset hsets, ?_⟩
    rw [← h, List.map_cons, ← hrest']
    congr 1
    have : result = (join_string_set set [10] true).1 := by rw [h1]
    rw [this]
    exact strlen_join_string_set set (multi_intersection_set_nonzero analysis document htext _ _ hset)

end Morph

namespace Morph

/-! ## Occurrences of a component in a text of descriptions -/

theorem description_of_nil : description_of [] = [] := rfl

theorem description_of_cons (c : Bytes) (cs : List Bytes) :
    description_of (c :: cs) = c ++ 46 :: description_of cs := by
  simp [description_of, WORD_DESCRIPTION_TERMINATOR]

theorem description_of_append (cs ds : List Bytes) :
    description_of (cs ++ ds) = description_of cs ++ description_of ds := by
  simp [description_of]

theorem description_of_length_cons (c : Bytes) (cs : List Bytes) :
    (description_of (c :: cs)).length = c.length + 1 + (description_of cs).length := by
  rw [description_of_cons]
  simp
  omega

/-- A component followed by the terminator is at the start of another one
followed by the terminator only if the two are equal. -/
theorem take_component_eq :
    ∀ (c c0 Y : Bytes), (∀ b ∈ c, b ≠ 46) → (∀ b ∈ c0, b ≠ 46) →
      ((c0 ++ 46 :: Y).take (c.length + 1) = c ++ [46] ↔ c = c0) := by
  intro c
  induction c with
  | nil =>
    intro c0 Y _ hc0
    cases c0 with
    | nil => simp
    | cons x c0 =>
      have : x ≠ 46 := hc0 x (List.mem_cons_self _ _)
      simp [this]
  | cons a c ih =>
    intro c0 Y hc hc0
    have ha : a ≠ 46 := hc a (List.mem_cons_self _ _)
    cases c0 with
    | nil =>
      simp
      intro h
      exact absurd h.symm ha
    | cons x c0 =>
      have := ih c0 Y (fun b hb => hc b (List.mem_cons_of_mem _ hb))
        (fun b hb => hc0 b (List.mem_cons_of_mem _ hb))
      simp only [List.cons_append, List.length_cons, List.take_succ_cons, List.cons.injEq]
      rw [this]
      constructor
      · rintro ⟨rfl, rfl⟩
        exact ⟨rfl, rfl⟩
      · rintro ⟨rfl, rfl⟩
        exact ⟨rfl, rfl⟩

theorem sample_of_length (c : Bytes) : (sample_of c).length = c.length + 2 := by
  simp [sample_of]

/-- The occurrences of `.c.` in a text that starts with `.c0` and goes on with
a terminator. -/
theorem occurs_at_cons_component (c0 c Y : Bytes) (hc0 : ∀ b ∈ c0, b ≠ 46)
    (hc : ∀ b ∈ c, b ≠ 46) (p : Nat) :
    occurs_at (sample_of c) ((46 :: c0) ++ 46 :: Y) p ↔
      (p = 0 ∧ c = c0) ∨
      (c0.length + 1 ≤ p ∧ occurs_at (sample_of c) (46 :: Y) (p - (c0.length + 1))) := by
  unfold occurs_at
  rw [sample_of_length]
  rcases Nat.eq_zero_or_pos p with rfl | hpos
  · simp only [List.drop_zero, List.cons_append, List.take_succ_cons, sample_of,
      WORD_DESCRIPTION_TERMINATOR, List.cons.injEq, true_and, List.length_cons,
      List.length_append, Nat.zero_lt_succ]
    rw [take_component_eq c c0 Y hc hc0]
    constructor
    · intro h
      exact Or.inl h
    · rintro (h | ⟨h, _⟩)
      · exact h
      · omega
  · by_cases hp : p ≤ c0.length
    · constructor
      · rintro ⟨hlt, h⟩
        exfalso
        have hget : ((46 :: c0) ++ 46 :: Y)[p]? = some 46 := by
          have := congrArg (fun l => l[0]?) h
          simp only [List.getElem?_take, sample_of, WORD_DESCRIPTION_TERMINATOR] at this
          simpa using this
        obtain ⟨q, rfl⟩ : ∃ q, p = q + 1 := ⟨p - 1, by omega⟩
        have hq : q < c0.length := by omega
        simp only [List.cons_append, List.getElem?_cons_succ] at hget
        rw [List.getElem?_append_left hq] at hget
        rw [List.getElem?_eq_getElem hq] at hget
        exact hc0 _ (List.getElem_mem hq) (Option.some.inj hget)
      · rintro (⟨h, _⟩ | ⟨h, _⟩) <;> omega
    · have hle : c0.length + 1 ≤ p := by omega
      have hdrop : List.drop p ((46 :: c0) ++ 46 :: Y) =
          List.drop (p - (c0.length + 1)) (46 :: Y) := by
        rw [List.drop_append_eq_append_drop]
        have h1 : List.drop p (46 :: c0) = [] := by
          apply List.drop_eq_nil_of_le
          simp
          omega
        rw [h1]
        simp
      rw [hdrop]
      constructor
      · rintro ⟨hlt, h⟩
        refine Or.inr ⟨hle, ?_, h⟩
        simp only [List.length_append, List.length_cons] at hlt ⊢
        omega
      · rintro (⟨h, _⟩ | ⟨_, hlt, h⟩)
        · omega
        · refine ⟨?_, h⟩
          simp only [List.length_append, List.length_cons] at hlt ⊢
          omega

end Morph

namespace Morph

/-! ## Occurrences of a component in the text of a document -/

theorem description_text_cons (c0 : Bytes) (cs : List Bytes) (R : Bytes) :
    46 :: (description_of (c0 :: cs) ++ R) = (46 :: c0) ++ 46 :: (description_of cs ++ R) := by
  rw [description_of_cons]
  simp

theorem occurs_in_description (c : Bytes) (hc : ∀ b ∈ c, b ≠ 46) (R : Bytes) :
    ∀ (cs : List Bytes), (∀ c0 ∈ cs, ∀ b ∈ c0, b ≠ 46) → ∀ p,
      occurs_at (sample_of c) (46 :: (description_of cs ++ R)) p →
        (p < (description_of cs).length ∧ c ∈ cs) ∨
        ((description_of cs).length ≤ p ∧
          occurs_at (sample_of c) (46 :: R) (p - (description_of cs).length)) := by
  intro cs
  induction cs with
  | nil =>
    intro _ p h
    right
    simpa [description_of_nil] using h
  | cons c0 cs ih =>
    intro hcs p h
    rw [description_text_cons] at h
    rw [occurs_at_cons_component c0 c _ (hcs c0 (List.mem_cons_self _ _)) hc] at h
    rw [description_of_length_cons]
    rcases h with ⟨rfl, rfl⟩ | ⟨hle, h⟩
    · left
      exact ⟨by omega, List.mem_cons_self _ _⟩
    · rcases ih (fun c1 h1 => hcs c1 (List.mem_cons_of_mem _ h1)) _ h with ⟨h1, h2⟩ | ⟨h1, h2⟩
      · left
        exact ⟨by omega, List.mem_cons_of_mem _ h2⟩
      · right
        refine ⟨by omega, ?_⟩
        have : p - (c0.length + 1 + (description_of cs).length) =
            p - (c0.length + 1) - (description_of cs).length := by omega
        rw [this]
        exact h2

theorem occurs_in_description_of_mem (c : Bytes) (hc : ∀ b ∈ c, b ≠ 46) (R : Bytes) :
    ∀ (cs : List Bytes), (∀ c0 ∈ cs, ∀ b ∈ c0, b ≠ 46) → c ∈ cs →
      ∃ p, p < (description_of cs).length ∧
        occurs_at (sample_of c) (46 :: (description_of cs ++ R)) p := by
  intro cs
  induction cs with
  | nil => intro _ h; cases h
  | cons c0 cs ih =>
    intro hcs hmem
    by_cases heq : c = c0
    · refine ⟨0, by rw [description_of_length_cons]; omega, ?_⟩
      rw [description_text_cons, occurs_at_cons_component c0 c _ (hcs c0 (List.mem_cons_self _ _)) hc]
      exact Or.inl ⟨rfl, heq⟩
    · have hmem' : c ∈ cs := by
        rcases List.mem_cons.1 hmem with h | h
        · exact absurd h heq
        · exact h
      obtain ⟨p, hp, hocc⟩ := ih (fun c1 h1 => hcs c1 (List.mem_cons_of_mem _ h1)) hmem'
      refine ⟨p + (c0.length + 1), by rw [description_of_length_cons]; omega, ?_⟩
      rw [description_text_cons, occurs_at_cons_component c0 c _ (hcs c0 (List.mem_cons_self _ _)) hc]
      right
      refine ⟨by omega, ?_⟩
      rw [Nat.add_sub_cancel]
      exact hocc

theorem occurs_after_description (c : Bytes) (hc : ∀ b ∈ c, b ≠ 46) (R : Bytes) :
    ∀ (cs : List Bytes), (∀ c0 ∈ cs, ∀ b ∈ c0, b ≠ 46) → ∀ q,
      occurs_at (sample_of c) (46 :: R) q →
      occurs_at (sample_of c) (46 :: (description_of cs ++ R)) (q + (description_of cs).length) := by
  intro cs
  induction cs with
  | nil => intro _ q h; simpa [description_of_nil] using h
  | cons c0 cs ih =>
    intro hcs q h
    rw [description_text_cons, occurs_at_cons_component c0 c _ (hcs c0 (List.mem_cons_self _ _)) hc]
    right
    rw [description_of_length_cons]
    refine ⟨by omega, ?_⟩
    have : q + (c0.length + 1 + (description_of cs).length) - (c0.length + 1) =
        q + (description_of cs).length := by omega
    rw [this]
    exact ih (fun c1 h1 => hcs c1 (List.mem_cons_of_mem _ h1)) q h

theorem range_start_zero (words : List DescribedWord) : range_start words 0 = 0 := by
  simp [range_start]

theorem range_start_succ (w : DescribedWord) (words : List DescribedWord) (j : Nat) :
    range_start (w :: words) (j + 1) = w.description.length + range_start words j := by
  simp [range_start]

theorem words_text_cons (w : DescribedWord) (words : List DescribedWord) :
    words_text (w :: words) =
      46 :: (w.description ++ (words.map (fun w => w.description)).flatten) := by
  simp [words_text, WORD_DESCRIPTION_TERMINATOR]

theorem components_dot_free {lemmas : List Bytes} {form : Bytes}
    (h : ∀ c ∈ lemmas ++ [form], IsComponent c) :
    ∀ c0 ∈ lemmas ++ [form], ∀ b ∈ c0, b ≠ 46 :=
  fun c0 h0 b hb => (h c0 h0).2 b hb |>.2.2

/-- An occurrence of `.c.` in the text of a document lies in the range of a
word that has the component `c`. -/
theorem occurs_in_words (c : Bytes) (hc : ∀ b ∈ c, b ≠ 46) :
    ∀ (words : List DescribedWord), (∀ w ∈ words, WellDescribed w) → ∀ p,
      occurs_at (sample_of c) (words_text words) p →
      ∃ j lemmas form, words[j]? = some (described lemmas form) ∧
        (∀ c0 ∈ lemmas ++ [form], IsComponent c0) ∧ c ∈ lemmas ++ [form] ∧
        range_start words j ≤ p ∧ p < range_start words (j + 1) := by
  intro words
  induction words with
  | nil =>
    intro _ p h
    exfalso
    obtain ⟨h1, h2⟩ := h
    have := congrArg List.length h2
    rw [sample_of_length] at this
    simp [words_text] at this h1
    omega
  | cons w words ih =>
    intro hws p h
    obtain ⟨lemmas, form, rfl, hcomp⟩ := hws w (List.mem_cons_self _ _)
    rw [words_text_cons] at h
    rcases occurs_in_description c hc _ _ (components_dot_free hcomp) p h with
      ⟨h1, h2⟩ | ⟨h1, h2⟩
    · exact ⟨0, lemmas, form, List.getElem?_cons_zero, hcomp, h2, by rw [range_start_zero]; omega,
        by rw [range_start_succ, range_start_zero]; exact h1⟩
    · obtain ⟨j, lemmas', form', hj, hcomp', hmem, hlo, hhi⟩ :=
        ih (fun w' hw' => hws w' (List.mem_cons_of_mem _ hw')) _ h2
      refine ⟨j + 1, lemmas', form', by simpa using hj, hcomp', hmem, ?_, ?_⟩
      · rw [range_start_succ]
        change (description_of (lemmas ++ [form])).length + _ ≤ p
        omega
      · rw [range_start_succ]
        change p < (description_of (lemmas ++ [form])).length + _
        omega

/-- A component of a word of the document occurs as `.c.` in the range of the
word. -/
theorem occurs_of_component (c : Bytes) (hc : ∀ b ∈ c, b ≠ 46) :
    ∀ (words : List DescribedWord), (∀ w ∈ words, WellDescribed w) →
      ∀ (j : Nat) (lemmas : List Bytes) (form : Bytes),
      words[j]? = some (described lemmas form) → (∀ c0 ∈ lemmas ++ [form], ∀ b ∈ c0, b ≠ 46) →
      c ∈ lemmas ++ [form] →
      ∃ p, range_start words j ≤ p ∧ p < range_start words (j + 1) ∧
        occurs_at (sample_of c) (words_text words) p := by
  intro words
  induction words with
  | nil => intro _ j lemmas form h; simp at h
  | cons w words ih =>
    intro hws j lemmas form hj hdot hmem
    cases j with
    | zero =>
      simp only [List.getElem?_cons_zero, Option.some.injEq] at hj
      subst hj
      obtain ⟨p, hp, hocc⟩ := occurs_in_description_of_mem c hc
        ((words.map (fun w => w.description)).flatten) _ hdot hmem
      refine ⟨p, by rw [range_start_zero]; omega,
        by rw [range_start_succ, range_start_zero]; exact hp, ?_⟩
      rw [words_text_cons]
      exact hocc
    | succ j =>
      simp only [List.getElem?_cons_succ] at hj
      obtain ⟨p, hlo, hhi, hocc⟩ :=
        ih (fun w' hw' => hws w' (List.mem_cons_of_mem _ hw')) j lemmas form hj hdot hmem
      obtain ⟨lemmas0, form0, rfl, hcomp0⟩ := hws w (List.mem_cons_self _ _)
      refine ⟨p + (description_of (lemmas0 ++ [form0])).length, ?_, ?_, ?_⟩
      · rw [range_start_succ]
        change (description_of (lemmas0 ++ [form0])).length + _ ≤ _
        omega
      · rw [range_start_succ]
        change _ < (description_of (lemmas0 ++ [form0])).length + _
        omega
      · rw [words_text_cons]
        exact occurs_after_description c hc _ _ (components_dot_free hcomp0) p hocc

end Morph

namespace Morph

/-! ## The text and the ranges of a document -/

theorem build_text_loop_spec :
    ∀ (words : List DescribedWord) (text : Bytes) (ranges : List WordRange)
      (cursor words_counter : Int), 0 < words_counter → 1 ≤ cursor →
      cursor + ((words.map (fun w => w.description.length)).sum : Nat) < 2 ^ 31 →
      words_counter + (words.length : Nat) < 2 ^ 31 →
      (∀ w ∈ words, w.token_size < 2 ^ 31) →
      build_text_loop words text ranges cursor words_counter =
        (text ++ (words.map (fun w => w.description)).flatten,
          ranges ++ ranges_from cursor words_counter words) := by
  intro words
  induction words with
  | nil => intro text ranges cursor words_counter _ _ _ _ _; simp [build_text_loop, ranges_from]
  | cons w words ih =>
    intro text ranges cursor words_counter hpos hcursor hsize hcount htoken
    have hne : ¬ words_counter = 0 := by omega
    simp only [List.map_cons, List.sum_cons, Nat.cast_add, List.length_cons, Nat.cast_one] at hsize hcount
    have ht : (w.token_size : Int) < 2 ^ 31 := by
      exact_mod_cast htoken w (List.mem_cons_self _ _)
    have hlen : (0 : Int) ≤ (w.description.length : Int) := Int.ofNat_nonneg _
    have hsum : (0 : Int) ≤ ((words.map (fun w => w.description.length)).sum : Nat) :=
      Int.ofNat_nonneg _
    have htok : (0 : Int) ≤ (w.token_size : Int) := Int.ofNat_nonneg _
    have b7 : -2 ^ 31 ≤ cursor + (w.description.length : Int) - 1 - (w.token_size : Int) ∧
        cursor + (w.description.length : Int) - 1 - (w.token_size : Int) < 2 ^ 31 := by
      constructor <;> omega
    have b8 : -2 ^ 31 ≤ cursor + (w.description.length : Int) - 1 - (w.token_size : Int) - 1 ∧
        cursor + (w.description.length : Int) - 1 - (w.token_size : Int) - 1 < 2 ^ 31 := by
      constructor <;> omega
    have c1 : 0 < words_counter + 1 := by omega
    have c2 : 1 ≤ cursor + (w.description.length : Int) := by omega
    have c3 : cursor + (w.description.length : Int) +
        ((words.map (fun w => w.description.length)).sum : Nat) < 2 ^ 31 := by omega
    have c4 : words_counter + 1 + (words.length : Nat) < 2 ^ 31 := by omega
    have h1 : to_int32 (w.description.length : Int) = w.description.length :=
      to_int32_of_range (by omega) (by omega)
    have h2 : to_int32 (cursor + (w.description.length : Int)) = cursor + w.description.length :=
      to_int32_of_range (by omega) (by omega)
    have h3 : to_int32 (cursor + (w.description.length : Int) - 1) =
        cursor + w.description.length - 1 := to_int32_of_range (by omega) (by omega)
    have h4 : to_int32 (cursor - 1) = cursor - 1 := to_int32_of_range (by omega) (by omega)
    have h5 : to_int32 (words_counter + 1) = words_counter + 1 :=
      to_int32_of_range (by omega) (by omega)
    have h6 : to_int32 (w.token_size : Int) = w.token_size :=
      to_int32_of_range (by omega) (by omega)
    have h7 : to_int32 (cursor + (w.description.length : Int) - 1 - (w.token_size : Int)) =
        cursor + w.description.length - 1 - w.token_size :=
      to_int32_of_range b7.1 b7.2
    have h8 : to_int32 (cursor + (w.description.length : Int) - 1 - (w.token_size : Int) - 1) =
        cursor + w.description.length - 1 - w.token_size - 1 :=
      to_int32_of_range b8.1 b8.2
    simp only [build_text_loop, hne, decide_False, Bool.false_eq_true, if_false, h1, h2, h3, h4,
      h5, h6, h7, h8]
    rw [ih _ _ _ _ c1 c2 c3 c4
      (fun w0 hw0 => htoken w0 (List.mem_cons_of_mem _ hw0))]
    simp [ranges_from]

theorem words_text_length (words : List DescribedWord) :
    (words_text words).length = (words.map (fun w => w.description.length)).sum + 1 := by
  simp [words_text, List.length_flatten, Function.comp_def]

/-- The text and the ranges that `build_text_with_ranges` gives for a list of
words that is not empty, when the text, the number of the words and the sizes
of the tokens fit `int32_t`. -/
theorem build_text_with_ranges_cons (w : DescribedWord) (words : List DescribedWord)
    (hsize : (words_text (w :: words)).length < 2 ^ 31)
    (hcount : (w :: words).length < 2 ^ 31)
    (htoken : ∀ w0 ∈ w :: words, w0.token_size < 2 ^ 31) :
    build_text_with_ranges (w :: words) =
      (words_text (w :: words), ranges_from 1 0 (w :: words)) := by
  rw [words_text_length] at hsize
  simp only [List.map_cons, List.sum_cons, List.length_cons] at hsize hcount
  have hsize : (w.description.length : Int) +
      ((words.map (fun w => w.description.length)).sum : Nat) + 1 < 2 ^ 31 := by
    exact_mod_cast hsize
  have hcount : (words.length : Int) + 1 < 2 ^ 31 := by exact_mod_cast hcount
  have ht : (w.token_size : Int) < 2 ^ 31 := by
    exact_mod_cast htoken w (List.mem_cons_self _ _)
  have hlen : (0 : Int) ≤ (w.description.length : Int) := Int.ofNat_nonneg _
  have hsum : (0 : Int) ≤ ((words.map (fun w => w.description.length)).sum : Nat) :=
    Int.ofNat_nonneg _
  have htok : (0 : Int) ≤ (w.token_size : Int) := Int.ofNat_nonneg _
  have hwords : (0 : Int) ≤ (words.length : Int) := Int.ofNat_nonneg _
  have b7 : -2 ^ 31 ≤ (w.description.length : Int) - (w.token_size : Int) ∧
      (w.description.length : Int) - (w.token_size : Int) < 2 ^ 31 := by
    constructor <;> omega
  have b8 : -2 ^ 31 ≤ (w.description.length : Int) - (w.token_size : Int) - 1 ∧
      (w.description.length : Int) - (w.token_size : Int) - 1 < 2 ^ 31 := by
    constructor <;> omega
  have c2 : (1 : Int) ≤ (w.description.length : Int) + 1 := by omega
  have c3 : (w.description.length : Int) + 1 +
      ((words.map (fun w => w.description.length)).sum : Nat) < 2 ^ 31 := by omega
  have c4 : (1 : Int) + (words.length : Nat) < 2 ^ 31 := by omega
  have b1 : -2 ^ 31 ≤ (w.description.length : Int) + 1 ∧
      (w.description.length : Int) + 1 < 2 ^ 31 := by
    constructor <;> omega
  have b3 : -2 ^ 31 ≤ (w.description.length : Int) ∧ (w.description.length : Int) < 2 ^ 31 := by
    constructor <;> omega
  have h1 : to_int32 ((w.description.length : Int) + 1) = w.description.length + 1 :=
    to_int32_of_range b1.1 b1.2
  have h3 : to_int32 (w.description.length : Int) = w.description.length :=
    to_int32_of_range b3.1 b3.2
  have h5 : to_int32 1 = 1 := rfl
  have h6 : to_int32 (w.token_size : Int) = w.token_size :=
    to_int32_of_range (le_trans (by decide) htok) ht
  have h7 : to_int32 ((w.description.length : Int) - (w.token_size : Int)) =
      w.description.length - w.token_size := to_int32_of_range b7.1 b7.2
  have h8 : to_int32 ((w.description.length : Int) - (w.token_size : Int) - 1) =
      w.description.length - w.token_size - 1 := to_int32_of_range b8.1 b8.2
  simp only [build_text_with_ranges, build_text_loop, decide_True, if_true, List.length_cons,
    Nat.cast_add, Nat.cast_one, zero_add, h1, add_sub_cancel_right, h3, h5, h6, h7, h8]
  rw [build_text_loop_spec _ _ _ _ _ (by decide) c2 c3 c4
    (fun w0 hw0 => htoken w0 (List.mem_cons_of_mem _ hw0))]
  simp [ranges_from, words_text, add_comm]

/-- In a list of words described by their lemmas and their form, the text
holds at least one byte for each word and more bytes than any token. -/
theorem described_sizes :
    ∀ (words : List DescribedWord),
      (∀ w0 ∈ words, ∃ lemmas form, w0 = described lemmas form) →
      words.length ≤ (words.map (fun w => w.description.length)).sum ∧
      ∀ w0 ∈ words, w0.token_size < (words.map (fun w => w.description.length)).sum := by
  intro words
  induction words with
  | nil => intro _; exact ⟨Nat.le_refl _, fun w0 hw0 => by cases hw0⟩
  | cons w words ih =>
    intro hall
    obtain ⟨h1, h2⟩ := ih (fun w0 hw0 => hall w0 (List.mem_cons_of_mem _ hw0))
    obtain ⟨lemmas, form, rfl⟩ := hall w (List.mem_cons_self _ _)
    have hge : form.length + 1 ≤ (description_of (lemmas ++ [form])).length := by
      rw [description_of_append, description_of_cons]
      simp
      omega
    have hd : (described lemmas form).description.length =
        (description_of (lemmas ++ [form])).length := rfl
    have ht : (described lemmas form).token_size = form.length := rfl
    simp only [List.map_cons, List.sum_cons, List.length_cons, hd]
    refine ⟨by omega, ?_⟩
    intro w0 hw0
    rcases List.mem_cons.1 hw0 with rfl | hw0
    · rw [ht]; omega
    · have := h2 w0 hw0
      omega

/-- The text and the ranges that `build_text_with_ranges` gives for a list of
described words that is not empty, when the text fits `int32_t`. -/
theorem build_text_with_ranges_described (w : DescribedWord) (words : List DescribedWord)
    (hall : ∀ w0 ∈ w :: words, ∃ lemmas form, w0 = described lemmas form)
    (hsize : (words_text (w :: words)).length < 2 ^ 31) :
    build_text_with_ranges (w :: words) =
      (words_text (w :: words), ranges_from 1 0 (w :: words)) := by
  obtain ⟨h1, h2⟩ := described_sizes (w :: words) hall
  have hlen := words_text_length (w :: words)
  exact build_text_with_ranges_cons w words hsize (by omega)
    (fun w0 hw0 => by have := h2 w0 hw0; omega)

theorem ranges_from_length :
    ∀ (words : List DescribedWord) (cursor words_counter : Int),
      (ranges_from cursor words_counter words).length = words.length := by
  intro words
  induction words with
  | nil => intro _ _; rfl
  | cons w words ih => intro _ _; simp [ranges_from, ih]

theorem ranges_from_getElem :
    ∀ (words : List DescribedWord) (cursor words_counter : Int) (j : Nat) (w : DescribedWord),
      words[j]? = some w →
      (ranges_from cursor words_counter words)[j]? = some
        { word_index := words_counter + j,
          start_position := cursor + (range_start words j : Int) - 1,
          end_position := cursor + (range_start words (j + 1) : Int) - 1,
          original_start := cursor + (range_start words (j + 1) : Int) - 1 - (w.token_size : Int) - 1 } := by
  intro words
  induction words with
  | nil => intro _ _ j w h; simp at h
  | cons w0 words ih =>
    intro cursor words_counter j w h
    cases j with
    | zero =>
      simp only [List.getElem?_cons_zero, Option.some.injEq] at h
      subst h
      simp [ranges_from, range_start_zero, range_start_succ]
    | succ j =>
      simp only [List.getElem?_cons_succ] at h
      simp only [ranges_from, List.getElem?_cons_succ]
      rw [ih _ _ j w h, range_start_succ, range_start_succ]
      simp only [Nat.cast_add, Nat.cast_one, Option.some.injEq, WordRange.mk.injEq]
      refine ⟨by omega, by omega, by omega, by omega⟩

/-- The range of the word `j` in the document of the words. -/
theorem document_ranges_getElem (words : List DescribedWord) (j : Nat) (w : DescribedWord)
    (h : words[j]? = some w) :
    (ranges_from 1 0 words)[j]? = some
      { word_index := j, start_position := range_start words j,
        end_position := range_start words (j + 1),
        original_start := (range_start words (j + 1) : Int) - (w.token_size : Int) - 1 } := by
  rw [ranges_from_getElem words 1 0 j w h]
  simp only [Option.some.injEq, WordRange.mk.injEq]
  refine ⟨by omega, by omega, by omega, by omega⟩

theorem range_start_mono (words : List DescribedWord) :
    ∀ {i j : Nat}, i ≤ j → range_start words i ≤ range_start words j := by
  induction words with
  | nil => intro i j _; simp [range_start]
  | cons w words ih =>
    intro i j hij
    cases i with
    | zero => rw [range_start_zero]; omega
    | succ i =>
      obtain ⟨j, rfl⟩ : ∃ k, j = k + 1 := ⟨j - 1, by omega⟩
      rw [range_start_succ, range_start_succ]
      have := @ih i j (by omega)
      omega

theorem range_start_length (words : List DescribedWord) :
    (words_text words).length = range_start words words.length + 1 := by
  simp [words_text, range_start, List.length_flatten, Function.comp_def]

theorem well_described_bytes {w : DescribedWord} (h : WellDescribed w) :
    ∀ b ∈ w.description, 0 < b ∧ b < 256 := by
  obtain ⟨lemmas, form, rfl, hcomp⟩ := h
  intro b hb
  simp only [described, description_of, List.mem_flatten, List.mem_map] at hb
  obtain ⟨l, ⟨c, hc, rfl⟩, hb⟩ := hb
  rcases List.mem_append.1 hb with hb | hb
  · exact ⟨(hcomp c hc).2 b hb |>.1, (hcomp c hc).2 b hb |>.2.1⟩
  · rw [List.mem_singleton.1 hb]
    decide

theorem words_text_bytes (words : List DescribedWord) (hws : ∀ w ∈ words, WellDescribed w) :
    ∀ b ∈ words_text words, 0 < b ∧ b < 256 := by
  intro b hb
  simp only [words_text, List.mem_cons, List.mem_flatten, List.mem_map] at hb
  rcases hb with rfl | ⟨l, ⟨w, hw, rfl⟩, hb⟩
  · decide
  · exact well_described_bytes (hws w hw) b hb

/-- The document of a list of well described words that is not empty: it is
made, with the text of the words, their ranges and a good suffix array. -/
theorem make_document_spec (w : DescribedWord) (words : List DescribedWord)
    (hws : ∀ w0 ∈ w :: words, WellDescribed w0)
    (hsize : (words_text (w :: words)).length + 2 < 2 ^ 31) :
    ∃ document, make_document (w :: words) = some document ∧
      document.text = words_text (w :: words) ∧
      document.ranges = ranges_from 1 0 (w :: words) ∧ DocumentOk document := by
  obtain ⟨SA, hrun, hperm, hpw⟩ :=
    text_to_suffix_array_spec (words_text (w :: words)) (words_text_bytes _ hws) hsize
  refine ⟨{ text := words_text (w :: words), suffix_array := SA,
            ranges := ranges_from 1 0 (w :: words) }, ?_, rfl, rfl, ?_⟩
  · have hranges := build_text_with_ranges_described w words
      (fun w0 hw0 => by
        obtain ⟨lemmas, form, h, _⟩ := hws w0 hw0
        exact ⟨lemmas, form, h⟩)
      (by omega)
    simp only [make_document, hranges, hrun, Option.bind_eq_bind,
      Option.some_bind, Option.pure_def]
  · exact ⟨hperm, hpw.imp (fun h => bytes_le_of_lt _ _ h),
      fun b hb => by have := (words_text_bytes _ hws b hb).1; omega⟩

end Morph

namespace Morph

/-! ## The binary search of the ranges -/

theorem bsearch_ranges_spec (ranges : List WordRange) (position : Int) (j : Nat) (r : WordRange)
    (hj : ranges[j]? = some r)
    (hin : r.start_position ≤ position ∧ position < r.end_position)
    (hbefore : ∀ i ri, i < j → ranges[i]? = some ri →
      ri.start_position ≤ position ∧ ri.end_position ≤ position)
    (hafter : ∀ i ri, j < i → ranges[i]? = some ri → position < ri.start_position) :
    ∀ (fuel lower upper : Nat), lower ≤ j → j < upper → upper ≤ ranges.length →
      upper - lower < fuel → bsearch_ranges ranges position fuel lower upper = some j := by
  intro fuel
  induction fuel with
  | zero => intro lower upper _ _ _ h; omega
  | succ fuel ih =>
    intro lower upper hlo hhi hlen hfuel
    have hlt : lower < upper := by omega
    have hidx : (lower + upper) / 2 < ranges.length := by omega
    simp only [bsearch_ranges, hlt, if_true]
    obtain ⟨ri, hri⟩ : ∃ ri, ranges[(lower + upper) / 2]? = some ri :=
      ⟨_, List.getElem?_eq_getElem hidx⟩
    rw [hri]
    simp only
    rcases Nat.lt_trichotomy ((lower + upper) / 2) j with hcase | hcase | hcase
    · obtain ⟨h1, h2⟩ := hbefore _ _ hcase hri
      have hcmp : range_searcher position ri = 1 := by
        unfold range_searcher
        rw [if_neg (by omega), if_pos (by omega)]
      rw [hcmp]
      simp only [show ¬ ((1 : Int) < 0) by decide, if_false, show (1 : Int) > 0 by decide, if_true]
      exact ih _ _ (by omega) hhi hlen (by omega)
    · have heq : ri = r := by
        rw [hcase, hj] at hri
        exact (Option.some.inj hri).symm
      have hcmp : range_searcher position ri = 0 := by
        rw [heq]
        unfold range_searcher
        rw [if_neg (by omega), if_neg (by omega)]
      rw [hcmp]
      simp only [show ¬ ((0 : Int) < 0) by decide, if_false, show ¬ ((0 : Int) > 0) by decide,
        hcase]
    · have h1 := hafter _ _ hcase hri
      have hcmp : range_searcher position ri = -1 := by
        unfold range_searcher
        rw [if_pos h1]
      rw [hcmp]
      simp only [show ((-1 : Int) < 0) by decide, if_true]
      exact ih _ _ hlo (by omega) (by omega) (by omega)

/-- `find_word_range` on the ranges of a document gives the word in whose
range the position lies. -/
theorem find_word_range_spec (words : List DescribedWord) (j : Nat) (p : Nat)
    (hj : j < words.length) (hlo : range_start words j ≤ p)
    (hhi : p < range_start words (j + 1)) :
    find_word_range (ranges_from 1 0 words) (p : Int) = some j := by
  have hw : words[j]? = some words[j] := List.getElem?_eq_getElem hj
  unfold find_word_range
  apply bsearch_ranges_spec _ _ j _ (document_ranges_getElem words j _ hw)
  · exact ⟨by simp only; exact_mod_cast hlo, by simp only; exact_mod_cast hhi⟩
  · intro i ri hi hri
    have hil : i < words.length := by omega
    rw [document_ranges_getElem words i _ (List.getElem?_eq_getElem hil)] at hri
    have hri := Option.some.inj hri
    subst hri
    have h1 := @range_start_mono words i j (by omega)
    have h2 := @range_start_mono words (i + 1) j (by omega)
    exact ⟨by simp only; exact_mod_cast (by omega : range_start words i ≤ p),
      by simp only; exact_mod_cast (by omega : range_start words (i + 1) ≤ p)⟩
  · intro i ri hi hri
    have hil : i < words.length := by
      have := List.getElem?_eq_some.1 hri
      obtain ⟨h, _⟩ := this
      rw [ranges_from_length] at h
      exact h
    rw [document_ranges_getElem words i _ (List.getElem?_eq_getElem hil)] at hri
    have hri := Option.some.inj hri
    subst hri
    have h1 := @range_start_mono words (j + 1) i (by omega)
    simp only
    exact_mod_cast (by omega : p < range_start words i)
  · omega
  · rw [ranges_from_length]
    exact hj
  · exact le_refl _
  · rw [ranges_from_length]
    omega

end Morph

namespace Morph

/-! ## The loop over the components of a description -/

theorem indexOf_terminator :
    ∀ (c R : Bytes), (∀ b ∈ c, b ≠ 46) →
      (c ++ 46 :: R).indexOf? WORD_DESCRIPTION_TERMINATOR = some c.length := by
  intro c
  induction c with
  | nil => intro R _; simp [List.indexOf?, List.findIdx?_cons, WORD_DESCRIPTION_TERMINATOR]
  | cons a c ih =>
    intro R hc
    have ha : a ≠ 46 := hc a (List.mem_cons_self _ _)
    have := ih R (fun b hb => hc b (List.mem_cons_of_mem _ hb))
    simp only [List.indexOf?, WORD_DESCRIPTION_TERMINATOR] at this ⊢
    simp only [List.cons_append, List.findIdx?_cons, beq_iff_eq, ha, if_false]
    rw [List.findIdx?_succ, this]
    simp

theorem find_terminator_spec (pre c R : Bytes) (hc : ∀ b ∈ c, b ≠ 46) :
    find_terminator (pre ++ (c ++ 46 :: R)) pre.length = some (pre.length + c.length) := by
  unfold find_terminator
  rw [List.drop_left, indexOf_terminator c R hc]
  rfl

theorem getD_append_length (X Y : Bytes) (n : Nat) (hn : n = X.length) :
    (X ++ Y).getD n 0 = Y.getD 0 0 := by
  subst hn
  rw [List.getD_eq_getElem?_getD, List.getD_eq_getElem?_getD,
    List.getElem?_append_right (le_refl _)]
  simp

theorem take_component (c R : Bytes) : (c ++ 46 :: R).take (c.length + 1) = c ++ [46] := by
  rw [List.take_append_eq_append_take]
  simp

theorem description_getD_zero (cs : List Bytes) (hcs : ∀ c ∈ cs, IsComponent c) :
    ((description_of cs).getD 0 0 ≠ 0) ↔ cs ≠ [] := by
  cases cs with
  | nil => simp [description_of_nil]
  | cons c cs =>
    obtain ⟨hne, hb⟩ := hcs c (List.mem_cons_self _ _)
    cases c with
    | nil => exact absurd rfl hne
    | cons a c =>
      have := (hb a (List.mem_cons_self _ _)).1
      simp only [description_of_cons, List.cons_append, List.getD_cons_zero, ne_eq,
        not_false_eq_true, reduceCtorEq, iff_true]
      omega

/-- One round of the loop after the first one: the description is
`pre.c.R` and `lemma_start` is at the terminator after `pre`. -/
theorem find_lemmas_loop_step (document : Document) (is_first_lemma : Bool)
    (pre c R : Bytes) (hc : ∀ b ∈ c, b ≠ 46) (hpre : pre ≠ []) (fuel : Nat)
    (allowed_ranges result_ranges : List (Option Nat)) :
    find_lemmas_loop document (pre ++ 46 :: (c ++ 46 :: R)) is_first_lemma (fuel + 1)
      pre.length allowed_ranges result_ranges =
    (find_lemma_step document is_first_lemma c allowed_ranges result_ranges).bind
      (fun st =>
        if R.getD 0 0 ≠ 0 then
          find_lemmas_loop document (pre ++ 46 :: (c ++ 46 :: R)) is_first_lemma fuel
            (pre ++ 46 :: c).length st.1 st.2
        else some st) := by
  have hterm : find_terminator (pre ++ 46 :: (c ++ 46 :: R)) (pre.length + 1) =
      some (pre.length + 1 + c.length) := by
    have := find_terminator_spec (pre ++ [46]) c R hc
    simpa using this
  have hpos : pre.length ≠ 0 := by
    intro h
    exact hpre (List.length_eq_zero.1 h)
  have hsample : List.take (pre.length + 1 + c.length - pre.length + 1)
      (List.drop pre.length (pre ++ 46 :: (c ++ 46 :: R))) = sample_of c := by
    rw [List.drop_left]
    have : pre.length + 1 + c.length - pre.length + 1 = (c.length + 1) + 1 := by omega
    rw [this, List.take_succ_cons, take_component]
    rfl
  have hend : (pre ++ 46 :: (c ++ 46 :: R)).getD (pre.length + 1 + c.length + 1) 0 =
      R.getD 0 0 := by
    have : pre ++ 46 :: (c ++ 46 :: R) = (pre ++ 46 :: (c ++ [46])) ++ R := by simp
    rw [this]
    apply getD_append_length
    simp
    omega
  have hlen : (pre ++ 46 :: c).length = pre.length + 1 + c.length := by
    simp
    omega
  simp only [find_lemmas_loop, hterm, Option.bind_eq_bind, Option.some_bind, hpos, if_false,
    hsample, hend, find_lemma_step, hlen]
  cases find_with_suffix_array (sample_of c) (sample_of c).length document.text
      document.text.length document.suffix_array with
  | none => rfl
  | some found =>
    simp only [Option.some_bind]
    cases found with
    | none => rfl
    | some se =>
      obtain ⟨s, e⟩ := se
      simp only

/-- The first round of the loop: the description is `c.R` and `lemma_start`
is at its start. -/
theorem find_lemmas_loop_first (document : Document) (is_first_lemma : Bool)
    (c R : Bytes) (hc : ∀ b ∈ c, b ≠ 46) (hne : c ≠ []) (fuel : Nat)
    (allowed_ranges result_ranges : List (Option Nat)) :
    find_lemmas_loop document (c ++ 46 :: R) is_first_lemma (fuel + 1) 0 allowed_ranges
      result_ranges =
    (find_lemma_step document is_first_lemma c allowed_ranges result_ranges).bind
      (fun st =>
        if R.getD 0 0 ≠ 0 then
          find_lemmas_loop document (c ++ 46 :: R) is_first_lemma fuel c.length st.1 st.2
        else some st) := by
  have hterm : find_terminator (c ++ 46 :: R) (0 + 1) = some c.length := by
    obtain ⟨a, c', rfl⟩ : ∃ a c', c = a :: c' := by
      cases c with
      | nil => exact absurd rfl hne
      | cons a c' => exact ⟨a, c', rfl⟩
    have := find_terminator_spec [a] c' R (fun b hb => hc b (List.mem_cons_of_mem _ hb))
    simpa [add_comm] using this
  have hsample : WORD_DESCRIPTION_TERMINATOR :: List.take (c.length + 1) (c ++ 46 :: R) =
      sample_of c := by
    rw [take_component]
    rfl
  have hend : (c ++ 46 :: R).getD (c.length + 1) 0 = R.getD 0 0 := by
    have : c ++ 46 :: R = (c ++ [46]) ++ R := by simp
    rw [this]
    apply getD_append_length
    simp
  simp only [find_lemmas_loop, hterm, Option.bind_eq_bind, Option.some_bind, if_true,
    hsample, hend, find_lemma_step]
  cases find_with_suffix_array (sample_of c) (sample_of c).length document.text
      document.text.length document.suffix_array with
  | none => rfl
  | some found =>
    simp only [Option.some_bind]
    cases found with
    | none => rfl
    | some se =>
      obtain ⟨s, e⟩ := se
      simp only

end Morph

namespace Morph

/-! ## `find_lemmas_in_document` as the rounds over the components -/

theorem find_lemmas_fold_cons (document : Document) (is_first_lemma : Bool) (c : Bytes)
    (cs : List Bytes) (allowed_ranges result_ranges : List (Option Nat)) :
    find_lemmas_fold document is_first_lemma (c :: cs) allowed_ranges result_ranges =
      (find_lemma_step document is_first_lemma c allowed_ranges result_ranges).bind
        (fun st => find_lemmas_fold document is_first_lemma cs st.1 st.2) := by
  rw [find_lemmas_fold]
  rfl

theorem find_lemmas_loop_rest (document : Document) (is_first_lemma : Bool) :
    ∀ (cs : List Bytes) (c : Bytes) (pre : Bytes) (fuel : Nat)
      (allowed_ranges result_ranges : List (Option Nat)),
      (∀ c0 ∈ c :: cs, IsComponent c0) → pre ≠ [] → cs.length < fuel →
      find_lemmas_loop document (pre ++ 46 :: description_of (c :: cs)) is_first_lemma fuel
        pre.length allowed_ranges result_ranges =
      find_lemmas_fold document is_first_lemma (c :: cs) allowed_ranges result_ranges := by
  intro cs
  induction cs with
  | nil =>
    intro c pre fuel allowed_ranges result_ranges hcs hpre hfuel
    obtain ⟨fuel, rfl⟩ : ∃ k, fuel = k + 1 := ⟨fuel - 1, by omega⟩
    have hdot : ∀ b ∈ c, b ≠ 46 := fun b hb => ((hcs c (List.mem_cons_self _ _)).2 b hb).2.2
    rw [description_of_cons, find_lemmas_loop_step document is_first_lemma pre c _ hdot hpre,
      find_lemmas_fold_cons]
    congr 1
  | cons c1 cs ih =>
    intro c pre fuel allowed_ranges result_ranges hcs hpre hfuel
    obtain ⟨fuel, rfl⟩ : ∃ k, fuel = k + 1 := ⟨fuel - 1, by omega⟩
    have hdot : ∀ b ∈ c, b ≠ 46 := fun b hb => ((hcs c (List.mem_cons_self _ _)).2 b hb).2.2
    rw [description_of_cons, find_lemmas_loop_step document is_first_lemma pre c _ hdot hpre,
      find_lemmas_fold_cons]
    congr 1
    funext st
    have hnz : (description_of (c1 :: cs)).getD 0 0 ≠ 0 :=
      (description_getD_zero _ (fun c0 h0 => hcs c0 (List.mem_cons_of_mem _ h0))).2
        (List.cons_ne_nil _ _)
    rw [if_pos hnz]
    have hsplit : pre ++ 46 :: (c ++ 46 :: description_of (c1 :: cs)) =
        (pre ++ 46 :: c) ++ 46 :: description_of (c1 :: cs) := by simp
    rw [hsplit]
    exact ih c1 (pre ++ 46 :: c) fuel st.1 st.2
      (fun c0 h0 => hcs c0 (List.mem_cons_of_mem _ h0)) (by simp)
      (by simp only [List.length_cons] at hfuel; omega)

theorem description_of_length_ge (cs : List Bytes) : cs.length ≤ (description_of cs).length := by
  induction cs with
  | nil => simp
  | cons c cs ih => rw [description_of_length_cons]; simp only [List.length_cons]; omega

/-- `find_lemmas_in_document` on the description of the components goes
through the rounds of the components in order. -/
theorem find_lemmas_in_document_spec (document : Document) (cs : List Bytes)
    (hcs : ∀ c ∈ cs, IsComponent c) (hne : cs ≠ [])
    (allowed_ranges result_ranges : List (Option Nat)) :
    find_lemmas_in_document document (description_of cs) allowed_ranges result_ranges =
      find_lemmas_fold document (decide (allowed_ranges.length = 0)) cs allowed_ranges
        result_ranges := by
  obtain ⟨c, cs, rfl⟩ : ∃ c cs', cs = c :: cs' := by
    cases cs with
    | nil => exact absurd rfl hne
    | cons c cs' => exact ⟨c, cs', rfl⟩
  have hc := hcs c (List.mem_cons_self _ _)
  have hdot : ∀ b ∈ c, b ≠ 46 := fun b hb => (hc.2 b hb).2.2
  unfold find_lemmas_in_document
  rw [description_of_cons, find_lemmas_loop_first document _ c _ hdot hc.1, find_lemmas_fold_cons]
  congr 1
  funext st
  cases cs with
  | nil => simp [description_of_nil, find_lemmas_fold]
  | cons c1 cs =>
    have hnz : (description_of (c1 :: cs)).getD 0 0 ≠ 0 :=
      (description_getD_zero _ (fun c0 h0 => hcs c0 (List.mem_cons_of_mem _ h0))).2
        (List.cons_ne_nil _ _)
    rw [if_pos hnz]
    have := find_lemmas_loop_rest document (decide (allowed_ranges.length = 0)) cs c1 c
      ((c ++ 46 :: description_of (c1 :: cs)).length) st.1 st.2
      (fun c0 h0 => hcs c0 (List.mem_cons_of_mem _ h0)) hc.1
      (by
        have := description_of_length_ge (c1 :: cs)
        simp only [List.length_append, List.length_cons] at this ⊢
        omega)
    exact this

end Morph

namespace Morph

/-! ## The ranges found for the first token of a phrase -/

theorem sample_of_nonzero (c : Bytes) (hc : IsComponent c) : ∀ b ∈ sample_of c, b ≠ 0 := by
  intro b hb
  simp only [sample_of, WORD_DESCRIPTION_TERMINATOR, List.mem_cons, List.mem_append,
    List.mem_singleton, List.not_mem_nil, or_false] at hb
  rcases hb with rfl | hb | rfl
  · decide
  · have := (hc.2 b hb).1
    omega
  · decide

/-- One round of the loop in a good document walks over the positions at which
`.c.` occurs in the text. -/
theorem find_lemma_step_spec (document : Document) (hdoc : DocumentOk document)
    (is_first_lemma : Bool) (c : Bytes) (hc : IsComponent c)
    (allowed_ranges result_ranges : List (Option Nat)) :
    ∃ suffixes : List Nat,
      find_lemma_step document is_first_lemma c allowed_ranges result_ranges =
        collect_ranges document is_first_lemma suffixes allowed_ranges result_ranges ∧
      ∀ p, p ∈ suffixes ↔ occurs_at (sample_of c) document.text p := by
  have hlen : document.suffix_array.length = document.text.length := by
    simpa using hdoc.perm.length_eq
  have hrange : ∀ i, i < document.text.length →
      at_index document.suffix_array i < document.text.length := by
    intro i hi
    rw [at_index_eq_getElem _ i (by omega)]
    exact List.mem_range.1 (hdoc.perm.mem_iff.1 (List.getElem_mem _))
  have hidx : ∀ p, p < document.text.length →
      ∃ i, i < document.text.length ∧ at_index document.suffix_array i = p := by
    intro p hp
    obtain ⟨i, hi, hget⟩ := List.mem_iff_getElem.1 (hdoc.perm.mem_iff.2 (List.mem_range.2 hp))
    exact ⟨i, by omega, by rw [at_index_eq_getElem _ i hi]; exact hget⟩
  obtain ⟨r, hrun, hpost⟩ := find_with_suffix_array_spec (sample_of c) document.text
    document.suffix_array (sample_of_nonzero c hc) hlen hdoc.sorted
  unfold find_lemma_step
  rw [hrun]
  cases r with
  | none =>
    refine ⟨[], by simp [collect_ranges], fun p => ?_⟩
    simp only [List.not_mem_nil, false_iff]
    rintro ⟨hp, hocc⟩
    obtain ⟨i, hi, rfl⟩ := hidx p hp
    exact hpost i hi hocc
  | some se =>
    obtain ⟨s, e⟩ := se
    obtain ⟨h1, h2, h3⟩ := hpost
    refine ⟨(document.suffix_array.drop s).take (e + 1 - s), by simp, fun p => ?_⟩
    rw [mem_slice]
    unfold occurs_at
    constructor
    · rintro ⟨i, hi1, hi2, hget⟩
      have hi : i < document.text.length := by omega
      have hat : at_index document.suffix_array i = p := by
        rw [at_index_eq_getElem _ i (by omega)]
        rw [List.getElem?_eq_getElem (by omega)] at hget
        exact Option.some.inj hget
      rw [← hat]
      exact ⟨hrange i hi, (h3 i hi).1 ⟨hi1, by omega⟩⟩
    · rintro ⟨hp, hmatch⟩
      obtain ⟨i, hi, rfl⟩ := hidx p hp
      obtain ⟨hs, he⟩ := (h3 i hi).2 hmatch
      refine ⟨i, hs, by omega, ?_⟩
      rw [List.getElem?_eq_getElem (by omega), at_index_eq_getElem _ i (by omega)]

/-- The walk over the suffixes for the first token of a phrase: every suffix
that lies in the range of a word adds the word that follows to the results. -/
theorem collect_ranges_first (document : Document) :
    ∀ (suffixes : List Nat) (allowed_ranges result_ranges : List (Option Nat)),
      ∃ allowed result, collect_ranges document true suffixes allowed_ranges result_ranges =
          some (allowed, result) ∧
        ∀ x, x ∈ result ↔ x ∈ result_ranges ∨
          ∃ p ∈ suffixes, ∃ j, find_word_range document.ranges (p : Int) = some j ∧
            x = some (j + 1) := by
  intro suffixes
  induction suffixes with
  | nil =>
    intro allowed_ranges result_ranges
    exact ⟨allowed_ranges, result_ranges, rfl, fun x => by simp⟩
  | cons p suffixes ih =>
    intro allowed_ranges result_ranges
    simp only [collect_ranges, Bool.not_true, Bool.false_eq_true, if_false, Option.bind_eq_bind,
      Option.some_bind]
    cases hfw : find_word_range document.ranges (p : Int) with
    | none =>
      obtain ⟨allowed, result, hrun, hmem⟩ := ih (allowed_ranges ++ [none]) result_ranges
      refine ⟨allowed, result, hrun, fun x => ?_⟩
      rw [hmem]
      constructor
      · rintro (h | ⟨q, hq, j, hj, hx⟩)
        · exact Or.inl h
        · exact Or.inr ⟨q, List.mem_cons_of_mem _ hq, j, hj, hx⟩
      · rintro (h | ⟨q, hq, j, hj, hx⟩)
        · exact Or.inl h
        · rcases List.mem_cons.1 hq with rfl | hq
          · rw [hfw] at hj
            cases hj
          · exact Or.inr ⟨q, hq, j, hj, hx⟩
    | some j0 =>
      obtain ⟨allowed, result, hrun, hmem⟩ :=
        ih (allowed_ranges ++ [some j0]) (result_ranges ++ [some (j0 + 1)])
      refine ⟨allowed, result, hrun, fun x => ?_⟩
      rw [hmem]
      constructor
      · rintro (h | ⟨q, hq, j, hj, hx⟩)
        · rcases List.mem_append.1 h with h | h
          · exact Or.inl h
          · exact Or.inr ⟨p, List.mem_cons_self _ _, j0, hfw, List.mem_singleton.1 h⟩
        · exact Or.inr ⟨q, List.mem_cons_of_mem _ hq, j, hj, hx⟩
      · rintro (h | ⟨q, hq, j, hj, hx⟩)
        · exact Or.inl (List.mem_append_left _ h)
        · rcases List.mem_cons.1 hq with rfl | hq
          · rw [hfw] at hj
            cases hj
            exact Or.inl (List.mem_append_right _ (List.mem_singleton.2 hx))
          · exact Or.inr ⟨q, hq, j, hj, hx⟩

/-- The rounds over the components of the first token in a good document: the
results are the words that follow a word in whose range a component occurs. -/
theorem find_lemmas_fold_first (document : Document) (hdoc : DocumentOk document) :
    ∀ (cs : List Bytes), (∀ c ∈ cs, IsComponent c) →
      ∀ (allowed_ranges result_ranges : List (Option Nat)),
      ∃ allowed result, find_lemmas_fold document true cs allowed_ranges result_ranges =
          some (allowed, result) ∧
        ∀ x, x ∈ result ↔ x ∈ result_ranges ∨
          ∃ c ∈ cs, ∃ p, occurs_at (sample_of c) document.text p ∧
            ∃ j, find_word_range document.ranges (p : Int) = some j ∧ x = some (j + 1) := by
  intro cs
  induction cs with
  | nil =>
    intro _ allowed_ranges result_ranges
    exact ⟨allowed_ranges, result_ranges, rfl, fun x => by simp⟩
  | cons c cs ih =>
    intro hcs allowed_ranges result_ranges
    obtain ⟨suffixes, hstep, hsuf⟩ := find_lemma_step_spec document hdoc true c
      (hcs c (List.mem_cons_self _ _)) allowed_ranges result_ranges
    obtain ⟨allowed1, result1, hrun1, hmem1⟩ :=
      collect_ranges_first document suffixes allowed_ranges result_ranges
    obtain ⟨allowed, result, hrun, hmem⟩ :=
      ih (fun c0 h0 => hcs c0 (List.mem_cons_of_mem _ h0)) allowed1 result1
    refine ⟨allowed, result, ?_, fun x => ?_⟩
    · rw [find_lemmas_fold_cons, hstep, hrun1]
      exact hrun
    · rw [hmem, hmem1]
      constructor
      · rintro ((h | ⟨p, hp, j, hj, hx⟩) | ⟨c1, hc1, p, hp, j, hj, hx⟩)
        · exact Or.inl h
        · exact Or.inr ⟨c, List.mem_cons_self _ _, p, (hsuf p).1 hp, j, hj, hx⟩
        · exact Or.inr ⟨c1, List.mem_cons_of_mem _ hc1, p, hp, j, hj, hx⟩
      · rintro (h | ⟨c1, hc1, p, hp, j, hj, hx⟩)
        · exact Or.inl (Or.inl h)
        · rcases List.mem_cons.1 hc1 with rfl | hc1
          · exact Or.inl (Or.inr ⟨p, (hsuf p).2 hp, j, hj, hx⟩)
          · exact Or.inr ⟨c1, hc1, p, hp, j, hj, hx⟩

end Morph

namespace Morph

/-! ## The result of a phrase of one token -/

theorem component_cancel (c c0 R R0 : Bytes) (hc : ∀ b ∈ c, b ≠ 46) (hc0 : ∀ b ∈ c0, b ≠ 46)
    (h : c ++ 46 :: R = c0 ++ 46 :: R0) : c = c0 ∧ R = R0 := by
  have h1 : (c0 ++ 46 :: R0).take (c.length + 1) = c ++ [46] := by
    rw [← h]
    exact take_component c R
  have heq := (take_component_eq c c0 R0 hc hc0).1 h1
  subst heq
  have := List.append_cancel_left h
  exact ⟨rfl, (List.cons.inj this).2⟩

theorem description_of_injective :
    ∀ (cs ds : List Bytes), (∀ c ∈ cs, ∀ b ∈ c, b ≠ 46) → (∀ c ∈ ds, ∀ b ∈ c, b ≠ 46) →
      description_of cs = description_of ds → cs = ds := by
  intro cs
  induction cs with
  | nil =>
    intro ds _ _ h
    cases ds with
    | nil => rfl
    | cons d ds =>
      rw [description_of_nil, description_of_cons] at h
      have := congrArg List.length h
      simp at this
      omega
  | cons c cs ih =>
    intro ds hcs hds h
    cases ds with
    | nil =>
      rw [description_of_nil, description_of_cons] at h
      have := congrArg List.length h
      simp at this
    | cons d ds =>
      rw [description_of_cons, description_of_cons] at h
      obtain ⟨h1, h2⟩ := component_cancel c d _ _ (hcs c (List.mem_cons_self _ _))
        (hds d (List.mem_cons_self _ _)) h
      rw [h1, ih ds (fun c0 h0 => hcs c0 (List.mem_cons_of_mem _ h0))
        (fun c0 h0 => hds c0 (List.mem_cons_of_mem _ h0)) h2]

/-- A well described word has one list of lemmas and one form. -/
theorem described_injective (lemmas lemmas0 : List Bytes) (form form0 : Bytes)
    (h1 : ∀ c ∈ lemmas ++ [form], IsComponent c) (h2 : ∀ c ∈ lemmas0 ++ [form0], IsComponent c)
    (h : described lemmas form = described lemmas0 form0) : lemmas = lemmas0 ∧ form = form0 := by
  have hd : description_of (lemmas ++ [form]) = description_of (lemmas0 ++ [form0]) :=
    congrArg DescribedWord.description h
  have := description_of_injective _ _ (components_dot_free h1) (components_dot_free h2) hd
  exact List.append_inj' this rfl |>.imp id (fun h => List.cons.inj h |>.1)

/-- The words found for a phrase of one token in the document of the words:
the result ranges are the ranges after the words that have a component in
common with the token. -/
theorem first_token_ranges (words : List DescribedWord) (hws : ∀ w ∈ words, WellDescribed w)
    (document : Document) (htext : document.text = words_text words)
    (hranges : document.ranges = ranges_from 1 0 words) (hdoc : DocumentOk document)
    (cs : List Bytes) (hcs : ∀ c ∈ cs, IsComponent c) :
    ∃ allowed result, find_lemmas_fold document true cs [] [] = some (allowed, result) ∧
      ∀ x, x ∈ result ↔
        ∃ j lemmas form, words[j]? = some (described lemmas form) ∧
          (∀ c ∈ lemmas ++ [form], IsComponent c) ∧ (∃ c ∈ cs, c ∈ lemmas ++ [form]) ∧
          x = some (j + 1) := by
  obtain ⟨allowed, result, hrun, hmem⟩ := find_lemmas_fold_first document hdoc cs hcs [] []
  refine ⟨allowed, result, hrun, fun x => ?_⟩
  rw [hmem, htext, hranges]
  simp only [List.not_mem_nil, false_or]
  constructor
  · rintro ⟨c, hc, p, hp, j, hj, hx⟩
    have hdot : ∀ b ∈ c, b ≠ 46 := fun b hb => ((hcs c hc).2 b hb).2.2
    obtain ⟨j0, lemmas, form, hw, hcomp, hmemc, hlo, hhi⟩ :=
      occurs_in_words c hdot words hws p hp
    have hj0 : j0 < words.length := (List.getElem?_eq_some.1 hw).1
    rw [find_word_range_spec words j0 p hj0 hlo hhi] at hj
    have hjj := Option.some.inj hj
    subst hjj
    exact ⟨j0, lemmas, form, hw, hcomp, ⟨c, hc, hmemc⟩, hx⟩
  · rintro ⟨j, lemmas, form, hw, hcomp, ⟨c, hc, hmemc⟩, hx⟩
    have hdot : ∀ b ∈ c, b ≠ 46 := fun b hb => ((hcs c hc).2 b hb).2.2
    obtain ⟨p, hlo, hhi, hocc⟩ := occurs_of_component c hdot words hws j lemmas form hw
      (components_dot_free hcomp) hmemc
    have hj : j < words.length := (List.getElem?_eq_some.1 hw).1
    exact ⟨c, hc, p, hocc, j, find_word_range_spec words j p hj hlo hhi, hx⟩

end Morph

namespace Morph

/-! ## The line rebuilt for a result of one token -/

theorem form_in_text :
    ∀ (words : List DescribedWord) (j : Nat) (lemmas : List Bytes) (form : Bytes),
      words[j]? = some (described lemmas form) →
      ∃ A B, (words.map (fun w => w.description)).flatten = A ++ form ++ 46 :: B ∧
        A.length + form.length + 1 = range_start words (j + 1) := by
  intro words
  induction words with
  | nil => intro j lemmas form h; simp at h
  | cons w words ih =>
    intro j lemmas form h
    cases j with
    | zero =>
      simp only [List.getElem?_cons_zero, Option.some.injEq] at h
      subst h
      refine ⟨description_of lemmas, (words.map (fun w => w.description)).flatten, ?_, ?_⟩
      · simp [described, description_of_append, description_of_cons, description_of_nil]
      · rw [range_start_succ, range_start_zero]
        simp [described, description_of_append, description_of_cons, description_of_nil]
        omega
    | succ j =>
      simp only [List.getElem?_cons_succ] at h
      obtain ⟨A, B, h1, h2⟩ := ih j lemmas form h
      refine ⟨w.description ++ A, B, ?_, ?_⟩
      · simp [h1]
      · rw [range_start_succ]
        simp only [List.length_append]
        omega

/-- The line rebuilt for the range of one word is the form of the word. -/
theorem rebuild_line_one (words : List DescribedWord) (document : Document)
    (htext : document.text = words_text words)
    (hranges : document.ranges = ranges_from 1 0 words)
    (j : Nat) (lemmas : List Bytes) (form : Bytes)
    (hw : words[j]? = some (described lemmas form)) :
    rebuild_line document 1 (j : Int) = some form := by
  obtain ⟨A, B, h1, h2⟩ := form_in_text words j lemmas form hw
  have hr := document_ranges_getElem words j _ hw
  have hneg : ¬ ((j : Int) < 0) := by omega
  simp only [rebuild_line, hneg, if_false, Option.bind_eq_bind, Int.toNat_ofNat, hranges, hr,
    Option.some_bind, Option.pure_def, if_true, htext, words_text, h1, described,
    WORD_DESCRIPTION_TERMINATOR]
  have e1 : ((range_start words (j + 1) : Int) - (form.length : Int) - 1 + 1).toNat =
      A.length + 1 := by omega
  have e2 : ((range_start words (j + 1) : Int) -
      ((range_start words (j + 1) : Int) - (form.length : Int) - 1) - 1).toNat = form.length := by
    omega
  simp only [e1, e2]
  have e3 : range_start words (j + 1) - form.length = A.length + 1 := by omega
  simp [e3]

theorem strncmp_self (s : Bytes) (hs : ∀ b ∈ s, b ≠ 0) : strncmp s s s.length = 0 :=
  (strncmp_eq_zero_iff s s hs).2 (List.take_length s)

theorem add_to_string_set_same (F : Bytes) (hF : ∀ b ∈ F, b ≠ 0) :
    add_to_string_set [F] F F.length = some ([F], false) := by
  simp [add_to_string_set, position_for_string, position_for_string_loop, strncmp_self F hF]

/-- The results of one token whose words all have the form `F`: the set holds
`F` once when a word was found. -/
theorem collect_results_same (words : List DescribedWord) (document : Document)
    (htext : document.text = words_text words)
    (hranges : document.ranges = ranges_from 1 0 words) (F : Bytes) (hF : ∀ b ∈ F, b ≠ 0) :
    ∀ (allowed : List (Option Nat)),
      (∀ x ∈ allowed, ∃ j lemmas, words[j]? = some (described lemmas F) ∧ x = some (j + 1)) →
      collect_results document 1 allowed [F] = some [F] ∧
      collect_results document 1 allowed [] = some (if allowed = [] then [] else [F]) := by
  intro allowed
  induction allowed with
  | nil => intro _; exact ⟨rfl, rfl⟩
  | cons x allowed ih =>
    intro h
    obtain ⟨j, lemmas, hw, rfl⟩ := h x (List.mem_cons_self _ _)
    obtain ⟨ih1, _⟩ := ih (fun y hy => h y (List.mem_cons_of_mem _ hy))
    have hline := rebuild_line_one words document htext hranges j lemmas F hw
    have hidx : ((j + 1 : Nat) : Int) - 1 - ((1 : Nat) : Int) + 1 = (j : Int) := by omega
    constructor
    · simp only [collect_results, hidx, hline, Option.bind_eq_bind, Option.some_bind,
        add_to_string_set_same F hF]
      exact ih1
    · simp only [collect_results, hidx, hline, Option.bind_eq_bind, Option.some_bind]
      have : add_to_string_set [] F F.length = some ([F], true) := by simp [add_to_string_set]
      rw [this]
      simp only [Option.some_bind, reduceCtorEq, if_false]
      exact ih1

end Morph

namespace Morph

/-! ## The search of one word in a document -/

theorem isComponent_of_isWord {word : Bytes} (h : IsWord word) : IsComponent word := by
  refine ⟨h.1, fun b hb => ?_⟩
  obtain ⟨h1, h2, h3⟩ := h.2 b hb
  refine ⟨h1, h2, ?_⟩
  rintro rfl
  exact h3 (by simp [WORD_DESCRIPTION_TERMINATOR])

theorem isWord_not_mem {word : Bytes} (h : IsWord word) (x : Nat)
    (hx : x ∈ [46, 32, 9, 13, 10, 124, 33, 0]) : x ∉ word := by
  intro hmem
  obtain ⟨h1, _, h3⟩ := h.2 x hmem
  simp only [List.mem_cons, List.mem_singleton, List.not_mem_nil, or_false] at hx h3
  omega

/-- The phrase of one well described token in the document of the words, when
every word that shares a component with the token has the form `F`: the
result is `F` when there is such a word. -/
theorem document_find_intersection_one (words : List DescribedWord)
    (hws : ∀ w ∈ words, WellDescribed w) (document : Document)
    (htext : document.text = words_text words)
    (hranges : document.ranges = ranges_from 1 0 words) (hdoc : DocumentOk document)
    (lemmas_v : List Bytes) (form_v : Bytes) (hv : ∀ c ∈ lemmas_v ++ [form_v], IsComponent c)
    (F : Bytes) (hF : ∀ b ∈ F, b ≠ 0)
    (hsame : ∀ (j : Nat) (lemmas : List Bytes) (form : Bytes),
      words[j]? = some (described lemmas form) →
      (∀ c ∈ lemmas ++ [form], IsComponent c) →
      (∃ c ∈ lemmas_v ++ [form_v], c ∈ lemmas ++ [form]) → form = F)
    (hfound : ∃ (j : Nat) (lemmas : List Bytes) (form : Bytes),
      words[j]? = some (described lemmas form) ∧
      (∀ c ∈ lemmas ++ [form], IsComponent c) ∧
      ∃ c ∈ lemmas_v ++ [form_v], c ∈ lemmas ++ [form]) :
    document_find_intersection document [described lemmas_v form_v] false [] = some [F] := by
  obtain ⟨allowed, result, hrun, hmem⟩ :=
    first_token_ranges words hws document htext hranges hdoc (lemmas_v ++ [form_v]) hv
  have hfold : find_lemmas_in_document document (description_of (lemmas_v ++ [form_v])) [] [] =
      some (allowed, result) := by
    rw [find_lemmas_in_document_spec document _ hv (by simp)]
    exact hrun
  have hall : ∀ x ∈ result, ∃ j lemmas, words[j]? = some (described lemmas F) ∧
      x = some (j + 1) := by
    intro x hx
    obtain ⟨j, lemmas, form, hw, hcomp, hshare, rfl⟩ := (hmem x).1 hx
    have := hsame j lemmas form hw hcomp hshare
    subst this
    exact ⟨j, lemmas, hw, rfl⟩
  have hne : result ≠ [] := by
    obtain ⟨j, lemmas, form, hw, hcomp, hshare⟩ := hfound
    have : some (j + 1) ∈ result := (hmem _).2 ⟨j, lemmas, form, hw, hcomp, hshare, rfl⟩
    exact List.ne_nil_of_mem this
  have hcollect := (collect_results_same words document htext hranges F hF result hall).2
  rw [if_neg hne] at hcollect
  simp only [document_find_intersection, intersection_tokens, Nat.lt_irrefl, false_and,
    if_false, Bool.false_eq_true, described, hfold, Option.bind_eq_bind, Option.some_bind,
    gt_iff_lt]
  exact hcollect

theorem indexOf_none (x : Nat) : ∀ (l : Bytes), x ∉ l → l.indexOf? x = none := by
  intro l
  induction l with
  | nil => intro _; rfl
  | cons a l ih =>
    intro h
    have ha : ¬ a = x := fun h' => h (by rw [h']; exact List.mem_cons_self _ _)
    have := ih (fun h' => h (List.mem_cons_of_mem _ h'))
    simp only [List.indexOf?] at this ⊢
    simp [List.findIdx?_cons, ha, this]

theorem dropWhile_of_all_not {p : Nat → Bool} :
    ∀ (l : Bytes), (∀ b ∈ l, p b = false) → l.dropWhile p = l := by
  intro l h
  cases l with
  | nil => rfl
  | cons a l => simp [List.dropWhile, h a (List.mem_cons_self _ _)]

theorem strip_line_word (word : Bytes) (h : IsWord word) : strip_line word = word := by
  have hnot : ∀ b ∈ word, (decide (b ∈ [32, 9, 13, 10])) = false := by
    intro b hb
    obtain ⟨_, _, h3⟩ := h.2 b hb
    simp only [List.mem_cons, List.mem_singleton, List.not_mem_nil, or_false] at h3 ⊢
    simp only [decide_eq_false_iff_not]
    omega
  unfold strip_line strip_text
  simp only
  rw [dropWhile_of_all_not word hnot,
    dropWhile_of_all_not word.reverse (fun b hb => hnot b (List.mem_reverse.1 hb)),
    List.reverse_reverse]

theorem parse_phrase_word (word : Bytes) (h : IsWord word) (names : List Bytes) :
    parse_phrase word names = (word, none, false) := by
  have h1 : word.indexOf? LANGUAGE_INTERSECTION_SPLITTER = none :=
    indexOf_none _ _ (isWord_not_mem h 124 (by simp))
  have h2 : ¬ word.head? = some EXACT_INTERSECTION_FLAG := by
    intro hh
    exact isWord_not_mem h 33 (by simp) (List.mem_of_mem_head? hh)
  simp only [parse_phrase, h1, h2, if_false]

/-- The search of a line that is one word: the phrase of the tokens that the
word gives, not exact, in no suggested language. -/
theorem multi_intersection_set_word (analysis : Analysis) (document : Document) (word : Bytes)
    (h : IsWord word) :
    multi_intersection_set analysis document word =
      document_find_intersection document (analysis.describe none word) false [] := by
  have h1 : word.indexOf? MULTI_INTERSECTION_SPLITTER = none :=
    indexOf_none _ _ (isWord_not_mem h 10 (by simp))
  have hpos : word.length > 0 := List.length_pos.2 h.1
  simp only [multi_intersection_set, multi_intersection_loop, h1, strip_line_word word h,
    parse_phrase_word word h, hpos, if_true, Option.bind_eq_bind, Option.pure_def,
    Option.bind_some]

end Morph

namespace Morph

/-! ## The tokens of the search string and the score -/

theorem strtok_r_loop_word (rest : Bytes) :
    ∀ (word token : Bytes), (∀ b ∈ word, b ≠ 32) →
      strtok_r_loop [32] (word ++ rest) token = strtok_r_loop [32] rest (token ++ word) := by
  intro word
  induction word with
  | nil => intro token _; simp
  | cons a word ih =>
    intro token h
    have ha : a ≠ 32 := h a (List.mem_cons_self _ _)
    simp only [List.cons_append, strtok_r_loop, List.mem_singleton, ha, if_false]
    have := ih (token ++ [a]) (fun b hb => h b (List.mem_cons_of_mem _ hb))
    simp only [List.append_assoc, List.singleton_append] at this
    exact this

/-- The tokens of a word followed by a blank. -/
theorem strtok_r_loop_one (word : Bytes) (hne : word ≠ []) (h : ∀ b ∈ word, b ≠ 32) :
    strtok_r_loop [32] (word ++ [32]) [] = [word] := by
  rw [strtok_r_loop_word _ word [] h]
  simp [strtok_r_loop, hne]

/-- The tokens of two words with a blank between them. -/
theorem strtok_r_loop_two (A B : Bytes) (hA : A ≠ []) (hB : B ≠ [])
    (h1 : ∀ b ∈ A, b ≠ 32) (h2 : ∀ b ∈ B, b ≠ 32) :
    strtok_r_loop [32] (A ++ [32] ++ B) [] = [A, B] := by
  have := strtok_r_loop_word [] B [] h2
  simp only [List.append_nil, List.nil_append] at this
  rw [List.append_assoc, strtok_r_loop_word _ A [] h1]
  simp only [List.nil_append, List.singleton_append, strtok_r_loop, List.mem_singleton, if_true,
    hA, if_false]
  show A :: strtok_r_loop [32] B [] = [A, B]
  rw [this]
  simp [strtok_r_loop, hB]

/-- The lengths that the loop of `morph_doc_intersect_doc` adds up, from the
sets of results of the tokens. -/
theorem intersect_results_of_sets (analysis : Analysis) (doc : morph_doc_t) (document : Document)
    (hdoc : doc.doc_header = some document) :
    ∀ (tokens : List Bytes) (sets : List StringSet),
      List.Forall₂ (fun token set => multi_intersection_set analysis document token = some set ∧
        ∀ m ∈ set, ∀ b ∈ m, b ≠ 0) tokens sets →
      intersect_results analysis doc tokens =
        some (sets.map (fun set => (set.map (fun m => m.length + 1)).sum)) := by
  intro tokens sets h
  induction h with
  | nil => rfl
  | cons h1 _ ih =>
    obtain ⟨hset, hnz⟩ := h1
    simp only [intersect_results, hdoc, Option.bind_eq_bind, Option.some_bind,
      document_find_multi_intersection, hset, Option.pure_def, ih, List.map_cons,
      strlen_join_string_set _ hnz]

/-- The score is 1 when the search string is not longer than the document and
the lengths of the results add up to the length of the document or more. -/
theorem morph_doc_intersect_doc_one (doc_len search_len : Nat) (results : List Nat)
    (hsum : results.sum < 2 ^ 31) (hlen : search_len ≤ doc_len) (hfull : doc_len ≤ results.sum) :
    morph_doc_intersect_doc doc_len search_len results = 1 := by
  have hi : accumulate_results results 0 = ((results.sum : Nat) : Int) := by
    rw [accumulate_results_zero]
    exact to_int32_of_range (le_trans (by norm_num) (Int.ofNat_nonneg _)) (by exact_mod_cast hsum)
  unfold morph_doc_intersect_doc
  simp only [hi]
  rw [if_neg (by omega), if_pos (by exact_mod_cast hfull)]

theorem isWord_nonzero {word : Bytes} (h : IsWord word) : ∀ b ∈ word, b ≠ 0 := by
  intro b hb
  have := (h.2 b hb).1
  omega

theorem isWord_no_blank {word : Bytes} (h : IsWord word) : ∀ b ∈ word, b ≠ 32 := by
  intro b hb hb'
  exact isWord_not_mem h 32 (by simp) (hb' ▸ hb)

end Morph

namespace Morph

/-! ## A word of the search string that one form of the document answers -/

theorem components_of_word {lemmas : List Bytes} {form : Bytes}
    (hl : ∀ c ∈ lemmas, IsComponent c) (hf : IsWord form) :
    ∀ c ∈ lemmas ++ [form], IsComponent c := by
  intro c hc
  rcases List.mem_append.1 hc with h | h
  · exact hl c h
  · rw [List.mem_singleton.1 h]
    exact isComponent_of_isWord hf

/-- The search of a word whose description shares a component only with words
of the document that have the form `F`, and with one at least: the result is
`F`. -/
theorem multi_intersection_set_found (analysis : Analysis) (words : List DescribedWord)
    (hws : ∀ w ∈ words, WellDescribed w) (document : Document)
    (htext : document.text = words_text words)
    (hranges : document.ranges = ranges_from 1 0 words) (hdoc : DocumentOk document)
    (lemmas_v : List Bytes) (V F : Bytes) (hV : IsWord V) (hF : ∀ b ∈ F, b ≠ 0)
    (hlv : ∀ c ∈ lemmas_v, IsComponent c)
    (hdesc : analysis.describe none V = [described lemmas_v V])
    (hfound : ∃ (lemmas : List Bytes) (form : Bytes), described lemmas form ∈ words ∧
      (∀ c ∈ lemmas ++ [form], IsComponent c) ∧ ∃ c ∈ lemmas_v ++ [V], c ∈ lemmas ++ [form])
    (hsame : ∀ (lemmas : List Bytes) (form : Bytes), described lemmas form ∈ words →
      (∀ c ∈ lemmas ++ [form], IsComponent c) →
      (∃ c ∈ lemmas_v ++ [V], c ∈ lemmas ++ [form]) → form = F) :
    multi_intersection_set analysis document V = some [F] := by
  rw [multi_intersection_set_word analysis document V hV, hdesc]
  apply document_find_intersection_one words hws document htext hranges hdoc lemmas_v V
    (components_of_word hlv hV) F hF
  · intro j lemmas form hj hcomp hshare
    exact hsame lemmas form (List.mem_iff_getElem?.2 ⟨j, hj⟩) hcomp hshare
  · obtain ⟨lemmas, form, hmem, hcomp, hshare⟩ := hfound
    obtain ⟨j, hj⟩ := List.mem_iff_getElem?.1 hmem
    exact ⟨j, lemmas, form, hj, hcomp, hshare⟩

theorem strlen_two_words (A B : Bytes) (hA : ∀ b ∈ A, b ≠ 0) (hB : ∀ b ∈ B, b ≠ 0) :
    strlen (A ++ [32] ++ B) = A.length + 1 + B.length := by
  rw [strlen_of_nonzero]
  · simp
    omega
  · intro b hb
    simp only [List.mem_append, List.mem_singleton] at hb
    rcases hb with (h | rfl) | h
    · exact hA b h
    · decide
    · exact hB b h

theorem description_length_ge_form (lemmas : List Bytes) (form : Bytes) :
    form.length + 1 ≤ (description_of (lemmas ++ [form])).length := by
  rw [description_of_append, description_of_cons]
  simp
  omega

end Morph

namespace Morph

/-! ## Two words searched in a document of the same two words -/

/-- The score of the search text `A B` against a document whose words are the
two words `A` and `B`, in any order and any number. -/
theorem similarity_of_two_words (analysis : Analysis) (doc_s doc_n : Bytes)
    (w : DescribedWord) (words : List DescribedWord) (A B A0 B0 : Bytes)
    (lemmas_a lemmas_b : List Bytes)
    (hA : ∀ b ∈ A, b ≠ 0) (hB : ∀ b ∈ B, b ≠ 0)
    (hdoc_len : strlen doc_s = A.length + 1 + B.length)
    (hnorm_doc : analysis.normalize_text doc_s = doc_n)
    (hnorm_doc0 : analysis.normalize_text doc_n = doc_n)
    (hdesc_doc : analysis.describe none doc_n = w :: words)
    (hwords : ∀ w0 ∈ w :: words, w0 = described lemmas_a A0 ∨ w0 = described lemmas_b B0)
    (hmemA : described lemmas_a A0 ∈ w :: words) (hmemB : described lemmas_b B0 ∈ w :: words)
    (hnorm : analysis.normalize_text (A ++ [32] ++ B) = A0 ++ [32] ++ B0)
    (hkeepA : A0.length = A.length) (hkeepB : B0.length = B.length)
    (hdescA : analysis.describe none A0 = [described lemmas_a A0])
    (hdescB : analysis.describe none B0 = [described lemmas_b B0])
    (hcompA : ∀ c ∈ lemmas_a, IsComponent c) (hcompB : ∀ c ∈ lemmas_b, IsComponent c)
    (hA0 : IsWord A0) (hB0 : IsWord B0)
    (hapart : ∀ c ∈ lemmas_a ++ [A0], c ∉ lemmas_b ++ [B0])
    (hsize : (words_text (w :: words)).length + 2 < 2 ^ 31)
    (hsum : A0.length + B0.length + 2 < 2 ^ 31) :
    morph_str_intersect_str analysis doc_s (A ++ [32] ++ B) = some 1 := by
  have hca := components_of_word hcompA hA0
  have hcb := components_of_word hcompB hB0
  have hws : ∀ w0 ∈ w :: words, WellDescribed w0 := by
    intro w0 hw0
    rcases hwords w0 hw0 with h | h
    · exact ⟨lemmas_a, A0, h, hca⟩
    · exact ⟨lemmas_b, B0, h, hcb⟩
  obtain ⟨document, hmake, htext, hranges, hdoc⟩ := make_document_spec w words hws hsize
  have hsetA : multi_intersection_set analysis document A0 = some [A0] := by
    apply multi_intersection_set_found analysis (w :: words) hws document htext hranges hdoc
      lemmas_a A0 A0 hA0 (isWord_nonzero hA0) hcompA hdescA
    · exact ⟨lemmas_a, A0, hmemA, hca, A0, by simp, by simp⟩
    · intro lemmas form hmem hcomp hshare
      rcases hwords _ hmem with h | h
      · exact (described_injective _ _ _ _ hcomp hca h).2
      · obtain ⟨c, h1, h2⟩ := hshare
        rw [(described_injective _ _ _ _ hcomp hcb h).1,
          (described_injective _ _ _ _ hcomp hcb h).2] at h2
        exact absurd h2 (hapart c h1)
  have hsetB : multi_intersection_set analysis document B0 = some [B0] := by
    apply multi_intersection_set_found analysis (w :: words) hws document htext hranges hdoc
      lemmas_b B0 B0 hB0 (isWord_nonzero hB0) hcompB hdescB
    · exact ⟨lemmas_b, B0, hmemB, hcb, B0, by simp, by simp⟩
    · intro lemmas form hmem hcomp hshare
      rcases hwords _ hmem with h | h
      · obtain ⟨c, h1, h2⟩ := hshare
        rw [(described_injective _ _ _ _ hcomp hca h).1,
          (described_injective _ _ _ _ hcomp hca h).2] at h2
        exact absurd h1 (hapart c h2)
      · exact (described_injective _ _ _ _ hcomp hcb h).2
  have hresults := intersect_results_of_sets analysis
    { str := doc_n, len := A.length + 1 + B.length, doc_header := some document } document rfl
    [A0, B0] [[A0], [B0]]
    (List.Forall₂.cons ⟨hsetA, fun m hm b hb => by
      rw [List.mem_singleton.1 hm] at hb
      exact isWord_nonzero hA0 b hb⟩
      (List.Forall₂.cons ⟨hsetB, fun m hm b hb => by
        rw [List.mem_singleton.1 hm] at hb
        exact isWord_nonzero hB0 b hb⟩ List.Forall₂.nil))
  simp only [morph_str_intersect_str, morph_doc_new, hnorm_doc, hnorm_doc0, hdesc_doc, hmake,
    hnorm, if_true, Option.bind_eq_bind, Option.some_bind, Option.pure_def, Bool.false_eq_true,
    if_false, hdoc_len, strlen_two_words A B hA hB,
    strtok_r_loop_two A0 B0 hA0.1 hB0.1 (isWord_no_blank hA0) (isWord_no_blank hB0), hresults,
    Option.some.injEq]
  apply morph_doc_intersect_doc_one
  · simp
    omega
  · omega
  · simp
    omega

end Morph

namespace Morph

/-! ## The search returns: the set of strings and the rebuilt lines -/

theorem position_for_string_loop_returns (set : StringSet) (string : Bytes) (length : Nat) :
    ∀ (fuel : Nat) (left right : Int), 0 ≤ left → left ≤ right → right - left < fuel →
      ∃ r, position_for_string_loop set string length fuel left right = some r := by
  intro fuel
  induction fuel with
  | zero => intro left right _ _ h; omega
  | succ fuel ih =>
    intro left right h0 hle hfuel
    have hmid1 : left ≤ left + (right - left) / 2 := by omega
    have hmid2 : left + (right - left) / 2 ≤ right := by omega
    have hitem : (((left + (right - left) / 2).toNat : Nat) : Int) = left + (right - left) / 2 :=
      Int.toNat_of_nonneg (by omega)
    simp only [position_for_string_loop]
    split
    · exact ⟨_, rfl⟩
    · split
      · simp only
        split
        · next hcond =>
          exact ih _ _ h0 hcond (by omega)
        · exact ⟨_, rfl⟩
      · simp only
        split
        · next hcond =>
          exact ih _ _ (by omega) hcond (by omega)
        · exact ⟨_, rfl⟩

theorem add_to_string_set_returns (set : StringSet) (string : Bytes) (length : Nat) :
    ∃ r, add_to_string_set set string length = some r := by
  unfold add_to_string_set
  split
  · exact ⟨_, rfl⟩
  · next hne =>
    have hpos : 0 < set.length := Nat.pos_of_ne_zero hne
    obtain ⟨r, hr⟩ := position_for_string_loop_returns set string length (set.length + 1) 0
      ((set.length : Int) - 1) (le_refl _) (by omega) (by omega)
    simp only [position_for_string, hr, Option.bind_eq_bind, Option.some_bind, Option.pure_def]
    cases r with
    | none => exact ⟨_, rfl⟩
    | some position => exact ⟨_, rfl⟩

theorem rebuild_line_returns (document : Document) :
    ∀ (k : Nat) (start : Int), 0 ≤ start → start + k ≤ document.ranges.length →
      ∃ line, rebuild_line document k start = some line := by
  intro k
  induction k with
  | zero => intro start _ _; exact ⟨_, rfl⟩
  | succ k ih =>
    intro start h0 hle
    have hneg : ¬ start < 0 := by omega
    have hidx : start.toNat < document.ranges.length := by omega
    obtain ⟨rest, hrest⟩ := ih (start + 1) (by omega) (by push_cast at hle ⊢; omega)
    simp only [rebuild_line, hneg, if_false, Option.bind_eq_bind, Option.pure_def,
      List.getElem?_eq_getElem hidx, Option.some_bind, hrest]
    exact ⟨_, rfl⟩

/-- The results are collected when every allowed range is a range that lies
`tokens_count` ranges or more after the start and not after the end. -/
theorem collect_results_returns (document : Document) (tokens_count : Nat) :
    ∀ (allowed : List (Option Nat)) (result : StringSet),
      (∀ x ∈ allowed, ∃ r, x = some r ∧ tokens_count ≤ r ∧ r ≤ document.ranges.length) →
      ∃ result', collect_results document tokens_count allowed result = some result' := by
  intro allowed
  induction allowed with
  | nil => intro result _; exact ⟨_, rfl⟩
  | cons x allowed ih =>
    intro result h
    obtain ⟨r, rfl, h1, h2⟩ := h x (List.mem_cons_self _ _)
    obtain ⟨line, hline⟩ := rebuild_line_returns document tokens_count
      ((r : Int) - 1 - (tokens_count : Int) + 1) (by omega) (by omega)
    obtain ⟨⟨result1, added⟩, hadd⟩ := add_to_string_set_returns result line line.length
    obtain ⟨result', hres⟩ := ih result1 (fun y hy => h y (List.mem_cons_of_mem _ hy))
    simp only [collect_results, hline, hadd, Option.bind_eq_bind, Option.some_bind]
    exact ⟨_, hres⟩

end Morph

namespace Morph

/-! ## The search returns: the ranges of the tokens -/

theorem bsearch_ranges_lt (ranges : List WordRange) (position : Int) :
    ∀ (fuel lower upper j : Nat), bsearch_ranges ranges position fuel lower upper = some j →
      j < ranges.length := by
  intro fuel
  induction fuel with
  | zero => intro lower upper j h; simp [bsearch_ranges] at h
  | succ fuel ih =>
    intro lower upper j h
    simp only [bsearch_ranges] at h
    split at h
    · split at h
      · cases h
      · next range hrange =>
        split at h
        · exact ih _ _ _ h
        · split at h
          · exact ih _ _ _ h
          · simp only [Option.some.injEq] at h
            rw [← h]
            exact (List.getElem?_eq_some.1 hrange).1
    · cases h

theorem suffix_in_allowed_ranges_returns (suffix : Int) (ranges : List WordRange) :
    ∀ (allowed : List (Option Nat)), (∀ x ∈ allowed, ∃ r, x = some r) →
      ∃ r, suffix_in_allowed_ranges suffix ranges allowed = some r ∧
        ∀ j, r = some j → some j ∈ allowed ∧ j < ranges.length := by
  intro allowed
  induction allowed with
  | nil => intro _; exact ⟨none, rfl, fun j h => by cases h⟩
  | cons x allowed ih =>
    intro h
    obtain ⟨r0, rfl⟩ := h x (List.mem_cons_self _ _)
    obtain ⟨r, hr, hprop⟩ := ih (fun y hy => h y (List.mem_cons_of_mem _ hy))
    simp only [suffix_in_allowed_ranges]
    split
    · exact ⟨r, hr, fun j hj => ⟨List.mem_cons_of_mem _ (hprop j hj).1, (hprop j hj).2⟩⟩
    · next hlt =>
      have hlt' : r0 < ranges.length := by omega
      rw [List.getElem?_eq_getElem hlt']
      simp only
      split
      · refine ⟨some r0, rfl, fun j hj => ?_⟩
        cases hj
        exact ⟨List.mem_cons_self _ _, hlt'⟩
      · exact ⟨r, hr, fun j hj => ⟨List.mem_cons_of_mem _ (hprop j hj).1, (hprop j hj).2⟩⟩

/-- The walk over the suffixes for a token after the first: the allowed
ranges stay, and every result is the range after an allowed one. -/
theorem collect_ranges_rest (document : Document) :
    ∀ (suffixes : List Nat) (allowed_ranges result_ranges : List (Option Nat)),
      (∀ x ∈ allowed_ranges, ∃ r, x = some r) →
      ∃ result, collect_ranges document false suffixes allowed_ranges result_ranges =
          some (allowed_ranges, result) ∧
        ∀ x ∈ result, x ∈ result_ranges ∨
          ∃ j, some j ∈ allowed_ranges ∧ j < document.ranges.length ∧ x = some (j + 1) := by
  intro suffixes
  induction suffixes with
  | nil =>
    intro allowed_ranges result_ranges _
    exact ⟨result_ranges, rfl, fun x hx => Or.inl hx⟩
  | cons p suffixes ih =>
    intro allowed_ranges result_ranges hall
    obtain ⟨r, hr, hprop⟩ :=
      suffix_in_allowed_ranges_returns (p : Int) document.ranges allowed_ranges hall
    simp only [collect_ranges, Bool.not_false, if_true, hr, Option.map_some', Option.bind_eq_bind,
      Option.some_bind]
    cases r with
    | none =>
      obtain ⟨result, hrun, hmem⟩ := ih allowed_ranges result_ranges hall
      exact ⟨result, hrun, hmem⟩
    | some j =>
      obtain ⟨result, hrun, hmem⟩ := ih allowed_ranges (result_ranges ++ [some (j + 1)]) hall
      refine ⟨result, hrun, fun x hx => ?_⟩
      rcases hmem x hx with h | h
      · rcases List.mem_append.1 h with h | h
        · exact Or.inl h
        · exact Or.inr ⟨j, (hprop j rfl).1, (hprop j rfl).2, List.mem_singleton.1 h⟩
      · exact Or.inr h

theorem find_lemmas_fold_rest (document : Document) (hdoc : DocumentOk document) :
    ∀ (cs : List Bytes), (∀ c ∈ cs, IsComponent c) →
      ∀ (allowed_ranges result_ranges : List (Option Nat)),
      (∀ x ∈ allowed_ranges, ∃ r, x = some r) →
      ∃ result, find_lemmas_fold document false cs allowed_ranges result_ranges =
          some (allowed_ranges, result) ∧
        ∀ x ∈ result, x ∈ result_ranges ∨
          ∃ j, some j ∈ allowed_ranges ∧ j < document.ranges.length ∧ x = some (j + 1) := by
  intro cs
  induction cs with
  | nil =>
    intro _ allowed_ranges result_ranges _
    exact ⟨result_ranges, rfl, fun x hx => Or.inl hx⟩
  | cons c cs ih =>
    intro hcs allowed_ranges result_ranges hall
    obtain ⟨suffixes, hstep, _⟩ := find_lemma_step_spec document hdoc false c
      (hcs c (List.mem_cons_self _ _)) allowed_ranges result_ranges
    obtain ⟨result1, hrun1, hmem1⟩ :=
      collect_ranges_rest document suffixes allowed_ranges result_ranges hall
    obtain ⟨result, hrun, hmem⟩ :=
      ih (fun c0 h0 => hcs c0 (List.mem_cons_of_mem _ h0)) allowed_ranges result1 hall
    refine ⟨result, ?_, fun x hx => ?_⟩
    · rw [find_lemmas_fold_cons, hstep, hrun1]
      exact hrun
    · rcases hmem x hx with h | h
      · exact hmem1 x h
      · exact Or.inr h

theorem find_word_range_lt (ranges : List WordRange) (position : Int) (j : Nat)
    (h : find_word_range ranges position = some j) : j < ranges.length :=
  bsearch_ranges_lt ranges position _ _ _ j h

theorem exact_description (lemmas : List Bytes) (form : Bytes) :
    (description_of (lemmas ++ [form])).drop
      ((description_of (lemmas ++ [form])).length - form.length - 1) = description_of [form] := by
  rw [description_of_append]
  have : (description_of lemmas ++ description_of [form]).length - form.length - 1 =
      (description_of lemmas).length := by
    simp [description_of_cons, description_of_nil]
    omega
  rw [this, List.drop_left]

/-- The loop over the tokens of a phrase in a good document returns, and every
range that it allows lies `tokens_count` ranges or more after the start and not
after the end. -/
theorem intersection_tokens_returns (document : Document) (hdoc : DocumentOk document)
    (exact_match : Bool) :
    ∀ (phrase : List DescribedWord), (∀ w ∈ phrase, WellDescribed w) →
      ∀ (allowed_ranges extra : List (Option Nat)) (tokens_count : Nat),
      (tokens_count = 0 → allowed_ranges = []) →
      (∀ x ∈ allowed_ranges, ∃ r, x = some r ∧ tokens_count ≤ r ∧ r ≤ document.ranges.length) →
      ∃ allowed count, intersection_tokens document exact_match phrase allowed_ranges extra
          tokens_count = some (allowed, count) ∧
        ∀ x ∈ allowed, ∃ r, x = some r ∧ count ≤ r ∧ r ≤ document.ranges.length := by
  intro phrase
  induction phrase with
  | nil =>
    intro _ allowed_ranges extra tokens_count _ hinv
    exact ⟨allowed_ranges, tokens_count, rfl, hinv⟩
  | cons token phrase ih =>
    intro hphrase allowed_ranges extra tokens_count hzero hinv
    simp only [intersection_tokens]
    split
    · exact ⟨allowed_ranges, tokens_count, rfl, hinv⟩
    · next hcond =>
      obtain ⟨lemmas, form, rfl, hcomp⟩ := hphrase token (List.mem_cons_self _ _)
      have hdesc : ∃ cs : List Bytes, cs ≠ [] ∧ (∀ c ∈ cs, IsComponent c) ∧
          (if exact_match = true then
            (described lemmas form).description.drop
              ((described lemmas form).description.length - (described lemmas form).token_size - 1)
          else (described lemmas form).description) = description_of cs := by
        cases exact_match with
        | true =>
          refine ⟨[form], by simp, fun c hc => hcomp c (by simp at hc; simp [hc]), ?_⟩
          simp only [if_true, described]
          exact exact_description lemmas form
        | false => exact ⟨lemmas ++ [form], by simp, hcomp, by simp [described]⟩
      obtain ⟨cs, hne, hcs, hd⟩ := hdesc
      rw [hd, find_lemmas_in_document_spec document cs hcs hne]
      by_cases hempty : allowed_ranges.length = 0
      · have hk : tokens_count = 0 := by
          by_contra hk
          exact hcond ⟨Nat.pos_of_ne_zero hk, hempty⟩
        obtain ⟨allowed1, result1, hrun1, hmem1⟩ :=
          find_lemmas_fold_first document hdoc cs hcs allowed_ranges []
        simp only [hempty, decide_True, hrun1, Option.bind_eq_bind, Option.some_bind]
        apply ih (fun w hw => hphrase w (List.mem_cons_of_mem _ hw))
        · intro h
          omega
        · intro x hx
          rcases (hmem1 x).1 hx with h | ⟨c, _, p, _, j, hj, rfl⟩
          · cases h
          · have := find_word_range_lt _ _ _ hj
            exact ⟨j + 1, rfl, by omega, by omega⟩
      · have hall : ∀ x ∈ allowed_ranges, ∃ r, x = some r := by
          intro x hx
          obtain ⟨r, hr, _⟩ := hinv x hx
          exact ⟨r, hr⟩
        obtain ⟨result1, hrun1, hmem1⟩ :=
          find_lemmas_fold_rest document hdoc cs hcs allowed_ranges [] hall
        simp only [hempty, decide_False, hrun1, Option.bind_eq_bind, Option.some_bind]
        apply ih (fun w hw => hphrase w (List.mem_cons_of_mem _ hw))
        · intro h
          omega
        · intro x hx
          rcases hmem1 x hx with h | ⟨j, hj, hlt, rfl⟩
          · cases h
          · obtain ⟨r, hr, h1, h2⟩ := hinv _ hj
            cases hr
            exact ⟨j + 1, rfl, by omega, by omega⟩

/-- `document_find_intersection` returns on a good document and a phrase of
well described tokens. -/
theorem document_find_intersection_returns (document : Document) (hdoc : DocumentOk document)
    (phrase : List DescribedWord) (hphrase : ∀ w ∈ phrase, WellDescribed w)
    (exact_match : Bool) (result : StringSet) :
    ∃ result', document_find_intersection document phrase exact_match result = some result' := by
  obtain ⟨allowed, count, hrun, hinv⟩ := intersection_tokens_returns document hdoc exact_match
    phrase hphrase [] [] 0 (fun _ => rfl) (fun x hx => by cases hx)
  obtain ⟨result', hres⟩ := collect_results_returns document count allowed result hinv
  simp only [document_find_intersection, hrun, Option.bind_eq_bind, Option.some_bind]
  exact ⟨_, hres⟩

end Morph

namespace Morph

/-! ## The search returns: lines of phrases and the tokens of the search string -/

theorem indexOf_some_ne_nil (x : Nat) (l : Bytes) (s : Nat) (h : l.indexOf? x = some s) :
    l ≠ [] := by
  rintro rfl
  simp [List.indexOf?] at h

theorem multi_intersection_loop_returns (analysis : Analysis)
    (hdescribe : ∀ language text, ∀ w ∈ analysis.describe language text, WellDescribed w)
    (document : Document) (hdoc : DocumentOk document) :
    ∀ (fuel : Nat) (cursor : Bytes) (result : StringSet), cursor.length < fuel →
      ∃ result', multi_intersection_loop analysis document fuel cursor result = some result' := by
  intro fuel
  induction fuel with
  | zero => intro cursor result h; omega
  | succ fuel ih =>
    intro cursor result hfuel
    simp only [multi_intersection_loop, Option.bind_eq_bind, Option.pure_def]
    have hstep : ∀ result1 : StringSet, ∃ result',
        (match List.indexOf? MULTI_INTERSECTION_SPLITTER cursor with
          | some splitter =>
            multi_intersection_loop analysis document fuel (List.drop (splitter + 1) cursor)
              result1
          | none => some result1) = some result' := by
      intro result1
      cases hsp : List.indexOf? MULTI_INTERSECTION_SPLITTER cursor with
      | none => exact ⟨_, rfl⟩
      | some splitter =>
        have hne := indexOf_some_ne_nil _ _ _ hsp
        have hpos : 0 < cursor.length := List.length_pos.2 hne
        exact ih _ _ (by simp only [List.length_drop]; omega)
    split
    · obtain ⟨result1, h1⟩ := document_find_intersection_returns document hdoc _
        (hdescribe _ _) _ result
      rw [h1]
      exact hstep result1
    · exact hstep result

/-- The search of a line of phrases returns on a good document, with results
that hold no zero byte. -/
theorem multi_intersection_set_returns (analysis : Analysis)
    (hdescribe : ∀ language text, ∀ w ∈ analysis.describe language text, WellDescribed w)
    (document : Document) (hdoc : DocumentOk document) (phrase_lines : Bytes) :
    ∃ set, multi_intersection_set analysis document phrase_lines = some set ∧
      ∀ m ∈ set, ∀ b ∈ m, b ≠ 0 := by
  obtain ⟨set, hset⟩ := multi_intersection_loop_returns analysis hdescribe document hdoc
    (phrase_lines.length + 1) phrase_lines [] (by omega)
  exact ⟨set, hset, multi_intersection_set_nonzero analysis document hdoc.nonzero _ _ hset⟩

theorem intersect_sets_returns (analysis : Analysis)
    (hdescribe : ∀ language text, ∀ w ∈ analysis.describe language text, WellDescribed w)
    (document : Document) (hdoc : DocumentOk document) :
    ∀ (tokens : List Bytes), ∃ sets : List StringSet,
      List.Forall₂ (fun token set => multi_intersection_set analysis document token = some set ∧
        ∀ m ∈ set, ∀ b ∈ m, b ≠ 0) tokens sets := by
  intro tokens
  induction tokens with
  | nil => exact ⟨[], List.Forall₂.nil⟩
  | cons token tokens ih =>
    obtain ⟨sets, hsets⟩ := ih
    obtain ⟨set, hset⟩ := multi_intersection_set_returns analysis hdescribe document hdoc token
    exact ⟨set :: sets, List.Forall₂.cons hset hsets⟩

/-- The document of well described words whose text fits `int32_t` is made and
is good. -/
theorem make_document_returns (words : List DescribedWord)
    (hws : ∀ w ∈ words, WellDescribed w) (hsize : (words_text words).length + 2 < 2 ^ 31) :
    ∃ document, make_document words = some document ∧ DocumentOk document := by
  cases words with
  | nil =>
    refine ⟨{ text := [], suffix_array := [], ranges := [] }, rfl, ?_⟩
    exact ⟨by simp, List.Pairwise.nil, fun b hb => by cases hb⟩
  | cons w words =>
    obtain ⟨document, hmake, _, _, hdoc⟩ := make_document_spec w words hws hsize
    exact ⟨document, hmake, hdoc⟩

/-- The accumulator of `morph_doc_intersect_doc` for results whose lengths add
up to less than `2 ^ 31`. -/
theorem accumulate_results_sum (results : List Nat) (h : results.sum < 2 ^ 31) :
    accumulate_results results 0 = ((results.sum : Nat) : Int) := by
  rw [accumulate_results_zero]
  exact to_int32_of_range (le_trans (by norm_num) (Int.ofNat_nonneg _)) (by exact_mod_cast h)

end Morph

namespace Morph

/-! ## The form of a word in the text of a document -/

theorem description_of_ends (lemmas : List Bytes) (P : Bytes) :
    ∃ A, P ++ 46 :: description_of lemmas = A ++ [46] ∧
      A.length = P.length + (description_of lemmas).length := by
  rcases List.eq_nil_or_concat lemmas with h | ⟨init, last, h⟩
  · subst h
    exact ⟨P, by simp [description_of_nil], by simp [description_of_nil]⟩
  · subst h
    refine ⟨P ++ 46 :: (description_of init ++ last), ?_, ?_⟩
    · simp [description_of_append, description_of_cons, description_of_nil]
    · simp [description_of_append, description_of_cons, description_of_nil]
      omega

theorem form_after_terminator :
    ∀ (words : List DescribedWord) (P : Bytes) (j : Nat) (lemmas : List Bytes) (form : Bytes),
      (∀ w ∈ words, ∃ lemmas0 form0, w = described lemmas0 form0) →
      words[j]? = some (described lemmas form) →
      ∃ A B, P ++ 46 :: (words.map (fun w => w.description)).flatten =
          A ++ 46 :: (form ++ 46 :: B) ∧
        A.length + form.length + 1 = P.length + range_start words (j + 1) := by
  intro words
  induction words with
  | nil => intro P j lemmas form _ h; simp at h
  | cons w words ih =>
    intro P j lemmas form hall h
    cases j with
    | zero =>
      simp only [List.getElem?_cons_zero, Option.some.injEq] at h
      subst h
      obtain ⟨A, hA, hlen⟩ := description_of_ends lemmas P
      refine ⟨A, (words.map (fun w => w.description)).flatten, ?_, ?_⟩
      · have : P ++ 46 :: ((described lemmas form :: words).map (fun w => w.description)).flatten =
            (P ++ 46 :: description_of lemmas) ++
              (form ++ 46 :: (words.map (fun w => w.description)).flatten) := by
          simp [described, description_of_append, description_of_cons, description_of_nil]
        rw [this, hA]
        simp
      · rw [range_start_succ, range_start_zero]
        simp [described, description_of_append, description_of_cons, description_of_nil]
        omega
    | succ j =>
      simp only [List.getElem?_cons_succ] at h
      obtain ⟨l0, f0, hw⟩ := hall w (List.mem_cons_self _ _)
      obtain ⟨A, B, h1, h2⟩ := ih (P ++ 46 :: (description_of l0 ++ f0)) j lemmas form
        (fun w0 h0 => hall w0 (List.mem_cons_of_mem _ h0)) h
      refine ⟨A, B, ?_, ?_⟩
      · rw [← h1, hw]
        simp [described, description_of_append, description_of_cons, description_of_nil]
      · rw [range_start_succ, h2, hw]
        simp [described, description_of_append, description_of_cons, description_of_nil]
        omega

theorem getElem?_append_cons_length (A B : Bytes) (x : Nat) (n : Nat) (h : n = A.length) :
    (A ++ x :: B)[n]? = some x := by
  subst h
  rw [List.getElem?_append_right (le_refl _)]
  simp

end Morph

namespace Morph

/-! ## `wcssubreverse` reverses -/

theorem label_getD_at_length (A R : List Label) (x : Label) (n : Nat) (hn : n = A.length) :
    (A ++ x :: R).getD n 0 = x := by
  subst hn
  rw [List.getD_eq_getElem?_getD, List.getElem?_append_right (le_refl _)]
  simp

theorem label_set_at_length (A R : List Label) (x v : Label) (n : Nat) (hn : n = A.length) :
    (A ++ x :: R).set n v = A ++ v :: R := by
  subst hn
  rw [List.set_append_right _ _ (le_refl _)]
  simp

theorem wcssubreverse_loop_reverse :
    ∀ (n : Nat) (M A B : List Label) (fuel : Nat), M.length = n → M ≠ [] → M.length ≤ fuel →
      wcssubreverse_loop fuel (A ++ M ++ B) A.length (A.length + M.length - 1) =
        A ++ M.reverse ++ B := by
  intro n
  induction n using Nat.strong_induction_on with
  | _ n ih =>
    intro M A B fuel hn hne hfuel
    cases M with
    | nil => exact absurd rfl hne
    | cons x rest =>
      obtain ⟨fuel, rfl⟩ : ∃ k, fuel = k + 1 := ⟨fuel - 1, by simp at hfuel; omega⟩
      rcases List.eq_nil_or_concat rest with h | ⟨init, y, h⟩
      · subst h
        have h1 : (A ++ [x] ++ B).getD A.length 0 = x := by
          rw [List.append_assoc]; exact label_getD_at_length A B x _ rfl
        have h2 : (A ++ [x] ++ B).set A.length x = A ++ [x] ++ B := by
          rw [List.append_assoc]; exact label_set_at_length A B x x _ rfl
        simp only [wcssubreverse_loop, List.length_singleton, Nat.add_sub_cancel, h1, h2,
          List.reverse_singleton]
        rw [if_neg (by omega)]
      · subst h
        simp only [List.concat_eq_append] at hn hne hfuel ⊢
        have hstop : A.length + (x :: (init ++ [y])).length - 1 = (A ++ x :: init).length := by
          simp
        have hbuf : A ++ x :: (init ++ [y]) ++ B = (A ++ x :: init) ++ y :: B := by simp
        have h1 : ((A ++ x :: init) ++ y :: B).getD (A ++ x :: init).length 0 = y :=
          label_getD_at_length (A ++ x :: init) B y _ rfl
        have h2 : ((A ++ x :: init) ++ y :: B).getD A.length 0 = x := by
          have : (A ++ x :: init) ++ y :: B = A ++ x :: (init ++ y :: B) := by simp
          rw [this]; exact label_getD_at_length A _ x _ rfl
        have h3 : (((A ++ x :: init) ++ y :: B).set A.length y).set (A ++ x :: init).length x =
            (A ++ y :: init) ++ x :: B := by
          have e : (A ++ x :: init) ++ y :: B = A ++ x :: (init ++ y :: B) := by simp
          rw [e, label_set_at_length A _ x y _ rfl]
          have e1 : A ++ y :: (init ++ y :: B) = (A ++ y :: init) ++ y :: B := by simp
          rw [e1, label_set_at_length (A ++ y :: init) B y x _ (by simp)]
        rw [hstop, hbuf]
        simp only [wcssubreverse_loop, h1, h2, h3]
        by_cases hc : A.length + 2 < (A ++ x :: init).length
        · rw [if_pos hc]
          have hinit : init ≠ [] := by
            intro h0; subst h0; simp at hc
          have hlen : init.length < n := by
            rw [← hn]; simp; omega
          have := ih init.length hlen init (A ++ [y]) (x :: B) fuel rfl hinit
            (by simp at hfuel; omega)
          have e1 : (A ++ y :: init) ++ x :: B = (A ++ [y]) ++ init ++ x :: B := by simp
          have e2 : A.length + 1 = (A ++ [y]).length := by simp
          have e3 : (A ++ x :: init).length - 1 = (A ++ [y]).length + init.length - 1 := by
            simp
          rw [e1, e2, e3, this]
          simp
        · rw [if_neg hc]
          have hl : init.length ≤ 1 := by simp at hc; omega
          have hrev : init.reverse = init := by
            match init, hl with
            | [], _ => rfl
            | [a], _ => rfl
          simp [hrev]

theorem wcssubreverse_whole (M B : List Label) (hne : M ≠ []) :
    wcssubreverse (M ++ B) 0 M.length = M.reverse ++ B := by
  have hlen : 0 < M.length := List.length_pos.2 hne
  unfold wcssubreverse
  rw [if_pos (by omega)]
  have := wcssubreverse_loop_reverse M.length M [] B (M ++ B).length rfl hne (by simp)
  simpa using this

end Morph

namespace Morph

/-! ## Base 36: `ultowcs` and `wcstoul` -/

theorem dictionary_digit (d : Nat) (h : d < 36) :
    ∃ c, ultowcs_dictionary[d]? = some c ∧ wcstoul_digit c = some d ∧ c ≠ 0 ∧
      c ∈ ultowcs_dictionary := by
  interval_cases d <;> exact ⟨_, rfl, by decide, by decide, by decide⟩

theorem wcstoul_loop_append (cs rest : List Label) (hcs : ∀ c ∈ cs, IsDigit36 c) :
    ∀ acc, wcstoul_loop 36 (cs ++ rest) acc = wcstoul_loop 36 rest (wcstoul_loop 36 cs acc) := by
  induction cs with
  | nil => intro acc; rfl
  | cons c cs ih =>
    intro acc
    obtain ⟨_, _, d, hd, hc⟩ := hcs c (List.mem_cons_self _ _)
    simp only [List.cons_append, wcstoul_loop, hc, hd, if_true]
    exact ih (fun c0 h0 => hcs c0 (List.mem_cons_of_mem _ h0)) _

theorem ultowcs_loop_spec :
    ∀ (fuel num : Nat) (written : List Label), num < 36 ^ (fuel + 1) →
      ∃ ds, ultowcs_loop 36 (fuel + 1) num written = some (written ++ ds) ∧ ds ≠ [] ∧
        (∀ c ∈ ds, IsDigit36 c) ∧ wcstoul_loop 36 ds.reverse 0 = num := by
  intro fuel
  induction fuel with
  | zero =>
    intro num written h
    have h36 : num < 36 := by simpa using h
    obtain ⟨c, hc, hd, hne, hmem⟩ := dictionary_digit num h36
    refine ⟨[c], ?_, by simp, ?_, ?_⟩
    · simp only [ultowcs_loop, ge_iff_le, if_neg (not_le.2 h36), hc, Option.bind_eq_bind,
        Option.some_bind, Option.pure_def]
    · intro c0 h0
      simp only [List.mem_singleton] at h0
      subst h0
      exact ⟨hmem, hne, num, h36, hd⟩
    · simp [wcstoul_loop, hd, h36]
  | succ fuel ih =>
    intro num written h
    by_cases h36 : num < 36
    · obtain ⟨c, hc, hd, hne, hmem⟩ := dictionary_digit num h36
      refine ⟨[c], ?_, by simp, ?_, ?_⟩
      · rw [ultowcs_loop]
        simp only [ge_iff_le, if_neg (not_le.2 h36), hc, Option.bind_eq_bind,
          Option.some_bind, Option.pure_def]
      · intro c0 h0
        simp only [List.mem_singleton] at h0
        subst h0
        exact ⟨hmem, hne, num, h36, hd⟩
      · simp [wcstoul_loop, hd, h36]
    · have hmod : num % 36 < 36 := Nat.mod_lt _ (by norm_num)
      obtain ⟨c, hc, hd, hne, hmem⟩ := dictionary_digit (num % 36) hmod
      have hdiv : num / 36 < 36 ^ (fuel + 1) := by
        rw [Nat.div_lt_iff_lt_mul (by norm_num)]
        calc num < 36 ^ (fuel + 1 + 1) := h
          _ = 36 ^ (fuel + 1) * 36 := by ring
      obtain ⟨ds, hds, _, hdig, hval⟩ := ih (num / 36) (written ++ [c]) hdiv
      refine ⟨c :: ds, ?_, by simp, ?_, ?_⟩
      · rw [ultowcs_loop]
        simp only [ge_iff_le, if_pos (not_lt.1 h36), hc, Option.bind_eq_bind,
          Option.some_bind]
        rw [if_neg (by norm_num), hds]
        simp
      · intro c0 h0
        rcases List.mem_cons.1 h0 with rfl | h1
        · exact ⟨hmem, hne, num % 36, hmod, hd⟩
        · exact hdig c0 h1
      · rw [List.reverse_cons, wcstoul_loop_append _ _
          (fun c0 h0 => hdig c0 (List.mem_reverse.1 h0)), hval]
        simp only [wcstoul_loop, hd, hmod, if_true]
        omega

theorem takeWhile_nonzero_append (s : List Label) (rest : List Label) (hs : ∀ c ∈ s, c ≠ 0) :
    (s ++ 0 :: rest).takeWhile (fun c => c ≠ 0) = s := by
  induction s with
  | nil => simp
  | cons c s ih =>
    have hc : c ≠ 0 := hs c (List.mem_cons_self _ _)
    simp only [List.cons_append, List.takeWhile_cons, hc, ne_eq, not_false_eq_true,
      decide_True, if_true]
    rw [ih (fun c0 h0 => hs c0 (List.mem_cons_of_mem _ h0))]

/-- `ultowcs` in the base 36 returns a string of digits that `wcstoul` reads
back as the number. -/
theorem ultowcs_spec (num : Nat) (h : num < 2 ^ 64) :
    ∃ s, ultowcs num 36 = some s ∧ s ≠ [] ∧ (∀ c ∈ s, IsDigit36 c) ∧
      wcstoul_loop 36 s 0 = num := by
  have hlt : num < 36 ^ (64 + 1) := lt_of_lt_of_le h (by norm_num)
  obtain ⟨ds, hds, hne, hdig, hval⟩ := ultowcs_loop_spec 64 num [] hlt
  refine ⟨ds.reverse, ?_, by simpa using hne, fun c hc => hdig c (List.mem_reverse.1 hc), hval⟩
  simp only [ultowcs, hds, List.nil_append, Option.bind_eq_bind, Option.some_bind,
    Option.pure_def, Option.some.injEq]
  rw [wcssubreverse_whole ds [0] hne]
  exact takeWhile_nonzero_append _ _ (fun c hc => (hdig c (List.mem_reverse.1 hc)).2.1)

theorem wcstoul_of_digits (iswspace : Label → Bool) (s : List Label) (hne : s ≠ [])
    (hdig : ∀ c ∈ s, IsDigit36 c) (hspace : ∀ c ∈ ultowcs_dictionary, iswspace c = false)
    (hval : wcstoul_loop 36 s 0 < 2 ^ 64) :
    wcstoul iswspace s 36 = wcstoul_loop 36 s 0 := by
  obtain ⟨c, t, rfl⟩ : ∃ c t, s = c :: t := by
    cases s with
    | nil => exact absurd rfl hne
    | cons c t => exact ⟨c, t, rfl⟩
  have hc := hdig c (List.mem_cons_self _ _)
  have hsp := hspace c hc.1
  have h45 : c ≠ 45 := by
    intro h; subst h
    obtain ⟨_, _, d, _, hd⟩ := hc
    simp [wcstoul_digit] at hd
  have h43 : c ≠ 43 := by
    intro h; subst h
    obtain ⟨_, _, d, _, hd⟩ := hc
    simp [wcstoul_digit] at hd
  have hle : ¬ wcstoul_loop 36 (c :: t) 0 > 2 ^ 64 - 1 := by omega
  simp only [wcstoul, List.dropWhile_cons, hsp, Bool.false_eq_true, if_false, List.head?_cons,
    Option.some.injEq, h45, h43, or_self, hle, decide_False]

theorem morphology_code_eq (f fl b : Nat) (hf : f < 2 ^ 16) (hfl : fl < 2 ^ 8) (hb : b < 2 ^ 8) :
    morphology_code f fl b = f * 65536 + fl * 256 + b := by
  have h1 : (f <<< 16) % 2 ^ 32 = 2 ^ 16 * f := by
    rw [Nat.shiftLeft_eq, Nat.mod_eq_of_lt (by omega)]; ring
  have h2 : (fl <<< 8) % 2 ^ 32 = 2 ^ 8 * fl := by
    rw [Nat.shiftLeft_eq, Nat.mod_eq_of_lt (by omega)]; ring
  have h3 : 2 ^ 16 * f ||| 2 ^ 8 * fl = 2 ^ 16 * f + 2 ^ 8 * fl :=
    (Nat.mul_add_lt_is_or (by omega) f).symm
  have h4 : 2 ^ 16 * f + 2 ^ 8 * fl = 2 ^ 8 * (f * 256 + fl) := by ring
  have h5 : 2 ^ 8 * (f * 256 + fl) ||| b = 2 ^ 8 * (f * 256 + fl) + b :=
    (Nat.mul_add_lt_is_or hb _).symm
  simp only [morphology_code, h1, h2, h3, h4, h5]
  ring

theorem parse_code (f fl b : Nat) (hf : f < 2 ^ 16) (hfl : fl < 2 ^ 8) (hb : b < 2 ^ 8) :
    (f * 65536 + fl * 256 + b) % 2 ^ 32 &&& 255 = b ∧
    (((f * 65536 + fl * 256 + b) % 2 ^ 32) >>> 8) &&& 255 = fl ∧
    (((f * 65536 + fl * 256 + b) % 2 ^ 32) >>> 16) % 2 ^ 16 = f := by
  have hmod : (f * 65536 + fl * 256 + b) % 2 ^ 32 = f * 65536 + fl * 256 + b :=
    Nat.mod_eq_of_lt (by omega)
  have h255 : (255 : Nat) = 2 ^ 8 - 1 := by norm_num
  rw [hmod, h255, Nat.and_pow_two_sub_one_eq_mod, Nat.and_pow_two_sub_one_eq_mod,
    Nat.shiftRight_eq_div_pow, Nat.shiftRight_eq_div_pow]
  refine ⟨by omega, by omega, by omega⟩

end Morph

namespace Morph

/-! ## The compact automaton: the search of a transition returns -/

theorem mini_find_loop_returns (automat : MiniAutomat) (transitions : List MiniTransition)
    (label : Label) (htargets : ∀ t ∈ transitions, t.target < automat.states.length) :
    ∀ (fuel : Nat) (left right : Int), 0 ≤ left → left ≤ right →
      right < (transitions.length : Int) → right - left < (fuel : Int) →
      ∃ r, mini_find_loop automat transitions label fuel left right = some r ∧
        ∀ t, r = some t → t < automat.states.length := by
  intro fuel
  induction fuel with
  | zero => intro left right _ h1 _ h3; simp at h3; omega
  | succ fuel ih =>
    intro left right h0 h1 h2 h3
    have hm0 : 0 ≤ left + (right - left) / 2 := by omega
    have hm1 : left + (right - left) / 2 ≤ right := by omega
    have hm2 : left ≤ left + (right - left) / 2 := by omega
    have hlt : (left + (right - left) / 2).toNat < transitions.length := by omega
    have hget : transitions[(left + (right - left) / 2).toNat]? =
        some (transitions[(left + (right - left) / 2).toNat]) := List.getElem?_eq_getElem hlt
    have hmem : transitions[(left + (right - left) / 2).toNat] ∈ transitions :=
      List.getElem_mem hlt
    simp only [mini_find_loop, hget, Option.bind_eq_bind, Option.some_bind]
    by_cases heq : (transitions[(left + (right - left) / 2).toNat]).label = label
    · rw [if_pos heq, if_pos (htargets _ hmem)]
      exact ⟨_, rfl, fun t ht => by
        simp only [Option.some.injEq] at ht
        rw [← ht]; exact htargets _ hmem⟩
    · rw [if_neg heq]
      by_cases hless : (transitions[(left + (right - left) / 2).toNat]).label < label
      · simp only [hless, if_true]
        by_cases hc : left + (right - left) / 2 + 1 ≤ right
        · rw [if_pos hc]
          exact ih _ _ (by omega) hc h2 (by push_cast at h3; omega)
        · rw [if_neg hc]
          exact ⟨none, rfl, fun t ht => by simp at ht⟩
      · simp only [hless, if_false]
        by_cases hc : left ≤ left + (right - left) / 2 - 1
        · rw [if_pos hc]
          exact ih _ _ h0 hc (by omega) (by push_cast at h3; omega)
        · rw [if_neg hc]
          exact ⟨none, rfl, fun t ht => by simp at ht⟩

theorem mini_find_transition_returns (automat : MiniAutomat) (hwf : WellFormedMini automat)
    (state : Nat) (hstate : state < automat.states.length) (label : Label) :
    ∃ r, mini_find_transition automat state label = some r ∧
      ∀ t, r = some t → t < automat.states.length := by
  have hget : automat.states[state]? = some automat.states[state] :=
    List.getElem?_eq_getElem hstate
  obtain ⟨hcount, htargets⟩ := hwf.2 _ (List.getElem_mem hstate)
  simp only [mini_find_transition, hget, Option.bind_eq_bind, Option.some_bind]
  by_cases hc : automat.states[state].transitions_count > 0
  · rw [if_pos hc]
    exact mini_find_loop_returns automat _ label htargets _ 0 _ (le_refl _) (by omega)
      (by omega) (by omega)
  · rw [if_neg hc]
    exact ⟨none, rfl, fun t ht => by simp at ht⟩

theorem mini_common_prefix_loop_returns (automat : MiniAutomat) (hwf : WellFormedMini automat) :
    ∀ (word : List Label) (prefix_size last_state : Nat), last_state < automat.states.length →
      ∃ p s, mini_common_prefix_loop automat word prefix_size last_state = some (p, s) ∧
        s < automat.states.length := by
  intro word
  induction word with
  | nil => intro p s hs; exact ⟨p, s, rfl, hs⟩
  | cons c word ih =>
    intro p s hs
    obtain ⟨r, hr, hlt⟩ := mini_find_transition_returns automat hwf s hs c
    simp only [mini_common_prefix_loop, hr, Option.bind_eq_bind, Option.some_bind]
    cases r with
    | none => exact ⟨p, s, rfl, hs⟩
    | some target => exact ih _ _ (hlt target rfl)

theorem mini_common_prefix_returns (automat : MiniAutomat) (hwf : WellFormedMini automat)
    (word : List Label) :
    ∃ p s, mini_common_prefix automat word = some (p, s) ∧ s < automat.states.length := by
  have h0 : 0 < automat.states.length := hwf.1
  have hget : automat.states[0]? = some automat.states[0] := List.getElem?_eq_getElem h0
  simp only [ mini_common_prefix, hget, Option.bind_eq_bind, Option.some_bind]
  exact mini_common_prefix_loop_returns automat hwf word 0 0 hwf.1

end Morph

namespace Morph

/-! ## The compact automaton: the calls that `mini_collect_output` makes -/

theorem head_set_succ (buffer : List Label) (k : Nat) (v : Label) (hk : 1 ≤ k) :
    (buffer.set k v).head? = buffer.head? := by
  cases buffer with
  | nil => rfl
  | cons x xs =>
    obtain ⟨k, rfl⟩ : ∃ j, k = j + 1 := ⟨k - 1, by omega⟩
    rfl

theorem head_set_zero (buffer : List Label) (v : Label) (h : 0 < buffer.length) :
    (buffer.set 0 v).head? = some v := by
  cases buffer with
  | nil => simp at h
  | cons x xs => rfl

theorem mini_collect_transitions_spec
    (recurse : Nat → List Label → List OutputCall → Option (List Label × List OutputCall))
    (n depth ip bs : Nat)
    (hrec : ∀ target buffer calls, target < n → buffer.length = bs →
      CollectSpec ip bs (1 ≤ depth) buffer calls (recurse target buffer calls)) :
    ∀ (transitions : List MiniTransition) (buffer : List Label) (calls : List OutputCall),
      (∀ t ∈ transitions, t.target < n) → buffer.length = bs →
      CollectSpec ip bs (1 ≤ depth) buffer calls
        (mini_collect_transitions recurse n depth transitions buffer calls) := by
  intro transitions
  induction transitions with
  | nil =>
    intro buffer calls _ hlen
    exact ⟨buffer, [], by simp [mini_collect_transitions], hlen, by simp,
      fun _ h => ⟨h, by simp⟩⟩
  | cons t rest ih =>
    intro buffer calls htargets hlen
    have ht : t.target < n := htargets t (List.mem_cons_self _ _)
    have hlen1 : ((buffer.set depth t.label).set (depth + 1) 0).length = bs := by
      simp [hlen]
    obtain ⟨buffer2, new1, h1, hlen2, hip1, hhead1⟩ := hrec t.target _ calls ht hlen1
    obtain ⟨buffer3, new2, h2, hlen3, hip2, hhead2⟩ :=
      ih buffer2 (calls ++ new1) (fun t0 h0 => htargets t0 (List.mem_cons_of_mem _ h0)) hlen2
    refine ⟨buffer3, new1 ++ new2, ?_, hlen3, ?_, ?_⟩
    · simp only [mini_collect_transitions, if_pos ht, h1, Option.bind_eq_bind,
        Option.some_bind, h2, List.append_assoc]
    · intro c hc
      rcases List.mem_append.1 hc with h | h
      · exact hip1 c h
      · exact hip2 c h
    · intro hd hb
      have hb1 : ((buffer.set depth t.label).set (depth + 1) 0).head? =
          some ANNOTATION_DELIMITER := by
        rw [head_set_succ _ _ _ (by omega), head_set_succ _ _ _ hd, hb]
      obtain ⟨hb2, hc1⟩ := hhead1 hd hb1
      obtain ⟨hb3, hc2⟩ := hhead2 hd hb2
      refine ⟨hb3, fun c hc => ?_⟩
      rcases List.mem_append.1 hc with h | h
      · exact hc1 c h
      · exact hc2 c h

theorem mini_collect_output_spec (automat : MiniAutomat) (hwf : WellFormedMini automat)
    (bs : Nat) :
    ∀ (fuel state ip ps depth : Nat) (buffer : List Label) (calls : List OutputCall),
      state < automat.states.length → buffer.length = bs → 1 ≤ fuel → bs + 1 ≤ fuel + depth →
      (1 ≤ depth ∨ ip ≠ 0) →
      CollectSpec ip bs (1 ≤ depth) buffer calls
        (mini_collect_output automat fuel state ip ps depth buffer bs calls) := by
  intro fuel
  induction fuel with
  | zero => intro _ _ _ _ _ _ _ _ h _ _; omega
  | succ fuel ih =>
    intro state ip ps depth buffer calls hstate hlen _ hfuel hmode
    obtain ⟨s, hget⟩ : ∃ s, automat.states[state]? = some s :=
      ⟨_, List.getElem?_eq_getElem hstate⟩
    obtain ⟨hcount, htargets⟩ := hwf.2 s (List.mem_iff_getElem?.2 ⟨state, hget⟩)
    have hnot : ¬ (depth = 0 ∧ ip = 0) := by
      rintro ⟨h1, h2⟩
      rcases hmode with h | h
      · omega
      · exact h h2
    simp only [mini_collect_output, hget]
    by_cases hfinal : s.is_final ≠ 0
    · simp only [ne_eq, hfinal, not_false_eq_true, if_true, true_and]
      by_cases hip : ip = 0
      · rw [if_pos hip]
        refine ⟨buffer, [_], rfl, hlen, ?_, ?_⟩
        · intro c hc
          simp only [List.mem_singleton] at hc
          rw [hc]
        · intro _ hb
          refine ⟨hb, fun c hc => ?_⟩
          simp only [List.mem_singleton] at hc
          rw [hc]; exact hb
      · rw [if_neg hip]
        by_cases hd : depth + 1 < bs
        · rw [if_pos hd, if_neg hnot, if_pos hcount]
          obtain ⟨buffer0, new, h1, hlen0, hip0, hhead0⟩ :=
            mini_collect_transitions_spec _ automat.states.length depth ip bs
              (fun target buffer calls htarget hl =>
                ih target ip ps (depth + 1) buffer calls htarget hl (by omega) (by omega)
                  (Or.inl (by omega)) |> fun ⟨b0, n0, e0, l0, i0, hh0⟩ =>
                    ⟨b0, n0, e0, l0, i0, fun _ hb => hh0 (by omega) hb⟩)
              _ buffer (calls ++ [{ is_prediction := ip, prefix_size := ps, buffer := buffer }])
              (fun t ht => htargets t (List.mem_of_mem_take ht)) hlen
          refine ⟨buffer0, { is_prediction := ip, prefix_size := ps, buffer := buffer } :: new,
            ?_, hlen0, ?_, ?_⟩
          · rw [h1]; simp
          · intro c hc
            rcases List.mem_cons.1 hc with rfl | h
            · rfl
            · exact hip0 c h
          · intro hd1 hb
            obtain ⟨hb0, hc0⟩ := hhead0 hd1 hb
            refine ⟨hb0, fun c hc => ?_⟩
            rcases List.mem_cons.1 hc with rfl | h
            · exact hb
            · exact hc0 c h
        · rw [if_neg hd]
          refine ⟨buffer, [_], rfl, hlen, ?_, ?_⟩
          · intro c hc
            simp only [List.mem_singleton] at hc
            rw [hc]
          · intro _ hb
            refine ⟨hb, fun c hc => ?_⟩
            simp only [List.mem_singleton] at hc
            rw [hc]; exact hb
    · have hfinal0 : s.is_final = 0 := not_not.1 hfinal
      simp only [ne_eq, hfinal0, not_true_eq_false, if_false, false_and]
      by_cases hd : depth + 1 < bs
      · rw [if_pos hd, if_neg hnot, if_pos hcount]
        exact mini_collect_transitions_spec _ automat.states.length depth ip bs
          (fun target buffer calls htarget hl =>
            ih target ip ps (depth + 1) buffer calls htarget hl (by omega) (by omega)
              (Or.inl (by omega)) |> fun ⟨b0, n0, e0, l0, i0, hh0⟩ =>
                ⟨b0, n0, e0, l0, i0, fun _ hb => hh0 (by omega) hb⟩)
          _ buffer calls (fun t ht => htargets t (List.mem_of_mem_take ht)) hlen
      · rw [if_neg hd]
        exact ⟨buffer, [], by simp, hlen, by simp, fun _ hb => ⟨hb, by simp⟩⟩

/-- One level of `mini_collect_output` at the depth zero outside prediction
mode. -/
theorem mini_collect_output_top (automat : MiniAutomat) (fuel state ps bs : Nat)
    (buffer : List Label) (calls : List OutputCall) (s : MiniState)
    (hget : automat.states[state]? = some s) (hbs : 0 + 1 < bs) :
    mini_collect_output automat (fuel + 1) state 0 ps 0 buffer bs calls =
      if s.is_final ≠ 0 then
        some (buffer, calls ++ [{ is_prediction := 0, prefix_size := ps, buffer := buffer }])
      else
        match mini_find_transition automat state ANNOTATION_DELIMITER with
        | none => none
        | some none => none
        | some (some target) =>
          mini_collect_output automat fuel target 0 ps (0 + 1)
            ((buffer.set 0 ANNOTATION_DELIMITER).set (0 + 1) 0) bs calls := by
  rw [mini_collect_output]
  simp only [hget]
  by_cases hfinal : s.is_final = 0
  · simp only [ne_eq, hfinal, not_true_eq_false, if_false, false_and, hbs, if_true, and_self] <;>
      rfl
  · simp only [ne_eq, hfinal, not_false_eq_true, if_true, and_self]

theorem bind_snd_eq_map {α β : Type} (o : Option (α × β)) :
    (o.bind fun a => some a.2) = o.map (fun r => r.2) := by
  cases o <;> rfl

/-- The three cases of `mini_possible_outputs`. -/
theorem mini_possible_outputs_eq (automat : MiniAutomat) (word : List Label)
    ( min_prediction_prefix : Nat) (buffer : List Label) (prefix_size last_state : Nat)
    (delimiter : Option Nat)
    (hcommon : mini_common_prefix automat word = some (prefix_size, last_state))
    (hfind : mini_find_transition automat last_state ANNOTATION_DELIMITER = some delimiter) :
    mini_possible_outputs automat word min_prediction_prefix buffer =
      if prefix_size = word.length ∧ delimiter ≠ none then
        (mini_collect_output automat (MAX_AUTOMAT_OUTPUT_SIZE + 1) last_state 0 prefix_size 0
          buffer MAX_AUTOMAT_OUTPUT_SIZE []).map (fun r => r.2)
      else if prefix_size ≥ min_prediction_prefix then
        (mini_collect_output automat (MAX_AUTOMAT_OUTPUT_SIZE + 1) last_state 1 prefix_size 0
          buffer MAX_AUTOMAT_OUTPUT_SIZE []).map (fun r => r.2)
      else some [] := by
  unfold mini_possible_outputs
  rw [hcommon]
  by_cases hp : prefix_size = word.length <;>
    by_cases hmin : prefix_size ≥ min_prediction_prefix <;>
    cases delimiter <;>
    simp [hp, hmin, hfind, bind_snd_eq_map]

end Morph

namespace Morph

/-! ## The tokenizer: reading one character -/

theorem mbsrtowcs_one_end (mbrtowc : Bytes → Option (Label × Nat)) (pre : Bytes)
    (sym : Label) : mbsrtowcs_one mbrtowc pre pre.length sym = (0, 0, none) := by
  simp [mbsrtowcs_one]

theorem mbsrtowcs_one_char (mbrtowc : Bytes → Option (Label × Nat)) (pre k rest : Bytes)
    (c sym : Label) (hk : IsChar mbrtowc c k) :
    mbsrtowcs_one mbrtowc (pre ++ (k ++ rest)) pre.length sym =
      (1, c, some (pre.length + k.length)) := by
  obtain ⟨hne, hnz, hdec⟩ := hk
  obtain ⟨b, k0, rfl⟩ : ∃ b k0, k = b :: k0 := by
    cases k with
    | nil => exact absurd rfl hne
    | cons b k0 => exact ⟨b, k0, rfl⟩
  have hb : b ≠ 0 := hnz b (List.mem_cons_self _ _)
  have := hdec rest
  simp only [List.cons_append] at this
  simp only [mbsrtowcs_one, List.drop_left, List.cons_append, hb, if_false, this]

theorem is_extra_zero : is_extra_token_char 0 = false := by decide

theorem not_size_max_zero : ¬ ((0 : Nat) = 2 ^ 64 - 1) := by decide

theorem not_size_max_one : ¬ ((1 : Nat) = 2 ^ 64 - 1) := by decide

/-! ## The tokenizer: one round of the loop -/

theorem tokenize_loop_continue (mbrtowc : Bytes → Option (Label × Nat))
    (iswalnum : Label → Bool) (T : Bytes) (fuel : Nat) (v v1 : TokenizeVars)
    (state : tokenizer_state) (position : Option Nat) (code : state_code)
    (hs : v.state = some state)
    (hi : tokenize_iteration mbrtowc iswalnum T state v = some v1)
    (h1 : v1.state = some { text_position := position, code := code })
    (hfinal : code ≠ state_code.FINAL) (hready : code ≠ state_code.TOKEN_READY) :
    tokenize_loop mbrtowc iswalnum T (fuel + 1) v = tokenize_loop mbrtowc iswalnum T fuel v1 := by
  rw [tokenize_loop]
  simp only [hs, hi, h1, ne_eq, hfinal, not_false_eq_true, hready, and_self, if_true]

theorem tokenize_loop_ready (mbrtowc : Bytes → Option (Label × Nat))
    (iswalnum : Label → Bool) (T : Bytes) (fuel : Nat) (v v1 : TokenizeVars)
    (state : tokenizer_state) (position : Option Nat) (hs : v.state = some state)
    (hi : tokenize_iteration mbrtowc iswalnum T state v = some v1)
    (h1 : v1.state = some { text_position := position, code := state_code.TOKEN_READY }) :
    tokenize_loop mbrtowc iswalnum T (fuel + 1) v = some v1 := by
  rw [tokenize_loop]
  simp only [hs, hi, h1, ne_eq, not_true_eq_false, and_false, if_false]

theorem tokenize_loop_final (mbrtowc : Bytes → Option (Label × Nat))
    (iswalnum : Label → Bool) (T : Bytes) (fuel : Nat) (v v1 : TokenizeVars)
    (state : tokenizer_state) (hs : v.state = some state)
    (hi : tokenize_iteration mbrtowc iswalnum T state v = some v1)
    (h1 : v1.state = none) :
    tokenize_loop mbrtowc iswalnum T (fuel + 1) v = some v1 := by
  rw [tokenize_loop]
  simp only [hs, hi, h1]

theorem iteration_inside_alnum (mbrtowc : Bytes → Option (Label × Nat))
    (iswalnum : Label → Bool) (T : Bytes) (p p0 : Nat) (c : Label) (v : TokenizeVars)
    (hread : mbsrtowcs_one mbrtowc T p v.current_symbol = (1, c, some p0))
    (hc : iswalnum c = true) :
    tokenize_iteration mbrtowc iswalnum T
        { text_position := some p, code := state_code.INSIDE_TOKEN } v =
      some { state := some { text_position := some p0, code := state_code.INSIDE_TOKEN },
             char_size := 1, current_symbol := c, token_start := v.token_start,
             token_end := v.token_end, retval := v.retval } := by
  simp [tokenize_iteration, hread, hc]

theorem iteration_inside_extra (mbrtowc : Bytes → Option (Label × Nat))
    (iswalnum : Label → Bool) (T : Bytes) (p p0 : Nat) (c : Label) (v : TokenizeVars)
    (hread : mbsrtowcs_one mbrtowc T p v.current_symbol = (1, c, some p0))
    (hc : iswalnum c = false) (hx : is_extra_token_char c = true) :
    tokenize_iteration mbrtowc iswalnum T
        { text_position := some p, code := state_code.INSIDE_TOKEN } v =
      some { state := some { text_position := some p0,
                             code := state_code.POST_EXTRA_SYMBOL },
             char_size := 1, current_symbol := c, token_start := v.token_start,
             token_end := v.token_end, retval := v.retval } := by
  simp [tokenize_iteration, hread, hc, hx]

theorem iteration_inside_other (mbrtowc : Bytes → Option (Label × Nat))
    (iswalnum : Label → Bool) (T : Bytes) (p p0 : Nat) (c : Label) (v : TokenizeVars) (a : Int)
    (hread : mbsrtowcs_one mbrtowc T p v.current_symbol = (1, c, some p0))
    (hc : iswalnum c = false) (hx : is_extra_token_char c = false)
    (hstart : v.token_start = some a) :
    tokenize_iteration mbrtowc iswalnum T
        { text_position := some p, code := state_code.INSIDE_TOKEN } v =
      some { state := some { text_position := some p0, code := state_code.TOKEN_READY },
             char_size := 1, current_symbol := c, token_start := some a,
             token_end := some ((p : Int) - 1), retval := (p : Int) - 1 - a + 1 } := by
  simp [tokenize_iteration, hread, hc, hx, hstart]

theorem iteration_inside_end (mbrtowc : Bytes → Option (Label × Nat))
    (iswalnum : Label → Bool) (hzero : iswalnum 0 = false) (T : Bytes) (p : Nat)
    (v : TokenizeVars) (a : Int)
    (hread : mbsrtowcs_one mbrtowc T p v.current_symbol = (0, 0, none))
    (hsize : v.char_size = 1) (hstart : v.token_start = some a) :
    tokenize_iteration mbrtowc iswalnum T
        { text_position := some p, code := state_code.INSIDE_TOKEN } v =
      some { state := some { text_position := none, code := state_code.TOKEN_READY },
             char_size := 0, current_symbol := 0, token_start := some a,
             token_end := some ((p : Int) - 1), retval := (p : Int) - 1 - a + 1 } := by
  simp [tokenize_iteration, hread, hsize, hstart, hzero, is_extra_zero]

theorem iteration_post_alnum (mbrtowc : Bytes → Option (Label × Nat))
    (iswalnum : Label → Bool) (T : Bytes) (p p0 : Nat) (c : Label) (v : TokenizeVars)
    (hread : mbsrtowcs_one mbrtowc T p v.current_symbol = (1, c, some p0))
    (hc : iswalnum c = true) :
    tokenize_iteration mbrtowc iswalnum T
        { text_position := some p, code := state_code.POST_EXTRA_SYMBOL } v =
      some { state := some { text_position := some p0, code := state_code.INSIDE_TOKEN },
             char_size := 1, current_symbol := c, token_start := v.token_start,
             token_end := v.token_end, retval := v.retval } := by
  simp [tokenize_iteration, hread, hc]

theorem iteration_post_other (mbrtowc : Bytes → Option (Label × Nat))
    (iswalnum : Label → Bool) (T : Bytes) (p p0 : Nat) (c : Label) (v : TokenizeVars) (a : Int)
    (hread : mbsrtowcs_one mbrtowc T p v.current_symbol = (1, c, some p0))
    (hc : iswalnum c = false) (hsize : v.char_size = 1) (hstart : v.token_start = some a) :
    tokenize_iteration mbrtowc iswalnum T
        { text_position := some p, code := state_code.POST_EXTRA_SYMBOL } v =
      some { state := some { text_position := some p, code := state_code.TOKEN_READY },
             char_size := 1, current_symbol := c, token_start := some a,
             token_end := some ((p : Int) - 1 - 1), retval := (p : Int) - 1 - 1 - a + 1 } := by
  simp [tokenize_iteration, hread, hc, hsize, hstart]

theorem iteration_post_end (mbrtowc : Bytes → Option (Label × Nat))
    (iswalnum : Label → Bool) (hzero : iswalnum 0 = false) (T : Bytes) (p : Nat)
    (v : TokenizeVars) (a : Int)
    (hread : mbsrtowcs_one mbrtowc T p v.current_symbol = (0, 0, none))
    (hsize : v.char_size = 1) (hstart : v.token_start = some a) :
    tokenize_iteration mbrtowc iswalnum T
        { text_position := some p, code := state_code.POST_EXTRA_SYMBOL } v =
      some { state := some { text_position := some p, code := state_code.TOKEN_READY },
             char_size := 0, current_symbol := 0, token_start := some a,
             token_end := some ((p : Int) - 1 - 1), retval := (p : Int) - 1 - 1 - a + 1 } := by
  simp [tokenize_iteration, hread, hsize, hstart, hzero]

theorem iteration_outside_alnum (mbrtowc : Bytes → Option (Label × Nat))
    (iswalnum : Label → Bool) (T : Bytes) (p p0 : Nat) (c : Label) (v : TokenizeVars)
    (hread : mbsrtowcs_one mbrtowc T p v.current_symbol = (1, c, some p0))
    (hc : iswalnum c = true) :
    tokenize_iteration mbrtowc iswalnum T
        { text_position := some p, code := state_code.OUTSIDE_TOKEN } v =
      some { state := some { text_position := some p0, code := state_code.INSIDE_TOKEN },
             char_size := 1, current_symbol := c, token_start := some (p : Int),
             token_end := v.token_end, retval := v.retval } := by
  simp [tokenize_iteration, hread, hc]

theorem iteration_outside_other (mbrtowc : Bytes → Option (Label × Nat))
    (iswalnum : Label → Bool) (T : Bytes) (p p0 : Nat) (c : Label) (v : TokenizeVars)
    (hread : mbsrtowcs_one mbrtowc T p v.current_symbol = (1, c, some p0))
    (hc : iswalnum c = false) :
    tokenize_iteration mbrtowc iswalnum T
        { text_position := some p, code := state_code.OUTSIDE_TOKEN } v =
      some { state := some { text_position := some p0, code := state_code.OUTSIDE_TOKEN },
             char_size := 1, current_symbol := c, token_start := v.token_start,
             token_end := v.token_end, retval := v.retval } := by
  simp [tokenize_iteration, hread, hc]

theorem iteration_outside_end_after (mbrtowc : Bytes → Option (Label × Nat))
    (iswalnum : Label → Bool) (hzero : iswalnum 0 = false) (T : Bytes) (p : Nat)
    (v : TokenizeVars)
    (hread : mbsrtowcs_one mbrtowc T p v.current_symbol = (0, 0, none))
    (hsize : v.char_size = 1) :
    tokenize_iteration mbrtowc iswalnum T
        { text_position := some p, code := state_code.OUTSIDE_TOKEN } v =
      some { state := some { text_position := none, code := state_code.OUTSIDE_TOKEN },
             char_size := 0, current_symbol := 0, token_start := v.token_start,
             token_end := v.token_end, retval := v.retval } := by
  simp [tokenize_iteration, hread, hsize, hzero]

theorem iteration_outside_end (mbrtowc : Bytes → Option (Label × Nat))
    (iswalnum : Label → Bool) (T : Bytes) (p : Nat) (v : TokenizeVars)
    (hread : mbsrtowcs_one mbrtowc T p v.current_symbol = (0, 0, none))
    (hsize : v.char_size = 0) :
    tokenize_iteration mbrtowc iswalnum T
        { text_position := some p, code := state_code.OUTSIDE_TOKEN } v =
      some { state := none, char_size := 0, current_symbol := 0, token_start := none,
             token_end := none, retval := 0 } := by
  simp [tokenize_iteration, hread, hsize]

theorem iteration_outside_null (mbrtowc : Bytes → Option (Label × Nat))
    (iswalnum : Label → Bool) (T : Bytes) (v : TokenizeVars) (hsize : v.char_size = 0) :
    tokenize_iteration mbrtowc iswalnum T
        { text_position := none, code := state_code.OUTSIDE_TOKEN } v =
      some { state := none, char_size := 0, current_symbol := v.current_symbol,
             token_start := none, token_end := none, retval := 0 } := by
  simp [tokenize_iteration, hsize]

end Morph

namespace Morph

/-! ## The tokenizer: the rounds inside a token -/

theorem isChar_length_pos {mbrtowc : Bytes → Option (Label × Nat)} {c : Label} {k : Bytes}
    (h : IsChar mbrtowc c k) : 1 ≤ k.length := by
  have := List.length_pos.2 h.1
  omega

theorem inside_run (mbrtowc : Bytes → Option (Label × Nat)) (iswalnum : Label → Bool)
    (hd : DecoderOk mbrtowc iswalnum) :
    ∀ u, TokenTail mbrtowc iswalnum u →
      ∀ (pre rest : Bytes) (next : Option Nat) (fuel a : Nat) (sym : Label) (te : Option Int)
        (rv : Int),
        TokenStop mbrtowc iswalnum rest next → u.length + 2 ≤ fuel → a ≤ pre.length →
        ∃ v1, tokenize_loop mbrtowc iswalnum (pre ++ (u ++ rest)) fuel
            { state := some { text_position := some pre.length,
                              code := state_code.INSIDE_TOKEN },
              char_size := 1, current_symbol := sym, token_start := some (a : Int),
              token_end := te, retval := rv } = some v1 ∧
          TokenReady v1 (next.map (fun n => pre.length + u.length + n)) a
            (pre.length + u.length - a) := by
  intro u hu
  induction hu with
  | nil =>
    intro pre rest next fuel a sym te rv hstop hfuel ha
    obtain ⟨fuel, rfl⟩ : ∃ f, fuel = f + 1 := ⟨fuel - 1, by omega⟩
    cases hstop with
    | finish =>
      simp only [List.nil_append, List.append_nil]
      refine ⟨_, tokenize_loop_ready mbrtowc iswalnum pre fuel _ _ _ none rfl
        (iteration_inside_end mbrtowc iswalnum hd.zero_not_alnum pre pre.length _ a
          (mbsrtowcs_one_end mbrtowc pre sym) rfl rfl) rfl, rfl, rfl, ?_, ?_⟩
      · simp only [List.length_nil, Nat.add_zero, Option.some.injEq]; omega
      · simp only [List.length_nil, Nat.add_zero]; omega
    | other c k r hk hc hx =>
      simp only [List.nil_append]
      refine ⟨_, tokenize_loop_ready mbrtowc iswalnum _ fuel _ _ _ _ rfl
        (iteration_inside_other mbrtowc iswalnum _ pre.length _ c _ a
          (mbsrtowcs_one_char mbrtowc pre k r c sym hk) hc hx rfl) rfl, rfl, rfl, ?_, ?_⟩
      · simp only [List.length_nil, Nat.add_zero, Option.some.injEq]; omega
      · simp only [List.length_nil, Nat.add_zero]; omega
    | extra_finish x e hk hc hx =>
      obtain ⟨fuel, rfl⟩ : ∃ f, fuel = f + 1 := ⟨fuel - 1, by omega⟩
      simp only [List.nil_append]
      have h1 := mbsrtowcs_one_char mbrtowc pre [e] [] x sym hk
      simp only [List.append_nil, List.length_singleton] at h1
      rw [tokenize_loop_continue mbrtowc iswalnum _ (fuel + 1) _ _ _ _ _ rfl
        (iteration_inside_extra mbrtowc iswalnum _ pre.length _ x _ h1 hc hx) rfl
        (by decide) (by decide)]
      have hlen : pre.length + 1 = (pre ++ [e]).length := by simp
      have h2 := mbsrtowcs_one_end mbrtowc (pre ++ [e]) x
      rw [← hlen] at h2
      refine ⟨_, tokenize_loop_ready mbrtowc iswalnum _ fuel _ _ _ _ rfl
        (iteration_post_end mbrtowc iswalnum hd.zero_not_alnum _ (pre.length + 1) _ a
          h2 rfl rfl) rfl, rfl, rfl, ?_, ?_⟩
      · simp only [List.length_nil, Nat.add_zero, Option.some.injEq]; push_cast; omega
      · simp only [List.length_nil, Nat.add_zero]; push_cast; omega
    | extra_other x e c k r hk hc hx hk2 hc2 =>
      obtain ⟨fuel, rfl⟩ : ∃ f, fuel = f + 1 := ⟨fuel - 1, by omega⟩
      simp only [List.nil_append]
      have h1 := mbsrtowcs_one_char mbrtowc pre [e] (k ++ r) x sym hk
      simp only [List.singleton_append, List.length_singleton] at h1
      rw [tokenize_loop_continue mbrtowc iswalnum _ (fuel + 1) _ _ _ _ _ rfl
        (iteration_inside_extra mbrtowc iswalnum _ pre.length _ x _ h1 hc hx) rfl
        (by decide) (by decide)]
      have hlen : pre.length + 1 = (pre ++ [e]).length := by simp
      have hT : pre ++ e :: (k ++ r) = (pre ++ [e]) ++ (k ++ r) := by simp
      have h2 := mbsrtowcs_one_char mbrtowc (pre ++ [e]) k r c x hk2
      rw [← hlen, ← hT] at h2
      refine ⟨_, tokenize_loop_ready mbrtowc iswalnum _ fuel _ _ _ _ rfl
        (iteration_post_other mbrtowc iswalnum _ (pre.length + 1) _ c _ a
          h2 hc2 rfl rfl) rfl, rfl, rfl, ?_, ?_⟩
      · simp only [List.length_nil, Nat.add_zero, Option.some.injEq]; push_cast; omega
      · simp only [List.length_nil, Nat.add_zero]; push_cast; omega
  | alnum c k u hk hc _ ih =>
    intro pre rest next fuel a sym te rv hstop hfuel ha
    have hkl := isChar_length_pos hk
    simp only [List.length_append] at hfuel
    obtain ⟨fuel, rfl⟩ : ∃ f, fuel = f + 1 := ⟨fuel - 1, by omega⟩
    have hT : pre ++ (k ++ u ++ rest) = pre ++ (k ++ (u ++ rest)) := by simp
    have hT2 : pre ++ (k ++ u ++ rest) = (pre ++ k) ++ (u ++ rest) := by simp
    have h1 := mbsrtowcs_one_char mbrtowc pre k (u ++ rest) c sym hk
    rw [← hT] at h1
    rw [tokenize_loop_continue mbrtowc iswalnum _ fuel _ _ _ _ _ rfl
      (iteration_inside_alnum mbrtowc iswalnum _ pre.length _ c _ h1 hc) rfl
      (by decide) (by decide)]
    have hlen : pre.length + k.length = (pre ++ k).length := by simp
    rw [hlen, hT2]
    obtain ⟨v1, hv1, hr⟩ := ih (pre ++ k) rest next fuel a c te rv hstop (by omega)
      (by simp; omega)
    refine ⟨v1, hv1, ?_⟩
    have e1 : (pre ++ k).length + u.length = pre.length + (k ++ u).length := by
      simp; omega
    rw [e1] at hr
    exact hr
  | extra x e c k u hx hxc hxe hk hc _ ih =>
    intro pre rest next fuel a sym te rv hstop hfuel ha
    have hkl := isChar_length_pos hk
    simp only [List.length_cons, List.length_append] at hfuel
    obtain ⟨fuel, rfl⟩ : ∃ f, fuel = f + 2 := ⟨fuel - 2, by omega⟩
    have hT : pre ++ (e :: (k ++ u) ++ rest) = pre ++ ([e] ++ (k ++ (u ++ rest))) := by simp
    have hT1 : pre ++ (e :: (k ++ u) ++ rest) = (pre ++ [e]) ++ (k ++ (u ++ rest)) := by simp
    have hT2 : pre ++ (e :: (k ++ u) ++ rest) = (pre ++ e :: k) ++ (u ++ rest) := by simp
    have h1 := mbsrtowcs_one_char mbrtowc pre [e] (k ++ (u ++ rest)) x sym hx
    rw [← hT] at h1
    simp only [List.length_singleton] at h1
    rw [tokenize_loop_continue mbrtowc iswalnum _ (fuel + 1) _ _ _ _ _ rfl
      (iteration_inside_extra mbrtowc iswalnum _ pre.length _ x _ h1 hxc hxe) rfl
      (by decide) (by decide)]
    have hlen : pre.length + 1 = (pre ++ [e]).length := by simp
    have h2 := mbsrtowcs_one_char mbrtowc (pre ++ [e]) k (u ++ rest) c x hk
    rw [← hlen, ← hT1] at h2
    rw [tokenize_loop_continue mbrtowc iswalnum _ fuel _ _ _ _ _ rfl
      (iteration_post_alnum mbrtowc iswalnum _ (pre.length + 1) _ c _ h2 hc) rfl
      (by decide) (by decide)]
    have hlen2 : pre.length + 1 + k.length = (pre ++ e :: k).length := by simp; omega
    rw [hlen2, hT2]
    obtain ⟨v1, hv1, hr⟩ := ih (pre ++ e :: k) rest next fuel a c te rv hstop (by omega)
      (by simp; omega)
    refine ⟨v1, hv1, ?_⟩
    have e1 : (pre ++ e :: k).length + u.length = pre.length + (e :: (k ++ u)).length := by
      simp; omega
    rw [e1] at hr
    exact hr

end Morph

namespace Morph

/-! ## The tokenizer: the rounds before a token and a whole call -/

theorem outside_run_token (mbrtowc : Bytes → Option (Label × Nat)) (iswalnum : Label → Bool)
    (hd : DecoderOk mbrtowc iswalnum) :
    ∀ g, Gap mbrtowc iswalnum g →
      ∀ (pre t rest : Bytes) (next : Option Nat) (fuel cs : Nat) (sym : Label)
        (ts te : Option Int) (rv : Int),
        TokenShaped mbrtowc iswalnum t → TokenStop mbrtowc iswalnum rest next →
        g.length + t.length + 2 ≤ fuel →
        ∃ v1, tokenize_loop mbrtowc iswalnum (pre ++ (g ++ (t ++ rest))) fuel
            { state := some { text_position := some pre.length,
                              code := state_code.OUTSIDE_TOKEN },
              char_size := cs, current_symbol := sym, token_start := ts,
              token_end := te, retval := rv } = some v1 ∧
          TokenReady v1 (next.map (fun n => pre.length + g.length + t.length + n))
            (pre.length + g.length) t.length := by
  intro g hg
  induction hg with
  | nil =>
    intro pre t rest next fuel cs sym ts te rv ht hstop hfuel
    obtain ⟨c, k, u, hk, hc, hu, rfl⟩ := ht
    have hkl := isChar_length_pos hk
    simp only [List.length_append, List.length_nil] at hfuel
    obtain ⟨fuel, rfl⟩ : ∃ f, fuel = f + 1 := ⟨fuel - 1, by omega⟩
    have hT : pre ++ ([] ++ (k ++ u ++ rest)) = pre ++ (k ++ (u ++ rest)) := by simp
    have hT2 : pre ++ ([] ++ (k ++ u ++ rest)) = (pre ++ k) ++ (u ++ rest) := by simp
    have h1 := mbsrtowcs_one_char mbrtowc pre k (u ++ rest) c sym hk
    rw [← hT] at h1
    rw [tokenize_loop_continue mbrtowc iswalnum _ fuel _ _ _ _ _ rfl
      (iteration_outside_alnum mbrtowc iswalnum _ pre.length _ c _ h1 hc) rfl
      (by decide) (by decide)]
    have hlen : pre.length + k.length = (pre ++ k).length := by simp
    rw [hlen, hT2]
    obtain ⟨v1, hv1, hr⟩ := inside_run mbrtowc iswalnum hd u hu (pre ++ k) rest next fuel
      pre.length c te rv hstop (by omega) (by simp)
    refine ⟨v1, hv1, ?_⟩
    have e1 : (fun n => (pre ++ k).length + u.length + n) =
        (fun n => pre.length + ([] : Bytes).length + (k ++ u).length + n) := by
      funext n; simp; omega
    have e2 : (pre ++ k).length + u.length - pre.length = (k ++ u).length := by
      simp; omega
    rw [e1, e2] at hr
    simpa using hr
  | cons c k g hk hc _ ih =>
    intro pre t rest next fuel cs sym ts te rv ht hstop hfuel
    have hkl := isChar_length_pos hk
    simp only [List.length_append] at hfuel
    obtain ⟨fuel, rfl⟩ : ∃ f, fuel = f + 1 := ⟨fuel - 1, by omega⟩
    have hT : pre ++ (k ++ g ++ (t ++ rest)) = pre ++ (k ++ (g ++ (t ++ rest))) := by simp
    have hT2 : pre ++ (k ++ g ++ (t ++ rest)) = (pre ++ k) ++ (g ++ (t ++ rest)) := by simp
    have h1 := mbsrtowcs_one_char mbrtowc pre k (g ++ (t ++ rest)) c sym hk
    rw [← hT] at h1
    rw [tokenize_loop_continue mbrtowc iswalnum _ fuel _ _ _ _ _ rfl
      (iteration_outside_other mbrtowc iswalnum _ pre.length _ c _ h1 hc) rfl
      (by decide) (by decide)]
    have hlen : pre.length + k.length = (pre ++ k).length := by simp
    rw [hlen, hT2]
    obtain ⟨v1, hv1, hr⟩ := ih (pre ++ k) t rest next fuel 1 c ts te rv ht hstop (by omega)
    refine ⟨v1, hv1, ?_⟩
    have e1 : (fun n => (pre ++ k).length + g.length + t.length + n) =
        (fun n => pre.length + (k ++ g).length + t.length + n) := by
      funext n; simp; omega
    have e2 : (pre ++ k).length + g.length = pre.length + (k ++ g).length := by
      simp; omega
    rw [e1, e2] at hr
    exact hr

theorem outside_null_run (mbrtowc : Bytes → Option (Label × Nat)) (iswalnum : Label → Bool)
    (T : Bytes) (fuel : Nat) (sym : Label) (ts te : Option Int) (rv : Int) :
    ∃ v1, tokenize_loop mbrtowc iswalnum T (fuel + 1)
        { state := some { text_position := none, code := state_code.OUTSIDE_TOKEN },
          char_size := 0, current_symbol := sym, token_start := ts,
          token_end := te, retval := rv } = some v1 ∧ TokenizeFinal v1 :=
  ⟨_, tokenize_loop_final mbrtowc iswalnum T fuel _ _ _ rfl
    (iteration_outside_null mbrtowc iswalnum T _ rfl) rfl, rfl, rfl, rfl, rfl⟩

theorem outside_run_end (mbrtowc : Bytes → Option (Label × Nat)) (iswalnum : Label → Bool)
    (hd : DecoderOk mbrtowc iswalnum) :
    ∀ g, Gap mbrtowc iswalnum g →
      ∀ (pre : Bytes) (fuel cs : Nat) (sym : Label) (ts te : Option Int) (rv : Int),
        cs = 0 ∨ cs = 1 → g.length + 2 ≤ fuel →
        ∃ v1, tokenize_loop mbrtowc iswalnum (pre ++ g) fuel
            { state := some { text_position := some pre.length,
                              code := state_code.OUTSIDE_TOKEN },
              char_size := cs, current_symbol := sym, token_start := ts,
              token_end := te, retval := rv } = some v1 ∧ TokenizeFinal v1 := by
  intro g hg
  induction hg with
  | nil =>
    intro pre fuel cs sym ts te rv hcs hfuel
    obtain ⟨fuel, rfl⟩ : ∃ f, fuel = f + 2 := ⟨fuel - 2, by simp at hfuel; omega⟩
    simp only [List.append_nil]
    rcases hcs with rfl | rfl
    · exact ⟨_, tokenize_loop_final mbrtowc iswalnum pre (fuel + 1) _ _ _ rfl
        (iteration_outside_end mbrtowc iswalnum pre pre.length _
          (mbsrtowcs_one_end mbrtowc pre sym) rfl) rfl, rfl, rfl, rfl, rfl⟩
    · rw [tokenize_loop_continue mbrtowc iswalnum _ (fuel + 1) _ _ _ _ _ rfl
        (iteration_outside_end_after mbrtowc iswalnum hd.zero_not_alnum pre pre.length _
          (mbsrtowcs_one_end mbrtowc pre sym) rfl) rfl (by decide) (by decide)]
      exact outside_null_run mbrtowc iswalnum pre fuel 0 ts te rv
  | cons c k g hk hc _ ih =>
    intro pre fuel cs sym ts te rv _ hfuel
    have hkl := isChar_length_pos hk
    simp only [List.length_append] at hfuel
    obtain ⟨fuel, rfl⟩ : ∃ f, fuel = f + 1 := ⟨fuel - 1, by omega⟩
    have hT : pre ++ (k ++ g) = (pre ++ k) ++ g := by simp
    have h1 := mbsrtowcs_one_char mbrtowc pre k g c sym hk
    rw [tokenize_loop_continue mbrtowc iswalnum _ fuel _ _ _ _ _ rfl
      (iteration_outside_other mbrtowc iswalnum _ pre.length _ c _ h1 hc) rfl
      (by decide) (by decide)]
    have hlen : pre.length + k.length = (pre ++ k).length := by simp
    rw [hlen, hT]
    exact ih (pre ++ k) fuel 1 c ts te rv (Or.inr rfl) (by omega)

end Morph

namespace Morph

/-! ## The tokenizer: the calls of the loop of the caller -/

theorem tokenize_of_loop (mbrtowc : Bytes → Option (Label × Nat)) (iswalnum : Label → Bool)
    (T : Bytes) (tc : Option Nat) (ts te : Option Int) (memo : Option tokenizer_state)
    (position : Option Nat) (v : TokenizeVars) (h : StartsAt tc te memo position)
    (hloop : tokenize_loop mbrtowc iswalnum T (T.length + 2)
      { state := some { text_position := position, code := state_code.OUTSIDE_TOKEN },
        char_size := 0, current_symbol := 0, token_start := none, token_end := none,
        retval := 0 } = some v) :
    tokenize mbrtowc iswalnum T tc ts te memo =
      some (v.retval, v.token_start, v.token_end, v.state) := by
  rcases h with ⟨rfl, hp⟩ | ⟨rfl, hte, code, rfl⟩
  · cases tc with
    | none => exact absurd rfl hp
    | some p => simp only [tokenize, hloop]
  · simp only [tokenize, hte, if_false, hloop]

theorem tokenize_all_loop_stop (mbrtowc : Bytes → Option (Label × Nat))
    (iswalnum : Label → Bool) (T : Bytes) (fuel : Nat) (tc : Option Nat) (ts te : Option Int)
    (memo : Option tokenizer_state) (r : Int) (a b : Option Int) (m : Option tokenizer_state)
    (h : tokenize mbrtowc iswalnum T tc ts te memo = some (r, a, b, m)) (hr : ¬ r > 0) :
    tokenize_all_loop mbrtowc iswalnum T (fuel + 1) tc ts te memo = some [] := by
  rw [tokenize_all_loop]
  simp only [h, hr, if_false]

theorem tokenize_all_loop_token (mbrtowc : Bytes → Option (Label × Nat))
    (iswalnum : Label → Bool) (T : Bytes) (fuel : Nat) (tc : Option Nat) (ts te : Option Int)
    (memo : Option tokenizer_state) (r start : Int) (b : Option Int)
    (m : Option tokenizer_state) (rest : List Bytes)
    (h : tokenize mbrtowc iswalnum T tc ts te memo = some (r, some start, b, m)) (hr : r > 0)
    (hrest : tokenize_all_loop mbrtowc iswalnum T fuel none (some start) b m = some rest) :
    tokenize_all_loop mbrtowc iswalnum T (fuel + 1) tc ts te memo =
      some ((T.drop start.toNat).take r.toNat :: rest) := by
  rw [tokenize_all_loop]
  simp only [h, hr, if_true, hrest]

theorem tokenShaped_length_pos {mbrtowc : Bytes → Option (Label × Nat)}
    {iswalnum : Label → Bool} {t : Bytes} (h : TokenShaped mbrtowc iswalnum t) :
    1 ≤ t.length := by
  obtain ⟨c, k, u, hk, _, _, rfl⟩ := h
  have := isChar_length_pos hk
  simp only [List.length_append]
  omega

theorem tokenStop_le {mbrtowc : Bytes → Option (Label × Nat)} {iswalnum : Label → Bool}
    {rest : Bytes} {n : Nat} (h : TokenStop mbrtowc iswalnum rest (some n)) :
    1 ≤ n ∧ n ≤ rest.length := by
  cases h with
  | other c k r hk _ _ =>
    have := isChar_length_pos hk
    simp only [List.length_append]
    omega
  | extra_finish x e _ _ _ => simp
  | extra_other x e c k r _ _ _ _ _ => simp

theorem tokenize_all_loop_tokens (mbrtowc : Bytes → Option (Label × Nat))
    (iswalnum : Label → Bool) (hd : DecoderOk mbrtowc iswalnum) :
    ∀ s ts, Tokens mbrtowc iswalnum s ts →
      ∀ (pre : Bytes) (fuel : Nat) (tc : Option Nat) (ts0 te : Option Int)
        (memo : Option tokenizer_state),
        StartsAt tc te memo (some pre.length) → ts.length + 1 ≤ fuel →
        tokenize_all_loop mbrtowc iswalnum (pre ++ s) fuel tc ts0 te memo = some ts := by
  intro s ts h
  induction h with
  | done g hg =>
    intro pre fuel tc ts0 te memo hstart hfuel
    obtain ⟨fuel, rfl⟩ : ∃ f, fuel = f + 1 := ⟨fuel - 1, by omega⟩
    obtain ⟨v1, hv1, hstate, hts, hte, hrv⟩ := outside_run_end mbrtowc iswalnum hd g hg pre
      ((pre ++ g).length + 2) 0 0 none none 0 (Or.inl rfl) (by simp)
    have hcall := tokenize_of_loop mbrtowc iswalnum (pre ++ g) tc ts0 te memo _ v1 hstart hv1
    exact tokenize_all_loop_stop mbrtowc iswalnum _ fuel tc ts0 te memo _ _ _ _ hcall
      (by rw [hrv]; decide)
  | last g t hg ht =>
    intro pre fuel tc ts0 te memo hstart hfuel
    have htl := tokenShaped_length_pos ht
    obtain ⟨fuel, rfl⟩ : ∃ f, fuel = f + 2 := ⟨fuel - 2, by simp at hfuel; omega⟩
    obtain ⟨v1, hv1, hstate, hts, hte, hrv⟩ := outside_run_token mbrtowc iswalnum hd g hg pre
      t [] none ((pre ++ (g ++ t)).length + 2) 0 0 none none 0 ht TokenStop.finish
      (by simp)
    simp only [List.append_nil] at hv1
    have hcall := tokenize_of_loop mbrtowc iswalnum (pre ++ (g ++ t)) tc ts0 te memo _ v1
      hstart hv1
    rw [hstate, hts, hte, hrv] at hcall
    obtain ⟨v2, hv2, hstate2, hts2, hte2, hrv2⟩ := outside_null_run mbrtowc iswalnum
      (pre ++ (g ++ t)) ((pre ++ (g ++ t)).length + 1) 0 none none 0
    have hcall2 := tokenize_of_loop mbrtowc iswalnum (pre ++ (g ++ t)) none
      (some ((pre.length + g.length : Nat) : Int))
      (some (((pre.length + g.length : Nat) : Int) + (t.length : Int) - 1))
      (some { text_position := none, code := state_code.TOKEN_READY }) none v2
      (Or.inr ⟨rfl, by simp, _, rfl⟩) hv2
    have hstop := tokenize_all_loop_stop mbrtowc iswalnum _ fuel _ _ _ _ _ _ _ _ hcall2
      (by rw [hrv2]; decide)
    have := tokenize_all_loop_token mbrtowc iswalnum _ (fuel + 1) tc ts0 te memo _ _ _ _ _
      hcall (by omega) hstop
    rw [this]
    have hdrop : (pre ++ (g ++ t)).drop (pre.length + g.length) = t := by
      rw [← List.append_assoc, ← List.length_append, List.drop_left]
    simp only [Int.toNat_ofNat, hdrop, List.take_length]
  | token g t rest n ts1 hg ht hstop _ ih =>
    intro pre fuel tc ts0 te memo hstart hfuel
    have htl := tokenShaped_length_pos ht
    obtain ⟨hn1, hn⟩ := tokenStop_le hstop
    simp only [List.length_cons] at hfuel
    obtain ⟨fuel, rfl⟩ : ∃ f, fuel = f + 1 := ⟨fuel - 1, by omega⟩
    have hT : pre ++ (g ++ t ++ rest) = pre ++ (g ++ (t ++ rest)) := by simp
    obtain ⟨v1, hv1, hstate, hts, hte, hrv⟩ := outside_run_token mbrtowc iswalnum hd g hg pre
      t rest (some n) ((pre ++ (g ++ t ++ rest)).length + 2) 0 0 none none 0 ht hstop
      (by simp; omega)
    rw [← hT] at hv1
    have hcall := tokenize_of_loop mbrtowc iswalnum _ tc ts0 te memo _ v1 hstart hv1
    rw [hstate, hts, hte, hrv] at hcall
    have hT2 : pre ++ (g ++ t ++ rest) = (pre ++ (g ++ t ++ rest.take n)) ++ rest.drop n := by
      simp
    have hlen : pre.length + g.length + t.length + n =
        (pre ++ (g ++ t ++ rest.take n)).length := by
      simp [Nat.min_eq_left hn]; omega
    have hnext := ih (pre ++ (g ++ t ++ rest.take n)) fuel none
      (some ((pre.length + g.length : Nat) : Int))
      (some (((pre.length + g.length : Nat) : Int) + (t.length : Int) - 1))
      (some { text_position := some (pre.length + g.length + t.length + n),
              code := state_code.TOKEN_READY })
      (Or.inr ⟨rfl, by simp, _, by rw [hlen]⟩) (by omega)
    rw [← hT2] at hnext
    have := tokenize_all_loop_token mbrtowc iswalnum _ fuel tc ts0 te memo _ _ _ _ _
      hcall (by omega) hnext
    rw [this]
    have hdrop : (pre ++ (g ++ t ++ rest)).drop (pre.length + g.length) = t ++ rest := by
      have : pre ++ (g ++ t ++ rest) = (pre ++ g) ++ (t ++ rest) := by simp
      rw [this, ← List.length_append, List.drop_left]
    simp only [Int.toNat_ofNat, hdrop, List.take_left']

theorem tokens_length_le {mbrtowc : Bytes → Option (Label × Nat)} {iswalnum : Label → Bool}
    {s : Bytes} {ts : List Bytes} (h : Tokens mbrtowc iswalnum s ts) : ts.length ≤ s.length := by
  induction h with
  | done g _ => simp
  | last g t _ ht =>
    have := tokenShaped_length_pos ht
    simp only [List.length_singleton, List.length_append]
    omega
  | token g t rest n ts1 _ ht _ _ ih =>
    have := tokenShaped_length_pos ht
    simp only [List.length_drop] at ih
    simp only [List.length_cons, List.length_append]
    omega

theorem tokens_shaped {mbrtowc : Bytes → Option (Label × Nat)} {iswalnum : Label → Bool}
    {s : Bytes} {ts : List Bytes} (h : Tokens mbrtowc iswalnum s ts) :
    ∀ t ∈ ts, TokenShaped mbrtowc iswalnum t := by
  induction h with
  | done g _ => intro t ht; simp at ht
  | last g t _ ht =>
    intro t0 h0
    simp only [List.mem_singleton] at h0
    rw [h0]; exact ht
  | token g t rest n ts1 _ ht _ _ ih =>
    intro t0 h0
    rcases List.mem_cons.1 h0 with rfl | h1
    · exact ht
    · exact ih t0 h1

/-- The tokens of a text that splits into tokens. -/
theorem tokenize_all_tokens (mbrtowc : Bytes → Option (Label × Nat)) (iswalnum : Label → Bool)
    (hd : DecoderOk mbrtowc iswalnum) (s : Bytes) (ts : List Bytes)
    (h : Tokens mbrtowc iswalnum s ts) : tokenize_all mbrtowc iswalnum s = some ts := by
  have := tokenize_all_loop_tokens mbrtowc iswalnum hd s ts h [] (s.length + 1) (some 0) none
    none none (Or.inl ⟨rfl, by simp⟩) (by have := tokens_length_le h; omega)
  simpa [tokenize_all] using this

end Morph

namespace Morph

/-! ## The tokenizer: a valid text splits into tokens -/

theorem char_of_decode {mbrtowc : Bytes → Option (Label × Nat)} {iswalnum : Label → Bool}
    (hd : DecoderOk mbrtowc iswalnum) (s : Bytes) (c : Label) (n : Nat)
    (hdec : mbrtowc s = some (c, n)) (hnz : ∀ b ∈ s, b ≠ 0) :
    IsChar mbrtowc c (s.take n) ∧ (s.take n).length = n ∧ 1 ≤ n ∧ n ≤ s.length := by
  obtain ⟨h1, h2⟩ := hd.size s c n hdec
  have hlen : (s.take n).length = n := by simp [Nat.min_eq_left h2]
  refine ⟨⟨?_, fun b hb => hnz b (List.mem_of_mem_take hb), fun rest => ?_⟩, hlen, h1, h2⟩
  · intro h
    rw [h] at hlen
    simp at hlen
    omega
  · rw [hlen]
    exact hd.stable s c n hdec rest

theorem tail_decomp {mbrtowc : Bytes → Option (Label × Nat)} {iswalnum : Label → Bool}
    (hd : DecoderOk mbrtowc iswalnum) :
    ∀ (m : Nat) (s : Bytes), s.length ≤ m → ValidText mbrtowc s → (∀ b ∈ s, b ≠ 0) →
      ∃ u rest next, s = u ++ rest ∧ TokenTail mbrtowc iswalnum u ∧
        TokenStop mbrtowc iswalnum rest next ∧
        ∀ n, next = some n → ValidText mbrtowc (rest.drop n) := by
  intro m
  induction m using Nat.strong_induction_on with
  | _ m ih =>
    intro s hlen hv hnz
    cases hv with
    | nil => exact ⟨[], [], none, rfl, TokenTail.nil, TokenStop.finish, fun n h => by simp at h⟩
    | cons _ c n hdec hrest =>
      obtain ⟨hk, hkl, hn1, hn2⟩ := char_of_decode hd s c n hdec hnz
      have hsplit : s = s.take n ++ s.drop n := (List.take_append_drop n s).symm
      have hnz1 : ∀ b ∈ s.drop n, b ≠ 0 := fun b hb => hnz b (List.mem_of_mem_drop hb)
      by_cases hc : iswalnum c = true
      · obtain ⟨u, rest, next, hs, hu, hstop, hnext⟩ :=
          ih (s.drop n).length (by simp; omega) (s.drop n) (le_refl _) hrest hnz1
        refine ⟨s.take n ++ u, rest, next, ?_, TokenTail.alnum c _ u hk hc hu, hstop, hnext⟩
        rw [List.append_assoc, ← hs]
        exact hsplit
      · have hc0 : iswalnum c = false := by simpa using hc
        by_cases hx : is_extra_token_char c = true
        · have h1 : n = 1 := hd.extra_size s c n hdec hx hc0
          subst h1
          obtain ⟨e, s1, rfl⟩ : ∃ e s1, s = e :: s1 := by
            cases s with
            | nil => simp at hn2
            | cons e s1 => exact ⟨e, s1, rfl⟩
          simp only [List.take_succ_cons, List.take_zero, List.drop_succ_cons, List.drop_zero]
            at hk hrest hnz1
          cases hrest with
          | nil =>
            exact ⟨[], [e], some 1, rfl, TokenTail.nil, TokenStop.extra_finish c e hk hc0 hx,
              fun n h => by
                simp only [Option.some.injEq] at h
                subst h
                exact ValidText.nil⟩
          | cons _ c2 n2 hdec2 hrest2 =>
            obtain ⟨hk2, hkl2, hn21, hn22⟩ := char_of_decode hd s1 c2 n2 hdec2 hnz1
            have hsplit2 : s1 = s1.take n2 ++ s1.drop n2 := (List.take_append_drop n2 s1).symm
            by_cases hc2 : iswalnum c2 = true
            · obtain ⟨u, rest, next, hs, hu, hstop, hnext⟩ :=
                ih (s1.drop n2).length (by simp at hlen ⊢; omega) (s1.drop n2) (le_refl _)
                  hrest2 (fun b hb => hnz1 b (List.mem_of_mem_drop hb))
              refine ⟨e :: (s1.take n2 ++ u), rest, next, ?_,
                TokenTail.extra c e c2 _ u hk hc0 hx hk2 hc2 hu, hstop, hnext⟩
              simp only [List.cons_append, List.append_assoc, ← hs, ← hsplit2]
            · have hc20 : iswalnum c2 = false := by simpa using hc2
              refine ⟨[], e :: (s1.take n2 ++ s1.drop n2), some 1, ?_, TokenTail.nil,
                TokenStop.extra_other c e c2 _ _ hk hc0 hx hk2 hc20, fun n h => ?_⟩
              · simp only [List.nil_append, ← hsplit2]
              · simp only [Option.some.injEq] at h
                subst h
                simp only [List.drop_succ_cons, List.drop_zero, ← hsplit2]
                exact ValidText.cons s1 c2 n2 hdec2 hrest2
        · have hx0 : is_extra_token_char c = false := by simpa using hx
          refine ⟨[], s.take n ++ s.drop n, some (s.take n).length, ?_, TokenTail.nil,
            TokenStop.other c _ _ hk hc0 hx0, fun n0 h => ?_⟩
          · simp only [List.nil_append, List.take_append_drop]
          · simp only [Option.some.injEq] at h
            subst h
            rw [List.drop_left]
            exact hrest

theorem tokens_gap_cons {mbrtowc : Bytes → Option (Label × Nat)} {iswalnum : Label → Bool}
    (c : Label) (k : Bytes) (hk : IsChar mbrtowc c k) (hc : iswalnum c = false)
    {s : Bytes} {ts : List Bytes} (h : Tokens mbrtowc iswalnum s ts) :
    Tokens mbrtowc iswalnum (k ++ s) ts := by
  cases h with
  | done _ hg => exact Tokens.done _ (Gap.cons c k _ hk hc hg)
  | last g t hg ht =>
    rw [← List.append_assoc]
    exact Tokens.last _ t (Gap.cons c k g hk hc hg) ht
  | token g t rest n ts1 hg ht hstop hrest =>
    have : k ++ (g ++ t ++ rest) = (k ++ g) ++ t ++ rest := by simp
    rw [this]
    exact Tokens.token _ t rest n ts1 (Gap.cons c k g hk hc hg) ht hstop hrest

theorem tokens_of_valid {mbrtowc : Bytes → Option (Label × Nat)} {iswalnum : Label → Bool}
    (hd : DecoderOk mbrtowc iswalnum) :
    ∀ (m : Nat) (s : Bytes), s.length ≤ m → ValidText mbrtowc s → (∀ b ∈ s, b ≠ 0) →
      ∃ ts, Tokens mbrtowc iswalnum s ts := by
  intro m
  induction m using Nat.strong_induction_on with
  | _ m ih =>
    intro s hlen hv hnz
    cases hv with
    | nil => exact ⟨[], Tokens.done [] Gap.nil⟩
    | cons _ c n hdec hrest =>
      obtain ⟨hk, hkl, hn1, hn2⟩ := char_of_decode hd s c n hdec hnz
      have hsplit : s = s.take n ++ s.drop n := (List.take_append_drop n s).symm
      have hnz1 : ∀ b ∈ s.drop n, b ≠ 0 := fun b hb => hnz b (List.mem_of_mem_drop hb)
      by_cases hc : iswalnum c = true
      · obtain ⟨u, rest, next, hs, hu, hstop, hnext⟩ :=
          tail_decomp hd (s.drop n).length (s.drop n) (le_refl _) hrest hnz1
        have ht : TokenShaped mbrtowc iswalnum (s.take n ++ u) := ⟨c, _, u, hk, hc, hu, rfl⟩
        have hs2 : s = [] ++ (s.take n ++ u) ++ rest := by
          rw [List.nil_append, List.append_assoc, ← hs]
          exact hsplit
        cases next with
        | none =>
          cases hstop
          refine ⟨[s.take n ++ u], ?_⟩
          have hlast := Tokens.last [] _ Gap.nil ht
          rw [List.append_nil] at hs2
          rw [← hs2] at hlast
          exact hlast
        | some n0 =>
          obtain ⟨_, hn0⟩ := tokenStop_le hstop
          have hrl : rest.length ≤ (s.drop n).length := by rw [hs]; simp
          obtain ⟨ts, hts⟩ := ih (rest.drop n0).length
            (by simp at hrl ⊢; omega) (rest.drop n0) (le_refl _) (hnext n0 rfl)
            (fun b hb => hnz1 b (by rw [hs]; exact List.mem_append_right _ (List.mem_of_mem_drop hb)))
          refine ⟨(s.take n ++ u) :: ts, ?_⟩
          have htoken := Tokens.token [] _ rest n0 ts Gap.nil ht hstop hts
          rw [← hs2] at htoken
          exact htoken
      · have hc0 : iswalnum c = false := by simpa using hc
        obtain ⟨ts, hts⟩ := ih (s.drop n).length (by simp; omega) (s.drop n) (le_refl _)
          hrest hnz1
        refine ⟨ts, ?_⟩
        have hgap := tokens_gap_cons c _ hk hc0 hts
        rw [← hsplit] at hgap
        exact hgap

theorem isChar_blank {mbrtowc : Bytes → Option (Label × Nat)} {iswalnum : Label → Bool}
    (hd : DecoderOk mbrtowc iswalnum) : IsChar mbrtowc 32 [32] :=
  ⟨by simp, by simp, fun rest => hd.blank rest⟩

theorem intercalate_cons_cons (t t1 : Bytes) (ts : List Bytes) :
    List.intercalate [32] (t :: t1 :: ts) = t ++ 32 :: List.intercalate [32] (t1 :: ts) := by
  simp [List.intercalate, List.intersperse]

theorem tokens_join {mbrtowc : Bytes → Option (Label × Nat)} {iswalnum : Label → Bool}
    (hd : DecoderOk mbrtowc iswalnum) :
    ∀ ts : List Bytes, (∀ t ∈ ts, TokenShaped mbrtowc iswalnum t) →
      Tokens mbrtowc iswalnum (List.intercalate [32] ts) ts := by
  intro ts
  induction ts with
  | nil => intro _; exact Tokens.done [] Gap.nil
  | cons t ts ih =>
    intro h
    have ht := h t (List.mem_cons_self _ _)
    cases ts with
    | nil =>
      have : List.intercalate [32] [t] = [] ++ t := by simp [List.intercalate, List.intersperse]
      rw [this]
      exact Tokens.last [] t Gap.nil ht
    | cons t1 ts1 =>
      have hrest := ih (fun t0 h0 => h t0 (List.mem_cons_of_mem _ h0))
      have e : List.intercalate [32] (t :: t1 :: ts1) =
          [] ++ t ++ ([32] ++ List.intercalate [32] (t1 :: ts1)) := by
        rw [intercalate_cons_cons]; simp
      rw [e]
      exact Tokens.token [] t _ ([32] : Bytes).length (t1 :: ts1) Gap.nil ht
        (TokenStop.other 32 [32] _ (isChar_blank hd) hd.blank_not_alnum (by decide))
        (by simpa using hrest)

end Morph

namespace Morph

/-! ## The tokenizer: the sample decoder -/

theorem validText_of_check (mbrtowc : Bytes → Option (Label × Nat)) :
    ∀ (fuel : Nat) (s : Bytes), valid_text mbrtowc fuel s = true → ValidText mbrtowc s := by
  intro fuel
  induction fuel with
  | zero =>
    intro s h
    cases s with
    | nil => exact ValidText.nil
    | cons b rest => simp [valid_text] at h
  | succ fuel ih =>
    intro s h
    cases s with
    | nil => exact ValidText.nil
    | cons b rest =>
      rw [valid_text] at h
      cases hdec : mbrtowc (b :: rest) with
      | none => rw [hdec] at h; simp at h
      | some r =>
        obtain ⟨c, n⟩ := r
        rw [hdec] at h
        exact ValidText.cons _ c n hdec (ih _ h)

theorem mbrtowc_utf8_cases (s : Bytes) (c : Label) (n : Nat)
    (h : mbrtowc_utf8 s = some (c, n)) :
    (∃ b rest, s = b :: rest ∧ b < 128 ∧ c = (b : Int) ∧ n = 1) ∨
    (∃ b b1 rest, s = b :: b1 :: rest ∧ 194 ≤ b ∧ b < 224 ∧ 128 ≤ b1 ∧ b1 < 192 ∧
      c = (((b - 192) * 64 + (b1 - 128) : Nat) : Int) ∧ n = 2) := by
  cases s with
  | nil => simp [mbrtowc_utf8] at h
  | cons b rest =>
    by_cases h1 : b < 128
    · simp only [mbrtowc_utf8, h1, if_true, Option.some.injEq, Prod.mk.injEq] at h
      exact Or.inl ⟨b, rest, rfl, h1, h.1.symm, h.2.symm⟩
    · by_cases h2 : 194 ≤ b ∧ b < 224
      · cases rest with
        | nil => simp [mbrtowc_utf8, h1, h2] at h
        | cons b1 rest =>
          by_cases h3 : 128 ≤ b1 ∧ b1 < 192
          · simp only [mbrtowc_utf8, h1, if_false, h2, and_self, if_true, h3, Option.some.injEq,
              Prod.mk.injEq] at h
            exact Or.inr ⟨b, b1, rest, rfl, h2.1, h2.2, h3.1, h3.2, h.1.symm, h.2.symm⟩
          · simp [mbrtowc_utf8, h1, h2, h3] at h
      · simp [mbrtowc_utf8, h1, h2] at h

theorem decoderOk_utf8 : DecoderOk mbrtowc_utf8 iswalnum_sample where
  size := by
    intro s c n h
    rcases mbrtowc_utf8_cases s c n h with ⟨b, rest, rfl, _, _, rfl⟩ |
      ⟨b, b1, rest, rfl, _, _, _, _, _, rfl⟩
    · simp
    · simp
  stable := by
    intro s c n h rest0
    rcases mbrtowc_utf8_cases s c n h with ⟨b, rest, rfl, hb, rfl, rfl⟩ |
      ⟨b, b1, rest, rfl, h1, h2, h3, h4, rfl, rfl⟩
    · simp [mbrtowc_utf8, hb]
    · have hb : ¬ b < 128 := by omega
      simp [mbrtowc_utf8, hb, h1, h2, h3, h4]
  blank := by
    intro rest
    simp [mbrtowc_utf8]
  extra_size := by
    intro s c n h hx _
    rcases mbrtowc_utf8_cases s c n h with ⟨b, rest, rfl, _, _, rfl⟩ |
      ⟨b, b1, rest, rfl, h1, h2, h3, h4, rfl, rfl⟩
    · rfl
    · exfalso
      simp only [is_extra_token_char, is_terminator, kExtraAllowedInWord, List.mem_cons,
        List.mem_singleton, List.not_mem_nil, or_false, Bool.and_eq_true, Bool.not_eq_true',
        decide_eq_false_iff_not, decide_eq_true_eq] at hx
      have hx2 : ((((b - 192) * 64 + (b1 - 128) : Nat) : Int) = 45 ∨
          (((b - 192) * 64 + (b1 - 128) : Nat) : Int) = 39 ∨
          (((b - 192) * 64 + (b1 - 128) : Nat) : Int) = 96 ∨
          (((b - 192) * 64 + (b1 - 128) : Nat) : Int) = 95) := hx.2
      omega
  blank_not_alnum := by decide
  zero_not_alnum := by decide

end Morph

namespace Morph

/-- The description of a described word is not empty. -/
theorem described_length_pos (lemmas : List Bytes) (form : Bytes) :
    0 < (described lemmas form).description.length := by
  simp only [described, description_of_append]
  simp [description_of]

/-- The range of a word is as long as its description. -/
theorem range_start_step :
    ∀ (words : List DescribedWord) (j : Nat) (w : DescribedWord), words[j]? = some w →
      range_start words (j + 1) = range_start words j + w.description.length := by
  intro words
  induction words with
  | nil => intro j w h; simp at h
  | cons w0 words ih =>
    intro j w h
    cases j with
    | zero =>
      simp only [List.getElem?_cons_zero, Option.some.injEq] at h
      subst h
      simp [range_start]
    | succ j =>
      simp only [List.getElem?_cons_succ] at h
      rw [range_start_succ, range_start_succ, ih j w h]
      omega

/-- A record of the ranges of a document is the record of a word. -/
theorem document_ranges_inv (words : List DescribedWord) (i : Nat) (r : WordRange)
    (h : (ranges_from 1 0 words)[i]? = some r) :
    i < words.length ∧ r.word_index = i ∧ r.start_position = range_start words i ∧
      r.end_position = range_start words (i + 1) := by
  have hlt : i < (ranges_from 1 0 words).length := (List.getElem?_eq_some.1 h).1
  rw [ranges_from_length] at hlt
  rw [document_ranges_getElem words i _ (List.getElem?_eq_getElem hlt)] at h
  have h := Option.some.inj h
  subst h
  exact ⟨hlt, rfl, rfl, rfl⟩

/-- The text of a document holds a terminator where a range starts or ends. -/
theorem terminator_at_range_start (words : List DescribedWord)
    (hall : ∀ w ∈ words, ∃ lemmas form, w = described lemmas form) (j : Nat)
    (hj : j ≤ words.length) :
    (words_text words)[range_start words j]? = some 46 := by
  cases j with
  | zero => simp [range_start_zero, words_text, WORD_DESCRIPTION_TERMINATOR]
  | succ k =>
    have hk : k < words.length := hj
    obtain ⟨lemmas, form, hw⟩ := hall words[k] (List.getElem_mem hk)
    have hget : words[k]? = some (described lemmas form) := by
      rw [List.getElem?_eq_getElem hk, hw]
    obtain ⟨A, B, h1, h2⟩ := form_in_text words k lemmas form hget
    simp only [words_text, WORD_DESCRIPTION_TERMINATOR, h1]
    have : (46 :: (A ++ form ++ 46 :: B) : Bytes) = (46 :: (A ++ form)) ++ 46 :: B := by simp
    rw [this]
    exact getElem?_append_cons_length _ _ _ _ (by simp; omega)

/-- A position below the start of the range `n` lies in the range of a word
before `n`. -/
theorem range_cover (words : List DescribedWord) (p : Nat) :
    ∀ n, p < range_start words n →
      ∃ j, j < n ∧ range_start words j ≤ p ∧ p < range_start words (j + 1) := by
  intro n
  induction n with
  | zero => intro h; rw [range_start_zero] at h; omega
  | succ n ih =>
    intro h
    by_cases hn : p < range_start words n
    · obtain ⟨j, hj, h1, h2⟩ := ih hn
      exact ⟨j, by omega, h1, h2⟩
    · exact ⟨n, by omega, by omega, h⟩

end Morph

namespace Morph

/-! ## The binary search of the compact automaton against the linear search -/

/-- The binary search between `left` and `right`, over transitions whose first
`n` labels ascend strictly, with every label before `left` smaller and every
label after `right` greater than the one looked for: it returns, and it
returns a target exactly when one of the first `n` transitions bears the label
and leads to it. -/
theorem mini_find_loop_spec (automat : MiniAutomat) (transitions : List MiniTransition)
    (label : Label) (n : Nat) (hn : n ≤ transitions.length)
    (htargets : ∀ i t, i < n → transitions[i]? = some t → t.target < automat.states.length)
    (hsorted : ∀ i j ti tj, i < j → j < n → transitions[i]? = some ti →
      transitions[j]? = some tj → ti.label < tj.label) :
    ∀ (fuel : Nat) (left right : Int), 0 ≤ left → left ≤ right → right < (n : Int) →
      right - left < (fuel : Int) →
      (∀ (i : Nat) (t : MiniTransition), (i : Int) < left → transitions[i]? = some t →
        t.label < label) →
      (∀ (i : Nat) (t : MiniTransition), right < (i : Int) → i < n →
        transitions[i]? = some t → label < t.label) →
      ∃ r, mini_find_loop automat transitions label fuel left right = some r ∧
        ∀ target, r = some target ↔
          ∃ i t, i < n ∧ transitions[i]? = some t ∧ t.label = label ∧ t.target = target := by
  intro fuel
  induction fuel with
  | zero => intro left right _ h1 _ h3; simp at h3; omega
  | succ fuel ih =>
    intro left right h0 h1 h2 h3 hlow hhigh
    have hm0 : 0 ≤ left + (right - left) / 2 := by omega
    have hm1 : left + (right - left) / 2 ≤ right := by omega
    have hm2 : left ≤ left + (right - left) / 2 := by omega
    obtain ⟨m, hm⟩ : ∃ m : Nat, left + (right - left) / 2 = (m : Int) :=
      ⟨(left + (right - left) / 2).toNat, (Int.toNat_of_nonneg hm0).symm⟩
    have hmn : m < n := by omega
    have hlt : m < transitions.length := by omega
    have hget : transitions[m]? = some (transitions[m]) := List.getElem?_eq_getElem hlt
    simp only [mini_find_loop, hm, Int.toNat_ofNat, hget, Option.bind_eq_bind, Option.some_bind]
    by_cases heq : (transitions[m]).label = label
    · rw [if_pos heq, if_pos (htargets m _ hmn hget)]
      refine ⟨_, rfl, fun target => ⟨fun h => ?_, ?_⟩⟩
      · exact ⟨m, _, hmn, hget, heq, Option.some.inj h⟩
      · rintro ⟨i, t, hi, hti, hl, ht⟩
        rcases Nat.lt_trichotomy i m with hlt2 | heq2 | hgt2
        · have := hsorted i m t _ hlt2 hmn hti hget
          rw [heq, hl] at this
          exact absurd this (lt_irrefl _)
        · subst heq2
          rw [hget] at hti
          rw [← ht, ← Option.some.inj hti]
        · have := hsorted m i _ t hgt2 hi hget hti
          rw [heq, hl] at this
          exact absurd this (lt_irrefl _)
    · rw [if_neg heq]
      by_cases hless : (transitions[m]).label < label
      · simp only [hless, if_true]
        have hlow2 : ∀ (i : Nat) (t : MiniTransition), (i : Int) < (m : Int) + 1 → transitions[i]? = some t →
            t.label < label := by
          intro i t hi hti
          rcases Nat.lt_or_ge i m with hlt2 | hge2
          · exact lt_trans (hsorted i m t _ hlt2 hmn hti hget) hless
          · have : i = m := by omega
            subst this
            rw [hget] at hti
            rw [← Option.some.inj hti]
            exact hless
        by_cases hc : (m : Int) + 1 ≤ right
        · rw [if_pos hc]
          exact ih _ _ (by omega) hc h2 (by push_cast at h3; omega) hlow2 hhigh
        · rw [if_neg hc]
          refine ⟨none, rfl, fun target => ⟨fun h => (by cases h), ?_⟩⟩
          rintro ⟨i, t, hi, hti, hl, _⟩
          rcases Nat.lt_or_ge i (m + 1) with hlt2 | hge2
          · have := hlow2 i t (by omega) hti
            rw [hl] at this
            exact absurd this (lt_irrefl _)
          · have := hhigh i t (by omega) hi hti
            rw [hl] at this
            exact absurd this (lt_irrefl _)
      · simp only [hless, if_false]
        have hgreater : label < (transitions[m]).label :=
          lt_of_le_of_ne (not_lt.1 hless) (fun h => heq h.symm)
        have hhigh2 : ∀ (i : Nat) (t : MiniTransition), (m : Int) - 1 < (i : Int) → i < n → transitions[i]? = some t →
            label < t.label := by
          intro i t hi hin hti
          rcases Nat.lt_or_ge m i with hlt2 | hge2
          · exact lt_trans hgreater (hsorted m i _ t hlt2 hin hget hti)
          · have : i = m := by omega
            subst this
            rw [hget] at hti
            rw [← Option.some.inj hti]
            exact hgreater
        by_cases hc : left ≤ (m : Int) - 1
        · rw [if_pos hc]
          exact ih _ _ h0 hc (by omega) (by push_cast at h3; omega) hlow hhigh2
        · rw [if_neg hc]
          refine ⟨none, rfl, fun target => ⟨fun h => (by cases h), ?_⟩⟩
          rintro ⟨i, t, hi, hti, hl, _⟩
          rcases Nat.lt_or_ge i m with hlt2 | hge2
          · have := hlow i t (by omega) hti
            rw [hl] at this
            exact absurd this (lt_irrefl _)
          · have := hhigh2 i t (by omega) hi hti
            rw [hl] at this
            exact absurd this (lt_irrefl _)

/-- The linear search over transitions with distinct labels returns a target
exactly when a transition of the list bears the label and leads to it. -/
theorem find_transition_spec (label : Label) :
    ∀ (list : TransitionList), list.Pairwise (fun a b => a.label < b.label) →
      ∀ target, (find_transition list label).map (fun t => t.target) = some target ↔
        ∃ t ∈ list, t.label = label ∧ t.target = target := by
  intro list
  induction list with
  | nil => intro _ target; simp [find_transition]
  | cons t0 rest ih =>
    intro hp target
    rw [List.pairwise_cons] at hp
    rw [find_transition]
    by_cases h0 : t0.label = label
    · rw [if_pos h0]
      simp only [Option.map_some', Option.some.injEq, List.mem_cons, exists_eq_or_imp]
      constructor
      · intro h; exact Or.inl ⟨h0, h⟩
      · rintro (⟨_, h⟩ | ⟨t, ht, hl, _⟩)
        · exact h
        · have := hp.1 t ht
          rw [h0, hl] at this
          exact absurd this (lt_irrefl _)
    · rw [if_neg h0, ih hp.2 target]
      simp only [List.mem_cons, exists_eq_or_imp]
      constructor
      · intro h; exact Or.inr h
      · rintro (⟨h, _⟩ | h)
        · exact absurd h h0
        · exact h

/-- Two optional values with the same description are equal. -/
theorem option_eq_of_iff {α : Type} (r1 r2 : Option α) (P : α → Prop)
    (h1 : ∀ x, r1 = some x ↔ P x) (h2 : ∀ x, r2 = some x ↔ P x) : r1 = r2 := by
  cases r1 with
  | some x => exact ((h2 x).2 ((h1 x).1 rfl)).symm
  | none =>
    cases r2 with
    | none => rfl
    | some y => exact absurd ((h1 y).2 ((h2 y).1 rfl)) (by simp)

end Morph

namespace Morph

/-! ## The run of `mini_collect_output`: the events and the result -/

theorem eventsOk_append {low start bs : Nat} {e1 e2 : List CollectEvent}
    (h1 : EventsOk low start bs e1) (h2 : EventsOk low start bs e2) :
    EventsOk low start bs (e1 ++ e2) := by
  intro e he
  rcases List.mem_append.1 he with h | h
  · exact h1 e h
  · exact h2 e h

theorem eventsOk_writes (low start bs depth : Nat) (h : depth + 1 < bs) :
    EventsOk low start bs [CollectEvent.write depth, CollectEvent.write (depth + 1)] := by
  intro e he
  simp only [List.mem_cons, List.mem_singleton, List.not_mem_nil, or_false] at he
  rcases he with rfl | rfl
  · exact ⟨fun k hk => (by cases hk), fun i hi => (by cases hi; omega)⟩
  · exact ⟨fun k hk => (by cases hk), fun i hi => (by cases hi; omega)⟩

theorem eventsOk_weaken {low start bs low0 start0 : Nat} {events : List CollectEvent}
    (h : EventsOk low start bs events) (hlow : low0 ≤ low) (hstart : start + 1 ≤ bs) :
    EventsOk low0 start0 bs events := by
  intro e he
  obtain ⟨h1, h2⟩ := h e he
  refine ⟨fun k hk => ?_, h2⟩
  obtain ⟨h3, h4⟩ := h1 k hk
  refine ⟨by omega, Or.inr ?_⟩
  rcases h4 with h4 | h4
  · omega
  · exact h4

/-- The loop over the transitions returns with events in bounds when every
recursive call does. -/
theorem mini_collect_events_transitions_spec
    (recurse : Nat → List Label → List OutputCall → List CollectEvent →
      Option (List Label × List OutputCall × List CollectEvent))
    (n depth bs : Nat) (hdepth : depth + 1 < bs)
    (hrec : ∀ target buffer calls events, target < n →
      EventsSpec (depth + 1) (depth + 1) bs events (recurse target buffer calls events)) :
    ∀ (transitions : List MiniTransition) (buffer : List Label) (calls : List OutputCall)
      (events : List CollectEvent),
      (∀ t ∈ transitions, t.target < n) →
      EventsSpec (depth + 1) (depth + 1) bs events
        (mini_collect_events_transitions recurse n depth transitions buffer calls events) := by
  intro transitions
  induction transitions with
  | nil =>
    intro buffer calls events _
    exact ⟨buffer, calls, [], by simp [mini_collect_events_transitions],
      fun e he => by cases he⟩
  | cons t rest ih =>
    intro buffer calls events htargets
    have ht : t.target < n := htargets t (List.mem_cons_self _ _)
    obtain ⟨buffer1, calls1, new1, hrun1, hok1⟩ := hrec t.target
      ((buffer.set depth t.label).set (depth + 1) 0) calls
      (events ++ [CollectEvent.write depth, CollectEvent.write (depth + 1)]) ht
    obtain ⟨buffer2, calls2, new2, hrun2, hok2⟩ := ih buffer1 calls1
      (events ++ [CollectEvent.write depth, CollectEvent.write (depth + 1)] ++ new1)
      (fun t0 h0 => htargets t0 (List.mem_cons_of_mem _ h0))
    refine ⟨buffer2, calls2,
      [CollectEvent.write depth, CollectEvent.write (depth + 1)] ++ new1 ++ new2, ?_, ?_⟩
    · simp only [mini_collect_events_transitions, ht, if_true, hrun1, Option.bind_eq_bind,
        Option.some_bind]
      rw [hrun2]
      simp only [List.append_assoc]
    · exact eventsOk_append (eventsOk_append (eventsOk_writes _ _ _ _ hdepth) hok1) hok2

/-- A call of `mini_collect_output` at a depth that is not zero, or in
prediction mode, returns when the fuel covers the levels up to `buffer_size`,
and its events are in bounds. -/
theorem mini_collect_events_spec (automat : MiniAutomat) (hwf : WellFormedMini automat)
    (bs : Nat) :
    ∀ (fuel state ip ps depth : Nat) (buffer : List Label) (calls : List OutputCall)
      (events : List CollectEvent),
      state < automat.states.length → 1 ≤ fuel → bs ≤ fuel + depth →
      (1 ≤ depth ∨ ip ≠ 0) →
      EventsSpec depth depth bs events
        (mini_collect_events automat fuel state ip ps depth buffer bs calls events) := by
  intro fuel
  induction fuel with
  | zero => intro _ _ _ _ _ _ _ _ h _ _; omega
  | succ fuel ih =>
    intro state ip ps depth buffer calls events hstate _ hfuel hmode
    obtain ⟨s, hget⟩ : ∃ s, automat.states[state]? = some s :=
      ⟨_, List.getElem?_eq_getElem hstate⟩
    have hs : s ∈ automat.states := by
      obtain ⟨h1, h2⟩ := List.getElem?_eq_some.1 hget
      rw [← h2]
      exact List.getElem_mem h1
    obtain ⟨hcount, htargets⟩ := hwf.2 s hs
    have hcall : EventsOk depth depth bs [CollectEvent.call depth] := by
      intro e he
      rw [List.mem_singleton] at he
      subst he
      exact ⟨fun k hk => (by cases hk; exact ⟨le_refl _, Or.inl rfl⟩), fun i hi => (by cases hi)⟩
    rw [mini_collect_events]
    simp only [hget]
    by_cases hstop : s.is_final ≠ 0 ∧ ip = 0
    · rw [if_pos hstop]
      exact ⟨_, _, [CollectEvent.call depth], rfl, hcall⟩
    · rw [if_neg hstop]
      by_cases hroom : depth + 1 < bs
      · rw [if_pos hroom]
        have htop : ¬ (depth = 0 ∧ ip = 0) := by omega
        rw [if_neg htop, if_pos hcount]
        obtain ⟨buffer0, calls0, new, hrun, hok⟩ :=
          mini_collect_events_transitions_spec
            (fun target buffer calls events =>
              mini_collect_events automat fuel target ip ps (depth + 1) buffer bs calls events)
            automat.states.length depth bs hroom
            (fun target buffer calls events htarget =>
              ih target ip ps (depth + 1) buffer calls events htarget (by omega) (by omega)
                (Or.inl (by omega)))
            (s.transitions.take s.transitions_count) buffer
            (if s.is_final ≠ 0 then
              calls ++ [{ is_prediction := ip, prefix_size := ps, buffer := buffer }]
             else calls)
            (events ++ [CollectEvent.call depth])
            (fun t ht => htargets t (List.mem_of_mem_take ht))
        refine ⟨buffer0, calls0, [CollectEvent.call depth] ++ new, ?_, ?_⟩
        · rw [hrun, List.append_assoc]
        · exact eventsOk_append hcall (eventsOk_weaken hok (by omega) (by omega))
      · rw [if_neg hroom]
        exact ⟨_, _, [CollectEvent.call depth], rfl, hcall⟩

/-- The events left out, the run is `mini_collect_output`: the loop. -/
theorem mini_collect_events_transitions_erase
    (recurse_events : Nat → List Label → List OutputCall → List CollectEvent →
      Option (List Label × List OutputCall × List CollectEvent))
    (recurse : Nat → List Label → List OutputCall → Option (List Label × List OutputCall))
    (n depth : Nat)
    (hrec : ∀ target buffer calls events,
      (recurse_events target buffer calls events).map (fun r => (r.1, r.2.1)) =
        recurse target buffer calls) :
    ∀ (transitions : List MiniTransition) (buffer : List Label) (calls : List OutputCall)
      (events : List CollectEvent),
      (mini_collect_events_transitions recurse_events n depth transitions buffer calls
        events).map (fun r => (r.1, r.2.1)) =
      mini_collect_transitions recurse n depth transitions buffer calls := by
  intro transitions
  induction transitions with
  | nil => intro buffer calls events; rfl
  | cons t rest ih =>
    intro buffer calls events
    simp only [mini_collect_events_transitions, mini_collect_transitions]
    by_cases ht : t.target < n
    · rw [if_pos ht, if_pos ht]
      rw [← hrec t.target ((buffer.set depth t.label).set (depth + 1) 0) calls
        (events ++ [CollectEvent.write depth, CollectEvent.write (depth + 1)])]
      cases hrun : recurse_events t.target ((buffer.set depth t.label).set (depth + 1) 0) calls
        (events ++ [CollectEvent.write depth, CollectEvent.write (depth + 1)]) with
      | none => rfl
      | some r =>
        obtain ⟨buffer1, calls1, events1⟩ := r
        simp only [Option.bind_eq_bind, Option.some_bind, Option.map_some']
        exact ih buffer1 calls1 events1
    · rw [if_neg ht, if_neg ht]
      rfl

/-- The events left out, the run is `mini_collect_output`. -/
theorem mini_collect_events_erase (automat : MiniAutomat) :
    ∀ (fuel state ip ps depth : Nat) (buffer : List Label) (bs : Nat)
      (calls : List OutputCall) (events : List CollectEvent),
      (mini_collect_events automat fuel state ip ps depth buffer bs calls events).map
        (fun r => (r.1, r.2.1)) =
      mini_collect_output automat fuel state ip ps depth buffer bs calls := by
  intro fuel
  induction fuel with
  | zero => intro _ _ _ _ _ _ _ _; rfl
  | succ fuel ih =>
    intro state ip ps depth buffer bs calls events
    rw [mini_collect_events, mini_collect_output]
    cases hget : automat.states[state]? with
    | none => rfl
    | some s =>
      simp only []
      by_cases hstop : s.is_final ≠ 0 ∧ ip = 0
      · rw [if_pos hstop, if_pos hstop]
        rfl
      · rw [if_neg hstop, if_neg hstop]
        by_cases hroom : depth + 1 < bs
        · rw [if_pos hroom, if_pos hroom]
          by_cases htop : depth = 0 ∧ ip = 0
          · rw [if_pos htop, if_pos htop]
            cases hfind : mini_find_transition automat state ANNOTATION_DELIMITER with
            | none => rfl
            | some target =>
              cases target with
              | none => rfl
              | some target => exact ih _ _ _ _ _ _ _ _
          · rw [if_neg htop, if_neg htop]
            by_cases hcount : s.transitions_count ≤ s.transitions.length
            · rw [if_pos hcount, if_pos hcount]
              exact mini_collect_events_transitions_erase
                (fun target buffer calls events =>
                  mini_collect_events automat fuel target ip ps (depth + 1) buffer bs calls
                    events)
                (fun target buffer calls =>
                  mini_collect_output automat fuel target ip ps (depth + 1) buffer bs calls)
                _ _
                (fun target buffer calls events => ih target ip ps (depth + 1) buffer bs calls
                  events) _ _ _ _
            · rw [if_neg hcount, if_neg hcount]
              rfl
        · rw [if_neg hroom, if_neg hroom]
          rfl

/-- The first call of `mini_collect_output`, at the depth 0 and outside
prediction mode, in a state that is final or has the transition `|`. -/
theorem mini_collect_events_top (automat : MiniAutomat) (hwf : WellFormedMini automat)
    (bs fuel state ps : Nat) (buffer : List Label) (calls : List OutputCall)
    (events : List CollectEvent) (s : MiniState) (hget : automat.states[state]? = some s)
    (hfuel : 1 ≤ fuel) (hbs : bs ≤ fuel)
    (hcall : s.is_final ≠ 0 ∨
      ∃ target, mini_find_transition automat state ANNOTATION_DELIMITER = some (some target)) :
    EventsSpec 0 0 bs events
      (mini_collect_events automat fuel state 0 ps 0 buffer bs calls events) := by
  obtain ⟨fuel, rfl⟩ : ∃ f, fuel = f + 1 := ⟨fuel - 1, by omega⟩
  have hstate : state < automat.states.length := (List.getElem?_eq_some.1 hget).1
  have hcall0 : EventsOk 0 0 bs [CollectEvent.call 0] := by
    intro e he
    rw [List.mem_singleton] at he
    subst he
    exact ⟨fun k hk => (by cases hk; exact ⟨le_refl _, Or.inl rfl⟩), fun i hi => (by cases hi)⟩
  rw [mini_collect_events]
  simp only [hget]
  by_cases hfinal : s.is_final ≠ 0
  · rw [if_pos ⟨hfinal, trivial⟩]
    exact ⟨_, _, [CollectEvent.call 0], rfl, hcall0⟩
  · rw [if_neg (fun h => hfinal h.1)]
    by_cases hroom : 0 + 1 < bs
    · rw [if_pos hroom, if_pos ⟨trivial, trivial⟩]
      rcases hcall with h | ⟨target, hfind⟩
      · exact absurd h hfinal
      · obtain ⟨r, hr, hlt⟩ := mini_find_transition_returns automat hwf state hstate
          ANNOTATION_DELIMITER
        rw [hfind] at hr
        have htarget : target < automat.states.length := hlt target (Option.some.inj hr).symm
        simp only [hfind]
        obtain ⟨buffer0, calls0, new, hrun, hok⟩ :=
          mini_collect_events_spec automat hwf bs fuel target 0 ps (0 + 1)
            ((buffer.set 0 ANNOTATION_DELIMITER).set (0 + 1) 0)
            (if s.is_final ≠ 0 then
              calls ++ [{ is_prediction := 0, prefix_size := ps, buffer := buffer }]
             else calls)
            (events ++ [CollectEvent.call 0] ++
              [CollectEvent.write 0, CollectEvent.write (0 + 1)])
            htarget (by omega) (by omega) (Or.inl (le_refl _))
        refine ⟨buffer0, calls0,
          [CollectEvent.call 0] ++ [CollectEvent.write 0, CollectEvent.write (0 + 1)] ++ new,
          ?_, ?_⟩
        · rw [hrun]
          simp only [List.append_assoc]
        · exact eventsOk_append (eventsOk_append hcall0 (eventsOk_writes _ _ _ _ hroom))
            (eventsOk_weaken hok (by omega) (by omega))
    · rw [if_neg hroom]
      exact ⟨_, _, [CollectEvent.call 0], rfl, hcall0⟩

end Morph

namespace Morph

/-! ## The tokenizer: what the calls return -/

theorem tokenize_calls_loop_stop (mbrtowc : Bytes → Option (Label × Nat))
    (iswalnum : Label → Bool) (T : Bytes) (fuel : Nat) (tc : Option Nat) (ts te : Option Int)
    (memo : Option tokenizer_state) (r : Int) (a b : Option Int) (m : Option tokenizer_state)
    (h : tokenize mbrtowc iswalnum T tc ts te memo = some (r, a, b, m)) (hr : ¬ r > 0) :
    tokenize_calls_loop mbrtowc iswalnum T (fuel + 1) tc ts te memo = some [] := by
  rw [tokenize_calls_loop]
  simp only [h, hr, if_false]

theorem tokenize_calls_loop_token (mbrtowc : Bytes → Option (Label × Nat))
    (iswalnum : Label → Bool) (T : Bytes) (fuel : Nat) (tc : Option Nat) (ts te : Option Int)
    (memo : Option tokenizer_state) (r : Int) (a b : Option Int)
    (m : Option tokenizer_state) (rest : List (Int × Option Int × Option Int))
    (h : tokenize mbrtowc iswalnum T tc ts te memo = some (r, a, b, m)) (hr : r > 0)
    (hrest : tokenize_calls_loop mbrtowc iswalnum T fuel none a b m = some rest) :
    tokenize_calls_loop mbrtowc iswalnum T (fuel + 1) tc ts te memo =
      some ((r, a, b) :: rest) := by
  rw [tokenize_calls_loop]
  simp only [h, hr, if_true, hrest]

/-- The calls of `tokenize` over a text return its tokens, one call for each
token. -/
theorem tokenize_calls_loop_tokens (mbrtowc : Bytes → Option (Label × Nat))
    (iswalnum : Label → Bool) (hd : DecoderOk mbrtowc iswalnum) :
    ∀ s ts, Tokens mbrtowc iswalnum s ts →
      ∀ (pre : Bytes) (fuel : Nat) (tc : Option Nat) (ts0 te : Option Int)
        (memo : Option tokenizer_state),
        StartsAt tc te memo (some pre.length) → ts.length + 1 ≤ fuel →
        ∃ calls, tokenize_calls_loop mbrtowc iswalnum (pre ++ s) fuel tc ts0 te memo =
            some calls ∧
          List.Forall₂ (TokenCall (pre ++ s)) ts calls := by
  intro s ts h
  induction h with
  | done g hg =>
    intro pre fuel tc ts0 te memo hstart hfuel
    obtain ⟨fuel, rfl⟩ : ∃ f, fuel = f + 1 := ⟨fuel - 1, by omega⟩
    obtain ⟨v1, hv1, hstate, hts, hte, hrv⟩ := outside_run_end mbrtowc iswalnum hd g hg pre
      ((pre ++ g).length + 2) 0 0 none none 0 (Or.inl rfl) (by simp)
    have hcall := tokenize_of_loop mbrtowc iswalnum (pre ++ g) tc ts0 te memo _ v1 hstart hv1
    exact ⟨[], tokenize_calls_loop_stop mbrtowc iswalnum _ fuel tc ts0 te memo _ _ _ _ hcall
      (by rw [hrv]; decide), List.Forall₂.nil⟩
  | last g t hg ht =>
    intro pre fuel tc ts0 te memo hstart hfuel
    have htl := tokenShaped_length_pos ht
    obtain ⟨fuel, rfl⟩ : ∃ f, fuel = f + 2 := ⟨fuel - 2, by simp at hfuel; omega⟩
    obtain ⟨v1, hv1, hstate, hts, hte, hrv⟩ := outside_run_token mbrtowc iswalnum hd g hg pre
      t [] none ((pre ++ (g ++ t)).length + 2) 0 0 none none 0 ht TokenStop.finish
      (by simp)
    simp only [List.append_nil] at hv1
    have hcall := tokenize_of_loop mbrtowc iswalnum (pre ++ (g ++ t)) tc ts0 te memo _ v1
      hstart hv1
    rw [hstate, hts, hte, hrv] at hcall
    obtain ⟨v2, hv2, hstate2, hts2, hte2, hrv2⟩ := outside_null_run mbrtowc iswalnum
      (pre ++ (g ++ t)) ((pre ++ (g ++ t)).length + 1) 0 none none 0
    have hcall2 := tokenize_of_loop mbrtowc iswalnum (pre ++ (g ++ t)) none
      (some ((pre.length + g.length : Nat) : Int))
      (some (((pre.length + g.length : Nat) : Int) + (t.length : Int) - 1))
      (some { text_position := none, code := state_code.TOKEN_READY }) none v2
      (Or.inr ⟨rfl, by simp, _, rfl⟩) hv2
    have hstop := tokenize_calls_loop_stop mbrtowc iswalnum _ fuel _ _ _ _ _ _ _ _ hcall2
      (by rw [hrv2]; decide)
    have hrun := tokenize_calls_loop_token mbrtowc iswalnum _ (fuel + 1) tc ts0 te memo _ _ _ _
      _ hcall (by omega) hstop
    have hdrop : (pre ++ (g ++ t)).drop (pre.length + g.length) = t := by
      rw [← List.append_assoc, ← List.length_append, List.drop_left]
    refine ⟨_, hrun, List.Forall₂.cons ⟨pre.length + g.length, rfl, ?_⟩ List.Forall₂.nil⟩
    rw [hdrop, List.take_length]
  | token g t rest n ts1 hg ht hstop _ ih =>
    intro pre fuel tc ts0 te memo hstart hfuel
    have htl := tokenShaped_length_pos ht
    obtain ⟨hn1, hn⟩ := tokenStop_le hstop
    simp only [List.length_cons] at hfuel
    obtain ⟨fuel, rfl⟩ : ∃ f, fuel = f + 1 := ⟨fuel - 1, by omega⟩
    have hT : pre ++ (g ++ t ++ rest) = pre ++ (g ++ (t ++ rest)) := by simp
    obtain ⟨v1, hv1, hstate, hts, hte, hrv⟩ := outside_run_token mbrtowc iswalnum hd g hg pre
      t rest (some n) ((pre ++ (g ++ t ++ rest)).length + 2) 0 0 none none 0 ht hstop
      (by simp; omega)
    rw [← hT] at hv1
    have hcall := tokenize_of_loop mbrtowc iswalnum _ tc ts0 te memo _ v1 hstart hv1
    rw [hstate, hts, hte, hrv] at hcall
    have hT2 : pre ++ (g ++ t ++ rest) = (pre ++ (g ++ t ++ rest.take n)) ++ rest.drop n := by
      simp
    have hlen : pre.length + g.length + t.length + n =
        (pre ++ (g ++ t ++ rest.take n)).length := by
      simp [Nat.min_eq_left hn]; omega
    obtain ⟨calls, hnext, hall⟩ := ih (pre ++ (g ++ t ++ rest.take n)) fuel none
      (some ((pre.length + g.length : Nat) : Int))
      (some (((pre.length + g.length : Nat) : Int) + (t.length : Int) - 1))
      (some { text_position := some (pre.length + g.length + t.length + n),
              code := state_code.TOKEN_READY })
      (Or.inr ⟨rfl, by simp, _, by rw [hlen]⟩) (by omega)
    rw [← hT2] at hnext hall
    have hrun := tokenize_calls_loop_token mbrtowc iswalnum _ fuel tc ts0 te memo _ _ _ _ _
      hcall (by omega) hnext
    have hdrop : (pre ++ (g ++ t ++ rest)).drop (pre.length + g.length) = t ++ rest := by
      have : pre ++ (g ++ t ++ rest) = (pre ++ g) ++ (t ++ rest) := by simp
      rw [this, ← List.length_append, List.drop_left]
    refine ⟨_, hrun, List.Forall₂.cons ⟨pre.length + g.length, rfl, ?_⟩ hall⟩
    rw [hdrop, List.take_left']
    rfl

/-- Every element on the right of two lists related pairwise has its partner
on the left. -/
theorem forall₂_partner {α β : Type} {R : α → β → Prop} {l1 : List α} {l2 : List β}
    (h : List.Forall₂ R l1 l2) : ∀ y ∈ l2, ∃ x ∈ l1, R x y := by
  induction h with
  | nil => intro y hy; cases hy
  | cons hxy _ ih =>
    intro y hy
    rcases List.mem_cons.1 hy with rfl | hy
    · exact ⟨_, List.mem_cons_self _ _, hxy⟩
    · obtain ⟨x, hx, hr⟩ := ih y hy
      exact ⟨x, List.mem_cons_of_mem _ hx, hr⟩

/-- The characters of the tail of a token. -/
theorem tokenTail_chars {mbrtowc : Bytes → Option (Label × Nat)} {iswalnum : Label → Bool} :
    ∀ u, TokenTail mbrtowc iswalnum u →
      ∃ chars : List (Label × Bytes), u = (chars.map (fun p => p.2)).flatten ∧
        (∀ p ∈ chars, IsChar mbrtowc p.1 p.2 ∧
          (iswalnum p.1 = true ∨ is_extra_token_char p.1 = true)) ∧
        (∀ p, chars.getLast? = some p → iswalnum p.1 = true) ∧
        ∀ p0 : Label × Bytes, iswalnum p0.1 = true →
          List.Chain (fun p q => iswalnum p.1 = true ∨ iswalnum q.1 = true) p0 chars := by
  intro u h
  induction h with
  | nil =>
    exact ⟨[], rfl, fun p hp => (by cases hp), fun p hp => (by cases hp),
      fun _ _ => List.Chain.nil⟩
  | alnum c k u hk hc _ ih =>
    obtain ⟨chars, hu, hall, hlast, hchain⟩ := ih
    refine ⟨(c, k) :: chars, by simp [hu], ?_, ?_, ?_⟩
    · intro p hp
      rcases List.mem_cons.1 hp with rfl | hp
      · exact ⟨hk, Or.inl hc⟩
      · exact hall p hp
    · intro p hp
      cases chars with
      | nil =>
        simp only [List.getLast?_singleton, Option.some.injEq] at hp
        rw [← hp]; exact hc
      | cons q qs =>
        rw [List.getLast?_cons_cons] at hp
        exact hlast p hp
    · intro p0 hp0
      exact List.Chain.cons (Or.inl hp0) (hchain (c, k) hc)
  | extra x e c k u hx hxa hxe hk hc _ ih =>
    obtain ⟨chars, hu, hall, hlast, hchain⟩ := ih
    refine ⟨(x, [e]) :: (c, k) :: chars, by simp [hu], ?_, ?_, ?_⟩
    · intro p hp
      rcases List.mem_cons.1 hp with rfl | hp
      · exact ⟨hx, Or.inr hxe⟩
      · rcases List.mem_cons.1 hp with rfl | hp
        · exact ⟨hk, Or.inl hc⟩
        · exact hall p hp
    · intro p hp
      rw [List.getLast?_cons_cons] at hp
      cases chars with
      | nil =>
        simp only [List.getLast?_singleton, Option.some.injEq] at hp
        rw [← hp]; exact hc
      | cons q qs =>
        rw [List.getLast?_cons_cons] at hp
        exact hlast p hp
    · intro p0 hp0
      exact List.Chain.cons (Or.inl hp0) (List.Chain.cons (Or.inr hc) (hchain (c, k) hc))

/-- The characters of a token. -/
theorem tokenShaped_chars {mbrtowc : Bytes → Option (Label × Nat)} {iswalnum : Label → Bool}
    {t : Bytes} (h : TokenShaped mbrtowc iswalnum t) :
    ∃ chars, TokenChars mbrtowc iswalnum t chars := by
  obtain ⟨c, k, u, hk, hc, hu, rfl⟩ := h
  obtain ⟨chars, hu2, hall, hlast, hchain⟩ := tokenTail_chars u hu
  refine ⟨(c, k) :: chars, by simp [hu2], ?_, ⟨(c, k), rfl, hc⟩, ?_, hchain (c, k) hc⟩
  · intro p hp
    rcases List.mem_cons.1 hp with rfl | hp
    · exact ⟨hk, Or.inl hc⟩
    · exact hall p hp
  · cases chars with
    | nil => exact ⟨(c, k), rfl, hc⟩
    | cons q qs =>
      obtain ⟨p, hp⟩ : ∃ p, (q :: qs).getLast? = some p :=
        ⟨(q :: qs).getLast (by simp), List.getLast?_eq_getLast _ _⟩
      exact ⟨p, by rw [List.getLast?_cons_cons]; exact hp, hlast p hp⟩

/-- The characters allowed in a word are not alphanumeric for
`iswalnum_sample`. -/
theorem extra_not_alnum_sample (c : Label) (h : is_extra_token_char c = true) :
    iswalnum_sample c = false := by
  simp only [is_extra_token_char, kExtraAllowedInWord, Bool.and_eq_true, decide_eq_true_eq,
    List.mem_cons, List.mem_singleton, List.not_mem_nil, or_false] at h
  rcases h.2 with rfl | rfl | rfl | rfl <;> rfl

end Morph

namespace Morph

/-! ## `all_word_variations`: the buffer and the forms -/

theorem write_at_append (A B C source : List Label) (h : source.length = B.length) :
    write_at (A ++ (B ++ C)) A.length source = some (A ++ (source ++ C)) := by
  unfold write_at
  rw [if_pos (by simp; omega)]
  congr 1
  rw [List.take_left, List.append_assoc]
  congr 2
  rw [h, ← List.length_append, ← List.append_assoc, List.drop_left]

theorem string_at_append (A s R : List Label) (hs : ∀ c ∈ s, c ≠ 0) :
    string_at (A ++ (s ++ 0 :: R)) A.length = some s := by
  unfold string_at
  rw [List.drop_left]
  rw [if_pos (by simp)]
  congr 1
  induction s with
  | nil => simp
  | cons c s ih =>
    have hc : c ≠ 0 := hs c (List.mem_cons_self _ _)
    simp only [List.cons_append, List.takeWhile_cons, ne_eq, hc, not_false_eq_true,
      decide_True, if_true]
    rw [ih (fun c0 h0 => hs c0 (List.mem_cons_of_mem _ h0))]

theorem takeWhile_nonzero_all (s : List Label) (hs : ∀ c ∈ s, c ≠ 0) :
    s.takeWhile (fun c => c ≠ 0) = s := by
  induction s with
  | nil => rfl
  | cons c s ih =>
    have hc : c ≠ 0 := hs c (List.mem_cons_self _ _)
    simp only [List.takeWhile_cons, ne_eq, hc, not_false_eq_true, decide_True, if_true]
    rw [ih (fun c0 h0 => hs c0 (List.mem_cons_of_mem _ h0))]

theorem wcsncpy_take (src : List Label) (n : Nat) (hn : n ≤ src.length)
    (hs : ∀ c ∈ src.take n, c ≠ 0) : wcsncpy src n = src.take n := by
  unfold wcsncpy
  simp only [takeWhile_nonzero_all _ hs, List.length_take, Nat.min_eq_left hn, Nat.sub_self,
    List.replicate_zero, List.append_nil]

/-- The loop of `all_word_variations` on a buffer that holds the base after
the room for the prefix: it returns the forms of the variances. -/
theorem all_word_variations_loop_spec (model : FlexModel) (stem : List Label)
    (flex_model_no : Nat) (hstem : ∀ c ∈ stem, c ≠ 0) (hfits : ∀ v ∈ model, VarianceFits v) :
    ∀ (count i : Nat) (P F : List Label), P.length = MAX_FLEX_PREFIX_SIZE →
      MAX_FLEX_FLEXION_SIZE + 1 ≤ F.length → i + count ≤ model.length →
      all_word_variations_loop model stem.length flex_model_no count i (P ++ (stem ++ F)) =
        some (((model.drop i).take count).map (variation_of stem flex_model_no)) := by
  intro count
  induction count with
  | zero => intro i P F _ _ _; simp [all_word_variations_loop]
  | succ count ih =>
    intro i P F hP hF hi
    have hlt : i < model.length := by omega
    have hget : model[i]? = some model[i] := List.getElem?_eq_getElem hlt
    obtain ⟨hpre, hflex⟩ := hfits model[i] (List.getElem_mem hlt)
    have hdrop : model.drop i = model[i] :: model.drop (i + 1) := by
      rw [List.drop_eq_getElem_cons hlt]
    have h15 : MAX_FLEX_PREFIX_SIZE = 15 := rfl
    have h30 : MAX_FLEX_FLEXION_SIZE = 30 := rfl
    have hprefix_write : ∀ chars : List Label, chars.length ≤ MAX_FLEX_PREFIX_SIZE →
        write_at (P ++ (stem ++ F)) (MAX_FLEX_PREFIX_SIZE - chars.length) chars =
          some (P.take (MAX_FLEX_PREFIX_SIZE - chars.length) ++ (chars ++ (stem ++ F))) := by
      intro chars hlen
      have hP1len : (P.take (MAX_FLEX_PREFIX_SIZE - chars.length)).length =
          MAX_FLEX_PREFIX_SIZE - chars.length := by
        rw [List.length_take, hP]; omega
      have hwrite := write_at_append (P.take (MAX_FLEX_PREFIX_SIZE - chars.length))
        (P.drop (MAX_FLEX_PREFIX_SIZE - chars.length)) (stem ++ F) chars
        (by rw [List.length_drop, hP]; omega)
      rw [hP1len, ← List.append_assoc, List.take_append_drop] at hwrite
      exact hwrite
    have hflexion_write : ∀ (P1 p f : List Label), P1.length + p.length = MAX_FLEX_PREFIX_SIZE →
        f.length ≤ MAX_FLEX_FLEXION_SIZE →
        write_at (P1 ++ (p ++ (stem ++ F))) (MAX_FLEX_PREFIX_SIZE + stem.length) (f ++ [0]) =
          some (P1 ++ (p ++ (stem ++ (f ++ 0 :: F.drop (f.length + 1))))) := by
      intro P1 p f hP1 hf
      have hwrite := write_at_append (P1 ++ (p ++ stem)) (F.take (f.length + 1))
        (F.drop (f.length + 1)) (f ++ [0])
        (by rw [List.length_take]; simp; omega)
      rw [List.take_append_drop] at hwrite
      have hlen : (P1 ++ (p ++ stem)).length = MAX_FLEX_PREFIX_SIZE + stem.length := by
        simp only [List.length_append]; omega
      rw [hlen] at hwrite
      simp only [List.append_assoc] at hwrite
      rw [hwrite]
      simp
    have hstring : ∀ (P1 p f F2 : List Label), (∀ c ∈ p, c ≠ 0) → (∀ c ∈ f, c ≠ 0) →
        string_at (P1 ++ (p ++ (stem ++ (f ++ 0 :: F2)))) P1.length = some (p ++ stem ++ f) := by
      intro P1 p f F2 hpz hfz
      have := string_at_append P1 (p ++ stem ++ f) F2 (by
        intro c hc
        simp only [List.mem_append] at hc
        rcases hc with (hc | hc) | hc
        · exact hpz c hc
        · exact hstem c hc
        · exact hfz c hc)
      simpa using this
    have hnext : ∀ (P1 p f : List Label), P1.length + p.length = MAX_FLEX_PREFIX_SIZE →
        f.length ≤ MAX_FLEX_FLEXION_SIZE →
        all_word_variations_loop model stem.length flex_model_no count (i + 1)
          (P1 ++ (p ++ (stem ++ (f ++ 0 :: F.drop (f.length + 1))))) =
          some (((model.drop (i + 1)).take count).map (variation_of stem flex_model_no)) := by
      intro P1 p f hP1 hf
      have := ih (i + 1) (P1 ++ p) (f ++ 0 :: F.drop (f.length + 1))
        (by simp only [List.length_append]; omega)
        (by simp only [List.length_append, List.length_cons, List.length_drop]; omega)
        (by omega)
      rw [List.append_assoc] at this
      exact this
    have hmod : ∀ f : List Label, f.length ≤ MAX_FLEX_FLEXION_SIZE →
        f.length % 2 ^ 8 = f.length := fun f hf => Nat.mod_eq_of_lt (by omega)
    rw [all_word_variations_loop]
    simp only [hget, Option.bind_eq_bind, Option.some_bind, hdrop, List.take_succ_cons,
      List.map_cons]
    cases hpc : (model[i]).prefix_chars with
    | none =>
      have hP0 : P.length + ([] : List Label).length = MAX_FLEX_PREFIX_SIZE := by simpa using hP
      cases hfc : (model[i]).flexion with
      | none =>
        have h1 := hflexion_write P [] [] hP0 (by simp)
        have h2 := hstring P [] [] (F.drop 1) (fun c hc => (by cases hc))
          (fun c hc => (by cases hc))
        have h3 := hnext P [] [] hP0 (by simp)
        simp only [List.nil_append, List.length_nil, Nat.zero_add, hP] at h1 h2 h3
        simp only [Option.some_bind, h1, h2, h3, Option.pure_def, variation_of, hpc, hfc,
          Option.getD_none, List.length_nil, List.append_nil, List.nil_append, Nat.add_zero,
          Nat.zero_add]
      | some f =>
        obtain ⟨hlen, hz⟩ := hflex f hfc
        have h1 := hflexion_write P [] f hP0 hlen
        have h2 := hstring P [] f (F.drop (f.length + 1)) (fun c hc => (by cases hc)) hz
        have h3 := hnext P [] f hP0 hlen
        simp only [List.nil_append, hP] at h1 h2 h3
        simp only [Option.some_bind, h1, h2, h3, Option.pure_def, variation_of, hpc, hfc,
          Option.getD_none, Option.getD_some, List.length_nil, List.nil_append, Nat.add_zero,
          Nat.zero_add, hmod f hlen]
    | some chars =>
      obtain ⟨hclen, hcz⟩ := hpre chars hpc
      have hP1 : (P.take (MAX_FLEX_PREFIX_SIZE - chars.length)).length + chars.length =
          MAX_FLEX_PREFIX_SIZE := by
        rw [List.length_take, hP]; omega
      have hP1len : (P.take (MAX_FLEX_PREFIX_SIZE - chars.length)).length =
          MAX_FLEX_PREFIX_SIZE - chars.length := by omega
      have h0 := hprefix_write chars hclen
      cases hfc : (model[i]).flexion with
      | none =>
        have h1 := hflexion_write _ chars [] hP1 (by simp)
        have h2 := hstring (P.take (MAX_FLEX_PREFIX_SIZE - chars.length)) chars []
          (F.drop 1) hcz (fun c hc => (by cases hc))
        have h3 := hnext _ chars [] hP1 (by simp)
        simp only [List.nil_append, List.length_nil, Nat.zero_add, hP1len] at h1 h2 h3
        simp only [if_pos hclen, h0, Option.some_bind, h1, h2, h3, Option.pure_def,
          variation_of, hpc, hfc, Option.getD_none, Option.getD_some, List.length_nil,
          List.append_nil, Nat.add_zero, Option.some.injEq, List.cons.injEq, and_true,
          WordVariation.mk.injEq, true_and]
        omega
      | some f =>
        obtain ⟨hlen, hz⟩ := hflex f hfc
        have h1 := hflexion_write _ chars f hP1 hlen
        have h2 := hstring (P.take (MAX_FLEX_PREFIX_SIZE - chars.length)) chars f
          (F.drop (f.length + 1)) hcz hz
        have h3 := hnext _ chars f hP1 hlen
        simp only [hP1len] at h1 h2 h3
        simp only [if_pos hclen, h0, Option.some_bind, h1, h2, h3, Option.pure_def,
          variation_of, hpc, hfc, Option.getD_some, hmod f hlen, Option.some.injEq,
          List.cons.injEq, and_true, WordVariation.mk.injEq, true_and]
        omega

/-- `all_word_variations` returns the forms that the variances of the model
make of the part of the word between the prefix and the flexion. -/
theorem all_word_variations_spec (word : List Label) (word_length only_lemma flexion_size
    base_size flex_model_no : Nat) (base : MorphologyBase) (model : FlexModel)
    (hmodel : base.flex_models[flex_model_no]? = some model)
    (hfits : ∀ v ∈ model, VarianceFits v) (hword : ∀ c ∈ word, c ≠ 0)
    (hlength : word_length ≤ word.length) (hsize : word_length < 2 ^ 64)
    (hsplit : flexion_size + base_size ≤ word_length)
    (hlemma : only_lemma ≠ 0 → model ≠ []) :
    all_word_variations word word_length only_lemma flexion_size base_size flex_model_no base =
      some ((if only_lemma ≠ 0 then model.take 1 else model).map
        (variation_of ((word.drop (word_length - flexion_size - base_size)).take base_size)
          flex_model_no)) := by
  have hoffset : (((word_length : Int) - flexion_size - base_size) % 2 ^ 64).toNat =
      word_length - flexion_size - base_size := by
    have h1 : ((word_length : Int) - flexion_size - base_size) =
        ((word_length - flexion_size - base_size : Nat) : Int) := by omega
    rw [h1]
    have h2 : ((word_length - flexion_size - base_size : Nat) : Int) % 2 ^ 64 =
        ((word_length - flexion_size - base_size : Nat) : Int) := by
      apply Int.emod_eq_of_lt (by omega)
      have : ((2 : Int) ^ 64) = ((2 ^ 64 : Nat) : Int) := by norm_num
      rw [this]
      exact_mod_cast (by omega : word_length - flexion_size - base_size < 2 ^ 64)
    rw [h2, Int.toNat_ofNat]
  have hstemlen : ((word.drop (word_length - flexion_size - base_size)).take base_size).length =
      base_size := by
    rw [List.length_take, List.length_drop]; omega
  have hstemz : ∀ c ∈ (word.drop (word_length - flexion_size - base_size)).take base_size,
      c ≠ 0 := fun c hc => hword c (List.mem_of_mem_drop (List.mem_of_mem_take hc))
  have hcopy := wcsncpy_take (word.drop (word_length - flexion_size - base_size)) base_size
    (by rw [List.length_drop]; omega) hstemz
  -- the buffer
  have hbuffer : (List.replicate (word_length + MAX_FLEX_PREFIX_SIZE + MAX_FLEX_FLEXION_SIZE + 1)
      (0 : Label)) = List.replicate MAX_FLEX_PREFIX_SIZE 0 ++
        (List.replicate base_size 0 ++
          (List.replicate 1 0 ++
            List.replicate (word_length - base_size + MAX_FLEX_FLEXION_SIZE) 0)) := by
    rw [← List.replicate_add, ← List.replicate_add, ← List.replicate_add]
    congr 1
    omega
  have hwrite1 := write_at_append (List.replicate MAX_FLEX_PREFIX_SIZE (0 : Label))
    (List.replicate base_size 0)
    (List.replicate 1 0 ++ List.replicate (word_length - base_size + MAX_FLEX_FLEXION_SIZE) 0)
    ((word.drop (word_length - flexion_size - base_size)).take base_size)
    (by rw [hstemlen, List.length_replicate])
  rw [List.length_replicate] at hwrite1
  have hwrite2 := write_at_append
    (List.replicate MAX_FLEX_PREFIX_SIZE (0 : Label) ++
      (word.drop (word_length - flexion_size - base_size)).take base_size)
    (List.replicate 1 0)
    (List.replicate (word_length - base_size + MAX_FLEX_FLEXION_SIZE) 0) [0] rfl
  rw [List.length_append, List.length_replicate, hstemlen] at hwrite2
  have hloop := all_word_variations_loop_spec model
    ((word.drop (word_length - flexion_size - base_size)).take base_size) flex_model_no
    hstemz hfits (if only_lemma ≠ 0 then 1 else model.length) 0
    (List.replicate MAX_FLEX_PREFIX_SIZE 0)
    ([0] ++ List.replicate (word_length - base_size + MAX_FLEX_FLEXION_SIZE) 0)
    (List.length_replicate _ _)
    (by simp only [List.length_append, List.length_singleton, List.length_replicate]; omega)
    (by
      by_cases h : only_lemma ≠ 0
      · rw [if_pos h]
        have := List.length_pos.2 (hlemma h)
        omega
      · rw [if_neg h]; omega)
  rw [hstemlen] at hloop
  unfold all_word_variations
  simp only [hmodel, Option.bind_eq_bind, Option.some_bind, hoffset]
  rw [if_pos (by omega), hcopy, hbuffer, hwrite1]
  simp only [Option.some_bind]
  rw [← List.append_assoc, hwrite2]
  simp only [Option.some_bind]
  rw [List.append_assoc, hloop, List.drop_zero]
  congr 2
  by_cases h : only_lemma ≠ 0
  · rw [if_pos h, if_pos h]
  · rw [if_neg h, if_neg h, List.take_length]

end Morph

namespace Morph

/-! ## The array list of the outputs -/

theorem holds_length {α : Type} {list : ArrayList α} {elements : List α}
    (h : HoldsElements list elements) : elements.length = list.size := by
  obtain ⟨h1, _, h3⟩ := h
  rw [← h3, array_list_elements, List.length_take]
  omega

theorem holds_data {α : Type} {list : ArrayList α} {elements : List α}
    (h : HoldsElements list elements) : list.data = elements ++ list.data.drop list.size := by
  obtain ⟨_, _, h3⟩ := h
  rw [← h3, array_list_elements, List.take_append_drop]

theorem holds_get {α : Type} {list : ArrayList α} {front back : List α} {x : α}
    (h : HoldsElements list (front ++ x :: back)) :
    array_list_get list front.length = some front.length ∧
      list.data[front.length]? = some x := by
  have hlen := holds_length h
  simp only [List.length_append, List.length_cons] at hlen
  constructor
  · unfold array_list_get
    rw [if_pos (by omega)]
  · rw [holds_data h, List.append_assoc, List.getElem?_append_right (le_refl _)]
    simp

theorem holds_set {α : Type} {list : ArrayList α} {front back : List α} {x : α}
    (h : HoldsElements list (front ++ x :: back)) (y : α) :
    HoldsElements { list with data := list.data.set front.length y } (front ++ y :: back) := by
  obtain ⟨h1, h2, h3⟩ := h
  refine ⟨by simpa using h1, h2, ?_⟩
  simp only [array_list_elements] at h3 ⊢
  rw [List.set_take, h3]
  simp

theorem holds_delete {α : Type} {list : ArrayList α} {front back : List α} {x : α}
    (h : HoldsElements list (front ++ x :: back)) :
    ∃ list0, array_list_delete list front.length = some list0 ∧
      HoldsElements list0 (front ++ back) := by
  have hlen := holds_length h
  have hdata := holds_data h
  obtain ⟨h1, h2, h3⟩ := h
  simp only [List.length_append, List.length_cons] at hlen
  have hsize : (list.size + 2 ^ 64 - 1) % 2 ^ 64 = list.size - 1 := by omega
  have hcount : (list.size + 2 ^ 64 - front.length % 2 ^ 64 + 2 ^ 64 - 1) % 2 ^ 64 =
      back.length := by omega
  have ht : list.data.take front.length = front := by
    rw [hdata, List.append_assoc, List.take_left]
  have hd : (list.data.drop (front.length + 1)).take back.length = back := by
    rw [hdata]
    have : front ++ x :: back ++ list.data.drop list.size =
        (front ++ [x]) ++ (back ++ list.data.drop list.size) := by simp
    rw [this]
    have hl : front.length + 1 = (front ++ [x]).length := by simp
    rw [hl, List.drop_left, List.take_left]
  have hfb : (front ++ back).length = list.size - 1 := by
    rw [List.length_append]; omega
  unfold array_list_delete
  rw [hsize, hcount]
  by_cases hlast : front.length < list.size - 1
  · rw [if_pos hlast, if_pos (by omega), ht, hd]
    refine ⟨_, rfl, ?_, h2.trans_le' (Nat.sub_le _ _), ?_⟩
    · show list.size - 1 ≤ (front ++ back ++ list.data.drop (front.length + back.length)).length
      rw [List.length_append, hfb]
      omega
    · show (front ++ back ++ list.data.drop (front.length + back.length)).take (list.size - 1) =
        front ++ back
      rw [← hfb, List.take_left]
  · rw [if_neg hlast]
    have hback : back = [] := List.eq_nil_of_length_eq_zero (by omega)
    subst hback
    refine ⟨_, rfl, ?_, h2.trans_le' (Nat.sub_le _ _), ?_⟩
    · show list.size - 1 ≤ list.data.length
      omega
    · show list.data.take (list.size - 1) = front ++ []
      rw [hdata, List.append_assoc, List.append_nil]
      have : list.size - 1 = front.length := by simp at hlen; omega
      rw [this, List.take_left]

/-! ## The first loop of `filter_productive_output` -/

/-- The first loop returns, and it does on the elements what `upgrade_pass`
does. -/
theorem filter_upgrade_loop_spec (word : List Label) (word_length : Nat)
    (all_prefixes : List (List Label)) (hne : ∀ p ∈ all_prefixes, p ≠ [])
    (hwl : word_length < 2 ^ 64) :
    ∀ (R B : List AutomatOutput) (outputs : ArrayList AutomatOutput) (drop : Bool),
      HoldsElements outputs (R.reverse ++ B) →
      (∀ o ∈ R, o.automat_prefix_size ≤ word_length) →
      ∃ outputs0,
        filter_upgrade_loop word word_length all_prefixes R.length outputs drop =
          some (outputs0,
            (upgrade_pass (known_prefix_head word word_length all_prefixes) word_length R B
              drop).2) ∧
        HoldsElements outputs0
          (upgrade_pass (known_prefix_head word word_length all_prefixes) word_length R B
            drop).1 := by
  intro R
  induction R with
  | nil =>
    intro B outputs drop h _
    exact ⟨outputs, rfl, by simpa [upgrade_pass] using h⟩
  | cons x R ih =>
    intro B outputs drop h hmatched
    have hx : x.automat_prefix_size ≤ word_length := hmatched x (List.mem_cons_self _ _)
    have hR : ∀ o ∈ R, o.automat_prefix_size ≤ word_length :=
      fun o ho => hmatched o (List.mem_cons_of_mem _ ho)
    have h0 : HoldsElements outputs (R.reverse ++ x :: B) := by
      simpa using h
    obtain ⟨hget, hdata⟩ := holds_get h0
    rw [List.length_reverse] at hget hdata
    have hunmatched : (word_length + 2 ^ 64 - x.automat_prefix_size) % 2 ^ 64 =
        word_length - x.automat_prefix_size := by omega
    obtain ⟨b, hb⟩ := word_has_known_prefix_returns all_prefixes hne
      (word_length - x.automat_prefix_size + 1) word (word_length - x.automat_prefix_size)
      (by omega)
    simp only [List.length_cons, filter_upgrade_loop]
    simp only [hget, hdata, Option.bind_eq_bind, Option.some_bind, hunmatched]
    by_cases hpred : x.is_prediction ≠ 0
    · rw [if_pos hpred]
      by_cases htext : x.text.length = 0
      · rw [if_pos htext, hb]
        simp only [Option.some_bind]
        have hknown : known_prefix_head word word_length all_prefixes x = b := by
          simp only [known_prefix_head, htext, decide_True, Bool.true_and, hb]
          cases b <;> rfl
        cases b with
        | true =>
          have hset := holds_set h0
            { x with is_prediction := 0,
                     known_prefix_size := (word_length - x.automat_prefix_size) % 2 ^ 8 }
          rw [List.length_reverse] at hset
          obtain ⟨outputs0, hrun, hres⟩ := ih (upgraded word_length x :: B) _ true hset hR
          refine ⟨outputs0, ?_, ?_⟩
          · simp only [if_true, hrun, upgrade_pass, hpred, ne_eq, not_false_eq_true, hknown]
          · simpa only [upgrade_pass, hpred, ne_eq, not_false_eq_true, hknown, if_true]
              using hres
        | false =>
          simp only [Bool.false_eq_true, if_false]
          cases drop with
          | true =>
            obtain ⟨outputs1, hdel, hholds⟩ := holds_delete h0
            rw [List.length_reverse] at hdel
            obtain ⟨outputs0, hrun, hres⟩ := ih B outputs1 true hholds hR
            refine ⟨outputs0, ?_, ?_⟩
            · simp only [if_true, hdel, Option.some_bind, hrun, upgrade_pass, hpred, ne_eq,
                not_false_eq_true, hknown, Bool.false_eq_true, if_false]
            · simpa only [upgrade_pass, hpred, ne_eq, not_false_eq_true, hknown, if_true,
                Bool.false_eq_true, if_false] using hres
          | false =>
            obtain ⟨outputs0, hrun, hres⟩ := ih (x :: B) outputs false h0 hR
            refine ⟨outputs0, ?_, ?_⟩
            · simp only [Bool.false_eq_true, if_false, hrun, upgrade_pass, hpred, ne_eq,
                not_false_eq_true, hknown, if_true]
            · simpa only [upgrade_pass, hpred, ne_eq, not_false_eq_true, hknown, if_true,
                Bool.false_eq_true, if_false] using hres
      · rw [if_neg htext]
        simp only [Option.some_bind, Bool.false_eq_true, if_false]
        have hknown : known_prefix_head word word_length all_prefixes x = false := by
          simp only [known_prefix_head, htext, decide_False, Bool.false_and]
        cases drop with
        | true =>
          obtain ⟨outputs1, hdel, hholds⟩ := holds_delete h0
          rw [List.length_reverse] at hdel
          obtain ⟨outputs0, hrun, hres⟩ := ih B outputs1 true hholds hR
          refine ⟨outputs0, ?_, ?_⟩
          · simp only [if_true, hdel, Option.some_bind, hrun, upgrade_pass, hpred, ne_eq,
              not_false_eq_true, hknown, Bool.false_eq_true, if_false]
          · simpa only [upgrade_pass, hpred, ne_eq, not_false_eq_true, hknown, if_true,
              Bool.false_eq_true, if_false] using hres
        | false =>
          obtain ⟨outputs0, hrun, hres⟩ := ih (x :: B) outputs false h0 hR
          refine ⟨outputs0, ?_, ?_⟩
          · simp only [Bool.false_eq_true, if_false, hrun, upgrade_pass, hpred, ne_eq,
              not_false_eq_true, hknown, if_true]
          · simpa only [upgrade_pass, hpred, ne_eq, not_false_eq_true, hknown, if_true,
              Bool.false_eq_true, if_false] using hres
    · rw [if_neg hpred]
      obtain ⟨outputs0, hrun, hres⟩ := ih (x :: B) outputs drop h0 hR
      refine ⟨outputs0, ?_, ?_⟩
      · simp only [hrun, upgrade_pass, hpred, if_false]
      · simpa only [upgrade_pass, hpred, if_false] using hres

end Morph

namespace Morph

/-! ## The filter of the outputs: what the two loops leave -/

theorem upgradable_iff (word : List Label) (word_length : Nat)
    (all_prefixes : List (List Label)) (o : AutomatOutput) :
    Upgradable word word_length all_prefixes o ↔
      (o.is_prediction ≠ 0 ∧ known_prefix_head word word_length all_prefixes o = true) := by
  simp only [Upgradable, known_prefix_head, Bool.and_eq_true, decide_eq_true_eq, beq_iff_eq]

theorem upgraded_not_prediction (word_length : Nat) (o : AutomatOutput) :
    (upgraded word_length o).is_prediction = 0 := rfl

theorem upgrade_pass_append (known : AutomatOutput → Bool) (word_length : Nat) :
    ∀ (X Y B : List AutomatOutput) (drop : Bool),
      upgrade_pass known word_length (X ++ Y) B drop =
        upgrade_pass known word_length Y (upgrade_pass known word_length X B drop).1
          (upgrade_pass known word_length X B drop).2 := by
  intro X
  induction X with
  | nil => intro Y B drop; rfl
  | cons x X ih =>
    intro Y B drop
    simp only [List.cons_append, upgrade_pass]
    by_cases hpred : x.is_prediction ≠ 0
    · rw [if_pos hpred, if_pos hpred]
      by_cases hk : known x = true
      · rw [if_pos hk, if_pos hk]; exact ih _ _ _
      · rw [if_neg hk, if_neg hk]
        by_cases hd : drop = true
        · rw [if_pos hd, if_pos hd]; exact ih _ _ _
        · rw [if_neg hd, if_neg hd]; exact ih _ _ _
    · rw [if_neg hpred, if_neg hpred]; exact ih _ _ _

/-- Without an output to upgrade and with the flag down, the first loop keeps
every output. -/
theorem upgrade_pass_unchanged (known : AutomatOutput → Bool) (word_length : Nat) :
    ∀ (R B : List AutomatOutput),
      (∀ o ∈ R, ¬ (o.is_prediction ≠ 0 ∧ known o = true)) →
      upgrade_pass known word_length R B false = (R.reverse ++ B, false) := by
  intro R
  induction R with
  | nil => intro B _; rfl
  | cons x R ih =>
    intro B h
    have hx := h x (List.mem_cons_self _ _)
    have hR := fun o ho => h o (List.mem_cons_of_mem _ ho)
    simp only [upgrade_pass]
    by_cases hpred : x.is_prediction ≠ 0
    · have hk : ¬ known x = true := fun hk => hx ⟨hpred, hk⟩
      rw [if_pos hpred, if_neg hk]
      simp only [Bool.false_eq_true, if_false]
      rw [ih _ hR]
      simp
    · rw [if_neg hpred, ih _ hR]
      simp

/-- With the flag up, the first loop upgrades or drops every prediction. -/
theorem upgrade_pass_dropping (known : AutomatOutput → Bool) (word_length : Nat) :
    ∀ (R B : List AutomatOutput),
      ∃ A0, upgrade_pass known word_length R B true = (A0 ++ B, true) ∧
        (∀ r ∈ A0, r.is_prediction = 0) ∧
        (∀ o ∈ R, o.is_prediction ≠ 0 ∧ known o = true → upgraded word_length o ∈ A0) ∧
        (∀ r ∈ A0, (r ∈ R ∧ ¬ (r.is_prediction ≠ 0 ∧ known r = true)) ∨
          ∃ o ∈ R, (o.is_prediction ≠ 0 ∧ known o = true) ∧ r = upgraded word_length o) := by
  intro R
  induction R with
  | nil =>
    intro B
    exact ⟨[], rfl, fun r hr => (by cases hr), fun o ho => (by cases ho),
      fun r hr => (by cases hr)⟩
  | cons x R ih =>
    intro B
    simp only [upgrade_pass]
    by_cases hpred : x.is_prediction ≠ 0
    · rw [if_pos hpred]
      by_cases hk : known x = true
      · rw [if_pos hk]
        obtain ⟨A0, hrun, h1, h2, h3⟩ := ih (upgraded word_length x :: B)
        refine ⟨A0 ++ [upgraded word_length x], by rw [hrun]; simp, ?_, ?_, ?_⟩
        · intro r hr
          rcases List.mem_append.1 hr with hr | hr
          · exact h1 r hr
          · rw [List.mem_singleton.1 hr]; rfl
        · intro o ho hu
          rcases List.mem_cons.1 ho with rfl | ho
          · exact List.mem_append_right _ (List.mem_singleton_self _)
          · exact List.mem_append_left _ (h2 o ho hu)
        · intro r hr
          rcases List.mem_append.1 hr with hr | hr
          · rcases h3 r hr with ⟨hm, hn⟩ | ⟨o, ho, hu, he⟩
            · exact Or.inl ⟨List.mem_cons_of_mem _ hm, hn⟩
            · exact Or.inr ⟨o, List.mem_cons_of_mem _ ho, hu, he⟩
          · exact Or.inr ⟨x, List.mem_cons_self _ _, ⟨hpred, hk⟩, List.mem_singleton.1 hr⟩
      · rw [if_neg hk]
        simp only [if_true]
        obtain ⟨A0, hrun, h1, h2, h3⟩ := ih B
        refine ⟨A0, hrun, h1, ?_, ?_⟩
        · intro o ho hu
          rcases List.mem_cons.1 ho with rfl | ho
          · exact absurd hu.2 hk
          · exact h2 o ho hu
        · intro r hr
          rcases h3 r hr with ⟨hm, hn⟩ | ⟨o, ho, hu, he⟩
          · exact Or.inl ⟨List.mem_cons_of_mem _ hm, hn⟩
          · exact Or.inr ⟨o, List.mem_cons_of_mem _ ho, hu, he⟩
    · rw [if_neg hpred]
      obtain ⟨A0, hrun, h1, h2, h3⟩ := ih (x :: B)
      refine ⟨A0 ++ [x], by rw [hrun]; simp, ?_, ?_, ?_⟩
      · intro r hr
        rcases List.mem_append.1 hr with hr | hr
        · exact h1 r hr
        · rw [List.mem_singleton.1 hr]
          exact not_not.1 hpred
      · intro o ho hu
        rcases List.mem_cons.1 ho with rfl | ho
        · exact absurd hu.1 hpred
        · exact List.mem_append_left _ (h2 o ho hu)
      · intro r hr
        rcases List.mem_append.1 hr with hr | hr
        · rcases h3 r hr with ⟨hm, hn⟩ | ⟨o, ho, hu, he⟩
          · exact Or.inl ⟨List.mem_cons_of_mem _ hm, hn⟩
          · exact Or.inr ⟨o, List.mem_cons_of_mem _ ho, hu, he⟩
        · rw [List.mem_singleton.1 hr]
          exact Or.inl ⟨List.mem_cons_self _ _, fun hu => hpred hu.1⟩

/-- The first loop on outputs of which `u` is the last one to upgrade. -/
theorem upgrade_pass_last (known : AutomatOutput → Bool) (word_length : Nat)
    (A B0 : List AutomatOutput) (u : AutomatOutput)
    (hu : u.is_prediction ≠ 0 ∧ known u = true)
    (hB0 : ∀ o ∈ B0, ¬ (o.is_prediction ≠ 0 ∧ known o = true)) :
    ∃ A0, upgrade_pass known word_length (A ++ u :: B0).reverse [] false =
        (A0 ++ upgraded word_length u :: B0, true) ∧
      (∀ r ∈ A0, r.is_prediction = 0) ∧
      (∀ o ∈ A, o.is_prediction ≠ 0 ∧ known o = true → upgraded word_length o ∈ A0) ∧
      (∀ r ∈ A0, (r ∈ A ∧ ¬ (r.is_prediction ≠ 0 ∧ known r = true)) ∨
        ∃ o ∈ A, (o.is_prediction ≠ 0 ∧ known o = true) ∧ r = upgraded word_length o) := by
  have hrev : (A ++ u :: B0).reverse = B0.reverse ++ (u :: A.reverse) := by simp
  have h1 := upgrade_pass_unchanged known word_length B0.reverse []
    (fun o ho => hB0 o (List.mem_reverse.1 ho))
  simp only [List.reverse_reverse, List.append_nil] at h1
  obtain ⟨A0, hrun, h2, h3, h4⟩ := upgrade_pass_dropping known word_length A.reverse
    (upgraded word_length u :: B0)
  refine ⟨A0, ?_, h2, fun o ho => h3 o (List.mem_reverse.2 ho), ?_⟩
  · rw [hrev, upgrade_pass_append, h1]
    simp only [upgrade_pass, if_pos hu.1, if_pos hu.2]
    exact hrun
  · intro r hr
    rcases h4 r hr with ⟨hm, hn⟩ | ⟨o, ho, hu0, he⟩
    · exact Or.inl ⟨List.mem_reverse.1 hm, hn⟩
    · exact Or.inr ⟨o, List.mem_reverse.1 ho, hu0, he⟩

/-- A list with an element that has a property has a last such element. -/
theorem exists_last_with {α : Type} (P : α → Prop) :
    ∀ L : List α, (∃ o ∈ L, P o) → ∃ A u B, L = A ++ u :: B ∧ P u ∧ ∀ o ∈ B, ¬ P o := by
  intro L
  induction L with
  | nil => rintro ⟨o, ho, _⟩; cases ho
  | cons x L ih =>
    intro h
    by_cases hL : ∃ o ∈ L, P o
    · obtain ⟨A, u, B, hLe, hu, hB⟩ := ih hL
      exact ⟨x :: A, u, B, by rw [hLe]; rfl, hu, hB⟩
    · obtain ⟨o, ho, hPo⟩ := h
      rcases List.mem_cons.1 ho with rfl | ho
      · exact ⟨[], o, L, rfl, hPo, fun o0 h0 hP0 => hL ⟨o0, h0, hP0⟩⟩
      · exact absurd ⟨o, ho, hPo⟩ hL

/-- The last element with a property is found at one place only. -/
theorem last_with_unique {α : Type} (P : α → Prop) (A B A1 B1 : List α) (u u1 : α)
    (h : A ++ u :: B = A1 ++ u1 :: B1) (hu : P u) (hu1 : P u1) (hB : ∀ o ∈ B, ¬ P o)
    (hB1 : ∀ o ∈ B1, ¬ P o) : B1 = B := by
  rcases List.append_eq_append_iff.1 h with ⟨a, _, h2⟩ | ⟨c, _, h2⟩
  · cases a with
    | nil =>
      simp only [List.nil_append, List.cons.injEq] at h2
      exact h2.2.symm
    | cons x a =>
      simp only [List.cons_append, List.cons.injEq] at h2
      exact absurd hu1 (hB u1 (by rw [h2.2]; simp))
  · cases c with
    | nil =>
      simp only [List.nil_append, List.cons.injEq] at h2
      exact h2.2
    | cons x c =>
      simp only [List.cons_append, List.cons.injEq] at h2
      exact absurd hu (hB1 u (by rw [h2.2]; simp))

theorem dropWhile_append_stop {α : Type} (p : α → Bool) (y : α) (hy : p y = false) :
    ∀ (X Y : List α), (X ++ y :: Y).dropWhile p = X.dropWhile p ++ y :: Y := by
  intro X
  induction X with
  | nil => intro Y; simp [List.dropWhile_cons, hy]
  | cons x X ih =>
    intro Y
    simp only [List.cons_append, List.dropWhile_cons]
    by_cases hx : p x = true
    · rw [if_pos hx, if_pos hx]; exact ih Y
    · rw [if_neg hx, if_neg hx]; rfl

/-- When nothing that has the property follows, in a list, an element that
has it not, what is left after the leading elements with the property has it
not. -/
theorem dropWhile_none_left {α : Type} (p : α → Bool) :
    ∀ X : List α, X.Pairwise (fun a b => p b = true → p a = true) →
      ∀ r ∈ X.dropWhile p, p r = false := by
  intro X
  induction X with
  | nil => intro _ r hr; cases hr
  | cons x X ih =>
    intro h r hr
    rw [List.pairwise_cons] at h
    rw [List.dropWhile_cons] at hr
    by_cases hx : p x = true
    · rw [if_pos hx] at hr
      exact ih h.2 r hr
    · rw [if_neg hx] at hr
      rcases List.mem_cons.1 hr with rfl | hr
      · exact Bool.eq_false_iff.2 hx
      · exact Bool.eq_false_iff.2 (fun hpr => hx (h.1 r hr hpr))

/-! ## The second loop of `filter_productive_output` -/

theorem filter_drop_loop_spec :
    ∀ (R : List AutomatOutput) (outputs : ArrayList AutomatOutput),
      HoldsElements outputs R.reverse →
      ∃ outputs0, filter_drop_loop R.length outputs = some outputs0 ∧
        HoldsElements outputs0
          (R.dropWhile (fun o => decide (o.is_prediction ≠ 0))).reverse := by
  intro R
  induction R with
  | nil => intro outputs h; exact ⟨outputs, rfl, h⟩
  | cons x R ih =>
    intro outputs h
    have h0 : HoldsElements outputs (R.reverse ++ x :: []) := by simpa using h
    obtain ⟨hget, hdata⟩ := holds_get h0
    rw [List.length_reverse] at hget hdata
    simp only [List.length_cons, filter_drop_loop, hget, hdata, Option.bind_eq_bind,
      Option.some_bind, List.dropWhile_cons]
    by_cases hpred : x.is_prediction ≠ 0
    · obtain ⟨outputs1, hdel, hholds⟩ := holds_delete h0
      rw [List.length_reverse] at hdel
      rw [List.append_nil] at hholds
      obtain ⟨outputs0, hrun, hres⟩ := ih outputs1 hholds
      refine ⟨outputs0, ?_, ?_⟩
      · rw [if_pos hpred, hdel]
        exact hrun
      · rw [if_pos (by simpa using hpred)]
        exact hres
    · refine ⟨outputs, by rw [if_neg hpred], ?_⟩
      rw [if_neg (by simpa using hpred)]
      exact h

end Morph

namespace Morph

/-! ## `filter_productive_output` -/

/-- Without an output to upgrade the first loop leaves the array as it is. -/
theorem filter_upgrade_loop_unchanged (word : List Label) (word_length : Nat)
    (all_prefixes : List (List Label)) (hne : ∀ p ∈ all_prefixes, p ≠ [])
    (hwl : word_length < 2 ^ 64) :
    ∀ (R B : List AutomatOutput) (outputs : ArrayList AutomatOutput),
      HoldsElements outputs (R.reverse ++ B) →
      (∀ o ∈ R, o.automat_prefix_size ≤ word_length) →
      (∀ o ∈ R, ¬ Upgradable word word_length all_prefixes o) →
      filter_upgrade_loop word word_length all_prefixes R.length outputs false =
        some (outputs, false) := by
  intro R
  induction R with
  | nil => intro B outputs _ _ _; rfl
  | cons x R ih =>
    intro B outputs h hmatched hnone
    have hx : x.automat_prefix_size ≤ word_length := hmatched x (List.mem_cons_self _ _)
    have hR : ∀ o ∈ R, o.automat_prefix_size ≤ word_length :=
      fun o ho => hmatched o (List.mem_cons_of_mem _ ho)
    have hxn := hnone x (List.mem_cons_self _ _)
    have hRn := fun o ho => hnone o (List.mem_cons_of_mem _ ho)
    have h0 : HoldsElements outputs (R.reverse ++ x :: B) := by
      simpa using h
    obtain ⟨hget, hdata⟩ := holds_get h0
    rw [List.length_reverse] at hget hdata
    have hunmatched : (word_length + 2 ^ 64 - x.automat_prefix_size) % 2 ^ 64 =
        word_length - x.automat_prefix_size := by omega
    obtain ⟨b, hb⟩ := word_has_known_prefix_returns all_prefixes hne
      (word_length - x.automat_prefix_size + 1) word (word_length - x.automat_prefix_size)
      (by omega)
    have hnext := ih (x :: B) outputs h0 hR hRn
    simp only [List.length_cons, filter_upgrade_loop]
    simp only [hget, hdata, Option.bind_eq_bind, Option.some_bind, hunmatched]
    by_cases hpred : x.is_prediction ≠ 0
    · rw [if_pos hpred]
      by_cases htext : x.text.length = 0
      · rw [if_pos htext, hb]
        have hbf : b = false := by
          cases b with
          | false => rfl
          | true => exact absurd ⟨hpred, htext, hb⟩ hxn
        subst hbf
        simp only [Option.some_bind, Bool.false_eq_true, if_false]
        exact hnext
      · rw [if_neg htext]
        simp only [Option.some_bind, Bool.false_eq_true, if_false]
        exact hnext
    · rw [if_neg hpred]
      exact hnext

/-- `filter_productive_output` without an output to upgrade, and with `u` the
last output to upgrade. -/
theorem filter_productive_output_spec (outputs : ArrayList AutomatOutput)
    (L : List AutomatOutput) (word : List Label) (word_length : Nat)
    (morphology : MorphologyBase) (hold : HoldsElements outputs L)
    (hne : ∀ p ∈ morphology.all_prefixes, p ≠ []) (hwl : word_length < 2 ^ 64)
    (hmatched : ∀ o ∈ L, o.automat_prefix_size ≤ word_length) :
    ((∀ o ∈ L, ¬ Upgradable word word_length morphology.all_prefixes o) →
      filter_productive_output outputs word word_length morphology = some outputs) ∧
    (∀ (A B0 : List AutomatOutput) (u : AutomatOutput), L = A ++ u :: B0 →
      Upgradable word word_length morphology.all_prefixes u →
      (∀ o ∈ B0, ¬ Upgradable word word_length morphology.all_prefixes o) →
      ∃ A0 outputs0,
        filter_productive_output outputs word word_length morphology = some outputs0 ∧
        HoldsElements outputs0 (A0 ++ upgraded word_length u ::
          (B0.reverse.dropWhile (fun o => decide (o.is_prediction ≠ 0))).reverse) ∧
        (∀ r ∈ A0, r.is_prediction = 0) ∧
        (∀ o ∈ A, Upgradable word word_length morphology.all_prefixes o →
          upgraded word_length o ∈ A0) ∧
        (∀ r ∈ A0, (r ∈ A ∧ ¬ Upgradable word word_length morphology.all_prefixes r) ∨
          ∃ o ∈ A, Upgradable word word_length morphology.all_prefixes o ∧
            r = upgraded word_length o)) := by
  have hsize : outputs.size = L.reverse.length := by
    rw [List.length_reverse, holds_length hold]
  have hold0 : HoldsElements outputs (L.reverse.reverse ++ []) := by
    simpa using hold
  constructor
  · intro hnone
    have hrun := filter_upgrade_loop_unchanged word word_length morphology.all_prefixes hne hwl
      L.reverse [] outputs hold0 (fun o ho => hmatched o (List.mem_reverse.1 ho))
      (fun o ho => hnone o (List.mem_reverse.1 ho))
    unfold filter_productive_output
    rw [hsize, hrun]
    rfl
  · intro A B0 u hL hu hB0
    obtain ⟨outputs1, hrun, hres⟩ := filter_upgrade_loop_spec word word_length
      morphology.all_prefixes hne hwl L.reverse [] outputs false hold0
      (fun o ho => hmatched o (List.mem_reverse.1 ho))
    obtain ⟨A0, hpass, h1, h2, h3⟩ := upgrade_pass_last
      (known_prefix_head word word_length morphology.all_prefixes) word_length A B0 u
      ((upgradable_iff _ _ _ _).1 hu) (fun o ho hk => hB0 o ho ((upgradable_iff _ _ _ _).2 hk))
    rw [hL, hpass] at hrun hres
    simp only at hrun hres
    have hrev : A0 ++ upgraded word_length u :: B0 =
        (B0.reverse ++ upgraded word_length u :: A0.reverse).reverse := by simp
    rw [hrev] at hres
    obtain ⟨outputs0, hrun2, hres2⟩ := filter_drop_loop_spec _ outputs1 hres
    have hsize1 : outputs1.size = (B0.reverse ++ upgraded word_length u :: A0.reverse).length := by
      rw [← holds_length hres, List.length_reverse]
    rw [dropWhile_append_stop _ _ (by simp [upgraded])] at hres2
    refine ⟨A0, outputs0, ?_, by simpa using hres2, h1, ?_, ?_⟩
    · unfold filter_productive_output
      rw [hsize, hL, hrun]
      simp only [Option.bind_eq_bind, Option.some_bind, if_true]
      rw [hsize1]
      exact hrun2
    · intro o ho hup
      exact h2 o ho ((upgradable_iff _ _ _ _).1 hup)
    · intro r hr
      rcases h3 r hr with ⟨hm, hn⟩ | ⟨o, ho, hu0, he⟩
      · exact Or.inl ⟨hm, fun hup => hn ((upgradable_iff _ _ _ _).1 hup)⟩
      · exact Or.inr ⟨o, ho, (upgradable_iff _ _ _ _).2 hu0, he⟩

/-- `filter_productive_output` returns, and every output it leaves is one of
the outputs it got, as it was or upgraded. -/
theorem filter_productive_output_returns (outputs : ArrayList AutomatOutput)
    (L : List AutomatOutput) (word : List Label) (word_length : Nat)
    (morphology : MorphologyBase) (hold : HoldsElements outputs L)
    (hne : ∀ p ∈ morphology.all_prefixes, p ≠ []) (hwl : word_length < 2 ^ 64)
    (hmatched : ∀ o ∈ L, o.automat_prefix_size ≤ word_length) :
    ∃ outputs0 L0,
      filter_productive_output outputs word word_length morphology = some outputs0 ∧
      HoldsElements outputs0 L0 ∧
      ∀ r ∈ L0, r ∈ L ∨ ∃ o ∈ L, Upgradable word word_length morphology.all_prefixes o ∧
        r = upgraded word_length o := by
  obtain ⟨hnone, hsome⟩ := filter_productive_output_spec outputs L word word_length morphology
    hold hne hwl hmatched
  by_cases h : ∃ o ∈ L, Upgradable word word_length morphology.all_prefixes o
  · obtain ⟨A, u, B0, hL, hu, hB0⟩ := exists_last_with _ L h
    obtain ⟨A0, outputs0, hrun, hres, _, _, h3⟩ := hsome A B0 u hL hu hB0
    refine ⟨outputs0, _, hrun, hres, ?_⟩
    intro r hr
    rcases List.mem_append.1 hr with hr | hr
    · rcases h3 r hr with ⟨hm, _⟩ | ⟨o, ho, hup, he⟩
      · exact Or.inl (by rw [hL]; exact List.mem_append_left _ hm)
      · exact Or.inr ⟨o, by rw [hL]; exact List.mem_append_left _ ho, hup, he⟩
    · rcases List.mem_cons.1 hr with rfl | hr
      · exact Or.inr ⟨u, by rw [hL]; simp, hu, rfl⟩
      · have hr1 := (List.dropWhile_sublist _).subset (List.mem_reverse.1 hr)
        exact Or.inl (by rw [hL]; simp [List.mem_reverse.1 hr1])
  · refine ⟨outputs, L, hnone (fun o ho hu => h ⟨o, ho, hu⟩), hold, fun r hr => Or.inl hr⟩

end Morph

namespace Morph

/-! ## `analyze_word`: the outputs and the variations -/

theorem indexOf_delimiter :
    ∀ (t R : List Label), (∀ c ∈ t, c ≠ ANNOTATION_DELIMITER) →
      (t ++ ANNOTATION_DELIMITER :: R).indexOf? ANNOTATION_DELIMITER = some t.length := by
  intro t
  induction t with
  | nil => intro R _; simp [List.indexOf?, List.findIdx?_cons]
  | cons a t ih =>
    intro R ht
    have ha : a ≠ ANNOTATION_DELIMITER := ht a (List.mem_cons_self _ _)
    have := ih R (fun b hb => ht b (List.mem_cons_of_mem _ hb))
    simp only [List.indexOf?] at this ⊢
    simp only [List.cons_append, List.findIdx?_cons, beq_iff_eq, ha, if_false]
    rw [List.findIdx?_succ, this]
    simp

/-- `init_automat_output` on a buffer that holds a text, the `|`, the code of
the annotation and a zero. -/
theorem init_automat_output_spec (t code rest : List Label) (aps ip : Nat)
    (ht : ∀ c ∈ t, c ≠ 0 ∧ c ≠ ANNOTATION_DELIMITER) (hc : ∀ c ∈ code, c ≠ 0) :
    init_automat_output (t ++ ANNOTATION_DELIMITER :: (code ++ 0 :: rest)) aps ip =
      some { text := t.reverse, known_prefix_size := 0, annotation := code,
             is_prediction := ip, automat_prefix_size := aps } := by
  have hstring : string_at (t ++ ANNOTATION_DELIMITER :: (code ++ 0 :: rest)) 0 =
      some (t ++ ANNOTATION_DELIMITER :: code) := by
    have := string_at_append [] (t ++ ANNOTATION_DELIMITER :: code) rest (by
      intro c hc0
      rcases List.mem_append.1 hc0 with h | h
      · exact (ht c h).1
      · rcases List.mem_cons.1 h with rfl | h
        · decide
        · exact hc c h)
    simpa using this
  have hindex := indexOf_delimiter t code (fun c h => (ht c h).2)
  have hset : (t ++ ANNOTATION_DELIMITER :: code).set t.length 0 = t ++ 0 :: code := by
    rw [List.set_append_right _ _ (le_refl _)]
    simp
  have hreverse : (wcssubreverse (t ++ 0 :: code) 0 t.length).take t.length = t.reverse := by
    by_cases hnil : t = []
    · subst hnil
      rfl
    · rw [wcssubreverse_whole t (0 :: code) hnil, ← List.length_reverse t, List.take_left]
  have hdrop : (t ++ ANNOTATION_DELIMITER :: code).drop (t.length + 1) = code := by
    have : t ++ ANNOTATION_DELIMITER :: code = (t ++ [ANNOTATION_DELIMITER]) ++ code := by simp
    rw [this]
    have hl : t.length + 1 = (t ++ [ANNOTATION_DELIMITER]).length := by simp
    rw [hl, List.drop_left]
  unfold init_automat_output
  simp only [hstring, hindex, Option.bind_eq_bind, Option.some_bind, Option.pure_def, hset,
    hreverse, hdrop]

/-- The outputs of calls that fit: `collect_automat_output` returns, the
matched parts are no longer than the word, and every output fits, also after
its upgrade. -/
theorem collect_automat_output_spec (iswspace : Label → Bool) (word : List Label)
    (word_length : Nat) (morphology : MorphologyBase) (only_lemmas : Nat) :
    ∀ calls : List OutputCall,
      (∀ c ∈ calls, CallFits iswspace word_length morphology only_lemmas c) →
      ∃ outputs, collect_automat_output calls = some outputs ∧
        outputs.length = calls.length ∧
        ∀ o ∈ outputs, o.automat_prefix_size ≤ word_length ∧
          OutputFits iswspace word_length morphology only_lemmas o ∧
          (Upgradable word word_length morphology.all_prefixes o →
            OutputFits iswspace word_length morphology only_lemmas (upgraded word_length o)) := by
  intro calls
  induction calls with
  | nil => intro _; exact ⟨[], rfl, rfl, fun o ho => (by cases ho)⟩
  | cons c calls ih =>
    intro h
    obtain ⟨outputs, hrun, hlen, hall⟩ := ih (fun c0 h0 => h c0 (List.mem_cons_of_mem _ h0))
    obtain ⟨t, code, rest, model, hbuffer, ht, hcode, hmatched, hmodel, hfits, hlemma, hplain,
      hup⟩ := h c (List.mem_cons_self _ _)
    have hinit := init_automat_output_spec t code rest (c.prefix_size % 2 ^ 8) c.is_prediction
      ht hcode
    rw [← hbuffer] at hinit
    refine ⟨{ text := t.reverse, known_prefix_size := 0, annotation := code,
              is_prediction := c.is_prediction,
              automat_prefix_size := c.prefix_size % 2 ^ 8 } :: outputs, by
      simp only [collect_automat_output, hinit, hrun, Option.bind_eq_bind, Option.some_bind,
        Option.pure_def], by simp only [List.length_cons, hlen], ?_⟩
    intro o ho
    rcases List.mem_cons.1 ho with rfl | ho
    · refine ⟨hmatched, ⟨model, hmodel, hfits, hlemma, ?_⟩, ?_⟩
      · intro hp
        have hbs : ( parse_morphology_annotation iswspace code).base_size ≤ 255 := by
          simp only [ parse_morphology_annotation]
          exact Nat.and_le_right
        have := hplain hp
        simp only [Nat.zero_add]
        rw [Nat.mod_eq_of_lt (by omega)]
        exact this
      · intro hupg
        obtain ⟨hpred, htext, _⟩ := hupg
        have htnil : t = [] := by
          have : t.reverse.length = 0 := htext
          rw [List.length_reverse] at this
          exact List.eq_nil_of_length_eq_zero this
        exact ⟨model, hmodel, hfits, hlemma, fun _ => hup hpred htnil⟩
    · exact hall o ho

theorem unique_variations_append (eq_function : WordVariation → WordVariation → Bool) :
    ∀ (a b result : List WordVariation),
      unique_variations_to_result eq_function (a ++ b) result =
        unique_variations_to_result eq_function b
          (unique_variations_to_result eq_function a result) := by
  intro a
  induction a with
  | nil => intro b result; rfl
  | cons v a ih =>
    intro b result
    simp only [List.cons_append, unique_variations_to_result]
    by_cases hnew : array_list_index result v eq_function = -1
    · rw [if_pos hnew, if_pos hnew]; exact ih _ _
    · rw [if_neg hnew, if_neg hnew]
      cases result[(array_list_index result v eq_function).toNat]? with
      | none => exact ih _ _
      | some form => exact ih _ _

/-- The loop of `analyze_word` adds to the result the variations that it
generates. -/
theorem analyze_outputs_loop_eq (iswspace : Label → Bool) (word : List Label)
    (word_length : Nat) (morphology : MorphologyBase) (only_lemmas : Nat)
    (eq_func : WordVariation → WordVariation → Bool) :
    ∀ (outputs : List AutomatOutput) (checked : List Nat) (result : List WordVariation),
      analyze_outputs_loop iswspace word word_length morphology only_lemmas eq_func outputs
        checked result =
      (generated_variations iswspace word word_length morphology only_lemmas outputs
        checked).map (fun g => unique_variations_to_result eq_func g result) := by
  intro outputs
  induction outputs with
  | nil => intro checked result; rfl
  | cons o outputs ih =>
    intro checked result
    simp only [analyze_outputs_loop, generated_variations]
    by_cases hchecked : (!is_analyzed_model
        ( parse_morphology_annotation iswspace (AutomatOutput.annotation o)).flex_model_index
        checked) = true
    · rw [if_pos hchecked, if_pos hchecked]
      by_cases hpred : o.is_prediction ≠ 0
      · simp only [if_pos hpred]
        by_cases hbase : (word_length : Int) -
            (( parse_morphology_annotation iswspace
              (AutomatOutput.annotation o)).flexion_size : Int) ≥ (MIN_BASE_LENGTH : Int)
        · simp only [if_pos hbase]
          cases all_word_variations word word_length only_lemmas
            ( parse_morphology_annotation iswspace (AutomatOutput.annotation o)).flexion_size
            (((word_length : Int) - (( parse_morphology_annotation iswspace
              (AutomatOutput.annotation o)).flexion_size : Int)).toNat % 2 ^ 8)
            ( parse_morphology_annotation iswspace
              (AutomatOutput.annotation o)).flex_model_index morphology with
          | none => rfl
          | some variations =>
            simp only [Option.bind_eq_bind, Option.some_bind, Option.pure_def, ih]
            cases generated_variations iswspace word word_length morphology only_lemmas
              outputs (checked ++ [( parse_morphology_annotation iswspace
                (AutomatOutput.annotation o)).flex_model_index]) with
            | none => rfl
            | some rest =>
              simp only [Option.map_some', Option.some_bind, unique_variations_append]
        · simp only [if_neg hbase, Option.bind_eq_bind, Option.some_bind, Option.pure_def, ih]
          cases generated_variations iswspace word word_length morphology only_lemmas
            outputs (checked ++ [( parse_morphology_annotation iswspace
              (AutomatOutput.annotation o)).flex_model_index]) with
          | none => rfl
          | some rest => simp only [Option.map_some', Option.some_bind, List.nil_append]
      · simp only [if_neg hpred]
        cases all_word_variations word word_length only_lemmas
          ( parse_morphology_annotation iswspace (AutomatOutput.annotation o)).flexion_size
          ((o.known_prefix_size + ( parse_morphology_annotation iswspace
            (AutomatOutput.annotation o)).base_size) % 2 ^ 8)
          ( parse_morphology_annotation iswspace
            (AutomatOutput.annotation o)).flex_model_index morphology with
        | none => rfl
        | some variations =>
          simp only [Option.bind_eq_bind, Option.some_bind, Option.pure_def, ih]
          cases generated_variations iswspace word word_length morphology only_lemmas
            outputs (checked ++ [( parse_morphology_annotation iswspace
              (AutomatOutput.annotation o)).flex_model_index]) with
          | none => rfl
          | some rest =>
            simp only [Option.map_some', Option.some_bind, unique_variations_append]
    · rw [if_neg hchecked, if_neg hchecked]
      exact ih checked result

/-- The loop of `analyze_word` generates variations, all of the frequency 0,
for outputs that fit. -/
theorem generated_variations_returns (iswspace : Label → Bool) (word : List Label)
    (word_length : Nat) (morphology : MorphologyBase) (only_lemmas : Nat)
    (hword : ∀ c ∈ word, c ≠ 0) (hlength : word_length ≤ word.length)
    (hsize : word_length < 2 ^ 64) :
    ∀ (outputs : List AutomatOutput) (checked : List Nat),
      (∀ o ∈ outputs, OutputFits iswspace word_length morphology only_lemmas o) →
      ∃ generated,
        generated_variations iswspace word word_length morphology only_lemmas outputs
          checked = some generated ∧
        ∀ v ∈ generated, v.frequency = 0 := by
  intro outputs
  induction outputs with
  | nil => intro checked _; exact ⟨[], rfl, fun v hv => (by cases hv)⟩
  | cons o outputs ih =>
    intro checked hall
    obtain ⟨model, hmodel, hfits, hlemma, hplain⟩ := hall o (List.mem_cons_self _ _)
    have hrest := fun c => ih c (fun o0 h0 => hall o0 (List.mem_cons_of_mem _ h0))
    have hzero : ∀ (stem : List Label) (n : Nat) (l : List FlexVariance),
        ∀ v ∈ l.map (variation_of stem n), v.frequency = 0 := by
      intro stem n l v hv
      obtain ⟨x, _, rfl⟩ := List.mem_map.1 hv
      rfl
    simp only [generated_variations]
    by_cases hchecked : (!is_analyzed_model
        ( parse_morphology_annotation iswspace (AutomatOutput.annotation o)).flex_model_index
        checked) = true
    · rw [if_pos hchecked]
      obtain ⟨rest, hrun, hrz⟩ := hrest (checked ++ [( parse_morphology_annotation iswspace
        (AutomatOutput.annotation o)).flex_model_index])
      by_cases hpred : o.is_prediction ≠ 0
      · simp only [if_pos hpred]
        by_cases hbase : (word_length : Int) -
            (( parse_morphology_annotation iswspace
              (AutomatOutput.annotation o)).flexion_size : Int) ≥ (MIN_BASE_LENGTH : Int)
        · have h3 : (MIN_BASE_LENGTH : Int) = 3 := rfl
          have hspec := all_word_variations_spec word word_length only_lemmas
            ( parse_morphology_annotation iswspace (AutomatOutput.annotation o)).flexion_size
            (((word_length : Int) - (( parse_morphology_annotation iswspace
              (AutomatOutput.annotation o)).flexion_size : Int)).toNat % 2 ^ 8)
            _ morphology model hmodel hfits hword hlength hsize
            (by
              have := Nat.mod_le (((word_length : Int) - (( parse_morphology_annotation iswspace
                (AutomatOutput.annotation o)).flexion_size : Int)).toNat) (2 ^ 8)
              omega)
            hlemma
          simp only [if_pos hbase, hspec, hrun, Option.bind_eq_bind, Option.some_bind,
            Option.pure_def]
          refine ⟨_, rfl, fun v hv => ?_⟩
          rcases List.mem_append.1 hv with hv | hv
          · exact hzero _ _ _ v hv
          · exact hrz v hv
        · simp only [if_neg hbase, hrun, Option.bind_eq_bind, Option.some_bind,
            Option.pure_def, List.nil_append]
          exact ⟨rest, rfl, hrz⟩
      · have hspec := all_word_variations_spec word word_length only_lemmas
          ( parse_morphology_annotation iswspace (AutomatOutput.annotation o)).flexion_size
          ((o.known_prefix_size + ( parse_morphology_annotation iswspace
            (AutomatOutput.annotation o)).base_size) % 2 ^ 8)
          _ morphology model hmodel hfits hword hlength hsize (hplain (not_not.1 hpred)) hlemma
        simp only [if_neg hpred, hspec, hrun, Option.bind_eq_bind, Option.some_bind,
          Option.pure_def]
        refine ⟨_, rfl, fun v hv => ?_⟩
        rcases List.mem_append.1 hv with hv | hv
        · exact hzero _ _ _ v hv
        · exact hrz v hv
    · rw [if_neg hchecked]
      exact hrest checked

end Morph

namespace Morph

/-! ## `unique_variations_to_result`: the frequencies -/

theorem to_int32_succ (x : Int) : to_int32 (to_int32 x + 1) = to_int32 (x + 1) := by
  unfold to_int32
  omega

theorem to_int32_small (x : Int) (h0 : 0 ≤ x) (h1 : x < 2 ^ 31) : to_int32 x = x := by
  unfold to_int32
  omega

/-- `array_list_index` returns -1 when no element is found equal, and else the
index of the first element found equal. -/
theorem array_list_index_cases (eq_function : WordVariation → WordVariation → Bool)
    (v : WordVariation) :
    ∀ result : List WordVariation,
      (array_list_index result v eq_function = -1 ∧ ∀ x ∈ result, eq_function x v = false) ∨
      ∃ A f B, result = A ++ f :: B ∧ eq_function f v = true ∧
        array_list_index result v eq_function = (A.length : Int) := by
  intro result
  induction result with
  | nil => exact Or.inl ⟨rfl, fun x hx => (by cases hx)⟩
  | cons x result ih =>
    by_cases hx : eq_function x v = true
    · refine Or.inr ⟨[], x, result, rfl, hx, ?_⟩
      simp [array_list_index, List.findIdx?_cons, hx]
    · have hstep : array_list_index (x :: result) v eq_function =
          if array_list_index result v eq_function = -1 then -1
          else array_list_index result v eq_function + 1 := by
        simp only [array_list_index, List.findIdx?_cons, hx, if_false, Bool.false_eq_true]
        rw [List.findIdx?_succ]
        cases List.findIdx? (fun item => eq_function item v) result with
        | none => simp
        | some i =>
          simp only [Option.map_some', Nat.cast_add, Nat.cast_one]
          rw [if_neg (by omega)]
      rcases ih with ⟨h1, h2⟩ | ⟨A, f, B, h1, h2, h3⟩
      · refine Or.inl ⟨by rw [hstep, if_pos h1], ?_⟩
        intro y hy
        rcases List.mem_cons.1 hy with rfl | hy
        · exact Bool.eq_false_iff.2 hx
        · exact h2 y hy
      · refine Or.inr ⟨x :: A, f, B, by rw [h1]; rfl, h2, ?_⟩
        rw [hstep, h3, if_neg (by omega)]
        simp

/-- The frequencies that `unique_variations_to_result` leaves, for a function
`eq_function` that compares a key of the forms: the keys of the result are
distinct, every variation is found in the result by its key, and the frequency
of a form is the number of the variations with its key, less one, as an
`int`. -/
theorem unique_variations_count {κ : Type} [DecidableEq κ] (k : WordVariation → κ)
    (eq_function : WordVariation → WordVariation → Bool)
    (heq : ∀ a b, eq_function a b = decide (k a = k b))
    (hk : ∀ (form : WordVariation) (f : Int), k { form with frequency := f } = k form) :
    ∀ (vs done result : List WordVariation),
      (∀ v ∈ vs, v.frequency = 0) →
      (result.map k).Nodup →
      (∀ d ∈ done, k d ∈ result.map k) →
      (∀ form ∈ result,
        form.frequency = to_int32 ((done.countP (fun d => decide (k d = k form)) : Int) - 1) ∧
        1 ≤ done.countP (fun d => decide (k d = k form))) →
      ((unique_variations_to_result eq_function vs result).map k).Nodup ∧
      (∀ d ∈ done ++ vs, k d ∈ (unique_variations_to_result eq_function vs result).map k) ∧
      (∀ form ∈ unique_variations_to_result eq_function vs result,
        form.frequency =
          to_int32 (((done ++ vs).countP (fun d => decide (k d = k form)) : Int) - 1) ∧
        1 ≤ (done ++ vs).countP (fun d => decide (k d = k form))) := by
  intro vs
  induction vs with
  | nil =>
    intro done result _ h1 h2 h3
    simp only [unique_variations_to_result, List.append_nil]
    exact ⟨h1, h2, h3⟩
  | cons v vs ih =>
    intro done result hzero hnodup hrep hfreq
    have hv0 : v.frequency = 0 := hzero v (List.mem_cons_self _ _)
    have hvs : ∀ v0 ∈ vs, v0.frequency = 0 := fun v0 h0 => hzero v0 (List.mem_cons_of_mem _ h0)
    have hassoc : done ++ v :: vs = (done ++ [v]) ++ vs := by simp
    rw [hassoc]
    have hcount : ∀ κ0 : κ, (done ++ [v]).countP (fun d => decide (k d = κ0)) =
        done.countP (fun d => decide (k d = κ0)) + (if k v = κ0 then 1 else 0) := by
      intro κ0
      rw [List.countP_append, List.countP_cons, List.countP_nil]
      simp
    simp only [unique_variations_to_result]
    rcases array_list_index_cases eq_function v result with ⟨hidx, hnone⟩ |
      ⟨A, f, B, hres, hfv, hidx⟩
    · -- a new form
      have hnew : ∀ x ∈ result, k x ≠ k v := by
        intro x hx
        have := hnone x hx
        rw [heq] at this
        simpa using this
      have hnotin : k v ∉ result.map k := by
        intro hmem
        obtain ⟨x, hx, hkx⟩ := List.mem_map.1 hmem
        exact hnew x hx hkx
      have hzerocount : done.countP (fun d => decide (k d = k v)) = 0 := by
        rw [List.countP_eq_zero]
        intro d hd hdk
        have hdk : k d = k v := by simpa using hdk
        exact hnotin (hdk ▸ hrep d hd)
      rw [if_pos hidx]
      apply ih (done ++ [v]) (result ++ [v]) hvs
      · rw [List.map_append, List.nodup_append]
        refine ⟨hnodup, List.nodup_singleton _, ?_⟩
        intro a ha hb
        rw [List.map_singleton, List.mem_singleton] at hb
        exact hnotin (hb ▸ ha)
      · intro d hd
        rw [List.map_append]
        rcases List.mem_append.1 hd with hd | hd
        · exact List.mem_append_left _ (hrep d hd)
        · rw [List.mem_singleton.1 hd]
          exact List.mem_append_right _ (by simp)
      · intro form hform
        rw [hcount]
        rcases List.mem_append.1 hform with hform | hform
        · have hne : ¬ k v = k form := fun h => hnew form hform h.symm
          rw [if_neg hne, Nat.add_zero]
          exact hfreq form hform
        · rw [List.mem_singleton.1 hform, hzerocount, if_pos rfl, hv0]
          exact ⟨by decide, le_refl _⟩
    · -- a form that is in the result
      have hkf : k f = k v := by
        have := hfv
        rw [heq] at this
        simpa using this
      have hne : ¬ ((A.length : Int) = -1) := by omega
      have hget : result[((A.length : Int)).toNat]? = some f := by
        rw [Int.toNat_ofNat, hres, List.getElem?_append_right (le_refl _)]
        simp
      have hset : result.set ((A.length : Int)).toNat
          { f with frequency := to_int32 (f.frequency + 1) } =
          A ++ { f with frequency := to_int32 (f.frequency + 1) } :: B := by
        rw [Int.toNat_ofNat, hres, List.set_append_right _ _ (le_refl _)]
        simp
      have hmap : (A ++ { f with frequency := to_int32 (f.frequency + 1) } :: B).map k =
          result.map k := by
        rw [hres]
        simp only [List.map_append, List.map_cons, hk]
      rw [hidx, if_neg hne, hget]
      simp only
      rw [hset]
      apply ih (done ++ [v]) _ hvs
      · rw [hmap]; exact hnodup
      · intro d hd
        rw [hmap]
        rcases List.mem_append.1 hd with hd | hd
        · exact hrep d hd
        · rw [List.mem_singleton.1 hd, ← hkf, hres]
          simp
      · have hfm : f ∈ result := by rw [hres]; simp
        have hdistinct : ∀ form ∈ A ++ B, k form ≠ k f := by
          intro form hform hkk
          rw [hres, List.map_append, List.map_cons] at hnodup
          have hnd := List.nodup_append.1 hnodup
          rcases List.mem_append.1 hform with hA | hB
          · exact hnd.2.2 (List.mem_map_of_mem k hA) (by rw [hkk]; simp)
          · have := (List.nodup_cons.1 hnd.2.1).1
            exact this (by rw [← hkk]; exact List.mem_map_of_mem k hB)
        intro form hform
        rw [hcount]
        have hcases : form ∈ A ++ B ∨ form = { f with frequency := to_int32 (f.frequency + 1) } := by
          rcases List.mem_append.1 hform with h | h
          · exact Or.inl (List.mem_append_left _ h)
          · rcases List.mem_cons.1 h with h | h
            · exact Or.inr h
            · exact Or.inl (List.mem_append_right _ h)
        rcases hcases with hAB | rfl
        · have hin : form ∈ result := by
            rw [hres]
            rcases List.mem_append.1 hAB with h | h
            · exact List.mem_append_left _ h
            · exact List.mem_append_right _ (List.mem_cons_of_mem _ h)
          have hne2 : ¬ k v = k form := fun h => hdistinct form hAB (by rw [hkf, h])
          rw [if_neg hne2, Nat.add_zero]
          exact hfreq form hin
        · obtain ⟨hf1, hf2⟩ := hfreq f hfm
          rw [hk, if_pos hkf.symm]
          refine ⟨?_, by omega⟩
          show to_int32 (f.frequency + 1) = _
          rw [hf1, to_int32_succ]
          congr 1
          push_cast
          omega

/-- The frequencies of the forms that `unique_variations_to_result` makes of
variations of the frequency 0, from an empty result. -/
theorem unique_variations_frequency {κ : Type} [DecidableEq κ] (k : WordVariation → κ)
    (eq_function : WordVariation → WordVariation → Bool)
    (heq : ∀ a b, eq_function a b = decide (k a = k b))
    (hk : ∀ (form : WordVariation) (f : Int), k { form with frequency := f } = k form)
    (vs : List WordVariation) (hzero : ∀ v ∈ vs, v.frequency = 0) :
    ∀ form ∈ unique_variations_to_result eq_function vs [],
      form.frequency = to_int32 ((vs.countP (fun v => eq_function form v) : Int) - 1) ∧
      1 ≤ vs.countP (fun v => eq_function form v) := by
  have h := unique_variations_count k eq_function heq hk vs [] [] hzero List.nodup_nil
    (fun d hd => (by cases hd)) (fun form hf => (by cases hf))
  intro form hform
  have hsame : vs.countP (fun v => eq_function form v) =
      ([] ++ vs).countP (fun d => decide (k d = k form)) := by
    rw [List.nil_append]
    congr 1
    funext v
    rw [heq]
    exact decide_eq_decide.2 eq_comm
  rw [hsame]
  exact h.2.2 form hform

end Morph

namespace Morph

/-! ## `analyze_word`: the result -/

theorem qsort_perm {α : Type} (base : List α) (compar : α → α → Int) :
    (qsort base compar).Perm base :=
  List.perm_insertionSort _ _

theorem frequency_comparer_le (a b : WordVariation) :
    word_form_frequency_comparer a b ≤ 0 ↔ a.frequency ≥ b.frequency := by
  unfold word_form_frequency_comparer
  by_cases h1 : a.frequency = b.frequency
  · rw [if_pos h1]; simp [h1]
  · rw [if_neg h1]
    by_cases h2 : a.frequency > b.frequency
    · rw [if_pos h2]
      constructor
      · intro _; exact le_of_lt h2
      · intro _; decide
    · rw [if_neg h2]
      constructor
      · intro h; exact absurd h (by decide)
      · intro h; exact absurd (lt_of_le_of_ne h (fun h3 => h1 h3.symm)) h2

/-- `qsort` with `word_form_frequency_comparer` leaves the frequencies in an
order that does not ascend. -/
theorem qsort_frequency_sorted (base : List WordVariation) :
    (qsort base word_form_frequency_comparer).Pairwise
      (fun a b => a.frequency ≥ b.frequency) := by
  haveI : IsTotal WordVariation (fun a b => word_form_frequency_comparer a b ≤ 0) :=
    ⟨fun a b => by
      rw [frequency_comparer_le, frequency_comparer_le]
      exact le_total _ _⟩
  haveI : IsTrans WordVariation (fun a b => word_form_frequency_comparer a b ≤ 0) :=
    ⟨fun a b c hab hbc => by
      rw [frequency_comparer_le] at hab hbc ⊢
      exact le_trans hbc hab⟩
  have h := List.sorted_insertionSort (fun a b => word_form_frequency_comparer a b ≤ 0) base
  exact (List.Pairwise.imp (fun hab => (frequency_comparer_le _ _).1 hab) h)

/-- The keys that the two functions of `analyze_word` compare. -/
theorem eq_func_key (distinct_ancodes : Nat) :
    ∀ a b : WordVariation,
      (if distinct_ancodes ≠ 0 then is_same_word_form_with_ancode
        else is_same_word_form) a b =
      decide ((a.word, if distinct_ancodes ≠ 0 then a.grammar else none) =
        (b.word, if distinct_ancodes ≠ 0 then b.grammar else none)) := by
  intro a b
  by_cases h : distinct_ancodes ≠ 0
  · simp only [if_pos h, is_same_word_form_with_ancode, Prod.mk.injEq]
    by_cases h1 : a.word = b.word <;> by_cases h2 : a.grammar = b.grammar <;> simp [h1, h2]
  · simp only [if_neg h, is_same_word_form, Prod.mk.injEq, and_true]

/-- `analyze_word` for calls of the generator that fit: it returns the forms
that `unique_variations_to_result` makes of the generated variations, sorted
when there is more than one. -/
theorem analyze_word_spec (iswspace : Label → Bool) (word : List Label) (word_length : Nat)
    (outputs_generator : List Label → Nat → Nat → Option (List OutputCall))
    (morphology : MorphologyBase) (only_lemmas distinct_ancodes : Nat)
    (calls : List OutputCall)
    (hgen : outputs_generator (wcssubreverse (word.take word_length) 0 word_length) word_length
      MIN_MATCH_FOR_PREDICTION = some calls)
    (hcalls : ∀ c ∈ calls, CallFits iswspace word_length morphology only_lemmas c)
    (hmany : calls.length < 2 ^ 64)
    (hne : ∀ p ∈ morphology.all_prefixes, p ≠ [])
    (hword : ∀ c ∈ word, c ≠ 0) (hlength : word_length ≤ word.length)
    (hsize : word_length < 2 ^ 64) :
    ∃ outputs filtered generated,
      collect_automat_output calls = some outputs ∧
      (filter_productive_output
        { data := outputs, capacity := outputs.length, initial_capacity := 10,
          size := outputs.length } word word_length morphology).map array_list_elements =
        some filtered ∧
      generated_variations iswspace word word_length morphology only_lemmas filtered [] =
        some generated ∧
      (∀ v ∈ generated, v.frequency = 0) ∧
      analyze_word iswspace word word_length outputs_generator morphology only_lemmas
        distinct_ancodes =
        some (if (unique_variations_to_result
            (if distinct_ancodes ≠ 0 then is_same_word_form_with_ancode else is_same_word_form)
            generated []).length > 1 then
          qsort (unique_variations_to_result
            (if distinct_ancodes ≠ 0 then is_same_word_form_with_ancode else is_same_word_form)
            generated []) word_form_frequency_comparer
        else unique_variations_to_result
          (if distinct_ancodes ≠ 0 then is_same_word_form_with_ancode else is_same_word_form)
          generated []) := by
  obtain ⟨outputs, hcollect, hlen, hall⟩ := collect_automat_output_spec iswspace word
    word_length morphology only_lemmas calls hcalls
  have hold : HoldsElements
      ({ data := outputs, capacity := outputs.length, initial_capacity := 10,
         size := outputs.length } : ArrayList AutomatOutput) outputs :=
    ⟨le_refl _, by show outputs.length < 2 ^ 64; omega, by simp [array_list_elements]⟩
  obtain ⟨outputs0, filtered, hfilter, hheld, hfrom⟩ := filter_productive_output_returns _
    outputs word word_length morphology hold hne hsize (fun o ho => (hall o ho).1)
  have hfits : ∀ o ∈ filtered, OutputFits iswspace word_length morphology only_lemmas o := by
    intro r hr
    rcases hfrom r hr with hin | ⟨o, ho, hup, rfl⟩
    · exact (hall r hin).2.1
    · exact (hall o ho).2.2 hup
  obtain ⟨generated, hgenerated, hzero⟩ := generated_variations_returns iswspace word
    word_length morphology only_lemmas hword hlength hsize filtered [] hfits
  refine ⟨outputs, filtered, generated, hcollect, by rw [hfilter, Option.map_some', hheld.2.2],
    hgenerated, hzero, ?_⟩
  unfold analyze_word
  simp only [hgen, hcollect, hfilter, Option.bind_eq_bind, Option.some_bind, hheld.2.2,
    analyze_outputs_loop_eq, hgenerated, Option.map_some', Option.pure_def]

end Morph

namespace Morph

/-- C1: for the list that holds only the empty word the claimed automaton is
not produced: after `automat_add_word` the initial state is final and has no
transition, `complete_automat` calls `replace_or_register` on it without the
`has_children` test that `automat_add_word` makes, and `last_child`
dereferences the `NULL` that `last_transition` returns. -/
theorem c1_empty_word_list_fails (fuel : Nat) : build_automat fuel [[]] = none := by
  cases fuel with
  | zero => rfl
  | succ f => rfl

/-- C2: for every sorted word list, an automaton returned by the calls of
`automat_add_word` followed by `complete_automat` has no two distinct states
of its ring with the same `state_description_key`, and the calls do return an
automaton when the list holds a non-empty word. -/
theorem c2_distinct_signatures (fuel : Nat) (ws : List (List Label))
    (hsorted : ws.Pairwise word_le) (hfuel : ∀ w ∈ ws, w.length ≤ fuel)
    (hsize : 1 + (ws.map List.length).sum < 2 ^ 32) :
    (∀ A, build_automat fuel ws = some A → DistinctSignatures A) ∧
    ((∃ w ∈ ws, w ≠ []) → ∃ A, build_automat fuel ws = some A) := by
  constructor
  · intro A hA
    obtain ⟨A0, hrun0, _, hcases⟩ := build_automat_cases fuel ws hsorted hfuel hsize
    rcases hcases with hne | hnone
    · obtain ⟨A', hA', _, _, hdist, _⟩ := build_automat_spec fuel ws hsorted hne hfuel hsize
      rw [hA'] at hA
      cases hA
      exact hdist
    · simp [build_automat, hrun0, hnone] at hA
  · intro hne
    obtain ⟨A', hA', _⟩ := build_automat_spec fuel ws hsorted hne hfuel hsize
    exact ⟨A', hA'⟩

/-- Witness of C2: the sorted list `a, ab, b`. -/
theorem c2_distinct_signatures_witness :
    ([[1], [1, 2], [2]] : List (List Label)).Pairwise word_le ∧
    (∀ w ∈ ([[1], [1, 2], [2]] : List (List Label)), w.length ≤ 2) ∧
    1 + (([[1], [1, 2], [2]] : List (List Label)).map List.length).sum < 2 ^ 32 ∧
    ((∀ A, build_automat 2 [[1], [1, 2], [2]] = some A → DistinctSignatures A) ∧
      ((∃ w ∈ ([[1], [1, 2], [2]] : List (List Label)), w ≠ []) →
        ∃ A, build_automat 2 [[1], [1, 2], [2]] = some A)) :=
  ⟨by decide, by decide, by decide,
    c2_distinct_signatures 2 [[1], [1, 2], [2]] (by decide) (by decide) (by decide)⟩

/-- C3: for every sorted word list the calls of `automat_add_word` return an
automaton in which every state has at most one transition per label; the
same holds of the automaton that `complete_automat` returns from it, which it
does when the list holds a non-empty word. -/
theorem c3_deterministic (fuel : Nat) (ws : List (List Label))
    (hsorted : ws.Pairwise word_le) (hfuel : ∀ w ∈ ws, w.length ≤ fuel)
    (hsize : 1 + (ws.map List.length).sum < 2 ^ 32) :
    ∃ A, add_words fuel make_automat ws = some A ∧ Deterministic A ∧
      (∀ A', complete_automat fuel A = some A' → Deterministic A') ∧
      ((∃ w ∈ ws, w ≠ []) → (complete_automat fuel A).isSome = true) := by
  obtain ⟨A0, hrun0, hdet0, hcases⟩ := build_automat_cases fuel ws hsorted hfuel hsize
  refine ⟨A0, hrun0, hdet0, ?_, ?_⟩
  · intro A' hA'
    rcases hcases with hne | hnone
    · obtain ⟨B, hB, _, hdet, _⟩ := build_automat_spec fuel ws hsorted hne hfuel hsize
      simp only [build_automat, hrun0, Option.bind_eq_bind, Option.some_bind] at hB
      rw [hB] at hA'
      cases hA'
      exact hdet
    · rw [hnone] at hA'; cases hA'
  · intro hne
    obtain ⟨B, hB, _⟩ := build_automat_spec fuel ws hsorted hne hfuel hsize
    simp only [build_automat, hrun0, Option.bind_eq_bind, Option.some_bind] at hB
    rw [hB]; rfl

/-- Witness of C3: the sorted list `a, ab, b`. -/
theorem c3_deterministic_witness :
    ([[1], [1, 2], [2]] : List (List Label)).Pairwise word_le ∧
    (∀ w ∈ ([[1], [1, 2], [2]] : List (List Label)), w.length ≤ 2) ∧
    1 + (([[1], [1, 2], [2]] : List (List Label)).map List.length).sum < 2 ^ 32 ∧
    ∃ A, add_words 2 make_automat [[1], [1, 2], [2]] = some A ∧ Deterministic A ∧
      (∀ A', complete_automat 2 A = some A' → Deterministic A') ∧
      ((∃ w ∈ ([[1], [1, 2], [2]] : List (List Label)), w ≠ []) →
        (complete_automat 2 A).isSome = true) :=
  ⟨by decide, by decide, by decide,
    c3_deterministic 2 [[1], [1, 2], [2]] (by decide) (by decide) (by decide)⟩

end Morph

namespace Morph

/-- C4: for a finalized automaton, built from a sorted word list with a
non-empty word whose labels are 32-bit `wchar_t` values, `save_automat`
writes a file from which `load_automat` builds an automaton that accepts the
same words, and has the same numbers of states, of final states and of
transitions. -/
theorem c4_save_load_round_trip (fuel : Nat) (ws : List (List Label))
    (hsorted : ws.Pairwise word_le) (hne : ∃ w ∈ ws, w ≠ [])
    (hfuel : ∀ w ∈ ws, w.length ≤ fuel)
    (hsize : 1 + (ws.map List.length).sum < 2 ^ 32)
    (hlabels : ∀ w ∈ ws, ∀ c ∈ w, -2 ^ 31 ≤ c ∧ c < 2 ^ 31) :
    ∃ A A_s file A_l, build_automat fuel ws = some A ∧
      save_automat A = some (A_s, file) ∧ load_automat file = some A_l ∧
      (∀ w, accepts A_l w = accepts A w) ∧
      A_l.ring.length = A.ring.length ∧ count_final A_l = count_final A ∧
      count_transitions A_l = count_transitions A := by
  obtain ⟨A, hA, _, _, _, hwf⟩ := build_automat_spec fuel ws hsorted hne hfuel hsize
  have hlab : labels_fit A = true := labels_fit_of_labelsIn (build_automat_labels hlabels hA)
  obtain ⟨A_s, file, L, hsave, hload, hcopy⟩ := save_load_copy A hwf hlab
  exact ⟨A, A_s, file, L, hA, hsave, hload, hcopy.accepts hwf, by rw [hcopy.ring]; simp,
    hcopy.count_final hwf, hcopy.count_transitions hwf⟩

/-- Witness of C4: the sorted list `a, ab, b`. -/
theorem c4_save_load_round_trip_witness :
    ([[1], [1, 2], [2]] : List (List Label)).Pairwise word_le ∧
    (∃ w ∈ ([[1], [1, 2], [2]] : List (List Label)), w ≠ []) ∧
    (∀ w ∈ ([[1], [1, 2], [2]] : List (List Label)), w.length ≤ 2) ∧
    1 + (([[1], [1, 2], [2]] : List (List Label)).map List.length).sum < 2 ^ 32 ∧
    (∀ w ∈ ([[1], [1, 2], [2]] : List (List Label)), ∀ c ∈ w, -2 ^ 31 ≤ c ∧ c < 2 ^ 31) ∧
    ∃ A A_s file A_l, build_automat 2 [[1], [1, 2], [2]] = some A ∧
      save_automat A = some (A_s, file) ∧ load_automat file = some A_l ∧
      (∀ w, accepts A_l w = accepts A w) ∧
      A_l.ring.length = A.ring.length ∧ count_final A_l = count_final A ∧
      count_transitions A_l = count_transitions A :=
  ⟨by decide, by decide, by decide, by decide, by decide,
    c4_save_load_round_trip 2 [[1], [1, 2], [2]] (by decide) (by decide) (by decide)
      (by decide) (by decide)⟩

end Morph

namespace Morph

/-- C5: the compact automaton loaded from the file of the finalized automaton
of the 256 one-letter words `1 … 256` does not accept the word `1`, which the
build-form automaton accepts: `decode_state` keeps the number of transitions
of a state in the eight bits of `MiniStateHeader.transitions_count`, so the
256 transitions of the initial state are stored as none. -/
theorem c5_compact_automaton_loses_transitions :
    ∃ A A_s file M, build_automat 1 (letters 256) = some A ∧
      save_automat A = some (A_s, file) ∧ load_mini_automat file = some M ∧
      accepts A [1] = true ∧ mini_accepts M [1] = false := by
  have hmem : ∀ w ∈ letters 256, ∀ c ∈ w, ∃ i, i < 256 ∧ c = ((i + 1 : Nat) : Int) := by
    intro w hw c hc
    obtain ⟨i, hi, rfl⟩ := mem_letters.1 hw
    simp only [List.mem_singleton] at hc
    exact ⟨i, hi, hc⟩
  obtain ⟨A, hA, hlang, hdet, _, hwf⟩ :=
    build_automat_spec 1 (letters 256) (letters_sorted 256)
      ⟨[1], mem_letters.2 ⟨0, by norm_num, rfl⟩, by simp⟩
      (by
        intro w hw
        obtain ⟨i, _, rfl⟩ := mem_letters.1 hw
        simp)
      (by rw [letters_sum]; norm_num)
  have hlabels := build_automat_labels (P := fun c => ∃ i, i < 256 ∧ c = ((i + 1 : Nat) : Int))
    hmem hA
  have hlab : labels_fit A = true := by
    apply labels_fit_of_labelsIn
    intro q s hq t ht
    obtain ⟨i, hi, hc⟩ := hlabels q s hq t ht
    rw [hc]
    constructor
    · have : (0 : Int) ≤ ((i + 1 : Nat) : Int) := Int.ofNat_nonneg _
      exact le_trans (by norm_num) this
    · have : ((i + 1 : Nat) : Int) < 257 := by exact_mod_cast Nat.succ_lt_succ hi
      exact lt_trans this (by norm_num)
  obtain ⟨rest, hring⟩ : ∃ rest, A.ring = A.initial_state :: rest := by
    have := hwf.ring_head
    cases hr : A.ring with
    | nil => rw [hr] at this; cases this
    | cons x rest =>
      rw [hr] at this
      simp only [List.head?_cons, Option.some.injEq] at this
      exact ⟨rest, by rw [this]⟩
  have hinit : A.initial_state ∈ A.ring := by rw [hring]; exact List.mem_cons_self _ _
  obtain ⟨s0, hs0⟩ := Option.isSome_iff_exists.1 ((hwf.ring_mem _).1 hinit)
  have hdeg := letters_initial_degree 256 A s0 hlang hdet hlabels hinit hs0
  obtain ⟨A_s, hsave, _, _, _⟩ := save_automat_spec A hwf
  have hlen : (A.ring.map (record_of A)).length = A.ring.length := List.length_map _ _
  have hfit := records_fit A hwf hlab
  have hload := load_mini_automat_spec (A.ring.map (record_of A))
    (by rw [hlen]; exact hwf.size)
    (fun r hr => ⟨(hfit r hr).2.1, fun d hd =>
      ⟨lt_trans ((hfit r hr).2.2 d hd).1 hwf.size, ((hfit r hr).2.2 d hd).2⟩⟩)
  rw [hlen] at hload
  refine ⟨A, A_s, _, _, hA, hsave, hload, (hlang [1]).2 (mem_letters.2 ⟨0, by norm_num, rfl⟩), ?_⟩
  apply mini_accepts_of_no_count _ (mini_state_of_record (record_of A A.initial_state))
  · simp [hring]
  · simp [mini_state_of_record, record_of, hs0, hdeg]

end Morph

namespace Morph

/-- C6: for a text without zero bytes (bytes below 256) whose size fits
`int32_t`, `text_to_suffix_array` returns an array of the length of the text
that is a permutation of the positions `0 … n - 1`. -/
theorem c6_suffix_array_permutation (text : Bytes) (hbytes : ∀ b ∈ text, 0 < b ∧ b < 256)
    (hsize : text.length + 2 < 2 ^ 31) :
    ∃ SA, text_to_suffix_array text = some SA ∧ SA.length = text.length ∧
      SA.Perm (List.range text.length) := by
  obtain ⟨SA, hrun, hperm, _⟩ := text_to_suffix_array_spec text hbytes hsize
  exact ⟨SA, hrun, by simpa using hperm.length_eq, hperm⟩

/-- Witness of C6: the text `banana`. -/
theorem c6_suffix_array_permutation_witness :
    (∀ b ∈ ([98, 97, 110, 97, 110, 97] : Bytes), 0 < b ∧ b < 256) ∧
    ([98, 97, 110, 97, 110, 97] : Bytes).length + 2 < 2 ^ 31 ∧
    ∃ SA, text_to_suffix_array [98, 97, 110, 97, 110, 97] = some SA ∧
      SA.length = ([98, 97, 110, 97, 110, 97] : Bytes).length ∧
      SA.Perm (List.range ([98, 97, 110, 97, 110, 97] : Bytes).length) :=
  ⟨by decide, by decide,
    c6_suffix_array_permutation [98, 97, 110, 97, 110, 97] (by decide) (by decide)⟩

/-- C7: for a text without zero bytes (bytes below 256) whose size fits
`int32_t` and two indices `i < j` into the array that `text_to_suffix_array`
returns, the suffix at the entry `i` is smaller than or equal to the suffix at
the entry `j`, in the order by unsigned byte in which a proper prefix is
smaller. -/
theorem c7_suffix_array_sorted (text : Bytes) (hbytes : ∀ b ∈ text, 0 < b ∧ b < 256)
    (hsize : text.length + 2 < 2 ^ 31) :
    ∃ SA, text_to_suffix_array text = some SA ∧ SuffixSorted text SA ∧
      ∀ i j, i < j → j < SA.length →
        bytes_le (text.drop (at_index SA i)) (text.drop (at_index SA j)) := by
  obtain ⟨SA, hrun, _, hpw⟩ := text_to_suffix_array_spec text hbytes hsize
  have hsorted : SuffixSorted text SA := hpw.imp (fun h => bytes_le_of_lt _ _ h)
  refine ⟨SA, hrun, hsorted, ?_⟩
  intro i j hij hj
  rw [at_index_of_lt (by omega), at_index_of_lt hj]
  exact (List.pairwise_iff_getElem.1 hsorted) i j (by omega) hj hij

/-- Witness of C7: the text `banana`. -/
theorem c7_suffix_array_sorted_witness :
    (∀ b ∈ ([98, 97, 110, 97, 110, 97] : Bytes), 0 < b ∧ b < 256) ∧
    ([98, 97, 110, 97, 110, 97] : Bytes).length + 2 < 2 ^ 31 ∧
    ∃ SA, text_to_suffix_array [98, 97, 110, 97, 110, 97] = some SA ∧
      SuffixSorted [98, 97, 110, 97, 110, 97] SA ∧
      ∀ i j, i < j → j < SA.length →
        bytes_le (([98, 97, 110, 97, 110, 97] : Bytes).drop (at_index SA i))
          (([98, 97, 110, 97, 110, 97] : Bytes).drop (at_index SA j)) :=
  ⟨by decide, by decide,
    c7_suffix_array_sorted [98, 97, 110, 97, 110, 97] (by decide) (by decide)⟩

end Morph

namespace Morph

/-- C8: for a text, a sample without zero bytes and a suffix array of the text
(a permutation of the positions, sorted by suffix), `find_with_suffix_array`
returns `(NULL, NULL)` exactly when the sample occurs at no position of the
text, and otherwise a range `[start, end]` of the suffix array whose entries
are exactly the positions at which the sample occurs. -/
theorem c8_find_with_suffix_array (sample text : Bytes) (SA : List Nat)
    (hsample : ∀ b ∈ sample, b ≠ 0) (hperm : SA.Perm (List.range text.length))
    (hsorted : SuffixSorted text SA) :
    ∃ r, find_with_suffix_array sample sample.length text text.length SA = some r ∧
      (r = none ↔ ∀ p, p < text.length → (text.drop p).take sample.length ≠ sample) ∧
      ∀ s e, r = some (s, e) → s ≤ e ∧ e < text.length ∧
        ∀ p, p ∈ (SA.drop s).take (e + 1 - s) ↔
          (p < text.length ∧ (text.drop p).take sample.length = sample) := by
  have hlen : SA.length = text.length := by simpa using hperm.length_eq
  have hrange : ∀ i, i < text.length → at_index SA i < text.length := by
    intro i hi
    rw [at_index_eq_getElem SA i (by omega)]
    exact List.mem_range.1 (hperm.mem_iff.1 (List.getElem_mem _))
  have hidx : ∀ p, p < text.length → ∃ i, i < text.length ∧ at_index SA i = p := by
    intro p hp
    obtain ⟨i, hi, hget⟩ := List.mem_iff_getElem.1 (hperm.mem_iff.2 (List.mem_range.2 hp))
    exact ⟨i, by omega, by rw [at_index_eq_getElem SA i hi]; exact hget⟩
  obtain ⟨r, hrun, hpost⟩ := find_with_suffix_array_spec sample text SA hsample hlen hsorted
  refine ⟨r, hrun, ?_, ?_⟩
  · cases r with
    | none =>
      refine ⟨fun _ p hp => ?_, fun _ => rfl⟩
      obtain ⟨i, hi, rfl⟩ := hidx p hp
      exact hpost i hi
    | some se =>
      obtain ⟨s, e⟩ := se
      obtain ⟨h1, h2, h3⟩ := hpost
      refine ⟨fun h => (by cases h), fun h => ?_⟩
      exact absurd ((h3 s (by omega)).1 ⟨le_refl _, h1⟩) (h _ (hrange s (by omega)))
  · intro s e hr
    subst hr
    obtain ⟨h1, h2, h3⟩ := hpost
    refine ⟨h1, h2, fun p => ?_⟩
    rw [mem_slice]
    constructor
    · rintro ⟨i, hi1, hi2, hget⟩
      have hi : i < text.length := by omega
      have hat : at_index SA i = p := by
        rw [at_index_eq_getElem SA i (by omega)]
        rw [List.getElem?_eq_getElem (by omega)] at hget
        exact Option.some.inj hget
      rw [← hat]
      exact ⟨hrange i hi, (h3 i hi).1 ⟨hi1, by omega⟩⟩
    · rintro ⟨hp, hmatch⟩
      obtain ⟨i, hi, rfl⟩ := hidx p hp
      obtain ⟨hs, he⟩ := (h3 i hi).2 hmatch
      refine ⟨i, hs, by omega, ?_⟩
      rw [List.getElem?_eq_getElem (by omega), at_index_eq_getElem SA i (by omega)]

/-- Witness of C8: the sample `an` in the text `banana`. -/
theorem c8_find_with_suffix_array_witness :
    (∀ b ∈ ([97, 110] : Bytes), b ≠ 0) ∧
    ([5, 3, 1, 0, 4, 2] : List Nat).Perm (List.range ([98, 97, 110, 97, 110, 97] : Bytes).length) ∧
    SuffixSorted [98, 97, 110, 97, 110, 97] [5, 3, 1, 0, 4, 2] ∧
    ∃ r, find_with_suffix_array [97, 110] ([97, 110] : Bytes).length [98, 97, 110, 97, 110, 97]
        ([98, 97, 110, 97, 110, 97] : Bytes).length [5, 3, 1, 0, 4, 2] = some r ∧
      (r = none ↔ ∀ p, p < ([98, 97, 110, 97, 110, 97] : Bytes).length →
        (([98, 97, 110, 97, 110, 97] : Bytes).drop p).take ([97, 110] : Bytes).length ≠ [97, 110]) ∧
      ∀ s e, r = some (s, e) → s ≤ e ∧ e < ([98, 97, 110, 97, 110, 97] : Bytes).length ∧
        ∀ p, p ∈ (([5, 3, 1, 0, 4, 2] : List Nat).drop s).take (e + 1 - s) ↔
          (p < ([98, 97, 110, 97, 110, 97] : Bytes).length ∧
            (([98, 97, 110, 97, 110, 97] : Bytes).drop p).take ([97, 110] : Bytes).length =
              [97, 110]) :=
  ⟨by decide, by decide, by decide,
    c8_find_with_suffix_array [97, 110] [98, 97, 110, 97, 110, 97] [5, 3, 1, 0, 4, 2]
      (by decide) (by decide) (by decide)⟩

end Morph

namespace Morph

/-- C9: in the document of the words `cats`, `cat`, `x` (described as
`cat.cats.`, `cat.`, `x.`) the phrase of the one token `cat` (described as
`cat.`) shares the component `cat` with the first and with the second word,
but the result set of `document_find_intersection` in non-exact mode holds
only `cats`: `position_for_string` compares with `strncmp` over the length of
the incoming string, takes `cat` for present because it is a prefix of the
stored `cats`, and `add_to_string_set` drops it. -/
theorem c9_prefix_of_stored_result_is_dropped :
    ∃ document result,
      make_document
        [{ token_size := 4, description := [99, 97, 116, 46, 99, 97, 116, 115, 46] },
         { token_size := 3, description := [99, 97, 116, 46] },
         { token_size := 1, description := [120, 46] }] = some document ∧
      document_find_intersection document
        [{ token_size := 3, description := [99, 97, 116, 46] }] false [] = some result ∧
      result = [[99, 97, 116, 115]] ∧ [99, 97, 116] ∉ result := by
  refine ⟨{ text := [46, 99, 97, 116, 46, 99, 97, 116, 115, 46, 99, 97, 116, 46, 120, 46],
            suffix_array := [15, 0, 9, 4, 13, 2, 11, 6, 1, 10, 5, 8, 3, 12, 7, 14],
            ranges := [{ word_index := 0, start_position := 0, end_position := 9,
                         original_start := 4 },
                       { word_index := 1, start_position := 9, end_position := 13,
                         original_start := 9 },
                       { word_index := 2, start_position := 13, end_position := 15,
                         original_start := 13 }] },
    [[99, 97, 116, 115]], ?_, ?_, rfl, by decide⟩
  · rfl
  · decide

end Morph

namespace Morph

/-- C10: for a search text of `2 ^ 30` tokens each of which is found with a
result of length 2, the `int` counter of the lengths wraps to `-2 ^ 31`, and
both functions return a negative value: `morph_doc_intersect_doc2` on a
document of length 1, `morph_doc_intersect_doc` on a document of length
`2 ^ 31 + 1` and a search text of length `2 ^ 31`. -/
theorem c10_similarity_below_zero :
    morph_doc_intersect_doc2 1 (List.replicate (2 ^ 30) 2) = -2147483648 ∧
    morph_doc_intersect_doc (2 ^ 31 + 1) (2 ^ 31) (List.replicate (2 ^ 30) 2) < 0 := by
  have hi : accumulate_results (List.replicate (2 ^ 30) 2) 0 = -2147483648 := by
    rw [accumulate_results_zero, List.sum_replicate]
    norm_num [to_int32]
  constructor
  · unfold morph_doc_intersect_doc2
    simp only [hi]
    norm_num
  · unfold morph_doc_intersect_doc
    simp only [hi]
    norm_num

end Morph

namespace Morph

/-- C11: when the length of the search text is greater than the length of the
document, `morph_doc_intersect_doc` returns exactly 0 whatever the lengths of
the results are; and for a cached document of well described words whose text
fits `int32_t` the loop over the tokens of the search string returns, so the
call returns 0. -/
theorem c11_longer_search_scores_zero (analysis : Analysis)
    (hdescribe : ∀ language text, ∀ w ∈ analysis.describe language text, WellDescribed w)
    (doc_s search_s : Bytes) (doc_len search_len : Nat)
    (hsize : (words_text (analysis.describe none
      (analysis.normalize_text (analysis.normalize_text doc_s)))).length + 2 < 2 ^ 31)
    (hlonger : search_len > doc_len) :
    (∀ results, morph_doc_intersect_doc doc_len search_len results = 0) ∧
    ∃ doc search results,
      morph_doc_new analysis doc_s doc_len true = some doc ∧
      morph_doc_new analysis search_s search_len false = some search ∧
      intersect_results analysis doc (strtok_r_loop [32] search.str []) = some results ∧
      morph_doc_intersect_doc doc.len search.len results = 0 := by
  have hzero : ∀ results, morph_doc_intersect_doc doc_len search_len results = 0 := by
    intro results
    unfold morph_doc_intersect_doc
    simp only [hlonger, if_true]
  refine ⟨hzero, ?_⟩
  obtain ⟨document, hmake, hdoc⟩ := make_document_returns _ (hdescribe _ _) hsize
  obtain ⟨sets, hsets⟩ := intersect_sets_returns analysis hdescribe document hdoc
    (strtok_r_loop [32] (analysis.normalize_text search_s) [])
  have hresults := intersect_results_of_sets analysis
    { str := analysis.normalize_text doc_s, len := doc_len, doc_header := some document }
    document rfl _ _ hsets
  refine ⟨{ str := analysis.normalize_text doc_s, len := doc_len, doc_header := some document },
    { str := analysis.normalize_text search_s, len := search_len, doc_header := none }, _,
    ?_, ?_, hresults, hzero _⟩
  · simp only [morph_doc_new, hmake, if_true, Option.bind_eq_bind, Option.some_bind,
      Option.pure_def]
  · simp only [morph_doc_new, Bool.false_eq_true, if_false, Option.pure_def]

/-- Witness of C11: the document `a` of length 1 and the search text `a a` of
length 3. -/
theorem c11_longer_search_scores_zero_witness :
    (∀ results, morph_doc_intersect_doc 1 3 results = 0) ∧
    ∃ doc search results,
      morph_doc_new
        { names := [], normalize_text := fun s => s,
          describe := fun _ text => if text = [97] then [described [] [97]] else [] }
        [97] 1 true = some doc ∧
      morph_doc_new
        { names := [], normalize_text := fun s => s,
          describe := fun _ text => if text = [97] then [described [] [97]] else [] }
        [97, 32, 97] 3 false = some search ∧
      intersect_results
        { names := [], normalize_text := fun s => s,
          describe := fun _ text => if text = [97] then [described [] [97]] else [] }
        doc (strtok_r_loop [32] search.str []) = some results ∧
      morph_doc_intersect_doc doc.len search.len results = 0 :=
  c11_longer_search_scores_zero _
    (fun _ text w hw => by
      simp only at hw
      split at hw
      · rw [List.mem_singleton.1 hw]
        exact ⟨[], [97], rfl, by simp [IsComponent, WORD_DESCRIPTION_TERMINATOR]⟩
      · cases hw)
    [97] [97, 32, 97] 1 3 (by simp [words_text, described, description_of]) (by decide)

end Morph

namespace Morph

set_option maxRecDepth 100000 in
/-- C12, counterexample: for the document `a` (the word `a`, described as
`a.`) and the search text `a`, the one token `a` has the one match `a`, of the
byte length 1, and the accumulator is 2. -/
theorem c12_accumulator_counts_more :
    ∃ doc document,
      morph_doc_new
        { names := [], normalize_text := fun s => s,
          describe := fun _ text =>
            if text = [97] then [{ token_size := 1, description := [97, 46] }] else [] }
        [97] 1 true = some doc ∧
      doc.doc_header = some document ∧
      strtok_r_loop [32] [97] [] = [[97]] ∧
      multi_intersection_set
        { names := [], normalize_text := fun s => s,
          describe := fun _ text =>
            if text = [97] then [{ token_size := 1, description := [97, 46] }] else [] }
        document [97] = some [[97]] ∧
      intersect_results
        { names := [], normalize_text := fun s => s,
          describe := fun _ text =>
            if text = [97] then [{ token_size := 1, description := [97, 46] }] else [] }
        doc [[97]] = some [2] ∧
      accumulate_results [2] 0 = 2 ∧ (([[97]] : StringSet).map List.length).sum = 1 :=
  ⟨_, _, rfl, rfl, rfl, rfl, rfl, rfl, rfl⟩

/-- C12, amended: for a cached document of well described words whose text
fits `int32_t` and a search text, the search of every space-separated token of
the normalized search text returns its set of matches, the loop of
`morph_doc_intersect_doc` adds for every token the byte lengths of its matches
and one byte for each match (the line feed that ends it in the joined result),
and while that sum is below `2 ^ 31` the accumulator equals it. -/
theorem c12_accumulator_counts_line_feeds (analysis : Analysis)
    (hdescribe : ∀ language text, ∀ w ∈ analysis.describe language text, WellDescribed w)
    (doc_s search_s : Bytes) (doc_len search_len : Nat)
    (hsize : (words_text (analysis.describe none
      (analysis.normalize_text (analysis.normalize_text doc_s)))).length + 2 < 2 ^ 31) :
    ∃ doc search document sets,
      morph_doc_new analysis doc_s doc_len true = some doc ∧
      morph_doc_new analysis search_s search_len false = some search ∧
      doc.doc_header = some document ∧
      List.Forall₂ (fun token set => multi_intersection_set analysis document token = some set)
        (strtok_r_loop [32] search.str []) sets ∧
      intersect_results analysis doc (strtok_r_loop [32] search.str []) =
        some (sets.map (fun set => (set.map (fun m => m.length + 1)).sum)) ∧
      ((sets.map (fun set => (set.map (fun m => m.length + 1)).sum)).sum < 2 ^ 31 →
        accumulate_results (sets.map (fun set => (set.map (fun m => m.length + 1)).sum)) 0 =
          (((sets.map (fun set => (set.map (fun m => m.length + 1)).sum)).sum : Nat) : Int)) := by
  obtain ⟨document, hmake, hdoc⟩ := make_document_returns _ (hdescribe _ _) hsize
  obtain ⟨sets, hsets⟩ := intersect_sets_returns analysis hdescribe document hdoc
    (strtok_r_loop [32] (analysis.normalize_text search_s) [])
  have hresults := intersect_results_of_sets analysis
    { str := analysis.normalize_text doc_s, len := doc_len, doc_header := some document }
    document rfl _ _ hsets
  refine ⟨{ str := analysis.normalize_text doc_s, len := doc_len, doc_header := some document },
    { str := analysis.normalize_text search_s, len := search_len, doc_header := none },
    document, sets, ?_, ?_, rfl, hsets.imp (fun _ _ h => h.1), hresults,
    fun h => accumulate_results_sum _ h⟩
  · simp only [morph_doc_new, hmake, if_true, Option.bind_eq_bind, Option.some_bind,
      Option.pure_def]
  · simp only [morph_doc_new, Bool.false_eq_true, if_false, Option.pure_def]

/-- Witness of C12: the document `cat dog` and the search text `dog cat`. -/
theorem c12_accumulator_counts_line_feeds_witness :
    ∃ doc search document sets,
      morph_doc_new
        { names := [], normalize_text := fun s => s,
          describe := fun _ text =>
            if text = [99, 97, 116, 32, 100, 111, 103] then
              [described [] [99, 97, 116], described [] [100, 111, 103]]
            else if text = [99, 97, 116] then [described [] [99, 97, 116]]
            else if text = [100, 111, 103] then [described [] [100, 111, 103]]
            else [] }
        [99, 97, 116, 32, 100, 111, 103] 7 true = some doc ∧
      morph_doc_new
        { names := [], normalize_text := fun s => s,
          describe := fun _ text =>
            if text = [99, 97, 116, 32, 100, 111, 103] then
              [described [] [99, 97, 116], described [] [100, 111, 103]]
            else if text = [99, 97, 116] then [described [] [99, 97, 116]]
            else if text = [100, 111, 103] then [described [] [100, 111, 103]]
            else [] }
        [100, 111, 103, 32, 99, 97, 116] 7 false = some search ∧
      doc.doc_header = some document ∧
      List.Forall₂ (fun token set => multi_intersection_set
        { names := [], normalize_text := fun s => s,
          describe := fun _ text =>
            if text = [99, 97, 116, 32, 100, 111, 103] then
              [described [] [99, 97, 116], described [] [100, 111, 103]]
            else if text = [99, 97, 116] then [described [] [99, 97, 116]]
            else if text = [100, 111, 103] then [described [] [100, 111, 103]]
            else [] }
        document token = some set)
        (strtok_r_loop [32] search.str []) sets ∧
      intersect_results
        { names := [], normalize_text := fun s => s,
          describe := fun _ text =>
            if text = [99, 97, 116, 32, 100, 111, 103] then
              [described [] [99, 97, 116], described [] [100, 111, 103]]
            else if text = [99, 97, 116] then [described [] [99, 97, 116]]
            else if text = [100, 111, 103] then [described [] [100, 111, 103]]
            else [] }
        doc (strtok_r_loop [32] search.str []) =
        some (sets.map (fun set => (set.map (fun m => m.length + 1)).sum)) ∧
      ((sets.map (fun set => (set.map (fun m => m.length + 1)).sum)).sum < 2 ^ 31 →
        accumulate_results (sets.map (fun set => (set.map (fun m => m.length + 1)).sum)) 0 =
          (((sets.map (fun set => (set.map (fun m => m.length + 1)).sum)).sum : Nat) : Int)) :=
  c12_accumulator_counts_line_feeds _
    (fun _ text w hw => by
      simp only at hw
      split at hw
      · simp only [List.mem_cons, List.mem_singleton, List.not_mem_nil, or_false] at hw
        rcases hw with rfl | rfl
        · exact ⟨[], [99, 97, 116], rfl, by simp [IsComponent, WORD_DESCRIPTION_TERMINATOR]⟩
        · exact ⟨[], [100, 111, 103], rfl, by simp [IsComponent, WORD_DESCRIPTION_TERMINATOR]⟩
      · split at hw
        · rw [List.mem_singleton.1 hw]
          exact ⟨[], [99, 97, 116], rfl, by simp [IsComponent, WORD_DESCRIPTION_TERMINATOR]⟩
        · split at hw
          · rw [List.mem_singleton.1 hw]
            exact ⟨[], [100, 111, 103], rfl, by simp [IsComponent, WORD_DESCRIPTION_TERMINATOR]⟩
          · cases hw)
    [99, 97, 116, 32, 100, 111, 103] [100, 111, 103, 32, 99, 97, 116] 7 7
    (by simp [words_text, described, description_of])

end Morph

namespace Morph

set_option maxRecDepth 100000 in
/-- C13, counterexample: with the words `a` and `b`, described as `a.` and
`b.`, the similarity score of the search text `a b` against the document
`b a` is 1, not below 1. -/
theorem c13_opposite_order_scores_one :
    morph_str_intersect_str
      { names := [],
        normalize_text := fun s => s,
        describe := fun _ text =>
          if text = [98, 32, 97] then
            [{ token_size := 1, description := [98, 46] },
             { token_size := 1, description := [97, 46] }]
          else if text = [97] then [{ token_size := 1, description := [97, 46] }]
          else if text = [98] then [{ token_size := 1, description := [98, 46] }]
          else [] }
      [98, 32, 97] [97, 32, 98] = some 1 := by
  rfl

/-- C13, amended: for two words `A` and `B`, C strings whose normalized forms
`A0` and `B0` are words as the tokenizer cuts them, of the byte lengths of `A`
and `B`, described with lemmas that are components, no component of the one
being a component of the other, and the text of the document fitting
`int32_t`, the similarity score of the search text `A B` is 1 against the
document `A B` and also against the document `B A`. -/
theorem c13_word_order_irrelevant (analysis : Analysis) (A B A0 B0 : Bytes)
    (lemmas_a lemmas_b : List Bytes)
    (hA : ∀ b ∈ A, b ≠ 0) (hB : ∀ b ∈ B, b ≠ 0)
    (hnormAB : analysis.normalize_text (A ++ [32] ++ B) = A0 ++ [32] ++ B0)
    (hnormAB0 : analysis.normalize_text (A0 ++ [32] ++ B0) = A0 ++ [32] ++ B0)
    (hnormBA : analysis.normalize_text (B ++ [32] ++ A) = B0 ++ [32] ++ A0)
    (hnormBA0 : analysis.normalize_text (B0 ++ [32] ++ A0) = B0 ++ [32] ++ A0)
    (hkeepA : A0.length = A.length) (hkeepB : B0.length = B.length)
    (hdescAB : analysis.describe none (A0 ++ [32] ++ B0) =
      [described lemmas_a A0, described lemmas_b B0])
    (hdescBA : analysis.describe none (B0 ++ [32] ++ A0) =
      [described lemmas_b B0, described lemmas_a A0])
    (hdescA : analysis.describe none A0 = [described lemmas_a A0])
    (hdescB : analysis.describe none B0 = [described lemmas_b B0])
    (hcompA : ∀ c ∈ lemmas_a, IsComponent c) (hcompB : ∀ c ∈ lemmas_b, IsComponent c)
    (hA0 : IsWord A0) (hB0 : IsWord B0)
    (hapart : ∀ c ∈ lemmas_a ++ [A0], c ∉ lemmas_b ++ [B0])
    (hsize : (description_of (lemmas_a ++ [A0])).length +
      (description_of (lemmas_b ++ [B0])).length + 3 < 2 ^ 31) :
    morph_str_intersect_str analysis (A ++ [32] ++ B) (A ++ [32] ++ B) = some 1 ∧
    morph_str_intersect_str analysis (B ++ [32] ++ A) (A ++ [32] ++ B) = some 1 := by
  have h1 := description_length_ge_form lemmas_a A0
  have h2 := description_length_ge_form lemmas_b B0
  constructor
  · apply similarity_of_two_words analysis (A ++ [32] ++ B) (A0 ++ [32] ++ B0)
      (described lemmas_a A0) [described lemmas_b B0] A B A0 B0 lemmas_a lemmas_b hA hB
      (strlen_two_words A B hA hB) hnormAB hnormAB0 hdescAB
      (fun w0 hw0 => by simpa using hw0) (by simp) (by simp) hnormAB hkeepA hkeepB hdescA hdescB
      hcompA hcompB hA0 hB0 hapart
    · simp only [words_text, described, List.map_cons, List.map_nil, List.flatten_cons,
        List.flatten_nil, List.append_nil, List.length_cons, List.length_append]
      omega
    · omega
  · apply similarity_of_two_words analysis (B ++ [32] ++ A) (B0 ++ [32] ++ A0)
      (described lemmas_b B0) [described lemmas_a A0] A B A0 B0 lemmas_a lemmas_b hA hB
      (by rw [strlen_two_words B A hB hA]; omega) hnormBA hnormBA0 hdescBA
      (fun w0 hw0 => by
        simp only [List.mem_cons, List.mem_singleton, List.not_mem_nil, or_false] at hw0
        exact hw0.symm)
      (by simp) (by simp) hnormAB hkeepA hkeepB hdescA hdescB
      hcompA hcompB hA0 hB0 hapart
    · simp only [words_text, described, List.map_cons, List.map_nil, List.flatten_cons,
        List.flatten_nil, List.append_nil, List.length_cons, List.length_append]
      omega
    · omega

/-- Witness of C13: the words `cat` and `dog`, lower case being the normalized
form, `cat` described as `cat.` and `dog` as `dog.`. -/
theorem c13_word_order_irrelevant_witness :
    morph_str_intersect_str
      { names := [],
        normalize_text := fun s => s,
        describe := fun _ text =>
          if text = [99, 97, 116, 32, 100, 111, 103] then
            [described [] [99, 97, 116], described [] [100, 111, 103]]
          else if text = [100, 111, 103, 32, 99, 97, 116] then
            [described [] [100, 111, 103], described [] [99, 97, 116]]
          else if text = [99, 97, 116] then [described [] [99, 97, 116]]
          else if text = [100, 111, 103] then [described [] [100, 111, 103]]
          else [] }
      ([99, 97, 116] ++ [32] ++ [100, 111, 103]) ([99, 97, 116] ++ [32] ++ [100, 111, 103]) =
        some 1 ∧
    morph_str_intersect_str
      { names := [],
        normalize_text := fun s => s,
        describe := fun _ text =>
          if text = [99, 97, 116, 32, 100, 111, 103] then
            [described [] [99, 97, 116], described [] [100, 111, 103]]
          else if text = [100, 111, 103, 32, 99, 97, 116] then
            [described [] [100, 111, 103], described [] [99, 97, 116]]
          else if text = [99, 97, 116] then [described [] [99, 97, 116]]
          else if text = [100, 111, 103] then [described [] [100, 111, 103]]
          else [] }
      ([100, 111, 103] ++ [32] ++ [99, 97, 116]) ([99, 97, 116] ++ [32] ++ [100, 111, 103]) =
        some 1 :=
  c13_word_order_irrelevant _ [99, 97, 116] [100, 111, 103] [99, 97, 116] [100, 111, 103] [] []
    (by decide) (by decide) rfl rfl rfl rfl rfl rfl rfl rfl rfl rfl
    (by simp) (by simp) (by simp [IsWord]) (by simp [IsWord]) (by simp)
    (by simp [description_of])

end Morph

namespace Morph

set_option maxRecDepth 100000 in
/-- C14, counterexample: the document text and the search text are both the
word of the one character U+212A (the three bytes 226, 132, 170) and a blank;
the lower case of the character is `k`, of one byte, so the normalized texts
are `k ` and the word is described as `k.`.  The search finds the word, the
accumulator is 2 (`k` and a line feed), the length of the document is 4, and
`morph_str_intersect_str` returns one half. -/
theorem c14_shorter_lower_case_scores_half :
    morph_str_intersect_str
      { names := [],
        normalize_text := fun s => if s = [226, 132, 170, 32] then [107, 32] else s,
        describe := fun _ text =>
          if text = [107, 32] then [{ token_size := 1, description := [107, 46] }]
          else if text = [107] then [{ token_size := 1, description := [107, 46] }]
          else [] }
      [226, 132, 170, 32] [226, 132, 170, 32] = some (morph_doc_intersect_doc 4 4 [2]) ∧
    morph_doc_intersect_doc 4 4 [2] = 1 / 2 := by
  refine ⟨rfl, ?_⟩
  have hi : accumulate_results [2] 0 = 2 := rfl
  unfold morph_doc_intersect_doc
  simp only [hi]
  norm_num

/-- C14, amended: for a document text `W ` of one word and a blank and a search
text `V ` of one word of the same byte length and a blank, both C strings, whose
normalized forms `W0 ` and `V0 ` hold words as the tokenizer cuts them, `W0`
of the byte length of `W`, described with lemmas that are components, the two
descriptions sharing a component (a lemma or the form), and the text of the
document fitting `int32_t`, `morph_str_intersect_str` returns exactly 1. -/
theorem c14_one_word_similarity (analysis : Analysis) (W V W0 V0 : Bytes)
    (lemmas_w lemmas_v : List Bytes)
    (hW : ∀ b ∈ W, b ≠ 0) (hV : ∀ b ∈ V, b ≠ 0) (hlen : V.length = W.length)
    (hnormW : analysis.normalize_text (W ++ [32]) = W0 ++ [32])
    (hnormW0 : analysis.normalize_text (W0 ++ [32]) = W0 ++ [32])
    (hnormV : analysis.normalize_text (V ++ [32]) = V0 ++ [32])
    (hkeep : W0.length = W.length)
    (hdescW : analysis.describe none (W0 ++ [32]) = [described lemmas_w W0])
    (hdescV : analysis.describe none V0 = [described lemmas_v V0])
    (hcompW : ∀ c ∈ lemmas_w, IsComponent c) (hcompV : ∀ c ∈ lemmas_v, IsComponent c)
    (hW0 : IsWord W0) (hV0 : IsWord V0)
    (hshare : ∃ c, c ∈ lemmas_w ++ [W0] ∧ c ∈ lemmas_v ++ [V0])
    (hsize : (description_of (lemmas_w ++ [W0])).length + 3 < 2 ^ 31) :
    morph_str_intersect_str analysis (W ++ [32]) (V ++ [32]) = some 1 := by
  have hcw : ∀ c ∈ lemmas_w ++ [W0], IsComponent c := by
    intro c hc
    rcases List.mem_append.1 hc with h | h
    · exact hcompW c h
    · rw [List.mem_singleton.1 h]
      exact isComponent_of_isWord hW0
  have hcv : ∀ c ∈ lemmas_v ++ [V0], IsComponent c := by
    intro c hc
    rcases List.mem_append.1 hc with h | h
    · exact hcompV c h
    · rw [List.mem_singleton.1 h]
      exact isComponent_of_isWord hV0
  have hws : ∀ w ∈ [described lemmas_w W0], WellDescribed w := by
    intro w hw
    rw [List.mem_singleton.1 hw]
    exact ⟨lemmas_w, W0, rfl, hcw⟩
  obtain ⟨document, hmake, htext, hranges, hdoc⟩ :=
    make_document_spec (described lemmas_w W0) [] hws (by
      simp only [words_text, described, List.map_cons, List.map_nil, List.flatten_cons,
        List.flatten_nil, List.append_nil, List.length_cons]
      omega)
  have hset : multi_intersection_set analysis document V0 = some [W0] := by
    rw [multi_intersection_set_word analysis document V0 hV0, hdescV]
    apply document_find_intersection_one [described lemmas_w W0] hws document htext hranges hdoc
      lemmas_v V0 hcv W0 (isWord_nonzero hW0)
    · intro j lemmas form hj hcomp _
      cases j with
      | zero =>
        simp only [List.getElem?_cons_zero, Option.some.injEq] at hj
        exact (described_injective _ _ _ _ hcw hcomp hj).2.symm
      | succ j => simp at hj
    · obtain ⟨c, h1, h2⟩ := hshare
      exact ⟨0, lemmas_w, W0, rfl, hcw, c, h2, h1⟩
  have hdocW : strlen (W ++ [32]) = W.length + 1 := by
    rw [strlen_of_nonzero]
    · simp
    · intro b hb
      rcases List.mem_append.1 hb with h | h
      · exact hW b h
      · rw [List.mem_singleton.1 h]
        decide
  have hdocV : strlen (V ++ [32]) = V.length + 1 := by
    rw [strlen_of_nonzero]
    · simp
    · intro b hb
      rcases List.mem_append.1 hb with h | h
      · exact hV b h
      · rw [List.mem_singleton.1 h]
        decide
  have hresults := intersect_results_of_sets analysis
    { str := W0 ++ [32], len := W.length + 1, doc_header := some document } document rfl
    [V0] [[W0]]
    (List.Forall₂.cons ⟨hset, fun m hm b hb => by
      rw [List.mem_singleton.1 hm] at hb
      exact isWord_nonzero hW0 b hb⟩ List.Forall₂.nil)
  have hlenW : W0.length + 1 < 2 ^ 31 := by
    have : W0.length ≤ (description_of (lemmas_w ++ [W0])).length := by
      rw [description_of_append, description_of_cons]
      simp
      omega
    omega
  simp only [morph_str_intersect_str, morph_doc_new, hnormW, hnormW0, hdescW, hmake, hnormV,
    if_true, Option.bind_eq_bind, Option.some_bind, Option.pure_def, Bool.false_eq_true,
    if_false, hdocW, hdocV, strtok_r_loop_one V0 hV0.1 (isWord_no_blank hV0), hresults,
    Option.some.injEq]
  apply morph_doc_intersect_doc_one
  · simpa using hlenW
  · omega
  · simp
    omega

/-- Witness of C14: the document text `Men ` and the search text `Man `, lower
case being the normalized form, `men` described as `man.men.` and `man` as
`man.`. -/
theorem c14_one_word_similarity_witness :
    morph_str_intersect_str
      { names := [],
        normalize_text := fun s => s.map (fun b => if 65 ≤ b ∧ b ≤ 90 then b + 32 else b),
        describe := fun _ text =>
          if text = [109, 101, 110, 32] then [described [[109, 97, 110]] [109, 101, 110]]
          else if text = [109, 97, 110] then [described [] [109, 97, 110]]
          else [] }
      ([77, 101, 110] ++ [32]) ([77, 97, 110] ++ [32]) = some 1 :=
  c14_one_word_similarity _ [77, 101, 110] [77, 97, 110] [109, 101, 110] [109, 97, 110]
    [[109, 97, 110]] [] (by decide) (by decide) rfl rfl rfl rfl rfl rfl rfl
    (by simp [IsComponent, WORD_DESCRIPTION_TERMINATOR])
    (by simp)
    (by simp [IsWord]) (by simp [IsWord])
    ⟨[109, 97, 110], by simp, by simp⟩ (by simp [description_of])

end Morph

namespace Morph

open HashTable

/-- C15: on a hash table with a callback and a FIFO limit of at least one,
`hash_table_chain_put` of `limit + k` pairs with pairwise distinct keys that
the table does not hold leaves exactly `limit` entries, the last `limit` pairs
given: `hash_table_chain_get` answers `NULL` for each of the first `k` keys and
the value put for each of the last `limit` keys. -/
theorem c15_fifo_eviction {α : Type} (table : HashTable α) (limit k : Nat)
    (items : List (Bytes × Option α)) (hok : TableOk table)
    (hcb : table.on_push_out = true) (hfifo : table.fifo_limit = limit) (hone : 1 ≤ limit)
    (hlim : limit < NO_FIFO_LIMIT) (hlen : items.length = limit + k)
    (hdistinct : (items.map Prod.fst).Nodup)
    (hnew : ∀ key ∈ items.map Prod.fst, key ∉ (entries table).map Prod.fst) :
    ∃ table', put_all table items = some table' ∧
      hash_table_stored table' = limit ∧ table'.added.length = limit ∧
      entries table' = items.drop k ∧
      (∀ i key value, items[i]? = some (key, value) → i < k →
        HashTable.hash_table_chain_get table' key = some none) ∧
      (∀ i key value, items[i]? = some (key, value) → k ≤ i →
        HashTable.hash_table_chain_get table' key = some value) := by
  obtain ⟨table', hrun, hok', _, _, _, hent⟩ :=
    put_all_spec limit hone hlim items table hok hcb hfifo hdistinct hnew
  have hne : items ≠ [] := by
    intro h
    rw [h] at hlen
    simp only [List.length_nil] at hlen
    omega
  have hent' : entries table' = items.drop k := by
    rw [hent hne, hlen, List.drop_append_eq_append_drop]
    have h1 : (entries table).length + (limit + k) - limit = (entries table).length + k := by
      omega
    rw [h1, List.drop_eq_nil_of_le (by omega), List.nil_append]
    congr 1
    omega
  have hlength : table'.added.length = limit := by
    have : (entries table').length = table'.added.length := by simp [entries]
    rw [← this, hent', List.length_drop, hlen]
    omega
  refine ⟨table', hrun, ?_, hlength, hent', ?_, ?_⟩
  · rw [hash_table_stored, hok'.total, hlength]
  · intro i key value hi hik
    rw [hash_table_chain_get_spec table' hok' key, hent',
      lookup_drop_lt items hdistinct i k key value hi hik]
  · intro i key value hi hki
    rw [hash_table_chain_get_spec table' hok' key, hent',
      lookup_drop_ge items hdistinct i k key value hi hki]

/-- Witness of C15: a fresh table of two cells with the limit 2 and the three
keys `1`, `2`, `3`. -/
theorem c15_fifo_eviction_witness :
    ∃ table', put_all (hash_table_fifo_limit
        { heap := fun _ => none, allocated := 0, bucket := [[], []], added := [],
          size_power := 1, size := 2, total_stored := 0, load := 0,
          fifo_limit := NO_FIFO_LIMIT, on_push_out := false,
          pushed_out := ([] : List (Bytes × Nat × Option Nat)) } 2 true)
        [([1], some 10), ([2], some 20), ([3], some 30)] = some table' ∧
      hash_table_stored table' = 2 ∧ entries table' = [([2], some 20), ([3], some 30)] ∧
      HashTable.hash_table_chain_get table' [1] = some none ∧
      HashTable.hash_table_chain_get table' [3] = some (some 30) := by
  obtain ⟨table', hrun, hstored, _, hent, hold, hlast⟩ :=
    c15_fifo_eviction (hash_table_fifo_limit
        { heap := fun _ => none, allocated := 0, bucket := [[], []], added := [],
          size_power := 1, size := 2, total_stored := 0, load := 0,
          fifo_limit := NO_FIFO_LIMIT, on_push_out := false,
          pushed_out := ([] : List (Bytes × Nat × Option Nat)) } 2 true)
      2 1 [([1], some 10), ([2], some 20), ([3], some 30)]
      (tableOk_fifo_limit _ 2 true (tableOk_make 1 _ rfl).1).1 rfl rfl (by decide)
      (by decide) rfl (by decide) (by simp [entries, hash_table_fifo_limit])
  exact ⟨table', hrun, hstored, hent, hold 0 [1] (some 10) rfl (by decide),
    hlast 2 [3] (some 30) rfl (by decide)⟩

/-- C16: on a hash table, `hash_table_chain_get` returns the stored value and,
having no effect, returns nothing else; `hash_table_chain_put` with a stored
key writes the value into the link of the key and leaves the list of insertion
and the rings as they are, so the stored keys keep their order and the entry
that `ensure_fifo_limit` drops next, the head of the list, is the same. -/
theorem c16_order_of_insertion {α : Type} (table : HashTable α) (key : Bytes)
    (value : Option α) (hok : TableOk table)
    (hstored : key ∈ (entries table).map Prod.fst) :
    HashTable.hash_table_chain_get table key = some (lookup key (entries table)) ∧
      ∃ table', HashTable.hash_table_chain_put table key value = some table' ∧ TableOk table' ∧
        table'.added = table.added ∧ table'.bucket = table.bucket ∧
        hash_table_stored table' = hash_table_stored table ∧
        (entries table').map Prod.fst = (entries table).map Prod.fst ∧
        HashTable.hash_table_chain_get table' key = some value ∧
        ∀ other, other ≠ key →
          HashTable.hash_table_chain_get table' other = HashTable.hash_table_chain_get table other := by
  refine ⟨hash_table_chain_get_spec table hok key, ?_⟩
  rw [entries, List.map_map] at hstored
  obtain ⟨p, hp, hkey'⟩ := List.mem_map.1 hstored
  have hkey : (link_entry table p).1 = key := hkey'
  obtain ⟨table', hput, hok', ha, hb, htot, _, _, _, _, _, _, hentry, hother⟩ :=
    hash_table_chain_put_old table hok key value p hp hkey
  have hentries : ∀ q ∈ table.added, q ≠ p → link_entry table' q = link_entry table q :=
    fun q _ hq => link_entry_congr _ _ q (hother q hq)
  have hfst : ∀ q, (link_entry table' q).1 = (link_entry table q).1 := by
    intro q
    by_cases hq : q = p
    · rw [hq, hentry]; exact hkey.symm
    · rw [link_entry_congr _ _ q (hother q hq)]
  refine ⟨table', hput, hok', ha, hb, htot, ?_, ?_, ?_⟩
  · rw [entries, entries, ha, List.map_map, List.map_map]
    exact List.map_congr_left (fun q _ => hfst q)
  · rw [hash_table_chain_get_spec table' hok' key]
    congr 1
    apply lookup_of_mem
    · rw [entries, List.mem_map]
      exact ⟨p, by rw [ha]; exact hp, hentry⟩
    · intro e he hek
      rw [entries, List.mem_map] at he
      obtain ⟨q, hq, rfl⟩ := he
      have hqp : q = p := hok'.keys q hq p (by rw [ha]; exact hp) (by rw [hek, hentry])
      rw [hqp, hentry]
  · intro other hne
    rw [hash_table_chain_get_spec table' hok' other, hash_table_chain_get_spec table hok other]
    congr 1
    rw [entries, entries, ha]
    have : ∀ (l : List Nat), (∀ q ∈ l, q ∈ table.added) →
        lookup other (l.map (link_entry table')) = lookup other (l.map (link_entry table)) := by
      intro l
      induction l with
      | nil => intro _; rfl
      | cons q l ih =>
        intro hl
        have ih' := ih (fun q hq => hl q (List.mem_cons_of_mem _ hq))
        by_cases hq : q = p
        · subst hq
          have h1 : (link_entry table' q).1 ≠ other := by rw [hentry]; exact fun h => hne h.symm
          have h2 : (link_entry table q).1 ≠ other := by rw [hkey]; exact fun h => hne h.symm
          rw [List.map_cons, List.map_cons]
          cases h3 : link_entry table' q with
          | mk k1 v1 =>
            cases h4 : link_entry table q with
            | mk k2 v2 =>
              rw [h3] at h1
              rw [h4] at h2
              simp only [lookup, if_neg h1, if_neg h2]
              exact ih'
        · rw [List.map_cons, List.map_cons, link_entry_congr _ _ q (hother q hq)]
          cases h4 : link_entry table q with
          | mk k2 v2 =>
            simp only [lookup]
            rw [ih']
    exact this _ (fun q hq => hq)

/-- Witness of C16: the table that holds the keys `1` and `2`, the key `1` put
again with another value. -/
theorem c16_order_of_insertion_witness :
    ∃ table', HashTable.hash_table_chain_put
        { heap := fun p =>
            if p = 0 then some { value := some 10, key := [1], key_size := 1, hash := 1 }
            else if p = 1 then some { value := some 20, key := [2], key_size := 1, hash := 2 }
            else none,
          allocated := 2, bucket := [[1], [0]], added := [0, 1],
          size_power := 1, size := 2, total_stored := 2, load := 2,
          fifo_limit := 2, on_push_out := true,
          pushed_out := ([] : List (Bytes × Nat × Option Nat)) } [1] (some 11)
        = some table' ∧
      table'.added = [0, 1] ∧ HashTable.hash_table_chain_get table' [1] = some (some 11) := by
  have hok : TableOk
      ({ heap := fun p =>
            if p = 0 then some { value := some 10, key := [1], key_size := 1, hash := 1 }
            else if p = 1 then some { value := some 20, key := [2], key_size := 1, hash := 2 }
            else none,
          allocated := 2, bucket := [[1], [0]], added := [0, 1],
          size_power := 1, size := 2, total_stored := 2, load := 2,
          fifo_limit := 2, on_push_out := true,
          pushed_out := ([] : List (Bytes × Nat × Option Nat)) } : HashTable Nat) := by
    refine ⟨by decide, rfl, by decide, by decide, ?_, ?_, ?_, rfl, by decide⟩
    · intro p hp
      simp only [List.mem_cons, List.mem_singleton, List.not_mem_nil, or_false] at hp
      rcases hp with rfl | rfl
      · exact ⟨_, rfl, by decide, rfl⟩
      · exact ⟨_, rfl, by decide, rfl⟩
    · intro p hp q hq h
      simp only [List.mem_cons, List.mem_singleton, List.not_mem_nil, or_false] at hp hq
      rcases hp with rfl | rfl <;> rcases hq with rfl | rfl <;>
        first
        | rfl
        | (exfalso; revert h; decide)
    · intro i ring hi
      match i, hi with
      | 0, hi =>
        simp only [List.getElem?_cons_zero, Option.some.injEq] at hi
        subst hi
        refine ⟨by decide, ?_⟩
        intro p
        constructor
        · intro hp
          simp only [List.mem_singleton] at hp
          subst hp
          exact ⟨by decide, by decide⟩
        · rintro ⟨hp, hidx⟩
          simp only [List.mem_cons, List.mem_singleton, List.not_mem_nil, or_false] at hp
          rcases hp with rfl | rfl
          · exfalso; revert hidx; decide
          · simp
      | 1, hi =>
        simp only [List.getElem?_cons_succ, List.getElem?_cons_zero, Option.some.injEq] at hi
        subst hi
        refine ⟨by decide, ?_⟩
        intro p
        constructor
        · intro hp
          simp only [List.mem_singleton] at hp
          subst hp
          exact ⟨by decide, by decide⟩
        · rintro ⟨hp, hidx⟩
          simp only [List.mem_cons, List.mem_singleton, List.not_mem_nil, or_false] at hp
          rcases hp with rfl | rfl
          · simp
          · exfalso; revert hidx; decide
      | i + 2, hi => simp at hi
  obtain ⟨_, table', hput, _, ha, _, _, _, hget, _⟩ :=
    c16_order_of_insertion _ [1] (some 11) hok (by decide)
  exact ⟨table', hput, ha, hget⟩

end Morph

namespace Morph

/-- C17: a description that `make_word_description` returns for a word
without zero bytes, on a morphology whose cache is good, consists of some
lemmas part followed by the bytes of the word and the terminator, whether the
word is garbage or not and cached or not; so its last `mb_word_length + 1`
bytes are the word and `.`, and `*result_length` is the length of the
description. -/
theorem c17_description_ends_with_word (locale : Locale) (word : Option (List Label))
    (mb_word : Bytes) (morphology : Morphology) (dont_imitate : Bool)
    (hcache : CacheOk morphology.description_cache) (hword : ∀ b ∈ mb_word, b ≠ 0)
    (morphology' : Morphology) (description : Bytes) (is_garbage : Bool) (result_length : Nat)
    (hrun : make_word_description locale word mb_word morphology dont_imitate =
      some (morphology', some description, is_garbage, result_length)) :
    (∃ lemmas_part, description = lemmas_part ++ mb_word ++ [WORD_DESCRIPTION_TERMINATOR]) ∧
      description.drop (description.length - (mb_word.length + 1)) =
        mb_word ++ [WORD_DESCRIPTION_TERMINATOR] ∧
      result_length = description.length := by
  obtain ⟨⟨lemmas_part, hdesc⟩, hlen⟩ :=
    make_word_description_spec locale word mb_word morphology dont_imitate hcache hword
      morphology' description is_garbage result_length hrun
  refine ⟨⟨lemmas_part, hdesc⟩, ?_, hlen⟩
  rw [hdesc, List.append_assoc, List.drop_append_eq_append_drop]
  simp only [List.length_append, List.length_singleton]
  have h1 : lemmas_part.length + (mb_word.length + 1) - (mb_word.length + 1) =
      lemmas_part.length := by omega
  rw [h1, List.drop_length, List.nil_append, Nat.sub_self, List.drop_zero]

set_option maxRecDepth 100000 in
/-- Witness of C17: the word `w` with the lemma `l`, on a fresh cache. -/
theorem c17_description_ends_with_word_witness :
    ∃ cache morphology',
      make_description_cache 150 = some cache ∧
      make_word_description
        { iswalpha := fun _ => true, to_wide_string_exact := fun b => b.map Int.ofNat,
          to_multibyte_string := fun w => w.map Int.toNat }
        none [119]
        { automat := { states_count := 1,
                       states := [{ is_final := 0, transitions_count := 0, transitions := [] }] },
          lemmas := fun w => if w = [119] then [[108]] else [],
          description_cache := cache } false
        = some (morphology', some [108, 46, 119, 46], false, 4) ∧
      ([108, 46, 119, 46] : Bytes).drop (([108, 46, 119, 46] : Bytes).length - (1 + 1)) =
        [119, 46] :=
  ⟨_, _, rfl, rfl,
    (c17_description_ends_with_word
      { iswalpha := fun _ => true, to_wide_string_exact := fun b => b.map Int.ofNat,
        to_multibyte_string := fun w => w.map Int.toNat }
      none [119]
      { automat := { states_count := 1,
                     states := [{ is_final := 0, transitions_count := 0, transitions := [] }] },
        lemmas := fun w => if w = [119] then [[108]] else [],
        description_cache := _ } false
      (cacheOk_make 150 _ rfl).1 (by decide) _ [108, 46, 119, 46] false 4 rfl).2.1⟩

set_option maxRecDepth 100000 in
/-- C18: the description depends on the cache.  The word `w` has the lemma `l`.
With an empty cache `make_word_description` with `dont_imitate` set returns
`l.w.` and caches it; the same call on the cache so filled returns `NULL`: the
branch for a cached word returns `NULL` whenever `dont_imitate` is set and never
looks at the flag `is_imitation` it has read.  In
`multilang_word_description` with a suggested language the second run then
falls back to the language that `detect_language` or `main_language` gives:
with the dictionaries 0 (lemma `x`) and 1 (lemma `y`) and the suggested
language 1, the first run returns `y.w.` and the language 1, the second run
`x.w.` and no language. -/
theorem c18_description_depends_on_cache :
    ∃ cache morphology1 languages1 languages2,
      make_description_cache 150 = some cache ∧
      make_word_description
        { iswalpha := fun _ => true, to_wide_string_exact := fun b => b.map Int.ofNat,
          to_multibyte_string := fun w => w.map Int.toNat }
        none [119]
        { automat := { states_count := 1,
                       states := [{ is_final := 0, transitions_count := 0, transitions := [] }] },
          lemmas := fun w => if w = [119] then [[108]] else [],
          description_cache := cache } true
        = some (morphology1, some [108, 46, 119, 46], false, 4) ∧
      make_word_description
        { iswalpha := fun _ => true, to_wide_string_exact := fun b => b.map Int.ofNat,
          to_multibyte_string := fun w => w.map Int.toNat }
        none [119] morphology1 true = some (morphology1, none, false, 4) ∧
      multilang_word_description
        { iswalpha := fun _ => true, to_wide_string_exact := fun b => b.map Int.ofNat,
          to_multibyte_string := fun w => w.map Int.toNat }
        [{ name := [114, 117],
           morphology :=
            { automat := { states_count := 1,
                           states := [{ is_final := 0, transitions_count := 0,
                                        transitions := [] }] },
              lemmas := fun w => if w = [119] then [[120]] else [],
              description_cache := cache } },
         { name := [101, 110],
           morphology :=
            { automat := { states_count := 1,
                           states := [{ is_final := 0, transitions_count := 0,
                                        transitions := [] }] },
              lemmas := fun w => if w = [119] then [[121]] else [],
              description_cache := cache } }]
        (some 1) none [119] none
        = some (languages1, some [121, 46, 119, 46], 4, some 1) ∧
      multilang_word_description
        { iswalpha := fun _ => true, to_wide_string_exact := fun b => b.map Int.ofNat,
          to_multibyte_string := fun w => w.map Int.toNat }
        languages1 (some 1) none [119] none
        = some (languages2, some [120, 46, 119, 46], 4, none) :=
  ⟨_, _, _, _, rfl, rfl, rfl, rfl, rfl⟩

end Morph

namespace Morph

/-- C19: when `detect_language` returns a language for a word, the word is not
garbage, the returned language knows at least as many trailing characters of
the word (`known_part_of_word`) as every loaded language, and every language
that knows as many is loaded no earlier. -/
theorem c19_detect_language (iswalpha : Label → Bool) (languages : List MiniAutomat)
    (word : List Label) (word_length r : Nat)
    (h : detect_language iswalpha languages word word_length = some (some r)) :
    is_garbage_word iswalpha word word_length = false ∧
      ∃ L k, languages[r]? = some L ∧ known_part_of_word L word word_length = some k ∧
        ∀ j M m, languages[j]? = some M → known_part_of_word M word word_length = some m →
          m ≤ k ∧ (m = k → r ≤ j) := by
  unfold detect_language at h
  cases hg : is_garbage_word iswalpha word word_length with
  | true => rw [hg] at h; simp at h
  | false =>
    rw [hg] at h
    simp only [Bool.not_false, if_true] at h
    refine ⟨rfl, ?_⟩
    have hinv : DetectInv word word_length [] 0 none :=
      ⟨fun j M m hM _ => by simp at hM, fun r hr => by cases hr⟩
    simpa using detect_language_loop_spec word word_length languages [] 0 none r hinv h

/-- Witness of C19: the word `ab` and two languages, the first knowing nothing
of it, the second the whole word. -/
theorem c19_detect_language_witness :
    detect_language (fun _ => true)
        [{ states_count := 2,
           states := [{ is_final := 0, transitions_count := 1,
                        transitions := [{ label := 97, target := 1 }] },
                      { is_final := 1, transitions_count := 0, transitions := [] }] },
         { states_count := 3,
           states := [{ is_final := 0, transitions_count := 1,
                        transitions := [{ label := 98, target := 1 }] },
                      { is_final := 0, transitions_count := 1,
                        transitions := [{ label := 97, target := 2 }] },
                      { is_final := 1, transitions_count := 0, transitions := [] }] }]
        [97, 98] 2 = some (some 1) ∧
      is_garbage_word (fun _ => true) [97, 98] 2 = false :=
  ⟨by decide,
    (c19_detect_language (fun _ => true)
      [{ states_count := 2,
         states := [{ is_final := 0, transitions_count := 1,
                      transitions := [{ label := 97, target := 1 }] },
                    { is_final := 1, transitions_count := 0, transitions := [] }] },
       { states_count := 3,
         states := [{ is_final := 0, transitions_count := 1,
                      transitions := [{ label := 98, target := 1 }] },
                    { is_final := 0, transitions_count := 1,
                      transitions := [{ label := 97, target := 2 }] },
                    { is_final := 1, transitions_count := 0, transitions := [] }] }]
      [97, 98] 2 1 (by decide)).1⟩

end Morph

namespace Morph

/-- C20: with the sorted known prefixes `a` and `ab`, `word_has_known_prefix`
answers false for the head `ab` of length 2, although that head is a known
prefix: the loop takes the first prefix that starts the head (`a`), returns the
answer of the recursive call on the remainder `b`, and never tries `ab`. -/
theorem c20_known_prefix_missed :
    ([[97], [97, 98]] : List (List Label)).Pairwise word_le ∧
      (∀ p ∈ ([[97], [97, 98]] : List (List Label)), p ≠ []) ∧
      word_has_known_prefix 3 [97, 98] 2 [[97], [97, 98]] = some false ∧
      concat_of_known [[97], [97, 98]] (([97, 98] : List Label).take 2) := by
  refine ⟨by decide, by decide, by decide, ?_⟩
  exact ⟨[[97, 98]], by simp, by simp, by simp⟩

end Morph

namespace Morph

/-- C21: for a `flex_model_index` below 65536 and a `flexion_size` and a
`base_size` below 256, `build_morphology_annotation` returns a string, the
number that `wcstoul` reads from it in the base 36 is the packed integer
`(flex_model_index << 16) | (flexion_size << 8) | base_size`, and
`parse_morphology_annotation` recovers the three values from the string.
`iswspace` of the C library holds for no digit and no capital letter. -/
theorem c21_round_trip (iswspace : Label → Bool)
    (flex_model_index flexion_size base_size : Nat)
    (hf : flex_model_index < 65536) (hfl : flexion_size < 256) (hb : base_size < 256)
    (hspace : ∀ c ∈ ultowcs_dictionary, iswspace c = false) :
    ∃ s, build_morphology_annotation flex_model_index flexion_size base_size = some s ∧
      wcstoul iswspace s 36 = (flex_model_index <<< 16 ||| flexion_size <<< 8 ||| base_size) ∧
      parse_morphology_annotation iswspace s =
        { flex_model_index := flex_model_index, flexion_size := flexion_size,
          base_size := base_size } := by
  have hcode := morphology_code_eq flex_model_index flexion_size base_size hf hfl hb
  have hplain : flex_model_index <<< 16 ||| flexion_size <<< 8 ||| base_size =
      morphology_code flex_model_index flexion_size base_size := by
    have h1 : (flex_model_index <<< 16) % 2 ^ 32 = flex_model_index <<< 16 := by
      rw [Nat.shiftLeft_eq]; exact Nat.mod_eq_of_lt (by omega)
    have h2 : (flexion_size <<< 8) % 2 ^ 32 = flexion_size <<< 8 := by
      rw [Nat.shiftLeft_eq]; exact Nat.mod_eq_of_lt (by omega)
    simp only [morphology_code, h1, h2]
  have hlt : morphology_code flex_model_index flexion_size base_size < 2 ^ 64 := by
    rw [hcode]; omega
  obtain ⟨s, hs, hne, hdig, hval⟩ := ultowcs_spec _ hlt
  have hw : wcstoul iswspace s 36 = morphology_code flex_model_index flexion_size base_size := by
    rw [wcstoul_of_digits iswspace s hne hdig hspace (by rw [hval]; exact hlt), hval]
  refine ⟨s, hs, by rw [hw, hplain], ?_⟩
  obtain ⟨p1, p2, p3⟩ := parse_code flex_model_index flexion_size base_size hf hfl hb
  simp only [ parse_morphology_annotation, hw, hcode, p1, p2, p3]

/-- C21 for the model 2600, a flexion of 3 characters and a base of 7, with
`iswspace` true of the blank and of the characters from the tab to the
carriage return. -/
theorem c21_round_trip_witness :
    ∃ s, build_morphology_annotation 2600 3 7 = some s ∧
      wcstoul (fun c => c = 32 || (9 ≤ c && c ≤ 13)) s 36 = (2600 <<< 16 ||| 3 <<< 8 ||| 7) ∧
      parse_morphology_annotation (fun c => c = 32 || (9 ≤ c && c ≤ 13)) s =
        { flex_model_index := 2600, flexion_size := 3, base_size := 7 } :=
  c21_round_trip (fun c => c = 32 || (9 ≤ c && c ≤ 13)) 2600 3 7 (by decide) (by decide)
    (by decide) (by decide)

end Morph

namespace Morph

set_option maxRecDepth 100000 in
/-- C22, the claim fails: in the automaton below the state reached by the word
`a` is final and has a transition by `|`.  `mini_common_prefix` matches the
whole word, and `mini_possible_outputs` makes one call of `on_complete`, with
`is_prediction = 0`, before anything is written to the buffer: the buffer of
the call is the local array as it was on entry, here 255 zeros, and does not
start with `|`. -/
theorem c22_final_state_reports_unwritten_buffer :
    mini_common_prefix
      { states_count := 3,
        states := [{ is_final := 0, transitions_count := 1, transitions := [⟨97, 1⟩] },
                   { is_final := 1, transitions_count := 1, transitions := [⟨124, 2⟩] },
                   { is_final := 1, transitions_count := 0, transitions := [] }] }
      [97] = some (1, 1) ∧
    mini_find_transition
      { states_count := 3,
        states := [{ is_final := 0, transitions_count := 1, transitions := [⟨97, 1⟩] },
                   { is_final := 1, transitions_count := 1, transitions := [⟨124, 2⟩] },
                   { is_final := 1, transitions_count := 0, transitions := [] }] }
      1 ANNOTATION_DELIMITER = some (some 2) ∧
    mini_possible_outputs
      { states_count := 3,
        states := [{ is_final := 0, transitions_count := 1, transitions := [⟨97, 1⟩] },
                   { is_final := 1, transitions_count := 1, transitions := [⟨124, 2⟩] },
                   { is_final := 1, transitions_count := 0, transitions := [] }] }
      [97] 0 (List.replicate 255 0) =
        some [{ is_prediction := 0, prefix_size := 1, buffer := List.replicate 255 0 }] ∧
    (List.replicate 255 (0 : Label)).head? ≠ some ANNOTATION_DELIMITER :=
  ⟨rfl, rfl, rfl, by decide⟩

/-- C22, amended: for a compact automaton whose transitions lead to its own
states, a word `w`, a threshold `p` and a local buffer of 255 characters,
`mini_common_prefix` and `mini_possible_outputs` return, and: if the whole of
`w` is matched, the reached state has a `|` transition and the reached state
is not final, every callback has `is_prediction = 0` and a buffer starting
with `|`; if not the whole of `w` is matched or the reached state has no `|`
transition, then, if the matched length is at least `p`, every callback has
`is_prediction = 1`, and otherwise there is no callback. -/
theorem c22_possible_outputs (automat : MiniAutomat) (hwf : WellFormedMini automat)
    (word : List Label) ( min_prediction_prefix : Nat) (buffer : List Label)
    (hbuf : buffer.length = MAX_AUTOMAT_OUTPUT_SIZE) :
    ∃ prefix_size last_state s delimiter calls,
      mini_common_prefix automat word = some (prefix_size, last_state) ∧
      automat.states[last_state]? = some s ∧
      mini_find_transition automat last_state ANNOTATION_DELIMITER = some delimiter ∧
      mini_possible_outputs automat word min_prediction_prefix buffer = some calls ∧
      (prefix_size = word.length ∧ delimiter ≠ none → s.is_final = 0 →
        ∀ c ∈ calls, c.is_prediction = 0 ∧ c.buffer.head? = some ANNOTATION_DELIMITER) ∧
      (¬ (prefix_size = word.length ∧ delimiter ≠ none) →
        prefix_size ≥ min_prediction_prefix → ∀ c ∈ calls, c.is_prediction = 1) ∧
      (¬ (prefix_size = word.length ∧ delimiter ≠ none) →
        prefix_size < min_prediction_prefix → calls = []) := by
  obtain ⟨p, last, hcommon, hlast⟩ := mini_common_prefix_returns automat hwf word
  obtain ⟨delimiter, hfind, htarget⟩ :=
    mini_find_transition_returns automat hwf last hlast ANNOTATION_DELIMITER
  obtain ⟨s, hget⟩ : ∃ s, automat.states[last]? = some s :=
    ⟨_, List.getElem?_eq_getElem hlast⟩
  have hout := mini_possible_outputs_eq automat word min_prediction_prefix buffer p last
    delimiter hcommon hfind
  by_cases hexact : p = word.length ∧ delimiter ≠ none
  · rw [if_pos hexact] at hout
    obtain ⟨target, rfl⟩ : ∃ target, delimiter = some target := by
      cases delimiter with
      | none => exact absurd rfl hexact.2
      | some target => exact ⟨target, rfl⟩
    have htop := mini_collect_output_top automat MAX_AUTOMAT_OUTPUT_SIZE last p
      MAX_AUTOMAT_OUTPUT_SIZE buffer [] s hget (by decide)
    by_cases hfinal : s.is_final = 0
    · rw [if_neg (by simpa using hfinal), hfind] at htop
      obtain ⟨buffer0, new, h1, _, hip, hhead⟩ :=
        mini_collect_output_spec automat hwf MAX_AUTOMAT_OUTPUT_SIZE MAX_AUTOMAT_OUTPUT_SIZE
          target 0 p (0 + 1) ((buffer.set 0 ANNOTATION_DELIMITER).set (0 + 1) 0) []
          (htarget target rfl) (by simp [hbuf]) (by decide) (by decide) (Or.inl (le_refl _))
      have hb : ((buffer.set 0 ANNOTATION_DELIMITER).set (0 + 1) 0).head? =
          some ANNOTATION_DELIMITER := by
        rw [head_set_succ _ _ _ (by omega), head_set_zero _ _ (by rw [hbuf]; decide)]
      refine ⟨p, last, s, some target, new, hcommon, hget, hfind, ?_, ?_, ?_, ?_⟩
      · rw [hout, htop]
        simp only [h1, List.nil_append, Option.map_some']
      · intro _ _ c hc
        exact ⟨hip c hc, (hhead (le_refl _) hb).2 c hc⟩
      · intro h; exact absurd hexact h
      · intro h; exact absurd hexact h
    · rw [if_pos hfinal] at htop
      refine ⟨p, last, s, some target,
        [{ is_prediction := 0, prefix_size := p, buffer := buffer }],
        hcommon, hget, hfind, ?_, ?_, ?_, ?_⟩
      · rw [hout, htop]
        simp only [List.nil_append, Option.map_some']
      · intro _ h; exact absurd h hfinal
      · intro h; exact absurd hexact h
      · intro h; exact absurd hexact h
  · rw [if_neg hexact] at hout
    by_cases hmin : p ≥ min_prediction_prefix
    · rw [if_pos hmin] at hout
      obtain ⟨buffer0, new, h1, _, hip, _⟩ :=
        mini_collect_output_spec automat hwf MAX_AUTOMAT_OUTPUT_SIZE
          (MAX_AUTOMAT_OUTPUT_SIZE + 1) last 1 p 0 buffer [] hlast hbuf
          (by decide) (by decide) (Or.inr (by omega))
      refine ⟨p, last, s, delimiter, new, hcommon, hget, hfind, ?_, ?_, ?_, ?_⟩
      · rw [hout, h1]
        simp only [List.nil_append, Option.map_some']
      · intro h; exact absurd h hexact
      · intro _ _ c hc; exact hip c hc
      · intro _ h; omega
    · rw [if_neg hmin] at hout
      refine ⟨p, last, s, delimiter, [], hcommon, hget, hfind, hout, ?_, ?_, ?_⟩
      · intro h; exact absurd h hexact
      · intro _ h; exact absurd h hmin
      · intro _ _; rfl

/-- C22, amended, on the automaton of the outputs `a|1`, `a|2` and `a|23` for
the word `a`, the threshold 0 and a buffer of 255 zeros. -/
theorem c22_possible_outputs_witness :
    ∃ prefix_size last_state s delimiter calls,
      mini_common_prefix
      { states_count := 5,
        states := [{ is_final := 0, transitions_count := 1, transitions := [⟨97, 1⟩] },
                   { is_final := 0, transitions_count := 1, transitions := [⟨124, 2⟩] },
                   { is_final := 0, transitions_count := 2,
                     transitions := [⟨49, 3⟩, ⟨50, 4⟩] },
                   { is_final := 1, transitions_count := 0, transitions := [] },
                   { is_final := 1, transitions_count := 1, transitions := [⟨51, 3⟩] }] }
        [97] = some (prefix_size, last_state) ∧
      ({ states_count := 5,
         states := [{ is_final := 0, transitions_count := 1, transitions := [⟨97, 1⟩] },
                    { is_final := 0, transitions_count := 1, transitions := [⟨124, 2⟩] },
                    { is_final := 0, transitions_count := 2,
                      transitions := [⟨49, 3⟩, ⟨50, 4⟩] },
                    { is_final := 1, transitions_count := 0, transitions := [] },
                    { is_final := 1, transitions_count := 1, transitions := [⟨51, 3⟩] }] }
        : MiniAutomat).states[last_state]? = some s ∧
      mini_find_transition
      { states_count := 5,
        states := [{ is_final := 0, transitions_count := 1, transitions := [⟨97, 1⟩] },
                   { is_final := 0, transitions_count := 1, transitions := [⟨124, 2⟩] },
                   { is_final := 0, transitions_count := 2,
                     transitions := [⟨49, 3⟩, ⟨50, 4⟩] },
                   { is_final := 1, transitions_count := 0, transitions := [] },
                   { is_final := 1, transitions_count := 1, transitions := [⟨51, 3⟩] }] }
        last_state ANNOTATION_DELIMITER = some delimiter ∧
      mini_possible_outputs
      { states_count := 5,
        states := [{ is_final := 0, transitions_count := 1, transitions := [⟨97, 1⟩] },
                   { is_final := 0, transitions_count := 1, transitions := [⟨124, 2⟩] },
                   { is_final := 0, transitions_count := 2,
                     transitions := [⟨49, 3⟩, ⟨50, 4⟩] },
                   { is_final := 1, transitions_count := 0, transitions := [] },
                   { is_final := 1, transitions_count := 1, transitions := [⟨51, 3⟩] }] }
        [97] 0 (List.replicate 255 0) = some calls ∧
      (prefix_size = ([97] : List Label).length ∧ delimiter ≠ none → s.is_final = 0 →
        ∀ c ∈ calls, c.is_prediction = 0 ∧ c.buffer.head? = some ANNOTATION_DELIMITER) ∧
      (¬ (prefix_size = ([97] : List Label).length ∧ delimiter ≠ none) →
        prefix_size ≥ 0 → ∀ c ∈ calls, c.is_prediction = 1) ∧
      (¬ (prefix_size = ([97] : List Label).length ∧ delimiter ≠ none) →
        prefix_size < 0 → calls = []) :=
  c22_possible_outputs
    { states_count := 5,
      states := [{ is_final := 0, transitions_count := 1, transitions := [⟨97, 1⟩] },
                 { is_final := 0, transitions_count := 1, transitions := [⟨124, 2⟩] },
                 { is_final := 0, transitions_count := 2,
                   transitions := [⟨49, 3⟩, ⟨50, 4⟩] },
                 { is_final := 1, transitions_count := 0, transitions := [] },
                 { is_final := 1, transitions_count := 1, transitions := [⟨51, 3⟩] }] }
    (by unfold WellFormedMini; decide) [97] 0 (List.replicate 255 0) (List.length_replicate 255 0)

end Morph

namespace Morph

/-- C23: for a text of valid characters without a zero byte, the loop of the
calls of `tokenize` returns the tokens of the text, and the same loop on these
tokens joined with single blanks returns the same tokens, in the same order.
The decoding of the characters and `iswalnum` are those of the C library, of
which is used that a character is read from its own bytes, that the blank is
the byte 32, that a character that may stand inside a word takes one byte, and
that the blank and the terminating zero are not alphanumeric. -/
theorem c23_tokenizer_idempotent (mbrtowc : Bytes → Option (Label × Nat))
    (iswalnum : Label → Bool) (hd : DecoderOk mbrtowc iswalnum) (text : Bytes)
    (hvalid : ValidText mbrtowc text) (hnz : ∀ b ∈ text, b ≠ 0) :
    ∃ tokens, tokenize_all mbrtowc iswalnum text = some tokens ∧
      tokenize_all mbrtowc iswalnum (List.intercalate [32] tokens) = some tokens := by
  obtain ⟨tokens, htokens⟩ := tokens_of_valid hd text.length text (le_refl _) hvalid hnz
  exact ⟨tokens, tokenize_all_tokens mbrtowc iswalnum hd text tokens htokens,
    tokenize_all_tokens mbrtowc iswalnum hd _ tokens (tokens_join hd tokens (tokens_shaped htokens))⟩

set_option maxRecDepth 100000 in
/-- C23 on the text of the 14 bytes of `как-то a_` in UTF-8, with the decoder of
the characters of one and of two bytes. -/
theorem c23_tokenizer_idempotent_witness :
    ∃ tokens,
      tokenize_all mbrtowc_utf8 iswalnum_sample
        [208, 186, 208, 176, 208, 186, 45, 209, 130, 208, 190, 32, 97, 95] = some tokens ∧
      tokenize_all mbrtowc_utf8 iswalnum_sample (List.intercalate [32] tokens) = some tokens :=
  c23_tokenizer_idempotent mbrtowc_utf8 iswalnum_sample decoderOk_utf8
    [208, 186, 208, 176, 208, 186, 45, 209, 130, 208, 190, 32, 97, 95]
    (validText_of_check mbrtowc_utf8 14 _ (by decide)) (by decide)

end Morph

namespace Morph

end Morph

namespace Morph

/-- C25: in a document whose words are described by their lemmas and their
form and whose text fits the `int32_t` offsets of a range, the range of a word
whose token has the bytes `form` has `original_start = end_position - L - 1` for the length `L` of the token, the
byte of the text at `original_start` is the terminator, and the `L` bytes of
the text from `original_start + 1` up to `end_position` are the bytes of the
token. -/
theorem c25_original_start (words : List DescribedWord) (j : Nat)
    (lemmas : List Bytes) (form : Bytes)
    (hall : ∀ w ∈ words, ∃ lemmas0 form0, w = described lemmas0 form0)
    (hsize : (words_text words).length < 2 ^ 31)
    (h : words[j]? = some (described lemmas form)) :
    ∃ r : WordRange, (build_text_with_ranges words).2[j]? = some r ∧
      (described lemmas form).token_size = form.length ∧
      r.original_start = r.end_position - (form.length : Int) - 1 ∧
      0 ≤ r.original_start ∧
      (build_text_with_ranges words).1[r.original_start.toNat]? = some 46 ∧
      r.end_position.toNat - (r.original_start.toNat + 1) = form.length ∧
      ((build_text_with_ranges words).1.drop (r.original_start.toNat + 1)).take
        (r.end_position.toNat - (r.original_start.toNat + 1)) = form := by
  obtain ⟨w0, ws, rfl⟩ : ∃ w0 ws, words = w0 :: ws := by
    cases words with
    | nil => simp at h
    | cons w0 ws => exact ⟨w0, ws, rfl⟩
  obtain ⟨A, B, h1, h2⟩ := form_after_terminator (w0 :: ws) [] j lemmas form hall h
  simp only [List.nil_append, List.length_nil, Nat.zero_add] at h1 h2
  rw [build_text_with_ranges_described w0 ws hall hsize]
  have hos : ((range_start (w0 :: ws) (j + 1) : Int) - (form.length : Int) - 1).toNat = A.length := by
    omega
  refine ⟨_, document_ranges_getElem (w0 :: ws) j _ h, rfl, ?_, ?_, ?_, ?_, ?_⟩
  · simp [described]
  · simp only [described]; omega
  · simp only [described, hos, words_text, WORD_DESCRIPTION_TERMINATOR, h1]
    exact getElem?_append_cons_length _ _ _ _ rfl
  · simp only [described, hos, Int.toNat_ofNat]; omega
  · simp only [described, hos, Int.toNat_ofNat, words_text, WORD_DESCRIPTION_TERMINATOR, h1]
    have hlen : range_start (w0 :: ws) (j + 1) - (A.length + 1) = form.length := by omega
    rw [hlen]
    have : (A ++ 46 :: (form ++ 46 :: B) : Bytes) = (A ++ [46]) ++ (form ++ 46 :: B) := by simp
    rw [this, List.drop_append_of_le_length (by simp), List.drop_of_length_le (by simp)]
    simp

/-- C25 on the document of the words `cat` and `cats`, the second described
with the lemma `cat`. -/
theorem c25_original_start_witness :
    ∃ r : WordRange,
      (build_text_with_ranges [described [] [99, 97, 116],
        described [[99, 97, 116]] [99, 97, 116, 115]]).2[1]? = some r ∧
      (described [[99, 97, 116]] [99, 97, 116, 115]).token_size =
        ([99, 97, 116, 115] : Bytes).length ∧
      r.original_start = r.end_position - (([99, 97, 116, 115] : Bytes).length : Int) - 1 ∧
      0 ≤ r.original_start ∧
      (build_text_with_ranges [described [] [99, 97, 116],
        described [[99, 97, 116]] [99, 97, 116, 115]]).1[r.original_start.toNat]? = some 46 ∧
      r.end_position.toNat - (r.original_start.toNat + 1) = ([99, 97, 116, 115] : Bytes).length ∧
      ((build_text_with_ranges [described [] [99, 97, 116],
        described [[99, 97, 116]] [99, 97, 116, 115]]).1.drop (r.original_start.toNat + 1)).take
        (r.end_position.toNat - (r.original_start.toNat + 1)) = [99, 97, 116, 115] :=
  c25_original_start _ 1 [[99, 97, 116]] [99, 97, 116, 115]
    (by
      intro w hw
      simp only [List.mem_cons, List.mem_singleton, List.not_mem_nil, or_false] at hw
      rcases hw with rfl | rfl
      · exact ⟨_, _, rfl⟩
      · exact ⟨_, _, rfl⟩)
    (by decide)
    rfl

end Morph

namespace Morph

set_option maxRecDepth 100000 in
/-- C26: the document holds the one word `cats`, described as `cat.cats.`, and
the phrase is the one token `cat`, described as `cat.`.  With `exact_match`
set the description of the token is cut to its last component `cat.`, the
sample `.cat.` is found in the text `.cat.cats.` where the lemma of `cats`
stands, and `document_find_intersection` adds `cats` to the result, which is
not the phrase, although the document does not hold the word `cat`. -/
theorem c26_exact_match_finds_a_lemma :
    ∃ document result,
      make_document
        [{ token_size := 4, description := [99, 97, 116, 46, 99, 97, 116, 115, 46] }] =
          some document ∧
      document_find_intersection document
        [{ token_size := 3, description := [99, 97, 116, 46] }] true [] = some result ∧
      result = [[99, 97, 116, 115]] ∧ [99, 97, 116] ∉ result :=
  ⟨_, _, rfl, rfl, rfl, by decide⟩

end Morph

namespace Morph

/-- C27: the set holds the one string `cats` and the string `cat` of length 3
is added: no string of the set is byte-equal to `cat`, and yet
`add_to_string_set` returns 0 and leaves the set as it is, because
`position_for_string` compares only the first 3 bytes. -/
theorem c27_prefix_of_stored_string_is_refused :
    [99, 97, 116] ∉ ([[99, 97, 116, 115]] : StringSet) ∧
    add_to_string_set [[99, 97, 116, 115]] [99, 97, 116] 3 =
      some ([[99, 97, 116, 115]], false) := by
  decide

end Morph

namespace Morph

set_option maxRecDepth 100000 in
/-- C28: the document is made of the one word `men`, described as `man.men.`,
and the search phrase is the word `zzz`, described as `zzz.`.  The phrase has
no match in the document, the set of results is empty, and
`morph_doc_case_doc` returns 1: the joined string of an empty set is an empty
string, not `NULL`. -/
theorem c28_no_match_returns_one :
    ∃ document,
      make_document [{ token_size := 3, description := [109, 97, 110, 46, 109, 101, 110, 46] }] =
        some document ∧
      multi_intersection_set
        { names := [], normalize_text := fun s => s,
          describe := fun _ text =>
            if text = [122, 122, 122] then [{ token_size := 3, description := [122, 122, 122, 46] }]
            else [] }
        document [122, 122, 122] = some [] ∧
      morph_doc_case_doc
        { names := [], normalize_text := fun s => s,
          describe := fun _ text =>
            if text = [122, 122, 122] then [{ token_size := 3, description := [122, 122, 122, 46] }]
            else [] }
        { str := [109, 101, 110], len := 3, doc_header := some document }
        { str := [122, 122, 122], len := 3, doc_header := none } = some 1 :=
  ⟨_, rfl, rfl, rfl⟩

end Morph

namespace Morph

/-- C29: the array holds the two elements 1 and 2 in a memory of four blocks.
For the index 5, `array_list_get` and `array_list_put` return `NULL` and leave
the array as it is, but `array_list_delete` lowers the size to 1, so that the
element 2 is no longer stored. -/
theorem c29_delete_out_of_range_drops_last :
    array_list_get
      ({ data := [1, 2, 0, 0], capacity := 4, initial_capacity := 4, size := 2 } : ArrayList Nat)
      5 = none ∧
    (array_list_put 0
      ({ data := [1, 2, 0, 0], capacity := 4, initial_capacity := 4, size := 2 } : ArrayList Nat)
      5 (some 9)).2 = none ∧
    array_list_elements (array_list_put 0
      ({ data := [1, 2, 0, 0], capacity := 4, initial_capacity := 4, size := 2 } : ArrayList Nat)
      5 (some 9)).1 = [1, 2] ∧
    (array_list_delete
      ({ data := [1, 2, 0, 0], capacity := 4, initial_capacity := 4, size := 2 } : ArrayList Nat)
      5).map (fun list => (list.size, array_list_elements list)) = some (1, [1]) := by
  decide

end Morph

namespace Morph

/-- C30: for the folder name `01`, of two digits and no letter, the loop of
`extract_dictionary_name` ends in the state `DIGIT` with `order_number_len = 2`
and the function returns the empty name, not `NULL`, whatever `isalpha` is, so
that `filter_dictionary_folder` keeps the folder. -/
theorem c30_digits_only_gives_empty_name (isalpha : Nat → Bool) :
    extract_dictionary_name isalpha [48, 49] = some (some []) ∧
    filter_dictionary_folder isalpha [48, 49] = some 1 := by
  constructor <;> rfl

end Morph

namespace Morph

/-- C31, the claim fails: for the word `cats`, one output of the automaton with
the annotation of the model 0 and only the lemmas asked for, one variation is
generated, the form `cats`; it is in the result once, produced once, with the
frequency 0. -/
theorem c31_form_produced_once_has_frequency_zero :
    generated_variations (fun c => decide (c = 32)) [99, 97, 116, 115] 4
      { flex_models := [[{ flexion := some [115], grammar := some 1, prefix_chars := none }]],
        all_prefixes := [] } 1
      [{ text := [], known_prefix_size := 0, annotation := [55, 55], is_prediction := 0,
         automat_prefix_size := 4 }] [] =
      some [{ word := [99, 97, 116, 115], word_length := 4, flex_model_index := 0,
              flexion_size := 1, base_size := 3, frequency := 0, grammar := some 1 }] ∧
    analyze_word (fun c => decide (c = 32)) [99, 97, 116, 115] 4
      (fun _ _ _ => some [{ is_prediction := 0, prefix_size := 4, buffer := [124, 55, 55, 0] }])
      { flex_models := [[{ flexion := some [115], grammar := some 1, prefix_chars := none }]],
        all_prefixes := [] } 1 0 =
      some [{ word := [99, 97, 116, 115], word_length := 4, flex_model_index := 0,
              flexion_size := 1, base_size := 3, frequency := 0, grammar := some 1 }] := by
  constructor <;> rfl

/-- C31, amended: for a word without a zero character and calls of the
generator that fit the morphology and the word, `analyze_word` returns, and
for every form of the array it returns, the variations generated for the
analysed flex models hold at least one that is the same form (by the word, or
by the word and the grammar when `distinct_ancodes` is set), and, when fewer
than `2 ^ 31` variations are generated, the frequency of the form is the
number of these variations less one. -/
theorem c31_frequency_counts_repeats (iswspace : Label → Bool) (word : List Label)
    (word_length : Nat)
    (outputs_generator : List Label → Nat → Nat → Option (List OutputCall))
    (morphology : MorphologyBase) (only_lemmas distinct_ancodes : Nat)
    (calls : List OutputCall)
    (hgen : outputs_generator (wcssubreverse (word.take word_length) 0 word_length) word_length
      MIN_MATCH_FOR_PREDICTION = some calls)
    (hcalls : ∀ c ∈ calls, CallFits iswspace word_length morphology only_lemmas c)
    (hmany : calls.length < 2 ^ 64)
    (hne : ∀ p ∈ morphology.all_prefixes, p ≠ [])
    (hword : ∀ c ∈ word, c ≠ 0) (hlength : word_length ≤ word.length)
    (hsize : word_length < 2 ^ 64) :
    ∃ outputs filtered generated result,
      collect_automat_output calls = some outputs ∧
      (filter_productive_output
        { data := outputs, capacity := outputs.length, initial_capacity := 10,
          size := outputs.length } word word_length morphology).map array_list_elements =
        some filtered ∧
      generated_variations iswspace word word_length morphology only_lemmas filtered [] =
        some generated ∧
      analyze_word iswspace word word_length outputs_generator morphology only_lemmas
        distinct_ancodes = some result ∧
      ∀ form ∈ result,
        1 ≤ generated.countP (fun v =>
          (if distinct_ancodes ≠ 0 then is_same_word_form_with_ancode
            else is_same_word_form) form v) ∧
        (generated.length < 2 ^ 31 →
          form.frequency + 1 = generated.countP (fun v =>
            (if distinct_ancodes ≠ 0 then is_same_word_form_with_ancode
              else is_same_word_form) form v)) := by
  obtain ⟨outputs, filtered, generated, hcollect, hfilter, hgenerated, hzero, hrun⟩ :=
    analyze_word_spec iswspace word word_length outputs_generator morphology only_lemmas
      distinct_ancodes calls hgen hcalls hmany hne hword hlength hsize
  refine ⟨outputs, filtered, generated, _, hcollect, hfilter, hgenerated, hrun, ?_⟩
  intro form hform
  have hmem : form ∈ unique_variations_to_result
      (if distinct_ancodes ≠ 0 then is_same_word_form_with_ancode else is_same_word_form)
      generated [] := by
    by_cases hlen : (unique_variations_to_result
        (if distinct_ancodes ≠ 0 then is_same_word_form_with_ancode else is_same_word_form)
        generated []).length > 1
    · rw [if_pos hlen] at hform
      exact (qsort_perm _ _).subset hform
    · rw [if_neg hlen] at hform
      exact hform
  obtain ⟨hfreq, hone⟩ := unique_variations_frequency
    (fun f : WordVariation => (f.word, if distinct_ancodes ≠ 0 then f.grammar else none))
    _ (eq_func_key distinct_ancodes) (fun _ _ => rfl) generated hzero form hmem
  refine ⟨hone, fun hsmall => ?_⟩
  have hle := List.countP_le_length
    (fun v => (if distinct_ancodes ≠ 0 then is_same_word_form_with_ancode
      else is_same_word_form) form v) (l := generated)
  rw [hfreq, to_int32_small _ (by omega) (by omega)]
  omega

/-- Witness of C31, amended: the word `cats`, two outputs with the annotations
of the models 0 and 1, and a base of these two models, which make the form
`cats` three times. -/
theorem c31_frequency_counts_repeats_witness :
    ∃ outputs filtered generated result,
      collect_automat_output
        [{ is_prediction := 0, prefix_size := 4, buffer := [124, 55, 55, 0] },
         { is_prediction := 0, prefix_size := 4, buffer := [124, 49, 69, 82, 78, 0] }] =
        some outputs ∧
      (filter_productive_output
        { data := outputs, capacity := outputs.length, initial_capacity := 10,
          size := outputs.length } [99, 97, 116, 115] 4
        { flex_models :=
            [[{ flexion := some [115], grammar := some 1, prefix_chars := none },
              { flexion := some [115], grammar := some 2, prefix_chars := some [] }],
             [{ flexion := some [115], grammar := some 1, prefix_chars := none },
              { flexion := none, grammar := some 3, prefix_chars := some [120] }]],
          all_prefixes := [[97]] }).map array_list_elements = some filtered ∧
      generated_variations (fun c => decide (c = 32)) [99, 97, 116, 115] 4
        { flex_models :=
            [[{ flexion := some [115], grammar := some 1, prefix_chars := none },
              { flexion := some [115], grammar := some 2, prefix_chars := some [] }],
             [{ flexion := some [115], grammar := some 1, prefix_chars := none },
              { flexion := none, grammar := some 3, prefix_chars := some [120] }]],
          all_prefixes := [[97]] } 0 filtered [] = some generated ∧
      analyze_word (fun c => decide (c = 32)) [99, 97, 116, 115] 4
        (fun _ _ _ =>
          some [{ is_prediction := 0, prefix_size := 4, buffer := [124, 55, 55, 0] },
                { is_prediction := 0, prefix_size := 4,
                  buffer := [124, 49, 69, 82, 78, 0] }])
        { flex_models :=
            [[{ flexion := some [115], grammar := some 1, prefix_chars := none },
              { flexion := some [115], grammar := some 2, prefix_chars := some [] }],
             [{ flexion := some [115], grammar := some 1, prefix_chars := none },
              { flexion := none, grammar := some 3, prefix_chars := some [120] }]],
          all_prefixes := [[97]] } 0 0 = some result ∧
      ∀ form ∈ result,
        1 ≤ generated.countP (fun v =>
          (if (0 : Nat) ≠ 0 then is_same_word_form_with_ancode
            else is_same_word_form) form v) ∧
        (generated.length < 2 ^ 31 →
          form.frequency + 1 = generated.countP (fun v =>
            (if (0 : Nat) ≠ 0 then is_same_word_form_with_ancode
              else is_same_word_form) form v)) :=
  c31_frequency_counts_repeats (fun c => decide (c = 32)) [99, 97, 116, 115] 4
    (fun _ _ _ =>
      some [{ is_prediction := 0, prefix_size := 4, buffer := [124, 55, 55, 0] },
            { is_prediction := 0, prefix_size := 4, buffer := [124, 49, 69, 82, 78, 0] }])
    { flex_models :=
        [[{ flexion := some [115], grammar := some 1, prefix_chars := none },
          { flexion := some [115], grammar := some 2, prefix_chars := some [] }],
         [{ flexion := some [115], grammar := some 1, prefix_chars := none },
          { flexion := none, grammar := some 3, prefix_chars := some [120] }]],
      all_prefixes := [[97]] } 0 0
    [{ is_prediction := 0, prefix_size := 4, buffer := [124, 55, 55, 0] },
     { is_prediction := 0, prefix_size := 4, buffer := [124, 49, 69, 82, 78, 0] }]
    rfl
    (by
      intro c hc
      simp only [List.mem_cons, List.mem_singleton, List.not_mem_nil, or_false] at hc
      rcases hc with rfl | rfl
      · refine ⟨[], [55, 55], [],
          [{ flexion := some [115], grammar := some 1, prefix_chars := none },
           { flexion := some [115], grammar := some 2, prefix_chars := some [] }],
          rfl, fun c hc => (by cases hc), by decide, by decide, rfl, ?_, fun _ => by decide,
          fun _ => by decide, fun h => absurd rfl h⟩
        intro v hv
        simp only [List.mem_cons, List.mem_singleton, List.not_mem_nil, or_false] at hv
        rcases hv with rfl | rfl
        · refine ⟨fun p hp => (by cases hp), fun f hf => ?_⟩
          cases hf
          exact ⟨by decide, by decide⟩
        · refine ⟨fun p hp => ?_, fun f hf => ?_⟩
          · cases hp
            exact ⟨by decide, by decide⟩
          · cases hf
            exact ⟨by decide, by decide⟩
      · refine ⟨[], [49, 69, 82, 78], [],
          [{ flexion := some [115], grammar := some 1, prefix_chars := none },
           { flexion := none, grammar := some 3, prefix_chars := some [120] }],
          rfl, fun c hc => (by cases hc), by decide, by decide, rfl, ?_, fun _ => by decide,
          fun _ => by decide, fun h => absurd rfl h⟩
        intro v hv
        simp only [List.mem_cons, List.mem_singleton, List.not_mem_nil, or_false] at hv
        rcases hv with rfl | rfl
        · refine ⟨fun p hp => (by cases hp), fun f hf => ?_⟩
          cases hf
          exact ⟨by decide, by decide⟩
        · refine ⟨fun p hp => ?_, fun f hf => (by cases hf)⟩
          cases hp
          exact ⟨by decide, by decide⟩)
    (by decide) (by decide) (by decide) (by decide) (by decide)

end Morph

namespace Morph

set_option maxRecDepth 100000 in
/-- C32, the claim fails in two ways.  For the word `acd` with the known prefix
`a`, and the three outputs of which the first is a prediction with an empty
text after two matched characters, the second a prediction with the text `z`
and the third no prediction, the first output is upgraded, the second loop
ends at once at the third output, and the second output, a prediction, stays
in the list.  For the word of 256 letters `a` and one prediction with an empty
text and no matched character, the output is upgraded and its
`known_prefix_size`, a `uint8_t`, is 0, not 256. -/
theorem c32_prediction_remains_after_upgrade :
    (filter_productive_output
      { data := [{ text := [], known_prefix_size := 0, annotation := [49], is_prediction := 1,
                   automat_prefix_size := 2 },
                 { text := [122], known_prefix_size := 0, annotation := [49], is_prediction := 1,
                   automat_prefix_size := 2 },
                 { text := [], known_prefix_size := 0, annotation := [49], is_prediction := 0,
                   automat_prefix_size := 3 }],
        capacity := 3, initial_capacity := 10, size := 3 }
      [97, 99, 100] 3 { flex_models := [], all_prefixes := [[97]] }).map array_list_elements =
      some [{ text := [], known_prefix_size := 1, annotation := [49], is_prediction := 0,
              automat_prefix_size := 2 },
            { text := [122], known_prefix_size := 0, annotation := [49], is_prediction := 1,
              automat_prefix_size := 2 },
            { text := [], known_prefix_size := 0, annotation := [49], is_prediction := 0,
              automat_prefix_size := 3 }] ∧
    (filter_productive_output
      { data := [{ text := [], known_prefix_size := 0, annotation := [49], is_prediction := 1,
                   automat_prefix_size := 0 }],
        capacity := 1, initial_capacity := 10, size := 1 }
      (List.replicate 256 97) 256
      { flex_models := [], all_prefixes := [[97]] }).map array_list_elements =
      some [{ text := [], known_prefix_size := 0, annotation := [49], is_prediction := 0,
              automat_prefix_size := 0 }] := by
  constructor <;> rfl

/-- C32, amended: for an array of outputs whose matched parts are no longer
than the word, and known prefixes that are not empty,
`filter_productive_output` returns.  If no output is one to upgrade (a
prediction with an empty text, the head of the word before the matched part
being made of known prefixes), the array is left as it is.  If there is one,
every such output is in the array afterwards with `is_prediction` 0 and
`known_prefix_size = (word_length - automat_prefix_size) mod 256`, every
output of the array afterwards is such an upgraded output or an output of
before that was not to upgrade, and, when after the last output to upgrade no
output that is no prediction follows a prediction, no output of the array
afterwards is a prediction. -/
theorem c32_filter_productive_output (outputs : ArrayList AutomatOutput) (word : List Label)
    (word_length : Nat) (morphology : MorphologyBase)
    (hdata : outputs.size ≤ outputs.data.length) (hsize : outputs.size < 2 ^ 64)
    (hne : ∀ p ∈ morphology.all_prefixes, p ≠ []) (hwl : word_length < 2 ^ 64)
    (hmatched : ∀ o ∈ array_list_elements outputs, o.automat_prefix_size ≤ word_length) :
    ∃ result, filter_productive_output outputs word word_length morphology = some result ∧
      ((∀ o ∈ array_list_elements outputs,
          ¬ Upgradable word word_length morphology.all_prefixes o) → result = outputs) ∧
      ((∃ o ∈ array_list_elements outputs,
          Upgradable word word_length morphology.all_prefixes o) →
        (∀ o ∈ array_list_elements outputs,
          Upgradable word word_length morphology.all_prefixes o →
          { o with is_prediction := 0,
                   known_prefix_size := (word_length - o.automat_prefix_size) % 2 ^ 8 } ∈
            array_list_elements result) ∧
        (∀ r ∈ array_list_elements result,
          (r ∈ array_list_elements outputs ∧
            ¬ Upgradable word word_length morphology.all_prefixes r) ∨
          ∃ o ∈ array_list_elements outputs,
            Upgradable word word_length morphology.all_prefixes o ∧
            r = { o with is_prediction := 0,
                         known_prefix_size :=
                           (word_length - o.automat_prefix_size) % 2 ^ 8 }) ∧
        (∀ (A B : List AutomatOutput) (u : AutomatOutput),
          array_list_elements outputs = A ++ u :: B →
          Upgradable word word_length morphology.all_prefixes u →
          (∀ o ∈ B, ¬ Upgradable word word_length morphology.all_prefixes o) →
          B.Pairwise (fun p n => p.is_prediction ≠ 0 → n.is_prediction ≠ 0) →
          ∀ r ∈ array_list_elements result, r.is_prediction = 0)) := by
  have hold : HoldsElements outputs (array_list_elements outputs) := ⟨hdata, hsize, rfl⟩
  obtain ⟨hnone, hsome⟩ := filter_productive_output_spec outputs (array_list_elements outputs)
    word word_length morphology hold hne hwl hmatched
  by_cases h : ∃ o ∈ array_list_elements outputs,
      Upgradable word word_length morphology.all_prefixes o
  · obtain ⟨A, u, B0, hL, hu, hB0⟩ := exists_last_with _ _ h
    obtain ⟨A0, result, hrun, hres, h1, h2, h3⟩ := hsome A B0 u hL hu hB0
    have helements := hres.2.2
    refine ⟨result, hrun, fun hno => absurd h (fun ⟨o, ho, hup⟩ => hno o ho hup), fun _ => ?_⟩
    refine ⟨?_, ?_, ?_⟩
    · intro o ho hup
      rw [helements]
      rw [hL] at ho
      rcases List.mem_append.1 ho with ho | ho
      · exact List.mem_append_left _ (h2 o ho hup)
      · rcases List.mem_cons.1 ho with rfl | ho
        · exact List.mem_append_right _ (List.mem_cons_self _ _)
        · exact absurd hup (hB0 o ho)
    · intro r hr
      rw [helements] at hr
      rcases List.mem_append.1 hr with hr | hr
      · rcases h3 r hr with ⟨hm, hn⟩ | ⟨o, ho, hup, he⟩
        · exact Or.inl ⟨by rw [hL]; exact List.mem_append_left _ hm, hn⟩
        · exact Or.inr ⟨o, by rw [hL]; exact List.mem_append_left _ ho, hup, he⟩
      · rcases List.mem_cons.1 hr with rfl | hr
        · exact Or.inr ⟨u, by rw [hL]; simp, hu, rfl⟩
        · have hr1 := (List.dropWhile_sublist _).subset (List.mem_reverse.1 hr)
          have hr2 : r ∈ B0 := List.mem_reverse.1 hr1
          exact Or.inl ⟨by rw [hL]; simp [hr2], hB0 r hr2⟩
    · intro A1 B1 u1 hL1 hu1 hB1 htail r hr
      have hsame : B1 = B0 :=
        last_with_unique _ A B0 A1 B1 u u1 (by rw [← hL, ← hL1]) hu hu1 hB0 hB1
      subst hsame
      rw [helements] at hr
      rcases List.mem_append.1 hr with hr | hr
      · exact h1 r hr
      · rcases List.mem_cons.1 hr with rfl | hr
        · rfl
        · have hpw : B1.reverse.Pairwise
              (fun a b => decide (b.is_prediction ≠ 0) = true →
                decide (a.is_prediction ≠ 0) = true) := by
            rw [List.pairwise_reverse]
            exact htail.imp (fun hab ha => by simpa using hab (by simpa using ha))
          have := dropWhile_none_left (fun o : AutomatOutput => decide (o.is_prediction ≠ 0))
            B1.reverse hpw r (List.mem_reverse.1 hr)
          simpa using this
  · refine ⟨outputs, hnone (fun o ho hu => h ⟨o, ho, hu⟩), fun _ => rfl,
      fun hsome0 => absurd hsome0 h⟩

/-- Witness of C32, amended: the word `acd` with the known prefix `a` and three
predictions, the second of which has an empty text. -/
theorem c32_filter_productive_output_witness :
    ∃ result,
      filter_productive_output
        { data := [{ text := [121], known_prefix_size := 0, annotation := [49],
                     is_prediction := 1, automat_prefix_size := 2 },
                   { text := [], known_prefix_size := 0, annotation := [49],
                     is_prediction := 1, automat_prefix_size := 2 },
                   { text := [122], known_prefix_size := 0, annotation := [49],
                     is_prediction := 1, automat_prefix_size := 2 }],
          capacity := 3, initial_capacity := 10, size := 3 }
        [97, 99, 100] 3 { flex_models := [], all_prefixes := [[97]] } = some result ∧
      ((∀ o ∈ array_list_elements
          ({ data := [{ text := [121], known_prefix_size := 0, annotation := [49],
                        is_prediction := 1, automat_prefix_size := 2 },
                      { text := [], known_prefix_size := 0, annotation := [49],
                        is_prediction := 1, automat_prefix_size := 2 },
                      { text := [122], known_prefix_size := 0, annotation := [49],
                        is_prediction := 1, automat_prefix_size := 2 }],
             capacity := 3, initial_capacity := 10, size := 3 } : ArrayList AutomatOutput),
          ¬ Upgradable [97, 99, 100] 3
            ({ flex_models := [], all_prefixes := [[97]] } : MorphologyBase).all_prefixes o) →
        result =
          { data := [{ text := [121], known_prefix_size := 0, annotation := [49],
                       is_prediction := 1, automat_prefix_size := 2 },
                     { text := [], known_prefix_size := 0, annotation := [49],
                       is_prediction := 1, automat_prefix_size := 2 },
                     { text := [122], known_prefix_size := 0, annotation := [49],
                       is_prediction := 1, automat_prefix_size := 2 }],
            capacity := 3, initial_capacity := 10, size := 3 }) ∧
      ((∃ o ∈ array_list_elements
          ({ data := [{ text := [121], known_prefix_size := 0, annotation := [49],
                        is_prediction := 1, automat_prefix_size := 2 },
                      { text := [], known_prefix_size := 0, annotation := [49],
                        is_prediction := 1, automat_prefix_size := 2 },
                      { text := [122], known_prefix_size := 0, annotation := [49],
                        is_prediction := 1, automat_prefix_size := 2 }],
             capacity := 3, initial_capacity := 10, size := 3 } : ArrayList AutomatOutput),
          Upgradable [97, 99, 100] 3
            ({ flex_models := [], all_prefixes := [[97]] } : MorphologyBase).all_prefixes o) →
        (∀ o ∈ array_list_elements
          ({ data := [{ text := [121], known_prefix_size := 0, annotation := [49],
                        is_prediction := 1, automat_prefix_size := 2 },
                      { text := [], known_prefix_size := 0, annotation := [49],
                        is_prediction := 1, automat_prefix_size := 2 },
                      { text := [122], known_prefix_size := 0, annotation := [49],
                        is_prediction := 1, automat_prefix_size := 2 }],
             capacity := 3, initial_capacity := 10, size := 3 } : ArrayList AutomatOutput),
          Upgradable [97, 99, 100] 3
            ({ flex_models := [], all_prefixes := [[97]] } : MorphologyBase).all_prefixes o →
          { o with is_prediction := 0,
                   known_prefix_size := (3 - o.automat_prefix_size) % 2 ^ 8 } ∈
            array_list_elements result) ∧
        (∀ r ∈ array_list_elements result,
          (r ∈ array_list_elements
            ({ data := [{ text := [121], known_prefix_size := 0, annotation := [49],
                          is_prediction := 1, automat_prefix_size := 2 },
                        { text := [], known_prefix_size := 0, annotation := [49],
                          is_prediction := 1, automat_prefix_size := 2 },
                        { text := [122], known_prefix_size := 0, annotation := [49],
                          is_prediction := 1, automat_prefix_size := 2 }],
               capacity := 3, initial_capacity := 10, size := 3 } :
              ArrayList AutomatOutput) ∧
            ¬ Upgradable [97, 99, 100] 3
              ({ flex_models := [], all_prefixes := [[97]] } :
                MorphologyBase).all_prefixes r) ∨
          ∃ o ∈ array_list_elements
            ({ data := [{ text := [121], known_prefix_size := 0, annotation := [49],
                          is_prediction := 1, automat_prefix_size := 2 },
                        { text := [], known_prefix_size := 0, annotation := [49],
                          is_prediction := 1, automat_prefix_size := 2 },
                        { text := [122], known_prefix_size := 0, annotation := [49],
                          is_prediction := 1, automat_prefix_size := 2 }],
               capacity := 3, initial_capacity := 10, size := 3 } :
              ArrayList AutomatOutput),
            Upgradable [97, 99, 100] 3
              ({ flex_models := [], all_prefixes := [[97]] } :
                MorphologyBase).all_prefixes o ∧
            r = { o with is_prediction := 0,
                         known_prefix_size := (3 - o.automat_prefix_size) % 2 ^ 8 }) ∧
        (∀ (A B : List AutomatOutput) (u : AutomatOutput),
          array_list_elements
            ({ data := [{ text := [121], known_prefix_size := 0, annotation := [49],
                          is_prediction := 1, automat_prefix_size := 2 },
                        { text := [], known_prefix_size := 0, annotation := [49],
                          is_prediction := 1, automat_prefix_size := 2 },
                        { text := [122], known_prefix_size := 0, annotation := [49],
                          is_prediction := 1, automat_prefix_size := 2 }],
               capacity := 3, initial_capacity := 10, size := 3 } :
              ArrayList AutomatOutput) = A ++ u :: B →
          Upgradable [97, 99, 100] 3
            ({ flex_models := [], all_prefixes := [[97]] } : MorphologyBase).all_prefixes u →
          (∀ o ∈ B, ¬ Upgradable [97, 99, 100] 3
            ({ flex_models := [], all_prefixes := [[97]] } : MorphologyBase).all_prefixes o) →
          B.Pairwise (fun p n => p.is_prediction ≠ 0 → n.is_prediction ≠ 0) →
          ∀ r ∈ array_list_elements result, r.is_prediction = 0)) :=
  c32_filter_productive_output
    { data := [{ text := [121], known_prefix_size := 0, annotation := [49],
                 is_prediction := 1, automat_prefix_size := 2 },
               { text := [], known_prefix_size := 0, annotation := [49],
                 is_prediction := 1, automat_prefix_size := 2 },
               { text := [122], known_prefix_size := 0, annotation := [49],
                 is_prediction := 1, automat_prefix_size := 2 }],
      capacity := 3, initial_capacity := 10, size := 3 }
    [97, 99, 100] 3 { flex_models := [], all_prefixes := [[97]] }
    (by decide) (by decide) (by decide) (by decide) (by decide)

end Morph

namespace Morph

/-- C33: for a word without a zero character, a flex model of the base whose
prefixes have at most 15 and whose flexions at most 30 characters, and a split
with `flexion_size + base_size ≤ word_length`, `all_word_variations` returns
one form for each variance of the model, only the one of the variance 0 when
`only_lemma` is set; the form of the variance `i` is the prefix of the
variance, the characters of the word from `word_length - flexion_size -
base_size` up to `word_length - flexion_size`, and the flexion of the
variance; its `word_length` is the length of this word, its `base_size` the
given one, its `flexion_size` the length of the flexion, its `grammar` that of
the variance, its `flex_model_index` the number of the model and its
`frequency` 0.  A prefix or a flexion that is `NULL` counts as empty. -/
theorem c33_all_word_variations (word : List Label)
    (word_length only_lemma flexion_size base_size flex_model_no : Nat)
    (base : MorphologyBase) (model : FlexModel)
    (hmodel : base.flex_models[flex_model_no]? = some model)
    (hfits : ∀ v ∈ model,
      (∀ p, v.prefix_chars = some p → p.length ≤ MAX_FLEX_PREFIX_SIZE ∧ ∀ c ∈ p, c ≠ 0) ∧
      (∀ f, v.flexion = some f → f.length ≤ MAX_FLEX_FLEXION_SIZE ∧ ∀ c ∈ f, c ≠ 0))
    (hword : ∀ c ∈ word, c ≠ 0) (hlength : word_length ≤ word.length)
    (hsize : word_length < 2 ^ 64) (hsplit : flexion_size + base_size ≤ word_length)
    (hlemma : only_lemma ≠ 0 → model ≠ []) :
    ∃ forms,
      all_word_variations word word_length only_lemma flexion_size base_size flex_model_no
        base = some forms ∧
      forms.length = (if only_lemma ≠ 0 then 1 else model.length) ∧
      ∀ (i : Nat) (v : FlexVariance), i < forms.length → model[i]? = some v →
        ∃ form, forms[i]? = some form ∧
          form.word = v.prefix_chars.getD [] ++
            (word.drop (word_length - flexion_size - base_size)).take base_size ++
            v.flexion.getD [] ∧
          form.word_length = form.word.length ∧
          form.base_size = base_size ∧
          form.flexion_size = (v.flexion.getD []).length ∧
          form.flex_model_index = flex_model_no ∧
          form.grammar = v.grammar ∧
          form.frequency = 0 := by
  have hspec := all_word_variations_spec word word_length only_lemma flexion_size base_size
    flex_model_no base model hmodel hfits hword hlength hsize hsplit hlemma
  have hstemlen : ((word.drop (word_length - flexion_size - base_size)).take base_size).length =
      base_size := by
    rw [List.length_take, List.length_drop]; omega
  have hlen : (if only_lemma ≠ 0 then model.take 1 else model).length =
      (if only_lemma ≠ 0 then 1 else model.length) := by
    by_cases h : only_lemma ≠ 0
    · rw [if_pos h, if_pos h, List.length_take]
      have := List.length_pos.2 (hlemma h)
      omega
    · rw [if_neg h, if_neg h]
  refine ⟨_, hspec, by rw [List.length_map, hlen], ?_⟩
  intro i v hi hv
  rw [List.length_map, hlen] at hi
  have hget : (if only_lemma ≠ 0 then model.take 1 else model)[i]? = some v := by
    by_cases h : only_lemma ≠ 0
    · rw [if_pos h] at hi ⊢
      rw [List.getElem?_take, if_pos hi]
      exact hv
    · rw [if_neg h]
      exact hv
  refine ⟨variation_of _ flex_model_no v, by rw [List.getElem?_map, hget]; rfl, rfl, ?_,
    hstemlen, rfl, rfl, rfl, rfl⟩
  simp only [variation_of, List.length_append]

/-- Witness of C33: the word `cats` with the flexion of one character and the
base `cat`, and a model of two variances, one with the flexion `s` and one
with the prefix `x` and no flexion. -/
theorem c33_all_word_variations_witness :
    ∃ forms,
      all_word_variations [99, 97, 116, 115] 4 0 1 3 0
        { flex_models := [[{ flexion := some [115], grammar := some 1, prefix_chars := none },
                           { flexion := none, grammar := some 2, prefix_chars := some [120] }]],
          all_prefixes := [] } = some forms ∧
      forms.length = (if (0 : Nat) ≠ 0 then 1 else
        ([{ flexion := some [115], grammar := some 1, prefix_chars := none },
          { flexion := none, grammar := some 2, prefix_chars := some [120] }] :
          FlexModel).length) ∧
      ∀ (i : Nat) (v : FlexVariance), i < forms.length →
        ([{ flexion := some [115], grammar := some 1, prefix_chars := none },
          { flexion := none, grammar := some 2, prefix_chars := some [120] }] :
          FlexModel)[i]? = some v →
        ∃ form, forms[i]? = some form ∧
          form.word = v.prefix_chars.getD [] ++
            (([99, 97, 116, 115] : List Label).drop (4 - 1 - 3)).take 3 ++
            v.flexion.getD [] ∧
          form.word_length = form.word.length ∧
          form.base_size = 3 ∧
          form.flexion_size = (v.flexion.getD []).length ∧
          form.flex_model_index = 0 ∧
          form.grammar = v.grammar ∧
          form.frequency = 0 :=
  c33_all_word_variations [99, 97, 116, 115] 4 0 1 3 0
    { flex_models := [[{ flexion := some [115], grammar := some 1, prefix_chars := none },
                       { flexion := none, grammar := some 2, prefix_chars := some [120] }]],
      all_prefixes := [] }
    [{ flexion := some [115], grammar := some 1, prefix_chars := none },
     { flexion := none, grammar := some 2, prefix_chars := some [120] }]
    rfl
    (by
      intro v hv
      simp only [List.mem_cons, List.mem_singleton, List.not_mem_nil, or_false] at hv
      rcases hv with rfl | rfl
      · refine ⟨fun p hp => (by cases hp), fun f hf => ?_⟩
        cases hf
        exact ⟨by decide, by decide⟩
      · refine ⟨fun p hp => ?_, fun f hf => (by cases hf)⟩
        cases hp
        exact ⟨by decide, by decide⟩)
    (by decide) (by decide) (by decide) (by decide) (by decide)

end Morph

namespace Morph

/-- C34: for a word without a zero character and calls of the generator that
fit the morphology and the word, `analyze_word` returns, and the array it
returns is in the order of frequencies that do not ascend: of two forms the
earlier one has a frequency that is at least that of the later one. -/
theorem c34_result_sorted_by_frequency (iswspace : Label → Bool) (word : List Label)
    (word_length : Nat)
    (outputs_generator : List Label → Nat → Nat → Option (List OutputCall))
    (morphology : MorphologyBase) (only_lemmas distinct_ancodes : Nat)
    (calls : List OutputCall)
    (hgen : outputs_generator (wcssubreverse (word.take word_length) 0 word_length) word_length
      MIN_MATCH_FOR_PREDICTION = some calls)
    (hcalls : ∀ c ∈ calls, CallFits iswspace word_length morphology only_lemmas c)
    (hmany : calls.length < 2 ^ 64)
    (hne : ∀ p ∈ morphology.all_prefixes, p ≠ [])
    (hword : ∀ c ∈ word, c ≠ 0) (hlength : word_length ≤ word.length)
    (hsize : word_length < 2 ^ 64) :
    ∃ result,
      analyze_word iswspace word word_length outputs_generator morphology only_lemmas
        distinct_ancodes = some result ∧
      ∀ (i j : Nat) (form_i form_j : WordVariation), i < j →
        result[i]? = some form_i → result[j]? = some form_j →
        form_i.frequency ≥ form_j.frequency := by
  obtain ⟨outputs, filtered, generated, _, _, _, _, hrun⟩ := analyze_word_spec iswspace word
    word_length outputs_generator morphology only_lemmas distinct_ancodes calls hgen hcalls
    hmany hne hword hlength hsize
  refine ⟨_, hrun, ?_⟩
  have hpairwise : (if (unique_variations_to_result
        (if distinct_ancodes ≠ 0 then is_same_word_form_with_ancode else is_same_word_form)
        generated []).length > 1 then
      qsort (unique_variations_to_result
        (if distinct_ancodes ≠ 0 then is_same_word_form_with_ancode else is_same_word_form)
        generated []) word_form_frequency_comparer
    else unique_variations_to_result
      (if distinct_ancodes ≠ 0 then is_same_word_form_with_ancode else is_same_word_form)
      generated []).Pairwise (fun a b => a.frequency ≥ b.frequency) := by
    by_cases hlen : (unique_variations_to_result
        (if distinct_ancodes ≠ 0 then is_same_word_form_with_ancode else is_same_word_form)
        generated []).length > 1
    · rw [if_pos hlen]
      exact qsort_frequency_sorted _
    · rw [if_neg hlen]
      cases hres : unique_variations_to_result
          (if distinct_ancodes ≠ 0 then is_same_word_form_with_ancode else is_same_word_form)
          generated [] with
      | nil => exact List.Pairwise.nil
      | cons x rest =>
        rw [hres] at hlen
        have hrest : rest = [] := by
          apply List.eq_nil_of_length_eq_zero
          simp only [List.length_cons] at hlen
          omega
        subst hrest
        exact List.pairwise_singleton _ _
  intro i j form_i form_j hij hi hj
  obtain ⟨hi1, hi2⟩ := List.getElem?_eq_some.1 hi
  obtain ⟨hj1, hj2⟩ := List.getElem?_eq_some.1 hj
  rw [← hi2, ← hj2]
  exact List.pairwise_iff_getElem.1 hpairwise i j hi1 hj1 hij

/-- Witness of C34: the word `cats`, two outputs with the annotations of the
models 0 and 1, and a base of these two models; the forms are compared with
their grammars. -/
theorem c34_result_sorted_by_frequency_witness :
    ∃ result,
      analyze_word (fun c => decide (c = 32)) [99, 97, 116, 115] 4
        (fun _ _ _ =>
          some [{ is_prediction := 0, prefix_size := 4, buffer := [124, 55, 55, 0] },
                { is_prediction := 0, prefix_size := 4,
                  buffer := [124, 49, 69, 82, 78, 0] }])
        { flex_models :=
            [[{ flexion := some [115], grammar := some 1, prefix_chars := none },
              { flexion := some [115], grammar := some 2, prefix_chars := some [] }],
             [{ flexion := some [115], grammar := some 1, prefix_chars := none }]],
          all_prefixes := [[97]] } 0 1 = some result ∧
      ∀ (i j : Nat) (form_i form_j : WordVariation), i < j →
        result[i]? = some form_i → result[j]? = some form_j →
        form_i.frequency ≥ form_j.frequency :=
  c34_result_sorted_by_frequency (fun c => decide (c = 32)) [99, 97, 116, 115] 4
    (fun _ _ _ =>
      some [{ is_prediction := 0, prefix_size := 4, buffer := [124, 55, 55, 0] },
            { is_prediction := 0, prefix_size := 4, buffer := [124, 49, 69, 82, 78, 0] }])
    { flex_models :=
        [[{ flexion := some [115], grammar := some 1, prefix_chars := none },
          { flexion := some [115], grammar := some 2, prefix_chars := some [] }],
         [{ flexion := some [115], grammar := some 1, prefix_chars := none }]],
      all_prefixes := [[97]] } 0 1
    [{ is_prediction := 0, prefix_size := 4, buffer := [124, 55, 55, 0] },
     { is_prediction := 0, prefix_size := 4, buffer := [124, 49, 69, 82, 78, 0] }]
    rfl
    (by
      intro c hc
      simp only [List.mem_cons, List.mem_singleton, List.not_mem_nil, or_false] at hc
      rcases hc with rfl | rfl
      · refine ⟨[], [55, 55], [],
          [{ flexion := some [115], grammar := some 1, prefix_chars := none },
           { flexion := some [115], grammar := some 2, prefix_chars := some [] }],
          rfl, fun c hc => (by cases hc), by decide, by decide, rfl, ?_, fun _ => by decide,
          fun _ => by decide, fun h => absurd rfl h⟩
        intro v hv
        simp only [List.mem_cons, List.mem_singleton, List.not_mem_nil, or_false] at hv
        rcases hv with rfl | rfl
        · refine ⟨fun p hp => (by cases hp), fun f hf => ?_⟩
          cases hf
          exact ⟨by decide, by decide⟩
        · refine ⟨fun p hp => ?_, fun f hf => ?_⟩
          · cases hp
            exact ⟨by decide, by decide⟩
          · cases hf
            exact ⟨by decide, by decide⟩
      · refine ⟨[], [49, 69, 82, 78], [],
          [{ flexion := some [115], grammar := some 1, prefix_chars := none }],
          rfl, fun c hc => (by cases hc), by decide, by decide, rfl, ?_, fun _ => by decide,
          fun _ => by decide, fun h => absurd rfl h⟩
        intro v hv
        simp only [List.mem_singleton] at hv
        subst hv
        refine ⟨fun p hp => (by cases hp), fun f hf => ?_⟩
        cases hf
        exact ⟨by decide, by decide⟩)
    (by decide) (by decide) (by decide) (by decide) (by decide)

end Morph

namespace Morph

/-- C35: for a text of valid characters without a zero byte, the loop of the
calls of `tokenize` returns, and every call that gives a token returns the
offsets `token_start` and `token_end` of its first and of its last byte and
the length `token_end - token_start + 1`, which is positive; the bytes of the
token are those of a list of characters that is not empty, each alphanumeric
or one of the characters allowed in a word, the first and the last
alphanumeric, and no two neighbours both allowed in a word.  The decoding of
the characters and `iswalnum` are those of the C library, of which is used
what `DecoderOk` lists and that the four characters allowed in a word are not
alphanumeric. -/
theorem c35_tokens_are_words (mbrtowc : Bytes → Option (Label × Nat))
    (iswalnum : Label → Bool) (hd : DecoderOk mbrtowc iswalnum)
    (hextra : ∀ c, is_extra_token_char c = true → iswalnum c = false) (text : Bytes)
    (hvalid : ValidText mbrtowc text) (hnz : ∀ b ∈ text, b ≠ 0) :
    ∃ calls, tokenize_calls mbrtowc iswalnum text = some calls ∧
      ∀ call ∈ calls, ∃ (a e : Nat) (chars : List (Label × Bytes)),
        call.2.1 = some (a : Int) ∧ call.2.2 = some (e : Int) ∧
        call.1 = (e : Int) - (a : Int) + 1 ∧ 0 < call.1 ∧ a ≤ e ∧ e < text.length ∧
        (text.drop a).take (e + 1 - a) = (chars.map (fun p => p.2)).flatten ∧
        chars ≠ [] ∧
        (∀ p ∈ chars, IsChar mbrtowc p.1 p.2 ∧
          (iswalnum p.1 = true ∨ is_extra_token_char p.1 = true)) ∧
        (∃ p, chars.head? = some p ∧ iswalnum p.1 = true) ∧
        (∃ p, chars.getLast? = some p ∧ iswalnum p.1 = true) ∧
        chars.Chain' (fun p q =>
          ¬ (is_extra_token_char p.1 = true ∧ is_extra_token_char q.1 = true)) := by
  obtain ⟨tokens, htokens⟩ := tokens_of_valid hd text.length text (le_refl _) hvalid hnz
  obtain ⟨calls, hrun, hall⟩ := tokenize_calls_loop_tokens mbrtowc iswalnum hd text tokens
    htokens [] (text.length + 1) (some 0) none none none (Or.inl ⟨rfl, by simp⟩)
    (by have := tokens_length_le htokens; omega)
  rw [List.nil_append] at hrun hall
  refine ⟨calls, hrun, ?_⟩
  have hshaped := tokens_shaped htokens
  intro call hcall
  obtain ⟨t, htmem, a, hcall0, htake⟩ := forall₂_partner hall call hcall
  have ht := hshaped t htmem
  have hpos := tokenShaped_length_pos ht
  obtain ⟨chars, hflat, hchars, hfirst, hlast, hchain⟩ := tokenShaped_chars ht
  have hlen : t.length ≤ text.length - a := by
    have := congrArg List.length htake
    rw [List.length_take, List.length_drop] at this
    omega
  have hlen2 : a < text.length := by omega
  refine ⟨a, a + t.length - 1, chars, ?_, ?_, ?_, ?_, by omega, by omega, ?_, ?_,
    hchars, hfirst, hlast, ?_⟩
  · rw [hcall0]
  · rw [hcall0]
    simp only [Option.some.injEq]
    omega
  · rw [hcall0]
    simp only
    omega
  · rw [hcall0]
    simp only
    omega
  · have : a + t.length - 1 + 1 - a = t.length := by omega
    rw [this, htake, hflat]
  · intro h
    rw [h] at hfirst
    obtain ⟨p, hp, _⟩ := hfirst
    cases hp
  · refine List.Chain'.imp ?_ hchain
    intro p q hpq hboth
    rcases hpq with h | h
    · rw [hextra p.1 hboth.1] at h
      cases h
    · rw [hextra q.1 hboth.2] at h
      cases h

set_option maxRecDepth 100000 in
/-- C35 on the text of the 14 bytes of `как-то a_` in UTF-8, with the decoder of
the characters of one and of two bytes. -/
theorem c35_tokens_are_words_witness :
    ∃ calls, tokenize_calls mbrtowc_utf8 iswalnum_sample
        [208, 186, 208, 176, 208, 186, 45, 209, 130, 208, 190, 32, 97, 95] = some calls ∧
      ∀ call ∈ calls, ∃ (a e : Nat) (chars : List (Label × Bytes)),
        call.2.1 = some (a : Int) ∧ call.2.2 = some (e : Int) ∧
        call.1 = (e : Int) - (a : Int) + 1 ∧ 0 < call.1 ∧ a ≤ e ∧
        e < ([208, 186, 208, 176, 208, 186, 45, 209, 130, 208, 190, 32, 97, 95] : Bytes).length ∧
        (([208, 186, 208, 176, 208, 186, 45, 209, 130, 208, 190, 32, 97, 95] : Bytes).drop
          a).take (e + 1 - a) = (chars.map (fun p => p.2)).flatten ∧
        chars ≠ [] ∧
        (∀ p ∈ chars, IsChar mbrtowc_utf8 p.1 p.2 ∧
          (iswalnum_sample p.1 = true ∨ is_extra_token_char p.1 = true)) ∧
        (∃ p, chars.head? = some p ∧ iswalnum_sample p.1 = true) ∧
        (∃ p, chars.getLast? = some p ∧ iswalnum_sample p.1 = true) ∧
        chars.Chain' (fun p q =>
          ¬ (is_extra_token_char p.1 = true ∧ is_extra_token_char q.1 = true)) :=
  c35_tokens_are_words mbrtowc_utf8 iswalnum_sample decoderOk_utf8 extra_not_alnum_sample
    [208, 186, 208, 176, 208, 186, 45, 209, 130, 208, 190, 32, 97, 95]
    (validText_of_check mbrtowc_utf8 14 _ (by decide)) (by decide)

end Morph

namespace Morph

/-- C36: with the one dictionary `ru` loaded, the phrase `r|cat` asks for the
language `r`, of one byte; `get_dictionary` compares the first byte only and
returns the dictionary `ru`, whose name is not the requested name, and
`parse_phrase` takes it for the language of the phrase. -/
theorem c36_prefix_of_a_name_is_accepted :
    get_dictionary [[114, 117]] [114, 124, 99, 97, 116] 1 = some 0 ∧
    ([[114, 117]] : List Bytes)[0]? = some [114, 117] ∧
    ([114, 117] : Bytes) ≠ ([114, 124, 99, 97, 116] : Bytes).take 1 ∧
    parse_phrase [114, 124, 99, 97, 116] [[114, 117]] = ([99, 97, 116], some 0, false) := by
  decide

end Morph

namespace Morph

/-- C37: for a state of the compact automaton whose stored transitions (the
first `transitions_count` of the array) ascend strictly by label and lead to
states of the automaton, and for every label, the binary search of
`mini_find_transition` returns, and its result is the target of the
transition that the linear search `find_transition` finds among the same
labels and targets, or `NULL` when that search finds none: a target is
returned exactly when a stored transition bears the label and leads to it. -/
theorem c37_binary_search_agrees (automat : MiniAutomat) (state : Nat) (s : MiniState)
    (hstate : automat.states[state]? = some s)
    (hcount : s.transitions_count ≤ s.transitions.length)
    (htargets : ∀ t ∈ s.transitions.take s.transitions_count,
      t.target < automat.states.length)
    (hsorted : (s.transitions.take s.transitions_count).Pairwise
      (fun a b => a.label < b.label))
    (label : Label) :
    mini_find_transition automat state label =
      some ((find_transition
        ((s.transitions.take s.transitions_count).map
          (fun t => ({ label := t.label, target := t.target } : Transition))) label).map
        (fun t => t.target)) ∧
    (∀ target, mini_find_transition automat state label = some (some target) ↔
      ∃ t ∈ s.transitions.take s.transitions_count, t.label = label ∧ t.target = target) ∧
    ((∀ t ∈ s.transitions.take s.transitions_count, t.label ≠ label) →
      mini_find_transition automat state label = some none) := by
  have hmem : ∀ (i : Nat) (t : MiniTransition), i < s.transitions_count →
      s.transitions[i]? = some t → t ∈ s.transitions.take s.transitions_count := by
    intro i t hi ht
    have h1 : (s.transitions.take s.transitions_count)[i]? = some t := by
      rw [List.getElem?_take, if_pos hi]
      exact ht
    obtain ⟨h2, h3⟩ := List.getElem?_eq_some.1 h1
    rw [← h3]
    exact List.getElem_mem h2
  have hidx : ∀ t ∈ s.transitions.take s.transitions_count,
      ∃ i, i < s.transitions_count ∧ s.transitions[i]? = some t := by
    intro t ht
    obtain ⟨i, hi⟩ := List.getElem?_of_mem ht
    rw [List.getElem?_take] at hi
    by_cases hlt : i < s.transitions_count
    · rw [if_pos hlt] at hi
      exact ⟨i, hlt, hi⟩
    · rw [if_neg hlt] at hi
      cases hi
  have hspec : ∃ r, mini_find_transition automat state label = some r ∧
      ∀ target, r = some target ↔
        ∃ t ∈ s.transitions.take s.transitions_count, t.label = label ∧ t.target = target := by
    simp only [mini_find_transition, hstate, Option.bind_eq_bind, Option.some_bind]
    by_cases hc : s.transitions_count > 0
    · rw [if_pos hc]
      obtain ⟨r, hr, hiff⟩ := mini_find_loop_spec automat s.transitions label
        s.transitions_count hcount
        (fun i t hi ht => htargets t (hmem i t hi ht))
        (fun i j ti tj hij hj hti htj => by
          have h1 : (s.transitions.take s.transitions_count)[i]? = some ti := by
            rw [List.getElem?_take, if_pos (by omega)]; exact hti
          have h2 : (s.transitions.take s.transitions_count)[j]? = some tj := by
            rw [List.getElem?_take, if_pos hj]; exact htj
          obtain ⟨hi1, hi2⟩ := List.getElem?_eq_some.1 h1
          obtain ⟨hj1, hj2⟩ := List.getElem?_eq_some.1 h2
          rw [← hi2, ← hj2]
          exact List.pairwise_iff_getElem.1 hsorted i j hi1 hj1 hij)
        s.transitions_count 0 ((s.transitions_count : Int) - 1) (le_refl _) (by omega)
        (by omega) (by omega) (fun i t hi _ => by omega) (fun i t hi hi2 _ => by omega)
      refine ⟨r, hr, fun target => ?_⟩
      rw [hiff target]
      constructor
      · rintro ⟨i, t, hi, ht, hl, htt⟩
        exact ⟨t, hmem i t hi ht, hl, htt⟩
      · rintro ⟨t, ht, hl, htt⟩
        obtain ⟨i, hi, hti⟩ := hidx t ht
        exact ⟨i, t, hi, hti, hl, htt⟩
    · rw [if_neg hc]
      refine ⟨none, rfl, fun target => ⟨fun h => (by cases h), ?_⟩⟩
      rintro ⟨t, ht, _⟩
      have h0 : s.transitions_count = 0 := by omega
      rw [h0] at ht
      simp at ht
  obtain ⟨r, hr, hiff⟩ := hspec
  have hlinear := find_transition_spec label
    ((s.transitions.take s.transitions_count).map
      (fun t => ({ label := t.label, target := t.target } : Transition)))
    (by rw [List.pairwise_map]; exact hsorted)
  refine ⟨?_, ?_, ?_⟩
  · rw [hr]
    congr 1
    apply option_eq_of_iff _ _ _ hiff
    intro target
    rw [hlinear target]
    simp only [List.mem_map, exists_exists_and_eq_and]
  · intro target
    rw [hr, ← hiff target]
    simp only [Option.some.injEq]
  · intro hnone
    rw [hr]
    cases r with
    | none => rfl
    | some target =>
      obtain ⟨t, ht, hl, _⟩ := (hiff target).1 rfl
      exact absurd hl (hnone t ht)

/-- Witness of C37: the state 0 with the transitions `a`, `c`, `e` to the
states 1, 2 and 0, and the label `c`. -/
theorem c37_binary_search_agrees_witness :
    mini_find_transition
        { states_count := 3,
          states := [{ is_final := 0, transitions_count := 3,
                       transitions := [{ label := 97, target := 1 }, { label := 99, target := 2 },
                                       { label := 101, target := 0 }] },
                     { is_final := 1, transitions_count := 0, transitions := [] },
                     { is_final := 1, transitions_count := 0, transitions := [] }] } 0 99 =
      some ((find_transition
        ((([{ label := 97, target := 1 }, { label := 99, target := 2 },
            { label := 101, target := 0 }] : List MiniTransition).take 3).map
          (fun t => ({ label := t.label, target := t.target } : Transition))) 99).map
        (fun t => t.target)) ∧
    (∀ target, mini_find_transition
        { states_count := 3,
          states := [{ is_final := 0, transitions_count := 3,
                       transitions := [{ label := 97, target := 1 }, { label := 99, target := 2 },
                                       { label := 101, target := 0 }] },
                     { is_final := 1, transitions_count := 0, transitions := [] },
                     { is_final := 1, transitions_count := 0, transitions := [] }] } 0 99 =
        some (some target) ↔
      ∃ t ∈ ([{ label := 97, target := 1 }, { label := 99, target := 2 },
              { label := 101, target := 0 }] : List MiniTransition).take 3,
        t.label = 99 ∧ t.target = target) ∧
    ((∀ t ∈ ([{ label := 97, target := 1 }, { label := 99, target := 2 },
              { label := 101, target := 0 }] : List MiniTransition).take 3, t.label ≠ 99) →
      mini_find_transition
        { states_count := 3,
          states := [{ is_final := 0, transitions_count := 3,
                       transitions := [{ label := 97, target := 1 }, { label := 99, target := 2 },
                                       { label := 101, target := 0 }] },
                     { is_final := 1, transitions_count := 0, transitions := [] },
                     { is_final := 1, transitions_count := 0, transitions := [] }] } 0 99 =
        some none) :=
  c37_binary_search_agrees
    { states_count := 3,
      states := [{ is_final := 0, transitions_count := 3,
                   transitions := [{ label := 97, target := 1 }, { label := 99, target := 2 },
                                   { label := 101, target := 0 }] },
                 { is_final := 1, transitions_count := 0, transitions := [] },
                 { is_final := 1, transitions_count := 0, transitions := [] }] }
    0
    { is_final := 0, transitions_count := 3,
      transitions := [{ label := 97, target := 1 }, { label := 99, target := 2 },
                      { label := 101, target := 0 }] }
    rfl (by decide) (by decide) (by decide) 99

end Morph

namespace Morph

/-- C38: for a document of at least one word, every word described as
`make_word_description` lays it out, whose text fits the `int32_t` offsets of
a range, the ranges that `build_text_with_ranges`
returns tile the text: there is one range for each word, the first starts at
0, each next one starts where the one before ends, `word_index` is the index
of the range, a range starts before it ends, the text holds the terminator `.`
at every start and at every end, and every position below the end of the last
range lies in exactly one range. -/
theorem c38_ranges_tile (w : DescribedWord) (words : List DescribedWord)
    (hall : ∀ w0 ∈ w :: words, ∃ lemmas form, w0 = described lemmas form)
    (hsize : (words_text (w :: words)).length < 2 ^ 31) :
    ∃ (text : Bytes) (ranges : List WordRange),
      build_text_with_ranges (w :: words) = (text, ranges) ∧
      ranges.length = words.length + 1 ∧
      (∃ r0 : WordRange, ranges[0]? = some r0 ∧ r0.start_position = 0) ∧
      (∀ (i : Nat) (r r1 : WordRange), ranges[i]? = some r → ranges[i + 1]? = some r1 →
        r1.start_position = r.end_position) ∧
      (∀ (i : Nat) (r : WordRange), ranges[i]? = some r →
        r.word_index = i ∧ 0 ≤ r.start_position ∧ r.start_position < r.end_position ∧
        text[r.start_position.toNat]? = some 46 ∧ text[r.end_position.toNat]? = some 46) ∧
      (∀ last, ranges.getLast? = some last → ∀ p : Nat, (p : Int) < last.end_position →
        ∃! i : Nat, ∃ r : WordRange, ranges[i]? = some r ∧ r.start_position ≤ p ∧ (p : Int) < r.end_position) := by
  refine ⟨_, _, build_text_with_ranges_described w words hall hsize, ?_, ?_, ?_, ?_, ?_⟩
  · rw [ranges_from_length]; rfl
  · exact ⟨_, document_ranges_getElem (w :: words) 0 w (by simp), by simp [range_start_zero]⟩
  · intro i r r1 hr hr1
    obtain ⟨_, _, _, h4⟩ := document_ranges_inv _ _ _ hr
    obtain ⟨_, _, h3, _⟩ := document_ranges_inv _ _ _ hr1
    rw [h3, h4]
  · intro i r hr
    obtain ⟨h1, h2, h3, h4⟩ := document_ranges_inv _ _ _ hr
    obtain ⟨lemmas, form, hw⟩ := hall (w :: words)[i] (List.getElem_mem h1)
    have hstep := range_start_step (w :: words) i _ (List.getElem?_eq_getElem h1)
    have hpos := described_length_pos lemmas form
    rw [← hw] at hpos
    refine ⟨h2, by omega, by omega, ?_, ?_⟩
    · rw [h3, Int.toNat_ofNat]
      exact terminator_at_range_start _ hall i (by omega)
    · rw [h4, Int.toNat_ofNat]
      exact terminator_at_range_start _ hall (i + 1) h1
  · intro last hlast p hp
    rw [List.getLast?_eq_getElem?] at hlast
    obtain ⟨hl1, _, _, hl4⟩ := document_ranges_inv _ _ _ hlast
    rw [ranges_from_length] at hl1 hl4
    have hp2 : p < range_start (w :: words) (w :: words).length := by
      have : (w :: words).length - 1 + 1 = (w :: words).length := by
        simp
      rw [this] at hl4
      omega
    obtain ⟨j, hj, hlo, hhi⟩ := range_cover (w :: words) p _ hp2
    refine ⟨j, ⟨_, document_ranges_getElem (w :: words) j _ (List.getElem?_eq_getElem hj),
      Int.ofNat_le.2 hlo, Int.ofNat_lt.2 hhi⟩, ?_⟩
    rintro i ⟨r, hr, h1, h2⟩
    obtain ⟨_, _, h3, h4⟩ := document_ranges_inv _ _ _ hr
    rw [h3] at h1
    rw [h4] at h2
    have h1 : range_start (w :: words) i ≤ p := by exact_mod_cast h1
    have h2 : p < range_start (w :: words) (i + 1) := by exact_mod_cast h2
    rcases Nat.lt_trichotomy i j with hlt | heq | hgt
    · have := range_start_mono (w :: words) (show i + 1 ≤ j from hlt)
      omega
    · exact heq
    · have := range_start_mono (w :: words) (show j + 1 ≤ i from hgt)
      omega

/-- Witness of C38: the document of the words `cat` and `cats`, the second
described with the lemma `cat`. -/
theorem c38_ranges_tile_witness :
    ∃ (text : Bytes) (ranges : List WordRange),
      build_text_with_ranges
        (described [] [99, 97, 116] :: [described [[99, 97, 116]] [99, 97, 116, 115]]) =
        (text, ranges) ∧
      ranges.length = [described [[99, 97, 116]] [99, 97, 116, 115]].length + 1 ∧
      (∃ r0 : WordRange, ranges[0]? = some r0 ∧ r0.start_position = 0) ∧
      (∀ (i : Nat) (r r1 : WordRange), ranges[i]? = some r → ranges[i + 1]? = some r1 →
        r1.start_position = r.end_position) ∧
      (∀ (i : Nat) (r : WordRange), ranges[i]? = some r →
        r.word_index = i ∧ 0 ≤ r.start_position ∧ r.start_position < r.end_position ∧
        text[r.start_position.toNat]? = some 46 ∧ text[r.end_position.toNat]? = some 46) ∧
      (∀ last, ranges.getLast? = some last → ∀ p : Nat, (p : Int) < last.end_position →
        ∃! i : Nat, ∃ r : WordRange, ranges[i]? = some r ∧ r.start_position ≤ p ∧ (p : Int) < r.end_position) :=
  c38_ranges_tile (described [] [99, 97, 116]) [described [[99, 97, 116]] [99, 97, 116, 115]]
    (fun w0 hw => by
      simp only [List.mem_cons, List.mem_singleton, List.not_mem_nil, or_false] at hw
      rcases hw with rfl | rfl
      · exact ⟨_, _, rfl⟩
      · exact ⟨_, _, rfl⟩)
    (by decide)

end Morph

namespace Morph

/-- C39: for the document of well described words whose text fits `int32_t`
and a phrase of well described tokens, the loop of `document_find_intersection`
over the tokens returns, and every pointer it leaves in `allowed_ranges` for
the `t` tokens it counted is `ranges + j + t` with `j + t` at most the number
of ranges; the reconstruction loop starts at `ranges + j` and the `t` records
`ranges[j]` to `ranges[j + t - 1]` it reads exist. -/
theorem c39_allowed_ranges_in_bounds (words : List DescribedWord)
    (hws : ∀ w ∈ words, WellDescribed w) (hsize : (words_text words).length + 2 < 2 ^ 31)
    (phrase : List DescribedWord) (hphrase : ∀ w ∈ phrase, WellDescribed w)
    (exact_match : Bool) :
    ∃ document allowed t,
      make_document words = some document ∧
      intersection_tokens document exact_match phrase [] [] 0 = some (allowed, t) ∧
      ∀ x ∈ allowed, ∃ j : Nat, x = some (j + t) ∧ j + t ≤ document.ranges.length ∧
        (((j + t : Nat) : Int) - 1 - t + 1 = j) ∧
        ∀ k, k < t → ∃ r, document.ranges[j + k]? = some r := by
  obtain ⟨document, hmake, hdoc⟩ := make_document_returns words hws hsize
  obtain ⟨allowed, t, hrun, hinv⟩ := intersection_tokens_returns document hdoc exact_match
    phrase hphrase [] [] 0 (fun _ => rfl) (fun x hx => by cases hx)
  refine ⟨document, allowed, t, hmake, hrun, ?_⟩
  intro x hx
  obtain ⟨r, hr, h1, h2⟩ := hinv x hx
  refine ⟨r - t, ?_, ?_, ?_, ?_⟩
  · rw [hr, Nat.sub_add_cancel h1]
  · omega
  · omega
  · intro k hk
    exact ⟨document.ranges[r - t + k], List.getElem?_eq_getElem (by omega)⟩

/-- Witness of C39: the document of the words `a` and `b` and the phrase
`a b`. -/
theorem c39_allowed_ranges_in_bounds_witness :
    ∃ document allowed t,
      make_document [described [] [97], described [] [98]] = some document ∧
      intersection_tokens document false [described [] [97], described [] [98]] [] [] 0 =
        some (allowed, t) ∧
      ∀ x ∈ allowed, ∃ j : Nat, x = some (j + t) ∧ j + t ≤ document.ranges.length ∧
        (((j + t : Nat) : Int) - 1 - t + 1 = j) ∧
        ∀ k, k < t → ∃ r, document.ranges[j + k]? = some r :=
  c39_allowed_ranges_in_bounds [described [] [97], described [] [98]]
    (fun w hw => by
      simp only [List.mem_cons, List.mem_singleton, List.not_mem_nil, or_false] at hw
      rcases hw with rfl | rfl
      · exact ⟨[], [97], rfl, by simp [IsComponent, WORD_DESCRIPTION_TERMINATOR]⟩
      · exact ⟨[], [98], rfl, by simp [IsComponent, WORD_DESCRIPTION_TERMINATOR]⟩)
    (by simp [words_text, described, description_of])
    [described [] [97], described [] [98]]
    (fun w hw => by
      simp only [List.mem_cons, List.mem_singleton, List.not_mem_nil, or_false] at hw
      rcases hw with rfl | rfl
      · exact ⟨[], [97], rfl, by simp [IsComponent, WORD_DESCRIPTION_TERMINATOR]⟩
      · exact ⟨[], [98], rfl, by simp [IsComponent, WORD_DESCRIPTION_TERMINATOR]⟩)
    false

end Morph

namespace Morph

/-- C40: for a compact automaton whose transitions lead to states of the
automaton, with or without a cycle, and for every state, a call of
`mini_collect_output` at a depth below `buffer_size` returns as soon as there
is fuel for the `buffer_size - depth` levels of the recursion; every call of
the run is entered at a depth from `depth` to `buffer_size - 1`, and every
write to the buffer has an index below `buffer_size`.  Outside prediction mode
at the depth 0 the state is final or has the transition `|`, as it has when
`mini_possible_outputs` makes the call.  The events left out, the run is that
of `mini_collect_output`. -/
theorem c40_collect_output_bounded (automat : MiniAutomat) (hwf : WellFormedMini automat)
    (state : Nat) (s : MiniState) (hget : automat.states[state]? = some s)
    (is_prediction prefix_size depth buffer_size fuel : Nat) (buffer : List Label)
    (calls : List OutputCall)
    (hdepth : depth + 1 ≤ buffer_size) (hfuel : buffer_size ≤ fuel + depth)
    (hcall : is_prediction ≠ 0 ∨ 1 ≤ depth ∨ s.is_final ≠ 0 ∨
      ∃ target, mini_find_transition automat state ANNOTATION_DELIMITER = some (some target)) :
    ∃ buffer0 calls0 events,
      mini_collect_events automat fuel state is_prediction prefix_size depth buffer buffer_size
        calls [] = some (buffer0, calls0, events) ∧
      mini_collect_output automat fuel state is_prediction prefix_size depth buffer buffer_size
        calls = some (buffer0, calls0) ∧
      ∀ e ∈ events,
        (∀ k, e = CollectEvent.call k → depth ≤ k ∧ k ≤ buffer_size - 1) ∧
        (∀ i, e = CollectEvent.write i → i < buffer_size) := by
  have hstate : state < automat.states.length := (List.getElem?_eq_some.1 hget).1
  have hspec : EventsSpec depth depth buffer_size []
      (mini_collect_events automat fuel state is_prediction prefix_size depth buffer buffer_size
        calls []) := by
    by_cases hmode : 1 ≤ depth ∨ is_prediction ≠ 0
    · exact mini_collect_events_spec automat hwf buffer_size fuel state is_prediction
        prefix_size depth buffer calls [] hstate (by omega) hfuel hmode
    · have hd : depth = 0 := by omega
      have hp : is_prediction = 0 := by omega
      subst hd
      subst hp
      refine mini_collect_events_top automat hwf buffer_size fuel state prefix_size buffer
        calls [] s hget (by omega) (by omega) ?_
      rcases hcall with h | h | h | h
      · exact absurd rfl h
      · omega
      · exact Or.inl h
      · exact Or.inr h
  obtain ⟨buffer0, calls0, new, hrun, hok⟩ := hspec
  rw [List.nil_append] at hrun
  refine ⟨buffer0, calls0, new, hrun, ?_, ?_⟩
  · rw [← mini_collect_events_erase automat fuel state is_prediction prefix_size depth buffer
      buffer_size calls [], hrun]
    rfl
  · intro e he
    obtain ⟨h1, h2⟩ := hok e he
    refine ⟨fun k hk => ?_, h2⟩
    obtain ⟨h3, h4⟩ := h1 k hk
    omega

/-- Witness of C40: an automaton with a cycle, the state 0 leading to itself
by `a`, in prediction mode with a buffer of three characters. -/
theorem c40_collect_output_bounded_witness :
    ∃ buffer0 calls0 events,
      mini_collect_events
        { states_count := 2,
          states := [{ is_final := 0, transitions_count := 2,
                       transitions := [⟨97, 0⟩, ⟨124, 1⟩] },
                     { is_final := 1, transitions_count := 0, transitions := [] }] }
        3 0 1 0 0 [0, 0, 0] 3 [] [] = some (buffer0, calls0, events) ∧
      mini_collect_output
        { states_count := 2,
          states := [{ is_final := 0, transitions_count := 2,
                       transitions := [⟨97, 0⟩, ⟨124, 1⟩] },
                     { is_final := 1, transitions_count := 0, transitions := [] }] }
        3 0 1 0 0 [0, 0, 0] 3 [] = some (buffer0, calls0) ∧
      ∀ e ∈ events,
        (∀ k, e = CollectEvent.call k → 0 ≤ k ∧ k ≤ 3 - 1) ∧
        (∀ i, e = CollectEvent.write i → i < 3) :=
  c40_collect_output_bounded
    { states_count := 2,
      states := [{ is_final := 0, transitions_count := 2,
                   transitions := [⟨97, 0⟩, ⟨124, 1⟩] },
                 { is_final := 1, transitions_count := 0, transitions := [] }] }
    (by unfold WellFormedMini; decide) 0
    { is_final := 0, transitions_count := 2, transitions := [⟨97, 0⟩, ⟨124, 1⟩] } rfl
    1 0 0 3 3 [0, 0, 0] [] (by decide) (by decide) (Or.inl (by decide))

end Morph

